import Mathlib

/-! # LearningPlanning: relational action-rule learner

A shallow embedding of the logic substrate (`Logic/Domain.h`, `Logic/Domain.cpp`),
of the rule engine (`Agents/LearningAgent/ActionRule.cpp`), of the reviser
(`Agents/LearningAgent/LearningAgent.cpp`) and of the belief updates of the explorer
(`Agents/LearningAgent/BayesianExplorer.cpp`).

Conventions of the embedding.

* `std::string` is `String`; `std::string::operator<` is `strLt`, the
  lexicographic order on the character codes.
* `std::set<T>` is the list of its elements in iteration order: `setInsert`
  is `std::set::insert` for the comparator of `T`, `setErase` is `erase`,
  `setUnion` is `operator+` of `Utils.h`, and `inList` is the linear scan
  `in(container, elem)` of `Utils.h`, which uses `operator==`.
* `std::map<Term, Term>` is the association list of its entries in key order
  (`Term::operator<` compares names only, so keys are unique by name).
* `assert` is a no-op, as in a build with `NDEBUG`.
* Indexing a vector past its end is undefined behaviour in the source; loops
  over two parameter vectors stop at the end of the shorter one, and the
  comparison of literals answers `false` when a parameter vector is shorter
  than the arity of the predicate.
* `shared_ptr<ActionRule>` is an index into an arena of rules.
* Random draws (`select_randomly`) read their outcome from an explicit list of
  numbers, one per draw.
* `float` is `ℚ` with exact arithmetic: rounding and NaN are not modelled. The
  function `powf` is an argument of the definitions that call it. The quotient
  `1.0f / components` of the constructors of `ActionRule`, whose divisor can be
  zero, is infinite then: `startPower` gives the power computed from it, and
  `none` stands for an infinite float. The other divisions are reached only
  with a divisor that the code has tested.
* A `std::map<K, float>` is the association list of its entries in key order.
  The necessity maps of a rule are computed and updated by functions of their
  own (`initNecessities`, `corroborateRule`) and are not fields of
  `ActionRule`, nor is the set `removedPreconditions` that is computed from
  them: no branch of the matching, generalisation or revision code reads them.
* Copying a set (`State(const State&)`) gives the same list.
-/

namespace LearningPlanning

/-! ## Utilities (`Utils.h`, `Utils.cpp`) -/

/-- Lexicographic order on lists of character codes. -/
def natListLt : List Nat → List Nat → Bool
  | [], [] => false
  | [], _ :: _ => true
  | _ :: _, [] => false
  | a :: as, b :: bs =>
    if a < b then true else if b < a then false else natListLt as bs

/-- The order `std::string::operator<`. -/
def strLt (a b : String) : Bool :=
  natListLt (a.data.map Char.toNat) (b.data.map Char.toNat)

/-- The function `varName` of `Utils.cpp`. -/
def varName (i : Nat) : String := "_V" ++ toString i

/-- Insertion into a `std::set` whose comparator is `lt`. -/
def setInsert {α : Type} (lt : α → α → Bool) (x : α) : List α → List α
  | [] => [x]
  | y :: ys =>
    if lt x y then x :: y :: ys
    else if lt y x then y :: setInsert lt x ys
    else y :: ys

/-- Removal `std::set::erase(key)`: drops the element equivalent to `x`. -/
def setErase {α : Type} (lt : α → α → Bool) (x : α) : List α → List α
  | [] => []
  | y :: ys => if !lt x y && !lt y x then ys else y :: setErase lt x ys

/-- Lookup `std::set::find(key) != end()`. -/
def setContains {α : Type} (lt : α → α → Bool) (x : α) (xs : List α) : Bool :=
  xs.any (fun y => !lt x y && !lt y x)

/-- The union `operator+` on sets: inserts every element of `b` into a copy of `a`. -/
def setUnion {α : Type} (lt : α → α → Bool) (a b : List α) : List α :=
  b.foldl (fun r x => setInsert lt x r) a

/-- The set built by inserting the elements of a vector one by one (`toSet`). -/
def toSet {α : Type} (lt : α → α → Bool) (xs : List α) : List α :=
  setUnion lt [] xs

/-- The linear scan `in(container, elem)`, which compares with `operator==`. -/
def inList {α : Type} (eq : α → α → Bool) (xs : List α) (x : α) : Bool :=
  xs.any (fun y => eq y x)

/-- The helper `insertUnique` on vectors. -/
def insertUnique {α : Type} (eq : α → α → Bool) (xs : List α) (x : α) : List α :=
  if inList eq xs x then xs else xs ++ [x]

/-- Ordered insertion, used for `std::sort` on vectors without equivalent elements. -/
def sortInsert {α : Type} (lt : α → α → Bool) (x : α) : List α → List α
  | [] => [x]
  | y :: ys => if lt x y then x :: y :: ys else y :: sortInsert lt x ys

/-- The call `std::sort(v.begin(), v.end())` with comparator `lt`. -/
def sortBy {α : Type} (lt : α → α → Bool) (xs : List α) : List α :=
  xs.foldr (sortInsert lt) []

/-! ## Types, terms, predicates, literals -/

/-- A `TermType`: a name and an optional parent (`base` has the null parent). -/
inductive TermType where
  | base (name : String)
  | child (name : String) (parent : TermType)
  deriving DecidableEq, Repr

/-- The field `name` of a type. -/
def TermType.name : TermType → String
  | .base n => n
  | .child n _ => n

/-- The method `TermType::subsumes`, with `other` non-null. -/
def TermType.subsumes (t : TermType) : TermType → Bool
  | .base n => t.name == n
  | .child n p => t.name == n || t.subsumes p

/-- The static method `TermType::typeSubsumes` on nullable types. -/
def typeSubsumes : Option TermType → Option TermType → Bool
  | none, _ => true
  | some _, none => false
  | some a, some b => a.subsumes b

/-- The function `getMostGeneralType`. -/
def TermType.root : TermType → TermType
  | .base n => .base n
  | .child _ p => p.root

/-- The function `getMostGeneralType` on nullable types. -/
def getMostGeneralType (t : Option TermType) : Option TermType :=
  t.map TermType.root

/-- A `Term`: a variable or a constant (instance), with an optional type. -/
structure Term where
  name : String
  isVariable : Bool
  type : Option TermType
  deriving DecidableEq, Repr

/-- The distinguished variable `Variable::anyVar()`. -/
def anyVar : Term := ⟨"ANY", true, none⟩

/-- The comparison `Term::operator==`. -/
def Term.eq (a b : Term) : Bool :=
  a.name == b.name ||
    (a.isVariable && b.isVariable && (a.name == anyVar.name || b.name == anyVar.name))

/-- The comparison `Term::operator!=`. -/
def Term.ne (a b : Term) : Bool := !(a.eq b)

/-- The order `Term::operator<`. -/
def Term.lt (a b : Term) : Bool := strLt a.name b.name

/-- A `Predicate`. -/
structure Predicate where
  name : String
  arity : Nat
  deriving DecidableEq, Repr

/-- The comparison `Predicate::operator==`. -/
def Predicate.eq (p q : Predicate) : Bool := p.name == q.name

/-- The order `Predicate::operator<`. -/
def Predicate.lt (p q : Predicate) : Bool := strLt p.name q.name

/-- A `Literal`. -/
structure Literal where
  pred : Predicate
  parameters : List Term
  positive : Bool
  deriving DecidableEq, Repr

/-- The loop of `Literal::operator==` over the first `n` parameters. -/
def paramsEq : Nat → List Term → List Term → Bool
  | 0, _, _ => true
  | n + 1, a :: as, b :: bs => if a.ne b then false else paramsEq n as bs
  | _ + 1, _, _ => false

/-- The loop of `Literal::operator<` over the first `n` parameters. -/
def paramsLt : Nat → List Term → List Term → Bool
  | 0, _, _ => false
  | n + 1, a :: as, b :: bs => if a.ne b then a.lt b else paramsLt n as bs
  | _ + 1, _, _ => false

/-- The comparison `Literal::operator==`. -/
def Literal.eq (l o : Literal) : Bool :=
  if l.positive != o.positive then false
  else if !(l.pred.eq o.pred) then false
  else paramsEq l.pred.arity l.parameters o.parameters

/-- The order `Literal::operator<`. -/
def Literal.lt (l o : Literal) : Bool :=
  if l.positive && !o.positive then true
  else if !l.positive && o.positive then false
  else if !(l.pred.eq o.pred) then l.pred.lt o.pred
  else paramsLt l.pred.arity l.parameters o.parameters

/-- The negation `Literal::operator-`. -/
def Literal.neg (l : Literal) : Literal := ⟨l.pred, l.parameters, !l.positive⟩

/-- The method `Literal::grounded`. -/
def Literal.grounded (l : Literal) : Bool := l.parameters.all (fun p => !p.isVariable)

/-- The static method `Literal::compatible`. -/
def Literal.compatible (l1 l2 : Literal) : Bool :=
  l1.pred.eq l2.pred && (l1.positive == l2.positive)

/-! ## Substitutions -/

/-- Equivalence of two keys of a `std::map<Term, Term>` under its comparator. -/
def keyEquiv (a b : Term) : Bool := !a.lt b && !b.lt a

/-- The assignment `mapping[k] = v` on a `std::map<Term, Term>`. -/
def mapSet (k v : Term) : List (Term × Term) → List (Term × Term)
  | [] => [(k, v)]
  | (k1, v1) :: rest =>
    if k.lt k1 then (k, v) :: (k1, v1) :: rest
    else if k1.lt k then (k1, v1) :: mapSet k v rest
    else (k1, v) :: rest

/-- The lookup `mapping.find(k)`. -/
def mapFind (k : Term) (m : List (Term × Term)) : Option (Term × Term) :=
  m.find? (fun p => keyEquiv p.1 k)

/-- The removal `mapping.erase(k)`. -/
def mapErase (k : Term) : List (Term × Term) → List (Term × Term)
  | [] => []
  | (k1, v1) :: rest => if keyEquiv k1 k then rest else (k1, v1) :: mapErase k rest

/-- A `Substitution`: a mapping and the flag `injective`. -/
structure Substitution where
  mapping : List (Term × Term)
  injective : Bool
  deriving DecidableEq, Repr

/-- The default substitution `Substitution()`: empty and injective. -/
def Substitution.empty : Substitution := ⟨[], true⟩

/-- The method `Substitution::get`. -/
def Substitution.get (s : Substitution) (k : Term) : Option Term :=
  (mapFind k s.mapping).map (fun p => p.2)

/-- The method `Substitution::getInverse`: the first key, in key order, whose image is `v`. -/
def Substitution.getInverse (s : Substitution) (v : Term) : Option Term :=
  (s.mapping.find? (fun p => p.2.eq v)).map (fun p => p.1)

/-- The method `Substitution::contains`. -/
def Substitution.contains (s : Substitution) (k : Term) : Bool :=
  (mapFind k s.mapping).isSome

/-- The method `Substitution::set` (its assertion of injectivity is not checked). -/
def Substitution.set (s : Substitution) (k v : Term) : Substitution :=
  ⟨mapSet k v s.mapping, s.injective⟩

/-- The method `Substitution::setSafe`: the returned flag and the updated substitution. -/
def Substitution.setSafe (s : Substitution) (k v : Term) (onlyVar : Bool) :
    Bool × Substitution :=
  if k.eq v then (true, s)
  else if onlyVar && !k.isVariable then (false, s)
  else
    match s.get k with
    | some w => (w.eq v, s)
    | none =>
      if s.injective && (s.getInverse v).isSome then (false, s)
      else (true, s.set k v)

/-- The method `Substitution::setSafeMultiple`: every position is attempted, the flag is
the conjunction of the single results. -/
def Substitution.setSafeMultiple (s : Substitution) :
    List Term → List Term → Bool → Bool × Substitution
  | k :: ks, v :: vs, onlyVars =>
    let r := s.setSafe k v onlyVars
    let r2 := r.2.setSafeMultiple ks vs onlyVars
    (r.1 && r2.1, r2.2)
  | _, _, _ => (true, s)

/-- The method `Substitution::remove`. -/
def Substitution.remove (s : Substitution) (k : Term) : Substitution :=
  if s.contains k then ⟨mapErase k s.mapping, s.injective⟩ else s

/-- The method `Substitution::apply(Term)`. -/
def Substitution.applyTerm (s : Substitution) (t : Term) : Term :=
  match s.get t with
  | some v => v
  | none => t

/-- The method `Substitution::apply(Literal)`: a single pass over the parameters. -/
def Substitution.apply (s : Substitution) (l : Literal) : Literal :=
  ⟨l.pred, l.parameters.map s.applyTerm, l.positive⟩

/-- The method `Substitution::apply(std::set<Literal>)`. -/
def Substitution.applySet (s : Substitution) (ls : List Literal) : List Literal :=
  ls.foldl (fun r l => setInsert Literal.lt (s.apply l) r) []

/-- The method `Substitution::inverse`. -/
def Substitution.inverse (s : Substitution) : Substitution :=
  s.mapping.foldl (fun inv p => inv.set p.2 p.1) ⟨[], true⟩

/-- The method `Substitution::cleanConstants`. -/
def Substitution.cleanConstants (s : Substitution) : Substitution :=
  let toRem := (s.mapping.filter (fun p => p.1.eq p.2)).foldl
    (fun r p => setInsert Term.lt p.1 r) []
  toRem.foldl (fun r k => r.remove k) s

/-- The comparison `Substitution::operator==`. -/
def Substitution.eq (s o : Substitution) : Bool :=
  if s.injective != o.injective then false
  else if s.mapping.length != o.mapping.length then false
  else s.mapping.all (fun a =>
    match mapFind a.1 o.mapping with
    | none => false
    | some b => !(b.2.ne a.2))

/-- The loop over the sorted keys in `Substitution::operator<`. -/
def subLtKeys (s o : Substitution) : List Term → Bool
  | [] => false
  | k :: ks =>
    match s.get k, o.get k with
    | none, _ => true
    | some _, none => false
    | some v1, some v2 => if v1.ne v2 then v1.lt v2 else subLtKeys s o ks

/-- The order `Substitution::operator<`. -/
def Substitution.lt (s o : Substitution) : Bool :=
  if s.injective && !o.injective then true
  else if !s.injective && o.injective then false
  else if s.mapping.length != o.mapping.length then
    decide (s.mapping.length < o.mapping.length)
  else
    let keys := (s.mapping ++ o.mapping).foldl (fun ks p => insertUnique Term.eq ks p.1) []
    subLtKeys s o (sortBy Term.lt keys)

/-- The method `Substitution::getUncovered`: the elements of `parameters` that are not keys
of the mapping. -/
def Substitution.getUncovered (s : Substitution) (parameters : List Term) : List Term :=
  parameters.foldl (fun uncovered it =>
    if (mapFind it s.mapping).isNone then setInsert Term.lt it uncovered else uncovered) []

/-- One round of the outer loop of `Substitution::expandUncovered`, for the element
`fromit`: every substitution of `prevSubs` is extended by every admissible target. -/
def expandRound (tgt : List Term) (fromit : Term) (prevSubs : List Substitution) :
    List Substitution :=
  prevSubs.foldl (fun generated sit =>
    tgt.foldl (fun generated toit =>
      if !(sit.getInverse toit).isSome && typeSubsumes fromit.type toit.type then
        generated ++ [sit.set fromit toit]
      else generated) generated) []

/-- The method `Substitution::expandUncovered` on two sets of terms. -/
def Substitution.expandUncovered (s : Substitution) (frm tgt : List Term)
    (skipConstants : Bool) : List Substitution :=
  (s.getUncovered frm).foldl (fun generated fromit =>
    if fromit.isVariable || !skipConstants then expandRound tgt fromit generated
    else generated) [s]

/-- The method `Substitution::merge`; `other.contains(to1)` and `other.get(to1)` are the
same lookup. -/
def Substitution.merge (s other : Substitution) : Substitution :=
  s.mapping.foldl (fun result p =>
    match other.get p.2 with
    | some to2 => if to2.ne p.1 then result.set p.1 to2 else result
    | none => result.set p.1 p.2) ⟨other.mapping, false⟩

/-- The parameter loop of `Substitution::unify`: the returned flag and the substitution
as the loop leaves it. -/
def unifyParams (sub : Substitution) : List Term → List Term → Bool × Substitution
  | fromAtomSave :: fs, toAtomSave :: ts =>
    let fromAtom := sub.applyTerm fromAtomSave
    let toAtom := sub.applyTerm toAtomSave
    if fromAtom.eq toAtom then unifyParams sub fs ts
    else if fromAtom.isVariable && !toAtom.isVariable then
      unifyParams ((sub.set fromAtom toAtom).set fromAtomSave toAtom) fs ts
    else if toAtom.isVariable && !fromAtom.isVariable then
      unifyParams ((sub.set toAtom fromAtom).set toAtomSave fromAtom) fs ts
    else if fromAtom.isVariable && toAtom.isVariable then
      unifyParams ((sub.set fromAtom toAtom).set fromAtomSave toAtom) fs ts
    else (false, sub)
  | _, _ => (true, sub)

/-- The method `Substitution::unify`: the returned flag and the updated substitution. -/
def Substitution.unify (s : Substitution) (frm tgt : Literal) : Bool × Substitution :=
  if !(frm.pred.eq tgt.pred) then (false, s)
  else if frm.parameters.length != tgt.parameters.length then (false, s)
  else unifyParams ⟨s.mapping, false⟩ frm.parameters tgt.parameters

/-- The parameter loop of `Substitution::oiSubsume` for one literal of `dst`: the extended
substitution, or `none` when `couldMatch` is cleared. -/
def oiMatchParams (sub : Substitution) : List Term → List Term → Option Substitution
  | [], _ => some sub
  | _ :: _, [] => some sub
  | srcParam :: ss, dstParam :: ds =>
    if srcParam.eq dstParam then oiMatchParams sub ss ds
    else if srcParam.isVariable && !(sub.get srcParam).isSome &&
        !(sub.getInverse dstParam).isSome then
      oiMatchParams (sub.set srcParam dstParam) ss ds
    else none

/-- The method `Substitution::oiSubsume` on the vector `source` given from its back: the
head of the list is `source.back()`. -/
def oiSubsumeBack (dst : List Literal) : List Literal → Substitution → List Substitution
  | [], s => [s]
  | l :: source, s =>
    dst.foldl (fun subs d =>
      if !(d.pred.eq (s.apply l).pred) then subs
      else
        match oiMatchParams s (s.apply l).parameters d.parameters with
        | none => subs
        | some sub => setUnion Substitution.lt subs (oiSubsumeBack dst source sub)) []

/-- The method `Substitution::oiSubsume(vector<Literal>, set<Literal>)`. -/
def Substitution.oiSubsume (s : Substitution) (source dst : List Literal) :
    List Substitution :=
  oiSubsumeBack dst source.reverse s

/-! ## States -/

/-- The parameter loop of `State::query`. -/
def queryCorresponds : List Term → List Term → Bool
  | s :: ss, c :: cs =>
    if !s.isVariable && s.ne c then false
    else if s.isVariable && !typeSubsumes s.type c.type then false
    else queryCorresponds ss cs
  | _, _ => true

/-- The method `State::query` on the set of facts of the state. -/
def query (facts : List Literal) (searchFor : Literal) : List Literal :=
  facts.filter (fun current =>
    current.pred.eq searchFor.pred &&
    (current.parameters.length == searchFor.parameters.length) &&
    queryCorresponds searchFor.parameters current.parameters)

/-- The method `State::contains`. -/
def stateContains (facts : List Literal) (fact : Literal) : Bool :=
  setContains Literal.lt fact facts

/-! ## Action rules: matching (`ActionRule.cpp`) -/

/-- An `ActionRule`; `parents` holds arena indices. -/
structure ActionRule where
  preconditions : List Literal
  actionLiteral : Literal
  add : List Literal
  del : List Literal
  parents : List Nat
  parameters : List Term
  deriving DecidableEq, Repr

/-- One round of the outer loop of `unifyWithState`: the set `nextSubs` built for the
literal `f` from the current set `subs`. -/
def unifyStep (s : List Literal) (f : Literal) (subs : List Substitution) :
    List Substitution :=
  subs.foldl (fun nextSubs sub =>
    let subbed := sub.apply f
    let q := query s subbed
    if q.length == 0 then nextSubs
    else if subbed.grounded then setInsert Substitution.lt sub nextSubs
    else q.foldl (fun ns qf =>
      let r := sub.setSafeMultiple subbed.parameters qf.parameters true
      if r.1 then setInsert Substitution.lt r.2 ns else ns) nextSubs) []

/-- The function `unifyWithState`: the final value of the reference parameter `subs`. -/
def unifyWithState : List Literal → List Literal → List Substitution → List Substitution
  | [], _, subs => subs
  | f :: fs, s, subs =>
    let nextSubs := unifyStep s f subs
    if nextSubs.length == 0 then [] else unifyWithState fs s nextSubs

/-- Inserts the non-variable terms of a parameter vector into a set of terms. -/
def addConstants (params : List Term) (acc : List Term) : List Term :=
  params.foldl (fun r p => if !p.isVariable then setInsert Term.lt p r else r) acc

/-- Inserts the non-variable parameters of every literal of a set into a set of terms. -/
def addConstantsOfSet (lits : List Literal) (acc : List Term) : List Term :=
  lits.foldl (fun r l => addConstants l.parameters r) acc

/-- The final loop of the matching functions: cleans every substitution. -/
def cleanSubs (subs : List Substitution) : List Substitution :=
  subs.foldl (fun clean s => setInsert Substitution.lt s.cleanConstants clean) []

/-- The method `ActionRule::prematchingSubs`. -/
def ActionRule.prematchingSubs (r x : ActionRule) (sub : Substitution) :
    List Substitution :=
  if !Literal.compatible r.actionLiteral x.actionLiteral then []
  else
    let constants :=
      addConstantsOfSet r.preconditions (addConstants r.actionLiteral.parameters [])
    let sub1 := constants.foldl
      (fun s c => if !(s.get c).isSome then s.set c c else s) sub
    let r1 := sub1.setSafeMultiple r.actionLiteral.parameters x.actionLiteral.parameters true
    if !r1.1 then []
    else cleanSubs (unifyWithState r.preconditions x.preconditions [r1.2])

/-- The method `ActionRule::prematches`. -/
def ActionRule.prematches (r x : ActionRule) (sub : Substitution) : Bool :=
  (r.prematchingSubs x sub).length == 1

/-- The method `ActionRule::postmatchingSubs`. -/
def ActionRule.postmatchingSubs (r x : ActionRule) (sub : Substitution) :
    List Substitution :=
  if !Literal.compatible r.actionLiteral x.actionLiteral then []
  else
    let s := setUnion Literal.lt x.add x.del
    if r.add.length != x.add.length || r.del.length != x.del.length then []
    else
      let constants := addConstantsOfSet r.del
        (addConstantsOfSet r.add (addConstants r.actionLiteral.parameters []))
      let sub1 := constants.foldl
        (fun s c => if !(s.get c).isSome && !(s.getInverse c).isSome then s.set c c else s)
        sub
      let r1 :=
        sub1.setSafeMultiple r.actionLiteral.parameters x.actionLiteral.parameters true
      if !r1.1 then []
      else cleanSubs (unifyWithState (setUnion Literal.lt r.add r.del) s [r1.2])

/-- The method `ActionRule::postmatches`. -/
def ActionRule.postmatches (r x : ActionRule) (sub : Substitution) : Bool :=
  decide ((r.postmatchingSubs x sub).length > 0)

/-- The method `ActionRule::coveringSubs`. -/
def ActionRule.coveringSubs (r x : ActionRule) (sub : Substitution) : List Substitution :=
  (r.prematchingSubs x sub).foldl
    (fun covSubs pre => setUnion Substitution.lt covSubs (r.postmatchingSubs x pre)) []

/-- The method `ActionRule::covers`. -/
def ActionRule.covers (r x : ActionRule) (sub : Substitution) : Bool :=
  decide ((r.coveringSubs x sub).length > 0)

/-- The method `ActionRule::contradicts`. -/
def ActionRule.contradicts (r x : ActionRule) : Bool :=
  let subs := r.prematchingSubs x Substitution.empty
  if subs.length > 0 then subs.any (fun sub => !r.postmatches x sub) else false

/-! ## Action rules: construction and well-formedness -/

/-- The value `links[k]` of a `std::map<Term, std::set<Term>>` (empty when absent). -/
def linksGet (links : List (Term × List Term)) (k : Term) : List Term :=
  match links.find? (fun p => keyEquiv p.1 k) with
  | some p => p.2
  | none => []

/-- The assignment `links[k] = v`. -/
def linksSet (k : Term) (v : List Term) : List (Term × List Term) → List (Term × List Term)
  | [] => [(k, v)]
  | (k1, v1) :: rest =>
    if k.lt k1 then (k, v) :: (k1, v1) :: rest
    else if k1.lt k then (k1, v1) :: linksSet k v rest
    else (k1, v) :: rest

/-- The test `in(links, k)` on a map, which is `links.find(k) != links.end()`. -/
def linksHas (links : List (Term × List Term)) (k : Term) : Bool :=
  (links.find? (fun p => keyEquiv p.1 k)).isSome

/-- The function `varOccurs`. -/
def varOccurs (var : Term) (literals : List Literal) : Bool :=
  literals.any (fun l => inList Term.eq l.parameters var)

/-- The inner loop of `linked` over `links[current]`: `none` when it returns `true`,
otherwise the updated set `toVisit`. -/
def linkedScan (dst visited : List Term) : List Term → List Term → Option (List Term)
  | [], toVisit => some toVisit
  | n :: ns, toVisit =>
    if inList Term.eq visited n then linkedScan dst visited ns toVisit
    else if inList Term.eq dst n then none
    else linkedScan dst visited ns (setInsert Term.lt n toVisit)

/-- The `while` loop of `linked`; every round moves one term from `toVisit` to `visited`,
and the first argument bounds the number of rounds. -/
def linkedLoop (links : List (Term × List Term)) (dst : List Term) :
    Nat → List Term → List Term → Bool
  | 0, _, _ => false
  | _ + 1, [], _ => false
  | fuel + 1, current :: rest, visited =>
    let visited1 := setInsert Term.lt current visited
    match linkedScan dst visited1 (linksGet links current) rest with
    | none => true
    | some toVisit1 => linkedLoop links dst fuel toVisit1 visited1

/-- The function `linked`: is `src` connected through `links` to a term of `dst`? The
loop runs at most once per term occurring in `links`, plus once for `src`. -/
def linked (links : List (Term × List Term)) (src : Term) (dst : List Term) : Bool :=
  if inList Term.eq dst src then true
  else linkedLoop links dst (1 + links.length + (links.map (fun p => p.2.length)).sum)
    [src] []

/-- The co-occurrence map built by the filtering constructors: for every parameter of
every precondition, the other parameters of the same precondition. -/
def buildLinks (preconds : List Literal) : List (Term × List Term) :=
  preconds.foldl (fun links precond =>
    precond.parameters.foldl (fun links pit1 =>
      let links1 := if !linksHas links pit1 then linksSet pit1 [] links else links
      precond.parameters.foldl (fun links pit2 =>
        if pit1.ne pit2 then linksSet pit1 (setInsert Term.lt pit2 (linksGet links pit1)) links
        else links) links1) links) []

/-- The method `ActionRule::extractParameters`, as the resulting vector. -/
def extractParameters (actionLiteral : Literal) (preconditions add del : List Literal) :
    List Term :=
  let params := setUnion Term.lt [] actionLiteral.parameters
  let params := preconditions.foldl (fun r l => setUnion Term.lt r l.parameters) params
  let params := add.foldl (fun r l => setUnion Term.lt r l.parameters) params
  del.foldl (fun r l => setUnion Term.lt r l.parameters) params

/-- The preconditions kept by the filtering constructor: those whose parameters are all
linked to a parameter of an effect or of the action literal. -/
def filterPreconditions (inPreconditions : List Literal) (actionLiteral : Literal)
    (add del : List Literal) : List Literal :=
  let links := buildLinks inPreconditions
  let vars := add.foldl (fun r l => setUnion Term.lt r l.parameters) []
  let vars := del.foldl (fun r l => setUnion Term.lt r l.parameters) vars
  let vars := setUnion Term.lt vars actionLiteral.parameters
  inPreconditions.foldl (fun pre precond =>
    if precond.parameters.all (fun param => linked links param vars) then
      setInsert Literal.lt precond pre
    else pre) []

/-- The constructor `ActionRule(inPreconditions, inActionLiteral, inAdd, inDel, inParents,
startPu, filter)`. -/
def ActionRule.make (inPreconditions : List Literal) (inActionLiteral : Literal)
    (inAdd inDel : List Literal) (inParents : List Nat) (filter : Bool) : ActionRule :=
  let preconditions :=
    if filter then filterPreconditions inPreconditions inActionLiteral inAdd inDel
    else inPreconditions
  ⟨preconditions, inActionLiteral, inAdd, inDel, inParents,
    extractParameters inActionLiteral preconditions inAdd inDel⟩

/-- The set `linkTarget` of `wellFormed`: the parameters of the action literal, of the
delete effects and of the add effects. -/
def linkTargetOf (r : ActionRule) : List Term :=
  let t := toSet Term.lt r.actionLiteral.parameters
  let t := r.del.foldl (fun t d => d.parameters.foldl (fun t p => setInsert Term.lt p t) t) t
  r.add.foldl (fun t a => a.parameters.foldl (fun t p => setInsert Term.lt p t) t) t

/-- The set `addVars` of `wellFormed`: the parameters of the add effects. -/
def addVarsOf (r : ActionRule) : List Term :=
  r.add.foldl (fun t a => a.parameters.foldl (fun t p => setInsert Term.lt p t) t) []

/-- The pair `(vars, links)` built by the last block of `wellFormed`. -/
def wellFormedLinks (preconds : List Literal) : List Term × List (Term × List Term) :=
  preconds.foldl (fun st precond =>
    precond.parameters.foldl (fun st pit1 =>
      let st1 : List Term × List (Term × List Term) :=
        if !inList Term.eq st.1 pit1 then (setInsert Term.lt pit1 st.1, linksSet pit1 [] st.2)
        else st
      precond.parameters.foldl (fun st pit2 =>
        if pit1.ne pit2 then
          (st.1, linksSet pit1 (setInsert Term.lt pit2 (linksGet st.2 pit1)) st.2)
        else st) st1) st) ([], [])

/-- The method `ActionRule::wellFormed`. -/
def ActionRule.wellFormed (r : ActionRule) : Bool :=
  if r.del.any (fun d => !inList Literal.eq r.preconditions d.neg) then false
  else if r.add.any (fun a => inList Literal.eq r.preconditions a) then false
  else if (addVarsOf r).any (fun v => !varOccurs v r.preconditions) then false
  else
    let vl := wellFormedLinks r.preconditions
    vl.1.all (fun v => linked vl.2 v (linkTargetOf r))

/-! ## Action rules: generalisation -/

/-- The search loop of `getFreeParameterId`: the first identifier, from `id` on, whose
name is not in `names`; the first argument bounds the number of rounds. -/
def freeIdFrom (names : List String) : Nat → Nat → Nat
  | 0, id => id
  | fuel + 1, id =>
    if names.contains (varName id) then freeIdFrom names fuel (id + 1) else id

/-- The method `ActionRule::getFreeParameterId`: at most one round per name to avoid. -/
def ActionRule.getFreeParameterId (r : ActionRule) (blackList : List Term) : Nat :=
  let names := (r.parameters ++ blackList).map (fun t => t.name)
  freeIdFrom names names.length 1

/-- The method `ActionRule::makeNewVar`: the new variable and the updated `genVars`. -/
def ActionRule.makeNewVar (r : ActionRule) (genVars : List Term) (param : Term) :
    Term × List Term :=
  let var : Term := ⟨varName (r.getFreeParameterId genVars), true, getMostGeneralType param.type⟩
  (var, setInsert Term.lt var genVars)

/-- The local state of the loop of `generalizeLiteralsOI`. -/
structure GenState where
  theta1 : Substitution
  theta2 : Substitution
  genVars : List Term
  params : List Term
  deriving DecidableEq, Repr

/-- One round of the loop of `generalizeLiteralsOI`; `none` when `stop` is set. -/
def ActionRule.genLitStep (r : ActionRule) (term1 term2 : Term) (st : GenState) :
    Option GenState :=
  let invTerm1 := st.theta1.getInverse term1
  let genTerm1 := invTerm1.getD term1
  let invTerm2 := st.theta2.getInverse term2
  let genTerm2 := invTerm2.getD term2
  if genTerm1.eq genTerm2 then
    if !genTerm1.isVariable then
      let v := r.makeNewVar st.genVars term1
      some ⟨st.theta1.set v.1 term1, st.theta2.set v.1 term2, v.2, st.params ++ [v.1]⟩
    else some ⟨st.theta1, st.theta2, st.genVars, st.params ++ [genTerm1]⟩
  else
    if (match invTerm1 with | some o => o.eq term1 | none => false) ||
        (match invTerm2 with | some o => o.eq term2 | none => false) then none
    else if genTerm1.isVariable && genTerm2.isVariable then none
    else if genTerm1.isVariable then
      if !(st.theta2.get genTerm1).isSome then
        let t1 := if !(st.theta1.get genTerm1).isSome then st.theta1.set genTerm1 genTerm1
          else st.theta1
        some ⟨t1, st.theta2.set genTerm1 term2, st.genVars, st.params ++ [genTerm1]⟩
      else none
    else if genTerm2.isVariable then
      if !(st.theta1.get genTerm2).isSome then
        let t2 := if !(st.theta2.get genTerm2).isSome then st.theta2.set genTerm2 genTerm2
          else st.theta2
        some ⟨st.theta1.set genTerm2 term1, t2, st.genVars, st.params ++ [genTerm2]⟩
      else none
    else
      let v := r.makeNewVar st.genVars term1
      some ⟨st.theta1.set v.1 term1, st.theta2.set v.1 term2, v.2, st.params ++ [v.1]⟩

/-- The loop of `generalizeLiteralsOI` over the parameter positions. -/
def ActionRule.genLitLoop (r : ActionRule) : List Term → List Term → GenState → Option GenState
  | t1 :: ts1, t2 :: ts2, st =>
    match r.genLitStep t1 t2 st with
    | none => none
    | some st1 => r.genLitLoop ts1 ts2 st1
  | _, _, st => some st

/-- The result of `generalizeLiteralsOI`: the returned literal and the final values of the
reference parameters `genVars`, `theta1` and `theta2`. -/
structure GenResult where
  lit : Option Literal
  genVars : List Term
  theta1 : Substitution
  theta2 : Substitution
  deriving DecidableEq, Repr

/-- The method `ActionRule::generalizeLiteralsOI` (algorithm LIT-GEN-OI). -/
def ActionRule.generalizeLiteralsOI (r : ActionRule) (l1 l2 : Literal) (genVars : List Term)
    (theta1 theta2 : Substitution) : GenResult :=
  if !Literal.compatible l1 l2 then ⟨none, genVars, theta1, theta2⟩
  else
    match r.genLitLoop l1.parameters l2.parameters ⟨theta1, theta2, genVars, []⟩ with
    | none => ⟨none, genVars, theta1, theta2⟩
    | some st => ⟨some ⟨l1.pred, st.params, l1.positive⟩, st.genVars, st.theta1, st.theta2⟩

/-- The helper `select_randomly` on a non-empty container `x :: xs`: the drawn element
and the remaining outcomes. The head of `rnd` is the outcome of the draw. -/
def selectRandomly {α : Type} (x : α) (xs : List α) (rnd : List Nat) : α × List Nat :=
  ((x :: xs).getD (rnd.headD 0 % (xs.length + 1)) x, rnd.tail)

/-- The reference parameters shared by `selection`, `anyGeneralization` and the exact
generalisation. -/
structure SelState where
  subr : Substitution
  subx : Substitution
  genVars : List Term
  genLits : List Literal
  deriving DecidableEq, Repr

/-- The outcome of `selection`: the returned flag, the reference parameters, the last
values of `chosenLr` and `chosenLx`, and the remaining random outcomes. -/
structure SelResult where
  ok : Bool
  st : SelState
  chosenLr : Literal
  chosenLx : Literal
  rnd : List Nat
  deriving DecidableEq, Repr

/-- The inner `while` loop of `selection` over `drawLx`, which loses one element per
round; the first argument bounds the number of rounds. -/
def ActionRule.selectionLx (r x : ActionRule) (genAct : Literal) (genAdd genDel : List Literal)
    (chosenLr : Literal) (st : SelState) :
    Nat → List Literal → Literal → List Nat → SelResult
  | 0, _, chosenLx, rnd => ⟨false, st, chosenLr, chosenLx, rnd⟩
  | _ + 1, [], chosenLx, rnd => ⟨false, st, chosenLr, chosenLx, rnd⟩
  | fuel + 1, d :: ds, _, rnd =>
    let c := selectRandomly d ds rnd
    let drawLx := setErase Literal.lt c.1 (d :: ds)
    let g := r.generalizeLiteralsOI chosenLr c.1 st.genVars st.subr st.subx
    match g.lit with
    | none => r.selectionLx x genAct genAdd genDel chosenLr st fuel drawLx c.1 c.2
    | some genLit =>
      let newGenLits := setUnion Literal.lt st.genLits [genLit]
      let actRule := ActionRule.make newGenLits genAct genAdd genDel r.parents false
      if actRule.prematches x g.theta2 then
        ⟨true, ⟨g.theta1, g.theta2, g.genVars, newGenLits⟩, chosenLr, c.1, c.2⟩
      else r.selectionLx x genAct genAdd genDel chosenLr st fuel drawLx c.1 c.2

/-- The outer `while` loop of `selection` over `drawLr`. -/
def ActionRule.selectionLr (r x : ActionRule) (genAct : Literal) (genAdd genDel : List Literal)
    (lx : List Literal) (st : SelState) :
    Nat → List Literal → Literal → Literal → List Nat → SelResult
  | 0, _, chosenLr, chosenLx, rnd => ⟨false, st, chosenLr, chosenLx, rnd⟩
  | _ + 1, [], chosenLr, chosenLx, rnd => ⟨false, st, chosenLr, chosenLx, rnd⟩
  | fuel + 1, d :: ds, _, chosenLx, rnd =>
    let c := selectRandomly d ds rnd
    let drawLr := setErase Literal.lt c.1 (d :: ds)
    let drawLx := lx.foldl
      (fun s l => if Literal.compatible c.1 l then setInsert Literal.lt l s else s) []
    let res := r.selectionLx x genAct genAdd genDel c.1 st drawLx.length drawLx chosenLx c.2
    if res.ok then res
    else r.selectionLr x genAct genAdd genDel lx st fuel drawLr c.1 res.chosenLx res.rnd

/-- The method `ActionRule::selection` (algorithm SELECTION). -/
def ActionRule.selection (r x : ActionRule) (lr lx : List Literal) (st : SelState)
    (chosenLr chosenLx : Literal) (rnd : List Nat) : SelResult :=
  let invSubR := st.subr.inverse
  r.selectionLr x (invSubR.apply r.actionLiteral) (invSubR.applySet r.add)
    (invSubR.applySet r.del) lx st lr.length lr chosenLr chosenLx rnd

/-- The `while` loop of `anyGeneralization`: `lr` loses one literal per round. -/
def ActionRule.anyGeneralizationLoop (r x : ActionRule) :
    Nat → List Literal → List Literal → SelState → Literal → Literal → List Nat →
      SelState × List Nat
  | 0, _, _, st, _, _, rnd => (st, rnd)
  | fuel + 1, lr, lx, st, chosenLr, chosenLx, rnd =>
    if lr.length > 0 && lx.length > 0 then
      let res := r.selection x lr lx st chosenLr chosenLx rnd
      let lx1 := if res.ok then setErase Literal.lt res.chosenLx lx else lx
      r.anyGeneralizationLoop x fuel (setErase Literal.lt res.chosenLr lr) lx1 res.st
        res.chosenLr res.chosenLx res.rnd
    else (st, rnd)

/-- The default literal `Literal()`. -/
def Literal.default : Literal := ⟨⟨"None", 0⟩, [], true⟩

/-- The method `ActionRule::anyGeneralization` (algorithm UNE-GEN-OI) on explicit sets
`lr` and `lx`; the field `genLits` of the result is the returned set. -/
def ActionRule.anyGeneralizationOn (r x : ActionRule) (lr lx : List Literal)
    (subr subx : Substitution) (genVars : List Term) (rnd : List Nat) :
    SelState × List Nat :=
  r.anyGeneralizationLoop x lr.length lr lx ⟨subr, subx, genVars, []⟩
    Literal.default Literal.default rnd

/-- The method `ActionRule::anyGeneralization(x, subr, subx, genVars)`. -/
def ActionRule.anyGeneralization (r x : ActionRule) (subr subx : Substitution)
    (genVars : List Term) (rnd : List Nat) : SelState × List Nat :=
  r.anyGeneralizationOn x (subr.inverse.applySet r.preconditions)
    (subx.inverse.applySet x.preconditions) subr subx genVars rnd

/-- The shuffling loop of the exact generalisation: draws the elements of a set one by
one, keeping those that satisfy `keep`. -/
def shuffleKeep {α : Type} (lt : α → α → Bool) (keep : α → Bool) :
    Nat → List α → List Nat → List α × List Nat
  | 0, _, rnd => ([], rnd)
  | _ + 1, [], rnd => ([], rnd)
  | fuel + 1, d :: ds, rnd =>
    let c := selectRandomly d ds rnd
    let rest := shuffleKeep lt keep fuel (setErase lt c.1 (d :: ds)) c.2
    (if keep c.1 then c.1 :: rest.1 else rest.1, rest.2)

/-- The method `ActionRule::exactGeneralizationLxChoice`, where `recurse` stands for the
call of `exactGeneralizationLrChoice`. -/
def ActionRule.exactGeneralizationLxChoice (r : ActionRule)
    (recurse : List Literal → List Literal → SelState → List Nat → Bool × SelState × List Nat)
    (chosenLr : Literal) (lr lx : List Literal) (st : SelState) (rnd : List Nat) :
    Bool × SelState × List Nat :=
  let sh := shuffleKeep Literal.lt (fun l => Literal.compatible l chosenLr) lx.length lx rnd
  sh.1.foldl (fun acc chosenLx =>
    if acc.1 then acc
    else
      let tmpLx := setErase Literal.lt chosenLx lx
      let g := r.generalizeLiteralsOI chosenLr chosenLx st.genVars st.subr st.subx
      match g.lit with
      | none => acc
      | some genLit =>
        let res := recurse lr tmpLx
          ⟨g.theta1, g.theta2, g.genVars, setUnion Literal.lt st.genLits [genLit]⟩ acc.2.2
        if res.1 then res else (false, st, res.2.2)) (false, st, sh.2)

/-- The method `ActionRule::exactGeneralizationLrChoice` (EXACT-GEN); `lr` loses one
literal per level of recursion, and the first argument bounds the depth. -/
def ActionRule.exactGeneralizationLrChoice (r : ActionRule) :
    Nat → List Literal → List Literal → SelState → List Nat → Bool × SelState × List Nat
  | 0, lr, _, st, rnd => (lr.length == 0, st, rnd)
  | fuel + 1, lr, lx, st, rnd =>
    if lr.length == 0 then (true, st, rnd)
    else
      let sh := shuffleKeep Literal.lt (fun _ => true) lr.length lr rnd
      sh.1.foldl (fun acc chosenLr =>
        if acc.1 then acc
        else
          let tmpLr := setErase Literal.lt chosenLr (toSet Literal.lt sh.1)
          let res := r.exactGeneralizationLxChoice (r.exactGeneralizationLrChoice fuel)
            chosenLr tmpLr lx st acc.2.2
          if res.1 then res else (false, st, res.2.2)) (false, st, sh.2)

/-- The closing loops of `postGeneralizes`: every parameter without a preimage is
mapped to itself. -/
def closeSub (sub : Substitution) (params : List Term) : Substitution :=
  params.foldl (fun s p => if !(s.getInverse p).isSome then s.set p p else s) sub

/-- The closing loops of `postGeneralizes` over a set of literals. -/
def closeSubSet (sub : Substitution) (lits : List Literal) : Substitution :=
  lits.foldl (fun s l => closeSub s l.parameters) sub

/-- The method `ActionRule::postGeneralizes` (algorithm POST-GENERALIZATION): the returned
flag, the final `subr`, `subx`, `genVars`, and the remaining random outcomes. -/
def ActionRule.postGeneralizes (r x : ActionRule) (subr subx : Substitution)
    (genVars : List Term) (rnd : List Nat) :
    Bool × Substitution × Substitution × List Term × List Nat :=
  if r.add.length != x.add.length || r.del.length != x.del.length then
    (false, subr, subx, genVars, rnd)
  else
    let genAct := r.generalizeLiteralsOI r.actionLiteral x.actionLiteral genVars subr subx
    match genAct.lit with
    | none => (false, genAct.theta1, genAct.theta2, genAct.genVars, rnd)
    | some _ =>
      let lr := setUnion Literal.lt r.add r.del
      let res := r.exactGeneralizationLrChoice (lr.length + 1) lr
        (setUnion Literal.lt x.add x.del)
        ⟨genAct.theta1, genAct.theta2, genAct.genVars, []⟩ rnd
      let subr1 := closeSubSet (closeSubSet
        (closeSub res.2.1.subr.cleanConstants r.actionLiteral.parameters) r.add) r.del
      let subx1 := closeSubSet (closeSubSet
        (closeSub res.2.1.subx x.actionLiteral.parameters) x.add) x.del
      (res.1, subr1, subx1, res.2.1.genVars, res.2.2)

/-- The loops of `makeUseOfVariables` that give a fresh variable to every constant of a
literal not yet in `genSub`. -/
def ActionRule.generalizeConstants (r : ActionRule) (params : List Term)
    (st : Substitution × List Term) : Substitution × List Term :=
  params.foldl (fun st param =>
    if !param.isVariable && !(st.1.get param).isSome then
      let v := r.makeNewVar st.2 param
      (st.1.set param v.1, v.2)
    else st) st

/-- The loops of `makeUseOfVariables` over a set of literals: the generalised set and the
final `genSub` and `genVars`. -/
def ActionRule.generalizeSet (r : ActionRule) (lits : List Literal)
    (st : Substitution × List Term) : List Literal × Substitution × List Term :=
  lits.foldl (fun acc l =>
    let st1 := r.generalizeConstants l.parameters acc.2
    (setInsert Literal.lt (st1.1.apply l) acc.1, st1)) ([], st)

/-- The method `ActionRule::makeUseOfVariables`; `self` is the arena index of the rule,
the only parent of the new rule. -/
def ActionRule.makeUseOfVariables (r : ActionRule) (self : Nat) : ActionRule :=
  let st0 : Substitution × List Term := r.actionLiteral.parameters.foldl (fun st param =>
    if !param.isVariable then
      let v := r.makeNewVar st.2 param
      (st.1.set param v.1, v.2)
    else st) (Substitution.empty, [])
  let newActionLit := st0.1.apply r.actionLiteral
  let pre := r.generalizeSet r.preconditions st0
  let add := r.generalizeSet r.add pre.2
  let del := r.generalizeSet r.del add.2
  ActionRule.make pre.1 newActionLit add.1 del.1 [self] true

/-! ## The generalisation DAG and the reviser (`LearningAgent.cpp`) -/

/-- The order on `shared_ptr<ActionRule>`, taken to be the order of the arena indices. -/
def ptrLt (a b : Nat) : Bool := decide (a < b)

/-- The rule without preconditions, effects or parents, read at an index outside the arena. -/
def ActionRule.blank : ActionRule := ⟨[], Literal.default, [], [], [], []⟩

/-- The rule stored at an arena index. -/
def ruleAt (heap : List ActionRule) (i : Nat) : ActionRule := heap.getD i ActionRule.blank

/-- The body of the loop of `generalityLevel` for one parent, whose own level is `level`. -/
def generalityStep (level : Option Nat) (acc : Option Nat) : Option Nat :=
  match acc, level with
  | some m, some g => some (if g + 1 > m then g + 1 else m)
  | _, _ => none

/-- The method `ActionRule::generalityLevel` of the rule at index `i`; `none` when the
recursion is deeper than the first argument. -/
def generalityLevel (heap : List ActionRule) : Nat → Nat → Option Nat
  | 0, _ => none
  | fuel + 1, i =>
    (ruleAt heap i).parents.foldl
      (fun acc p => generalityStep (generalityLevel heap fuel p) acc) (some 0)

/-- The body of the loop of `getLeastGeneralRuleCovering` for one parent, where `found` is
the result of the recursive call on that parent. The loop state is
`(minGenerality, result)`, where `minGenerality` is `none` for `-1`. -/
def leastCoveringStep (heap : List ActionRule) (depth : Nat)
    (found : Option (Option Nat)) (acc : Option (Option Nat × Option Nat)) :
    Option (Option Nat × Option Nat) :=
  match acc, found with
  | some (minGenerality, result), some (some lgr) =>
    match generalityLevel heap depth lgr with
    | none => none
    | some genLevel =>
      if (match minGenerality with | some m => decide (m > genLevel) | none => true) then
        some (some genLevel, some lgr)
      else some (minGenerality, result)
  | some st, some none => some st
  | _, _ => none

/-- The method `ActionRule::getLeastGeneralRuleCovering` of the rule at index `i`, for the
example `x`: `none` when the recursion is deeper than the fuel, `some none` for the null
pointer; `depth` is the fuel of the calls of `generalityLevel`. -/
def getLeastGeneralRuleCovering (heap : List ActionRule) (depth : Nat) (x : ActionRule) :
    Nat → Nat → Option (Option Nat)
  | 0, _ => none
  | fuel + 1, i =>
    let result : Option Nat :=
      if (ruleAt heap i).covers x Substitution.empty then some i else none
    ((ruleAt heap i).parents.foldl (fun acc pit =>
      leastCoveringStep heap depth (getLeastGeneralRuleCovering heap depth x fuel pit) acc)
      (some (none, result))).map (fun st => st.2)

/-- The state of the `LearningAgent` that the revision reads and writes. -/
structure Agent where
  heap : List ActionRule
  rules : List Nat
  counterExamples : List Nat
  failedActionsCounterExamples : List Nat
  deriving DecidableEq, Repr

/-- The configuration entries read by `generalize`. -/
structure Config where
  generalizationTrials : Int
  leastGeneral : Bool
  alwaysGeneralizeConstants : Bool
  deriving DecidableEq, Repr

/-- The agent after `rules.erase(i)`. -/
def Agent.eraseRule (a : Agent) (i : Nat) : Agent :=
  ⟨a.heap, setErase ptrLt i a.rules, a.counterExamples, a.failedActionsCounterExamples⟩

/-- The agent after `rules.insert(i)`. -/
def Agent.insertRule (a : Agent) (i : Nat) : Agent :=
  ⟨a.heap, setInsert ptrLt i a.rules, a.counterExamples, a.failedActionsCounterExamples⟩

/-- The agent after `make_shared<ActionRule>(...)`: the new rule is stored at the end of
the arena, and its index is `a.heap.length`. -/
def Agent.alloc (a : Agent) (r : ActionRule) : Agent :=
  ⟨a.heap ++ [r], a.rules, a.counterExamples, a.failedActionsCounterExamples⟩

/-- The method `LearningAgent::specialize` (algorithm SPECIALIZE): the returned set of
uncovered examples and the agent afterwards; `none` when the recursion is deeper than the
first argument. -/
def Agent.specialize : Nat → Agent → Nat → Nat → Option (List Nat × Agent)
  | 0, _, _, _ => none
  | fuel + 1, a, rule, exmp =>
    (ruleAt a.heap rule).parents.foldl (fun acc parent =>
      match acc with
      | none => none
      | some (uncovered, ag) =>
        if (ruleAt ag.heap parent).parents.length == 0 then
          some (setInsert ptrLt parent uncovered, ag.eraseRule parent)
        else if (ruleAt ag.heap parent).contradicts (ruleAt ag.heap exmp) then
          match Agent.specialize fuel ag parent exmp with
          | none => none
          | some (u, ag1) => some (setUnion ptrLt uncovered u, ag1)
        else some (uncovered, ag)) (some ([], a.eraseRule rule))

/-- The method `ActionRule::insertParent` on the rule at index `i`. -/
def insertParent (heap : List ActionRule) (i parent : Nat) : List ActionRule :=
  let r := ruleAt heap i
  heap.set i ⟨r.preconditions, r.actionLiteral, r.add, r.del,
    setInsert ptrLt parent r.parents, r.parameters⟩

/-- The method `ActionRule::removeParentRecursive` on the rule at index `i`: the arena
afterwards; `none` when the recursion is deeper than the first argument. -/
def removeParentRecursive : Nat → List ActionRule → Nat → Nat → Option (List ActionRule)
  | 0, _, _, _ => none
  | fuel + 1, heap, i, parent =>
    let r := ruleAt heap i
    let parents := setErase ptrLt parent r.parents
    let heap1 := heap.set i ⟨r.preconditions, r.actionLiteral, r.add, r.del, parents,
      r.parameters⟩
    parents.foldl (fun acc pit =>
      match acc with
      | none => none
      | some h => removeParentRecursive fuel h pit parent) (some heap1)

/-- The body of the first loop of `generalize` for one active rule `rit`. The loop state
is `(leastGeneralityLevel, leastGeneralRules)`, where the level is `none` for `-1`. -/
def leastRulesStep (heap : List ActionRule) (depth : Nat) (x : ActionRule)
    (acc : Option (Option Nat × List Nat)) (rit : Nat) : Option (Option Nat × List Nat) :=
  match acc, getLeastGeneralRuleCovering heap depth x depth rit with
  | some (least, rs), some (some lgr) =>
    match generalityLevel heap depth lgr with
    | none => none
    | some genLevel =>
      if (match least with | some l => decide (genLevel < l) | none => true) then
        some (some genLevel, [lgr])
      else if least == some genLevel then some (least, setInsert ptrLt lgr rs)
      else some (least, rs)
  | some st, some none => some st
  | _, _ => none

/-- Step 1 of `generalize`: the set `leastGeneralRules`; `none` when a walk of the DAG is
deeper than the fuel `depth`. -/
def Agent.leastGeneralRules (a : Agent) (depth : Nat) (exmp : Nat) : Option (List Nat) :=
  (a.rules.foldl (leastRulesStep a.heap depth (ruleAt a.heap exmp))
    (some ((none : Option Nat), ([] : List Nat)))).map (fun st => st.2)

/-- The default term `Term()`, the content of an absent `Opt<Term>`. -/
def Term.default : Term := ⟨"NoName", false, none⟩

/-- The constructor `Substitution(from, to)` used in `generalize` with one-element vectors. -/
def Substitution.single (k v : Term) : Substitution :=
  if k.ne v then Substitution.empty.set k v else Substitution.empty

/-- The loop of `generalize` over the entries of `subrTrial`, which merges the variables
that both substitutions map to the same term: the final `genPreconds`, `subrTrial` and
`subxTrial`. -/
def mergeSharedImages (mappingR : List (Term × Term))
    (st : List Literal × Substitution × Substitution) :
    List Literal × Substitution × Substitution :=
  mappingR.foldl (fun st pair =>
    let st1 : List Literal × Substitution × Substitution :=
      if ((st.2.2.get pair.1).getD Term.default).eq pair.2 then
        ((Substitution.single pair.1 pair.2).applySet st.1, st.2.1.remove pair.1,
          st.2.2.remove pair.1)
      else st
    if pair.1.eq pair.2 then (st1.1, st1.2.1.remove pair.1, st1.2.2) else st1) st

/-- One trial of step 2 of `generalize` for the rule at index `rule`: the candidate
`genRule` when it passes the three checks, and the remaining random outcomes. -/
def Agent.generalizationTrial (a : Agent) (rule exmp : Nat)
    (subr subx : Substitution) (genVars : List Term) (rnd : List Nat) :
    Option ActionRule × List Nat :=
  let r := ruleAt a.heap rule
  let x := ruleAt a.heap exmp
  let res := r.anyGeneralization x subr subx genVars rnd
  let m := mergeSharedImages res.1.subr.mapping (res.1.genLits, res.1.subr, res.1.subx)
  let invSubR := m.2.1.inverse
  let genRule := ActionRule.make m.1 (invSubR.apply r.actionLiteral) (invSubR.applySet r.add)
    (invSubR.applySet r.del) (setInsert ptrLt exmp (setInsert ptrLt rule [])) true
  if genRule.wellFormed then
    if a.counterExamples.any (fun cx => genRule.contradicts (ruleAt a.heap cx)) then
      (none, res.2)
    else if a.failedActionsCounterExamples.any
        (fun fcx => genRule.prematches (ruleAt a.heap fcx) Substitution.empty) then
      (none, res.2)
    else (some genRule, res.2)
  else (none, res.2)

/-- The loop `while (trials-- > 0)` of `generalize`: the final `lggRule`. -/
def Agent.generalizationTrials (a : Agent) (cfg : Config) (rule exmp : Nat)
    (subr subx : Substitution) (genVars : List Term) :
    Nat → Option ActionRule → List Nat → Option ActionRule × List Nat
  | 0, lggRule, rnd => (lggRule, rnd)
  | trials + 1, lggRule, rnd =>
    let t := a.generalizationTrial rule exmp subr subx genVars rnd
    let lgg1 :=
      match t.1, lggRule with
      | some genRule, none => some genRule
      | some genRule, some lgg =>
        if (if cfg.leastGeneral then decide (genRule.preconditions.length > lgg.preconditions.length)
            else decide (genRule.preconditions.length < lgg.preconditions.length)) then
          some genRule
        else some lgg
      | none, l => l
    a.generalizationTrials cfg rule exmp subr subx genVars trials lgg1 t.2

/-- The body of the loop of step 2 of `generalize` for one rule of `currentRules`: the
agent, the flag `recovered` and the random outcomes afterwards. -/
def Agent.generalizeRule (cfg : Config) (exmp : Nat) (st : Agent × Bool × List Nat)
    (rule : Nat) : Agent × Bool × List Nat :=
  let a := st.1
  let pg := (ruleAt a.heap rule).postGeneralizes (ruleAt a.heap exmp)
    Substitution.empty Substitution.empty [] st.2.2
  if pg.1 then
    let t := a.generalizationTrials cfg rule exmp pg.2.1 pg.2.2.1 pg.2.2.2.1
      cfg.generalizationTrials.toNat none pg.2.2.2.2
    match t.1 with
    | some lggRule =>
      ((((a.alloc lggRule).insertRule a.heap.length).eraseRule rule), true, t.2)
    | none => (a, st.2.1, t.2)
  else (a, st.2.1, pg.2.2.2.2)

/-- The method `LearningAgent::generalize` (algorithm GENERALIZE): the agent and the
random outcomes afterwards; `none` when a walk of the DAG is deeper than `depth`. -/
def Agent.generalize (a : Agent) (cfg : Config) (depth : Nat) (exmp : Nat)
    (rnd : List Nat) : Option (Agent × List Nat) :=
  match a.leastGeneralRules depth exmp with
  | none => none
  | some leastGeneralRules =>
    let heap1 := leastGeneralRules.foldl (fun h rit =>
      if rit == exmp then h else insertParent h rit exmp) a.heap
    let a1 : Agent := ⟨heap1, a.rules, a.counterExamples, a.failedActionsCounterExamples⟩
    if leastGeneralRules.length > 0 then some (a1, rnd)
    else
      let st := a1.rules.foldl (Agent.generalizeRule cfg exmp) (a1, false, rnd)
      if st.2.1 then some (st.1, st.2.2)
      else if cfg.alwaysGeneralizeConstants then
        let generalizedRule := (ruleAt st.1.heap exmp).makeUseOfVariables exmp
        some ((st.1.alloc generalizedRule).insertRule st.1.heap.length, st.2.2)
      else some (st.1.insertRule exmp, st.2.2)

/-- A `Trace`; a `State` is the set of its facts. -/
structure Trace where
  state : List Literal
  instAct : Literal
  authorized : Bool
  newState : List Literal
  deriving DecidableEq, Repr

/-- The method `State::difference`: the sets `(added, removed)`. -/
def stateDifference (facts other : List Literal) : List Literal × List Literal :=
  let removed := facts.foldl (fun r f =>
    if !stateContains other f then setInsert Literal.lt ⟨f.pred, f.parameters, false⟩ r
    else r) []
  let added := other.foldl (fun r f =>
    if !stateContains facts f then setInsert Literal.lt f r else r) []
  (added, removed)

/-- The constructor `ActionRule(trace, startPu, filter)`. -/
def ActionRule.ofTrace (trace : Trace) (filter : Bool) : ActionRule :=
  let d := stateDifference trace.state trace.newState
  let tempPreconds := toSet Literal.lt trace.state
  ActionRule.make tempPreconds trace.instAct d.1 d.2 [] filter

/-- The first loop of `updateKnowledge`: the vectors `(prematching, contradiction)`. -/
def Agent.classify (a : Agent) (exmp : ActionRule) (authorized : Bool) :
    List Nat × List Nat :=
  a.rules.foldl (fun st it =>
    let prematchSubs := (ruleAt a.heap it).prematchingSubs exmp Substitution.empty
    if prematchSubs.length > 0 then
      (st.1 ++ [it],
        if authorized then
          prematchSubs.foldl (fun c subit =>
            if !(ruleAt a.heap it).postmatches exmp subit then c ++ [it] else c) st.2
        else st.2)
    else st) ([], [])

/-- The loop of `updateKnowledge` that removes an uncovered example from the parents of
every rule of the active set. -/
def Agent.forgetParent (a : Agent) (depth : Nat) (uncov : Nat) : Option Agent :=
  (a.rules.foldl (fun acc rit =>
    match acc with
    | none => none
    | some h => removeParentRecursive depth h rit uncov) (some a.heap)).map
    (fun h => ⟨h, a.rules, a.counterExamples, a.failedActionsCounterExamples⟩)

/-- The branch of `updateKnowledge` for a failed action: `specialize` on every prematching
rule, each uncovered example being removed from the parents of the active rules. The
state is the agent and the set `uncoveredExamples`. -/
def Agent.specializeFailed (depth : Nat) (exmp : Nat) (prematching : List Nat)
    (st : Agent × List Nat) : Option (Agent × List Nat) :=
  prematching.foldl (fun acc rit =>
    match acc with
    | none => none
    | some (a, uncovered) =>
      match Agent.specialize depth a rit exmp with
      | none => none
      | some (newUncovered, a1) =>
        newUncovered.foldl (fun acc2 uncovit =>
          match acc2 with
          | none => none
          | some (a2, unc) =>
            (a2.forgetParent depth uncovit).map (fun a3 => (a3, setInsert ptrLt uncovit unc)))
          (some (a1, uncovered))) (some st)

/-- The branch of `updateKnowledge` for a contradicted example: `specialize` on every
entry of `contradiction`. The state is the agent and the set `uncoveredExamples`. -/
def Agent.specializeContradicting (depth : Nat) (exmp : Nat) (contradiction : List Nat)
    (st : Agent × List Nat) : Option (Agent × List Nat) :=
  contradiction.foldl (fun acc rit =>
    match acc with
    | none => none
    | some (a, uncovered) =>
      match Agent.specialize depth a rit exmp with
      | none => none
      | some (u, a1) => some (a1, setUnion ptrLt uncovered u)) (some st)

/-- The last loop of `updateKnowledge`: `generalize` on every uncovered example. -/
def Agent.generalizeAll (cfg : Config) (depth : Nat) (uncovered : List Nat)
    (st : Agent × List Nat) : Option (Agent × List Nat) :=
  uncovered.foldl (fun acc exampleit =>
    match acc with
    | none => none
    | some (a, rnd) => a.generalize cfg depth exampleit rnd) (some st)

/-- The method `LearningAgent::updateKnowledge` (algorithm REVISION): the returned flag,
the agent and the random outcomes afterwards; `none` when a walk of the DAG is deeper than
`depth`. The predicate `deletePred` is `domain->getActionPredByName("delete")`. -/
def Agent.updateKnowledge (a : Agent) (cfg : Config) (deletePred : Predicate) (depth : Nat)
    (trace : Trace) (rnd : List Nat) : Option (Bool × Agent × List Nat) :=
  if trace.instAct.parameters.any
      (fun param => inList Literal.eq trace.state ⟨deletePred, [param], true⟩) then
    some (false, a, rnd)
  else
    let exmp := a.heap.length
    let a0 := a.alloc (ActionRule.ofTrace trace true)
    let c := a0.classify (ruleAt a0.heap exmp) trace.authorized
    let prematching := c.1
    let contradiction := c.2
    let st1 : Bool × Agent × List Nat :=
      if prematching.length == 0 && trace.authorized then
        (true, ⟨a0.heap, a0.rules, setInsert ptrLt exmp a0.counterExamples,
          a0.failedActionsCounterExamples⟩, [exmp])
      else (false, a0, [])
    let st2 : Option (Bool × Agent × List Nat) :=
      if prematching.length > 0 && !trace.authorized then
        let a1 : Agent := ⟨st1.2.1.heap, st1.2.1.rules, st1.2.1.counterExamples,
          setInsert ptrLt exmp st1.2.1.failedActionsCounterExamples⟩
        (Agent.specializeFailed depth exmp prematching (a1, st1.2.2)).map
          (fun r => (true, r.1, r.2))
      else if contradiction.length > 0 then
        let a1 : Agent := ⟨st1.2.1.heap, st1.2.1.rules,
          setInsert ptrLt exmp st1.2.1.counterExamples, st1.2.1.failedActionsCounterExamples⟩
        (Agent.specializeContradicting depth exmp contradiction (a1, st1.2.2)).map
          (fun r => (true, r.1, r.2))
      else some st1
    match st2 with
    | none => none
    | some (modified, a2, uncoveredExamples) =>
      (Agent.generalizeAll cfg depth uncoveredExamples (a2, rnd)).map
        (fun r => (modified, r.1, r.2))

/-! ## States: updates and comparison (`Domain.cpp`) -/

/-- The method `Literal::abs`. -/
def Literal.abs (l : Literal) : Literal := ⟨l.pred, l.parameters, true⟩

/-- The method `State::addFact`. -/
def addFact (facts : List Literal) (newFact : Literal) : List Literal :=
  setInsert Literal.lt newFact.abs facts

/-- The method `State::addFacts`. -/
def addFacts (facts newFacts : List Literal) : List Literal :=
  newFacts.foldl (fun r f => setInsert Literal.lt f.abs r) facts

/-- The method `State::removeFact`. -/
def removeFact (facts : List Literal) (delFact : Literal) : List Literal :=
  setErase Literal.lt delFact.abs facts

/-- The method `State::removeFacts`. -/
def removeFacts (facts delFacts : List Literal) : List Literal :=
  delFacts.foldl (fun r f => setErase Literal.lt f.abs r) facts

/-- The comparison `State::operator==`. -/
def stateEq (facts other : List Literal) : Bool :=
  if facts.length != other.length then false
  else facts.all (fun f => stateContains other f)

/-! ## Domains: the transition function (`Domain::tryAction`) -/

/-- An `Action` schema; the vector `parameters`, which `tryAction` does not read, is left
out. -/
structure Action where
  actionLiteral : Literal
  truePrecond : List Literal
  falsePrecond : List Literal
  add : List Literal
  del : List Literal
  deriving DecidableEq, Repr

/-- The fields of a `Domain` that `tryAction` and `parseLiteral` read or write;
`resetState` is `none` when its flag `there` is not set. -/
structure Domain where
  predicates : List Predicate
  constants : List Term
  actions : List Action
  deletePred : Predicate
  resetAction : Action
  deleteAction : Action
  removeFactAction : Action
  resetState : Option (List Literal)
  removedFacts : List Literal
  deriving Repr

/-- The outcome of `tryAction`: the returned `Opt<State>`, and the field `removedFacts` of
the domain after the call. -/
structure TryResult where
  obj : List Literal
  there : Bool
  removedFacts : List Literal
  deriving DecidableEq, Repr

/-- The function `unifyFacts` on the vector `facts` given from its back: the head of the
list is `facts.back()`. -/
def unifyFactsBack (state : List Literal) (instances : List Term) (trueFacts : Bool) :
    List Literal → Substitution → List Substitution
  | [], sub => [sub]
  | fact :: facts, sub =>
    (sub.expandUncovered (toSet Term.lt fact.parameters) (toSet Term.lt instances)
      true).foldl (fun result newSub =>
        let found := stateContains state (newSub.apply fact)
        if (found && trueFacts) || (!found && !trueFacts) then
          result ++ unifyFactsBack state instances trueFacts facts newSub
        else result) []

/-- The function `unifyFacts`. -/
def unifyFacts (state : List Literal) (instances : List Term) (facts : List Literal)
    (sub : Substitution) (trueFacts : Bool) : List Substitution :=
  unifyFactsBack state instances trueFacts facts.reverse sub

/-- The parameter loop of `tryAction` for one schema: the substitution built from the
parameters of the schema and of the action literal, or `none` when `valid` is cleared. -/
def actionSub : List Term → List Term → Substitution → Option Substitution
  | actParam :: as, litParam :: ls, sub =>
    if !typeSubsumes actParam.type litParam.type then none
    else if actParam.eq litParam then actionSub as ls sub
    else if (sub.getInverse litParam).isSome then actionSub as ls sub
    else actionSub as ls (sub.set actParam litParam)
  | _, _, sub => some sub

/-- The loop of `tryAction` over the schemas of the domain: the new state built from the
first schema that applies, or `none` when the loop ends without one. -/
def tryActions (state : List Literal) (allInsts : List Term) (actionLiteral : Literal)
    (onlyAdd : Bool) : List Action → Option (List Literal)
  | [] => none
  | act :: rest =>
    if !(act.actionLiteral.pred.eq actionLiteral.pred) then
      tryActions state allInsts actionLiteral onlyAdd rest
    else
      match actionSub act.actionLiteral.parameters actionLiteral.parameters
          Substitution.empty with
      | none => tryActions state allInsts actionLiteral onlyAdd rest
      | some sub =>
        let positiveSubs := unifyFacts state allInsts act.truePrecond sub true
        if positiveSubs.isEmpty then tryActions state allInsts actionLiteral onlyAdd rest
        else
          let allSubs := positiveSubs.foldl (fun all pSub =>
            all ++ unifyFacts state allInsts act.falsePrecond pSub false) []
          match allSubs.getLast? with
          | none => tryActions state allInsts actionLiteral onlyAdd rest
          | some appliedSub =>
            let newState := addFacts state (appliedSub.applySet (toSet Literal.lt act.add))
            some (if onlyAdd then newState
              else removeFacts newState (appliedSub.applySet (toSet Literal.lt act.del)))

/-- The method `Domain::tryAction`. The function `parseLiteral`, which reads a literal from
the name of the parameter of `remove-fact`, is the argument `parse`. A `delete` literal
without parameter, for which the source reads `parameters[0]` past the end, keeps every
fact. -/
def tryAction (d : Domain) (parse : String → List Term → Literal) (state : List Literal)
    (instances : List Term) (actionLiteral : Literal) (onlyAdd : Bool) : TryResult :=
  let allInsts := instances ++ d.constants
  if actionLiteral.pred.eq d.resetAction.actionLiteral.pred then
    match d.resetState with
    | some resetState => ⟨resetState, true, d.removedFacts⟩
    | none => ⟨state, false, d.removedFacts⟩
  else if actionLiteral.pred.eq d.deleteAction.actionLiteral.pred then
    if stateContains state actionLiteral then ⟨state, false, d.removedFacts⟩
    else
      let newState := state.foldl (fun r fact =>
        match actionLiteral.parameters with
        | [] => addFact r fact
        | p :: _ => if !inList Term.eq fact.parameters p then addFact r fact else r) []
      ⟨addFact newState actionLiteral, true, d.removedFacts⟩
  else if actionLiteral.pred.eq d.removeFactAction.actionLiteral.pred then
    match actionLiteral.parameters with
    | [] => ⟨addFacts state d.removedFacts, true, []⟩
    | p :: _ =>
      let toRemove := parse p.name instances
      ⟨removeFact state toRemove, true,
        if stateContains state toRemove then setInsert Literal.lt toRemove d.removedFacts
        else d.removedFacts⟩
  else if actionLiteral.parameters.any
      (fun pit => stateContains state ⟨d.deletePred, [pit], true⟩) then
    ⟨state, false, d.removedFacts⟩
  else
    match tryActions state allInsts actionLiteral onlyAdd d.actions with
    | some newState => ⟨newState, true, d.removedFacts⟩
    | none => ⟨state, false, d.removedFacts⟩

/-! ## Necessities and probabilities (`ActionRule.cpp`, `BayesianExplorer.cpp`) -/

/-- The assignment `m[k] = v` on a `std::map` whose comparator is `lt`: an equivalent key
keeps its place and its key object. -/
def mapAssign {κ ν : Type} (lt : κ → κ → Bool) (k : κ) (v : ν) : List (κ × ν) → List (κ × ν)
  | [] => [(k, v)]
  | (k1, v1) :: rest =>
    if lt k k1 then (k, v) :: (k1, v1) :: rest
    else if lt k1 k then (k1, v1) :: mapAssign lt k v rest
    else (k1, v) :: rest

/-- The read `m[k]` on a `std::map<K, float>`: the value read and the map after the
read, in which a missing key has been inserted with the value `0`. -/
def mapIndex {κ : Type} (lt : κ → κ → Bool) (k : κ) : List (κ × ℚ) → ℚ × List (κ × ℚ)
  | [] => (0, [(k, 0)])
  | (k1, v1) :: rest =>
    if lt k k1 then (0, (k, 0) :: (k1, v1) :: rest)
    else if lt k1 k then ((mapIndex lt k rest).1, (k1, v1) :: (mapIndex lt k rest).2)
    else (v1, (k1, v1) :: rest)

/-- The lookup `in(m, k)` on a `std::map`. -/
def mapHas {κ ν : Type} (lt : κ → κ → Bool) (k : κ) (m : List (κ × ν)) : Bool :=
  m.any (fun p => !lt k p.1 && !lt p.1 k)

/-- The set `constants` of the constructor of `ActionRule`: the non-variable parameters of
the preconditions. -/
def preconditionConstants (preconditions : List Literal) : List Term :=
  preconditions.foldl (fun constants precond =>
    precond.parameters.foldl (fun constants param =>
      if !param.isVariable then setInsert Term.lt param constants else constants)
      constants) []

/-- The number `components` of the constructor of `ActionRule`. -/
def necessityComponents (preconditions del : List Literal) : ℚ :=
  (preconditions.length : ℚ) + ((preconditionConstants preconditions).length : ℚ) -
    (del.length : ℚ)

/-- The float `powf(startPu, 1.0f / components)` of the constructors of `ActionRule`. When
`components` is zero the quotient is `+∞`, and the power is `0` for a base of absolute
value below one and `1` for the bases `1` and `-1`; for a larger base it is `+∞`, which is
no rational number: `none`. -/
def startPower (powf : ℚ → ℚ → ℚ) (startPu components : ℚ) : Option ℚ :=
  if components = 0 then
    if -1 < startPu ∧ startPu < 1 then some 0
    else if startPu = 1 ∨ startPu = -1 then some 1
    else none
  else some (powf startPu (1 / components))

/-- The initialisation of the necessities at the end of the constructor of `ActionRule`:
the maps `(precondsNecessities, constsNecessities)`; `none` when a necessity is infinite. -/
def initNecessities (powf : ℚ → ℚ → ℚ) (startPu : ℚ) (preconditions del : List Literal) :
    Option (List (Literal × ℚ) × List (Term × ℚ)) :=
  let components := necessityComponents preconditions del
  preconditions.foldl (fun acc precond =>
    match acc with
    | none => none
    | some st =>
      let precondsNecessities : Option (List (Literal × ℚ)) :=
        if inList Literal.eq del precond.neg then some (mapAssign Literal.lt precond 1 st.1)
        else (startPower powf startPu components).map
          (fun power => mapAssign Literal.lt precond (1 - power) st.1)
      let constsNecessities : Option (List (Term × ℚ)) :=
        precond.parameters.foldl (fun cn param =>
          if !param.isVariable then
            match cn, startPower powf startPu components with
            | some m, some power => some (mapAssign Term.lt param (1 - power) m)
            | _, _ => none
          else cn) (some st.2)
      match precondsNecessities, constsNecessities with
      | some m1, some m2 => some (m1, m2)
      | _, _ => none) (some ([], []))

/-- The constant `PRECISION`. -/
def PRECISION : ℚ := 1 / 1000

/-- The loop of `cdProbTree` over the disjunctions, for one choice: the vectors `cdsTrue`
and `cdsFalse` and the flags `pruneFalseBranch` and `foundChoiceInDisjunction`. -/
structure CdSplit where
  cdsTrue : List (List Literal × List Term)
  cdsFalse : List (List Literal × List Term)
  pruneFalseBranch : Bool
  foundChoiceInDisjunction : Bool
  deriving DecidableEq, Repr

/-- The test of `cdProbTree` that the choice occurs in a disjunction. -/
def choiceIn (choice : Literal ⊕ Term) (disj : List Literal × List Term) : Bool :=
  match choice with
  | Sum.inl niPrec => inList Literal.eq disj.1 niPrec
  | Sum.inr niCst => inList Term.eq disj.2 niCst

/-- The sets `(remPrecs, remCsts)` of `cdProbTree`: the disjunction without the choice. -/
def choiceRemoved (choice : Literal ⊕ Term) (disj : List Literal × List Term) :
    List Literal × List Term :=
  match choice with
  | Sum.inl niPrec => (setErase Literal.lt niPrec (toSet Literal.lt disj.1), toSet Term.lt disj.2)
  | Sum.inr niCst => (toSet Literal.lt disj.1, setErase Term.lt niCst (toSet Term.lt disj.2))

/-- The loop of `cdProbTree` over the disjunctions, none of which is empty. -/
def cdSplit (choice : Literal ⊕ Term) (cds : List (List Literal × List Term)) : CdSplit :=
  cds.foldl (fun st disj =>
    if choiceIn choice disj then
      let rem := choiceRemoved choice disj
      if rem.1.length + rem.2.length == 0 then
        ⟨st.cdsTrue, st.cdsFalse, true, true⟩
      else ⟨st.cdsTrue, st.cdsFalse ++ [rem], st.pruneFalseBranch, true⟩
    else ⟨st.cdsTrue ++ [disj], st.cdsFalse ++ [disj], st.pruneFalseBranch,
      st.foundChoiceInDisjunction⟩) ⟨[], [], false, false⟩

/-- The function `cdProbTree` on the choices from `choiceIndex` on: the entries of
`precNecs` are the left choices, those of `cstNecs` the right ones. The sets
`truePreconds` and `trueConsts`, which the function only passes on, are left out. -/
def cdProbTree : List ((Literal ⊕ Term) × ℚ) → ℚ → List (List Literal × List Term) → ℚ
  | [], branchPower, _ => branchPower
  | (choice, choicePower) :: rest, branchPower, cds =>
    if cds.any (fun disj => disj.1.length + disj.2.length == 0) then 0
    else
      let sp := cdSplit choice cds
      if !sp.foundChoiceInDisjunction then cdProbTree rest branchPower sp.cdsTrue
      else
        let trueBranchValue :=
          if choicePower * branchPower ≥ PRECISION then
            cdProbTree rest (branchPower * choicePower) sp.cdsTrue
          else choicePower * branchPower
        if sp.pruneFalseBranch || decide (branchPower * (1 - choicePower) < PRECISION) then
          trueBranchValue
        else trueBranchValue + cdProbTree rest (branchPower * (1 - choicePower)) sp.cdsFalse

/-- The vector that `cdProb` builds from a necessity map: the entries of necessity `1` are
put in front, the others at the back. -/
def necVector {κ : Type} (m : List (κ × ℚ)) : List (κ × ℚ) :=
  m.foldl (fun v pair => if pair.2 = 1 then pair :: v else v ++ [pair]) []

/-- The choices of `cdProbTree` in the order of `choiceIndex`. -/
def cdChoices (precondNecs : List (Literal × ℚ)) (constNecs : List (Term × ℚ)) :
    List ((Literal ⊕ Term) × ℚ) :=
  (necVector precondNecs).map (fun p => (Sum.inl p.1, p.2)) ++
    (necVector constNecs).map (fun p => (Sum.inr p.1, p.2))

/-- The method `ActionRule::cdProb`. -/
def cdProb (precondNecs : List (Literal × ℚ)) (constNecs : List (Term × ℚ))
    (cds : List (List Literal × List Term)) : ℚ :=
  cdProbTree (cdChoices precondNecs constNecs) 1 cds

/-- The state of the loop of `dgcdProb`; the two maps are passed by reference and may grow
by a read `m[k]`. -/
structure DgcdState where
  dgcdVal : ℚ
  condFactor : ℚ
  conditionalCds : List (List Literal × List Term)
  precondNecs : List (Literal × ℚ)
  constNecs : List (Term × ℚ)

/-- The filter of `dgcdProb` and of `corroborateRules`: the disjunctions in which the
choice does not occur. -/
def withoutChoice (choice : Literal ⊕ Term) (cds : List (List Literal × List Term)) :
    List (List Literal × List Term) :=
  cds.filter (fun p => !choiceIn choice p)

/-- One round of the loop of `dgcdProb`, for the element popped from the disjunction. -/
def dgcdStep (st : DgcdState) (choice : Literal ⊕ Term) : DgcdState :=
  let read : ℚ × List (Literal × ℚ) × List (Term × ℚ) :=
    match choice with
    | Sum.inl niL =>
      ((mapIndex Literal.lt niL st.precondNecs).1, (mapIndex Literal.lt niL st.precondNecs).2,
        st.constNecs)
    | Sum.inr niT =>
      ((mapIndex Term.lt niT st.constNecs).1, st.precondNecs,
        (mapIndex Term.lt niT st.constNecs).2)
  let niVal := read.1
  let cdVal := cdProb read.2.1 read.2.2 st.conditionalCds
  let ngcdVal :=
    if cdVal > 0 then
      niVal * (cdProb read.2.1 read.2.2 (withoutChoice choice st.conditionalCds) / cdVal)
    else niVal
  ⟨st.dgcdVal + st.condFactor * ngcdVal, st.condFactor * (1 - ngcdVal),
    st.conditionalCds.map (fun p =>
      match choice with
      | Sum.inl niL => (p.1.filter (fun prec => !prec.eq niL), p.2)
      | Sum.inr niT => (p.1, p.2.filter (fun cst => cst.ne niT))),
    read.2.1, read.2.2⟩

/-- The elements of a disjunction in the order in which `dgcdProb` and `corroborateRules`
pop them: the literals from the back, then the terms from the back. -/
def popOrder (lits : List Literal) (terms : List Term) : List (Literal ⊕ Term) :=
  lits.reverse.map Sum.inl ++ terms.reverse.map Sum.inr

/-- The method `ActionRule::dgcdProb`: the value returned and the two maps after the
call. -/
def dgcdProb (precondNecs : List (Literal × ℚ)) (constNecs : List (Term × ℚ))
    (disj : List Literal × List Term) (conditionalCds : List (List Literal × List Term)) :
    ℚ × List (Literal × ℚ) × List (Term × ℚ) :=
  let st := (popOrder disj.1 disj.2).foldl dgcdStep
    ⟨0, 1, conditionalCds, precondNecs, constNecs⟩
  (st.dgcdVal, st.precondNecs, st.constNecs)

/-- The function `clamp` of `Utils.cpp`, with `std::min` and `std::max` written out. -/
def clamp (val minv maxv : ℚ) : ℚ :=
  let m := if val < maxv then val else maxv
  if minv < m then m else minv

/-- The state of the update loop of `corroborateRules` for one rule: the two necessity maps
of the rule and the two maps of updated necessities. -/
structure CorroState where
  precondsNecessities : List (Literal × ℚ)
  constsNecessities : List (Term × ℚ)
  updatedPrecondNecs : List (Literal × ℚ)
  updatedConstNecs : List (Term × ℚ)

/-- The product `nCovRTgivenNk` of `corroborateRules` over the filtered positive
disjunctions, with the two maps of the rule after the calls of `dgcdProb`. -/
def nCovGiven (precondNecs : List (Literal × ℚ)) (constNecs : List (Term × ℚ))
    (filteredNeg filteredPos : List (List Literal × List Term)) :
    ℚ × List (Literal × ℚ) × List (Term × ℚ) :=
  let r := filteredPos.foldl (fun (st : ℚ × List (List Literal × List Term) ×
      List (Literal × ℚ) × List (Term × ℚ)) disj =>
    let g := dgcdProb st.2.2.1 st.2.2.2 disj st.2.1
    (st.1 * g.1, st.2.1 ++ [disj], g.2.1, g.2.2)) (1, filteredNeg, precondNecs, constNecs)
  (r.1, r.2.2.1, r.2.2.2)

/-- One round of the update loop of `corroborateRules` for one rule, for the key popped
from `preconds` or `constants`. The values `protRTs[rule]`, `covMT`, `pUe`, `pUeff` and
the values `covRTs` of the other rules of the action come from the first loop of
`corroborateRules`, as do the disjunctions `negSigmas[rule]` and `posSigmas[rule]`. -/
def corroStep (negSigma posSigma : List (List Literal × List Term))
    (protRT covMT pUe pUeff : ℚ) (otherCovRTs : List ℚ) (st : CorroState)
    (choice : Literal ⊕ Term) : CorroState :=
  let read : ℚ × List (Literal × ℚ) × List (Term × ℚ) :=
    match choice with
    | Sum.inl niL =>
      ((mapIndex Literal.lt niL st.precondsNecessities).1,
        (mapIndex Literal.lt niL st.precondsNecessities).2, st.constsNecessities)
    | Sum.inr niT =>
      ((mapIndex Term.lt niT st.constsNecessities).1, st.precondsNecessities,
        (mapIndex Term.lt niT st.constsNecessities).2)
  let currentNec := read.1
  if currentNec = 0 ∨ currentNec = 1 ∨ protRT = 0 ∨ covMT = 0 then
    match choice with
    | Sum.inl niL =>
      ⟨read.2.1, read.2.2, mapAssign Literal.lt niL currentNec st.updatedPrecondNecs,
        st.updatedConstNecs⟩
    | Sum.inr niT =>
      ⟨read.2.1, read.2.2, st.updatedPrecondNecs,
        mapAssign Term.lt niT currentNec st.updatedConstNecs⟩
  else
    let filteredNeg := withoutChoice choice negSigma
    let filteredPos := withoutChoice choice posSigma
    let protRTgivenNk := cdProb read.2.1 read.2.2 filteredNeg
    let g := nCovGiven read.2.1 read.2.2 filteredNeg filteredPos
    let nCovRTgivenNk := g.1
    let covRTgivenNk := 1 - nCovRTgivenNk
    let covMTwithoutR := 1 - otherCovRTs.foldl (fun c covRT => c * (1 - covRT))
      (1 - pUe * pUeff)
    match choice with
    | Sum.inl niL =>
      let again := mapIndex Literal.lt niL g.2.1
      ⟨again.2, g.2.2,
        mapAssign Literal.lt niL
          (clamp (protRTgivenNk * (covRTgivenNk + nCovRTgivenNk * covMTwithoutR) / protRT /
            covMT * again.1) 0 (19 / 20)) st.updatedPrecondNecs,
        st.updatedConstNecs⟩
    | Sum.inr niT =>
      let again := mapIndex Term.lt niT g.2.2
      ⟨g.2.1, again.2, st.updatedPrecondNecs,
        mapAssign Term.lt niT
          (clamp (protRTgivenNk * (covRTgivenNk + nCovRTgivenNk * covMTwithoutR) / protRT /
            covMT * again.1) 0 (19 / 20)) st.updatedConstNecs⟩

/-- The update loop of `corroborateRules` for one rule of the action of the trace, with
the final assignment of the updated maps: the two necessity maps of the rule after the
call. -/
def corroborateRule (precondsNecessities : List (Literal × ℚ))
    (constsNecessities : List (Term × ℚ))
    (negSigma posSigma : List (List Literal × List Term))
    (protRT covMT pUe pUeff : ℚ) (otherCovRTs : List ℚ) :
    List (Literal × ℚ) × List (Term × ℚ) :=
  let st := (popOrder (precondsNecessities.map (fun p => p.1))
      (constsNecessities.map (fun p => p.1))).foldl
    (corroStep negSigma posSigma protRT covMT pUe pUeff otherCovRTs)
    ⟨precondsNecessities, constsNecessities, [], []⟩
  (st.updatedPrecondNecs, st.updatedConstNecs)

/-- An `UnknownRule`: the fields that `computeProb` and `corroborateFailure` read or
write. -/
structure UnknownRule where
  pAny : ℚ
  nAll : Int
  pNfs : List (Literal × ℚ)

/-- The loop of `UnknownRule::computeProb`: the pair `(prob, falseAnyFacts)`. -/
def UnknownRule.probLoop (u : UnknownRule) (state : List Literal) : ℚ × ℚ :=
  u.pNfs.foldl (fun st pair =>
    if !stateContains state pair.1 then (st.1 * (1 - pair.2), st.2 - 1) else st)
    (1, (u.nAll : ℚ) - (state.length : ℚ))

/-- The value returned by `UnknownRule::computeProb`; the output parameter `expectedGain`
is left out. -/
def UnknownRule.computeProb (powf : ℚ → ℚ → ℚ) (u : UnknownRule) (state : List Literal) :
    ℚ :=
  (u.probLoop state).1 * powf (1 - u.pAny) (u.probLoop state).2

/-- The method `UnknownRule::corroborateFailure`. -/
def UnknownRule.corroborateFailure (powf : ℚ → ℚ → ℚ) (u : UnknownRule)
    (state : List Literal) : UnknownRule :=
  let pFail := 1 - u.computeProb powf state
  if pFail = 0 then u
  else
    let pNfs1 := state.foldl (fun m fact =>
      if !mapHas Literal.lt fact m then mapAssign Literal.lt fact u.pAny m else m) u.pNfs
    let pNfs2 := pNfs1.foldl (fun m pair =>
      if !inList Literal.eq state pair.1 then mapAssign Literal.lt pair.1 (pair.2 / pFail) m
      else m) pNfs1
    ⟨u.pAny / pFail, u.nAll, pNfs2⟩

/-! ## Domains: construction, printing and reading of literals (`Domain.cpp`) -/

/-- The default predicate `Predicate()`. -/
def Predicate.default : Predicate := ⟨"None", 0⟩

/-- The method `Domain::getPredByName`. -/
def Domain.getPredByName (d : Domain) (name : String) : Predicate :=
  match d.predicates.find? (fun pred => pred.name == name) with
  | some pred => pred
  | none => Predicate.default

/-- The method `Domain::getActionPredByName`. -/
def Domain.getActionPredByName (d : Domain) (name : String) : Predicate :=
  if name == d.resetAction.actionLiteral.pred.name then d.resetAction.actionLiteral.pred
  else if name == d.deleteAction.actionLiteral.pred.name then d.deleteAction.actionLiteral.pred
  else if name == d.removeFactAction.actionLiteral.pred.name then
    d.removeFactAction.actionLiteral.pred
  else
    match d.actions.find? (fun act => act.actionLiteral.pred.name == name) with
    | some act => act.actionLiteral.pred
    | none => Predicate.default

/-- The loop of the constructor of `Domain` over the predicates: the local `resetPred` and
the fields `deletePred` and `removeFactPred`. -/
def metaPredicates (predicates : List Predicate) : Predicate × Predicate × Predicate :=
  predicates.foldl (fun st pred =>
    if pred.name == "reset" then (pred, st.2.1, st.2.2)
    else if pred.name == "delete" then (st.1, pred, st.2.2)
    else if pred.name == "remove-fact" then (st.1, st.2.1, pred)
    else st) (Predicate.default, Predicate.default, Predicate.default)

/-- The constructor `Domain(inTypes, inPreds, inConsts, inActions)`; the types are not
embedded. -/
def Domain.make (inPreds : List Predicate) (inConsts : List Term) (inActions : List Action) :
    Domain :=
  let m := metaPredicates inPreds
  let resetPred := if m.1.eq Predicate.default then ⟨"reset", 0⟩ else m.1
  let predicates := if m.1.eq Predicate.default then setInsert Predicate.lt resetPred inPreds
    else inPreds
  let deletePred := if m.2.1.eq Predicate.default then ⟨"delete", 1⟩ else m.2.1
  let predicates := if m.2.1.eq Predicate.default then setInsert Predicate.lt deletePred predicates
    else predicates
  let removeFactPred := if m.2.2.eq Predicate.default then ⟨"remove-fact", 1⟩ else m.2.2
  let predicates :=
    if m.2.2.eq Predicate.default then setInsert Predicate.lt removeFactPred predicates
    else predicates
  let obj : Term := ⟨"obj", true, none⟩
  ⟨predicates, inConsts, inActions, deletePred,
    ⟨⟨resetPred, [], true⟩, [], [], [], []⟩,
    ⟨⟨deletePred, [obj], true⟩, [], [], [], []⟩,
    ⟨⟨removeFactPred, [obj], true⟩, [], [], [], []⟩, none, []⟩

/-- The method `Literal::toString`. -/
def Literal.toString (l : Literal) : String :=
  (l.parameters.foldl (fun (st : String × Bool) pit =>
    ((if !st.2 then st.1 ++ ", " else st.1) ++ pit.name, false))
    ((if l.positive then "" else "-") ++ l.pred.name ++ "(", true)).1 ++ ")"

/-- The local variables of `parseLiteral`. -/
structure ParseState where
  pred : Predicate
  params : List Term
  positive : Bool
  first : Bool
  tmp : String
  deriving DecidableEq, Repr

/-- The characters that end a word in `parseLiteral`. -/
def isSeparator (c : Char) : Bool := c == ' ' || c == '(' || c == ' ' || c == ')' || c == ','

/-- The branch of the loop of `parseLiteral` taken at the end of the text and on a
separator: the word in `tmp`, if any, is read as the predicate or as the next parameter.
The result is `none` when the function returns the empty literal at once. -/
def parseFlush (d : Domain) (allInsts : List Term) (action : Bool) (st : ParseState) :
    Option ParseState :=
  if st.tmp != "" then
    if st.first then
      some ⟨if action then d.getActionPredByName st.tmp else d.getPredByName st.tmp,
        st.params, st.positive, false, ""⟩
    else
      match allInsts.find? (fun it => it.name == st.tmp) with
      | some inst => some ⟨st.pred, st.params ++ [inst], st.positive, st.first, ""⟩
      | none => none
  else some st

/-- One round of the loop of `parseLiteral` on the character `c`. -/
def parseChar (d : Domain) (allInsts : List Term) (action : Bool) (st : ParseState)
    (c : Char) : Option ParseState :=
  if isSeparator c then parseFlush d allInsts action st
  else if c == '-' && st.tmp == "" && st.first then
    some ⟨st.pred, st.params, false, st.first, st.tmp⟩
  else some ⟨st.pred, st.params, st.positive, st.first, st.tmp.push c⟩

/-- The loop of `parseLiteral` over the characters left, with the last round at the end of
the text. -/
def parseLoop (d : Domain) (allInsts : List Term) (action : Bool) :
    List Char → ParseState → Option ParseState
  | [], st => parseFlush d allInsts action st
  | c :: cs, st =>
    match parseChar d allInsts action st c with
    | none => none
    | some st1 => parseLoop d allInsts action cs st1

/-- The method `Domain::parseLiteral`; a text is the list of its characters. -/
def Domain.parseLiteral (d : Domain) (str : String) (instances : List Term) (action : Bool) :
    Literal :=
  match parseLoop d (instances ++ d.constants) action str.data
      ⟨Predicate.default, [], true, true, ""⟩ with
  | none => Literal.default
  | some st =>
    if st.params.length != st.pred.arity then Literal.default
    else ⟨st.pred, st.params, st.positive⟩

/-- The method `Domain::tryAction` with `parseLiteral` of the domain itself. -/
def Domain.tryAction (d : Domain) (state : List Literal) (instances : List Term)
    (actionLiteral : Literal) (onlyAdd : Bool) : TryResult :=
  LearningPlanning.tryAction d (fun str insts => d.parseLiteral str insts false) state
    instances actionLiteral onlyAdd

/-- The comparison `operator<` of two vectors (`std::lexicographical_compare`). -/
def vecLt {α : Type} (lt : α → α → Bool) : List α → List α → Bool
  | _, [] => false
  | [], _ :: _ => true
  | a :: as, b :: bs => if lt a b then true else if lt b a then false else vecLt lt as bs

/-- The order of `std::set<Unverified>`: `operator<` of a pair of vectors. -/
def unverifiedLt (a b : List Literal × List Term) : Bool :=
  vecLt Literal.lt a.1 b.1 || (!vecLt Literal.lt b.1 a.1 && vecLt Term.lt a.2 b.2)

/-- The disjunction that `computeCdProb` builds for one substitution: the preconditions
that the state does not verify and the constants that the substitution does not
preserve. -/
def unverifiedOf (precondsNecessities : List (Literal × ℚ))
    (constsNecessities : List (Term × ℚ)) (state : List Literal) (sub : Substitution) :
    List Literal × List Term :=
  ((precondsNecessities.filter (fun pair => !stateContains state (sub.apply pair.1))).map
      (fun pair => pair.1),
    (constsNecessities.filter (fun pair =>
      (sub.applyTerm pair.1).ne pair.1 ||
        (match sub.getInverse pair.1 with
          | some o => o.ne pair.1
          | none => false))).map (fun pair => pair.1))

/-- The method `ActionRule::computeCdProb` of a rule with the action literal
`actionLiteral` and the two necessity maps. -/
def computeCdProb (actionLiteral : Literal) (precondsNecessities : List (Literal × ℚ))
    (constsNecessities : List (Term × ℚ)) (state : List Literal) (action : Literal)
    (subs : List Substitution) : ℚ :=
  if !Literal.compatible actionLiteral action then 1
  else
    cdProb precondsNecessities constsNecessities
      (subs.foldl (fun cds sub =>
        setInsert unverifiedLt (unverifiedOf precondsNecessities constsNecessities state sub)
          cds) [])

/-- The value that `ActionRule::fulfilmentProbability` returns, given the set `subs` that
`prematchingSubs` and `generateRandomSubs` have built. -/
def fulfilmentProbability (actionLiteral : Literal) (precondsNecessities : List (Literal × ℚ))
    (constsNecessities : List (Term × ℚ)) (state : List Literal) (action : Literal)
    (subs : List Substitution) : ℚ :=
  1 - computeCdProb actionLiteral precondsNecessities constsNecessities state action subs

/-- The loop of `unifyAction` over the positions of `subPrecond`: every variable is bound
to the parameter of the fact at its position; `none` when `valid` is cleared, which
happens when the parameter of the fact is already an image. -/
def bindParams : List Term → List Term → Substitution → Option Substitution
  | p :: ps, f :: fs, newSub =>
    if p.isVariable then
      if (newSub.getInverse f).isSome then none
      else bindParams ps fs (newSub.set p f)
    else bindParams ps fs newSub
  | _, _, newSub => some newSub

/-- One round of the first loop of `unifyAction`: the vector `newSubs` built from `allSubs`
for the true precondition `precond`. -/
def unifyActionStep (state : List Literal) (precond : Literal)
    (allSubs : List Substitution) : List Substitution :=
  allSubs.foldl (fun newSubs sub =>
    (query state (sub.apply precond)).foldl (fun newSubs fact =>
      match bindParams (sub.apply precond).parameters fact.parameters sub with
      | some newSub => newSubs ++ [newSub]
      | none => newSubs) newSubs) []

/-- The method `State::unifyAction`. -/
def unifyAction (state : List Literal) (action : Action) : List Substitution :=
  (action.truePrecond.foldl (fun allSubs precond => unifyActionStep state precond allSubs)
    [Substitution.empty]).filter (fun sub =>
      !action.falsePrecond.any (fun precond => stateContains state (sub.apply precond)))

/-! ## Concrete rules and examples used as witnesses -/

/-- A variable without type. -/
def mkVar (n : String) : Term := ⟨n, true, none⟩

/-- A constant without type. -/
def mkConst (n : String) : Term := ⟨n, false, none⟩

/-- A positive literal whose predicate has the arity of the parameter list. -/
def mkLit (p : String) (ps : List Term) : Literal := ⟨⟨p, ps.length⟩, ps, true⟩

/-- The rule `act() : p(X)` without effects. -/
def ruleTwoMatches : ActionRule :=
  ⟨[mkLit "p" [mkVar "X"]], mkLit "act" [], [], [], [], [mkVar "X"]⟩

/-- The example `act()` observed in the state `p(a), p(b)`, without effects. -/
def exampleTwoMatches : ActionRule :=
  ⟨[mkLit "p" [mkConst "a"], mkLit "p" [mkConst "b"]], mkLit "act" [], [], [], [],
    [mkConst "a", mkConst "b"]⟩

/-- Rule 1 of the test `WellFormation`: `move(X, Y)` with preconditions `clear(Y)`,
`on(X, Z)`, add effect `on(X, Y)` and delete effect `-on(X, Z)`. -/
def ruleMove : ActionRule :=
  ⟨[mkLit "clear" [mkVar "Y"], mkLit "on" [mkVar "X", mkVar "Z"]],
    mkLit "move" [mkVar "X", mkVar "Y"],
    [mkLit "on" [mkVar "X", mkVar "Y"]],
    [(mkLit "on" [mkVar "X", mkVar "Z"]).neg], [],
    [mkVar "X", mkVar "Y", mkVar "Z"]⟩

/-- The rule `toggle(X)` with add effect `on(X)` and delete effect `-off(X)`. -/
def ruleToggle : ActionRule :=
  ⟨[], mkLit "toggle" [mkVar "X"], [mkLit "on" [mkVar "X"]],
    [(mkLit "off" [mkVar "X"]).neg], [], [mkVar "X"]⟩

/-- The example `toggle(a)` with the opposite effects: add `off(a)`, delete `-on(a)`. -/
def exampleToggle : ActionRule :=
  ⟨[], mkLit "toggle" [mkConst "a"], [mkLit "off" [mkConst "a"]],
    [(mkLit "on" [mkConst "a"]).neg], [], [mkConst "a"]⟩

/-- The rule `act()` with the add effect `q(c)` for a constant `c`, and no parents. -/
def ruleAdds (c : String) (parents : List Nat) : ActionRule :=
  ⟨[], mkLit "act" [], [mkLit "q" [mkConst c]], [], parents, [mkConst c]⟩

/-- The example `act()` without effects. -/
def exampleNoEffect : ActionRule := ⟨[], mkLit "act" [], [], [], [], []⟩

/-- An agent with two active rules, at indices 1 and 2, that both contradict the example
at index 3; the rule at index 1 generalises the leaf at index 0. -/
def agentTwoContradicting : Agent :=
  ⟨[ruleAdds "a" [], ruleAdds "a" [0], ruleAdds "b" [], exampleNoEffect], [1, 2], [0], []⟩

/-- The generalisation DAG is acyclic: a rank decreases along every parent link, and
`depth` bounds the rank. -/
def Acyclic (heap : List ActionRule) (depth : Nat) : Prop :=
  ∃ rank : Nat → Nat, (∀ i, rank i < depth) ∧
    ∀ i p, p ∈ (ruleAt heap i).parents → rank p < rank i

/-- An agent whose only active rule, at index 1, does not cover the example at index 2,
while its parent at index 0 does. -/
def agentAncestorCovers : Agent :=
  ⟨[ruleAdds "a" [], ruleAdds "b" [0], ruleAdds "a" []], [1], [0, 2], []⟩

/-- A node `j` is the rule `i` itself or one of its ancestors in the generalisation DAG. -/
def Reach (heap : List ActionRule) (i j : Nat) : Prop :=
  Relation.ReflTransGen (fun a b => b ∈ (ruleAt heap a).parents) i j

/-- The method `Substitution::checkInjective`. The loop state is the flag that no value
was met twice so far, and the set `values`. -/
def Substitution.checkInjective (s : Substitution) : Bool :=
  (s.mapping.foldl (fun (st : Bool × List Term) pair =>
    if !st.1 then st
    else if inList Term.eq st.2 pair.2 then (false, st.2)
    else (true, setInsert Term.lt pair.2 st.2)) (true, [])).1

/-- The entries of a `std::map<Term, Term>` are in strictly increasing key order. -/
def MapSorted (m : List (Term × Term)) : Prop :=
  m.Pairwise (fun p q => p.1.lt q.1 = true)

/-- The value stored under the key of name `n`, if any. -/
def nget (m : List (Term × Term)) (n : String) : Option Term :=
  (m.find? (fun p => p.1.name == n)).map (fun p => p.2)

/-- The invariant of the substitutions built by the matching functions: the map is
sorted, the flag `injective` is set, every image is a constant, and two entries with the
same image are the same entry unless one of them maps a name to itself. -/
structure SubInv (s : Substitution) : Prop where
  sorted : MapSorted s.mapping
  flag : s.injective = true
  ground : ∀ e ∈ s.mapping, e.2.isVariable = false
  inj : ∀ e1 ∈ s.mapping, ∀ e2 ∈ s.mapping, e1.2.name = e2.2.name →
    e1.1.name = e2.1.name ∨ e1.2.name = e1.1.name ∨ e2.2.name = e2.1.name

/-- The substitution `t` keeps every binding of `s`. -/
def Ext (s t : Substitution) : Prop :=
  ∀ n v, nget s.mapping n = some v → nget t.mapping n = some v

/-- The term `p` is a key of `s`, bound to a term of name `n`. -/
def Bound (s : Substitution) (p : Term) (n : String) : Prop :=
  ∃ v, nget s.mapping p.name = some v ∧ v.name = n

/-- The literal `f` is mapped by `s`, parameter by parameter, onto a fact of `xs` with
the same predicate. -/
def Matched (xs : List Literal) (s : Substitution) (f : Literal) : Prop :=
  ∃ c ∈ xs, c.pred.eq f.pred = true ∧
    List.Forall₂ (fun p q => Bound s p q.name) f.parameters c.parameters

/-- The terms of the action literal and of the preconditions of a rule. -/
def ActionRule.preTerms (r : ActionRule) : List Term :=
  r.actionLiteral.parameters ++ r.preconditions.flatMap (fun l => l.parameters)

/-- Rule of the test `PrematchingTests`: `move(X, Y)` with preconditions `block(X)`,
`clear(X)`, `clear(Y)`, `on(X, Z)`. -/
def rulePrematch : ActionRule :=
  ⟨[mkLit "block" [mkVar "X"], mkLit "clear" [mkVar "X"], mkLit "clear" [mkVar "Y"],
      mkLit "on" [mkVar "X", mkVar "Z"]],
    mkLit "move" [mkVar "X", mkVar "Y"], [], [], [], [mkVar "X", mkVar "Y", mkVar "Z"]⟩

/-- Example of the test `PrematchingTests` with several matches: `move(a, b)` in the state
`block(a)`, `clear(a)`, `clear(b)`, `on(a, c)`, `on(a, d)`, `on(a, e)`. -/
def examplePrematch : ActionRule :=
  ⟨[mkLit "block" [mkConst "a"], mkLit "clear" [mkConst "a"], mkLit "clear" [mkConst "b"],
      mkLit "on" [mkConst "a", mkConst "c"], mkLit "on" [mkConst "a", mkConst "d"],
      mkLit "on" [mkConst "a", mkConst "e"]],
    mkLit "move" [mkConst "a", mkConst "b"], [], [], [],
    [mkConst "a", mkConst "b", mkConst "c", mkConst "d", mkConst "e"]⟩

/-- The rule `act(a)` without preconditions or effects; it is its own example. -/
def ruleActConst : ActionRule := ⟨[], mkLit "act" [mkConst "a"], [], [], [], [mkConst "a"]⟩

/-- The rule `act(?a) : p(?a)`, whose variable has the name of the constant `a`. -/
def ruleClash : ActionRule :=
  ⟨[mkLit "p" [mkVar "a"]], mkLit "act" [mkVar "a"], [], [], [], [mkVar "a"]⟩

/-- The example `act(a)` in the state `p(b)`. -/
def exampleClash : ActionRule :=
  ⟨[mkLit "p" [mkConst "b"]], mkLit "act" [mkConst "a"], [], [], [],
    [mkConst "a", mkConst "b"]⟩

/-- The rule `act() : -p(X)`, with a negative precondition. -/
def ruleNegative : ActionRule :=
  ⟨[(mkLit "p" [mkVar "X"]).neg], mkLit "act" [], [], [], [], [mkVar "X"]⟩

/-- The example `act()` in the state `p(a)`. -/
def exampleOneFact : ActionRule :=
  ⟨[mkLit "p" [mkConst "a"]], mkLit "act" [], [], [], [], [mkConst "a"]⟩

/-- The rule `act() : p(X)`. -/
def ruleOneVar : ActionRule :=
  ⟨[mkLit "p" [mkVar "X"]], mkLit "act" [], [], [], [], [mkVar "X"]⟩

/-- The number written by a list of decimal digits. -/
def decDigits : List Char → Nat
  | [] => 0
  | c :: cs => (c.toNat - 48) * 10 ^ cs.length + decDigits cs

/-- The name `n` was produced by `makeNewVar`: it is a generated name, no parameter of the
rule carries it, and it is recorded in `genVars`. -/
def IsGen (rn : List String) (gv : List Term) (n : String) : Prop :=
  (∃ k, n = varName k) ∧ n ∉ rn ∧ ∃ v ∈ gv, v.name = n

/-- The three kinds of keys of the substitutions built by `generalizeLiteralsOI`: a
generated variable, a variable of the first literal kept as it is, or a variable of the
second literal kept as it is. -/
def GenKind (rn : List String) (gv A1 A2 : List Term) (n : String) (v1 v2 : Term) : Prop :=
  IsGen rn gv n ∨ (∃ p ∈ A1, p.isVariable = true ∧ p.name = n ∧ v1.name = n) ∨
    (∃ q ∈ A2, q.isVariable = true ∧ q.name = n ∧ v2.name = n)

/-- The conditions on the terms `A1` of the first literal and `A2` of the second one: no
variable is named `ANY`, no variable of a literal has the name of a term of the other
one, and no term has a name that `makeNewVar` can generate for the rule. -/
structure GenHyp (rn : List String) (A1 A2 : List Term) : Prop where
  noAny1 : ∀ p ∈ A1, p.isVariable = true → p.name ≠ "ANY"
  noAny2 : ∀ q ∈ A2, q.isVariable = true → q.name ≠ "ANY"
  cross : ∀ p ∈ A1, ∀ q ∈ A2, (p.isVariable = true ∨ q.isVariable = true) → p.name ≠ q.name
  fresh1 : ∀ p ∈ A1, p.name ∈ rn ∨ ∀ k, p.name ≠ varName k
  fresh2 : ∀ q ∈ A2, q.name ∈ rn ∨ ∀ k, q.name ≠ varName k

/-- The invariant of the loop of `generalizeLiteralsOI`. -/
structure GenInv (rn : List String) (A1 A2 : List Term) (st : GenState) : Prop where
  sorted1 : MapSorted st.theta1.mapping
  sorted2 : MapSorted st.theta2.mapping
  keys1 : ∀ e ∈ st.theta1.mapping, e.1.isVariable = true ∧ e.1.name ≠ "ANY"
  keys2 : ∀ e ∈ st.theta2.mapping, e.1.isVariable = true ∧ e.1.name ≠ "ANY"
  vals1 : ∀ e ∈ st.theta1.mapping, e.2 ∈ A1
  vals2 : ∀ e ∈ st.theta2.mapping, e.2 ∈ A2
  kind12 : ∀ n v1, nget st.theta1.mapping n = some v1 →
    ∃ v2, nget st.theta2.mapping n = some v2 ∧ GenKind rn st.genVars A1 A2 n v1 v2
  kind21 : ∀ n v2, nget st.theta2.mapping n = some v2 →
    ∃ v1, nget st.theta1.mapping n = some v1

/-- The call of `generalizeLiteralsOI` on `l1` and `l2` from empty substitutions and an
empty `genVars`: the returned literal `g`, with the outcome of the comparisons
`theta1.apply(g) == l1` and `theta2.apply(g) == l2` on the updated substitutions. -/
def litGenCheck (r : ActionRule) (l1 l2 : Literal) : Option (Literal × Bool × Bool) :=
  let res := r.generalizeLiteralsOI l1 l2 [] Substitution.empty Substitution.empty
  res.lit.map (fun g => (g, (res.theta1.apply g).eq l1, (res.theta2.apply g).eq l2))

/-- Some term of the list carries the name `n`. -/
def hasName (l : List Term) (n : String) : Prop := ∃ y ∈ l, y.name = n

/-- No variable of the list is the wildcard `ANY`. -/
def NoAny (l : List Term) : Prop := ∀ t ∈ l, t.isVariable = true → t.name ≠ "ANY"

/-- The set stored in a map `links` under the key of name `n`, if any. -/
def lget (links : List (Term × List Term)) (n : String) : Option (List Term) :=
  (links.find? (fun p => p.1.name == n)).map (fun p => p.2)

/-- The arcs of the map `links`, between names. -/
def LinkEdge (links : List (Term × List Term)) (u w : String) : Prop :=
  ∃ vs, lget links u = some vs ∧ hasName vs w

/-- Two names occur as parameters of one and the same literal of `pre`. -/
def CoOccur (pre : List Literal) (m n : String) : Prop :=
  ∃ f ∈ pre, hasName f.parameters m ∧ hasName f.parameters n

/-- The terms of the action literal and of the effects of a rule. -/
def ActionRule.effectTerms (r : ActionRule) : List Term :=
  r.actionLiteral.parameters ++ (r.del.flatMap (fun l => l.parameters) ++
    r.add.flatMap (fun l => l.parameters))

/-- The term `p` is connected, in the graph of co-occurrence within the preconditions of
`r`, to a parameter of the action literal or of an effect. -/
def LinkedTo (r : ActionRule) (p : Term) : Prop :=
  ∃ n, Relation.ReflTransGen (CoOccur r.preconditions) p.name n ∧ hasName r.effectTerms n

/-- The names that the loop of `linked` can ever visit: the name of the start and the
names stored in the sets of `links`. -/
def linkUniverse (links : List (Term × List Term)) (src : Term) : List String :=
  src.name :: (links.flatMap (fun p => p.2)).map (fun t => t.name)

/-- The invariant of the `while` loop of `linked`, on the sets `toVisit` and `visited`. -/
structure BfsInv (links : List (Term × List Term)) (dst : List Term) (src : Term)
    (tv vis : List Term) : Prop where
  sortedT : tv.Pairwise (fun a b => a.lt b = true)
  sortedV : vis.Pairwise (fun a b => a.lt b = true)
  disj : ∀ y ∈ tv, ¬ hasName vis y.name
  srcIn : hasName tv src.name ∨ hasName vis src.name
  closed : ∀ u, hasName vis u → ∀ w, LinkEdge links u w → hasName vis w ∨ hasName tv w
  avoid : ∀ n, hasName tv n ∨ hasName vis n → ¬ hasName dst n
  univ : ∀ n, hasName tv n ∨ hasName vis n → n ∈ linkUniverse links src
  reach : ∀ n, hasName tv n ∨ hasName vis n →
    Relation.ReflTransGen (LinkEdge links) src.name n
  noAnyT : NoAny tv
  noAnyV : NoAny vis

/-- The invariant of the loops of `wellFormed` that build `vars` and `links`: the names
in `vars` and the keys of `links` are the names satisfying `K`, and the arcs of `links`
are the pairs satisfying `E`. -/
structure LinksInv (K : String → Prop) (E : String → String → Prop)
    (st : List Term × List (Term × List Term)) : Prop where
  vars_iff : ∀ n, hasName st.1 n ↔ K n
  keys_iff : ∀ n, (∃ vs, lget st.2 n = some vs) ↔ K n
  edges_iff : ∀ u w, LinkEdge st.2 u w ↔ E u w
  noAnyV : NoAny st.1
  noAnyL : ∀ e ∈ st.2, NoAny e.2

/-- The rule `act()` without preconditions, whose add effect `q(c)` holds a constant. -/
def ruleAddConst : ActionRule :=
  ⟨[], mkLit "act" [], [mkLit "q" [mkConst "c"]], [], [], [mkConst "c"]⟩

/-- The rule `act(X) : p(ANY)` without effects. -/
def ruleAnyVar : ActionRule :=
  ⟨[mkLit "p" [mkVar "ANY"]], mkLit "act" [mkVar "X"], [], [], [], [mkVar "ANY", mkVar "X"]⟩

/-- The rule `move(X, Y)` with preconditions `block(W)`, `clear(Y)`, `on(X, Z)`, add effect
`on(X, Y)` and delete effect `-on(X, Z)`: the variable `W` is linked to nothing. -/
def ruleUnlinked : ActionRule :=
  ⟨[mkLit "block" [mkVar "W"], mkLit "clear" [mkVar "Y"], mkLit "on" [mkVar "X", mkVar "Z"]],
    mkLit "move" [mkVar "X", mkVar "Y"], [mkLit "on" [mkVar "X", mkVar "Y"]],
    [(mkLit "on" [mkVar "X", mkVar "Z"]).neg], [],
    [mkVar "W", mkVar "X", mkVar "Y", mkVar "Z"]⟩

/-- Every key of the substitution is a term of the list `T`. -/
def KeysFrom (T : List Term) (a : Substitution) : Prop := ∀ e ∈ a.mapping, e.1 ∈ T

/-- Every binding of `a` is, up to the name of the image, a binding of `b`. -/
def SameMap (a b : Substitution) : Prop :=
  ∀ n v, nget a.mapping n = some v → ∃ w, nget b.mapping n = some w ∧ w.name = v.name

/-- The name to which the substitution `t` sends the name `n`. -/
def tauName (t : Substitution) (n : String) : String :=
  match nget t.mapping n with
  | some v => v.name
  | none => n

/-- Every binding of `a` sends a name where `t` sends it. -/
def Agree (t a : Substitution) : Prop :=
  ∀ n v, nget a.mapping n = some v → v.name = tauName t n

/-- The rule `act(?a)`, whose variable has the name of the constant `a`. -/
def ruleActVar : ActionRule := ⟨[], mkLit "act" [mkVar "a"], [], [], [], [mkVar "a"]⟩

/-- The rule `act(?ANY) : p(X)`. -/
def ruleAnyAct : ActionRule :=
  ⟨[mkLit "p" [mkVar "X"]], mkLit "act" [mkVar "ANY"], [], [], [],
    [mkVar "ANY", mkVar "X"]⟩

/-- The example `act(a)` in the state `p(b)`, `p(c)`. -/
def exampleTwoFacts : ActionRule :=
  ⟨[mkLit "p" [mkConst "b"], mkLit "p" [mkConst "c"]], mkLit "act" [mkConst "a"], [], [], [],
    [mkConst "a", mkConst "b", mkConst "c"]⟩

/-- The rule `act() : p(X, Y)`, with the predicate `p` of arity 2. -/
def ruleBinary : ActionRule :=
  ⟨[⟨⟨"p", 2⟩, [mkVar "X", mkVar "Y"], true⟩], mkLit "act" [], [], [], [],
    [mkVar "X", mkVar "Y"]⟩

/-- The example `act()` in the state `p(a)`, with the predicate `p` of arity 1. -/
def exampleUnary : ActionRule :=
  ⟨[⟨⟨"p", 1⟩, [mkConst "a"], true⟩], mkLit "act" [], [], [], [], [mkConst "a"]⟩

/-- The rule `act(?a, a)`, whose variable has the name of its constant. -/
def ruleVarConst : ActionRule :=
  ⟨[], mkLit "act" [mkVar "a", mkConst "a"], [], [], [], [mkVar "a"]⟩

/-- The example `act(b, b)`. -/
def exampleSame : ActionRule :=
  ⟨[], mkLit "act" [mkConst "b", mkConst "b"], [], [], [], [mkConst "b"]⟩

/-- The trace of the test `ActionRuleConstruction`: `move(a, f2, b)` from the state
`block(a)`, `block(b)`, `clear(a)`, `clear(f2)`, `on(a, b)`, `on(b, f1)`. -/
def traceMove : Trace :=
  ⟨[mkLit "block" [mkConst "a"], mkLit "block" [mkConst "b"], mkLit "clear" [mkConst "a"],
      mkLit "clear" [mkConst "f2"], mkLit "on" [mkConst "a", mkConst "b"],
      mkLit "on" [mkConst "b", mkConst "f1"]],
    mkLit "move" [mkConst "a", mkConst "f2", mkConst "b"], true,
    [mkLit "block" [mkConst "a"], mkLit "block" [mkConst "b"], mkLit "clear" [mkConst "a"],
      mkLit "clear" [mkConst "b"], mkLit "on" [mkConst "a", mkConst "f2"],
      mkLit "on" [mkConst "b", mkConst "f1"]]⟩

/-- The substitution `s1` is obtained from `s0` by assigning to the elements of `us`, one
after the other, an element of `tgt` of a subsumed type that is not yet an image. -/
def ExpandsTo (tgt : List Term) : Substitution → List Term → Substitution → Prop
  | s0, [], s1 => s1 = s0
  | s0, u :: us, s1 => ∃ t ∈ tgt, (s0.getInverse t).isSome = false ∧
      typeSubsumes u.type t.type = true ∧ ExpandsTo tgt (s0.set u t) us s1

/-- The substitution `s1` keeps the entries of `s0` and has, besides them, exactly one entry
for each element of `us`, which assigns to it an element of `tgt` of a subsumed type that
is the image of no other entry. -/
structure ExpandSpec (tgt : List Term) (s0 : Substitution) (us : List Term)
    (s1 : Substitution) : Prop where
  flag : s1.injective = s0.injective
  sorted : MapSorted s1.mapping
  keeps : ∀ e ∈ s0.mapping, e ∈ s1.mapping
  assigns : ∀ u ∈ us, ∃ t ∈ tgt, (u, t) ∈ s1.mapping ∧ typeSubsumes u.type t.type = true ∧
    ∀ e ∈ s0.mapping, e.2.eq t = false
  only : ∀ e ∈ s1.mapping, e ∈ s0.mapping ∨ e.1 ∈ us
  once : ∀ e1 ∈ s1.mapping, ∀ e2 ∈ s1.mapping, e1.1 ∈ us → e2.1 ∈ us → e1 ≠ e2 →
    e1.2.eq e2.2 = false

/-- The substitution `sub1` of the test `SubstitutionOps`: `a/X`, `b/Y`, `d/W`, `e/U`. -/
def subOps : Substitution :=
  ⟨[(mkConst "a", mkVar "X"), (mkConst "b", mkVar "Y"), (mkConst "d", mkVar "W"),
    (mkConst "e", mkVar "U")], true⟩

/-- The source set `V`, `a`, `c` of the second expansion of the test `SubstitutionOps`. -/
def frmOps : List Term := [mkVar "V", mkConst "a", mkConst "c"]

/-- The target set `X`, `Y`, `f`, `g` of the second expansion of the test
`SubstitutionOps`. -/
def tgtOps : List Term := [mkVar "X", mkVar "Y", mkConst "f", mkConst "g"]

/-- The parameters of the literals of a list. -/
def litTerms (ls : List Literal) : List Term := ls.flatMap (fun l => l.parameters)

/-- The invariant of the substitutions built by `oiSubsume`: the map is sorted, every image
is a constant, and no two entries have images of the same name. -/
structure OiInv (s : Substitution) : Prop where
  sorted : MapSorted s.mapping
  ground : ∀ e ∈ s.mapping, e.2.isVariable = false
  inj : ∀ e1 ∈ s.mapping, ∀ e2 ∈ s.mapping, e1.2.name = e2.2.name → e1 = e2

/-- No variable of `source` carries the name of a term of `dst` or of a constant of
`source`. -/
def OiNoClash (source dst : List Literal) : Prop :=
  ∀ p ∈ litTerms source, p.isVariable = true →
    (∀ q ∈ litTerms dst, p.name ≠ q.name) ∧
    ∀ q ∈ litTerms source, q.isVariable = false → p.name ≠ q.name

/-- The one-pass image of the literal `l` under `s` is, up to the polarity, a literal of
`dst`: same predicate name, same parameter names. -/
def ImageIn (dst : List Literal) (s : Substitution) (l : Literal) : Prop :=
  ∃ d ∈ dst, d.pred.eq l.pred = true ∧
    List.Forall₂ (fun p q => p.name = q.name) (s.apply l).parameters d.parameters

/-- The initial substitution `X/a`, `Y/c` of the first subsumption of the test
`SubstitutionOps`. -/
def subOi : Substitution := ⟨[(mkVar "X", mkConst "a"), (mkVar "Y", mkConst "c")], true⟩

/-- The source of the first subsumption of the test `SubstitutionOps`, in the order of the
set: `p1(X)`, `p1(Z)`, `p2(X, Y)`, `p2(Y, U)`. -/
def srcOi : List Literal :=
  [mkLit "p1" [mkVar "X"], mkLit "p1" [mkVar "Z"], mkLit "p2" [mkVar "X", mkVar "Y"],
    mkLit "p2" [mkVar "Y", mkVar "U"]]

/-- The destination of the first subsumption of the test `SubstitutionOps`: `p1(a)`,
`p1(b)`, `p1(e)`, `p2(a, c)`, `p2(c, b)`, `p2(c, e)`. -/
def dstOi : List Literal :=
  [mkLit "p1" [mkConst "a"], mkLit "p1" [mkConst "b"], mkLit "p1" [mkConst "e"],
    mkLit "p2" [mkConst "a", mkConst "c"], mkLit "p2" [mkConst "c", mkConst "b"],
    mkLit "p2" [mkConst "c", mkConst "e"]]

/-- The substitution `t` is an injective extension of `s0` that binds, besides the keys of
`s0`, only variables of `src` that `s0` does not bind, and maps every literal of `src` to
a literal of `dst` up to the polarity. -/
structure OiValid (s0 : Substitution) (src dst : List Literal) (t : Substitution) :
    Prop where
  sorted : MapSorted t.mapping
  flag : t.injective = s0.injective
  inj : t.checkInjective = true
  keeps : ∀ e ∈ s0.mapping, e ∈ t.mapping
  binds : ∀ e ∈ t.mapping, e ∈ s0.mapping ∨
    (e.1.isVariable = true ∧ e.1 ∈ litTerms src ∧ s0.get e.1 = none)
  image : ∀ l ∈ src, ImageIn dst t l

/-- The names along the parent chain of a type, the type itself first (the
wording of the specification of `typeSubsumes`). -/
def TermType.chainNames : TermType → List String
  | .base n => [n]
  | .child n p => n :: p.chainNames

/-- The domain of the test `DomainOps`: the schema `p2(U, V)` with the true preconditions
`p2(U, V)` and `p1(U)`, the false precondition `p1(V)`, the add effects `p0()` and
`p2(V, U)` and the delete effect `-p2(U, V)`; the predicates and the constant `cst` as
after the calls of `addPredicate` and `addConstant` of the test; no reset state. -/
def domainOps : Domain :=
  ⟨[⟨"delete", 1⟩, ⟨"p0", 0⟩, ⟨"p1", 1⟩, ⟨"p2", 2⟩, ⟨"remove-fact", 1⟩, ⟨"reset", 0⟩],
    [mkConst "cst"],
    [⟨mkLit "p2" [mkVar "U", mkVar "V"],
      [mkLit "p2" [mkVar "U", mkVar "V"], mkLit "p1" [mkVar "U"]],
      [mkLit "p1" [mkVar "V"]],
      [mkLit "p0" [], mkLit "p2" [mkVar "V", mkVar "U"]],
      [(mkLit "p2" [mkVar "U", mkVar "V"]).neg]⟩],
    ⟨"delete", 1⟩, ⟨mkLit "reset" [], [], [], [], []⟩,
    ⟨mkLit "delete" [mkVar "obj"], [], [], [], []⟩,
    ⟨mkLit "remove-fact" [mkVar "obj"], [], [], [], []⟩, none, []⟩

/-- The instances `a`, `b`, `c`, `d`, `e` of the test `DomainOps`. -/
def instancesOps : List Term :=
  [mkConst "a", mkConst "b", mkConst "c", mkConst "d", mkConst "e"]

/-- The state `state1` of the test `DomainOps`, in which `p2(a, c)` is legal. -/
def stateLegal : List Literal :=
  [mkLit "p1" [mkConst "a"], mkLit "p1" [mkConst "b"], mkLit "p2" [mkConst "a", mkConst "b"],
    mkLit "p2" [mkConst "a", mkConst "c"], mkLit "p2" [mkConst "b", mkConst "c"]]

/-- The state `state2` of the test `DomainOps`, in which `p2(a, c)` is illegal. -/
def stateIllegal : List Literal :=
  [mkLit "p1" [mkConst "a"], mkLit "p1" [mkConst "b"], mkLit "p1" [mkConst "c"],
    mkLit "p2" [mkConst "a", mkConst "c"]]

/-- The outcome that the specification of `tryAction` gives for an authorized action
literal `a`: a schema of the domain and a substitution that maps the action literal of
the schema to `a`, every true precondition to a fact of the state and no false
precondition to a fact of the state, the new state being the state with the images of the
add effects added and, unless `onlyAdd` is set, the images of the delete effects removed.
Literals and states are compared with their `operator==`. -/
def TryActionSpec (d : Domain) (state : List Literal) (a : Literal) (onlyAdd : Bool)
    (newState : List Literal) : Prop :=
  ∃ act ∈ d.actions, ∃ s : Substitution,
    (s.apply act.actionLiteral).eq a = true ∧
    (∀ p ∈ act.truePrecond, stateContains state (s.apply p) = true) ∧
    (∀ p ∈ act.falsePrecond, stateContains state (s.apply p) = false) ∧
    stateEq newState
      (if onlyAdd then addFacts state (s.applySet (toSet Literal.lt act.add))
       else removeFacts (addFacts state (s.applySet (toSet Literal.lt act.add)))
        (s.applySet (toSet Literal.lt act.del))) = true

/-- A domain with the single schema `move(X, Y)`, without preconditions, whose only effect
is to add `on(X, Y)`. -/
def domainMove : Domain :=
  ⟨[⟨"delete", 1⟩, ⟨"on", 2⟩, ⟨"remove-fact", 1⟩, ⟨"reset", 0⟩], [],
    [⟨mkLit "move" [mkVar "X", mkVar "Y"], [], [],
      [mkLit "on" [mkVar "X", mkVar "Y"]], []⟩],
    ⟨"delete", 1⟩, ⟨mkLit "reset" [], [], [], [], []⟩,
    ⟨mkLit "delete" [mkVar "obj"], [], [], [], []⟩,
    ⟨mkLit "remove-fact" [mkVar "obj"], [], [], [], []⟩, none, []⟩

/-- The terms of the action literal and of the preconditions of a schema. -/
def Action.terms (act : Action) : List Term :=
  act.actionLiteral.parameters ++ (litTerms act.truePrecond ++ litTerms act.falsePrecond)

/-- The schema `act` fits the action literal `a`: its action literal has the polarity of
`a` and as many parameters as `a`, at least as many as the arity of its predicate and
pairwise distinct by name; and no variable among the terms of its action literal and of
its preconditions has the name of a parameter of `a` or of a constant among these terms. -/
structure SchemaFits (act : Action) (a : Literal) : Prop where
  polarity : act.actionLiteral.positive = a.positive
  length : act.actionLiteral.parameters.length = a.parameters.length
  arity : act.actionLiteral.pred.arity ≤ a.parameters.length
  distinct : act.actionLiteral.parameters.Pairwise (fun p q => p.name ≠ q.name)
  hygiene : ∀ v ∈ act.terms, v.isVariable = true →
    (∀ c ∈ a.parameters, v.name ≠ c.name) ∧
    ∀ c ∈ act.terms, c.isVariable = false → v.name ≠ c.name

/-- The substitution `t` keeps every binding of `s`, has a sorted map, and binds besides
the keys of `s` only names of variables of `T`. -/
structure VarExt (T : List Term) (s t : Substitution) : Prop where
  sorted : MapSorted t.mapping
  keeps : Ext s t
  only : ∀ n, nget t.mapping n ≠ none →
    nget s.mapping n ≠ none ∨ ∃ u ∈ T, u.isVariable = true ∧ u.name = n

/-- The comparator `lt` is a strict weak order on the elements that satisfy `W`:
irreflexive, transitive, and compatible with its incomparability relation. -/
structure StrictWeak {α : Type} (lt : α → α → Bool) (W : α → Prop) : Prop where
  irrefl : ∀ a, W a → lt a a = false
  trans : ∀ a b c, W a → W b → W c → lt a b = true → lt b c = true → lt a c = true
  left : ∀ a b c, W a → W b → W c → lt a b = false → lt b a = false → lt a c = lt b c
  right : ∀ a b c, W a → W b → W c → lt a b = false → lt b a = false → lt c a = lt c b

/-- The lexicographic order on lists of names that `Literal::operator<` follows on ground
literals of one polarity. -/
def namesLt : List String → List String → Bool
  | a :: as, b :: bs => if a ≠ b then strLt a b else namesLt as bs
  | _, _ => false

/-- The names that `Literal::operator<` reads in a ground literal: the name of the
predicate, then the names of the parameters. -/
def Literal.key (l : Literal) : List String := l.pred.name :: l.parameters.map (fun p => p.name)

/-- The number `k` in the wording of the specification of the initial necessities: the
number of preconditions, plus the number of non-variable parameters of the rule, minus
the number of delete effects. -/
def specComponents (r : ActionRule) : ℚ :=
  (r.preconditions.length : ℚ) + ((r.parameters.filter (fun p => !p.isVariable)).length : ℚ) -
    (r.del.length : ℚ)

/-- A function that agrees with `powf` on the base `1/4` at the exponents `1` and `1/2`,
where the power is `1/4` and `1/2`. -/
def powfQuarter (x y : ℚ) : ℚ :=
  if x = 1 / 4 ∧ y = 1 then 1 / 4 else if x = 1 / 4 ∧ y = 1 / 2 then 1 / 2 else 1

/-- The rule `act(a)` with the precondition `p(X)` and no effects, built by the
constructor without filtering: the constant `a` is a parameter of the rule and occurs in
no precondition. -/
def ruleConstAction : ActionRule :=
  ActionRule.make [mkLit "p" [mkVar "X"]] (mkLit "act" [mkConst "a"]) [] [] [] false

/-- The preconditions `block(a)`, `block(c)`, `clear(Y)`, `clear(Z)`, `on(X, Z)` of the
first rule of the test `ProbabilitiesTests`, in the order of the set. -/
def precondsProb : List Literal :=
  [mkLit "block" [mkConst "a"], mkLit "block" [mkConst "c"], mkLit "clear" [mkVar "Y"],
    mkLit "clear" [mkVar "Z"], mkLit "on" [mkVar "X", mkVar "Z"]]

/-- The delete effect `-on(X, Z)` of the first rule of the test `ProbabilitiesTests`. -/
def delProb : List Literal := [(mkLit "on" [mkVar "X", mkVar "Z"]).neg]

/-- The power with the exponent rounded down to a natural number, which is `powf` on
the exponents that `computeProb` passes when they hold a natural number. -/
def powFloor (x y : ℚ) : ℚ := x ^ (Int.toNat (Rat.floor y))

/-- An unknown rule with `pAny = 1/2`, ten possible ground literals and the specific
value `1/2` for the fact `p(a)`. -/
def unknownHalf : UnknownRule := ⟨1 / 2, 10, [(mkLit "p" [mkConst "a"], 1 / 2)]⟩

/-- The relation that the update loop of `corroborateRules` keeps between a necessity
`v` and the necessity `n` that replaces it: `n` is `v` when `v` is `0` or `1` or when
`protRT` or `covMT` is `0`, and `n` lies in `[0, 19/20]` otherwise. -/
def NecUpdated (protRT covMT v n : ℚ) : Prop :=
  ((v = 0 ∨ v = 1 ∨ protRT = 0 ∨ covMT = 0) → n = v) ∧
  (v ≠ 0 → v ≠ 1 → protRT ≠ 0 → covMT ≠ 0 → 0 ≤ n ∧ n ≤ 19 / 20)

/-- The necessity map `block(a)`: 1/5, `block(b)`: 1 of preconditions. -/
def precNecsSample : List (Literal × ℚ) :=
  [(mkLit "block" [mkConst "a"], 1 / 5), (mkLit "block" [mkConst "b"], 1)]

/-- The necessity map `a`: 0, `b`: 3/10 of constants. -/
def constNecsSample : List (Term × ℚ) := [(mkConst "a", 0), (mkConst "b", 3 / 10)]

/-- The probability of one disjunction in the wording of the specification: one minus
the product, over the elements of the disjunction, of one minus the necessity of the
element. -/
def disjProb (vL : Literal → ℚ) (vT : Term → ℚ) (d : List Literal × List Term) : ℚ :=
  1 - (d.1.map (fun l => 1 - vL l)).prod * (d.2.map (fun t => 1 - vT t)).prod

/-- The necessity that a map holds for a key, `0` for a term that is no key. -/
def necOf {κ : Type} [DecidableEq κ] (m : List (κ × ℚ)) (k : κ) : ℚ :=
  ((m.find? (fun e => decide (e.1 = k))).map (fun e => e.2)).getD 0

/-- No pruning test of `cdProbTree` fires along the recursion: at every choice that occurs
in a disjunction, the mass of the true branch is at least `PRECISION` and the mass of the
false branch is not below it. -/
def noPruning : List ((Literal ⊕ Term) × ℚ) → ℚ → List (List Literal × List Term) → Bool
  | [], _, _ => true
  | (choice, choicePower) :: rest, branchPower, cds =>
    if cds.any (fun disj => disj.1.length + disj.2.length == 0) then true
    else if !(cdSplit choice cds).foundChoiceInDisjunction then
      noPruning rest branchPower (cdSplit choice cds).cdsTrue
    else
      decide (choicePower * branchPower ≥ PRECISION) &&
      !decide (branchPower * (1 - choicePower) < PRECISION) &&
      noPruning rest (branchPower * choicePower) (cdSplit choice cds).cdsTrue &&
      ((cdSplit choice cds).pruneFalseBranch ||
        noPruning rest (branchPower * (1 - choicePower)) (cdSplit choice cds).cdsFalse)

/-- The choice is an element of the disjunction. -/
def elemIn (choice : Literal ⊕ Term) (d : List Literal × List Term) : Prop :=
  match choice with
  | Sum.inl l => l ∈ d.1
  | Sum.inr t => t ∈ d.2

/-- The disjunction left for the false branch of a choice, if any: the disjunction
itself when the choice does not occur in it, the disjunction without the choice when
this is not empty. -/
def falseOf (choice : Literal ⊕ Term) (d : List Literal × List Term) :
    Option (List Literal × List Term) :=
  if choiceIn choice d then
    if (choiceRemoved choice d).1.length + (choiceRemoved choice d).2.length == 0 then none
    else some (choiceRemoved choice d)
  else some d

/-- The necessity maps of the test `CdProbTests`. -/
def precNecsTest : List (Literal × ℚ) :=
  [(mkLit "block" [mkConst "a"], 1 / 5), (mkLit "block" [mkConst "b"], 2 / 5),
    (mkLit "block" [mkConst "c"], 3 / 5), (mkLit "block" [mkConst "d"], 4 / 5)]

/-- The necessities of the constants of the test `CdProbTests`. -/
def constNecsTest : List (Term × ℚ) :=
  [(mkConst "a", 1 / 10), (mkConst "b", 3 / 10), (mkConst "c", 1 / 2), (mkConst "d", 7 / 10)]

/-- The disjoint disjunctions `block(a) ∨ a`, `block(b) ∨ b`, `block(c) ∨ c` of the test
`CdProbTests`. -/
def cdsTest : List (List Literal × List Term) :=
  [([mkLit "block" [mkConst "a"]], [mkConst "a"]),
    ([mkLit "block" [mkConst "b"]], [mkConst "b"]),
    ([mkLit "block" [mkConst "c"]], [mkConst "c"])]

/-- The disjunction without the choice, as lists. -/
def elemErase (choice : Literal ⊕ Term) (d : List Literal × List Term) :
    List Literal × List Term :=
  match choice with
  | Sum.inl l => (d.1.erase l, d.2)
  | Sum.inr t => (d.1, d.2.erase t)

/-- The necessity of a choice under the two valuations. -/
def choiceNec (vL : Literal → ℚ) (vT : Term → ℚ) (choice : Literal ⊕ Term) : ℚ :=
  match choice with
  | Sum.inl l => vL l
  | Sum.inr t => vT t

/-- The choice is a key of one of the two key lists. -/
def choiceKey (KL : List Literal) (KT : List Term) (choice : Literal ⊕ Term) : Prop :=
  match choice with
  | Sum.inl l => l ∈ KL
  | Sum.inr t => t ∈ KT

/-- Two disjunctions share no element. -/
def DisjointDisj (d e : List Literal × List Term) : Prop :=
  (∀ l ∈ d.1, l ∉ e.1) ∧ (∀ t ∈ d.2, t ∉ e.2)

/-- The state of `cdProbTree` on disjoint disjunctions: the choices left have distinct
keys, every disjunction is a non-empty set of keys whose necessities are among the choices
left, and no two disjunctions share an element. -/
structure CdInv (KL : List Literal) (KT : List Term) (vL : Literal → ℚ) (vT : Term → ℚ)
    (C : List ((Literal ⊕ Term) × ℚ)) (cds : List (List Literal × List Term)) : Prop where
  nodup : (C.map Prod.fst).Nodup
  keys : ∀ c ∈ C, choiceKey KL KT c.1
  sortedL : ∀ d ∈ cds, d.1.Pairwise (fun a b => a.lt b = true)
  sortedT : ∀ d ∈ cds, d.2.Pairwise (fun a b => a.lt b = true)
  elemL : ∀ d ∈ cds, ∀ l ∈ d.1, l ∈ KL ∧ (Sum.inl l, vL l) ∈ C
  elemT : ∀ d ∈ cds, ∀ t ∈ d.2, t ∈ KT ∧ (Sum.inr t, vT t) ∈ C
  nonempty : ∀ d ∈ cds, (d.1.length + d.2.length == 0) = false
  disjoint : cds.Pairwise DisjointDisj

/-- What the constructor of `Domain` establishes on the meta actions, and what no method
changes afterwards: their predicates are named `reset`, `delete` and `remove-fact`, and the
literal of the `delete` action has the predicate `deletePred`. -/
structure MetaActions (d : Domain) : Prop where
  reset : d.resetAction.actionLiteral.pred.name = "reset"
  delete : d.deleteAction.actionLiteral.pred.name = "delete"
  removeFact : d.removeFactAction.actionLiteral.pred.name = "remove-fact"
  deletePred : d.deleteAction.actionLiteral.pred = d.deletePred

/-- The state of the test `DomainOps` in which `a` has been deleted. -/
def stateDeleted : List Literal :=
  [mkLit "delete" [mkConst "a"], mkLit "p1" [mkConst "b"], mkLit "p2" [mkConst "b", mkConst "c"]]

/-- An agent whose only rule, which is active, is the example of the trace `traceMove`. -/
def agentMove : Agent := ⟨[ActionRule.ofTrace traceMove true], [0], [0], []⟩

/-- The set `vars` of the filtering constructors: the parameters of the effects and of the
action literal. -/
def filterVars (actionLiteral : Literal) (add del : List Literal) : List Term :=
  setUnion Term.lt
    (del.foldl (fun r l => setUnion Term.lt r l.parameters)
      (add.foldl (fun r l => setUnion Term.lt r l.parameters) []))
    actionLiteral.parameters

/-- The term `p` is connected, in the graph of co-occurrence within the literals of `pre`,
to a term of `targets`. -/
def LinkedIn (pre : List Literal) (targets : List Term) (p : Term) : Prop :=
  ∃ n, Relation.ReflTransGen (CoOccur pre) p.name n ∧ hasName targets n

/-- The preconditions `block(W)`, `clear(Y)`, `on(X, Z)` of which the filtering
constructor drops the first for the action `move(X, Y)` with the effects `on(X, Y)` and
`-on(X, Z)`. -/
def preUnlinked : List Literal :=
  [mkLit "block" [mkVar "W"], mkLit "clear" [mkVar "Y"], mkLit "on" [mkVar "X", mkVar "Z"]]

/-- The invariant of the substitutions that `unifyAction` has built once the true
preconditions `done` are processed: the map is sorted with constant images of pairwise
distinct names, every variable of `done` is bound, and every literal of `done` is mapped,
name by name, onto a fact of the state. -/
structure UnifyInv (state : List Literal) (done : List Literal) (sub : Substitution) :
    Prop where
  oi : OiInv sub
  bound : ∀ v ∈ litTerms done, v.isVariable = true → nget sub.mapping v.name ≠ none
  image : ∀ p ∈ done, ImageIn state sub p

/-- The instance `at` of type `t1` of the test `StateOps`. -/
def termAt : Term := ⟨"at", false, some (.base "t1")⟩

/-- The instance `bt` of type `t2`, a child of `t1`, of the test `StateOps`. -/
def termBt : Term := ⟨"bt", false, some (.child "t2" (.base "t1"))⟩

/-- The instance `ct` of type `t5` of the test `StateOps`. -/
def termCt : Term := ⟨"ct", false, some (.base "t5")⟩

/-- The state of the test `StateOps`. -/
def stateOps : List Literal :=
  [mkLit "p1" [mkConst "a"], mkLit "p1" [termAt], mkLit "p1" [mkConst "b"],
    mkLit "p1" [termBt], mkLit "p2" [mkConst "a", mkConst "b"],
    mkLit "p2" [mkConst "a", mkConst "c"], mkLit "p2" [termAt, termBt],
    mkLit "p2" [termAt, termCt], mkLit "p2" [mkConst "b", mkConst "c"],
    mkLit "p2" [termBt, termCt]]

/-- The action schema `act` of the tests of `DomainTest.cpp`. -/
def actOps : Action :=
  ⟨mkLit "p2" [mkVar "U", mkVar "V"],
    [mkLit "p2" [mkVar "U", mkVar "V"], mkLit "p1" [mkVar "U"]],
    [mkLit "p1" [mkVar "V"]],
    [mkLit "p0" [], mkLit "p2" [mkVar "V", mkVar "U"]],
    [(mkLit "p2" [mkVar "U", mkVar "V"]).neg]⟩

/-- A schema whose only precondition, `q(X, X)`, holds the variable `X` twice. -/
def actRepeat : Action :=
  ⟨mkLit "act" [], [mkLit "q" [mkVar "X", mkVar "X"]], [], [], []⟩

/-- The characters that `parseLiteral` skips before the first word of a text: the
separators and the dash. -/
def isLeading (c : Char) : Bool := isSeparator c || c == '-'

/-- The words of the characters `cs` read after the characters `w` of an unfinished word:
the runs of characters between separators that are not empty. -/
def pendingWords (w cs : List Char) : List String :=
  (((cs.splitOnP (fun c => isSeparator c)).modifyHead (fun x => w ++ x)).filter
    (fun x => !x.isEmpty)).map String.mk

/-- The words of a text: the runs of characters between separators that are not empty,
once the leading separators and dashes are dropped. -/
def textWords (str : String) : List String :=
  pendingWords [] (str.data.dropWhile isLeading)

/-- The sign of a text: there is no dash among the leading separators and dashes. -/
def textPositive (str : String) : Bool :=
  !(str.data.takeWhile isLeading).any (fun c => c == '-')

/-- The predicate that `parseLiteral` looks up for the first word of a text. -/
def Domain.lookupPred (d : Domain) (action : Bool) (name : String) : Predicate :=
  if action then d.getActionPredByName name else d.getPredByName name

/-- The domain has no predicate of the name `n` for `parseLiteral` to find: no predicate of
the domain when a fact is read, no action when an action literal is read. -/
def Domain.unknownPred (d : Domain) (action : Bool) (n : String) : Prop :=
  if action then
    n ≠ d.resetAction.actionLiteral.pred.name ∧ n ≠ d.deleteAction.actionLiteral.pred.name ∧
    n ≠ d.removeFactAction.actionLiteral.pred.name ∧
    ∀ act ∈ d.actions, act.actionLiteral.pred.name ≠ n
  else ∀ pred ∈ d.predicates, pred.name ≠ n

/-- The rounds of the loop of `parseLiteral` in which a word is read, one word after the
other. -/
def feedWords (d : Domain) (allInsts : List Term) (action : Bool) :
    List String → ParseState → Option ParseState
  | [], st => some st
  | w :: ws, st =>
    match parseFlush d allInsts action ⟨st.pred, st.params, st.positive, st.first, w⟩ with
    | none => none
    | some st1 => feedWords d allInsts action ws st1

/-- The search of `parseLiteral` for the instance or constant of the name `a`. -/
def findInst (allInsts : List Term) (a : String) : Option Term :=
  allInsts.find? (fun it => it.name == a)

/-- A trace of a refused action `act(a)`: the state holds the fact `p1(b)`, which shares no
term with the action, and does not change. -/
def traceRefused : Trace :=
  ⟨[mkLit "p1" [mkConst "a"], mkLit "p1" [mkConst "b"]], mkLit "act" [mkConst "a"], false,
    [mkLit "p1" [mkConst "a"], mkLit "p1" [mkConst "b"]]⟩

/-- An agent without rules and without counter-examples. -/
def agentEmpty : Agent := ⟨[], [], [], []⟩

/-- A name that `parseLiteral` reads back as one word: it is not empty and holds no
separator. -/
def cleanName (n : String) : Bool := n != "" && n.data.all (fun c => !isSeparator c)

/-- The characters that `Literal::toString` prints for the parameters after the first:
each name comes after a comma and a blank. -/
def argChars (ps : List Term) : List Char := ps.flatMap (fun p => ',' :: ' ' :: p.name.data)

/-- The domain after a call of `tryAction` has left `removed` in the field
`removedFacts`. -/
def Domain.setRemoved (d : Domain) (removed : List Literal) : Domain :=
  ⟨d.predicates, d.constants, d.actions, d.deletePred, d.resetAction, d.deleteAction,
    d.removeFactAction, d.resetState, removed⟩

/-- The action literal `remove-fact(f)`, whose parameter has the printed form of the fact
`f` as its name. -/
def removeFactLit (d : Domain) (f : Literal) : Literal :=
  ⟨d.removeFactAction.actionLiteral.pred, [mkConst f.toString], true⟩

/-- The calls of `tryAction` with `remove-fact(f1)`, ..., `remove-fact(fn)` one after the
other, from the state `state` and the record `removed` of removed facts: the state and
the record after the last call, or `none` when a call reports a failure. -/
def removeFactRun (d : Domain) (instances : List Term) (onlyAdd : Bool) :
    List Literal → List Literal → List Literal → Option (List Literal × List Literal)
  | [], state, removed => some (state, removed)
  | f :: fs, state, removed =>
    if ((d.setRemoved removed).tryAction state instances (removeFactLit d f) onlyAdd).there
    then
      removeFactRun d instances onlyAdd fs
        ((d.setRemoved removed).tryAction state instances (removeFactLit d f) onlyAdd).obj
        ((d.setRemoved removed).tryAction state instances (removeFactLit d f)
          onlyAdd).removedFacts
    else none

/-- A state of a domain and of a list of instances: a set of positive facts over the
predicates of the domain, with as many parameters as the arity, whose parameters are
instances or constants; the predicates have distinct names, the instances and constants
are no variables and have distinct names; the names hold no separator, and the name of a
predicate does not start with a dash. -/
structure StateOver (d : Domain) (instances : List Term) (state : List Literal) : Prop where
  sorted : state.Pairwise (fun a b => Literal.lt a b = true)
  positive : ∀ f ∈ state, f.positive = true
  arity : ∀ f ∈ state, f.parameters.length = f.pred.arity
  preds : ∀ f ∈ state, f.pred ∈ d.predicates
  params : ∀ f ∈ state, ∀ p ∈ f.parameters, p ∈ instances ++ d.constants
  predNames : d.predicates.Pairwise (fun p q => p.name ≠ q.name)
  instNames : (instances ++ d.constants).Pairwise (fun p q => p.name ≠ q.name)
  ground : ∀ t ∈ instances ++ d.constants, t.isVariable = false
  cleanPreds : ∀ p ∈ d.predicates, cleanName p.name = true ∧ p.name.data.head? ≠ some '-'
  cleanInsts : ∀ t ∈ instances ++ d.constants, cleanName t.name = true

/-- The two necessity maps that the constructor of `ActionRule` builds when the float
`powf(startPu, 1.0f / components)` has the value `power`. -/
def necessitiesWith (power : ℚ) (preconditions del : List Literal) :
    List (Literal × ℚ) × List (Term × ℚ) :=
  preconditions.foldl (fun st precond =>
    (if inList Literal.eq del precond.neg then mapAssign Literal.lt precond 1 st.1
      else mapAssign Literal.lt precond (1 - power) st.1,
     precond.parameters.foldl (fun constsNecessities param =>
      if !param.isVariable then mapAssign Term.lt param (1 - power) constsNecessities
      else constsNecessities) st.2)) ([], [])

/-! ## Definitions for the coverage of an example after `generalize` -/

/-- The literals of a rule: the action literal, the preconditions and the effects. -/
def ActionRule.allLits (r : ActionRule) : List Literal :=
  r.actionLiteral :: (r.preconditions ++ (r.add ++ r.del))

/-- The terms of a rule: the parameters of its literals. -/
def ActionRule.allTerms (r : ActionRule) : List Term := litTerms r.allLits

/-- The name `n` is one that `makeNewVar` can give to a new variable of the rule `r`: a
generated name that no parameter of the rule carries. -/
def FreshName (r : ActionRule) (n : String) : Prop :=
  (∃ k, n = varName k) ∧ ∀ p ∈ r.parameters, p.name ≠ n

/-- The name `n` denotes a variable in a generalisation of the rule `r`: it is the name of
a variable of the rule or a name that `makeNewVar` can generate. -/
def VarNameOf (r : ActionRule) (n : String) : Prop :=
  (∃ t ∈ r.allTerms, t.isVariable = true ∧ t.name = n) ∨ FreshName r n

/-- The term `t` is a variable exactly when its name denotes one, and it is not the
wildcard. -/
structure Kinded (r : ActionRule) (t : Term) : Prop where
  kind : t.isVariable = true ↔ VarNameOf r t.name
  noAny : t.isVariable = true → t.name ≠ "ANY"

/-- The most general type above the type of `t` subsumes the type of every term of the
example `x`, and so does the type of `t` itself when `t` is a variable. -/
structure TypeFit (x : ActionRule) (t : Term) : Prop where
  root : ∀ c ∈ x.allTerms, typeSubsumes (getMostGeneralType t.type) c.type = true
  typ : t.isVariable = true → ∀ c ∈ x.allTerms, typeSubsumes t.type c.type = true

/-- The conditions under which the rule `r` can be generalised with the ground example
`x`: no variable of `r` is the wildcard, no constant of `r` or of `x` has the name of a
variable of `r` or a name that `makeNewVar` generates for `r`, the types of the terms of
`r` subsume the types of the constants of `x`, the vector `parameters` of `r` holds the
name of every term of `r`, every literal has as many parameters as the arity of its
predicate, two predicates of the same name have the same arity, and the effects of `r`
are sets. -/
structure GenReady (r x : ActionRule) : Prop where
  noAny : ∀ t ∈ r.allTerms, t.isVariable = true → t.name ≠ "ANY"
  kinds : ∀ c ∈ r.allTerms ++ x.allTerms, c.isVariable = false → ¬ VarNameOf r c.name
  types : ∀ t ∈ r.allTerms, TypeFit x t
  params : ∀ t ∈ r.allTerms, ∃ p ∈ r.parameters, p.name = t.name
  arity : ∀ l ∈ r.allLits ++ x.allLits, l.parameters.length = l.pred.arity
  sig : ∀ l ∈ r.allLits ++ x.allLits, ∀ c ∈ r.allLits ++ x.allLits,
    l.pred.name = c.pred.name → l.pred.arity = c.pred.arity
  setAdd : r.add.Pairwise (fun a b => Literal.lt a b = true)
  setDel : r.del.Pairwise (fun a b => Literal.lt a b = true)
  ground : ∀ c ∈ x.allTerms, c.isVariable = false

/-- The invariant of the substitutions `theta1` (towards the rule `r`) and `theta2`
(towards the example `x`) and of the set `genVars` during a generalisation of `r` with
`x`; `Src` holds of the names of the variables of `r` met so far. -/
structure GenJ (r x : ActionRule) (Src : String → Prop) (t1 t2 : Substitution)
    (gv : List Term) : Prop where
  sorted1 : MapSorted t1.mapping
  sorted2 : MapSorted t2.mapping
  key1 : ∀ e ∈ t1.mapping, e.1.isVariable = true ∧ Kinded r e.1 ∧ TypeFit x e.1 ∧
    Kinded r e.2 ∧ TypeFit x e.2
  shape1 : ∀ e ∈ t1.mapping, e.1.name = e.2.name ∨
    (FreshName r e.1.name ∧ e.2.isVariable = false)
  inj1 : ∀ e ∈ t1.mapping, ∀ e' ∈ t1.mapping, e.2.name = e'.2.name → e.1.name = e'.1.name
  key2 : ∀ e ∈ t2.mapping, Kinded r e.1 ∧ (e.1.isVariable = true → TypeFit x e.1) ∧
    e.2.isVariable = false ∧ ¬ VarNameOf r e.2.name
  shape2 : ∀ e ∈ t2.mapping, e.1.isVariable = false → e.1.name = e.2.name
  inj2 : ∀ e ∈ t2.mapping, ∀ e' ∈ t2.mapping, e.1.isVariable = true →
    e'.1.isVariable = true → e.2.name = e'.2.name → e.1.name = e'.1.name
  ident2 : ∀ e ∈ t2.mapping, ∀ e' ∈ t2.mapping, e.1.isVariable = false →
    e'.1.isVariable = true → e'.2.name = e.2.name →
    ∃ v1, nget t1.mapping e'.1.name = some v1 ∧ v1.name = e.2.name
  dom21 : ∀ e ∈ t2.mapping, e.1.isVariable = true → ∃ v, nget t1.mapping e.1.name = some v
  dom12 : ∀ e ∈ t1.mapping, FreshName r e.1.name → ∃ v, nget t2.mapping e.1.name = some v
  gen : ∀ e ∈ t1.mapping, FreshName r e.1.name → ∃ g ∈ gv, g.name = e.1.name
  src : ∀ e ∈ t1.mapping, e.1.name = e.2.name → Src e.1.name

theorem natListLt_irrefl (l : List Nat) : natListLt l l = false := by
  induction l with
  | nil => rfl
  | cons a as ih => simp [natListLt, ih]

theorem natListLt_eq_of_not_lt : ∀ (l m : List Nat),
    natListLt l m = false → natListLt m l = false → l = m
  | [], [], _, _ => rfl
  | [], _ :: _, h, _ => by simp [natListLt] at h
  | _ :: _, [], _, h => by simp [natListLt] at h
  | a :: as, b :: bs, h1, h2 => by
    simp only [natListLt] at h1 h2
    by_cases hab : a < b
    · simp [hab] at h1
    · by_cases hba : b < a
      · simp [hba] at h2
      · simp only [hab, hba, if_false] at h1 h2
        have : a = b := by omega
        rw [this, natListLt_eq_of_not_lt as bs h1 h2]

theorem strLt_irrefl (a : String) : strLt a a = false := natListLt_irrefl _

theorem strLt_eq_of_not_lt (a b : String) (h1 : strLt a b = false)
    (h2 : strLt b a = false) : a = b := by
  have h := natListLt_eq_of_not_lt _ _ h1 h2
  have hinj : Function.Injective Char.toNat := by
    intro c d hcd
    apply Char.ext
    apply UInt32.ext
    exact hcd
  have := List.map_injective_iff.mpr hinj h
  exact String.ext this

theorem keyEquiv_iff (a b : Term) : keyEquiv a b = true ↔ a.name = b.name := by
  unfold keyEquiv Term.lt
  constructor
  · intro h
    simp only [Bool.and_eq_true, Bool.not_eq_true'] at h
    exact strLt_eq_of_not_lt _ _ h.1 h.2
  · intro h
    rw [h]
    simp [strLt_irrefl]

theorem Term.eq_refl (a : Term) : a.eq a = true := by
  simp [Term.eq]

theorem Term.eq_of_name (a b : Term) (h : a.name = b.name) : a.eq b = true := by
  simp [Term.eq, h]

theorem mem_setInsert_of_mem {α : Type} (lt : α → α → Bool) (x y : α) (xs : List α)
    (h : y ∈ xs) : y ∈ setInsert lt x xs := by
  induction xs with
  | nil => cases h
  | cons z zs ih =>
    simp only [setInsert]
    split
    · exact List.mem_cons_of_mem _ h
    · split
      · rcases List.mem_cons.mp h with h | h
        · exact h ▸ List.mem_cons_self _ _
        · exact List.mem_cons_of_mem _ (ih h)
      · exact h

theorem mem_setInsert {α : Type} (lt : α → α → Bool) (x y : α) (xs : List α)
    (h : y ∈ setInsert lt x xs) : y = x ∨ y ∈ xs := by
  induction xs with
  | nil =>
    simp only [setInsert, List.mem_singleton] at h
    exact Or.inl h
  | cons z zs ih =>
    simp only [setInsert] at h
    split at h
    · rcases List.mem_cons.mp h with h | h
      · exact Or.inl h
      · exact Or.inr h
    · split at h
      · rcases List.mem_cons.mp h with h | h
        · exact Or.inr (h ▸ List.mem_cons_self _ _)
        · rcases ih h with h | h
          · exact Or.inl h
          · exact Or.inr (List.mem_cons_of_mem _ h)
      · exact Or.inr h

theorem setInsert_has_equiv {α : Type} (lt : α → α → Bool) (x : α) (xs : List α)
    (hirr : lt x x = false) :
    ∃ y ∈ setInsert lt x xs, lt x y = false ∧ lt y x = false := by
  induction xs with
  | nil => exact ⟨x, by simp [setInsert], hirr, hirr⟩
  | cons z zs ih =>
    simp only [setInsert]
    by_cases h1 : lt x z = true
    · rw [if_pos h1]
      exact ⟨x, List.mem_cons_self _ _, hirr, hirr⟩
    · rw [if_neg h1]
      by_cases h2 : lt z x = true
      · rw [if_pos h2]
        obtain ⟨y, hy, hxy⟩ := ih
        exact ⟨y, List.mem_cons_of_mem _ hy, hxy⟩
      · rw [if_neg h2]
        exact ⟨z, List.mem_cons_self _ _, by simpa using h1, by simpa using h2⟩

theorem setUnion_nil_right {α : Type} (lt : α → α → Bool) (a : List α) :
    setUnion lt a [] = a := rfl

theorem mem_setUnion_of_mem_left {α : Type} (lt : α → α → Bool) (a b : List α) (y : α)
    (h : y ∈ a) : y ∈ setUnion lt a b := by
  induction b generalizing a with
  | nil => exact h
  | cons x xs ih =>
    simp only [setUnion, List.foldl_cons]
    exact ih _ (mem_setInsert_of_mem lt x y a h)

theorem mem_setUnion {α : Type} (lt : α → α → Bool) (a b : List α) (y : α)
    (h : y ∈ setUnion lt a b) : y ∈ a ∨ y ∈ b := by
  induction b generalizing a with
  | nil => exact Or.inl h
  | cons x xs ih =>
    simp only [setUnion, List.foldl_cons] at h
    rcases ih _ h with h | h
    · rcases mem_setInsert lt x y a h with h | h
      · exact Or.inr (h ▸ List.mem_cons_self _ _)
      · exact Or.inl h
    · exact Or.inr (List.mem_cons_of_mem _ h)

/-! ## Matching: the single-match tests -/

/-- C7: `prematches` holds iff `prematchingSubs` has exactly one element, `postmatches`
iff `postmatchingSubs` has at least one, `covers` iff `coveringSubs` has at least one,
for every rule, example and initial substitution. -/
theorem C7_single_match_tests (r x : ActionRule) (s : Substitution) :
    (r.prematches x s = true ↔ (r.prematchingSubs x s).length = 1) ∧
    (r.postmatches x s = true ↔ 1 ≤ (r.postmatchingSubs x s).length) ∧
    (r.covers x s = true ↔ 1 ≤ (r.coveringSubs x s).length) := by
  refine ⟨?_, ?_, ?_⟩
  · simp [ActionRule.prematches]
  · simp [ActionRule.postmatches, Nat.lt_iff_add_one_le]
  · simp [ActionRule.covers, Nat.lt_iff_add_one_le]

theorem coveringSubs_fold_nil (r x : ActionRule) (pres : List Substitution)
    (h : ∀ pre ∈ pres, r.postmatchingSubs x pre = []) :
    pres.foldl (fun covSubs pre =>
      setUnion Substitution.lt covSubs (r.postmatchingSubs x pre)) [] = [] := by
  induction pres with
  | nil => rfl
  | cons p ps ih =>
    simp only [List.foldl_cons]
    rw [h p (List.mem_cons_self _ _), setUnion_nil_right]
    exact ih (fun pre hpre => h pre (List.mem_cons_of_mem _ hpre))

/-- C3 (counterexample): the rule `act() : p(X)` covers the example `act()` observed in
the state `p(a), p(b)`, yet it does not prematch it, since two substitutions prematch. -/
theorem C3_counterexample :
    ruleTwoMatches.covers exampleTwoMatches Substitution.empty = true ∧
    ruleTwoMatches.prematches exampleTwoMatches Substitution.empty = false := by
  decide

/-- C3 (amended): when a rule covers an example, at least one substitution prematches it
and the rule postmatches the example from one of the prematching substitutions. -/
theorem C3_covers_implies_matches (r x : ActionRule) (s : Substitution)
    (h : r.covers x s = true) :
    1 ≤ (r.prematchingSubs x s).length ∧
    ∃ pre ∈ r.prematchingSubs x s, r.postmatches x pre = true := by
  have hex : ∃ pre ∈ r.prematchingSubs x s, r.postmatchingSubs x pre ≠ [] := by
    by_contra hno
    push_neg at hno
    have := coveringSubs_fold_nil r x _ hno
    simp [ActionRule.covers, ActionRule.coveringSubs, this] at h
  obtain ⟨pre, hpre, hne⟩ := hex
  refine ⟨?_, pre, hpre, ?_⟩
  · cases hl : r.prematchingSubs x s with
    | nil => rw [hl] at hpre; cases hpre
    | cons a as => simp
  · simp only [ActionRule.postmatches, decide_eq_true_eq]
    exact List.length_pos.mpr hne

/-- C3 (witness): the amended statement applied to the rule and example with two matches. -/
theorem C3_covers_implies_matches_witness :
    ruleTwoMatches.covers exampleTwoMatches Substitution.empty = true ∧
    (1 ≤ (ruleTwoMatches.prematchingSubs exampleTwoMatches Substitution.empty).length ∧
    ∃ pre ∈ ruleTwoMatches.prematchingSubs exampleTwoMatches Substitution.empty,
      ruleTwoMatches.postmatches exampleTwoMatches pre = true) :=
  ⟨by decide, C3_covers_implies_matches ruleTwoMatches exampleTwoMatches Substitution.empty
    (by decide)⟩

/-! ## Well-formedness -/

theorem setUnion_has_equiv {α : Type} (lt : α → α → Bool) (a b : List α) (x : α)
    (hirr : lt x x = false) (hx : x ∈ b) :
    ∃ y ∈ setUnion lt a b, lt x y = false ∧ lt y x = false := by
  induction b generalizing a with
  | nil => cases hx
  | cons z zs ih =>
    simp only [setUnion, List.foldl_cons]
    rcases List.mem_cons.mp hx with hx | hx
    · subst hx
      obtain ⟨y, hy, he⟩ := setInsert_has_equiv lt x a hirr
      exact ⟨y, mem_setUnion_of_mem_left lt _ zs y hy, he⟩
    · exact ih _ hx

theorem foldl_setUnion_mem_acc {α β : Type} (lt : α → α → Bool) (f : β → List α)
    (ls : List β) (acc : List α) (y : α) (h : y ∈ acc) :
    y ∈ ls.foldl (fun t a => (f a).foldl (fun t p => setInsert lt p t) t) acc := by
  induction ls generalizing acc with
  | nil => exact h
  | cons l ls ih =>
    simp only [List.foldl_cons]
    exact ih _ (mem_setUnion_of_mem_left lt acc (f l) y h)

theorem foldl_setUnion_has_equiv {α β : Type} (lt : α → α → Bool) (f : β → List α)
    (ls : List β) (acc : List α) (l : β) (x : α) (hirr : lt x x = false)
    (hl : l ∈ ls) (hx : x ∈ f l) :
    ∃ y ∈ ls.foldl (fun t a => (f a).foldl (fun t p => setInsert lt p t) t) acc,
      lt x y = false ∧ lt y x = false := by
  induction ls generalizing acc with
  | nil => cases hl
  | cons m ms ih =>
    simp only [List.foldl_cons]
    rcases List.mem_cons.mp hl with hl | hl
    · subst hl
      obtain ⟨y, hy, he⟩ := setUnion_has_equiv lt acc (f l) x hirr hx
      exact ⟨y, foldl_setUnion_mem_acc lt f ms _ y hy, he⟩
    · exact ih _ hl

theorem foldl_setUnion_mem {α β : Type} (lt : α → α → Bool) (f : β → List α)
    (ls : List β) (acc : List α) (y : α)
    (h : y ∈ ls.foldl (fun t a => (f a).foldl (fun t p => setInsert lt p t) t) acc) :
    y ∈ acc ∨ ∃ l ∈ ls, y ∈ f l := by
  induction ls generalizing acc with
  | nil => exact Or.inl h
  | cons m ms ih =>
    simp only [List.foldl_cons] at h
    rcases ih _ h with h | ⟨l, hl, hy⟩
    · rcases mem_setUnion lt acc (f m) y h with h | h
      · exact Or.inl h
      · exact Or.inr ⟨m, List.mem_cons_self _ _, h⟩
    · exact Or.inr ⟨l, List.mem_cons_of_mem _ hl, hy⟩

theorem Term.lt_irrefl (a : Term) : a.lt a = false := strLt_irrefl _

theorem Term.name_eq_of_not_lt (a b : Term) (h1 : a.lt b = false) (h2 : b.lt a = false) :
    a.name = b.name := strLt_eq_of_not_lt _ _ h1 h2

/-- When a term occurs in the literals, so does every variable of the same name. -/
theorem varOccurs_of_same_name (p q : Term) (lits : List Literal) (hname : q.name = p.name)
    (hvar : p.isVariable = true) (h : varOccurs q lits = true) : varOccurs p lits = true := by
  simp only [varOccurs, inList, List.any_eq_true] at h ⊢
  obtain ⟨l, hl, t, ht, hte⟩ := h
  refine ⟨l, hl, t, ht, ?_⟩
  simp only [Term.eq, Bool.or_eq_true, Bool.and_eq_true, beq_iff_eq] at hte ⊢
  rcases hte with hte | ⟨⟨htv, _⟩, hany⟩
  · exact Or.inl (hte.trans hname)
  · right
    refine ⟨⟨htv, hvar⟩, ?_⟩
    rcases hany with hany | hany
    · exact Or.inl hany
    · exact Or.inr (hname ▸ hany)

/-- C9: when `wellFormed` returns true, the inverse of every delete effect is one of the
preconditions, no add effect is one of the preconditions, and every variable of an add
effect occurs in some precondition. -/
theorem C9_wellFormed_sound (r : ActionRule) (h : r.wellFormed = true) :
    (∀ d ∈ r.del, inList Literal.eq r.preconditions d.neg = true) ∧
    (∀ a ∈ r.add, inList Literal.eq r.preconditions a = false) ∧
    (∀ a ∈ r.add, ∀ p ∈ a.parameters, p.isVariable = true →
      varOccurs p r.preconditions = true) := by
  unfold ActionRule.wellFormed at h
  by_cases h1 : r.del.any (fun d => !inList Literal.eq r.preconditions d.neg) = true
  · simp [h1] at h
  · rw [if_neg h1] at h
    by_cases h2 : r.add.any (fun a => inList Literal.eq r.preconditions a) = true
    · simp [h2] at h
    · rw [if_neg h2] at h
      by_cases h3 : (addVarsOf r).any (fun v => !varOccurs v r.preconditions) = true
      · simp [h3] at h
      · refine ⟨?_, ?_, ?_⟩
        · intro d hd
          simp only [List.any_eq_true, not_exists, not_and, Bool.not_eq_true',
            Bool.not_eq_false'] at h1
          simpa using h1 d hd
        · intro a ha
          simp only [List.any_eq_true, not_exists, not_and, Bool.not_eq_true] at h2
          exact h2 a ha
        · intro a ha p hp hvar
          obtain ⟨q, hq, hqp1, hqp2⟩ := foldl_setUnion_has_equiv Term.lt
            (fun l : Literal => l.parameters) r.add [] a p (Term.lt_irrefl p) ha hp
          have hname : q.name = p.name := (Term.name_eq_of_not_lt p q hqp1 hqp2).symm
          have hocc : varOccurs q r.preconditions = true := by
            simp only [List.any_eq_true, not_exists, not_and, Bool.not_eq_true',
              Bool.not_eq_false'] at h3
            simpa using h3 q hq
          exact varOccurs_of_same_name p q _ hname hvar hocc

/-- C9 (witness): rule 1 of the test `WellFormation` is well formed. -/
theorem C9_wellFormed_sound_witness :
    ruleMove.wellFormed = true ∧
    ((∀ d ∈ ruleMove.del, inList Literal.eq ruleMove.preconditions d.neg = true) ∧
    (∀ a ∈ ruleMove.add, inList Literal.eq ruleMove.preconditions a = false) ∧
    (∀ a ∈ ruleMove.add, ∀ p ∈ a.parameters, p.isVariable = true →
      varOccurs p ruleMove.preconditions = true)) :=
  ⟨by decide, C9_wellFormed_sound ruleMove (by decide)⟩

/-! ## Postmatching -/

/-- C6 (failing input): the rule `toggle(X)` with add `on(X)` and delete `-off(X)`
postmatches the example `toggle(a)` with add `off(a)` and delete `-on(a)`: the returned
substitution maps the add effect of the rule onto `on(a)`, which is not an add effect of
the example. -/
theorem C6_postmatch_ignores_polarity :
    ruleToggle.postmatchingSubs exampleToggle Substitution.empty =
      [⟨[(mkVar "X", mkConst "a")], true⟩] ∧
    (⟨[(mkVar "X", mkConst "a")], true⟩ : Substitution).applySet ruleToggle.add =
      [mkLit "on" [mkConst "a"]] ∧
    exampleToggle.add = [mkLit "off" [mkConst "a"]] ∧
    inList Literal.eq exampleToggle.add (mkLit "on" [mkConst "a"]) = false := by
  decide

/-! ## Specialisation -/

theorem ptrLt_equiv_iff (a b : Nat) : (!ptrLt a b && !ptrLt b a) = true ↔ a = b := by
  simp only [ptrLt, Bool.and_eq_true, Bool.not_eq_true', decide_eq_false_iff_not]
  omega

theorem setErase_sublist {α : Type} (lt : α → α → Bool) (x : α) (xs : List α) :
    (setErase lt x xs).Sublist xs := by
  induction xs with
  | nil => exact List.Sublist.refl _
  | cons y ys ih =>
    simp only [setErase]
    split
    · exact List.sublist_cons_self _ _
    · exact List.Sublist.cons₂ _ ih

theorem not_mem_setErase_ptr (x : Nat) (xs : List Nat) (h : xs.Nodup) :
    x ∉ setErase ptrLt x xs := by
  induction xs with
  | nil => simp [setErase]
  | cons y ys ih =>
    simp only [setErase]
    rw [List.nodup_cons] at h
    by_cases hxy : (!ptrLt x y && !ptrLt y x) = true
    · rw [if_pos hxy]
      rw [(ptrLt_equiv_iff x y).mp hxy]
      exact h.1
    · rw [if_neg hxy]
      intro hmem
      rcases List.mem_cons.mp hmem with hmem | hmem
      · exact hxy ((ptrLt_equiv_iff x y).mpr hmem)
      · exact ih h.2 hmem

/-- A fold whose state is optional succeeds and keeps an invariant when every step does. -/
theorem foldl_option_invariant {β γ : Type} (f : Option γ → β → Option γ) (P : γ → Prop)
    (l : List β) (s0 : γ) (h0 : P s0)
    (hf : ∀ s b, b ∈ l → P s → ∃ s1, f (some s) b = some s1 ∧ P s1) :
    ∃ s1, l.foldl f (some s0) = some s1 ∧ P s1 := by
  induction l generalizing s0 with
  | nil => exact ⟨s0, rfl, h0⟩
  | cons b bs ih =>
    obtain ⟨s1, hs1, hp1⟩ := hf s0 b (List.mem_cons_self _ _) h0
    simp only [List.foldl_cons, hs1]
    exact ih s1 hp1 (fun s c hc hp => hf s c (List.mem_cons_of_mem _ hc) hp)

/-- With enough fuel on an acyclic DAG, `specialize` returns; it leaves the arena
unchanged, only removes rules from the active set, and removes `rule` itself. -/
theorem specialize_spec (rank : Nat → Nat) (exmp : Nat) :
    ∀ (fuel : Nat) (a : Agent) (rule : Nat),
      (∀ i p, p ∈ (ruleAt a.heap i).parents → rank p < rank i) →
      rank rule < fuel → a.rules.Nodup →
      ∃ res, Agent.specialize fuel a rule exmp = some res ∧
        res.2.heap = a.heap ∧ res.2.rules.Sublist a.rules ∧ rule ∉ res.2.rules := by
  intro fuel
  induction fuel with
  | zero => intro a rule _ h; omega
  | succ fuel ih =>
    intro a rule hacyc hrank hnodup
    have hfold := foldl_option_invariant
      (fun (acc : Option (List Nat × Agent)) parent =>
        match acc with
        | none => none
        | some (uncovered, ag) =>
          if (ruleAt ag.heap parent).parents.length == 0 then
            some (setInsert ptrLt parent uncovered, ag.eraseRule parent)
          else if (ruleAt ag.heap parent).contradicts (ruleAt ag.heap exmp) then
            match Agent.specialize fuel ag parent exmp with
            | none => none
            | some (u, ag1) => some (setUnion ptrLt uncovered u, ag1)
          else some (uncovered, ag))
      (fun st => st.2.heap = a.heap ∧ st.2.rules.Sublist (setErase ptrLt rule a.rules))
      (ruleAt a.heap rule).parents ([], a.eraseRule rule)
      ⟨rfl, List.Sublist.refl _⟩
      (by
        rintro ⟨unc, ag⟩ parent hparent ⟨hheap, hsub⟩
        dsimp only
        split
        · exact ⟨_, rfl, hheap, (setErase_sublist _ _ _).trans hsub⟩
        · split
          · have hacyc1 : ∀ i p, p ∈ (ruleAt ag.heap i).parents → rank p < rank i := by
              rw [hheap]; exact hacyc
            have hr : rank parent < fuel := by
              have := hacyc rule parent hparent
              omega
            have hnd : ag.rules.Nodup :=
              (hsub.trans (setErase_sublist _ _ _)).nodup hnodup
            obtain ⟨res, hres, hh, hs, _⟩ := ih ag parent hacyc1 hr hnd
            rw [hres]
            exact ⟨_, rfl, hh.trans hheap, hs.trans hsub⟩
          · exact ⟨_, rfl, hheap, hsub⟩)
    obtain ⟨res, hres, hheap, hsub⟩ := hfold
    refine ⟨res, ?_, hheap, hsub.trans (setErase_sublist _ _ _), ?_⟩
    · rw [← hres]; rfl
    · intro hmem
      exact not_mem_setErase_ptr rule a.rules hnodup (hsub.subset hmem)

/-- The loop of `updateKnowledge` over the contradicting rules returns on an acyclic DAG,
leaves the arena unchanged, only removes active rules, and removes every listed rule. -/
theorem specializeContradicting_spec (rank : Nat → Nat) (depth exmp : Nat)
    (hdepth : ∀ i, rank i < depth) :
    ∀ (cs : List Nat) (a : Agent) (u : List Nat),
      (∀ i p, p ∈ (ruleAt a.heap i).parents → rank p < rank i) → a.rules.Nodup →
      ∃ res, Agent.specializeContradicting depth exmp cs (a, u) = some res ∧
        res.1.heap = a.heap ∧ res.1.rules.Sublist a.rules ∧ ∀ c ∈ cs, c ∉ res.1.rules := by
  intro cs
  induction cs with
  | nil =>
    intro a u _ _
    exact ⟨(a, u), rfl, rfl, List.Sublist.refl _, fun c hc => by cases hc⟩
  | cons c cs ih =>
    intro a u hacyc hnodup
    obtain ⟨r1, hr1, hh1, hs1, hc1⟩ := specialize_spec rank exmp depth a c hacyc (hdepth c) hnodup
    have hacyc1 : ∀ i p, p ∈ (ruleAt r1.2.heap i).parents → rank p < rank i := by
      rw [hh1]; exact hacyc
    obtain ⟨res, hres, hh, hs, hc⟩ := ih r1.2 (setUnion ptrLt u r1.1) hacyc1 (hs1.nodup hnodup)
    refine ⟨res, ?_, hh.trans hh1, hs.trans hs1, ?_⟩
    · rw [← hres]
      simp only [Agent.specializeContradicting, List.foldl_cons, hr1]
    · intro d hd hmem
      rcases List.mem_cons.mp hd with hd | hd
      · subst hd
        exact hc1 (hs.subset hmem)
      · exact hc d hd hmem

theorem foldl_append_if_subset {α : Type} (P : α → Bool) (it : Nat) (subs : List α)
    (c : List Nat) (y : Nat) (h : y ∈ c) :
    y ∈ subs.foldl (fun c s => if P s then c ++ [it] else c) c := by
  induction subs generalizing c with
  | nil => exact h
  | cons s ss ih =>
    simp only [List.foldl_cons]
    apply ih
    split
    · exact List.mem_append_left _ h
    · exact h

theorem foldl_append_if_mem {α : Type} (P : α → Bool) (it : Nat) (subs : List α)
    (c : List Nat) (h : subs.any P = true) :
    it ∈ subs.foldl (fun c s => if P s then c ++ [it] else c) c := by
  induction subs generalizing c with
  | nil => simp at h
  | cons s ss ih =>
    simp only [List.foldl_cons]
    simp only [List.any_cons, Bool.or_eq_true] at h
    by_cases hs : P s = true
    · rw [if_pos hs]
      exact foldl_append_if_subset P it ss _ it (by simp)
    · rw [if_neg hs]
      rcases h with h | h
      · exact absurd h hs
      · exact ih c h

theorem classify_fold_mono (heap : List ActionRule) (x : ActionRule) (rules : List Nat)
    (st : List Nat × List Nat) (y : Nat) (h : y ∈ st.2) :
    y ∈ (rules.foldl (fun st it =>
      let prematchSubs := (ruleAt heap it).prematchingSubs x Substitution.empty
      if prematchSubs.length > 0 then
        (st.1 ++ [it],
          if true then
            prematchSubs.foldl (fun c subit =>
              if !(ruleAt heap it).postmatches x subit then c ++ [it] else c) st.2
          else st.2)
      else st) st).2 := by
  induction rules generalizing st with
  | nil => exact h
  | cons r rs ih =>
    simp only [List.foldl_cons]
    apply ih
    dsimp only
    split
    · simp only [if_true]
      exact foldl_append_if_subset _ r _ _ y h
    · exact h

/-- Every active rule that contradicts the example is in the vector `contradiction`
computed by `updateKnowledge` for an authorized trace. -/
theorem classify_contradiction_complete (a : Agent) (x : ActionRule) (i : Nat)
    (hi : i ∈ a.rules) (hc : (ruleAt a.heap i).contradicts x = true) :
    i ∈ (a.classify x true).2 := by
  unfold Agent.classify
  generalize a.rules = rules at hi
  generalize (([], []) : List Nat × List Nat) = st
  induction rules generalizing st with
  | nil => cases hi
  | cons r rs ih =>
    simp only [List.foldl_cons]
    rcases List.mem_cons.mp hi with hi | hi
    · subst hi
      apply classify_fold_mono
      unfold ActionRule.contradicts at hc
      dsimp only at hc ⊢
      by_cases hlen : ((ruleAt a.heap i).prematchingSubs x Substitution.empty).length > 0
      · rw [if_pos hlen] at hc
        rw [if_pos hlen]
        simp only [if_true]
        exact foldl_append_if_mem _ i _ _ hc
      · rw [if_neg hlen] at hc
        cases hc
    · exact ih hi _

/-- C2 (counterexample): with two active rules that contradict the example, after
`specialize` on the first of them the second is still active and still contradicts it. -/
theorem C2_counterexample :
    (Agent.specialize 2 agentTwoContradicting 1 3).map (fun res =>
      (res.2.rules, res.2.rules.any (fun i =>
        (ruleAt res.2.heap i).contradicts (ruleAt res.2.heap 3)))) = some ([2], true) := by
  decide

/-- C2 (amended): on an acyclic DAG, once `specialize` has been run on every rule of the
vector `contradiction` of `updateKnowledge`, which holds the active rules contradicting
the example, the loop has returned and no rule remaining in the active set contradicts
the example. -/
theorem C2_specialize_all_contradicting (a : Agent) (depth exmp : Nat) (u : List Nat)
    (hacyc : Acyclic a.heap depth) (hnodup : a.rules.Nodup) :
    ∃ res, Agent.specializeContradicting depth exmp
        (a.classify (ruleAt a.heap exmp) true).2 (a, u) = some res ∧
      ∀ i ∈ res.1.rules,
        (ruleAt res.1.heap i).contradicts (ruleAt res.1.heap exmp) = false := by
  obtain ⟨rank, hdepth, hrank⟩ := hacyc
  obtain ⟨res, hres, hheap, hsub, hcs⟩ := specializeContradicting_spec rank depth exmp hdepth
    (a.classify (ruleAt a.heap exmp) true).2 a u hrank hnodup
  refine ⟨res, hres, ?_⟩
  intro i hi
  rw [hheap]
  by_contra hne
  have hc : (ruleAt a.heap i).contradicts (ruleAt a.heap exmp) = true := by
    simpa using hne
  exact hcs i (classify_contradiction_complete a _ i (hsub.subset hi) hc) hi

/-- C2 (witness): the amended statement on the agent with two contradicting rules. -/
theorem C2_specialize_all_contradicting_witness :
    Acyclic agentTwoContradicting.heap 2 ∧ agentTwoContradicting.rules.Nodup ∧
    ∃ res, Agent.specializeContradicting 2 3
        (agentTwoContradicting.classify (ruleAt agentTwoContradicting.heap 3) true).2
        (agentTwoContradicting, []) = some res ∧
      ∀ i ∈ res.1.rules,
        (ruleAt res.1.heap i).contradicts (ruleAt res.1.heap 3) = false := by
  have hacyc : Acyclic agentTwoContradicting.heap 2 := by
    refine ⟨fun i => if i = 1 then 1 else 0, ?_, ?_⟩
    · intro i
      dsimp only
      split <;> omega
    · intro i p hp
      match i with
      | 0 => simp [ruleAt, agentTwoContradicting, ruleAdds] at hp
      | 1 =>
        simp [ruleAt, agentTwoContradicting, ruleAdds] at hp
        subst hp
        simp
      | 2 => simp [ruleAt, agentTwoContradicting, ruleAdds] at hp
      | 3 => simp [ruleAt, agentTwoContradicting, exampleNoEffect] at hp
      | n + 4 => simp [ruleAt, agentTwoContradicting, ActionRule.blank] at hp
  have hnodup : agentTwoContradicting.rules.Nodup := by decide
  exact ⟨hacyc, hnodup,
    C2_specialize_all_contradicting agentTwoContradicting 2 3 [] hacyc hnodup⟩

/-! ## Generalisation -/

theorem generalityLevel_some (heap : List ActionRule) (rank : Nat → Nat)
    (hacyc : ∀ i p, p ∈ (ruleAt heap i).parents → rank p < rank i) :
    ∀ fuel i, rank i < fuel → ∃ g, generalityLevel heap fuel i = some g := by
  intro fuel
  induction fuel with
  | zero => intro i h; omega
  | succ fuel ih =>
    intro i hi
    obtain ⟨g, hg, _⟩ := foldl_option_invariant
      (fun acc p => generalityStep (generalityLevel heap fuel p) acc) (fun _ => True)
      (ruleAt heap i).parents 0 trivial (by
        intro s p hp _
        obtain ⟨g, hg⟩ := ih p (by have := hacyc i p hp; omega)
        refine ⟨if g + 1 > s then g + 1 else s, ?_, trivial⟩
        simp only [hg, generalityStep])
    exact ⟨g, hg⟩

theorem ruleAt_set (heap : List ActionRule) (i j : Nat) (r : ActionRule) :
    ruleAt (heap.set i r) j = if i = j ∧ i < heap.length then r else ruleAt heap j := by
  simp only [ruleAt, List.getD_eq_getElem?_getD, List.getElem?_set]
  by_cases hij : i = j
  · subst hij
    by_cases hlt : i < heap.length
    · simp [hlt]
    · simp [hlt, List.getElem?_eq_none (Nat.le_of_not_lt hlt)]
  · simp [hij]

theorem ruleAt_append_left (heap ext : List ActionRule) (i : Nat) (h : i < heap.length) :
    ruleAt (heap ++ ext) i = ruleAt heap i := by
  simp only [ruleAt, List.getD_eq_getElem?_getD, List.getElem?_append_left h]

theorem ruleAt_append_length (heap ext : List ActionRule) (r : ActionRule) :
    ruleAt (heap ++ r :: ext) heap.length = r := by
  simp only [ruleAt, List.getD_eq_getElem?_getD,
    List.getElem?_append_right (Nat.le_refl heap.length), Nat.sub_self]
  simp

theorem foldl_invariant_mem {β γ : Type} (f : γ → β → γ) (P : γ → Prop) (l : List β)
    (s0 : γ) (h0 : P s0) (hf : ∀ s b, b ∈ l → P s → P (f s b)) : P (l.foldl f s0) := by
  induction l generalizing s0 with
  | nil => exact h0
  | cons b bs ih =>
    simp only [List.foldl_cons]
    exact ih _ (hf s0 b (List.mem_cons_self _ _) h0)
      (fun s c hc hp => hf s c (List.mem_cons_of_mem _ hc) hp)

/-! ## Lemmas on substitutions -/

theorem natListLt_trans : ∀ (l m n : List Nat),
    natListLt l m = true → natListLt m n = true → natListLt l n = true
  | [], [], _, h, _ => by simp [natListLt] at h
  | [], _ :: _, [], _, h => by simp [natListLt] at h
  | [], _ :: _, _ :: _, _, _ => by simp [natListLt]
  | _ :: _, [], _, h, _ => by simp [natListLt] at h
  | _ :: _, _ :: _, [], _, h => by simp [natListLt] at h
  | a :: as, b :: bs, c :: cs, h1, h2 => by
    simp only [natListLt] at h1 h2 ⊢
    by_cases hab : a < b
    · by_cases hbc : b < c
      · have : a < c := by omega
        simp [this]
      · by_cases hcb : c < b
        · simp [hbc, hcb] at h2
        · have : a < c := by omega
          simp [this]
    · by_cases hba : b < a
      · simp [hab, hba] at h1
      · simp only [hab, hba, if_false] at h1
        have hab1 : a = b := by omega
        subst hab1
        by_cases hac : a < c
        · simp [hac]
        · by_cases hca : c < a
          · simp [hac, hca] at h2
          · simp only [hac, hca, if_false] at h2 ⊢
            exact natListLt_trans as bs cs h1 h2

theorem Term.lt_trans (a b c : Term) (h1 : a.lt b = true) (h2 : b.lt c = true) :
    a.lt c = true := natListLt_trans _ _ _ h1 h2

theorem Term.name_ne_of_lt (a b : Term) (h : a.lt b = true) : a.name ≠ b.name := by
  intro hn
  have := Term.lt_irrefl b
  unfold Term.lt at h this
  rw [hn] at h
  rw [h] at this
  cases this

theorem Substitution.get_eq_nget (s : Substitution) (k : Term) :
    s.get k = nget s.mapping k.name := by
  unfold Substitution.get mapFind nget
  congr 2
  funext p
  by_cases h : p.1.name = k.name
  · simp [(keyEquiv_iff p.1 k).mpr h, h]
  · have : keyEquiv p.1 k = false := by
      by_contra hc
      exact h ((keyEquiv_iff p.1 k).mp (by simpa using hc))
    simp [this, h]

theorem nget_mapSet (a b : Term) (m : List (Term × Term)) (n : String) :
    nget (mapSet a b m) n = if a.name = n then some b else nget m n := by
  induction m with
  | nil =>
    by_cases h : a.name = n <;> simp [mapSet, nget, h]
  | cons e es ih =>
    obtain ⟨k1, v1⟩ := e
    simp only [mapSet]
    by_cases h1 : a.lt k1 = true
    · rw [if_pos h1]
      by_cases h : a.name = n <;> simp [nget, h, List.find?_cons]
    · rw [if_neg h1]
      by_cases h2 : k1.lt a = true
      · rw [if_pos h2]
        have hne : k1.name ≠ a.name := Term.name_ne_of_lt _ _ h2
        by_cases hk : k1.name = n
        · have han : a.name ≠ n := fun h => hne (hk.trans h.symm)
          simp [nget, hk, han, List.find?_cons]
        · have : nget ((k1, v1) :: mapSet a b es) n = nget (mapSet a b es) n := by
            simp [nget, hk, List.find?_cons]
          rw [this, ih]
          simp [nget, hk, List.find?_cons]
      · rw [if_neg h2]
        have heq : k1.name = a.name :=
          Term.name_eq_of_not_lt _ _ (by simpa using h2) (by simpa using h1)
        by_cases h : a.name = n
        · simp [nget, h, heq.trans h, List.find?_cons]
        · have hk : k1.name ≠ n := fun hk => h (heq.symm.trans hk)
          simp [nget, h, hk, List.find?_cons]

theorem mem_mapSet (a b : Term) (m : List (Term × Term)) (e : Term × Term)
    (h : e ∈ mapSet a b m) : e ∈ m ∨ (e.1.name = a.name ∧ e.2 = b) := by
  induction m with
  | nil =>
    simp only [mapSet, List.mem_singleton] at h
    exact Or.inr (by rw [h]; exact ⟨rfl, rfl⟩)
  | cons e1 es ih =>
    obtain ⟨k1, v1⟩ := e1
    simp only [mapSet] at h
    split at h
    · rcases List.mem_cons.mp h with h | h
      · exact Or.inr (by rw [h]; exact ⟨rfl, rfl⟩)
      · exact Or.inl h
    · split at h
      · rcases List.mem_cons.mp h with h | h
        · exact Or.inl (h ▸ List.mem_cons_self _ _)
        · rcases ih h with h | h
          · exact Or.inl (List.mem_cons_of_mem _ h)
          · exact Or.inr h
      · rename_i h1 h2
        rcases List.mem_cons.mp h with h | h
        · right
          rw [h]
          exact ⟨Term.name_eq_of_not_lt _ _ (by simpa using h2) (by simpa using h1), rfl⟩
        · exact Or.inl (List.mem_cons_of_mem _ h)

theorem mapSorted_mapSet (a b : Term) (m : List (Term × Term)) (h : MapSorted m) :
    MapSorted (mapSet a b m) := by
  induction m with
  | nil => simp [mapSet, MapSorted]
  | cons e es ih =>
    obtain ⟨k1, v1⟩ := e
    unfold MapSorted at h ih ⊢
    rw [List.pairwise_cons] at h
    simp only [mapSet]
    by_cases h1 : a.lt k1 = true
    · rw [if_pos h1]
      refine List.Pairwise.cons ?_ (List.Pairwise.cons h.1 h.2)
      intro q hq
      rcases List.mem_cons.mp hq with hq | hq
      · rw [hq]; exact h1
      · exact Term.lt_trans _ _ _ h1 (h.1 q hq)
    · rw [if_neg h1]
      by_cases h2 : k1.lt a = true
      · rw [if_pos h2]
        refine List.Pairwise.cons ?_ (ih h.2)
        intro q hq
        rcases mem_mapSet a b es q hq with hq | ⟨hq, _⟩
        · exact h.1 q hq
        · show strLt k1.name q.1.name = true
          rw [hq]
          exact h2
      · rw [if_neg h2]
        exact List.Pairwise.cons h.1 h.2

theorem nget_of_mem (m : List (Term × Term)) (hs : MapSorted m) (e : Term × Term)
    (he : e ∈ m) : nget m e.1.name = some e.2 := by
  induction m with
  | nil => cases he
  | cons e1 es ih =>
    unfold MapSorted at hs
    rw [List.pairwise_cons] at hs
    rcases List.mem_cons.mp he with he | he
    · subst he
      simp [nget, List.find?_cons]
    · have hne : e1.1.name ≠ e.1.name := Term.name_ne_of_lt _ _ (hs.1 e he)
      have : nget (e1 :: es) e.1.name = nget es e.1.name := by
        simp [nget, hne, List.find?_cons]
      rw [this]
      exact ih hs.2 he

theorem mem_of_nget (m : List (Term × Term)) (n : String) (v : Term)
    (h : nget m n = some v) : ∃ k, (k, v) ∈ m ∧ k.name = n := by
  unfold nget at h
  cases hf : m.find? (fun p => p.1.name == n) with
  | none => rw [hf] at h; cases h
  | some e =>
    rw [hf] at h
    simp only [Option.map_some', Option.some.injEq] at h
    have hm := List.mem_of_find?_eq_some hf
    have hp := List.find?_some hf
    refine ⟨e.1, ?_, by simpa using hp⟩
    rw [← h]
    exact hm

theorem Term.eq_iff_name_right (a b : Term) (hb : b.isVariable = false) :
    a.eq b = true ↔ a.name = b.name := by
  simp [Term.eq, hb]

theorem Term.eq_iff_name_left (a b : Term) (ha : a.isVariable = false) :
    a.eq b = true ↔ a.name = b.name := by
  simp [Term.eq, ha]

theorem getInverse_none_iff (s : Substitution) (v : Term) :
    (s.getInverse v).isSome = false ↔ ∀ e ∈ s.mapping, e.2.eq v = false := by
  unfold Substitution.getInverse
  cases hf : s.mapping.find? (fun p => p.2.eq v) with
  | none =>
    simp only [Option.map_none', Option.isSome_none, true_iff]
    intro e he
    have := List.find?_eq_none.mp hf e he
    simpa using this
  | some e =>
    simp only [Option.map_some', Option.isSome_some, Bool.true_eq_false, false_iff]
    intro hall
    have h1 := hall e (List.mem_of_find?_eq_some hf)
    have h2 := List.find?_some hf
    simp only at h2
    rw [h1] at h2
    cases h2

theorem ext_refl (s : Substitution) : Ext s s := fun _ _ h => h

theorem ext_trans {s t u : Substitution} (h1 : Ext s t) (h2 : Ext t u) : Ext s u :=
  fun n v h => h2 n v (h1 n v h)

theorem bound_ext {s t : Substitution} {p : Term} {n : String} (h : Bound s p n)
    (he : Ext s t) : Bound t p n := by
  obtain ⟨v, hv, hn⟩ := h
  exact ⟨v, he _ _ hv, hn⟩

/-- A successful `setSafe` towards a constant keeps the invariant, keeps every binding,
and either the two terms have the same name or the key is now bound to the constant. -/
theorem setSafe_spec (s : Substitution) (k v : Term) (hinv : SubInv s)
    (hv : v.isVariable = false) (h : (s.setSafe k v true).1 = true) :
    SubInv (s.setSafe k v true).2 ∧ Ext s (s.setSafe k v true).2 ∧
    ((k.name = v.name ∧ (s.setSafe k v true).2 = s) ∨
      (k.isVariable = true ∧ k.name ≠ v.name ∧ Bound (s.setSafe k v true).2 k v.name)) := by
  unfold Substitution.setSafe at h ⊢
  by_cases h1 : k.eq v = true
  · simp only [h1, if_true]
    exact ⟨hinv, ext_refl s, Or.inl ⟨(Term.eq_iff_name_right k v hv).mp h1, trivial⟩⟩
  · have hne : k.name ≠ v.name := fun hn => h1 ((Term.eq_iff_name_right k v hv).mpr hn)
    rw [if_neg h1] at h ⊢
    by_cases h2 : (true && !k.isVariable) = true
    · rw [if_pos h2] at h
      cases h
    · rw [if_neg h2] at h ⊢
      have hkv : k.isVariable = true := by simpa using h2
      cases hg : s.get k with
      | some w =>
        simp only [hg] at h ⊢
        refine ⟨hinv, ext_refl s, Or.inr ⟨hkv, hne, w, ?_, ?_⟩⟩
        · rw [← Substitution.get_eq_nget]; exact hg
        · exact (Term.eq_iff_name_right w v hv).mp h
      | none =>
        simp only [hg] at h ⊢
        by_cases h3 : (s.injective && (s.getInverse v).isSome) = true
        · rw [if_pos h3] at h
          cases h
        · rw [if_neg h3] at h ⊢
          have hinvn : (s.getInverse v).isSome = false := by
            simpa [hinv.flag] using h3
          have hnoinv := (getInverse_none_iff s v).mp hinvn
          have hgn : nget s.mapping k.name = none := by
            rw [← Substitution.get_eq_nget]; exact hg
          refine ⟨?_, ?_, Or.inr ⟨hkv, hne, v, ?_, rfl⟩⟩
          · refine ⟨mapSorted_mapSet k v _ hinv.sorted, hinv.flag, ?_, ?_⟩
            · intro e he
              rcases mem_mapSet k v _ e he with he | ⟨_, he⟩
              · exact hinv.ground e he
              · rw [he]; exact hv
            · intro e1 he1 e2 he2 hn
              rcases mem_mapSet k v _ e1 he1 with he1 | ⟨hk1, hv1⟩
              · rcases mem_mapSet k v _ e2 he2 with he2 | ⟨hk2, hv2⟩
                · exact hinv.inj e1 he1 e2 he2 hn
                · exfalso
                  have := hnoinv e1 he1
                  rw [hv2] at hn
                  rw [(Term.eq_iff_name_right e1.2 v hv).mpr hn] at this
                  cases this
              · rcases mem_mapSet k v _ e2 he2 with he2 | ⟨hk2, hv2⟩
                · exfalso
                  have := hnoinv e2 he2
                  rw [hv1] at hn
                  rw [(Term.eq_iff_name_right e2.2 v hv).mpr hn.symm] at this
                  cases this
                · exact Or.inl (hk1.trans hk2.symm)
          · intro n w hw
            simp only [Substitution.set, nget_mapSet]
            by_cases hkn : k.name = n
            · rw [← hkn, hgn] at hw
              cases hw
            · rw [if_neg hkn]
              exact hw
          · simp [Substitution.set, nget_mapSet]

/-- A successful `setSafeMultiple` towards constants keeps the invariant and every
binding, and at every position either the two terms have the same name or the key is a
variable now bound to the constant. -/
theorem setSafeMultiple_spec : ∀ (ks vs : List Term) (s : Substitution),
    SubInv s → (∀ v ∈ vs, v.isVariable = false) → ks.length = vs.length →
    (s.setSafeMultiple ks vs true).1 = true →
    SubInv (s.setSafeMultiple ks vs true).2 ∧ Ext s (s.setSafeMultiple ks vs true).2 ∧
    List.Forall₂ (fun k v => k.name = v.name ∨
      (k.isVariable = true ∧ k.name ≠ v.name ∧ Bound (s.setSafeMultiple ks vs true).2 k v.name))
      ks vs
  | [], [], s, hinv, _, _, _ => by
    simp only [Substitution.setSafeMultiple]
    exact ⟨hinv, ext_refl s, List.Forall₂.nil⟩
  | [], _ :: _, _, _, _, hl, _ => by simp at hl
  | _ :: _, [], _, _, _, hl, _ => by simp at hl
  | k :: ks, v :: vs, s, hinv, hvs, hl, h => by
    simp only [Substitution.setSafeMultiple, Bool.and_eq_true] at h ⊢
    have hv : v.isVariable = false := hvs v (List.mem_cons_self _ _)
    obtain ⟨hi1, he1, hp1⟩ := setSafe_spec s k v hinv hv h.1
    obtain ⟨hi2, he2, hp2⟩ := setSafeMultiple_spec ks vs (s.setSafe k v true).2 hi1
      (fun w hw => hvs w (List.mem_cons_of_mem _ hw)) (by simpa using hl) h.2
    refine ⟨hi2, ext_trans he1 he2, List.Forall₂.cons ?_ hp2⟩
    rcases hp1 with hp1 | ⟨hkv, hne, hb⟩
    · exact Or.inl hp1.1
    · exact Or.inr ⟨hkv, hne, bound_ext hb he2⟩

/-! ## Soundness of `unifyWithState` -/

theorem mem_foldl_setInsert_filter {α β : Type} (lt : α → α → Bool) (g : β → Bool × α)
    (q : List β) (ns : List α) (y : α)
    (h : y ∈ q.foldl (fun ns qf => if (g qf).1 then setInsert lt (g qf).2 ns else ns) ns) :
    y ∈ ns ∨ ∃ qf ∈ q, (g qf).1 = true ∧ y = (g qf).2 := by
  induction q generalizing ns with
  | nil => exact Or.inl h
  | cons b bs ih =>
    simp only [List.foldl_cons] at h
    rcases ih _ h with h | ⟨qf, hq, hg⟩
    · by_cases hb : (g b).1 = true
      · rw [if_pos hb] at h
        rcases mem_setInsert lt _ y ns h with h | h
        · exact Or.inr ⟨b, List.mem_cons_self _ _, hb, h⟩
        · exact Or.inl h
      · rw [if_neg hb] at h
        exact Or.inl h
    · exact Or.inr ⟨qf, List.mem_cons_of_mem _ hq, hg⟩

/-- Every substitution produced by one round of `unifyWithState` comes from a
substitution of the current set: either unchanged, the instantiated literal being ground
and found in the state, or extended by `setSafeMultiple` towards a fact of the query. -/
theorem mem_unifyStep (xs : List Literal) (f : Literal) (subs : List Substitution)
    (y : Substitution) (h : y ∈ unifyStep xs f subs) :
    ∃ sub ∈ subs,
      (query xs (sub.apply f) ≠ [] ∧ (sub.apply f).grounded = true ∧ y = sub) ∨
      (∃ qf ∈ query xs (sub.apply f),
        (sub.setSafeMultiple (sub.apply f).parameters qf.parameters true).1 = true ∧
        y = (sub.setSafeMultiple (sub.apply f).parameters qf.parameters true).2) := by
  have hgen : ∀ (subs acc : List Substitution),
      y ∈ subs.foldl (fun nextSubs sub =>
        let subbed := sub.apply f
        let q := query xs subbed
        if q.length == 0 then nextSubs
        else if subbed.grounded then setInsert Substitution.lt sub nextSubs
        else q.foldl (fun ns qf =>
          let r := sub.setSafeMultiple subbed.parameters qf.parameters true
          if r.1 then setInsert Substitution.lt r.2 ns else ns) nextSubs) acc →
      y ∈ acc ∨ ∃ sub ∈ subs,
      (query xs (sub.apply f) ≠ [] ∧ (sub.apply f).grounded = true ∧ y = sub) ∨
      (∃ qf ∈ query xs (sub.apply f),
        (sub.setSafeMultiple (sub.apply f).parameters qf.parameters true).1 = true ∧
        y = (sub.setSafeMultiple (sub.apply f).parameters qf.parameters true).2) := by
    intro subs
    induction subs with
    | nil => intro acc h; exact Or.inl h
    | cons sub subs ih =>
      intro acc h
      simp only [List.foldl_cons] at h
      rcases ih _ h with h1 | ⟨sub1, hs1, hc⟩
      · by_cases hq : ((query xs (sub.apply f)).length == 0) = true
        · rw [if_pos hq] at h1
          exact Or.inl h1
        · rw [if_neg hq] at h1
          have hqne : query xs (sub.apply f) ≠ [] := by
            intro hnil
            rw [hnil] at hq
            simp at hq
          by_cases hg : (sub.apply f).grounded = true
          · rw [if_pos hg] at h1
            rcases mem_setInsert _ _ _ _ h1 with h1 | h1
            · exact Or.inr ⟨sub, List.mem_cons_self _ _, Or.inl ⟨hqne, hg, h1⟩⟩
            · exact Or.inl h1
          · rw [if_neg hg] at h1
            rcases mem_foldl_setInsert_filter Substitution.lt
              (fun (qf : Literal) =>
                sub.setSafeMultiple (sub.apply f).parameters qf.parameters true)
              _ _ y h1 with h1 | ⟨qf, hqf, hok, hy⟩
            · exact Or.inl h1
            · exact Or.inr ⟨sub, List.mem_cons_self _ _, Or.inr ⟨qf, hqf, hok, hy⟩⟩
      · exact Or.inr ⟨sub1, List.mem_cons_of_mem _ hs1, hc⟩
  rcases hgen subs [] h with h | h
  · cases h
  · exact h

theorem mem_query (xs : List Literal) (l c : Literal) (h : c ∈ query xs l) :
    c ∈ xs ∧ c.pred.eq l.pred = true ∧ c.parameters.length = l.parameters.length ∧
      queryCorresponds l.parameters c.parameters = true := by
  unfold query at h
  rw [List.mem_filter] at h
  simp only [Bool.and_eq_true, beq_iff_eq] at h
  exact ⟨h.1, h.2.1.1, h.2.1.2, h.2.2⟩

theorem applyTerm_of_nget_some (s : Substitution) (p v : Term)
    (h : nget s.mapping p.name = some v) : s.applyTerm p = v := by
  unfold Substitution.applyTerm
  rw [Substitution.get_eq_nget, h]

theorem applyTerm_of_nget_none (s : Substitution) (p : Term)
    (h : nget s.mapping p.name = none) : s.applyTerm p = p := by
  unfold Substitution.applyTerm
  rw [Substitution.get_eq_nget, h]

theorem SubInv.ground_of_nget {s : Substitution} (hinv : SubInv s) {n : String} {v : Term}
    (h : nget s.mapping n = some v) : v.isVariable = false := by
  obtain ⟨k, hk, _⟩ := mem_of_nget _ _ _ h
  exact hinv.ground (k, v) hk

/-- When the instantiated literal is ground and corresponds to a fact, every parameter of
the literal is bound to the name of the parameter of the fact at the same position. -/
theorem bound_of_grounded (s : Substitution) :
    ∀ (ps cs : List Term), ps.length = cs.length →
      queryCorresponds (ps.map s.applyTerm) cs = true →
      (∀ p ∈ ps, (s.applyTerm p).isVariable = false) →
      (∀ p ∈ ps, p.isVariable = false → Bound s p p.name) →
      (∀ c ∈ cs, c.isVariable = false) →
      List.Forall₂ (fun p q => Bound s p q.name) ps cs
  | [], [], _, _, _, _, _ => List.Forall₂.nil
  | [], _ :: _, hl, _, _, _, _ => by simp at hl
  | _ :: _, [], hl, _, _, _, _ => by simp at hl
  | p :: ps, c :: cs, hl, hq, hg, hcb, hcs => by
    simp only [List.map_cons, queryCorresponds] at hq
    have hgp := hg p (List.mem_cons_self _ _)
    have hc := hcs c (List.mem_cons_self _ _)
    simp only [hgp, Bool.not_false, Bool.true_and, Bool.false_and, Bool.false_eq_true,
      if_false] at hq
    by_cases hne : (s.applyTerm p).ne c = true
    · rw [if_pos hne] at hq
      cases hq
    · rw [if_neg hne] at hq
      have heq : (s.applyTerm p).name = c.name := by
        apply (Term.eq_iff_name_right _ c hc).mp
        simpa [Term.ne] using hne
      refine List.Forall₂.cons ?_ (bound_of_grounded s ps cs (by simpa using hl) hq
        (fun q hq => hg q (List.mem_cons_of_mem _ hq))
        (fun q hq => hcb q (List.mem_cons_of_mem _ hq))
        (fun q hq => hcs q (List.mem_cons_of_mem _ hq)))
      cases hn : nget s.mapping p.name with
      | some v =>
        rw [applyTerm_of_nget_some s p v hn] at heq
        exact ⟨v, hn, heq⟩
      | none =>
        rw [applyTerm_of_nget_none s p hn] at heq hgp
        obtain ⟨v, hv, _⟩ := hcb p (List.mem_cons_self _ _) hgp
        rw [hn] at hv
        cases hv

/-- After a successful `setSafeMultiple` of the instantiated literal towards a fact, every
parameter of the literal is bound to the name of the parameter of the fact. -/
theorem bound_of_setSafe (s y : Substitution) (hinv : SubInv s) (hext : Ext s y) :
    ∀ (ps cs : List Term),
      List.Forall₂ (fun k v => k.name = v.name ∨
        (k.isVariable = true ∧ k.name ≠ v.name ∧ Bound y k v.name)) (ps.map s.applyTerm) cs →
      (∀ p ∈ ps, p.isVariable = false → Bound s p p.name) →
      (∀ p ∈ ps, p.isVariable = true → ∀ c ∈ cs, p.name ≠ c.name) →
      List.Forall₂ (fun p q => Bound y p q.name) ps cs
  | [], [], _, _, _ => List.Forall₂.nil
  | [], _ :: _, h, _, _ => by cases h
  | _ :: _, [], h, _, _ => by cases h
  | p :: ps, c :: cs, h, hcb, hclash => by
    simp only [List.map_cons] at h
    cases h with
    | cons h1 h2 =>
      refine List.Forall₂.cons ?_ (bound_of_setSafe s y hinv hext ps cs h2
        (fun q hq => hcb q (List.mem_cons_of_mem _ hq))
        (fun q hq hv d hd => hclash q (List.mem_cons_of_mem _ hq) hv d
          (List.mem_cons_of_mem _ hd)))
      cases hn : nget s.mapping p.name with
      | some v =>
        rw [applyTerm_of_nget_some s p v hn] at h1
        rcases h1 with h1 | ⟨hv, _, _⟩
        · exact ⟨v, hext _ _ hn, h1⟩
        · rw [hinv.ground_of_nget hn] at hv
          cases hv
      | none =>
        rw [applyTerm_of_nget_none s p hn] at h1
        rcases h1 with h1 | ⟨_, _, hb⟩
        · by_cases hpv : p.isVariable = true
          · exact absurd h1 (hclash p (List.mem_cons_self _ _) hpv c (List.mem_cons_self _ _))
          · obtain ⟨v, hv, _⟩ := hcb p (List.mem_cons_self _ _) (by simpa using hpv)
            rw [hn] at hv
            cases hv
        · exact hb

theorem matched_ext {xs : List Literal} {s t : Substitution} {f : Literal}
    (h : Matched xs s f) (he : Ext s t) : Matched xs t f := by
  obtain ⟨c, hc, hp, hf⟩ := h
  exact ⟨c, hc, hp, hf.imp (fun _ _ hb => bound_ext hb he)⟩

/-- One round of `unifyWithState` on substitutions that satisfy the invariant and bind
the constants of the literal: every result extends a substitution of the current set,
satisfies the invariant and maps the literal onto a fact of the state. -/
theorem unifyStep_sound (xs : List Literal) (f : Literal) (subs : List Substitution)
    (hxs : ∀ c ∈ xs, ∀ q ∈ c.parameters, q.isVariable = false)
    (hclash : ∀ p ∈ f.parameters, p.isVariable = true →
      ∀ c ∈ xs, ∀ q ∈ c.parameters, p.name ≠ q.name)
    (hsubs : ∀ sub ∈ subs, SubInv sub ∧
      ∀ p ∈ f.parameters, p.isVariable = false → Bound sub p p.name)
    (y : Substitution) (hy : y ∈ unifyStep xs f subs) :
    ∃ sub ∈ subs, Ext sub y ∧ SubInv y ∧ Matched xs y f := by
  obtain ⟨sub, hsub, hc⟩ := mem_unifyStep xs f subs y hy
  obtain ⟨hinv, hcb⟩ := hsubs sub hsub
  refine ⟨sub, hsub, ?_⟩
  rcases hc with ⟨hq, hg, rfl⟩ | ⟨qf, hqf, hok, rfl⟩
  · obtain ⟨c, hc⟩ := List.exists_mem_of_ne_nil _ hq
    obtain ⟨hcx, hpred, hlen, hcorr⟩ := mem_query xs _ c hc
    refine ⟨ext_refl _, hinv, c, hcx, hpred, ?_⟩
    simp only [Substitution.apply, List.length_map] at hlen hcorr
    apply bound_of_grounded y f.parameters c.parameters hlen.symm hcorr _ hcb (hxs c hcx)
    intro p hp
    have : (y.apply f).parameters.all (fun p => !p.isVariable) = true := hg
    simp only [Substitution.apply, List.all_eq_true, List.mem_map, forall_exists_index,
      and_imp, forall_apply_eq_imp_iff₂, Bool.not_eq_true'] at this
    exact this p hp
  · obtain ⟨hcx, hpred, hlen, _⟩ := mem_query xs _ qf hqf
    simp only [Substitution.apply, List.length_map] at hlen
    obtain ⟨hi, he, hp⟩ := setSafeMultiple_spec (sub.apply f).parameters qf.parameters sub
      hinv (hxs qf hcx) (by simp [Substitution.apply, hlen]) hok
    refine ⟨he, hi, qf, hcx, hpred, ?_⟩
    exact bound_of_setSafe sub _ hinv he f.parameters qf.parameters hp hcb
      (fun p hp hv c hc => hclash p hp hv qf hcx c hc)

/-- Every substitution returned by `unifyWithState` extends one of the initial
substitutions, satisfies the invariant, and maps every literal onto a fact of the state. -/
theorem unifyWithState_sound (xs : List Literal)
    (hxs : ∀ c ∈ xs, ∀ q ∈ c.parameters, q.isVariable = false) :
    ∀ (fs : List Literal) (subs : List Substitution),
      (∀ f ∈ fs, ∀ p ∈ f.parameters, p.isVariable = true →
        ∀ c ∈ xs, ∀ q ∈ c.parameters, p.name ≠ q.name) →
      (∀ sub ∈ subs, SubInv sub ∧
        ∀ f ∈ fs, ∀ p ∈ f.parameters, p.isVariable = false → Bound sub p p.name) →
      ∀ y ∈ unifyWithState fs xs subs,
        ∃ sub ∈ subs, Ext sub y ∧ SubInv y ∧ ∀ f ∈ fs, Matched xs y f
  | [], subs, _, hsubs, y, hy => by
    refine ⟨y, hy, ext_refl y, (hsubs y hy).1, ?_⟩
    intro f hf
    cases hf
  | f :: fs, subs, hclash, hsubs, y, hy => by
    simp only [unifyWithState] at hy
    split at hy
    · cases hy
    · have hstep := unifyStep_sound xs f subs hxs (hclash f (List.mem_cons_self _ _))
        (fun sub hsub => ⟨(hsubs sub hsub).1, (hsubs sub hsub).2 f (List.mem_cons_self _ _)⟩)
      obtain ⟨z, hz, hezy, hinvy, hm⟩ := unifyWithState_sound xs hxs fs (unifyStep xs f subs)
        (fun g hg => hclash g (List.mem_cons_of_mem _ hg))
        (by
          intro z hz
          obtain ⟨sub, hsub, he, hi, _⟩ := hstep z hz
          refine ⟨hi, ?_⟩
          intro g hg p hp hpv
          exact bound_ext ((hsubs sub hsub).2 g (List.mem_cons_of_mem _ hg) p hp hpv) he)
        y hy
      obtain ⟨sub, hsub, he, _, hmf⟩ := hstep z hz
      refine ⟨sub, hsub, ext_trans he hezy, hinvy, ?_⟩
      intro g hg
      rcases List.mem_cons.mp hg with hg | hg
      · rw [hg]
        exact matched_ext hmf hezy
      · exact hm g hg

/-! ## Lemmas on `cleanConstants`, `checkInjective` and the constants of a rule -/

theorem mapSorted_unique (m : List (Term × Term)) (hs : MapSorted m) (e1 e2 : Term × Term)
    (h1 : e1 ∈ m) (h2 : e2 ∈ m) (hn : e1.1.name = e2.1.name) : e1 = e2 := by
  induction m with
  | nil => cases h1
  | cons e es ih =>
    unfold MapSorted at hs
    rw [List.pairwise_cons] at hs
    rcases List.mem_cons.mp h1 with h1 | h1
    · rcases List.mem_cons.mp h2 with h2 | h2
      · rw [h1, h2]
      · exact absurd (h1 ▸ hn) (Term.name_ne_of_lt _ _ (hs.1 e2 h2))
    · rcases List.mem_cons.mp h2 with h2 | h2
      · exact absurd (h2 ▸ hn.symm) (Term.name_ne_of_lt _ _ (hs.1 e1 h1))
      · exact ih hs.2 h1 h2

theorem mapSorted_filter (m : List (Term × Term)) (P : Term × Term → Bool)
    (hs : MapSorted m) : MapSorted (m.filter P) :=
  List.Pairwise.sublist (List.filter_sublist m) hs

theorem mapErase_eq_filter (k : Term) (m : List (Term × Term)) (hs : MapSorted m) :
    mapErase k m = m.filter (fun p => !keyEquiv p.1 k) := by
  induction m with
  | nil => rfl
  | cons e es ih =>
    obtain ⟨k1, v1⟩ := e
    unfold MapSorted at hs
    rw [List.pairwise_cons] at hs
    simp only [mapErase]
    by_cases hk : keyEquiv k1 k = true
    · rw [if_pos hk]
      simp only [List.filter_cons, hk, Bool.not_true, Bool.false_eq_true, if_false]
      symm
      rw [List.filter_eq_self]
      intro a ha
      have hne : k1.name ≠ a.1.name := Term.name_ne_of_lt _ _ (hs.1 a ha)
      have hk1 : k1.name = k.name := (keyEquiv_iff k1 k).mp hk
      have : keyEquiv a.1 k = false := by
        by_contra hc
        exact hne (hk1.trans ((keyEquiv_iff a.1 k).mp (by simpa using hc)).symm)
      simp [this]
    · rw [if_neg hk]
      simp only [List.filter_cons, hk, Bool.not_false, if_true]
      rw [ih hs.2]

theorem remove_eq_filter (s : Substitution) (k : Term) (hs : MapSorted s.mapping) :
    s.remove k = ⟨s.mapping.filter (fun p => !keyEquiv p.1 k), s.injective⟩ := by
  unfold Substitution.remove
  by_cases hc : s.contains k = true
  · rw [if_pos hc, mapErase_eq_filter k _ hs]
  · rw [if_neg hc]
    have hall : s.mapping.filter (fun p => !keyEquiv p.1 k) = s.mapping := by
      rw [List.filter_eq_self]
      intro a ha
      unfold Substitution.contains mapFind at hc
      have hnone : s.mapping.find? (fun p => keyEquiv p.1 k) = none := by
        cases hf : s.mapping.find? (fun p => keyEquiv p.1 k) with
        | none => rfl
        | some e => rw [hf] at hc; simp at hc
      have := List.find?_eq_none.mp hnone a ha
      simpa using this
    rw [hall]

theorem removeAll_eq_filter : ∀ (ks : List Term) (s : Substitution), MapSorted s.mapping →
    ks.foldl (fun r k => r.remove k) s =
      ⟨s.mapping.filter (fun p => ks.all (fun k => !keyEquiv p.1 k)), s.injective⟩
  | [], s, _ => by simp
  | k :: ks, s, hs => by
    simp only [List.foldl_cons]
    rw [remove_eq_filter s k hs, removeAll_eq_filter ks _ (mapSorted_filter _ _ hs)]
    simp only [List.filter_filter, List.all_cons]
    congr 1
    apply List.filter_congr
    intro x _
    rw [Bool.and_comm]

/-- The method `cleanConstants` keeps the flag and, on a sorted map, exactly the entries
whose key differs from its image. -/
theorem cleanConstants_spec (s : Substitution) (hs : MapSorted s.mapping) :
    s.cleanConstants.injective = s.injective ∧
    s.cleanConstants.mapping.Sublist s.mapping ∧
    (∀ e ∈ s.cleanConstants.mapping, e.1.eq e.2 = false) ∧
    (∀ e ∈ s.mapping, e.1.eq e.2 = false → e ∈ s.cleanConstants.mapping) := by
  unfold Substitution.cleanConstants
  dsimp only
  rw [removeAll_eq_filter _ s hs]
  refine ⟨rfl, List.filter_sublist _, ?_, ?_⟩
  · intro e he
    rw [List.mem_filter] at he
    by_contra hid
    have hid1 : e.1.eq e.2 = true := by simpa using hid
    have hmem : e ∈ s.mapping.filter (fun p => p.1.eq p.2) :=
      List.mem_filter.mpr ⟨he.1, hid1⟩
    obtain ⟨y, hy, h1, h2⟩ := foldl_setUnion_has_equiv Term.lt
      (fun (p : Term × Term) => [p.1]) (s.mapping.filter (fun p => p.1.eq p.2)) [] e e.1
      (Term.lt_irrefl _) hmem (List.mem_singleton_self _)
    have hall := he.2
    rw [List.all_eq_true] at hall
    have := hall y hy
    simp [keyEquiv, h1, h2] at this
  · intro e he hne
    rw [List.mem_filter]
    refine ⟨he, ?_⟩
    rw [List.all_eq_true]
    intro k hk
    rcases foldl_setUnion_mem Term.lt (fun (p : Term × Term) => [p.1])
      (s.mapping.filter (fun p => p.1.eq p.2)) [] k hk with hk | ⟨e1, he1, hk1⟩
    · cases hk
    · rw [List.mem_filter] at he1
      simp only [List.mem_singleton] at hk1
      by_contra hc
      have hkeq : keyEquiv e.1 k = true := by simpa using hc
      have hname : e1.1.name = e.1.name := by
        rw [← hk1]
        exact ((keyEquiv_iff e.1 k).mp hkeq).symm
      have := mapSorted_unique _ hs e1 e he1.1 he hname
      rw [this] at he1
      rw [he1.2] at hne
      cases hne

/-- After `cleanConstants`, applying the substitution to a bound term still gives a term
of the bound name. -/
theorem applyTerm_clean_name (s : Substitution) (hinv : SubInv s) (p : Term) (n : String)
    (hb : Bound s p n) : (s.cleanConstants.applyTerm p).name = n := by
  obtain ⟨v, hv, hn⟩ := hb
  obtain ⟨_, hsub, hnoid, hkeep⟩ := cleanConstants_spec s hinv.sorted
  obtain ⟨k, hk, hkn⟩ := mem_of_nget _ _ _ hv
  have hvg := hinv.ground (k, v) hk
  have hsorted : MapSorted s.cleanConstants.mapping := List.Pairwise.sublist hsub hinv.sorted
  by_cases hid : k.eq v = true
  · have hname : k.name = v.name := (Term.eq_iff_name_right k v hvg).mp hid
    have hnone : nget s.cleanConstants.mapping p.name = none := by
      cases hc : nget s.cleanConstants.mapping p.name with
      | none => rfl
      | some w =>
        exfalso
        obtain ⟨k1, hk1, hk1n⟩ := mem_of_nget _ _ _ hc
        have := mapSorted_unique _ hinv.sorted (k1, w) (k, v) (hsub.subset hk1) hk
          (hk1n.trans hkn.symm)
        rw [this] at hk1
        have := hnoid (k, v) hk1
        rw [hid] at this
        cases this
    rw [applyTerm_of_nget_none _ p hnone, ← hkn, hname, hn]
  · have hmem := hkeep (k, v) hk (by simpa using hid)
    have := nget_of_mem _ hsorted (k, v) hmem
    simp only at this
    rw [hkn] at this
    rw [applyTerm_of_nget_some _ p v this, hn]

theorem checkInjective_fold_false (m : List (Term × Term)) (vals : List Term) :
    (m.foldl (fun (st : Bool × List Term) pair =>
      if !st.1 then st
      else if inList Term.eq st.2 pair.2 then (false, st.2)
      else (true, setInsert Term.lt pair.2 st.2)) (false, vals)).1 = false := by
  induction m with
  | nil => rfl
  | cons e es ih => simpa [List.foldl_cons] using ih

theorem checkInjective_fold_of_pairwise : ∀ (m : List (Term × Term)) (vals : List Term),
    (∀ y ∈ vals, ∀ e ∈ m, y.eq e.2 = false) →
    m.Pairwise (fun p q => p.2.eq q.2 = false) →
    (m.foldl (fun (st : Bool × List Term) pair =>
      if !st.1 then st
      else if inList Term.eq st.2 pair.2 then (false, st.2)
      else (true, setInsert Term.lt pair.2 st.2)) (true, vals)).1 = true
  | [], _, _, _ => rfl
  | e :: es, vals, hv, hp => by
    rw [List.pairwise_cons] at hp
    have hin : inList Term.eq vals e.2 = false := by
      simp only [inList, List.any_eq_false, Bool.not_eq_true]
      intro y hy
      exact hv y hy e (List.mem_cons_self _ _)
    simp only [List.foldl_cons, Bool.not_true, Bool.false_eq_true, if_false, hin]
    apply checkInjective_fold_of_pairwise es _ _ hp.2
    intro y hy e1 he1
    rcases mem_setInsert _ _ _ _ hy with hy | hy
    · rw [hy]; exact hp.1 e1 he1
    · exact hv y hy e1 (List.mem_cons_of_mem _ he1)

theorem pairwise_of_checkInjective_fold : ∀ (m : List (Term × Term)) (vals : List Term),
    (∀ e ∈ m, e.2.isVariable = false) →
    (m.foldl (fun (st : Bool × List Term) pair =>
      if !st.1 then st
      else if inList Term.eq st.2 pair.2 then (false, st.2)
      else (true, setInsert Term.lt pair.2 st.2)) (true, vals)).1 = true →
    m.Pairwise (fun p q => p.2.name ≠ q.2.name)
  | [], _, _, _ => List.Pairwise.nil
  | e :: es, vals, hg, h => by
    simp only [List.foldl_cons, Bool.not_true, Bool.false_eq_true, if_false] at h
    by_cases hin : inList Term.eq vals e.2 = true
    · rw [if_pos hin, checkInjective_fold_false] at h
      cases h
    · rw [if_neg hin] at h
      have ih := pairwise_of_checkInjective_fold es _
        (fun e1 he1 => hg e1 (List.mem_cons_of_mem _ he1)) h
      refine List.Pairwise.cons ?_ ih
      intro e1 he1 hname
      obtain ⟨y, hy, h1, h2⟩ := setInsert_has_equiv Term.lt e.2 vals (Term.lt_irrefl _)
      have hyn : y.name = e1.2.name :=
        (Term.name_eq_of_not_lt e.2 y h1 h2).symm.trans hname
      have hye : y.eq e1.2 = true := Term.eq_of_name y e1.2 hyn
      have hnot : ∀ (es1 : List (Term × Term)) (vals1 : List Term) (e2 : Term × Term)
          (y1 : Term), e2 ∈ es1 → y1 ∈ vals1 → y1.eq e2.2 = true →
          (es1.foldl (fun (st : Bool × List Term) pair =>
            if !st.1 then st
            else if inList Term.eq st.2 pair.2 then (false, st.2)
            else (true, setInsert Term.lt pair.2 st.2)) (true, vals1)).1 = false := by
        intro es1
        induction es1 with
        | nil => intro _ _ _ h; cases h
        | cons a as iha =>
          intro vals1 e2 y1 he2 hy1 heq
          simp only [List.foldl_cons, Bool.not_true, Bool.false_eq_true, if_false]
          by_cases hin1 : inList Term.eq vals1 a.2 = true
          · rw [if_pos hin1]
            exact checkInjective_fold_false _ _
          · rw [if_neg hin1]
            rcases List.mem_cons.mp he2 with he2 | he2
            · exfalso
              apply hin1
              simp only [inList, List.any_eq_true]
              exact ⟨y1, hy1, he2 ▸ heq⟩
            · exact iha _ e2 y1 he2 (mem_setInsert_of_mem _ _ _ _ hy1) heq
      rw [hnot es _ e1 y he1 hy hye] at h
      cases h

/-- On a map without two entries of the same image, `checkInjective` returns true. -/
theorem checkInjective_of_pairwise (s : Substitution)
    (h : s.mapping.Pairwise (fun p q => p.2.eq q.2 = false)) : s.checkInjective = true :=
  checkInjective_fold_of_pairwise s.mapping [] (fun _ hy => by cases hy) h

/-- When `checkInjective` returns true on a map with constant images, no two entries have
images of the same name. -/
theorem pairwise_of_checkInjective (s : Substitution)
    (hg : ∀ e ∈ s.mapping, e.2.isVariable = false) (h : s.checkInjective = true) :
    s.mapping.Pairwise (fun p q => p.2.name ≠ q.2.name) :=
  pairwise_of_checkInjective_fold s.mapping [] hg h

theorem mem_addConstants (ps acc : List Term) (y : Term) (h : y ∈ addConstants ps acc) :
    y ∈ acc ∨ (y ∈ ps ∧ y.isVariable = false) := by
  induction ps generalizing acc with
  | nil => exact Or.inl h
  | cons p ps ih =>
    simp only [addConstants, List.foldl_cons] at h
    rcases ih _ h with h | ⟨h1, h2⟩
    · by_cases hp : (!p.isVariable) = true
      · rw [if_pos hp] at h
        rcases mem_setInsert _ _ _ _ h with h | h
        · exact Or.inr ⟨h ▸ List.mem_cons_self _ _, by rw [h]; simpa using hp⟩
        · exact Or.inl h
      · rw [if_neg hp] at h
        exact Or.inl h
    · exact Or.inr ⟨List.mem_cons_of_mem _ h1, h2⟩

theorem addConstants_mono (ps acc : List Term) (y : Term) (h : y ∈ acc) :
    y ∈ addConstants ps acc := by
  induction ps generalizing acc with
  | nil => exact h
  | cons p ps ih =>
    simp only [addConstants, List.foldl_cons]
    apply ih
    split
    · exact mem_setInsert_of_mem _ _ _ _ h
    · exact h

theorem addConstants_has (ps acc : List Term) (p : Term) (hp : p ∈ ps)
    (hv : p.isVariable = false) : ∃ y ∈ addConstants ps acc, y.name = p.name := by
  induction ps generalizing acc with
  | nil => cases hp
  | cons q qs ih =>
    simp only [addConstants, List.foldl_cons]
    rcases List.mem_cons.mp hp with hp | hp
    · subst hp
      simp only [hv, Bool.not_false, if_true]
      obtain ⟨y, hy, h1, h2⟩ := setInsert_has_equiv Term.lt p acc (Term.lt_irrefl _)
      exact ⟨y, addConstants_mono qs _ y hy, (Term.name_eq_of_not_lt p y h1 h2).symm⟩
    · exact ih _ hp

theorem mem_addConstantsOfSet (ls : List Literal) (acc : List Term) (y : Term)
    (h : y ∈ addConstantsOfSet ls acc) :
    y ∈ acc ∨ (y.isVariable = false ∧ ∃ l ∈ ls, y ∈ l.parameters) := by
  induction ls generalizing acc with
  | nil => exact Or.inl h
  | cons l ls ih =>
    simp only [addConstantsOfSet, List.foldl_cons] at h
    rcases ih _ h with h | ⟨h1, l1, hl1, hy⟩
    · rcases mem_addConstants _ _ _ h with h | ⟨h1, h2⟩
      · exact Or.inl h
      · exact Or.inr ⟨h2, l, List.mem_cons_self _ _, h1⟩
    · exact Or.inr ⟨h1, l1, List.mem_cons_of_mem _ hl1, hy⟩

theorem addConstantsOfSet_mono (ls : List Literal) (acc : List Term) (y : Term)
    (h : y ∈ acc) : y ∈ addConstantsOfSet ls acc := by
  induction ls generalizing acc with
  | nil => exact h
  | cons l ls ih =>
    simp only [addConstantsOfSet, List.foldl_cons]
    exact ih _ (addConstants_mono _ _ _ h)

theorem addConstantsOfSet_has (ls : List Literal) (acc : List Term) (l : Literal) (p : Term)
    (hl : l ∈ ls) (hp : p ∈ l.parameters) (hv : p.isVariable = false) :
    ∃ y ∈ addConstantsOfSet ls acc, y.name = p.name := by
  induction ls generalizing acc with
  | nil => cases hl
  | cons m ms ih =>
    simp only [addConstantsOfSet, List.foldl_cons]
    rcases List.mem_cons.mp hl with hl | hl
    · subst hl
      obtain ⟨y, hy, hn⟩ := addConstants_has l.parameters acc p hp hv
      exact ⟨y, addConstantsOfSet_mono ms _ y hy, hn⟩
    · exact ih _ hl

/-- The loop that maps the constants of a rule to themselves keeps the invariant and
every binding, and binds every constant of the list to its own name, provided a constant
that is already a key is bound to its own name. -/
theorem identityFold_spec : ∀ (cs : List Term) (s : Substitution), SubInv s →
    (∀ c ∈ cs, c.isVariable = false) →
    (∀ c ∈ cs, ∀ v, nget s.mapping c.name = some v → v.name = c.name) →
    SubInv (cs.foldl (fun s c => if !(s.get c).isSome then s.set c c else s) s) ∧
    Ext s (cs.foldl (fun s c => if !(s.get c).isSome then s.set c c else s) s) ∧
    ∀ c ∈ cs, Bound (cs.foldl (fun s c => if !(s.get c).isSome then s.set c c else s) s)
      c c.name
  | [], s, hinv, _, _ => ⟨hinv, ext_refl s, fun c hc => by cases hc⟩
  | c :: cs, s, hinv, hcs, hid => by
    simp only [List.foldl_cons]
    have hcv := hcs c (List.mem_cons_self _ _)
    have hstep : SubInv (if !(s.get c).isSome then s.set c c else s) ∧
        Ext s (if !(s.get c).isSome then s.set c c else s) ∧
        Bound (if !(s.get c).isSome then s.set c c else s) c c.name ∧
        ∀ n v, nget (if !(s.get c).isSome then s.set c c else s).mapping n = some v →
          nget s.mapping n = some v ∨ v.name = n := by
      cases hg : s.get c with
      | some w =>
        simp only [Option.isSome_some, Bool.not_true, Bool.false_eq_true, if_false]
        rw [Substitution.get_eq_nget] at hg
        exact ⟨hinv, ext_refl s, ⟨w, hg, hid c (List.mem_cons_self _ _) w hg⟩,
          fun n v h => Or.inl h⟩
      | none =>
        simp only [Option.isSome_none, Bool.not_false, if_true]
        rw [Substitution.get_eq_nget] at hg
        refine ⟨⟨mapSorted_mapSet c c _ hinv.sorted, hinv.flag, ?_, ?_⟩, ?_, ?_, ?_⟩
        · intro e he
          rcases mem_mapSet c c _ e he with he | ⟨_, he⟩
          · exact hinv.ground e he
          · rw [he]; exact hcv
        · intro e1 he1 e2 he2 hn
          rcases mem_mapSet c c _ e1 he1 with he1 | ⟨hk1, hv1⟩
          · rcases mem_mapSet c c _ e2 he2 with he2 | ⟨hk2, hv2⟩
            · exact hinv.inj e1 he1 e2 he2 hn
            · exact Or.inr (Or.inr (by rw [hv2, hk2]))
          · exact Or.inr (Or.inl (by rw [hv1, hk1]))
        · intro n w hw
          simp only [Substitution.set, nget_mapSet]
          by_cases hcn : c.name = n
          · rw [← hcn, hg] at hw
            cases hw
          · rw [if_neg hcn]
            exact hw
        · exact ⟨c, by simp [Substitution.set, nget_mapSet], rfl⟩
        · intro n v h
          simp only [Substitution.set, nget_mapSet] at h
          by_cases hcn : c.name = n
          · rw [if_pos hcn] at h
            cases h
            exact Or.inr hcn
          · rw [if_neg hcn] at h
            exact Or.inl h
    obtain ⟨hi1, he1, hb1, hfrom⟩ := hstep
    obtain ⟨hi2, he2, hb2⟩ := identityFold_spec cs _ hi1
      (fun d hd => hcs d (List.mem_cons_of_mem _ hd))
      (by
        intro d hd v hv
        rcases hfrom d.name v hv with h | h
        · exact hid d (List.mem_cons_of_mem _ hd) v h
        · exact h)
    refine ⟨hi2, ext_trans he1 he2, ?_⟩
    intro d hd
    rcases List.mem_cons.mp hd with hd | hd
    · rw [hd]
      exact bound_ext hb1 he2
    · exact hb2 d hd

theorem mem_cleanSubs (subs : List Substitution) (s : Substitution)
    (h : s ∈ cleanSubs subs) : ∃ y ∈ subs, s = y.cleanConstants := by
  unfold cleanSubs at h
  have hgen : ∀ (subs acc : List Substitution),
      s ∈ subs.foldl (fun clean s => setInsert Substitution.lt s.cleanConstants clean) acc →
      s ∈ acc ∨ ∃ y ∈ subs, s = y.cleanConstants := by
    intro subs
    induction subs with
    | nil => intro acc h; exact Or.inl h
    | cons a as ih =>
      intro acc h
      simp only [List.foldl_cons] at h
      rcases ih _ h with h | ⟨y, hy, hs⟩
      · rcases mem_setInsert _ _ _ _ h with h | h
        · exact Or.inr ⟨a, List.mem_cons_self _ _, h⟩
        · exact Or.inl h
      · exact Or.inr ⟨y, List.mem_cons_of_mem _ hy, hs⟩
  rcases hgen subs [] h with h | h
  · cases h
  · exact h

theorem paramsEq_of_names : ∀ (n : Nat) (as bs : List Term),
    List.Forall₂ (fun a b => a.name = b.name) as bs → n ≤ as.length →
    paramsEq n as bs = true
  | 0, _, _, _, _ => rfl
  | _ + 1, [], _, _, h => by simp at h
  | n + 1, a :: as, b :: bs, hf, hl => by
    cases hf with
    | cons h1 h2 =>
      simp only [paramsEq, Term.ne, Term.eq_of_name a b h1, Bool.not_true, Bool.false_eq_true,
        if_false]
      exact paramsEq_of_names n as bs h2 (by simpa using hl)
  | _ + 1, _ :: _, [], hf, _ => by cases hf

/-! ## Prematching is sound -/

theorem mem_preTerms_action (r : ActionRule) (p : Term)
    (h : p ∈ r.actionLiteral.parameters) : p ∈ r.preTerms :=
  List.mem_append_left _ h

theorem mem_preTerms_pre (r : ActionRule) (f : Literal) (p : Term)
    (hf : f ∈ r.preconditions) (h : p ∈ f.parameters) : p ∈ r.preTerms := by
  unfold ActionRule.preTerms
  apply List.mem_append_right
  simp only [List.mem_flatMap]
  exact ⟨f, hf, h⟩

theorem grounded_iff (l : Literal) :
    l.grounded = true ↔ ∀ q ∈ l.parameters, q.isVariable = false := by
  simp [Literal.grounded]

theorem bound_of_setSafe_raw (s y : Substitution) (hext : Ext s y) :
    ∀ (ps cs : List Term),
      List.Forall₂ (fun k v => k.name = v.name ∨
        (k.isVariable = true ∧ k.name ≠ v.name ∧ Bound y k v.name)) ps cs →
      (∀ p ∈ ps, p.isVariable = false → Bound s p p.name) →
      (∀ p ∈ ps, p.isVariable = true → ∀ c ∈ cs, p.name ≠ c.name) →
      List.Forall₂ (fun p q => Bound y p q.name) ps cs
  | [], [], _, _, _ => List.Forall₂.nil
  | [], _ :: _, h, _, _ => by cases h
  | _ :: _, [], h, _, _ => by cases h
  | p :: ps, c :: cs, h, hcb, hclash => by
    cases h with
    | cons h1 h2 =>
      refine List.Forall₂.cons ?_ (bound_of_setSafe_raw s y hext ps cs h2
        (fun q hq => hcb q (List.mem_cons_of_mem _ hq))
        (fun q hq hv d hd => hclash q (List.mem_cons_of_mem _ hq) hv d
          (List.mem_cons_of_mem _ hd)))
      rcases h1 with h1 | ⟨_, _, hb⟩
      · by_cases hpv : p.isVariable = true
        · exact absurd h1 (hclash p (List.mem_cons_self _ _) hpv c (List.mem_cons_self _ _))
        · have := bound_ext (hcb p (List.mem_cons_self _ _) (by simpa using hpv)) hext
          rw [h1] at this
          exact this
      · exact hb

/-- The substitutions returned by `prematchingSubs`, before the final cleaning: each
satisfies the invariant, binds every parameter of the action literal of the rule to the
parameter of the example at the same position, and maps every precondition onto a fact
of the example. -/
theorem prematchingSubs_core (r x : ActionRule) (s0 : Substitution)
    (hxact : x.actionLiteral.grounded = true)
    (hxpre : ∀ c ∈ x.preconditions, c.grounded = true)
    (hlen : r.actionLiteral.parameters.length = x.actionLiteral.parameters.length)
    (hclash : ∀ p ∈ r.preTerms, p.isVariable = true → ∀ q ∈ x.preTerms, p.name ≠ q.name)
    (hs0 : SubInv s0)
    (hs0k : ∀ e ∈ s0.mapping, ∀ c ∈ r.preTerms, c.isVariable = false → e.1.name ≠ c.name)
    (s : Substitution) (hs : s ∈ r.prematchingSubs x s0) :
    ∃ y, s = y.cleanConstants ∧ SubInv y ∧
      List.Forall₂ (fun p q => Bound y p q.name) r.actionLiteral.parameters
        x.actionLiteral.parameters ∧
      ∀ f ∈ r.preconditions, Matched x.preconditions y f := by
  unfold ActionRule.prematchingSubs at hs
  split at hs
  · cases hs
  · dsimp only at hs
    split at hs
    · cases hs
    · rename_i hok
      have hok1 : ((List.foldl (fun s c => if !(s.get c).isSome then s.set c c else s) s0
          (addConstantsOfSet r.preconditions
            (addConstants r.actionLiteral.parameters []))).setSafeMultiple
          r.actionLiteral.parameters x.actionLiteral.parameters true).1 = true := by
        simpa using hok
      obtain ⟨y, hy, hsy⟩ := mem_cleanSubs _ _ hs
      have hcs : ∀ c ∈ addConstantsOfSet r.preconditions
          (addConstants r.actionLiteral.parameters []),
          c.isVariable = false ∧ c ∈ r.preTerms := by
        intro c hc
        rcases mem_addConstantsOfSet _ _ _ hc with hc | ⟨hv, l, hl, hcl⟩
        · rcases mem_addConstants _ _ _ hc with hc | ⟨h1, h2⟩
          · cases hc
          · exact ⟨h2, mem_preTerms_action r c h1⟩
        · exact ⟨hv, mem_preTerms_pre r l c hl hcl⟩
      obtain ⟨hi1, he1, hb1⟩ := identityFold_spec _ s0 hs0 (fun c hc => (hcs c hc).1)
        (by
          intro c hc v hv
          obtain ⟨k, hk, hkn⟩ := mem_of_nget _ _ _ hv
          exact absurd hkn (hs0k (k, v) hk c (hcs c hc).2 (hcs c hc).1))
      have hcb : ∀ p ∈ r.preTerms, p.isVariable = false →
          Bound (List.foldl (fun s c => if !(s.get c).isSome then s.set c c else s) s0
            (addConstantsOfSet r.preconditions
              (addConstants r.actionLiteral.parameters []))) p p.name := by
        intro p hp hv
        unfold ActionRule.preTerms at hp
        have hrep : ∃ c ∈ addConstantsOfSet r.preconditions
            (addConstants r.actionLiteral.parameters []), c.name = p.name := by
          rcases List.mem_append.mp hp with hp | hp
          · obtain ⟨c, hc, hn⟩ := addConstants_has _ [] p hp hv
            exact ⟨c, addConstantsOfSet_mono _ _ c hc, hn⟩
          · simp only [List.mem_flatMap] at hp
            obtain ⟨l, hl, hpl⟩ := hp
            exact addConstantsOfSet_has _ _ l p hl hpl hv
        obtain ⟨c, hc, hn⟩ := hrep
        obtain ⟨v, hv1, hv2⟩ := hb1 c hc
        exact ⟨v, hn ▸ hv1, hv2.trans hn⟩
      have hxa := (grounded_iff _).mp hxact
      obtain ⟨hi2, he2, hp2⟩ := setSafeMultiple_spec _ _ _ hi1 hxa hlen hok1
      have hact := bound_of_setSafe_raw _ _ he2 _ _ hp2
        (fun p hp hv => hcb p (mem_preTerms_action r p hp) hv)
        (fun p hp hv c hc => hclash p (mem_preTerms_action r p hp) hv c
          (mem_preTerms_action x c hc))
      obtain ⟨z, hz, hezy, hinvy, hm⟩ := unifyWithState_sound x.preconditions
        (fun c hc => (grounded_iff c).mp (hxpre c hc)) r.preconditions _
        (fun f hf p hp hv c hc q hq => hclash p (mem_preTerms_pre r f p hf hp) hv q
          (mem_preTerms_pre x c q hc hq))
        (by
          intro sub hsub
          simp only [List.mem_singleton] at hsub
          subst hsub
          exact ⟨hi2, fun f hf p hp hv => bound_ext (hcb p (mem_preTerms_pre r f p hf hp) hv) he2⟩)
        y hy
      simp only [List.mem_singleton] at hz
      subst hz
      exact ⟨y, hsy, hinvy, hact.imp (fun _ _ hb => bound_ext hb hezy), hm⟩

theorem prematchingSubs_compatible (r x : ActionRule) (s0 s : Substitution)
    (hs : s ∈ r.prematchingSubs x s0) :
    Literal.compatible r.actionLiteral x.actionLiteral = true := by
  unfold ActionRule.prematchingSubs at hs
  split at hs
  · cases hs
  · rename_i h
    simpa using h

theorem subInv_of_checkInjective (s0 : Substitution) (hflag : s0.injective = true)
    (hsorted : MapSorted s0.mapping) (hinj : s0.checkInjective = true)
    (hg : ∀ e ∈ s0.mapping, e.2.isVariable = false) : SubInv s0 := by
  refine ⟨hsorted, hflag, hg, ?_⟩
  intro e1 he1 e2 he2 hn
  by_cases he : e1 = e2
  · exact Or.inl (by rw [he])
  · have hp := pairwise_of_checkInjective s0 hg hinj
    have hsym : Symmetric (fun (p q : Term × Term) => p.2.name ≠ q.2.name) :=
      fun _ _ h => Ne.symm h
    exact absurd hn (hp.forall hsym he1 he2 he)

/-- A cleaned substitution that satisfied the invariant has no two entries with equal
images. -/
theorem checkInjective_clean (y : Substitution) (hinv : SubInv y) :
    y.cleanConstants.checkInjective = true := by
  obtain ⟨_, hsub, hnoid, _⟩ := cleanConstants_spec y hinv.sorted
  apply checkInjective_of_pairwise
  have hsorted : MapSorted y.cleanConstants.mapping := List.Pairwise.sublist hsub hinv.sorted
  refine List.Pairwise.imp_of_mem ?_ hsorted
  intro a b ha hb hlt
  by_contra hc
  have hc1 : a.2.eq b.2 = true := by simpa using hc
  have hbg := hinv.ground b (hsub.subset hb)
  have hn : a.2.name = b.2.name := (Term.eq_iff_name_right a.2 b.2 hbg).mp hc1
  rcases hinv.inj a (hsub.subset ha) b (hsub.subset hb) hn with h | h | h
  · exact Term.name_ne_of_lt a.1 b.1 hlt h
  · have := hnoid a ha
    rw [Term.eq_of_name a.1 a.2 h.symm] at this
    cases this
  · have := hnoid b hb
    rw [Term.eq_of_name b.1 b.2 h.symm] at this
    cases this

/-- C4, failing inputs. Four ground examples with injective starting substitutions on
which a substitution returned by `prematchingSubs` is not a match. (1) Started from
`\x7bX/?Y\x7d`, the rule `act() : p(X)` on the example `act()` in the state `p(a)` returns
`\x7bX/?Y, Y/a\x7d`, which maps the precondition to `p(?Y)`, not a fact of the example.
(2) Started from `\x7ba/b\x7d`, the rule `act(a)` on the example `act(a)` returns
`\x7ba/b\x7d`, which maps the action literal to `act(b)`. (3) The rule `act(?a) : p(?a)`,
whose variable is named like the constant `a`, on the example `act(a)` in the state
`p(b)` returns `\x7b?a/b\x7d`, which maps the action literal to `act(b)`. (4) The rule
`act() : -p(X)` on the example `act()` in the state `p(a)` returns `\x7bX/a\x7d`, although
`-p(a)` is not a fact of the example. -/
theorem C4_counterexample :
    (Substitution.checkInjective ⟨[(mkVar "X", mkVar "Y")], true⟩ = true ∧
      ruleOneVar.prematchingSubs exampleOneFact ⟨[(mkVar "X", mkVar "Y")], true⟩ =
        [⟨[(mkVar "X", mkVar "Y"), (mkVar "Y", mkConst "a")], true⟩] ∧
      inList Literal.eq exampleOneFact.preconditions
        (Substitution.apply ⟨[(mkVar "X", mkVar "Y"), (mkVar "Y", mkConst "a")], true⟩
          (mkLit "p" [mkVar "X"])) = false) ∧
    (Substitution.checkInjective ⟨[(mkConst "a", mkConst "b")], true⟩ = true ∧
      ruleActConst.prematchingSubs ruleActConst ⟨[(mkConst "a", mkConst "b")], true⟩ =
        [⟨[(mkConst "a", mkConst "b")], true⟩] ∧
      (Substitution.apply ⟨[(mkConst "a", mkConst "b")], true⟩ ruleActConst.actionLiteral).eq
        ruleActConst.actionLiteral = false) ∧
    (ruleClash.prematchingSubs exampleClash Substitution.empty =
        [⟨[(mkVar "a", mkConst "b")], true⟩] ∧
      (Substitution.apply ⟨[(mkVar "a", mkConst "b")], true⟩ ruleClash.actionLiteral).eq
        exampleClash.actionLiteral = false) ∧
    (ruleNegative.prematchingSubs exampleOneFact Substitution.empty =
        [⟨[(mkVar "X", mkConst "a")], true⟩] ∧
      inList Literal.eq exampleOneFact.preconditions
        (Substitution.apply ⟨[(mkVar "X", mkConst "a")], true⟩
          (mkLit "p" [mkVar "X"]).neg) = false) := by
  decide

/-- C4, amended. Let the example `x` be ground with positive facts whose parameter
vectors have the length of their arity, let the action literals of `r` and `x` have as
many parameters as the arity of the action predicate, let the preconditions of `r` be
positive, and let no variable of `r` carry the name of a term of `x`. Let the starting
substitution `s0` be injective (flag set and `checkInjective` true), map to constants
only, and have no key named like a constant of `r`. Then every substitution returned by
`prematchingSubs` is injective, has no identity entry, maps the action literal of `r` to
the action literal of `x`, and maps every precondition of `r` to a fact of `x`; and the
result is empty when the action literals are not compatible. -/
theorem C4_prematchingSubs_sound (r x : ActionRule) (s0 : Substitution)
    (hxact : x.actionLiteral.grounded = true)
    (hxpre : ∀ c ∈ x.preconditions,
      c.grounded = true ∧ c.positive = true ∧ c.parameters.length = c.pred.arity)
    (hrpre : ∀ f ∈ r.preconditions, f.positive = true)
    (hrlen : r.actionLiteral.parameters.length = r.actionLiteral.pred.arity)
    (hxlen : x.actionLiteral.parameters.length = r.actionLiteral.pred.arity)
    (hclash : ∀ p ∈ r.preTerms, p.isVariable = true → ∀ q ∈ x.preTerms, p.name ≠ q.name)
    (hflag : s0.injective = true) (hsorted : MapSorted s0.mapping)
    (hinj : s0.checkInjective = true)
    (hs0g : ∀ e ∈ s0.mapping, e.2.isVariable = false)
    (hs0k : ∀ e ∈ s0.mapping, ∀ c ∈ r.preTerms, c.isVariable = false → e.1.name ≠ c.name) :
    (∀ s ∈ r.prematchingSubs x s0,
      s.injective = true ∧ s.checkInjective = true ∧
      (∀ e ∈ s.mapping, e.1.eq e.2 = false) ∧
      (s.apply r.actionLiteral).eq x.actionLiteral = true ∧
      ∀ f ∈ r.preconditions, inList Literal.eq x.preconditions (s.apply f) = true) ∧
    (Literal.compatible r.actionLiteral x.actionLiteral = false →
      r.prematchingSubs x s0 = []) := by
  constructor
  · intro s hs
    have hcomp := prematchingSubs_compatible r x s0 s hs
    obtain ⟨y, hsy, hinv, hact, hm⟩ := prematchingSubs_core r x s0 hxact
      (fun c hc => (hxpre c hc).1) (hrlen.trans hxlen.symm) hclash
      (subInv_of_checkInjective s0 hflag hsorted hinj hs0g) hs0k s hs
    subst hsy
    obtain ⟨hfl, _, hnoid, _⟩ := cleanConstants_spec y hinv.sorted
    simp only [Literal.compatible, Bool.and_eq_true, beq_iff_eq] at hcomp
    refine ⟨hfl.trans hinv.flag, checkInjective_clean y hinv, hnoid, ?_, ?_⟩
    · unfold Literal.eq Substitution.apply
      simp only [hcomp.1, hcomp.2, bne_self_eq_false, Bool.false_eq_true, if_false,
        Bool.not_true]
      apply paramsEq_of_names
      · rw [List.forall₂_map_left_iff]
        exact hact.imp (fun (p q : Term) (hb : Bound y p q.name) =>
          applyTerm_clean_name y hinv p q.name hb)
      · simp [hrlen]
    · intro f hf
      obtain ⟨c, hc, hpred, hpar⟩ := hm f hf
      unfold inList
      rw [List.any_eq_true]
      refine ⟨c, hc, ?_⟩
      obtain ⟨_, hcpos, hclen⟩ := hxpre c hc
      unfold Literal.eq Substitution.apply
      simp only [hcpos, hrpre f hf, hpred, bne_self_eq_false, Bool.false_eq_true, if_false,
        Bool.not_true]
      apply paramsEq_of_names
      · rw [List.forall₂_map_right_iff]
        apply List.Forall₂.flip
        exact hpar.imp (fun (p q : Term) (hb : Bound y p q.name) =>
          (applyTerm_clean_name y hinv p q.name hb).symm)
      · simp [hclen]
  · intro hc
    unfold ActionRule.prematchingSubs
    simp [hc]

/-- C4, witness: the rule and the example of the test `PrematchingTests`, started from
`\x7bZ/d\x7d`. -/
theorem C4_prematchingSubs_sound_witness :
    rulePrematch.prematchingSubs examplePrematch ⟨[(mkVar "Z", mkConst "d")], true⟩ =
        [⟨[(mkVar "X", mkConst "a"), (mkVar "Y", mkConst "b"), (mkVar "Z", mkConst "d")],
          true⟩] ∧
      ((∀ s ∈ rulePrematch.prematchingSubs examplePrematch
          ⟨[(mkVar "Z", mkConst "d")], true⟩,
        s.injective = true ∧ s.checkInjective = true ∧
        (∀ e ∈ s.mapping, e.1.eq e.2 = false) ∧
        (s.apply rulePrematch.actionLiteral).eq examplePrematch.actionLiteral = true ∧
        ∀ f ∈ rulePrematch.preconditions,
          inList Literal.eq examplePrematch.preconditions (s.apply f) = true) ∧
      (Literal.compatible rulePrematch.actionLiteral examplePrematch.actionLiteral = false →
        rulePrematch.prematchingSubs examplePrematch ⟨[(mkVar "Z", mkConst "d")], true⟩ =
          [])) :=
  ⟨by decide,
    C4_prematchingSubs_sound rulePrematch examplePrematch ⟨[(mkVar "Z", mkConst "d")], true⟩
      (by decide) (by decide) (by decide) (by decide) (by decide) (by decide) (by decide)
      (by simp [MapSorted]) (by decide) (by decide) (by decide)⟩

/-! ## Generalisation of two literals -/

theorem digitChar_toNat (k : Nat) (h : k < 10) : (Nat.digitChar k).toNat - 48 = k := by
  interval_cases k <;> rfl

theorem decDigits_toDigitsCore : ∀ (fuel n : Nat) (ds : List Char), n < fuel →
    decDigits (Nat.toDigitsCore 10 fuel n ds) = n * 10 ^ ds.length + decDigits ds := by
  intro fuel
  induction fuel with
  | zero => intro n ds h; omega
  | succ fuel ih =>
    intro n ds h
    unfold Nat.toDigitsCore
    dsimp only
    split
    · rename_i h0
      have hn : n < 10 := by omega
      simp only [decDigits]
      rw [digitChar_toNat _ (Nat.mod_lt _ (by norm_num)), Nat.mod_eq_of_lt hn]
    · rename_i h0
      rw [ih (n / 10) _ (by omega)]
      simp only [decDigits, List.length_cons]
      rw [digitChar_toNat _ (Nat.mod_lt _ (by norm_num))]
      have hdm := Nat.div_add_mod n 10
      rw [pow_succ]
      conv_rhs => rw [← hdm]
      ring

theorem toString_nat_injective : Function.Injective (fun n : Nat => toString n) := by
  intro a b h
  have h1 : (Nat.toDigits 10 a) = (Nat.toDigits 10 b) := by
    have := congrArg String.data h
    simpa [toString, Nat.repr, List.asString] using this
  have ha := decDigits_toDigitsCore (a + 1) a [] (by omega)
  have hb := decDigits_toDigitsCore (b + 1) b [] (by omega)
  unfold Nat.toDigits at h1
  rw [h1] at ha
  rw [ha] at hb
  simpa [decDigits] using hb

/-- The names produced by `varName` are pairwise different. -/
theorem varName_injective : Function.Injective varName := by
  intro a b h
  unfold varName at h
  have h1 := congrArg String.data h
  simp only [String.data_append, List.append_cancel_left_eq] at h1
  exact toString_nat_injective (String.ext h1)

theorem varName_ne_any (k : Nat) : varName k ≠ "ANY" := by
  intro h
  unfold varName at h
  have h1 := congrArg String.data h
  simp only [String.data_append] at h1
  have h2 := congrArg List.head? h1
  simp at h2

theorem freeIdFrom_spec (names : List String) : ∀ (fuel id : Nat),
    varName (freeIdFrom names fuel id) ∉ names ∨
      (freeIdFrom names fuel id = id + fuel ∧ ∀ j < fuel, varName (id + j) ∈ names)
  | 0, id => Or.inr ⟨rfl, fun j hj => by omega⟩
  | fuel + 1, id => by
    unfold freeIdFrom
    by_cases h : names.contains (varName id) = true
    · rw [if_pos h]
      rcases freeIdFrom_spec names fuel (id + 1) with h1 | ⟨h1, h2⟩
      · exact Or.inl h1
      · refine Or.inr ⟨by rw [h1]; omega, ?_⟩
        intro j hj
        cases j with
        | zero => simpa using h
        | succ j =>
          have := h2 j (by omega)
          rw [show id + (j + 1) = id + 1 + j by omega]
          exact this
    · rw [if_neg h]
      exact Or.inl (by simpa using h)

/-- The identifier returned by `getFreeParameterId` names a variable that is neither a
parameter of the rule nor in the black list. -/
theorem getFreeParameterId_fresh (r : ActionRule) (blackList : List Term) :
    varName (r.getFreeParameterId blackList) ∉
      (r.parameters ++ blackList).map (fun t => t.name) := by
  unfold ActionRule.getFreeParameterId
  dsimp only
  generalize (r.parameters ++ blackList).map (fun t => t.name) = names
  rcases freeIdFrom_spec names names.length 1 with h | ⟨h1, h2⟩
  · exact h
  · intro hmem
    have hnodup : ((List.range (names.length + 1)).map (fun j => varName (1 + j))).Nodup := by
      apply List.Nodup.map
      · intro a b hab
        have := varName_injective hab
        omega
      · exact List.nodup_range _
    have hsub : (List.range (names.length + 1)).map (fun j => varName (1 + j)) ⊆ names := by
      intro x hx
      simp only [List.mem_map, List.mem_range] at hx
      obtain ⟨j, hj, rfl⟩ := hx
      by_cases hjl : j < names.length
      · exact h2 j hjl
      · have : j = names.length := by omega
        rw [this, ← h1]
        exact hmem
    have := (List.subperm_of_subset hnodup hsub).length_le
    simp at this

theorem Term.eq_iff_name_noAny (a b : Term) (ha : a.isVariable = true → a.name ≠ "ANY")
    (hb : b.isVariable = true → b.name ≠ "ANY") : a.eq b = true ↔ a.name = b.name := by
  unfold Term.eq anyVar
  constructor
  · intro h
    simp only [Bool.or_eq_true, beq_iff_eq, Bool.and_eq_true] at h
    rcases h with h | ⟨⟨hav, hbv⟩, h | h⟩
    · exact h
    · exact absurd h (ha hav)
    · exact absurd h (hb hbv)
  · intro h
    simp [h]

theorem getInverse_some (s : Substitution) (v k : Term) (h : s.getInverse v = some k) :
    ∃ e ∈ s.mapping, e.1 = k ∧ e.2.eq v = true := by
  unfold Substitution.getInverse at h
  cases hf : s.mapping.find? (fun p => p.2.eq v) with
  | none => rw [hf] at h; cases h
  | some e =>
    rw [hf] at h
    simp only [Option.map_some', Option.some.injEq] at h
    exact ⟨e, List.mem_of_find?_eq_some hf, h, by simpa using List.find?_some hf⟩

theorem nget_cons (e : Term × Term) (m : List (Term × Term)) (n : String) :
    nget (e :: m) n = if e.1.name = n then some e.2 else nget m n := by
  unfold nget
  by_cases h : e.1.name = n
  · simp [List.find?, h]
  · have hb : (e.1.name == n) = false := by simpa using h
    simp [List.find?, h, hb]

theorem mem_mapSet_new (a b : Term) : ∀ (m : List (Term × Term)) (e : Term × Term),
    nget m a.name = none → e ∈ mapSet a b m → e ∈ m ∨ e = (a, b)
  | [], e, _, h => by
    simp only [mapSet, List.mem_singleton] at h
    exact Or.inr h
  | (k1, v1) :: rest, e, hn, h => by
    rw [nget_cons] at hn
    simp only [mapSet] at h
    by_cases hk : k1.name = a.name
    · simp [hk] at hn
    · simp only [hk, if_false] at hn
      by_cases h1 : a.lt k1 = true
      · rw [if_pos h1] at h
        rcases List.mem_cons.mp h with h | h
        · exact Or.inr h
        · exact Or.inl h
      · rw [if_neg h1] at h
        by_cases h2 : k1.lt a = true
        · rw [if_pos h2] at h
          rcases List.mem_cons.mp h with h | h
          · exact Or.inl (h ▸ List.mem_cons_self _ _)
          · rcases mem_mapSet_new a b rest e hn h with h | h
            · exact Or.inl (List.mem_cons_of_mem _ h)
            · exact Or.inr h
        · exact absurd (Term.name_eq_of_not_lt k1 a (by simpa using h2) (by simpa using h1)) hk

theorem ext_set_new (s : Substitution) (k v : Term) (h : nget s.mapping k.name = none) :
    Ext s (s.set k v) := by
  intro n w hw
  unfold Substitution.set
  dsimp only
  rw [nget_mapSet]
  by_cases hk : k.name = n
  · rw [hk, hw] at h
    cases h
  · rw [if_neg hk]
    exact hw

theorem isGen_mono (rn : List String) (gv gv1 : List Term) (n : String)
    (hsub : ∀ v ∈ gv, v ∈ gv1) (h : IsGen rn gv n) : IsGen rn gv1 n := by
  obtain ⟨h1, h2, v, hv, hn⟩ := h
  exact ⟨h1, h2, v, hsub v hv, hn⟩

theorem genKind_mono (rn : List String) (gv gv1 A1 A2 : List Term) (n : String) (v1 v2 : Term)
    (hsub : ∀ v ∈ gv, v ∈ gv1) (h : GenKind rn gv A1 A2 n v1 v2) :
    GenKind rn gv1 A1 A2 n v1 v2 := by
  rcases h with h | h | h
  · exact Or.inl (isGen_mono rn gv gv1 n hsub h)
  · exact Or.inr (Or.inl h)
  · exact Or.inr (Or.inr h)

theorem inverse_some_facts (s : Substitution) (A : List Term) (t k : Term)
    (hsorted : MapSorted s.mapping)
    (hkeys : ∀ e ∈ s.mapping, e.1.isVariable = true ∧ e.1.name ≠ "ANY")
    (hvals : ∀ e ∈ s.mapping, e.2 ∈ A)
    (hany : ∀ p ∈ A, p.isVariable = true → p.name ≠ "ANY") (ht : t ∈ A)
    (h : s.getInverse t = some k) :
    k.isVariable = true ∧ k.name ≠ "ANY" ∧
      ∃ v, nget s.mapping k.name = some v ∧ v.name = t.name := by
  obtain ⟨e, he, hek, heq⟩ := getInverse_some s t k h
  subst hek
  refine ⟨(hkeys e he).1, (hkeys e he).2, e.2, nget_of_mem _ hsorted e he, ?_⟩
  exact (Term.eq_iff_name_noAny e.2 t (hany _ (hvals e he)) (hany t ht)).mp heq

theorem inverse_none_facts (s : Substitution) (t : Term) (h : s.getInverse t = none)
    (n : String) (v : Term) (hv : nget s.mapping n = some v) : v.name ≠ t.name := by
  intro hn
  obtain ⟨k, hk, _⟩ := mem_of_nget _ _ _ hv
  have := (getInverse_none_iff s t).mp (by rw [h]; rfl) (k, v) hk
  rw [Term.eq_of_name v t hn] at this
  cases this

theorem key_name_contra1 (rn : List String) (A1 A2 : List Term) (st : GenState)
    (hyp : GenHyp rn A1 A2) (hinv : GenInv rn A1 A2 st) (t1 v1 : Term) (ht1 : t1 ∈ A1)
    (hnone : st.theta1.getInverse t1 = none)
    (hkey : nget st.theta1.mapping t1.name = some v1) : False := by
  obtain ⟨v2, _, hkind⟩ := hinv.kind12 _ _ hkey
  rcases hkind with ⟨⟨k, hk⟩, hrn, _⟩ | ⟨p, _, _, _, hv⟩ | ⟨q, hq, hqv, hqn, _⟩
  · rcases hyp.fresh1 t1 ht1 with h | h
    · exact hrn h
    · exact h k hk
  · exact inverse_none_facts _ t1 hnone _ v1 hkey hv
  · exact hyp.cross t1 ht1 q hq (Or.inr hqv) hqn.symm

theorem key_name_contra2 (rn : List String) (A1 A2 : List Term) (st : GenState)
    (hyp : GenHyp rn A1 A2) (hinv : GenInv rn A1 A2 st) (t2 v2 : Term) (ht2 : t2 ∈ A2)
    (hnone : st.theta2.getInverse t2 = none)
    (hkey : nget st.theta2.mapping t2.name = some v2) : False := by
  obtain ⟨v1, hv1⟩ := hinv.kind21 _ _ hkey
  obtain ⟨w2, hw2, hkind⟩ := hinv.kind12 _ _ hv1
  rcases hkind with ⟨⟨k, hk⟩, hrn, _⟩ | ⟨p, hp, hpv, hpn, _⟩ | ⟨q, _, _, _, hv⟩
  · rcases hyp.fresh2 t2 ht2 with h | h
    · exact hrn h
    · exact h k hk
  · exact hyp.cross p hp t2 ht2 (Or.inl hpv) hpn
  · exact inverse_none_facts _ t2 hnone _ w2 hw2 hv

/-- Binding a new key in both substitutions keeps the invariant of the loop. -/
theorem genInv_set_new (rn : List String) (A1 A2 : List Term) (st : GenState)
    (hinv : GenInv rn A1 A2 st) (k t1 t2 : Term) (gv1 : List Term)
    (hkv : k.isVariable = true) (hkany : k.name ≠ "ANY")
    (hn1 : nget st.theta1.mapping k.name = none)
    (hn2 : nget st.theta2.mapping k.name = none)
    (ht1 : t1 ∈ A1) (ht2 : t2 ∈ A2) (hsub : ∀ v ∈ st.genVars, v ∈ gv1)
    (hkind : GenKind rn gv1 A1 A2 k.name t1 t2) :
    GenInv rn A1 A2 ⟨st.theta1.set k t1, st.theta2.set k t2, gv1, st.params ++ [k]⟩ ∧
    Ext st.theta1 (st.theta1.set k t1) ∧ Ext st.theta2 (st.theta2.set k t2) ∧
    Bound (st.theta1.set k t1) k t1.name ∧ Bound (st.theta2.set k t2) k t2.name := by
  refine ⟨⟨mapSorted_mapSet _ _ _ hinv.sorted1, mapSorted_mapSet _ _ _ hinv.sorted2,
    ?_, ?_, ?_, ?_, ?_, ?_⟩, ext_set_new _ _ _ hn1, ext_set_new _ _ _ hn2, ?_, ?_⟩
  · intro e he
    rcases mem_mapSet_new k t1 _ e hn1 he with h | h
    · exact hinv.keys1 e h
    · rw [h]; exact ⟨hkv, hkany⟩
  · intro e he
    rcases mem_mapSet_new k t2 _ e hn2 he with h | h
    · exact hinv.keys2 e h
    · rw [h]; exact ⟨hkv, hkany⟩
  · intro e he
    rcases mem_mapSet_new k t1 _ e hn1 he with h | h
    · exact hinv.vals1 e h
    · rw [h]; exact ht1
  · intro e he
    rcases mem_mapSet_new k t2 _ e hn2 he with h | h
    · exact hinv.vals2 e h
    · rw [h]; exact ht2
  · intro n v1 hv1
    simp only [Substitution.set, nget_mapSet] at hv1 ⊢
    by_cases hk : k.name = n
    · simp only [hk, if_true, Option.some.injEq] at hv1 ⊢
      subst hv1
      exact ⟨t2, rfl, hk ▸ hkind⟩
    · simp only [hk, if_false] at hv1 ⊢
      obtain ⟨v2, hv2, hkd⟩ := hinv.kind12 n v1 hv1
      exact ⟨v2, hv2, genKind_mono rn _ gv1 A1 A2 n v1 v2 hsub hkd⟩
  · intro n v2 hv2
    simp only [Substitution.set, nget_mapSet] at hv2 ⊢
    by_cases hk : k.name = n
    · simp only [hk, if_true]
      exact ⟨t1, rfl⟩
    · simp only [hk, if_false] at hv2 ⊢
      exact hinv.kind21 n v2 hv2
  · exact ⟨t1, by simp [Substitution.set, nget_mapSet], rfl⟩
  · exact ⟨t2, by simp [Substitution.set, nget_mapSet], rfl⟩

/-- Binding a variable made by `makeNewVar` in both substitutions keeps the invariant. -/
theorem genInv_newVar (r : ActionRule) (A1 A2 : List Term) (st : GenState)
    (hyp : GenHyp (r.parameters.map (fun t => t.name)) A1 A2)
    (hinv : GenInv (r.parameters.map (fun t => t.name)) A1 A2 st) (t1 t2 : Term)
    (ht1 : t1 ∈ A1) (ht2 : t2 ∈ A2) :
    GenInv (r.parameters.map (fun t => t.name)) A1 A2
      ⟨st.theta1.set (r.makeNewVar st.genVars t1).1 t1,
        st.theta2.set (r.makeNewVar st.genVars t1).1 t2,
        (r.makeNewVar st.genVars t1).2, st.params ++ [(r.makeNewVar st.genVars t1).1]⟩ ∧
    Ext st.theta1 (st.theta1.set (r.makeNewVar st.genVars t1).1 t1) ∧
    Ext st.theta2 (st.theta2.set (r.makeNewVar st.genVars t1).1 t2) ∧
    Bound (st.theta1.set (r.makeNewVar st.genVars t1).1 t1)
      (r.makeNewVar st.genVars t1).1 t1.name ∧
    Bound (st.theta2.set (r.makeNewVar st.genVars t1).1 t2)
      (r.makeNewVar st.genVars t1).1 t2.name := by
  have hfresh := getFreeParameterId_fresh r st.genVars
  have hname : (r.makeNewVar st.genVars t1).1.name
      = varName (r.getFreeParameterId st.genVars) := rfl
  have hnrn : varName (r.getFreeParameterId st.genVars) ∉
      r.parameters.map (fun t => t.name) := by
    intro h
    apply hfresh
    rw [List.map_append]
    exact List.mem_append_left _ h
  have hngv : ∀ y ∈ st.genVars, y.name ≠ varName (r.getFreeParameterId st.genVars) := by
    intro y hy hn
    apply hfresh
    rw [List.map_append]
    exact List.mem_append_right _ (List.mem_map.mpr ⟨y, hy, hn⟩)
  have hn1 : nget st.theta1.mapping (r.makeNewVar st.genVars t1).1.name = none := by
    rw [hname]
    cases hc : nget st.theta1.mapping (varName (r.getFreeParameterId st.genVars)) with
    | none => rfl
    | some v1 =>
      exfalso
      obtain ⟨v2, _, hkind⟩ := hinv.kind12 _ _ hc
      rcases hkind with ⟨_, _, y, hy, hyn⟩ | ⟨p, hp, _, hpn, _⟩ | ⟨q, hq, _, hqn, _⟩
      · exact hngv y hy hyn
      · rcases hyp.fresh1 p hp with h | h
        · exact hnrn (hpn ▸ h)
        · exact h _ hpn
      · rcases hyp.fresh2 q hq with h | h
        · exact hnrn (hqn ▸ h)
        · exact h _ hqn
  have hn2 : nget st.theta2.mapping (r.makeNewVar st.genVars t1).1.name = none := by
    cases hc : nget st.theta2.mapping (r.makeNewVar st.genVars t1).1.name with
    | none => rfl
    | some v2 =>
      obtain ⟨v1, hv1⟩ := hinv.kind21 _ _ hc
      rw [hn1] at hv1
      cases hv1
  apply genInv_set_new _ A1 A2 st hinv _ t1 t2 _ rfl (by rw [hname]; exact varName_ne_any _)
    hn1 hn2 ht1 ht2
  · intro y hy
    exact mem_setInsert_of_mem _ _ _ _ hy
  · refine Or.inl ⟨⟨_, hname⟩, by rw [hname]; exact hnrn, ?_⟩
    obtain ⟨y, hy, h1, h2⟩ := setInsert_has_equiv Term.lt (r.makeNewVar st.genVars t1).1
      st.genVars (Term.lt_irrefl _)
    exact ⟨y, hy, Term.name_eq_of_not_lt _ _ h2 h1⟩

/-- One round of the loop of `generalizeLiteralsOI` that does not stop keeps the invariant,
keeps the bindings made so far, and pushes a parameter bound to the two terms of the
round. -/
theorem genLitStep_spec (r : ActionRule) (A1 A2 : List Term) (st st1 : GenState)
    (hyp : GenHyp (r.parameters.map (fun t => t.name)) A1 A2)
    (hinv : GenInv (r.parameters.map (fun t => t.name)) A1 A2 st) (t1 t2 : Term)
    (ht1 : t1 ∈ A1) (ht2 : t2 ∈ A2) (h : r.genLitStep t1 t2 st = some st1) :
    GenInv (r.parameters.map (fun t => t.name)) A1 A2 st1 ∧
    Ext st.theta1 st1.theta1 ∧ Ext st.theta2 st1.theta2 ∧
    ∃ g, st1.params = st.params ++ [g] ∧ Bound st1.theta1 g t1.name ∧
      Bound st1.theta2 g t2.name := by
  have hnew := genInv_newVar r A1 A2 st hyp hinv t1 t2 ht1 ht2
  cases hi1 : st.theta1.getInverse t1 with
  | some k1 =>
    obtain ⟨hk1v, hk1a, v1, hv1, hv1n⟩ := inverse_some_facts st.theta1 A1 t1 k1 hinv.sorted1
      hinv.keys1 hinv.vals1 hyp.noAny1 ht1 hi1
    obtain ⟨w2, hw2, _⟩ := hinv.kind12 _ _ hv1
    have hget : (st.theta2.get k1).isSome = true := by
      rw [Substitution.get_eq_nget, hw2]; rfl
    cases hi2 : st.theta2.getInverse t2 with
    | some k2 =>
      obtain ⟨hk2v, hk2a, v2, hv2, hv2n⟩ := inverse_some_facts st.theta2 A2 t2 k2 hinv.sorted2
        hinv.keys2 hinv.vals2 hyp.noAny2 ht2 hi2
      simp only [ActionRule.genLitStep, hi1, hi2, Option.getD_some, hk1v, hk2v] at h
      by_cases hc : k1.eq k2 = true
      · simp only [hc, if_true, Bool.not_true, Bool.false_eq_true, if_false,
          Option.some.injEq] at h
        subst h
        have hn : k1.name = k2.name :=
          (Term.eq_iff_name_noAny k1 k2 (fun _ => hk1a) (fun _ => hk2a)).mp hc
        exact ⟨⟨hinv.sorted1, hinv.sorted2, hinv.keys1, hinv.keys2, hinv.vals1, hinv.vals2,
          hinv.kind12, hinv.kind21⟩, ext_refl _, ext_refl _, k1, rfl, ⟨v1, hv1, hv1n⟩,
          ⟨v2, hn ▸ hv2, hv2n⟩⟩
      · exfalso
        simp only [hc, Bool.false_eq_true, if_false, Bool.and_self, if_true] at h
        split_ifs at h
    | none =>
      exfalso
      simp only [ActionRule.genLitStep, hi1, hi2, Option.getD_some, Option.getD_none,
        hk1v] at h
      by_cases hc : k1.eq t2 = true
      · have hn : k1.name = t2.name :=
          (Term.eq_iff_name_noAny k1 t2 (fun _ => hk1a) (hyp.noAny2 t2 ht2)).mp hc
        exact key_name_contra2 _ A1 A2 st hyp hinv t2 w2 ht2 hi2 (hn ▸ hw2)
      · simp only [hc, hget, Bool.false_eq_true, if_false, Bool.not_true, if_true] at h
        split_ifs at h
  | none =>
    cases hi2 : st.theta2.getInverse t2 with
    | some k2 =>
      exfalso
      obtain ⟨hk2v, hk2a, v2, hv2, hv2n⟩ := inverse_some_facts st.theta2 A2 t2 k2 hinv.sorted2
        hinv.keys2 hinv.vals2 hyp.noAny2 ht2 hi2
      obtain ⟨w1, hw1⟩ := hinv.kind21 _ _ hv2
      have hget : (st.theta1.get k2).isSome = true := by
        rw [Substitution.get_eq_nget, hw1]; rfl
      simp only [ActionRule.genLitStep, hi1, hi2, Option.getD_some, Option.getD_none,
        hk2v] at h
      by_cases hc : t1.eq k2 = true
      · have hn : t1.name = k2.name :=
          (Term.eq_iff_name_noAny t1 k2 (hyp.noAny1 t1 ht1) (fun _ => hk2a)).mp hc
        exact key_name_contra1 _ A1 A2 st hyp hinv t1 w1 ht1 hi1 (hn ▸ hw1)
      · simp only [hc, hget, Bool.false_eq_true, if_false, Bool.not_true, if_true] at h
        split_ifs at h <;> simp_all
    | none =>
      simp only [ActionRule.genLitStep, hi1, hi2, Option.getD_none] at h
      by_cases hc : t1.eq t2 = true
      · have hn : t1.name = t2.name :=
          (Term.eq_iff_name_noAny t1 t2 (hyp.noAny1 t1 ht1) (hyp.noAny2 t2 ht2)).mp hc
        by_cases hv : t1.isVariable = true
        · exact absurd hn (hyp.cross t1 ht1 t2 ht2 (Or.inl hv))
        · simp only [hc, hv, if_true, Bool.not_false, Option.some.injEq] at h
          subst h
          exact ⟨hnew.1, hnew.2.1, hnew.2.2.1, _, rfl, hnew.2.2.2.1, hnew.2.2.2.2⟩
      · simp only [hc, Bool.false_eq_true, if_false, Bool.or_self] at h
        by_cases hv1 : t1.isVariable = true
        · by_cases hv2 : t2.isVariable = true
          · simp [hv1, hv2] at h
          · by_cases hg : (st.theta2.get t1).isSome = true
            · simp [hv1, hv2, hg] at h
            · have hn2 : nget st.theta2.mapping t1.name = none := by
                rw [Substitution.get_eq_nget] at hg
                simpa using hg
              have hn1 : nget st.theta1.mapping t1.name = none := by
                cases hc1 : nget st.theta1.mapping t1.name with
                | none => rfl
                | some v1 =>
                  obtain ⟨v2, hv2, _⟩ := hinv.kind12 _ _ hc1
                  rw [hn2] at hv2
                  cases hv2
              have hg1 : (st.theta1.get t1).isSome = false := by
                rw [Substitution.get_eq_nget, hn1]; rfl
              simp only [hv1, hv2, hg, hg1, Bool.true_and, Bool.false_eq_true, if_false,
                if_true, Bool.not_false, Option.some.injEq] at h
              subst h
              obtain ⟨h1, h2, h3, h4, h5⟩ := genInv_set_new _ A1 A2 st hinv t1 t1 t2
                st.genVars hv1 (hyp.noAny1 t1 ht1 hv1) hn1 hn2 ht1 ht2 (fun _ hy => hy)
                (Or.inr (Or.inl ⟨t1, ht1, hv1, rfl, rfl⟩))
              exact ⟨h1, h2, h3, _, rfl, h4, h5⟩
        · by_cases hv2 : t2.isVariable = true
          · by_cases hg : (st.theta1.get t2).isSome = true
            · simp [hv1, hv2, hg] at h
            · have hn1 : nget st.theta1.mapping t2.name = none := by
                rw [Substitution.get_eq_nget] at hg
                simpa using hg
              have hn2 : nget st.theta2.mapping t2.name = none := by
                cases hc2 : nget st.theta2.mapping t2.name with
                | none => rfl
                | some v2 =>
                  obtain ⟨v1, hv1⟩ := hinv.kind21 _ _ hc2
                  rw [hn1] at hv1
                  cases hv1
              have hg2 : (st.theta2.get t2).isSome = false := by
                rw [Substitution.get_eq_nget, hn2]; rfl
              simp only [hv1, hv2, hg, hg2, Bool.false_and, Bool.false_eq_true, if_false,
                if_true, Bool.not_false, Option.some.injEq] at h
              subst h
              obtain ⟨h1, h2, h3, h4, h5⟩ := genInv_set_new _ A1 A2 st hinv t2 t1 t2
                st.genVars hv2 (hyp.noAny2 t2 ht2 hv2) hn1 hn2 ht1 ht2 (fun _ hy => hy)
                (Or.inr (Or.inr ⟨t2, ht2, hv2, rfl, rfl⟩))
              exact ⟨h1, h2, h3, _, rfl, h4, h5⟩
          · simp only [hv1, hv2, Bool.false_and, Bool.false_eq_true, if_false,
              Option.some.injEq] at h
            subst h
            exact ⟨hnew.1, hnew.2.1, hnew.2.2.1, _, rfl, hnew.2.2.2.1, hnew.2.2.2.2⟩

theorem genLitLoop_spec (r : ActionRule) (A1 A2 : List Term)
    (hyp : GenHyp (r.parameters.map (fun t => t.name)) A1 A2) :
    ∀ (ts1 ts2 : List Term) (st st1 : GenState) (d1 d2 : List Term),
      GenInv (r.parameters.map (fun t => t.name)) A1 A2 st →
      (∀ t ∈ ts1, t ∈ A1) → (∀ t ∈ ts2, t ∈ A2) → ts1.length = ts2.length →
      List.Forall₂ (fun g t => Bound st.theta1 g t.name) st.params d1 →
      List.Forall₂ (fun g t => Bound st.theta2 g t.name) st.params d2 →
      r.genLitLoop ts1 ts2 st = some st1 →
      List.Forall₂ (fun g t => Bound st1.theta1 g t.name) st1.params (d1 ++ ts1) ∧
      List.Forall₂ (fun g t => Bound st1.theta2 g t.name) st1.params (d2 ++ ts2)
  | [], [], st, st1, d1, d2, _, _, _, _, h1, h2, h => by
    simp only [ActionRule.genLitLoop, Option.some.injEq] at h
    subst h
    simp only [List.append_nil]
    exact ⟨h1, h2⟩
  | [], _ :: _, _, _, _, _, _, _, _, hl, _, _, _ => by simp at hl
  | _ :: _, [], _, _, _, _, _, _, _, hl, _, _, _ => by simp at hl
  | t1 :: ts1, t2 :: ts2, st, st1, d1, d2, hinv, hA1, hA2, hl, h1, h2, h => by
    simp only [ActionRule.genLitLoop] at h
    cases hs : r.genLitStep t1 t2 st with
    | none => rw [hs] at h; cases h
    | some st2 =>
      rw [hs] at h
      dsimp only at h
      obtain ⟨hinv2, he1, he2, g, hg, hb1, hb2⟩ := genLitStep_spec r A1 A2 st st2 hyp hinv
        t1 t2 (hA1 t1 (List.mem_cons_self _ _)) (hA2 t2 (List.mem_cons_self _ _)) hs
      have := genLitLoop_spec r A1 A2 hyp ts1 ts2 st2 st1 (d1 ++ [t1]) (d2 ++ [t2]) hinv2
        (fun t ht => hA1 t (List.mem_cons_of_mem _ ht))
        (fun t ht => hA2 t (List.mem_cons_of_mem _ ht)) (by simpa using hl)
        (by
          rw [hg]
          exact List.rel_append
            (h1.imp (fun (a b : Term) (hb : Bound st.theta1 a b.name) => bound_ext hb he1))
            (List.Forall₂.cons hb1 List.Forall₂.nil))
        (by
          rw [hg]
          exact List.rel_append
            (h2.imp (fun (a b : Term) (hb : Bound st.theta2 a b.name) => bound_ext hb he2))
            (List.Forall₂.cons hb2 List.Forall₂.nil))
        h
      simpa using this

theorem not_varName_of_head (n : String) (h : n.data.head? ≠ some '_') (k : Nat) :
    n ≠ varName k := by
  intro hn
  apply h
  rw [hn]
  unfold varName
  simp only [String.data_append]
  rfl

/-- C8, failing inputs. Four pairs of compatible literals on which `generalizeLiteralsOI`
returns a literal `g` that one of the updated substitutions does not map back. (1) The
literals `p(a, ?X)` and `p(?X, ?X)` share a variable: `g = p(?X, ?X)` and `theta1` maps
it to `p(a, a)`. (2) In `p(?a, a)` and `p(b, a)` a variable of the first literal is named
like a constant of the second: `g = p(?a, ?a)` and `theta2` maps it to `p(b, b)`. (3) In
`p(a, a)` and `p(b, _V1)` a constant has the name of the first generated variable:
`g = p(?_V1, ?_V1)` and `theta2` maps it to `p(b, b)`. (4) In `p(a, a)` and `p(b, ?ANY)`
the variable `ANY` compares equal to the generated variable: `g = p(?_V1, ?_V1)` and
`theta2` maps it to `p(b, b)`. -/
theorem C8_counterexample :
    litGenCheck ActionRule.blank (mkLit "p" [mkConst "a", mkVar "X"])
        (mkLit "p" [mkVar "X", mkVar "X"]) =
      some (mkLit "p" [mkVar "X", mkVar "X"], false, true) ∧
    litGenCheck ActionRule.blank (mkLit "p" [mkVar "a", mkConst "a"])
        (mkLit "p" [mkConst "b", mkConst "a"]) =
      some (mkLit "p" [mkVar "a", mkVar "a"], true, false) ∧
    litGenCheck ActionRule.blank (mkLit "p" [mkConst "a", mkConst "a"])
        (mkLit "p" [mkConst "b", mkConst "_V1"]) =
      some (mkLit "p" [mkVar "_V1", mkVar "_V1"], true, false) ∧
    litGenCheck ActionRule.blank (mkLit "p" [mkConst "a", mkConst "a"])
        (mkLit "p" [mkConst "b", mkVar "ANY"]) =
      some (mkLit "p" [mkVar "_V1", mkVar "_V1"], true, false) := by
  decide

/-- C8, amended. Let `l1` and `l2` have as many parameters as the arity of the predicate
of `l1`, let none of their variables be named `ANY`, let no variable of one literal carry
the name of a term of the other one, and let every name of their terms either be the name
of a parameter of the rule or be no name that `varName` generates. If
`generalizeLiteralsOI(l1, l2)`, started from empty substitutions and an empty `genVars`,
returns a literal `g`, then the updated substitutions satisfy `theta1.apply(g) == l1` and
`theta2.apply(g) == l2`. -/
theorem C8_generalizeLiteralsOI_sound (r : ActionRule) (l1 l2 g : Literal)
    (hlen1 : l1.parameters.length = l1.pred.arity)
    (hlen2 : l2.parameters.length = l1.pred.arity)
    (hany : ∀ p ∈ l1.parameters ++ l2.parameters, p.isVariable = true → p.name ≠ "ANY")
    (hcross : ∀ p ∈ l1.parameters, ∀ q ∈ l2.parameters,
      (p.isVariable = true ∨ q.isVariable = true) → p.name ≠ q.name)
    (hfresh : ∀ p ∈ l1.parameters ++ l2.parameters,
      p.name ∈ r.parameters.map (fun t => t.name) ∨ ∀ k, p.name ≠ varName k)
    (hg : (r.generalizeLiteralsOI l1 l2 [] Substitution.empty Substitution.empty).lit
      = some g) :
    ((r.generalizeLiteralsOI l1 l2 [] Substitution.empty Substitution.empty).theta1.apply
      g).eq l1 = true ∧
    ((r.generalizeLiteralsOI l1 l2 [] Substitution.empty Substitution.empty).theta2.apply
      g).eq l2 = true := by
  have hyp : GenHyp (r.parameters.map (fun t => t.name)) l1.parameters l2.parameters :=
    ⟨fun p hp => hany p (List.mem_append_left _ hp),
      fun q hq => hany q (List.mem_append_right _ hq), hcross,
      fun p hp => hfresh p (List.mem_append_left _ hp),
      fun q hq => hfresh q (List.mem_append_right _ hq)⟩
  have hinv0 : GenInv (r.parameters.map (fun t => t.name)) l1.parameters l2.parameters
      ⟨Substitution.empty, Substitution.empty, [], []⟩ :=
    ⟨List.Pairwise.nil, List.Pairwise.nil, (fun e he => by cases he),
      (fun e he => by cases he), (fun e he => by cases he), (fun e he => by cases he),
      (fun n v h => by simp [nget, Substitution.empty] at h),
      (fun n v h => by simp [nget, Substitution.empty] at h)⟩
  unfold ActionRule.generalizeLiteralsOI at hg ⊢
  by_cases hc : Literal.compatible l1 l2 = true
  · simp only [hc, Bool.not_true, Bool.false_eq_true, if_false] at hg ⊢
    cases hl : r.genLitLoop l1.parameters l2.parameters
        ⟨Substitution.empty, Substitution.empty, [], []⟩ with
    | none =>
      rw [hl] at hg
      cases hg
    | some st =>
      rw [hl] at hg
      dsimp only at hg ⊢
      simp only [Option.some.injEq] at hg
      subst hg
      obtain ⟨h1, h2⟩ := genLitLoop_spec r l1.parameters l2.parameters hyp l1.parameters
        l2.parameters _ st [] [] hinv0 (fun _ h => h) (fun _ h => h) (hlen1.trans hlen2.symm)
        List.Forall₂.nil List.Forall₂.nil hl
      simp only [List.nil_append] at h1 h2
      simp only [Literal.compatible, Bool.and_eq_true, beq_iff_eq] at hc
      have hp : l1.pred.eq l1.pred = true := by simp [Predicate.eq]
      constructor
      · unfold Literal.eq Substitution.apply
        simp only [hp, bne_self_eq_false, Bool.false_eq_true, if_false, Bool.not_true]
        apply paramsEq_of_names
        · rw [List.forall₂_map_left_iff]
          exact h1.imp (fun (a b : Term) (hb : Bound st.theta1 a b.name) => by
            obtain ⟨v, hv, hn⟩ := hb
            rw [applyTerm_of_nget_some _ a v hv]
            exact hn)
        · rw [List.length_map, h1.length_eq, hlen1]
      · unfold Literal.eq Substitution.apply
        simp only [hc.1, hc.2, bne_self_eq_false, Bool.false_eq_true, if_false, Bool.not_true]
        apply paramsEq_of_names
        · rw [List.forall₂_map_left_iff]
          exact h2.imp (fun (a b : Term) (hb : Bound st.theta2 a b.name) => by
            obtain ⟨v, hv, hn⟩ := hb
            rw [applyTerm_of_nget_some _ a v hv]
            exact hn)
        · rw [List.length_map, h2.length_eq, hlen2]
  · simp only [hc, Bool.not_false, if_true] at hg
    cases hg

/-- C8, witness: the literals `on(a, b)` and `on(b, a)` of the test `LitGenTests`. -/
theorem C8_generalizeLiteralsOI_sound_witness :
    (ActionRule.blank.generalizeLiteralsOI (mkLit "on" [mkConst "a", mkConst "b"])
        (mkLit "on" [mkConst "b", mkConst "a"]) [] Substitution.empty Substitution.empty).lit
      = some (mkLit "on" [mkVar "_V1", mkVar "_V2"]) ∧
    ((ActionRule.blank.generalizeLiteralsOI (mkLit "on" [mkConst "a", mkConst "b"])
        (mkLit "on" [mkConst "b", mkConst "a"]) [] Substitution.empty
        Substitution.empty).theta1.apply (mkLit "on" [mkVar "_V1", mkVar "_V2"])).eq
      (mkLit "on" [mkConst "a", mkConst "b"]) = true ∧
    ((ActionRule.blank.generalizeLiteralsOI (mkLit "on" [mkConst "a", mkConst "b"])
        (mkLit "on" [mkConst "b", mkConst "a"]) [] Substitution.empty
        Substitution.empty).theta2.apply (mkLit "on" [mkVar "_V1", mkVar "_V2"])).eq
      (mkLit "on" [mkConst "b", mkConst "a"]) = true :=
  ⟨by decide,
    C8_generalizeLiteralsOI_sound ActionRule.blank (mkLit "on" [mkConst "a", mkConst "b"])
      (mkLit "on" [mkConst "b", mkConst "a"]) (mkLit "on" [mkVar "_V1", mkVar "_V2"])
      (by decide) (by decide) (by decide) (by decide)
      (by
        intro p hp
        right
        have hh : p.name.data.head? ≠ some '_' := by
          revert p
          decide
        exact not_varName_of_head p.name hh)
      (by decide)⟩

/-! ## Well-formedness -/

theorem inList_term_iff (l : List Term) (x : Term) (hl : NoAny l)
    (hx : x.isVariable = true → x.name ≠ "ANY") :
    inList Term.eq l x = true ↔ hasName l x.name := by
  unfold inList hasName
  rw [List.any_eq_true]
  constructor
  · rintro ⟨y, hy, h⟩
    exact ⟨y, hy, (Term.eq_iff_name_noAny y x (hl y hy) hx).mp h⟩
  · rintro ⟨y, hy, h⟩
    exact ⟨y, hy, Term.eq_of_name y x h⟩

theorem hasName_setInsert (x : Term) (l : List Term) (n : String) :
    hasName (setInsert Term.lt x l) n ↔ n = x.name ∨ hasName l n := by
  constructor
  · rintro ⟨y, hy, h⟩
    rcases mem_setInsert _ _ _ _ hy with h1 | h1
    · exact Or.inl (by rw [← h, h1])
    · exact Or.inr ⟨y, h1, h⟩
  · rintro (h | ⟨y, hy, h⟩)
    · obtain ⟨y, hy, h1, h2⟩ := setInsert_has_equiv Term.lt x l (Term.lt_irrefl _)
      exact ⟨y, hy, by rw [h]; exact Term.name_eq_of_not_lt _ _ h2 h1⟩
    · exact ⟨y, mem_setInsert_of_mem _ _ _ _ hy, h⟩

theorem noAny_setInsert (x : Term) (l : List Term) (hl : NoAny l)
    (hx : x.isVariable = true → x.name ≠ "ANY") : NoAny (setInsert Term.lt x l) := by
  intro y hy
  rcases mem_setInsert _ _ _ _ hy with h | h
  · rw [h]; exact hx
  · exact hl y h

theorem sorted_setInsert (x : Term) : ∀ (l : List Term),
    l.Pairwise (fun a b => a.lt b = true) →
    (setInsert Term.lt x l).Pairwise (fun a b => a.lt b = true)
  | [], _ => by simp [setInsert]
  | z :: zs, h => by
    rw [List.pairwise_cons] at h
    simp only [setInsert]
    by_cases h1 : x.lt z = true
    · rw [if_pos h1]
      rw [List.pairwise_cons]
      refine ⟨?_, List.pairwise_cons.mpr h⟩
      intro a ha
      rcases List.mem_cons.mp ha with ha | ha
      · rw [ha]; exact h1
      · exact Term.lt_trans _ _ _ h1 (h.1 a ha)
    · rw [if_neg h1]
      by_cases h2 : z.lt x = true
      · rw [if_pos h2]
        rw [List.pairwise_cons]
        refine ⟨?_, sorted_setInsert x zs h.2⟩
        intro a ha
        rcases mem_setInsert _ _ _ _ ha with ha | ha
        · rw [ha]; exact h2
        · exact h.1 a ha
      · rw [if_neg h2]
        exact List.pairwise_cons.mpr h

theorem length_setInsert_new (x : Term) : ∀ (l : List Term), ¬ hasName l x.name →
    (setInsert Term.lt x l).length = l.length + 1
  | [], _ => by simp [setInsert]
  | z :: zs, h => by
    simp only [setInsert]
    by_cases h1 : x.lt z = true
    · rw [if_pos h1]; simp
    · rw [if_neg h1]
      by_cases h2 : z.lt x = true
      · rw [if_pos h2]
        simp only [List.length_cons]
        rw [length_setInsert_new x zs (fun ⟨y, hy, hn⟩ => h ⟨y, List.mem_cons_of_mem _ hy, hn⟩)]
      · exfalso
        exact h ⟨z, List.mem_cons_self _ _,
          Term.name_eq_of_not_lt _ _ (by simpa using h2) (by simpa using h1)⟩

theorem hasName_foldl_setInsert (ps : List Term) : ∀ (t : List Term) (n : String),
    hasName (ps.foldl (fun t p => setInsert Term.lt p t) t) n ↔ hasName t n ∨ hasName ps n := by
  induction ps with
  | nil =>
    intro t n
    simp [hasName]
  | cons p ps ih =>
    intro t n
    simp only [List.foldl_cons]
    rw [ih, hasName_setInsert]
    constructor
    · rintro ((h | h) | ⟨y, hy, h⟩)
      · exact Or.inr ⟨p, List.mem_cons_self _ _, h.symm⟩
      · exact Or.inl h
      · exact Or.inr ⟨y, List.mem_cons_of_mem _ hy, h⟩
    · rintro (h | ⟨y, hy, h⟩)
      · exact Or.inl (Or.inr h)
      · rcases List.mem_cons.mp hy with hy | hy
        · exact Or.inl (Or.inl (by rw [← h, hy]))
        · exact Or.inr ⟨y, hy, h⟩

theorem mem_foldl_setInsert (ps : List Term) : ∀ (t : List Term) (y : Term),
    y ∈ ps.foldl (fun t p => setInsert Term.lt p t) t → y ∈ t ∨ y ∈ ps := by
  induction ps with
  | nil => intro t y h; exact Or.inl h
  | cons p ps ih =>
    intro t y h
    simp only [List.foldl_cons] at h
    rcases ih _ y h with h | h
    · rcases mem_setInsert _ _ _ _ h with h | h
      · exact Or.inr (h ▸ List.mem_cons_self _ _)
      · exact Or.inl h
    · exact Or.inr (List.mem_cons_of_mem _ h)

theorem lget_cons {e : Term × List Term} {m : List (Term × List Term)} {n : String} :
    lget (e :: m) n = if e.1.name = n then some e.2 else lget m n := by
  unfold lget
  by_cases h : e.1.name = n
  · simp [List.find?, h]
  · have hb : (e.1.name == n) = false := by simpa using h
    simp [List.find?, h, hb]

theorem lget_linksSet (a : Term) (b : List Term) (m : List (Term × List Term)) (n : String) :
    lget (linksSet a b m) n = if a.name = n then some b else lget m n := by
  induction m with
  | nil =>
    simp only [linksSet, lget_cons]
  | cons e es ih =>
    obtain ⟨k1, v1⟩ := e
    simp only [linksSet]
    by_cases h1 : a.lt k1 = true
    · rw [if_pos h1, lget_cons]
    · rw [if_neg h1]
      by_cases h2 : k1.lt a = true
      · rw [if_pos h2, lget_cons, lget_cons, ih]
        have hne : k1.name ≠ a.name := Term.name_ne_of_lt _ _ h2
        by_cases hk : k1.name = n
        · have han : a.name ≠ n := fun h => hne (hk.trans h.symm)
          simp [hk, han]
        · simp [hk]
      · rw [if_neg h2, lget_cons, lget_cons]
        have heq : k1.name = a.name :=
          Term.name_eq_of_not_lt _ _ (by simpa using h2) (by simpa using h1)
        by_cases h : a.name = n
        · simp [h, heq.trans h]
        · have hk : k1.name ≠ n := fun hk => h (heq.symm.trans hk)
          simp [h, hk]

theorem linksGet_eq (links : List (Term × List Term)) (k : Term) :
    linksGet links k = (lget links k.name).getD [] := by
  unfold linksGet lget
  have hf : (fun (p : Term × List Term) => keyEquiv p.1 k) = (fun p => p.1.name == k.name) := by
    funext p
    by_cases h : p.1.name = k.name
    · simp [(keyEquiv_iff p.1 k).mpr h, h]
    · have : keyEquiv p.1 k = false := by
        cases hk : keyEquiv p.1 k with
        | false => rfl
        | true => exact absurd ((keyEquiv_iff p.1 k).mp hk) h
      simp [this, h]
  rw [hf]
  cases List.find? (fun p => p.1.name == k.name) links <;> rfl

theorem mem_of_lget (links : List (Term × List Term)) (n : String) (vs : List Term)
    (h : lget links n = some vs) : ∃ k, (k, vs) ∈ links ∧ k.name = n := by
  unfold lget at h
  cases hf : links.find? (fun p => p.1.name == n) with
  | none => rw [hf] at h; cases h
  | some e =>
    rw [hf] at h
    simp only [Option.map_some', Option.some.injEq] at h
    refine ⟨e.1, ?_, by simpa using List.find?_some hf⟩
    rw [← h]
    exact List.mem_of_find?_eq_some hf

theorem mem_linksSet (a : Term) (b : List Term) (m : List (Term × List Term))
    (e : Term × List Term) (h : e ∈ linksSet a b m) : e ∈ m ∨ e.2 = b := by
  induction m with
  | nil =>
    simp only [linksSet, List.mem_singleton] at h
    exact Or.inr (by rw [h])
  | cons e1 es ih =>
    obtain ⟨k1, v1⟩ := e1
    simp only [linksSet] at h
    split at h
    · rcases List.mem_cons.mp h with h | h
      · exact Or.inr (by rw [h])
      · exact Or.inl h
    · split at h
      · rcases List.mem_cons.mp h with h | h
        · exact Or.inl (h ▸ List.mem_cons_self _ _)
        · rcases ih h with h | h
          · exact Or.inl (List.mem_cons_of_mem _ h)
          · exact Or.inr h
      · rcases List.mem_cons.mp h with h | h
        · exact Or.inr (by rw [h])
        · exact Or.inl (List.mem_cons_of_mem _ h)

theorem linkedScan_none (dst vis : List Term) : ∀ (ns tv : List Term),
    linkedScan dst vis ns tv = none →
    ∃ n ∈ ns, inList Term.eq dst n = true
  | [], tv, h => by simp [linkedScan] at h
  | n :: ns, tv, h => by
    simp only [linkedScan] at h
    split at h
    · obtain ⟨m, hm, hd⟩ := linkedScan_none dst vis ns tv h
      exact ⟨m, List.mem_cons_of_mem _ hm, hd⟩
    · split at h
      · rename_i hd
        exact ⟨n, List.mem_cons_self _ _, hd⟩
      · obtain ⟨m, hm, hd⟩ := linkedScan_none dst vis ns _ h
        exact ⟨m, List.mem_cons_of_mem _ hm, hd⟩

theorem linkedScan_some (dst vis : List Term) : ∀ (ns tv tv1 : List Term),
    linkedScan dst vis ns tv = some tv1 →
    (∀ n ∈ ns, inList Term.eq vis n = true ∨
      (inList Term.eq dst n = false ∧ hasName tv1 n.name)) ∧
    (∀ y ∈ tv1, y ∈ tv ∨
      (y ∈ ns ∧ inList Term.eq vis y = false ∧ inList Term.eq dst y = false)) ∧
    (∀ y ∈ tv, y ∈ tv1) ∧
    (tv.Pairwise (fun a b => a.lt b = true) → tv1.Pairwise (fun a b => a.lt b = true))
  | [], tv, tv1, h => by
    simp only [linkedScan, Option.some.injEq] at h
    subst h
    exact ⟨(fun n hn => by cases hn), fun y hy => Or.inl hy, fun y hy => hy, fun hs => hs⟩
  | n :: ns, tv, tv1, h => by
    simp only [linkedScan] at h
    by_cases hv : inList Term.eq vis n = true
    · rw [if_pos hv] at h
      obtain ⟨h1, h2, h3, h4⟩ := linkedScan_some dst vis ns tv tv1 h
      refine ⟨?_, ?_, h3, h4⟩
      · intro m hm
        rcases List.mem_cons.mp hm with hm | hm
        · rw [hm]; exact Or.inl hv
        · exact h1 m hm
      · intro y hy
        rcases h2 y hy with hy | ⟨hy, hy1, hy2⟩
        · exact Or.inl hy
        · exact Or.inr ⟨List.mem_cons_of_mem _ hy, hy1, hy2⟩
    · rw [if_neg hv] at h
      by_cases hd : inList Term.eq dst n = true
      · rw [if_pos hd] at h
        cases h
      · rw [if_neg hd] at h
        obtain ⟨h1, h2, h3, h4⟩ := linkedScan_some dst vis ns _ tv1 h
        refine ⟨?_, ?_, ?_, ?_⟩
        · intro m hm
          rcases List.mem_cons.mp hm with hm | hm
          · rw [hm]
            refine Or.inr ⟨by simpa using hd, ?_⟩
            obtain ⟨y, hy, hn⟩ := (hasName_setInsert n tv n.name).mpr (Or.inl rfl)
            exact ⟨y, h3 y hy, hn⟩
          · exact h1 m hm
        · intro y hy
          rcases h2 y hy with hy | ⟨hy, hy1, hy2⟩
          · rcases mem_setInsert _ _ _ _ hy with hy | hy
            · rw [hy]
              exact Or.inr ⟨List.mem_cons_self _ _, by simpa using hv, by simpa using hd⟩
            · exact Or.inl hy
          · exact Or.inr ⟨List.mem_cons_of_mem _ hy, hy1, hy2⟩
        · intro y hy
          exact h3 y (mem_setInsert_of_mem _ _ _ _ hy)
        · intro hs
          exact h4 (sorted_setInsert n tv hs)

theorem length_linkUniverse (links : List (Term × List Term)) (src : Term) :
    (linkUniverse links src).length = 1 + (links.map (fun p => p.2.length)).sum := by
  unfold linkUniverse
  simp only [List.length_cons, List.length_map]
  have : ∀ (l : List (Term × List Term)),
      (l.flatMap (fun p => p.2)).length = (l.map (fun p => p.2.length)).sum := by
    intro l
    induction l with
    | nil => rfl
    | cons e es ih => simp [List.flatMap_cons, ih]
  rw [this]
  omega

theorem bfs_count (links : List (Term × List Term)) (dst : List Term) (src : Term)
    (tv vis : List Term) (hinv : BfsInv links dst src tv vis) :
    vis.length + tv.length ≤ (linkUniverse links src).length := by
  have hne : ∀ (l : List Term), l.Pairwise (fun a b => a.lt b = true) →
      l.Pairwise (fun a b => a.name ≠ b.name) := fun l hl =>
    hl.imp (fun h => Term.name_ne_of_lt _ _ h)
  have hpw : (vis ++ tv).Pairwise (fun a b => a.name ≠ b.name) := by
    rw [List.pairwise_append]
    refine ⟨hne _ hinv.sortedV, hne _ hinv.sortedT, ?_⟩
    intro a ha b hb hab
    exact hinv.disj b hb ⟨a, ha, hab⟩
  have hnodup : ((vis ++ tv).map (fun t => t.name)).Nodup := by
    unfold List.Nodup
    rw [List.pairwise_map]
    exact hpw
  have hsub : (vis ++ tv).map (fun t => t.name) ⊆ linkUniverse links src := by
    intro n hn
    simp only [List.mem_map, List.mem_append] at hn
    obtain ⟨y, hy, hyn⟩ := hn
    rcases hy with hy | hy
    · exact hinv.univ n (Or.inr ⟨y, hy, hyn⟩)
    · exact hinv.univ n (Or.inl ⟨y, hy, hyn⟩)
  have := (List.subperm_of_subset hnodup hsub).length_le
  simpa using this

theorem bfs_closed_no_target (links : List (Term × List Term)) (dst : List Term) (src : Term)
    (vis : List Term) (hinv : BfsInv links dst src [] vis) :
    ¬ ∃ n, Relation.ReflTransGen (LinkEdge links) src.name n ∧ hasName dst n := by
  rintro ⟨n, hr, hd⟩
  have hall : hasName vis n := by
    clear hd
    induction hr with
    | refl =>
      rcases hinv.srcIn with ⟨y, hy, _⟩ | h
      · cases hy
      · exact h
    | tail _ hbc ih =>
      rcases hinv.closed _ ih _ hbc with h | ⟨y, hy, _⟩
      · exact h
      · cases hy
  exact hinv.avoid n (Or.inr hall) hd

theorem linksGet_facts (links : List (Term × List Term)) (src current : Term)
    (hl : ∀ e ∈ links, NoAny e.2) :
    NoAny (linksGet links current) ∧
    (∀ y ∈ linksGet links current, LinkEdge links current.name y.name) ∧
    (∀ w, LinkEdge links current.name w → hasName (linksGet links current) w) ∧
    (∀ y ∈ linksGet links current, y.name ∈ linkUniverse links src) := by
  rw [linksGet_eq]
  cases hg : lget links current.name with
  | none =>
    refine ⟨(fun y hy => by cases hy), (fun y hy => by cases hy), ?_, (fun y hy => by cases hy)⟩
    rintro w ⟨vs, hvs, _⟩
    rw [hg] at hvs
    cases hvs
  | some vs =>
    obtain ⟨k, hk, _⟩ := mem_of_lget links _ vs hg
    refine ⟨hl (k, vs) hk, fun y hy => ⟨vs, hg, y, hy, rfl⟩, ?_, ?_⟩
    · rintro w ⟨vs1, hvs1, hw⟩
      rw [hg] at hvs1
      simp only [Option.some.injEq] at hvs1
      subst hvs1
      exact hw
    · intro y hy
      unfold linkUniverse
      apply List.mem_cons_of_mem
      apply List.mem_map.mpr
      refine ⟨y, ?_, rfl⟩
      simp only [List.mem_flatMap]
      exact ⟨(k, vs), hk, hy⟩

/-- The `while` loop of `linked`, run with enough fuel from a state satisfying the
invariant, returns true exactly when a term of `dst` can be reached from `src`. -/
theorem linkedLoop_spec (links : List (Term × List Term)) (dst : List Term) (src : Term)
    (hl : ∀ e ∈ links, NoAny e.2) (hd : NoAny dst) :
    ∀ (fuel : Nat) (tv vis : List Term), BfsInv links dst src tv vis →
      (linkUniverse links src).length ≤ fuel + vis.length →
      (linkedLoop links dst fuel tv vis = true ↔
        ∃ n, Relation.ReflTransGen (LinkEdge links) src.name n ∧ hasName dst n)
  | 0, tv, vis, hinv, hc => by
    have hcount := bfs_count links dst src tv vis hinv
    have htv : tv = [] := by
      cases tv with
      | nil => rfl
      | cons a as => simp only [List.length_cons] at hcount; omega
    subst htv
    simp only [linkedLoop]
    exact ⟨(fun h => by cases h),
      fun h => absurd h (bfs_closed_no_target links dst src vis hinv)⟩
  | fuel + 1, [], vis, hinv, _ => by
    simp only [linkedLoop]
    exact ⟨(fun h => by cases h),
      fun h => absurd h (bfs_closed_no_target links dst src vis hinv)⟩
  | fuel + 1, current :: rest, vis, hinv, hc => by
    simp only [linkedLoop]
    obtain ⟨hns, hedge, hedge1, huniv⟩ := linksGet_facts links src current hl
    have hcur : current.isVariable = true → current.name ≠ "ANY" :=
      hinv.noAnyT current (List.mem_cons_self _ _)
    have hvis1 : NoAny (setInsert Term.lt current vis) :=
      noAny_setInsert current vis hinv.noAnyV hcur
    have hreach : Relation.ReflTransGen (LinkEdge links) src.name current.name :=
      hinv.reach _ (Or.inl ⟨current, List.mem_cons_self _ _, rfl⟩)
    have hsorted := List.pairwise_cons.mp hinv.sortedT
    cases hs : linkedScan dst (setInsert Term.lt current vis) (linksGet links current) rest with
    | none =>
      obtain ⟨n, hn, hdn⟩ := linkedScan_none _ _ _ _ hs
      exact ⟨fun _ => ⟨n.name, hreach.tail (hedge n hn),
        (inList_term_iff dst n hd (hns n hn)).mp hdn⟩, fun _ => rfl⟩
    | some tv1 =>
      obtain ⟨h1, h2, h3, h4⟩ := linkedScan_some _ _ _ _ _ hs
      have hmem : ∀ n, hasName tv1 n → hasName rest n ∨
          ∃ y ∈ linksGet links current, y.name = n ∧
            ¬ hasName (setInsert Term.lt current vis) n ∧ ¬ hasName dst n := by
        rintro n ⟨y, hy, hyn⟩
        rcases h2 y hy with hy | ⟨hy, hy1, hy2⟩
        · exact Or.inl ⟨y, hy, hyn⟩
        · refine Or.inr ⟨y, hy, hyn, ?_, ?_⟩
          · rw [← hyn, ← inList_term_iff _ y hvis1 (hns y hy), hy1]
            simp
          · rw [← hyn, ← inList_term_iff _ y hd (hns y hy), hy2]
            simp
      have hrest : ∀ n, hasName rest n → hasName tv1 n := fun n ⟨y, hy, hyn⟩ =>
        ⟨y, h3 y hy, hyn⟩
      apply linkedLoop_spec links dst src hl hd fuel tv1 _ ?_ ?_
      · refine ⟨h4 hsorted.2, sorted_setInsert current vis hinv.sortedV, ?_, ?_, ?_, ?_, ?_,
          ?_, ?_, hvis1⟩
        · intro y hy hv
          rcases hmem y.name ⟨y, hy, rfl⟩ with ⟨z, hz, hzn⟩ | ⟨_, _, _, hnv, _⟩
          · rcases (hasName_setInsert _ _ _).mp hv with h | h
            · exact Term.name_ne_of_lt _ _ (hsorted.1 z hz) (by rw [hzn, h])
            · exact hinv.disj z (List.mem_cons_of_mem _ hz) (hzn ▸ h)
          · exact hnv hv
        · rcases hinv.srcIn with ⟨y, hy, hyn⟩ | h
          · rcases List.mem_cons.mp hy with hy | hy
            · exact Or.inr ((hasName_setInsert _ _ _).mpr (Or.inl (by rw [← hyn, hy])))
            · exact Or.inl (hrest _ ⟨y, hy, hyn⟩)
          · exact Or.inr ((hasName_setInsert _ _ _).mpr (Or.inr h))
        · intro u hu w hw
          rcases (hasName_setInsert _ _ _).mp hu with hu | hu
          · rw [hu] at hw
            obtain ⟨y, hy, hyn⟩ := hedge1 w hw
            rcases h1 y hy with h | ⟨_, h⟩
            · exact Or.inl (hyn ▸ (inList_term_iff _ y hvis1 (hns y hy)).mp h)
            · exact Or.inr (hyn ▸ h)
          · rcases hinv.closed u hu w hw with h | ⟨y, hy, hyn⟩
            · exact Or.inl ((hasName_setInsert _ _ _).mpr (Or.inr h))
            · rcases List.mem_cons.mp hy with hy | hy
              · exact Or.inl ((hasName_setInsert _ _ _).mpr (Or.inl (by rw [← hyn, hy])))
              · exact Or.inr (hrest _ ⟨y, hy, hyn⟩)
        · intro n hn
          rcases hn with hn | hn
          · rcases hmem n hn with ⟨z, hz, hzn⟩ | ⟨_, _, _, _, hnd⟩
            · exact hinv.avoid n (Or.inl ⟨z, List.mem_cons_of_mem _ hz, hzn⟩)
            · exact hnd
          · rcases (hasName_setInsert _ _ _).mp hn with h | h
            · exact hinv.avoid n (Or.inl ⟨current, List.mem_cons_self _ _, h.symm⟩)
            · exact hinv.avoid n (Or.inr h)
        · intro n hn
          rcases hn with hn | hn
          · rcases hmem n hn with ⟨z, hz, hzn⟩ | ⟨y, hy, hyn, _, _⟩
            · exact hinv.univ n (Or.inl ⟨z, List.mem_cons_of_mem _ hz, hzn⟩)
            · exact hyn ▸ huniv y hy
          · rcases (hasName_setInsert _ _ _).mp hn with h | h
            · exact hinv.univ n (Or.inl ⟨current, List.mem_cons_self _ _, h.symm⟩)
            · exact hinv.univ n (Or.inr h)
        · intro n hn
          rcases hn with hn | hn
          · rcases hmem n hn with ⟨z, hz, hzn⟩ | ⟨y, hy, hyn, _, _⟩
            · exact hinv.reach n (Or.inl ⟨z, List.mem_cons_of_mem _ hz, hzn⟩)
            · exact hyn ▸ hreach.tail (hedge y hy)
          · rcases (hasName_setInsert _ _ _).mp hn with h | h
            · exact h ▸ hreach
            · exact hinv.reach n (Or.inr h)
        · intro y hy
          rcases h2 y hy with hy | ⟨hy, _, _⟩
          · exact hinv.noAnyT y (List.mem_cons_of_mem _ hy)
          · exact hns y hy
      · rw [length_setInsert_new current vis (hinv.disj current (List.mem_cons_self _ _))]
        omega

/-- The function `linked` decides whether a term of `dst` can be reached from `src` along
the arcs of `links`; in particular its loop never runs out of rounds. -/
theorem linked_iff (links : List (Term × List Term)) (dst : List Term) (src : Term)
    (hl : ∀ e ∈ links, NoAny e.2) (hd : NoAny dst)
    (hs : src.isVariable = true → src.name ≠ "ANY") :
    linked links src dst = true ↔
      ∃ n, Relation.ReflTransGen (LinkEdge links) src.name n ∧ hasName dst n := by
  unfold linked
  by_cases hin : inList Term.eq dst src = true
  · rw [if_pos hin]
    exact ⟨fun _ => ⟨src.name, Relation.ReflTransGen.refl,
      (inList_term_iff dst src hd hs).mp hin⟩, fun _ => rfl⟩
  · rw [if_neg hin]
    apply linkedLoop_spec links dst src hl hd
    · refine ⟨List.pairwise_singleton _ _, List.Pairwise.nil, ?_, ?_, ?_, ?_, ?_, ?_, ?_, ?_⟩
      · rintro y _ ⟨z, hz, _⟩
        cases hz
      · exact Or.inl ⟨src, List.mem_singleton_self _, rfl⟩
      · rintro u ⟨z, hz, _⟩
        cases hz
      · rintro n (⟨y, hy, hyn⟩ | ⟨z, hz, _⟩)
        · rw [List.mem_singleton] at hy
          rw [← hyn, hy, ← inList_term_iff dst src hd hs]
          exact hin
        · cases hz
      · rintro n (⟨y, hy, hyn⟩ | ⟨z, hz, _⟩)
        · rw [List.mem_singleton] at hy
          rw [← hyn, hy]
          exact List.mem_cons_self _ _
        · cases hz
      · rintro n (⟨y, hy, hyn⟩ | ⟨z, hz, _⟩)
        · rw [List.mem_singleton] at hy
          rw [← hyn, hy]
        · cases hz
      · intro y hy
        rw [List.mem_singleton] at hy
        rw [hy]
        exact hs
      · intro y hy
        cases hy
    · rw [length_linkUniverse]
      simp only [List.length_nil]
      omega

theorem linksInv_congr {K K1 : String → Prop} {E E1 : String → String → Prop}
    {st : List Term × List (Term × List Term)} (h : LinksInv K E st)
    (hK : ∀ n, K n ↔ K1 n) (hE : ∀ u w, E u w ↔ E1 u w) : LinksInv K1 E1 st :=
  ⟨fun n => (h.vars_iff n).trans (hK n), fun n => (h.keys_iff n).trans (hK n),
    fun u w => (h.edges_iff u w).trans (hE u w), h.noAnyV, h.noAnyL⟩

/-- The first statement of the loop over `pit1`: the parameter enters `vars` and `links`
unless it is there already. -/
theorem linksInv_init (K : String → Prop) (E : String → String → Prop)
    (st : List Term × List (Term × List Term)) (a : Term) (h : LinksInv K E st)
    (ha : a.isVariable = true → a.name ≠ "ANY") :
    LinksInv (fun n => K n ∨ n = a.name) E
      (if !inList Term.eq st.1 a then (setInsert Term.lt a st.1, linksSet a [] st.2)
        else st) := by
  by_cases hin : inList Term.eq st.1 a = true
  · simp only [hin, Bool.not_true, Bool.false_eq_true, if_false]
    have hk : K a.name := (h.vars_iff _).mp ((inList_term_iff _ a h.noAnyV ha).mp hin)
    exact linksInv_congr h (fun n => ⟨Or.inl, fun hn => hn.elim id (fun e => e ▸ hk)⟩)
      (fun _ _ => Iff.rfl)
  · have hnk : ¬ K a.name := fun hk =>
      hin ((inList_term_iff _ a h.noAnyV ha).mpr ((h.vars_iff _).mpr hk))
    have hnone : lget st.2 a.name = none := by
      cases hc : lget st.2 a.name with
      | none => rfl
      | some vs => exact absurd ((h.keys_iff _).mp ⟨vs, hc⟩) hnk
    simp only [hin, Bool.not_false, if_true]
    refine ⟨?_, ?_, ?_, noAny_setInsert a _ h.noAnyV ha, ?_⟩
    · intro n
      rw [hasName_setInsert, h.vars_iff]
      exact Or.comm
    · intro n
      dsimp only
      rw [lget_linksSet]
      by_cases hn : a.name = n
      · simp only [hn, if_true]
        exact ⟨fun _ => Or.inr trivial, fun _ => ⟨[], rfl⟩⟩
      · simp only [hn, if_false]
        rw [h.keys_iff]
        exact ⟨Or.inl, fun hh => hh.elim id (fun e => absurd e.symm hn)⟩
    · intro u w
      rw [← h.edges_iff]
      unfold LinkEdge
      dsimp only
      rw [lget_linksSet]
      by_cases hn : a.name = u
      · simp only [hn, if_true]
        rw [← hn, hnone]
        constructor
        · rintro ⟨vs, hvs, y, hy, _⟩
          simp only [Option.some.injEq] at hvs
          rw [← hvs] at hy
          cases hy
        · rintro ⟨vs, hvs, _⟩
          cases hvs
      · simp only [hn, if_false]
    · intro e he
      rcases mem_linksSet _ _ _ e he with he | he
      · exact h.noAnyL e he
      · rw [he]
        intro y hy
        cases hy

/-- The body of the loop over `pit2`: an arc from `pit1` to `pit2` unless they are
equal. -/
theorem linksInv_edge (K : String → Prop) (E : String → String → Prop)
    (st : List Term × List (Term × List Term)) (a b : Term) (h : LinksInv K E st)
    (hk : K a.name) (ha : a.isVariable = true → a.name ≠ "ANY")
    (hb : b.isVariable = true → b.name ≠ "ANY") :
    LinksInv K (fun u w => E u w ∨ (u = a.name ∧ w = b.name ∧ u ≠ w))
      (if a.ne b then (st.1, linksSet a (setInsert Term.lt b (linksGet st.2 a)) st.2)
        else st) := by
  by_cases hne : a.name = b.name
  · have : a.ne b = false := by simp [Term.ne, Term.eq_of_name a b hne]
    simp only [this, Bool.false_eq_true, if_false]
    refine linksInv_congr h (fun _ => Iff.rfl) (fun u w => ⟨Or.inl, fun hh => hh.elim id ?_⟩)
    rintro ⟨h1, h2, h3⟩
    exact absurd (h1.trans (hne.trans h2.symm)) h3
  · have : a.ne b = true := by
      unfold Term.ne
      cases hc : a.eq b with
      | false => rfl
      | true => exact absurd ((Term.eq_iff_name_noAny a b ha hb).mp hc) hne
    simp only [this, if_true]
    obtain ⟨vs0, hvs0⟩ := (h.keys_iff _).mpr hk
    have hget : linksGet st.2 a = vs0 := by rw [linksGet_eq, hvs0]; rfl
    obtain ⟨k0, hk0, _⟩ := mem_of_lget _ _ _ hvs0
    rw [hget]
    refine ⟨h.vars_iff, ?_, ?_, h.noAnyV, ?_⟩
    · intro n
      dsimp only
      rw [lget_linksSet]
      by_cases hn : a.name = n
      · simp only [hn, if_true]
        exact ⟨fun _ => hn ▸ hk, fun _ => ⟨_, rfl⟩⟩
      · simp only [hn, if_false]
        exact h.keys_iff n
    · intro u w
      rw [← h.edges_iff]
      unfold LinkEdge
      dsimp only
      rw [lget_linksSet]
      by_cases hn : a.name = u
      · simp only [hn, if_true]
        rw [← hn, hvs0]
        constructor
        · rintro ⟨vs, hvs, hw⟩
          simp only [Option.some.injEq] at hvs
          rw [← hvs, hasName_setInsert] at hw
          rcases hw with hw | hw
          · exact Or.inr ⟨trivial, hw, by rw [hw]; exact hne⟩
          · exact Or.inl ⟨vs0, rfl, hw⟩
        · rintro (⟨vs, hvs, hw⟩ | ⟨_, hw, _⟩)
          · simp only [Option.some.injEq] at hvs
            exact ⟨_, rfl, (hasName_setInsert _ _ _).mpr (Or.inr (hvs ▸ hw))⟩
          · exact ⟨_, rfl, (hasName_setInsert _ _ _).mpr (Or.inl hw)⟩
      · simp only [hn, if_false]
        exact ⟨Or.inl, fun hh => hh.elim id (fun e => absurd e.1.symm hn)⟩
    · intro e he
      rcases mem_linksSet _ _ _ e he with he | he
      · exact h.noAnyL e he
      · rw [he]
        exact noAny_setInsert b vs0 (h.noAnyL (k0, vs0) hk0) hb

theorem linksInv_inner (K : String → Prop) (a : Term)
    (ha : a.isVariable = true → a.name ≠ "ANY") (hk : K a.name) :
    ∀ (ps2 : List Term) (E : String → String → Prop)
      (st : List Term × List (Term × List Term)), LinksInv K E st → NoAny ps2 →
      LinksInv K (fun u w => E u w ∨ (u = a.name ∧ hasName ps2 w ∧ u ≠ w))
        (ps2.foldl (fun st pit2 =>
          if a.ne pit2 then
            (st.1, linksSet a (setInsert Term.lt pit2 (linksGet st.2 a)) st.2)
          else st) st)
  | [], E, st, h, _ => by
    refine linksInv_congr h (fun _ => Iff.rfl) (fun u w => ⟨Or.inl, fun hh => hh.elim id ?_⟩)
    rintro ⟨_, ⟨y, hy, _⟩, _⟩
    cases hy
  | b :: ps2, E, st, h, hps => by
    simp only [List.foldl_cons]
    have hb := hps b (List.mem_cons_self _ _)
    have := linksInv_inner K a ha hk ps2 _ _ (linksInv_edge K E st a b h hk ha hb)
      (fun y hy => hps y (List.mem_cons_of_mem _ hy))
    refine linksInv_congr this (fun _ => Iff.rfl) (fun u w => ?_)
    constructor
    · rintro ((h1 | ⟨h1, h2, h3⟩) | ⟨h1, ⟨y, hy, hyn⟩, h3⟩)
      · exact Or.inl h1
      · exact Or.inr ⟨h1, ⟨b, List.mem_cons_self _ _, h2.symm⟩, h3⟩
      · exact Or.inr ⟨h1, ⟨y, List.mem_cons_of_mem _ hy, hyn⟩, h3⟩
    · rintro (h1 | ⟨h1, ⟨y, hy, hyn⟩, h3⟩)
      · exact Or.inl (Or.inl h1)
      · rcases List.mem_cons.mp hy with hy | hy
        · exact Or.inl (Or.inr ⟨h1, by rw [← hyn, hy], h3⟩)
        · exact Or.inr ⟨h1, ⟨y, hy, hyn⟩, h3⟩

theorem linksInv_middle (ps : List Term) (hps : NoAny ps) :
    ∀ (ps1 : List Term) (K : String → Prop) (E : String → String → Prop)
      (st : List Term × List (Term × List Term)), LinksInv K E st → NoAny ps1 →
      LinksInv (fun n => K n ∨ hasName ps1 n)
        (fun u w => E u w ∨ (hasName ps1 u ∧ hasName ps w ∧ u ≠ w))
        (ps1.foldl (fun st pit1 =>
          ps.foldl (fun st pit2 =>
            if pit1.ne pit2 then
              (st.1, linksSet pit1 (setInsert Term.lt pit2 (linksGet st.2 pit1)) st.2)
            else st)
            (if !inList Term.eq st.1 pit1 then
              (setInsert Term.lt pit1 st.1, linksSet pit1 [] st.2)
            else st)) st)
  | [], K, E, st, h, _ => by
    refine linksInv_congr h (fun n => ⟨Or.inl, fun hh => hh.elim id ?_⟩)
      (fun u w => ⟨Or.inl, fun hh => hh.elim id ?_⟩)
    · rintro ⟨y, hy, _⟩
      cases hy
    · rintro ⟨⟨y, hy, _⟩, _⟩
      cases hy
  | a :: ps1, K, E, st, h, hps1 => by
    simp only [List.foldl_cons]
    have ha := hps1 a (List.mem_cons_self _ _)
    have h1 := linksInv_inner _ a ha (Or.inr rfl) ps E _ (linksInv_init K E st a h ha) hps
    have := linksInv_middle ps hps ps1 _ _ _ h1 (fun y hy => hps1 y (List.mem_cons_of_mem _ hy))
    refine linksInv_congr this (fun n => ?_) (fun u w => ?_)
    · constructor
      · rintro ((h1 | h1) | ⟨y, hy, hyn⟩)
        · exact Or.inl h1
        · exact Or.inr ⟨a, List.mem_cons_self _ _, h1.symm⟩
        · exact Or.inr ⟨y, List.mem_cons_of_mem _ hy, hyn⟩
      · rintro (h1 | ⟨y, hy, hyn⟩)
        · exact Or.inl (Or.inl h1)
        · rcases List.mem_cons.mp hy with hy | hy
          · exact Or.inl (Or.inr (by rw [← hyn, hy]))
          · exact Or.inr ⟨y, hy, hyn⟩
    · constructor
      · rintro ((h1 | ⟨h1, h2, h3⟩) | ⟨⟨y, hy, hyn⟩, h2, h3⟩)
        · exact Or.inl h1
        · exact Or.inr ⟨⟨a, List.mem_cons_self _ _, h1.symm⟩, h2, h3⟩
        · exact Or.inr ⟨⟨y, List.mem_cons_of_mem _ hy, hyn⟩, h2, h3⟩
      · rintro (h1 | ⟨⟨y, hy, hyn⟩, h2, h3⟩)
        · exact Or.inl (Or.inl h1)
        · rcases List.mem_cons.mp hy with hy | hy
          · exact Or.inl (Or.inr ⟨by rw [← hyn, hy], h2, h3⟩)
          · exact Or.inr ⟨⟨y, hy, hyn⟩, h2, h3⟩

theorem linksInv_outer : ∀ (fs : List Literal) (K : String → Prop)
    (E : String → String → Prop) (st : List Term × List (Term × List Term)),
    LinksInv K E st → (∀ f ∈ fs, NoAny f.parameters) →
    LinksInv (fun n => K n ∨ ∃ f ∈ fs, hasName f.parameters n)
      (fun u w => E u w ∨
        ∃ f ∈ fs, hasName f.parameters u ∧ hasName f.parameters w ∧ u ≠ w)
      (fs.foldl (fun st precond =>
        precond.parameters.foldl (fun st pit1 =>
          precond.parameters.foldl (fun st pit2 =>
            if pit1.ne pit2 then
              (st.1, linksSet pit1 (setInsert Term.lt pit2 (linksGet st.2 pit1)) st.2)
            else st)
            (if !inList Term.eq st.1 pit1 then
              (setInsert Term.lt pit1 st.1, linksSet pit1 [] st.2)
            else st)) st) st)
  | [], K, E, st, h, _ => by
    refine linksInv_congr h (fun n => ⟨Or.inl, fun hh => hh.elim id ?_⟩)
      (fun u w => ⟨Or.inl, fun hh => hh.elim id ?_⟩)
    · rintro ⟨f, hf, _⟩
      cases hf
    · rintro ⟨f, hf, _⟩
      cases hf
  | g :: fs, K, E, st, h, hfs => by
    simp only [List.foldl_cons]
    have hg := hfs g (List.mem_cons_self _ _)
    have h1 := linksInv_middle g.parameters hg g.parameters K E st h hg
    have := linksInv_outer fs _ _ _ h1 (fun f hf => hfs f (List.mem_cons_of_mem _ hf))
    refine linksInv_congr this (fun n => ?_) (fun u w => ?_)
    · constructor
      · rintro ((h1 | h1) | ⟨f, hf, hfn⟩)
        · exact Or.inl h1
        · exact Or.inr ⟨g, List.mem_cons_self _ _, h1⟩
        · exact Or.inr ⟨f, List.mem_cons_of_mem _ hf, hfn⟩
      · rintro (h1 | ⟨f, hf, hfn⟩)
        · exact Or.inl (Or.inl h1)
        · rcases List.mem_cons.mp hf with hf | hf
          · exact Or.inl (Or.inr (hf ▸ hfn))
          · exact Or.inr ⟨f, hf, hfn⟩
    · constructor
      · rintro ((h1 | h1) | ⟨f, hf, hfn⟩)
        · exact Or.inl h1
        · exact Or.inr ⟨g, List.mem_cons_self _ _, h1⟩
        · exact Or.inr ⟨f, List.mem_cons_of_mem _ hf, hfn⟩
      · rintro (h1 | ⟨f, hf, hfn⟩)
        · exact Or.inl (Or.inl h1)
        · rcases List.mem_cons.mp hf with hf | hf
          · exact Or.inl (Or.inr (hf ▸ hfn))
          · exact Or.inr ⟨f, hf, hfn⟩

/-- The sets built by the last block of `wellFormed`: `vars` holds the names of the
parameters of the preconditions, and `links` has an arc between two different names
exactly when they occur in one and the same precondition. -/
theorem wellFormedLinks_spec (pre : List Literal) (hpre : ∀ f ∈ pre, NoAny f.parameters) :
    LinksInv (fun n => ∃ f ∈ pre, hasName f.parameters n)
      (fun u w => ∃ f ∈ pre, hasName f.parameters u ∧ hasName f.parameters w ∧ u ≠ w)
      (wellFormedLinks pre) := by
  have h0 : LinksInv (fun _ => False) (fun _ _ => False)
      (([], []) : List Term × List (Term × List Term)) := by
    refine ⟨?_, ?_, ?_, (fun y hy => by cases hy), (fun e he => by cases he)⟩
    · intro n
      exact ⟨(fun ⟨y, hy, _⟩ => by cases hy), False.elim⟩
    · intro n
      exact ⟨(fun ⟨vs, hvs⟩ => by simp [lget] at hvs), False.elim⟩
    · intro u w
      exact ⟨(fun ⟨vs, hvs, _⟩ => by simp [lget] at hvs), False.elim⟩
  have := linksInv_outer pre _ _ _ h0 hpre
  exact linksInv_congr this (fun n => by simp) (fun u w => by simp)

theorem hasName_append (a b : List Term) (n : String) :
    hasName (a ++ b) n ↔ hasName a n ∨ hasName b n := by
  unfold hasName
  constructor
  · rintro ⟨y, hy, h⟩
    rcases List.mem_append.mp hy with hy | hy
    · exact Or.inl ⟨y, hy, h⟩
    · exact Or.inr ⟨y, hy, h⟩
  · rintro (⟨y, hy, h⟩ | ⟨y, hy, h⟩)
    · exact ⟨y, List.mem_append_left _ hy, h⟩
    · exact ⟨y, List.mem_append_right _ hy, h⟩

theorem hasName_foldl_lits (lits : List Literal) : ∀ (t : List Term) (n : String),
    hasName (lits.foldl (fun t d => d.parameters.foldl (fun t p => setInsert Term.lt p t) t)
      t) n ↔ hasName t n ∨ hasName (lits.flatMap (fun l => l.parameters)) n := by
  induction lits with
  | nil =>
    intro t n
    simp [hasName]
  | cons d ds ih =>
    intro t n
    simp only [List.foldl_cons, List.flatMap_cons]
    rw [ih, hasName_foldl_setInsert, hasName_append]
    exact or_assoc

theorem mem_foldl_lits (lits : List Literal) : ∀ (t : List Term) (y : Term),
    y ∈ lits.foldl (fun t d => d.parameters.foldl (fun t p => setInsert Term.lt p t) t) t →
    y ∈ t ∨ y ∈ lits.flatMap (fun l => l.parameters) := by
  induction lits with
  | nil => intro t y h; exact Or.inl h
  | cons d ds ih =>
    intro t y h
    simp only [List.foldl_cons] at h
    simp only [List.flatMap_cons, List.mem_append]
    rcases ih _ y h with h | h
    · rcases mem_foldl_setInsert _ _ y h with h | h
      · exact Or.inl h
      · exact Or.inr (Or.inl h)
    · exact Or.inr (Or.inr h)

theorem varOccurs_iff (p : Term) (pre : List Literal) (hpre : ∀ f ∈ pre, NoAny f.parameters)
    (hp : p.isVariable = true → p.name ≠ "ANY") :
    varOccurs p pre = true ↔ ∃ f ∈ pre, hasName f.parameters p.name := by
  unfold varOccurs
  rw [List.any_eq_true]
  constructor
  · rintro ⟨f, hf, h⟩
    exact ⟨f, hf, (inList_term_iff _ p (hpre f hf) hp).mp h⟩
  · rintro ⟨f, hf, h⟩
    exact ⟨f, hf, (inList_term_iff _ p (hpre f hf) hp).mpr h⟩

theorem linkedTo_congr (r : ActionRule) (p q : Term) (h : p.name = q.name) :
    LinkedTo r p ↔ LinkedTo r q := by
  unfold LinkedTo
  rw [h]

theorem rtg_links_iff (pre : List Literal) (links : List (Term × List Term))
    (hE : ∀ u w, LinkEdge links u w ↔
      ∃ f ∈ pre, hasName f.parameters u ∧ hasName f.parameters w ∧ u ≠ w) (u n : String) :
    Relation.ReflTransGen (LinkEdge links) u n ↔
      Relation.ReflTransGen (CoOccur pre) u n := by
  constructor
  · intro h
    refine Relation.ReflTransGen.mono ?_ h
    intro a b hab
    obtain ⟨f, hf, ha, hb, _⟩ := (hE a b).mp hab
    exact ⟨f, hf, ha, hb⟩
  · intro h
    induction h with
    | refl => exact Relation.ReflTransGen.refl
    | @tail b c _ hbc ih =>
      by_cases hne : b = c
      · rw [← hne]
        exact ih
      · obtain ⟨f, hf, hb, hc⟩ := hbc
        exact ih.tail ((hE b c).mpr ⟨f, hf, hb, hc, hne⟩)

/-- C10, failing inputs. (1) The rule `act()` with the add effect `q(c)` and no
precondition is not well formed, although it has no delete effect, no precondition, and
no variable in its add effect: the parameters collected from the add effects include the
constants. (2) The rule `act(X) : p(ANY)` is well formed, although the variable `ANY` of
its precondition co-occurs with no other term and is no parameter of the action literal
or of an effect: the wildcard `ANY` compares equal to the variable `X`. -/
theorem C10_counterexample :
    (ruleAddConst.wellFormed = false ∧ ruleAddConst.del = [] ∧
      ruleAddConst.preconditions = [] ∧
      ∀ a ∈ ruleAddConst.add, ∀ p ∈ a.parameters, p.isVariable = false) ∧
    (ruleAnyVar.wellFormed = true ∧ ¬ LinkedTo ruleAnyVar (mkVar "ANY")) := by
  refine ⟨⟨by decide, rfl, rfl, by decide⟩, by decide, ?_⟩
  rintro ⟨n, hr, y, hy, hyn⟩
  have hall : n = "ANY" := by
    clear hy hyn
    induction hr with
    | refl => rfl
    | tail _ hbc ih =>
      subst ih
      obtain ⟨f, hf, _, z, hz, hzn⟩ := hbc
      simp only [ruleAnyVar, List.mem_singleton] at hf
      subst hf
      simp only [mkLit, mkVar, List.mem_singleton] at hz
      rw [← hzn, hz]
  subst hall
  simp only [ActionRule.effectTerms, ruleAnyVar, mkLit, mkVar, List.flatMap_nil,
    List.append_nil, List.mem_singleton] at hy
  rw [hy] at hyn
  exact absurd hyn (by decide)

/-- C10, amended. For a rule in which no variable is named `ANY`, `wellFormed` returns
false if and only if some delete effect has no inverse precondition, or some add effect is
a precondition, or some parameter of an add effect, variable or constant, occurs in no
precondition, or some parameter of a precondition, variable or constant, is not connected,
in the graph of co-occurrence within preconditions, to a parameter of the action literal
or of an effect. -/
theorem C10_wellFormed_false_iff (r : ActionRule)
    (hany : ∀ t ∈ r.preconditions.flatMap (fun l => l.parameters) ++ r.effectTerms,
      t.isVariable = true → t.name ≠ "ANY") :
    r.wellFormed = false ↔
      (∃ d ∈ r.del, inList Literal.eq r.preconditions d.neg = false) ∨
      (∃ a ∈ r.add, inList Literal.eq r.preconditions a = true) ∨
      (∃ a ∈ r.add, ∃ p ∈ a.parameters, varOccurs p r.preconditions = false) ∨
      (∃ f ∈ r.preconditions, ∃ p ∈ f.parameters, ¬ LinkedTo r p) := by
  have hpre : ∀ f ∈ r.preconditions, NoAny f.parameters := by
    intro f hf t ht
    exact hany t (List.mem_append_left _ (List.mem_flatMap.mpr ⟨f, hf, ht⟩))
  have hadd : ∀ a ∈ r.add, NoAny a.parameters := by
    intro a ha t ht
    apply hany t
    apply List.mem_append_right
    unfold ActionRule.effectTerms
    exact List.mem_append_right _ (List.mem_append_right _ (List.mem_flatMap.mpr ⟨a, ha, ht⟩))
  have hspec := wellFormedLinks_spec r.preconditions hpre
  have htn : ∀ n, hasName (linkTargetOf r) n ↔ hasName r.effectTerms n := by
    intro n
    unfold linkTargetOf ActionRule.effectTerms toSet setUnion
    dsimp only
    rw [hasName_foldl_lits, hasName_foldl_lits, hasName_foldl_setInsert, hasName_append,
      hasName_append]
    constructor
    · rintro (((⟨y, hy, _⟩ | h) | h) | h)
      · cases hy
      · exact Or.inl h
      · exact Or.inr (Or.inl h)
      · exact Or.inr (Or.inr h)
    · rintro (h | h | h)
      · exact Or.inl (Or.inl (Or.inr h))
      · exact Or.inl (Or.inr h)
      · exact Or.inr h
  have hta : NoAny (linkTargetOf r) := by
    intro y hy
    apply hany y
    apply List.mem_append_right
    unfold linkTargetOf toSet setUnion at hy
    dsimp only at hy
    unfold ActionRule.effectTerms
    rcases mem_foldl_lits _ _ y hy with hy | hy
    · rcases mem_foldl_lits _ _ y hy with hy | hy
      · rcases mem_foldl_setInsert _ _ y hy with hy | hy
        · cases hy
        · exact List.mem_append_left _ hy
      · exact List.mem_append_right _ (List.mem_append_left _ hy)
    · exact List.mem_append_right _ (List.mem_append_right _ hy)
  have hlinked : ∀ v ∈ (wellFormedLinks r.preconditions).1,
      (linked (wellFormedLinks r.preconditions).2 v (linkTargetOf r) = true ↔
        LinkedTo r v) := by
    intro v hv
    rw [linked_iff _ _ v hspec.noAnyL hta (hspec.noAnyV v hv)]
    unfold LinkedTo
    constructor
    · rintro ⟨n, hr, hn⟩
      exact ⟨n, (rtg_links_iff _ _ hspec.edges_iff _ _).mp hr, (htn n).mp hn⟩
    · rintro ⟨n, hr, hn⟩
      exact ⟨n, (rtg_links_iff _ _ hspec.edges_iff _ _).mpr hr, (htn n).mpr hn⟩
  have h1 : r.del.any (fun d => !inList Literal.eq r.preconditions d.neg) = true ↔
      ∃ d ∈ r.del, inList Literal.eq r.preconditions d.neg = false := by
    simp [List.any_eq_true]
  have h2 : r.add.any (fun a => inList Literal.eq r.preconditions a) = true ↔
      ∃ a ∈ r.add, inList Literal.eq r.preconditions a = true := by
    simp [List.any_eq_true]
  have h3 : (addVarsOf r).any (fun v => !varOccurs v r.preconditions) = true ↔
      ∃ a ∈ r.add, ∃ p ∈ a.parameters, varOccurs p r.preconditions = false := by
    rw [List.any_eq_true]
    constructor
    · rintro ⟨v, hv, hvo⟩
      unfold addVarsOf at hv
      rcases mem_foldl_lits _ _ v hv with hv | hv
      · cases hv
      · obtain ⟨a, ha, hva⟩ := List.mem_flatMap.mp hv
        exact ⟨a, ha, v, hva, by simpa using hvo⟩
    · rintro ⟨a, ha, p, hp, hpo⟩
      have hn : hasName (addVarsOf r) p.name := by
        unfold addVarsOf
        rw [hasName_foldl_lits]
        exact Or.inr ⟨p, List.mem_flatMap.mpr ⟨a, ha, hp⟩, rfl⟩
      obtain ⟨v, hv, hvn⟩ := hn
      refine ⟨v, hv, ?_⟩
      have hvany : v.isVariable = true → v.name ≠ "ANY" := by
        unfold addVarsOf at hv
        rcases mem_foldl_lits _ _ v hv with hv | hv
        · cases hv
        · obtain ⟨b, hb, hvb⟩ := List.mem_flatMap.mp hv
          exact hadd b hb v hvb
      cases hc : varOccurs v r.preconditions with
      | false => rfl
      | true =>
        rw [varOccurs_iff v _ hpre hvany, hvn,
          ← varOccurs_iff p _ hpre (hadd a ha p hp), hpo] at hc
        cases hc
  have h4 : (wellFormedLinks r.preconditions).1.all
      (fun v => linked (wellFormedLinks r.preconditions).2 v (linkTargetOf r)) = false ↔
      ∃ f ∈ r.preconditions, ∃ p ∈ f.parameters, ¬ LinkedTo r p := by
    constructor
    · intro h
      have : ¬ ∀ v ∈ (wellFormedLinks r.preconditions).1,
          linked (wellFormedLinks r.preconditions).2 v (linkTargetOf r) = true := by
        rw [← List.all_eq_true, h]
        simp
      push_neg at this
      obtain ⟨v, hv, hvl⟩ := this
      obtain ⟨f, hf, p, hp, hpn⟩ := (hspec.vars_iff v.name).mp ⟨v, hv, rfl⟩
      exact ⟨f, hf, p, hp, fun hl =>
        hvl ((hlinked v hv).mpr ((linkedTo_congr r p v hpn).mp hl))⟩
    · rintro ⟨f, hf, p, hp, hnl⟩
      obtain ⟨v, hv, hvn⟩ := (hspec.vars_iff p.name).mpr ⟨f, hf, p, hp, rfl⟩
      cases hc : (wellFormedLinks r.preconditions).1.all
          (fun v => linked (wellFormedLinks r.preconditions).2 v (linkTargetOf r)) with
      | false => rfl
      | true =>
        rw [List.all_eq_true] at hc
        exact absurd ((linkedTo_congr r v p hvn).mp ((hlinked v hv).mp (hc v hv))) hnl
  unfold ActionRule.wellFormed
  by_cases c1 : r.del.any (fun d => !inList Literal.eq r.preconditions d.neg) = true
  · rw [if_pos c1]
    exact ⟨fun _ => Or.inl (h1.mp c1), fun _ => rfl⟩
  · rw [if_neg c1]
    by_cases c2 : r.add.any (fun a => inList Literal.eq r.preconditions a) = true
    · rw [if_pos c2]
      exact ⟨fun _ => Or.inr (Or.inl (h2.mp c2)), fun _ => rfl⟩
    · rw [if_neg c2]
      by_cases c3 : (addVarsOf r).any (fun v => !varOccurs v r.preconditions) = true
      · rw [if_pos c3]
        exact ⟨fun _ => Or.inr (Or.inr (Or.inl (h3.mp c3))), fun _ => rfl⟩
      · rw [if_neg c3]
        dsimp only
        rw [h4]
        constructor
        · intro h
          exact Or.inr (Or.inr (Or.inr h))
        · rintro (h | h | h | h)
          · exact absurd (h1.mpr h) c1
          · exact absurd (h2.mpr h) c2
          · exact absurd (h3.mpr h) c3
          · exact h

/-- C10, witness: the amended statement on a rule whose precondition `block(W)` is linked
to nothing. -/
theorem C10_wellFormed_false_iff_witness :
    ruleUnlinked.wellFormed = false ∧
    (∀ t ∈ ruleUnlinked.preconditions.flatMap (fun l => l.parameters) ++
        ruleUnlinked.effectTerms, t.isVariable = true → t.name ≠ "ANY") ∧
    (ruleUnlinked.wellFormed = false ↔
      (∃ d ∈ ruleUnlinked.del, inList Literal.eq ruleUnlinked.preconditions d.neg = false) ∨
      (∃ a ∈ ruleUnlinked.add, inList Literal.eq ruleUnlinked.preconditions a = true) ∨
      (∃ a ∈ ruleUnlinked.add, ∃ p ∈ a.parameters,
        varOccurs p ruleUnlinked.preconditions = false) ∨
      (∃ f ∈ ruleUnlinked.preconditions, ∃ p ∈ f.parameters, ¬ LinkedTo ruleUnlinked p)) :=
  ⟨by decide, by decide, C10_wellFormed_false_iff ruleUnlinked (by decide)⟩

/-! ## The order on substitutions -/

theorem mem_foldl_insertUnique (l : List (Term × Term)) : ∀ (init : List Term) (k : Term),
    k ∈ l.foldl (fun ks p => insertUnique Term.eq ks p.1) init →
    k ∈ init ∨ ∃ e ∈ l, e.1 = k := by
  induction l with
  | nil => intro init k h; exact Or.inl h
  | cons e es ih =>
    intro init k h
    simp only [List.foldl_cons] at h
    rcases ih _ k h with h | ⟨e1, he1, hk⟩
    · unfold insertUnique at h
      split at h
      · exact Or.inl h
      · rcases List.mem_append.mp h with h | h
        · exact Or.inl h
        · rw [List.mem_singleton] at h
          exact Or.inr ⟨e, List.mem_cons_self _ _, h.symm⟩
    · exact Or.inr ⟨e1, List.mem_cons_of_mem _ he1, hk⟩

theorem foldl_insertUnique_mono (l : List (Term × Term)) : ∀ (init : List Term) (k : Term),
    k ∈ init → k ∈ l.foldl (fun ks p => insertUnique Term.eq ks p.1) init := by
  induction l with
  | nil => intro init k h; exact h
  | cons e es ih =>
    intro init k h
    simp only [List.foldl_cons]
    apply ih
    unfold insertUnique
    split
    · exact h
    · exact List.mem_append_left _ h

theorem foldl_insertUnique_has (l : List (Term × Term)) : ∀ (init : List Term),
    ∀ e ∈ l, ∃ k ∈ l.foldl (fun ks p => insertUnique Term.eq ks p.1) init,
      k.eq e.1 = true := by
  induction l with
  | nil => intro init e he; cases he
  | cons e1 es ih =>
    intro init e he
    simp only [List.foldl_cons]
    rcases List.mem_cons.mp he with he | he
    · subst he
      by_cases hin : inList Term.eq init e.1 = true
      · unfold inList at hin
        rw [List.any_eq_true] at hin
        obtain ⟨k, hk, hke⟩ := hin
        refine ⟨k, foldl_insertUnique_mono es _ k ?_, hke⟩
        unfold insertUnique inList
        split
        · exact hk
        · exact List.mem_append_left _ hk
      · refine ⟨e.1, foldl_insertUnique_mono es _ e.1 ?_, Term.eq_refl _⟩
        unfold insertUnique
        rw [if_neg hin]
        exact List.mem_append_right _ (List.mem_singleton_self _)
    · exact ih _ e he

theorem foldl_insertUnique_distinct (l : List (Term × Term)) : ∀ (init : List Term),
    init.Pairwise (fun a b => a.name ≠ b.name) →
    (l.foldl (fun ks p => insertUnique Term.eq ks p.1) init).Pairwise
      (fun a b => a.name ≠ b.name) := by
  induction l with
  | nil => intro init h; exact h
  | cons e es ih =>
    intro init h
    simp only [List.foldl_cons]
    apply ih
    unfold insertUnique
    split
    · exact h
    · rename_i hin
      rw [List.pairwise_append]
      refine ⟨h, List.pairwise_singleton _ _, ?_⟩
      intro a ha b hb hab
      rw [List.mem_singleton] at hb
      apply hin
      unfold inList
      rw [List.any_eq_true]
      exact ⟨a, ha, Term.eq_of_name a e.1 (by rw [hab, hb])⟩

theorem mem_sortInsert (x y : Term) : ∀ (l : List Term),
    y ∈ sortInsert Term.lt x l ↔ y = x ∨ y ∈ l
  | [] => by simp [sortInsert]
  | z :: zs => by
    simp only [sortInsert]
    split
    · simp
    · rw [List.mem_cons, mem_sortInsert x y zs, List.mem_cons]
      constructor
      · rintro (h | h | h)
        · exact Or.inr (Or.inl h)
        · exact Or.inl h
        · exact Or.inr (Or.inr h)
      · rintro (h | h | h)
        · exact Or.inr (Or.inl h)
        · exact Or.inl h
        · exact Or.inr (Or.inr h)

theorem mem_sortBy (y : Term) (l : List Term) : y ∈ sortBy Term.lt l ↔ y ∈ l := by
  unfold sortBy
  induction l with
  | nil => simp
  | cons x xs ih =>
    simp only [List.foldr_cons]
    rw [mem_sortInsert, ih, List.mem_cons]

theorem sortInsert_sorted (x : Term) : ∀ (l : List Term),
    l.Pairwise (fun a b => a.lt b = true) → (∀ y ∈ l, y.name ≠ x.name) →
    (sortInsert Term.lt x l).Pairwise (fun a b => a.lt b = true)
  | [], _, _ => by simp [sortInsert]
  | z :: zs, h, hne => by
    rw [List.pairwise_cons] at h
    simp only [sortInsert]
    by_cases h1 : x.lt z = true
    · rw [if_pos h1, List.pairwise_cons]
      refine ⟨?_, List.pairwise_cons.mpr h⟩
      intro a ha
      rcases List.mem_cons.mp ha with ha | ha
      · rw [ha]; exact h1
      · exact Term.lt_trans _ _ _ h1 (h.1 a ha)
    · rw [if_neg h1, List.pairwise_cons]
      have hzx : z.lt x = true := by
        cases hc : z.lt x with
        | true => rfl
        | false =>
          exact absurd (Term.name_eq_of_not_lt z x hc (by simpa using h1))
            (hne z (List.mem_cons_self _ _))
      refine ⟨?_, sortInsert_sorted x zs h.2 (fun y hy => hne y (List.mem_cons_of_mem _ hy))⟩
      intro a ha
      rcases (mem_sortInsert x a zs).mp ha with ha | ha
      · rw [ha]; exact hzx
      · exact h.1 a ha

theorem sortBy_sorted : ∀ (l : List Term), l.Pairwise (fun a b => a.name ≠ b.name) →
    (sortBy Term.lt l).Pairwise (fun a b => a.lt b = true)
  | [], _ => by simp [sortBy]
  | x :: xs, h => by
    rw [List.pairwise_cons] at h
    have ih := sortBy_sorted xs h.2
    unfold sortBy at ih ⊢
    simp only [List.foldr_cons]
    apply sortInsert_sorted x _ ih
    intro y hy
    have hy1 : y ∈ sortBy Term.lt xs := hy
    exact (h.1 y ((mem_sortBy y xs).mp hy1)).symm

/-- Two lists of terms in strictly increasing order that hold the same names hold them in
the same order. -/
theorem names_eq_of_sorted : ∀ (l1 l2 : List Term),
    l1.Pairwise (fun a b => a.lt b = true) → l2.Pairwise (fun a b => a.lt b = true) →
    (∀ n, hasName l1 n ↔ hasName l2 n) →
    l1.map (fun t => t.name) = l2.map (fun t => t.name)
  | [], [], _, _, _ => rfl
  | [], y :: ys, _, _, hm => by
    obtain ⟨z, hz, _⟩ := (hm y.name).mpr ⟨y, List.mem_cons_self _ _, rfl⟩
    cases hz
  | x :: xs, [], _, _, hm => by
    obtain ⟨z, hz, _⟩ := (hm x.name).mp ⟨x, List.mem_cons_self _ _, rfl⟩
    cases hz
  | x :: xs, y :: ys, h1, h2, hm => by
    rw [List.pairwise_cons] at h1 h2
    have hxy : x.name = y.name := by
      by_contra hne
      obtain ⟨z, hz, hzn⟩ := (hm x.name).mp ⟨x, List.mem_cons_self _ _, rfl⟩
      obtain ⟨w, hw, hwn⟩ := (hm y.name).mpr ⟨y, List.mem_cons_self _ _, rfl⟩
      rcases List.mem_cons.mp hz with hz | hz
      · exact hne (by rw [← hzn, hz])
      · rcases List.mem_cons.mp hw with hw | hw
        · exact hne (by rw [← hwn, hw])
        · have hyx : strLt y.name x.name = true := by
            have := h2.1 z hz
            unfold Term.lt at this
            rw [hzn] at this
            exact this
          have hxy : strLt x.name y.name = true := by
            have := h1.1 w hw
            unfold Term.lt at this
            rw [hwn] at this
            exact this
          have := Term.lt_trans x y x hxy hyx
          rw [Term.lt_irrefl] at this
          cases this
    have htail : ∀ n, hasName xs n ↔ hasName ys n := by
      intro n
      constructor
      · rintro ⟨z, hz, hzn⟩
        obtain ⟨w, hw, hwn⟩ := (hm n).mp ⟨z, List.mem_cons_of_mem _ hz, hzn⟩
        rcases List.mem_cons.mp hw with hw | hw
        · exact absurd (by rw [hzn, ← hwn, hw, hxy]) (Term.name_ne_of_lt x z (h1.1 z hz)).symm
        · exact ⟨w, hw, hwn⟩
      · rintro ⟨z, hz, hzn⟩
        obtain ⟨w, hw, hwn⟩ := (hm n).mpr ⟨z, List.mem_cons_of_mem _ hz, hzn⟩
        rcases List.mem_cons.mp hw with hw | hw
        · exact absurd (by rw [hzn, ← hwn, hw, hxy]) (Term.name_ne_of_lt y z (h2.1 z hz)).symm
        · exact ⟨w, hw, hwn⟩
    simp only [List.map_cons, hxy, names_eq_of_sorted xs ys h1.2 h2.2 htail]

theorem subLtKeys_congr (a b : Substitution) : ∀ (ks ks1 : List Term),
    ks.map (fun t => t.name) = ks1.map (fun t => t.name) →
    subLtKeys a b ks = subLtKeys a b ks1
  | [], [], _ => rfl
  | [], _ :: _, h => by simp at h
  | _ :: _, [], h => by simp at h
  | k :: ks, k1 :: ks1, h => by
    simp only [List.map_cons, List.cons.injEq] at h
    simp only [subLtKeys, Substitution.get_eq_nget, h.1, subLtKeys_congr a b ks ks1 h.2]

/-- When neither of two substitutions with constant images is smaller than the other one
along the same keys, they agree on every key of the list. -/
theorem subLtKeys_joint (a b : Substitution)
    (hga : ∀ e ∈ a.mapping, e.2.isVariable = false)
    (hgb : ∀ e ∈ b.mapping, e.2.isVariable = false) : ∀ (ks : List Term),
    subLtKeys a b ks = false → subLtKeys b a ks = false →
    ∀ k ∈ ks, ∃ v1 v2, nget a.mapping k.name = some v1 ∧ nget b.mapping k.name = some v2 ∧
      v1.name = v2.name
  | [], _, _, k, hk => by cases hk
  | k0 :: ks, h1, h2, k, hk => by
    simp only [subLtKeys, Substitution.get_eq_nget] at h1 h2
    cases ha : nget a.mapping k0.name with
    | none => rw [ha] at h1; cases hb : nget b.mapping k0.name <;> simp [hb] at h1
    | some v1 =>
      cases hb : nget b.mapping k0.name with
      | none => rw [hb] at h2; simp at h2
      | some v2 =>
        rw [ha, hb] at h1 h2
        dsimp only at h1 h2
        obtain ⟨ka, hka, _⟩ := mem_of_nget _ _ _ ha
        obtain ⟨kb, hkb, _⟩ := mem_of_nget _ _ _ hb
        have hv1 := hga _ hka
        have hv2 := hgb _ hkb
        by_cases hn : v1.name = v2.name
        · have e1 : v1.ne v2 = false := by simp [Term.ne, Term.eq_of_name v1 v2 hn]
          have e2 : v2.ne v1 = false := by simp [Term.ne, Term.eq_of_name v2 v1 hn.symm]
          rw [e1] at h1
          rw [e2] at h2
          simp only [Bool.false_eq_true, if_false] at h1 h2
          rcases List.mem_cons.mp hk with hk | hk
          · rw [hk]
            exact ⟨v1, v2, ha, hb, hn⟩
          · exact subLtKeys_joint a b hga hgb ks h1 h2 k hk
        · exfalso
          have e1 : v1.ne v2 = true := by
            unfold Term.ne
            cases hc : v1.eq v2 with
            | false => rfl
            | true => exact absurd ((Term.eq_iff_name_right v1 v2 hv2).mp hc) hn
          have e2 : v2.ne v1 = true := by
            unfold Term.ne
            cases hc : v2.eq v1 with
            | false => rfl
            | true => exact absurd ((Term.eq_iff_name_right v2 v1 hv1).mp hc).symm hn
          rw [e1] at h1
          rw [e2] at h2
          simp only [if_true] at h1 h2
          exact hn (Term.name_eq_of_not_lt v1 v2 h1 h2)

theorem subLtKeys_self (a : Substitution) : ∀ (ks : List Term),
    (∀ k ∈ ks, ∃ v, nget a.mapping k.name = some v) → subLtKeys a a ks = false
  | [], _ => rfl
  | k :: ks, h => by
    obtain ⟨v, hv⟩ := h k (List.mem_cons_self _ _)
    simp only [subLtKeys, Substitution.get_eq_nget, hv, Term.ne, Term.eq_refl, Bool.not_true,
      Bool.false_eq_true, if_false]
    exact subLtKeys_self a ks (fun k1 hk1 => h k1 (List.mem_cons_of_mem _ hk1))

/-- No substitution with a sorted map is smaller than itself. -/
theorem substitution_lt_irrefl (a : Substitution) (hs : MapSorted a.mapping) :
    a.lt a = false := by
  unfold Substitution.lt
  have h1 : (a.injective && !a.injective) = false := by cases a.injective <;> rfl
  have h2 : (!a.injective && a.injective) = false := by cases a.injective <;> rfl
  simp only [h1, h2, Bool.false_eq_true, if_false, bne_self_eq_false]
  apply subLtKeys_self
  intro k hk
  rw [mem_sortBy] at hk
  rcases mem_foldl_insertUnique _ _ k hk with hk | ⟨e, he, hek⟩
  · cases hk
  · have he1 : e ∈ a.mapping := by
      rcases List.mem_append.mp he with h | h <;> exact h
    exact ⟨e.2, hek ▸ nget_of_mem _ hs e he1⟩

/-- The sorted key vector of `operator<` holds exactly the names of the keys of the two
substitutions. -/
theorem hasName_sortedKeys (T : List Term) (hT : NoAny T) (a b : Substitution)
    (hka : KeysFrom T a) (hkb : KeysFrom T b) (n : String) :
    hasName (sortBy Term.lt
      ((a.mapping ++ b.mapping).foldl (fun ks p => insertUnique Term.eq ks p.1) [])) n ↔
    ∃ e ∈ a.mapping ++ b.mapping, e.1.name = n := by
  have hkeys : ∀ e ∈ a.mapping ++ b.mapping, e.1 ∈ T := by
    intro e he
    rcases List.mem_append.mp he with h | h
    · exact hka e h
    · exact hkb e h
  constructor
  · rintro ⟨k, hk, hkn⟩
    rw [mem_sortBy] at hk
    rcases mem_foldl_insertUnique _ _ k hk with hk | ⟨e, he, hek⟩
    · cases hk
    · exact ⟨e, he, by rw [hek, hkn]⟩
  · rintro ⟨e, he, hen⟩
    obtain ⟨k, hk, hke⟩ := foldl_insertUnique_has (a.mapping ++ b.mapping) [] e he
    refine ⟨k, (mem_sortBy k _).mpr hk, ?_⟩
    rcases mem_foldl_insertUnique _ _ k hk with hk1 | ⟨e1, he1, hek1⟩
    · cases hk1
    · rw [← hen]
      exact (Term.eq_iff_name_noAny k e.1 (hek1 ▸ hT _ (hkeys e1 he1)) (hT _ (hkeys e he))).mp hke

/-- Two substitutions built by the matching functions, neither of which is smaller than
the other one, bind the same names to images of the same names. -/
theorem sameMap_of_incomparable (T : List Term) (hT : NoAny T) (a b : Substitution)
    (ha : SubInv a) (hb : SubInv b) (hka : KeysFrom T a) (hkb : KeysFrom T b)
    (h1 : a.lt b = false) (h2 : b.lt a = false) : SameMap a b ∧ SameMap b a := by
  unfold Substitution.lt at h1 h2
  simp only [ha.flag, hb.flag, Bool.not_true, Bool.and_false, Bool.false_and,
    Bool.false_eq_true, if_false] at h1 h2
  have hlen : a.mapping.length = b.mapping.length := by
    by_contra hne
    have hne1 : (a.mapping.length != b.mapping.length) = true := by simpa using hne
    have hne2 : (b.mapping.length != a.mapping.length) = true := by
      simpa using fun h => hne h.symm
    rw [if_pos hne1] at h1
    rw [if_pos hne2] at h2
    simp only [decide_eq_false_iff_not] at h1 h2
    omega
  have hl1 : (a.mapping.length != b.mapping.length) = false := by simpa using hlen
  have hl2 : (b.mapping.length != a.mapping.length) = false := by simpa using hlen.symm
  rw [if_neg (by simp [hl1])] at h1
  rw [if_neg (by simp [hl2])] at h2
  have hdist : ∀ (l : List (Term × Term)),
      (sortBy Term.lt (l.foldl (fun ks p => insertUnique Term.eq ks p.1) [])).Pairwise
        (fun x y => x.lt y = true) := fun l =>
    sortBy_sorted _ (foldl_insertUnique_distinct l [] List.Pairwise.nil)
  have halign := names_eq_of_sorted _ _ (hdist (b.mapping ++ a.mapping))
    (hdist (a.mapping ++ b.mapping)) (by
      intro n
      rw [hasName_sortedKeys T hT b a hkb hka, hasName_sortedKeys T hT a b hka hkb]
      constructor
      · rintro ⟨e, he, hen⟩
        exact ⟨e, by rw [List.mem_append] at he ⊢; exact he.symm, hen⟩
      · rintro ⟨e, he, hen⟩
        exact ⟨e, by rw [List.mem_append] at he ⊢; exact he.symm, hen⟩)
  rw [subLtKeys_congr b a _ _ halign] at h2
  have hjoint := subLtKeys_joint a b ha.ground hb.ground _ h1 h2
  have hkey : ∀ e ∈ a.mapping ++ b.mapping, ∃ v1 v2, nget a.mapping e.1.name = some v1 ∧
      nget b.mapping e.1.name = some v2 ∧ v1.name = v2.name := by
    intro e he
    obtain ⟨k, hk, hkn⟩ := (hasName_sortedKeys T hT a b hka hkb e.1.name).mpr ⟨e, he, rfl⟩
    have := hjoint k hk
    rw [hkn] at this
    exact this
  constructor
  · intro n v hv
    obtain ⟨k, hk, hkn⟩ := mem_of_nget _ _ _ hv
    obtain ⟨v1, v2, hv1, hv2, hvn⟩ := hkey (k, v) (List.mem_append_left _ hk)
    simp only [hkn] at hv1 hv2
    rw [hv] at hv1
    simp only [Option.some.injEq] at hv1
    exact ⟨v2, hv2, by rw [hv1, hvn]⟩
  · intro n v hv
    obtain ⟨k, hk, hkn⟩ := mem_of_nget _ _ _ hv
    obtain ⟨v1, v2, hv1, hv2, hvn⟩ := hkey (k, v) (List.mem_append_right _ hk)
    simp only [hkn] at hv1 hv2
    rw [hv] at hv2
    simp only [Option.some.injEq] at hv2
    exact ⟨v1, hv1, by rw [hv2, hvn]⟩

/-! ## Prematching is complete -/

theorem setSafe_keysFrom (T : List Term) (s : Substitution) (k v : Term)
    (hk : KeysFrom T s) (hkT : k.isVariable = true → k ∈ T) :
    KeysFrom T (s.setSafe k v true).2 := by
  unfold Substitution.setSafe
  split
  · exact hk
  · split
    · exact hk
    · rename_i hvar
      cases hg : s.get k with
      | some w => exact hk
      | none =>
        dsimp only
        split
        · exact hk
        · intro e he
          rw [Substitution.get_eq_nget] at hg
          rcases mem_mapSet_new k v _ e hg he with h | h
          · exact hk e h
          · rw [h]
            apply hkT
            cases hkv : k.isVariable with
            | true => rfl
            | false => simp [hkv] at hvar

theorem setSafeMultiple_keysFrom (T : List Term) : ∀ (ks vs : List Term) (s : Substitution),
    KeysFrom T s → (∀ k ∈ ks, k.isVariable = true → k ∈ T) →
    KeysFrom T (s.setSafeMultiple ks vs true).2
  | [], _, s, h, _ => by simpa [Substitution.setSafeMultiple] using h
  | _ :: _, [], s, h, _ => by simpa [Substitution.setSafeMultiple] using h
  | k :: ks, v :: vs, s, h, hks => by
    simp only [Substitution.setSafeMultiple]
    exact setSafeMultiple_keysFrom T ks vs _
      (setSafe_keysFrom T s k v h (hks k (List.mem_cons_self _ _)))
      (fun k1 hk1 => hks k1 (List.mem_cons_of_mem _ hk1))

theorem identityFold_keysFrom (T : List Term) : ∀ (cs : List Term) (s : Substitution),
    KeysFrom T s → (∀ c ∈ cs, c ∈ T) →
    KeysFrom T (cs.foldl (fun s c => if !(s.get c).isSome then s.set c c else s) s)
  | [], s, h, _ => h
  | c :: cs, s, h, hcs => by
    simp only [List.foldl_cons]
    apply identityFold_keysFrom T cs _ _ (fun c1 hc1 => hcs c1 (List.mem_cons_of_mem _ hc1))
    cases hg : s.get c with
    | some w => simpa using h
    | none =>
      simp only [Option.isSome_none, Bool.not_false, if_true]
      intro e he
      rw [Substitution.get_eq_nget] at hg
      rcases mem_mapSet_new c c _ e hg he with h1 | h1
      · exact h e h1
      · rw [h1]
        exact hcs c (List.mem_cons_self _ _)

theorem applyTerm_var_eq (s : Substitution) (hg : ∀ e ∈ s.mapping, e.2.isVariable = false)
    (p : Term) (h : (s.applyTerm p).isVariable = true) : s.applyTerm p = p := by
  cases hn : nget s.mapping p.name with
  | none => exact applyTerm_of_nget_none s p hn
  | some v =>
    rw [applyTerm_of_nget_some s p v hn] at h
    obtain ⟨k, hk, _⟩ := mem_of_nget _ _ _ hn
    rw [hg _ hk] at h
    cases h

theorem unifyStep_keysFrom (T : List Term) (xs : List Literal) (f : Literal)
    (subs : List Substitution) (hsubs : ∀ sub ∈ subs, SubInv sub ∧ KeysFrom T sub)
    (hf : ∀ p ∈ f.parameters, p ∈ T) (y : Substitution) (hy : y ∈ unifyStep xs f subs) :
    KeysFrom T y := by
  obtain ⟨sub, hsub, h | ⟨qf, _, _, h⟩⟩ := mem_unifyStep xs f subs y hy
  · rw [h.2.2]
    exact (hsubs sub hsub).2
  · rw [h]
    apply setSafeMultiple_keysFrom T _ _ _ (hsubs sub hsub).2
    intro k hk hkv
    simp only [Substitution.apply, List.mem_map] at hk
    obtain ⟨p, hp, hpk⟩ := hk
    rw [← hpk] at hkv ⊢
    rw [applyTerm_var_eq sub (hsubs sub hsub).1.ground p hkv]
    exact hf p hp

theorem applyTerm_name (t : Substitution) (p : Term) :
    (t.applyTerm p).name = tauName t p.name := by
  unfold tauName
  cases hn : nget t.mapping p.name with
  | none => rw [applyTerm_of_nget_none t p hn]
  | some v => rw [applyTerm_of_nget_some t p v hn]

/-- A call of `setSafe` that follows the target substitution succeeds and keeps following
it. -/
theorem setSafe_complete (T : List Term) (t s : Substitution) (k c : Term)
    (hinv : SubInv s) (hkeys : KeysFrom T s) (hag : Agree t s)
    (hinj : ∀ p ∈ T, ∀ q ∈ T, tauName t p.name = tauName t q.name → p.name = q.name)
    (hc : c.isVariable = false)
    (hk : k.name = c.name ∨ (k ∈ T ∧ k.isVariable = true ∧ tauName t k.name = c.name)) :
    (s.setSafe k c true).1 = true ∧ Agree t (s.setSafe k c true).2 ∧
    KeysFrom T (s.setSafe k c true).2 := by
  unfold Substitution.setSafe
  by_cases heq : k.eq c = true
  · rw [if_pos heq]
    exact ⟨rfl, hag, hkeys⟩
  · rw [if_neg heq]
    have hne : k.name ≠ c.name := fun h => heq (Term.eq_of_name k c h)
    rcases hk with hk | ⟨hkT, hkv, hkc⟩
    · exact absurd hk hne
    · simp only [hkv, Bool.not_true, Bool.and_false, Bool.false_eq_true, if_false]
      rw [Substitution.get_eq_nget]
      cases hg : nget s.mapping k.name with
      | some w =>
        dsimp only
        exact ⟨Term.eq_of_name w c ((hag _ _ hg).trans hkc), hag, hkeys⟩
      | none =>
        dsimp only
        have hnone : (s.getInverse c).isSome = false := by
          rw [getInverse_none_iff]
          intro e he
          cases hec : e.2.eq c with
          | false => rfl
          | true =>
            exfalso
            have hn : e.2.name = c.name := (Term.eq_iff_name_right e.2 c hc).mp hec
            have hget := nget_of_mem _ hinv.sorted e he
            have := hinj e.1 (hkeys e he) k hkT
              ((hag _ _ hget).symm.trans (hn.trans hkc.symm))
            rw [← this, hget] at hg
            cases hg
        simp only [hnone, Bool.and_false, Bool.false_eq_true, if_false]
        refine ⟨trivial, ?_, ?_⟩
        · intro n v hv
          simp only [Substitution.set, nget_mapSet] at hv
          by_cases hkn : k.name = n
          · simp only [hkn, if_true, Option.some.injEq] at hv
            rw [← hv, ← hkn]
            exact hkc.symm
          · simp only [hkn, if_false] at hv
            exact hag n v hv
        · intro e he
          rcases mem_mapSet_new k c _ e hg he with h | h
          · exact hkeys e h
          · rw [h]; exact hkT

theorem setSafeMultiple_complete (T : List Term) (t : Substitution)
    (hinj : ∀ p ∈ T, ∀ q ∈ T, tauName t p.name = tauName t q.name → p.name = q.name) :
    ∀ (ks cs : List Term) (s : Substitution), SubInv s → KeysFrom T s → Agree t s →
      (∀ c ∈ cs, c.isVariable = false) →
      List.Forall₂ (fun k c => k.name = c.name ∨
        (k ∈ T ∧ k.isVariable = true ∧ tauName t k.name = c.name)) ks cs →
      (s.setSafeMultiple ks cs true).1 = true ∧ Agree t (s.setSafeMultiple ks cs true).2 ∧
      KeysFrom T (s.setSafeMultiple ks cs true).2
  | [], [], s, _, hk, ha, _, _ => by
    simp only [Substitution.setSafeMultiple]
    exact ⟨trivial, ha, hk⟩
  | [], _ :: _, _, _, _, _, _, h => by cases h
  | _ :: _, [], _, _, _, _, _, h => by cases h
  | k :: ks, c :: cs, s, hinv, hk, ha, hcs, h => by
    cases h with
    | cons h1 h2 =>
      have hc := hcs c (List.mem_cons_self _ _)
      obtain ⟨e1, e2, e3⟩ := setSafe_complete T t s k c hinv hk ha hinj hc h1
      obtain ⟨i1, _, _⟩ := setSafe_spec s k c hinv hc e1
      obtain ⟨r1, r2, r3⟩ := setSafeMultiple_complete T t hinj ks cs _ i1 e3 e2
        (fun d hd => hcs d (List.mem_cons_of_mem _ hd)) h2
      simp only [Substitution.setSafeMultiple, e1, r1, Bool.and_self]
      exact ⟨trivial, r2, r3⟩

theorem applied_positions (T : List Term) (t sub : Substitution) (hag : Agree t sub) :
    ∀ (ps cs : List Term), List.Forall₂ (fun p c => c.name = tauName t p.name) ps cs →
      (∀ p ∈ ps, p ∈ T) → (∀ p ∈ ps, p.isVariable = false → Bound sub p p.name) →
      List.Forall₂ (fun k c => k.name = c.name ∨
        (k ∈ T ∧ k.isVariable = true ∧ tauName t k.name = c.name))
        (ps.map sub.applyTerm) cs
  | [], [], _, _, _ => List.Forall₂.nil
  | [], _ :: _, h, _, _ => by cases h
  | _ :: _, [], h, _, _ => by cases h
  | p :: ps, c :: cs, h, hT, hcb => by
    cases h with
    | cons h1 h2 =>
      simp only [List.map_cons]
      refine List.Forall₂.cons ?_ (applied_positions T t sub hag ps cs h2
        (fun q hq => hT q (List.mem_cons_of_mem _ hq))
        (fun q hq => hcb q (List.mem_cons_of_mem _ hq)))
      cases hn : nget sub.mapping p.name with
      | some w =>
        rw [applyTerm_of_nget_some sub p w hn]
        exact Or.inl ((hag _ _ hn).trans h1.symm)
      | none =>
        rw [applyTerm_of_nget_none sub p hn]
        cases hpv : p.isVariable with
        | false =>
          obtain ⟨v, hv, _⟩ := hcb p (List.mem_cons_self _ _) hpv
          rw [hn] at hv
          cases hv
        | true => exact Or.inr ⟨hT p (List.mem_cons_self _ _), rfl, h1.symm⟩

theorem queryCorresponds_complete (t sub : Substitution) (hinv : SubInv sub)
    (hag : Agree t sub) :
    ∀ (ps cs : List Term),
      List.Forall₂ (fun p c => c.name = tauName t p.name ∧
        (p.isVariable = true → typeSubsumes p.type c.type = true)) ps cs →
      (∀ p ∈ ps, p.isVariable = false → Bound sub p p.name) →
      queryCorresponds (ps.map sub.applyTerm) cs = true
  | [], [], _, _ => rfl
  | [], _ :: _, h, _ => by cases h
  | _ :: _, [], h, _ => by cases h
  | p :: ps, c :: cs, h, hcb => by
    cases h with
    | cons h1 h2 =>
      simp only [List.map_cons, queryCorresponds]
      have ih := queryCorresponds_complete t sub hinv hag ps cs h2
        (fun q hq => hcb q (List.mem_cons_of_mem _ hq))
      cases hn : nget sub.mapping p.name with
      | some w =>
        rw [applyTerm_of_nget_some sub p w hn]
        have hw := hinv.ground_of_nget hn
        have hne : w.ne c = false := by
          simp [Term.ne, Term.eq_of_name w c ((hag _ _ hn).trans h1.1.symm)]
        simp only [hw, hne, Bool.not_false, Bool.and_false, Bool.false_and,
          Bool.false_eq_true, if_false]
        exact ih
      | none =>
        rw [applyTerm_of_nget_none sub p hn]
        cases hpv : p.isVariable with
        | false =>
          obtain ⟨v, hv, _⟩ := hcb p (List.mem_cons_self _ _) hpv
          rw [hn] at hv
          cases hv
        | true =>
          simp only [h1.2 hpv, Bool.not_true, Bool.false_and, Bool.and_false,
            Bool.false_eq_true, if_false]
          exact ih

theorem foldl_setInsert_filter_mono {α β : Type} (lt : α → α → Bool) (g : β → Bool × α)
    (q : List β) : ∀ (ns : List α) (y : α), y ∈ ns →
    y ∈ q.foldl (fun ns qf => if (g qf).1 then setInsert lt (g qf).2 ns else ns) ns := by
  induction q with
  | nil => intro ns y h; exact h
  | cons a as ih =>
    intro ns y h
    simp only [List.foldl_cons]
    apply ih
    split
    · exact mem_setInsert_of_mem _ _ _ _ h
    · exact h

theorem foldl_setInsert_filter_has {α β : Type} (lt : α → α → Bool) (g : β → Bool × α)
    (q : List β) : ∀ (ns : List α) (qf : β), qf ∈ q → (g qf).1 = true →
    lt (g qf).2 (g qf).2 = false →
    ∃ y ∈ q.foldl (fun ns qf => if (g qf).1 then setInsert lt (g qf).2 ns else ns) ns,
      lt (g qf).2 y = false ∧ lt y (g qf).2 = false := by
  induction q with
  | nil => intro ns qf h; cases h
  | cons a as ih =>
    intro ns qf h hg hirr
    simp only [List.foldl_cons]
    rcases List.mem_cons.mp h with h | h
    · subst h
      rw [if_pos hg]
      obtain ⟨y, hy, h1, h2⟩ := setInsert_has_equiv lt (g qf).2 ns hirr
      exact ⟨y, foldl_setInsert_filter_mono lt g as _ y hy, h1, h2⟩
    · exact ih _ qf h hg hirr

theorem foldl_mono_of_step {α β : Type} (step : List α → β → List α)
    (hmono : ∀ acc b y, y ∈ acc → y ∈ step acc b) :
    ∀ (bs : List β) (acc : List α) (y : α), y ∈ acc → y ∈ bs.foldl step acc
  | [], _, _, h => h
  | b :: bs, acc, y, h => by
    simp only [List.foldl_cons]
    exact foldl_mono_of_step step hmono bs _ y (hmono acc b y h)

theorem foldl_has_of_step {α β : Type} (step : List α → β → List α) (P : α → Prop)
    (hmono : ∀ acc b y, y ∈ acc → y ∈ step acc b) :
    ∀ (bs : List β) (acc : List α) (b : β), b ∈ bs → (∀ acc, ∃ y ∈ step acc b, P y) →
    ∃ y ∈ bs.foldl step acc, P y
  | [], _, _, h, _ => by cases h
  | a :: as, acc, b, h, hstep => by
    simp only [List.foldl_cons]
    rcases List.mem_cons.mp h with h | h
    · subst h
      obtain ⟨y, hy, hp⟩ := hstep acc
      exact ⟨y, foldl_mono_of_step step hmono as _ y hy, hp⟩
    · exact foldl_has_of_step step P hmono as _ b h hstep

theorem forall₂_mem_left {α β : Type} {R : α → β → Prop} :
    ∀ {l1 : List α} {l2 : List β}, List.Forall₂ R l1 l2 → ∀ a ∈ l1, ∃ b ∈ l2, R a b
  | _, _, List.Forall₂.nil, a, ha => by cases ha
  | _, _, List.Forall₂.cons h1 h2, a, ha => by
    rcases List.mem_cons.mp ha with ha | ha
    · exact ⟨_, List.mem_cons_self _ _, ha ▸ h1⟩
    · obtain ⟨b, hb, hr⟩ := forall₂_mem_left h2 a ha
      exact ⟨b, List.mem_cons_of_mem _ hb, hr⟩

/-- Two equivalent substitutions of the sets built by the matching functions follow the
target substitution together. -/
theorem agree_of_equiv (T : List Term) (hT : NoAny T) (t a y : Substitution)
    (ha : SubInv a) (hy : SubInv y) (hka : KeysFrom T a) (hky : KeysFrom T y)
    (h1 : Substitution.lt a y = false) (h2 : Substitution.lt y a = false)
    (hag : Agree t a) :
    Agree t y ∧ ∀ n v, nget a.mapping n = some v → ∃ w, nget y.mapping n = some w := by
  obtain ⟨s1, s2⟩ := sameMap_of_incomparable T hT a y ha hy hka hky h1 h2
  constructor
  · intro n v hv
    obtain ⟨w, hw, hwn⟩ := s2 n v hv
    rw [← hwn]
    exact hag n w hw
  · intro n v hv
    obtain ⟨w, hw, _⟩ := s1 n v hv
    exact ⟨w, hw⟩

/-- One round of `unifyWithState` keeps a substitution that follows the target
substitution, and binds every parameter of the literal of the round in it. -/
theorem unifyStep_complete (T : List Term) (hT : NoAny T) (t : Substitution)
    (hinj : ∀ p ∈ T, ∀ q ∈ T, tauName t p.name = tauName t q.name → p.name = q.name)
    (xs : List Literal) (hxs : ∀ c ∈ xs, ∀ q ∈ c.parameters, q.isVariable = false)
    (f : Literal) (hfT : ∀ p ∈ f.parameters, p ∈ T)
    (hclash : ∀ p ∈ f.parameters, p.isVariable = true →
      ∀ c ∈ xs, ∀ q ∈ c.parameters, p.name ≠ q.name)
    (subs : List Substitution)
    (hall : ∀ s ∈ subs, SubInv s ∧ KeysFrom T s ∧
      ∀ p ∈ f.parameters, p.isVariable = false → Bound s p p.name)
    (sub : Substitution) (hsub : sub ∈ subs) (hag : Agree t sub)
    (c : Literal) (hc : c ∈ xs) (hpred : c.pred.eq f.pred = true)
    (hlen : c.parameters.length = f.parameters.length)
    (hpos : List.Forall₂ (fun p q => q.name = tauName t p.name ∧
      (p.isVariable = true → typeSubsumes p.type q.type = true)) f.parameters c.parameters) :
    ∃ y ∈ unifyStep xs f subs, Agree t y ∧
      (∀ n v, nget sub.mapping n = some v → ∃ w, nget y.mapping n = some w) ∧
      ∀ p ∈ f.parameters, ∃ w, nget y.mapping p.name = some w := by
  obtain ⟨hinv, hkeys, hcb⟩ := hall sub hsub
  have hgood : ∀ y ∈ unifyStep xs f subs, SubInv y ∧ KeysFrom T y := by
    intro y hy
    obtain ⟨_, _, _, hi, _⟩ := unifyStep_sound xs f subs hxs hclash
      (fun s hs => ⟨(hall s hs).1, (hall s hs).2.2⟩) y hy
    exact ⟨hi, unifyStep_keysFrom T xs f subs (fun s hs => ⟨(hall s hs).1, (hall s hs).2.1⟩)
      hfT y hy⟩
  have hq : c ∈ query xs (sub.apply f) := by
    unfold query
    rw [List.mem_filter]
    refine ⟨hc, ?_⟩
    simp only [Substitution.apply, List.length_map, hpred, hlen, beq_self_eq_true,
      Bool.true_and]
    exact queryCorresponds_complete t sub hinv hag _ _ hpos hcb
  have hqlen : ((query xs (sub.apply f)).length == 0) = false := by
    cases hql : query xs (sub.apply f) with
    | nil => rw [hql] at hq; cases hq
    | cons a as => rfl
  have hposn : List.Forall₂ (fun p q => q.name = tauName t p.name) f.parameters
      c.parameters := hpos.imp (fun (a b : Term) h => h.1)
  have hcg := hxs c hc
  have hex : ∃ y ∈ unifyStep xs f subs, ∃ a, SubInv a ∧ KeysFrom T a ∧ Agree t a ∧
      (∀ n v, nget sub.mapping n = some v → ∃ w, nget a.mapping n = some w) ∧
      (∀ p ∈ f.parameters, ∃ w, nget a.mapping p.name = some w) ∧
      Substitution.lt a y = false ∧ Substitution.lt y a = false := by
    unfold unifyStep
    by_cases hgr : (sub.apply f).grounded = true
    · refine foldl_has_of_step _ (fun y => ∃ a, SubInv a ∧ KeysFrom T a ∧ Agree t a ∧
        (∀ n v, nget sub.mapping n = some v → ∃ w, nget a.mapping n = some w) ∧
        (∀ p ∈ f.parameters, ∃ w, nget a.mapping p.name = some w) ∧
        Substitution.lt a y = false ∧ Substitution.lt y a = false) ?_ subs [] sub hsub ?_
      · intro acc b y hy
        dsimp only
        split
        · exact hy
        · split
          · exact mem_setInsert_of_mem _ _ _ _ hy
          · exact foldl_setInsert_filter_mono Substitution.lt
              (fun (qf : Literal) => b.setSafeMultiple (b.apply f).parameters qf.parameters true) _ _ y hy
      · intro acc
        dsimp only
        rw [hqlen]
        simp only [Bool.false_eq_true, if_false, hgr, if_true]
        obtain ⟨y, hy, h1, h2⟩ := setInsert_has_equiv Substitution.lt sub acc
          (substitution_lt_irrefl sub hinv.sorted)
        refine ⟨y, hy, sub, hinv, hkeys, hag, fun n v hv => ⟨v, hv⟩, ?_, h1, h2⟩
        intro p hp
        cases hn : nget sub.mapping p.name with
        | some w => exact ⟨w, rfl⟩
        | none =>
          exfalso
          have hpg : (sub.applyTerm p).isVariable = false := by
            have := (grounded_iff (sub.apply f)).mp hgr (sub.applyTerm p)
              (by simp only [Substitution.apply]; exact List.mem_map_of_mem _ hp)
            exact this
          rw [applyTerm_of_nget_none sub p hn] at hpg
          obtain ⟨v, hv, _⟩ := hcb p hp hpg
          rw [hn] at hv
          cases hv
    · have hks := applied_positions T t sub hag _ _ hposn hfT hcb
      obtain ⟨e1, e2, e3⟩ := setSafeMultiple_complete T t hinj _ _ sub hinv hkeys hag hcg hks
      obtain ⟨i1, i2, i3⟩ := setSafeMultiple_spec _ _ sub hinv hcg
        (by simp [hlen]) e1
      have hb := bound_of_setSafe sub _ hinv i2 f.parameters c.parameters i3 hcb
        (fun p hp hv q hq => hclash p hp hv c hc q hq)
      refine foldl_has_of_step _ (fun y => ∃ a, SubInv a ∧ KeysFrom T a ∧ Agree t a ∧
        (∀ n v, nget sub.mapping n = some v → ∃ w, nget a.mapping n = some w) ∧
        (∀ p ∈ f.parameters, ∃ w, nget a.mapping p.name = some w) ∧
        Substitution.lt a y = false ∧ Substitution.lt y a = false) ?_ subs [] sub hsub ?_
      · intro acc b y hy
        dsimp only
        split
        · exact hy
        · split
          · exact mem_setInsert_of_mem _ _ _ _ hy
          · exact foldl_setInsert_filter_mono Substitution.lt
              (fun (qf : Literal) => b.setSafeMultiple (b.apply f).parameters qf.parameters true) _ _ y hy
      · intro acc
        dsimp only
        rw [hqlen]
        simp only [Bool.false_eq_true, if_false, hgr]
        obtain ⟨y, hy, h1, h2⟩ := foldl_setInsert_filter_has Substitution.lt
          (fun (qf : Literal) => sub.setSafeMultiple (sub.apply f).parameters qf.parameters true)
          (query xs (sub.apply f)) acc c hq e1 (substitution_lt_irrefl _ i1.sorted)
        refine ⟨y, hy, _, i1, e3, e2, fun n v hv => ⟨v, i2 n v hv⟩, ?_, h1, h2⟩
        intro p hp
        obtain ⟨q, _, v, hv, _⟩ := forall₂_mem_left hb p hp
        exact ⟨v, hv⟩
  obtain ⟨y, hy, a, ha1, ha2, ha3, ha4, ha5, h1, h2⟩ := hex
  obtain ⟨hg1, hg2⟩ := hgood y hy
  obtain ⟨r1, r2⟩ := agree_of_equiv T hT t a y ha1 hg1 ha2 hg2 h1 h2 ha3
  refine ⟨y, hy, r1, ?_, ?_⟩
  · intro n v hv
    obtain ⟨w, hw⟩ := ha4 n v hv
    exact r2 n w hw
  · intro p hp
    obtain ⟨w, hw⟩ := ha5 p hp
    exact r2 _ w hw

/-- The function `unifyWithState` keeps a substitution that follows the target
substitution and binds every parameter of the literals to unify. -/
theorem unifyWithState_complete (T : List Term) (hT : NoAny T) (t : Substitution)
    (hinj : ∀ p ∈ T, ∀ q ∈ T, tauName t p.name = tauName t q.name → p.name = q.name)
    (xs : List Literal) (hxs : ∀ c ∈ xs, ∀ q ∈ c.parameters, q.isVariable = false) :
    ∀ (fs : List Literal) (subs : List Substitution),
      (∀ f ∈ fs, (∀ p ∈ f.parameters, p ∈ T) ∧
        (∀ p ∈ f.parameters, p.isVariable = true →
          ∀ c ∈ xs, ∀ q ∈ c.parameters, p.name ≠ q.name) ∧
        ∃ c ∈ xs, c.pred.eq f.pred = true ∧ c.parameters.length = f.parameters.length ∧
          List.Forall₂ (fun p q => q.name = tauName t p.name ∧
            (p.isVariable = true → typeSubsumes p.type q.type = true))
            f.parameters c.parameters) →
      (∀ s ∈ subs, SubInv s ∧ KeysFrom T s ∧
        ∀ p ∈ T, p.isVariable = false → Bound s p p.name) →
      ∀ sub ∈ subs, Agree t sub →
      ∃ y ∈ unifyWithState fs xs subs, SubInv y ∧ KeysFrom T y ∧ Agree t y ∧
        (∀ n v, nget sub.mapping n = some v → ∃ w, nget y.mapping n = some w) ∧
        ∀ f ∈ fs, ∀ p ∈ f.parameters, ∃ w, nget y.mapping p.name = some w
  | [], subs, _, hall, sub, hsub, hag => by
    simp only [unifyWithState]
    exact ⟨sub, hsub, (hall sub hsub).1, (hall sub hsub).2.1, hag, fun n v hv => ⟨v, hv⟩,
      fun f hf => by cases hf⟩
  | f :: fs, subs, hfs, hall, sub, hsub, hag => by
    obtain ⟨hfT, hclash, c, hc, hpred, hlen, hpos⟩ := hfs f (List.mem_cons_self _ _)
    obtain ⟨y1, hy1, a1, a2, a3⟩ := unifyStep_complete T hT t hinj xs hxs f hfT hclash subs
      (fun s hs => ⟨(hall s hs).1, (hall s hs).2.1,
        fun p hp hv => (hall s hs).2.2 p (hfT p hp) hv⟩)
      sub hsub hag c hc hpred hlen hpos
    have hne : ((unifyStep xs f subs).length == 0) = false := by
      cases hl : unifyStep xs f subs with
      | nil => rw [hl] at hy1; cases hy1
      | cons a as => rfl
    have hall1 : ∀ s ∈ unifyStep xs f subs, SubInv s ∧ KeysFrom T s ∧
        ∀ p ∈ T, p.isVariable = false → Bound s p p.name := by
      intro s hs
      obtain ⟨s0, hs0, he, hi, _⟩ := unifyStep_sound xs f subs hxs hclash
        (fun s hs => ⟨(hall s hs).1, fun p hp hv => (hall s hs).2.2 p (hfT p hp) hv⟩) s hs
      exact ⟨hi, unifyStep_keysFrom T xs f subs
        (fun s hs => ⟨(hall s hs).1, (hall s hs).2.1⟩) hfT s hs,
        fun p hp hv => bound_ext ((hall s0 hs0).2.2 p hp hv) he⟩
    obtain ⟨y, hy, b1, b2, b3, b4, b5⟩ := unifyWithState_complete T hT t hinj xs hxs fs
      (unifyStep xs f subs) (fun g hg => hfs g (List.mem_cons_of_mem _ hg)) hall1 y1 hy1 a1
    simp only [unifyWithState, hne, Bool.false_eq_true, if_false]
    refine ⟨y, hy, b1, b2, b3, ?_, ?_⟩
    · intro n v hv
      obtain ⟨w, hw⟩ := a2 n v hv
      exact b4 n w hw
    · intro g hg p hp
      rcases List.mem_cons.mp hg with hg | hg
      · rw [hg] at hp
        obtain ⟨w, hw⟩ := a3 p hp
        exact b4 _ w hw
      · exact b5 g hg p hp

theorem forall₂_of_paramsEq : ∀ (n : Nat) (as bs : List Term), paramsEq n as bs = true →
    as.length = n → bs.length = n → List.Forall₂ (fun a b => a.eq b = true) as bs
  | 0, [], [], _, _, _ => List.Forall₂.nil
  | 0, _ :: _, _, _, h, _ => by simp at h
  | 0, [], _ :: _, _, _, h => by simp at h
  | n + 1, [], _, _, h, _ => by simp at h
  | n + 1, _ :: _, [], _, _, h => by simp at h
  | n + 1, a :: as, b :: bs, h, h1, h2 => by
    simp only [paramsEq] at h
    by_cases hne : a.ne b = true
    · rw [if_pos hne] at h
      cases h
    · rw [if_neg hne] at h
      refine List.Forall₂.cons ?_ (forall₂_of_paramsEq n as bs h (by simpa using h1)
        (by simpa using h2))
      unfold Term.ne at hne
      simpa using hne

theorem identityFold_entries : ∀ (cs : List Term) (s : Substitution) (n : String) (v : Term),
    nget (cs.foldl (fun s c => if !(s.get c).isSome then s.set c c else s) s).mapping n
      = some v →
    nget s.mapping n = some v ∨ ∃ c ∈ cs, c.name = n ∧ v.name = n
  | [], _, _, _, h => Or.inl h
  | c :: cs, s, n, v, h => by
    simp only [List.foldl_cons] at h
    rcases identityFold_entries cs _ n v h with h1 | ⟨d, hd, hdn⟩
    · cases hg : s.get c with
      | some w =>
        simp only [hg, Option.isSome_some, Bool.not_true, Bool.false_eq_true, if_false] at h1
        exact Or.inl h1
      | none =>
        simp only [hg, Option.isSome_none, Bool.not_false, if_true, Substitution.set,
          nget_mapSet] at h1
        by_cases hcn : c.name = n
        · simp only [hcn, if_true, Option.some.injEq] at h1
          exact Or.inr ⟨c, List.mem_cons_self _ _, hcn, by rw [← h1, hcn]⟩
        · simp only [hcn, if_false] at h1
          exact Or.inl h1
    · exact Or.inr ⟨d, List.mem_cons_of_mem _ hd, hdn⟩

theorem unifyWithState_good (T : List Term) (xs : List Literal)
    (hxs : ∀ c ∈ xs, ∀ q ∈ c.parameters, q.isVariable = false) :
    ∀ (fs : List Literal) (subs : List Substitution),
      (∀ f ∈ fs, (∀ p ∈ f.parameters, p ∈ T) ∧
        ∀ p ∈ f.parameters, p.isVariable = true →
          ∀ c ∈ xs, ∀ q ∈ c.parameters, p.name ≠ q.name) →
      (∀ s ∈ subs, SubInv s ∧ KeysFrom T s ∧
        ∀ p ∈ T, p.isVariable = false → Bound s p p.name) →
      ∀ y ∈ unifyWithState fs xs subs, SubInv y ∧ KeysFrom T y
  | [], subs, _, hall, y, hy => by
    simp only [unifyWithState] at hy
    exact ⟨(hall y hy).1, (hall y hy).2.1⟩
  | f :: fs, subs, hfs, hall, y, hy => by
    obtain ⟨hfT, hclash⟩ := hfs f (List.mem_cons_self _ _)
    simp only [unifyWithState] at hy
    split at hy
    · cases hy
    · refine unifyWithState_good T xs hxs fs (unifyStep xs f subs)
        (fun g hg => hfs g (List.mem_cons_of_mem _ hg)) ?_ y hy
      intro s hs
      obtain ⟨s0, hs0, he, hi, _⟩ := unifyStep_sound xs f subs hxs hclash
        (fun s hs => ⟨(hall s hs).1, fun p hp hv => (hall s hs).2.2 p (hfT p hp) hv⟩) s hs
      exact ⟨hi, unifyStep_keysFrom T xs f subs
        (fun s hs => ⟨(hall s hs).1, (hall s hs).2.1⟩) hfT s hs,
        fun p hp hv => bound_ext ((hall s0 hs0).2.2 p hp hv) he⟩

theorem subInv_clean (y : Substitution) (hinv : SubInv y) : SubInv y.cleanConstants := by
  obtain ⟨hfl, hsub, _, _⟩ := cleanConstants_spec y hinv.sorted
  exact ⟨List.Pairwise.sublist hsub hinv.sorted, hfl.trans hinv.flag,
    fun e he => hinv.ground e (hsub.subset he),
    fun e1 he1 e2 he2 => hinv.inj e1 (hsub.subset he1) e2 (hsub.subset he2)⟩

theorem keysFrom_clean (T : List Term) (y : Substitution) (hinv : SubInv y)
    (hk : KeysFrom T y) : KeysFrom T y.cleanConstants := by
  obtain ⟨_, hsub, _, _⟩ := cleanConstants_spec y hinv.sorted
  exact fun e he => hk e (hsub.subset he)

theorem cleanSubs_has (subs : List Substitution) (y : Substitution) (hy : y ∈ subs)
    (hs : MapSorted y.cleanConstants.mapping) :
    ∃ z ∈ cleanSubs subs, Substitution.lt y.cleanConstants z = false ∧
      Substitution.lt z y.cleanConstants = false := by
  unfold cleanSubs
  refine foldl_has_of_step _ _ ?_ subs [] y hy ?_
  · intro acc b z hz
    exact mem_setInsert_of_mem _ _ _ _ hz
  · intro acc
    exact setInsert_has_equiv Substitution.lt _ acc (substitution_lt_irrefl _ hs)

theorem raw_positions (T : List Term) (t : Substitution) :
    ∀ (ps cs : List Term), List.Forall₂ (fun p c => c.name = tauName t p.name) ps cs →
      (∀ p ∈ ps, p ∈ T) → (∀ p ∈ ps, p.isVariable = false → tauName t p.name = p.name) →
      List.Forall₂ (fun k c => k.name = c.name ∨
        (k ∈ T ∧ k.isVariable = true ∧ tauName t k.name = c.name)) ps cs
  | [], [], _, _, _ => List.Forall₂.nil
  | [], _ :: _, h, _, _ => by cases h
  | _ :: _, [], h, _, _ => by cases h
  | p :: ps, c :: cs, h, hT, hc => by
    cases h with
    | cons h1 h2 =>
      refine List.Forall₂.cons ?_ (raw_positions T t ps cs h2
        (fun q hq => hT q (List.mem_cons_of_mem _ hq))
        (fun q hq => hc q (List.mem_cons_of_mem _ hq)))
      cases hpv : p.isVariable with
      | false => exact Or.inl ((hc p (List.mem_cons_self _ _) hpv).symm.trans h1.symm)
      | true => exact Or.inr ⟨hT p (List.mem_cons_self _ _), rfl, h1.symm⟩

/-- The core of the matching functions, from the empty substitution: when the constants
`cs`, the parameters `ps` of the action literal and the literals `fs` follow a match `t`
into the parameters `qs` and the facts `xs`, the action literals unify and the cleaned
result holds a substitution that binds exactly the variables, each to an image of the name
chosen by `t`. -/
theorem matching_core (T : List Term) (hT : NoAny T) (t : Substitution)
    (hinj : ∀ p ∈ T, ∀ q ∈ T, tauName t p.name = tauName t q.name → p.name = q.name)
    (htc : ∀ p ∈ T, p.isVariable = false → tauName t p.name = p.name)
    (cs : List Term) (hcs : ∀ c ∈ cs, c.isVariable = false ∧ c ∈ T)
    (hrep : ∀ p ∈ T, p.isVariable = false → ∃ c ∈ cs, c.name = p.name)
    (ps qs : List Term) (hqs : ∀ q ∈ qs, q.isVariable = false)
    (hpq : List.Forall₂ (fun p c => c.name = tauName t p.name) ps qs)
    (xs : List Literal) (hxs : ∀ c ∈ xs, ∀ q ∈ c.parameters, q.isVariable = false)
    (fs : List Literal) (hpsT : ∀ p ∈ ps, p ∈ T)
    (hfsT : ∀ f ∈ fs, ∀ p ∈ f.parameters, p ∈ T)
    (hcov : ∀ p ∈ T, p.isVariable = true → p ∈ ps ∨ ∃ f ∈ fs, p ∈ f.parameters)
    (hclash : ∀ p ∈ T, p.isVariable = true →
      (∀ q ∈ qs, p.name ≠ q.name) ∧ ∀ c ∈ xs, ∀ q ∈ c.parameters, p.name ≠ q.name)
    (hdata : ∀ f ∈ fs, ∃ c ∈ xs, c.pred.eq f.pred = true ∧
      c.parameters.length = f.parameters.length ∧
      List.Forall₂ (fun p q => q.name = tauName t p.name ∧
        (p.isVariable = true → typeSubsumes p.type q.type = true))
        f.parameters c.parameters) :
    ((cs.foldl (fun s c => if !(s.get c).isSome then s.set c c else s)
      Substitution.empty).setSafeMultiple ps qs true).1 = true ∧
    ∃ z ∈ cleanSubs (unifyWithState fs xs
        [((cs.foldl (fun s c => if !(s.get c).isSome then s.set c c else s)
          Substitution.empty).setSafeMultiple ps qs true).2]),
      SubInv z ∧
      (∀ n v, nget z.mapping n = some v → v.name = tauName t n ∧
        ∃ p ∈ T, p.isVariable = true ∧ p.name = n) ∧
      ∀ p ∈ T, p.isVariable = true → ∃ v, nget z.mapping p.name = some v := by
  have hs0 : SubInv Substitution.empty :=
    ⟨List.Pairwise.nil, rfl, (fun e he => by cases he), (fun e he => by cases he)⟩
  obtain ⟨hi1, he1, hb1⟩ := identityFold_spec cs Substitution.empty hs0
    (fun c hc => (hcs c hc).1)
    (by intro c hc v hv; simp [nget, Substitution.empty] at hv)
  have hk1 := identityFold_keysFrom T cs Substitution.empty
    (fun e he => by cases he) (fun c hc => (hcs c hc).2)
  have ha1 : Agree t (cs.foldl (fun s c => if !(s.get c).isSome then s.set c c else s)
      Substitution.empty) := by
    intro n v hv
    rcases identityFold_entries _ _ n v hv with h | ⟨c, hc, hcn, hvn⟩
    · simp [nget, Substitution.empty] at h
    · rw [hvn, ← hcn, htc c (hcs c hc).2 (hcs c hc).1]
  have hcb : ∀ p ∈ T, p.isVariable = false →
      Bound (cs.foldl (fun s c => if !(s.get c).isSome then s.set c c else s)
        Substitution.empty) p p.name := by
    intro p hp hv
    obtain ⟨c, hc, hn⟩ := hrep p hp hv
    obtain ⟨v, hv1, hv2⟩ := hb1 c hc
    exact ⟨v, hn ▸ hv1, hv2.trans hn⟩
  have hraw := raw_positions T t _ _ hpq hpsT (fun p hp hv => htc p (hpsT p hp) hv)
  obtain ⟨e1, e2, e3⟩ := setSafeMultiple_complete T t hinj _ _ _ hi1 hk1 ha1 hqs hraw
  obtain ⟨hi2, he2, hp2⟩ := setSafeMultiple_spec _ _ _ hi1 hqs hpq.length_eq e1
  have hact := bound_of_setSafe_raw _ _ he2 _ _ hp2
    (fun p hp hv => hcb p (hpsT p hp) hv)
    (fun p hp hv c hc => (hclash p (hpsT p hp) hv).1 c hc)
  have hfs : ∀ f ∈ fs, (∀ p ∈ f.parameters, p ∈ T) ∧
      ∀ p ∈ f.parameters, p.isVariable = true →
        ∀ c ∈ xs, ∀ q ∈ c.parameters, p.name ≠ q.name :=
    fun f hf => ⟨hfsT f hf, fun p hp hv => (hclash p (hfsT f hf p hp) hv).2⟩
  have hall : ∀ s ∈ [((cs.foldl (fun s c => if !(s.get c).isSome then s.set c c else s)
      Substitution.empty).setSafeMultiple ps qs true).2],
      SubInv s ∧ KeysFrom T s ∧ ∀ p ∈ T, p.isVariable = false → Bound s p p.name := by
    intro s hs
    rw [List.mem_singleton] at hs
    subst hs
    exact ⟨hi2, e3, fun p hp hv => bound_ext (hcb p hp hv) he2⟩
  obtain ⟨y, hy, y1, y2, y3, y4, y5⟩ := unifyWithState_complete T hT t hinj xs hxs fs _
    (fun f hf => ⟨(hfs f hf).1, (hfs f hf).2, hdata f hf⟩) hall _
    (List.mem_singleton_self _) e2
  have hgood := unifyWithState_good T xs hxs fs _ hfs hall
  have hbound : ∀ p ∈ T, p.isVariable = true → ∃ w, nget y.mapping p.name = some w := by
    intro p hp hpv
    rcases hcov p hp hpv with hp | ⟨f, hf, hpf⟩
    · obtain ⟨q, _, v, hv, _⟩ := forall₂_mem_left hact p hp
      exact y4 _ v hv
    · exact y5 f hf p hpf
  have himg : ∀ p ∈ T, p.isVariable = true → tauName t p.name ≠ p.name := by
    intro p hp hpv
    rcases hcov p hp hpv with hp1 | ⟨f, hf, hpf⟩
    · obtain ⟨c, hc, hcn⟩ := forall₂_mem_left hpq p hp1
      rw [← hcn]
      exact ((hclash p hp hpv).1 c hc).symm
    · obtain ⟨c, hc, _, _, hpos⟩ := hdata f hf
      obtain ⟨q, hq, hqn, _⟩ := forall₂_mem_left hpos p hpf
      rw [← hqn]
      exact ((hclash p hp hpv).2 c hc q hq).symm
  obtain ⟨cfl, csub, cnoid, ckeep⟩ := cleanConstants_spec y y1.sorted
  have hyc := subInv_clean y y1
  obtain ⟨z, hz, hz1, hz2⟩ := cleanSubs_has _ y hy hyc.sorted
  obtain ⟨y0, hy0, hzy0⟩ := mem_cleanSubs _ _ hz
  have hzinv : SubInv z := hzy0 ▸ subInv_clean y0 (hgood y0 hy0).1
  have hzkeys : KeysFrom T z :=
    hzy0 ▸ keysFrom_clean T y0 (hgood y0 hy0).1 (hgood y0 hy0).2
  obtain ⟨s1, s2⟩ := sameMap_of_incomparable T hT y.cleanConstants z hyc hzinv
    (keysFrom_clean T y y1 y2) hzkeys hz1 hz2
  refine ⟨e1, z, hz, hzinv, ?_, ?_⟩
  · intro n v hv
    obtain ⟨w, hw, hwn⟩ := s2 n v hv
    obtain ⟨k, hk, hkn⟩ := mem_of_nget _ _ _ hw
    have hky := csub.subset hk
    have hwy : nget y.mapping n = some w := hkn ▸ nget_of_mem _ y1.sorted (k, w) hky
    have hwt : w.name = tauName t n := y3 n w hwy
    refine ⟨hwn ▸ hwt, k, y2 (k, w) hky, ?_, hkn⟩
    cases hkv : k.isVariable with
    | true => rfl
    | false =>
      exfalso
      have h1 : w.name = k.name := by
        rw [hwt, ← hkn]
        exact htc k (y2 (k, w) hky) hkv
      have := cnoid (k, w) hk
      rw [Term.eq_of_name k w h1.symm] at this
      cases this
  · intro p hp hpv
    obtain ⟨w, hw⟩ := hbound p hp hpv
    obtain ⟨k, hk, hkn⟩ := mem_of_nget _ _ _ hw
    have hne : k.eq w = false := by
      cases hc : k.eq w with
      | false => rfl
      | true =>
        exfalso
        have hwg := y1.ground (k, w) hk
        have h1 : k.name = w.name := (Term.eq_iff_name_right k w hwg).mp hc
        exact himg p hp hpv (by rw [← y3 _ w hw, ← h1, hkn])
    have hkc := ckeep (k, w) hk hne
    obtain ⟨v, hv, _⟩ := s1 p.name w (hkn ▸ nget_of_mem _ hyc.sorted (k, w) hkc)
    exact ⟨v, hv⟩

theorem prematch_constants (r : ActionRule) :
    (∀ c ∈ addConstantsOfSet r.preconditions (addConstants r.actionLiteral.parameters []),
      c.isVariable = false ∧ c ∈ r.preTerms) ∧
    ∀ p ∈ r.preTerms, p.isVariable = false →
      ∃ c ∈ addConstantsOfSet r.preconditions (addConstants r.actionLiteral.parameters []),
        c.name = p.name := by
  constructor
  · intro c hc
    rcases mem_addConstantsOfSet _ _ _ hc with hc | ⟨hv, l, hl, hcl⟩
    · rcases mem_addConstants _ _ _ hc with hc | ⟨h1, h2⟩
      · cases hc
      · exact ⟨h2, mem_preTerms_action r c h1⟩
    · exact ⟨hv, mem_preTerms_pre r l c hl hcl⟩
  · intro p hp hv
    unfold ActionRule.preTerms at hp
    rcases List.mem_append.mp hp with hp | hp
    · obtain ⟨c, hc, hn⟩ := addConstants_has _ [] p hp hv
      exact ⟨c, addConstantsOfSet_mono _ _ c hc, hn⟩
    · simp only [List.mem_flatMap] at hp
      obtain ⟨l, hl, hpl⟩ := hp
      exact addConstantsOfSet_has _ _ l p hl hpl hv

/-- The substitution of `prematchingSubs` that follows a given match: it binds exactly the
variables of the rule, each to an image of the name chosen by the match. -/
theorem prematchingSubs_complete_core (r x : ActionRule) (t : Substitution)
    (hT : NoAny r.preTerms)
    (hinj : ∀ p ∈ r.preTerms, ∀ q ∈ r.preTerms,
      tauName t p.name = tauName t q.name → p.name = q.name)
    (htc : ∀ p ∈ r.preTerms, p.isVariable = false → tauName t p.name = p.name)
    (hxact : x.actionLiteral.grounded = true)
    (hxpre : ∀ c ∈ x.preconditions, c.grounded = true)
    (hclash : ∀ p ∈ r.preTerms, p.isVariable = true → ∀ q ∈ x.preTerms, p.name ≠ q.name)
    (hcompat : Literal.compatible r.actionLiteral x.actionLiteral = true)
    (hactpos : List.Forall₂ (fun p c => c.name = tauName t p.name)
      r.actionLiteral.parameters x.actionLiteral.parameters)
    (hpredata : ∀ f ∈ r.preconditions, ∃ c ∈ x.preconditions, c.pred.eq f.pred = true ∧
      c.parameters.length = f.parameters.length ∧
      List.Forall₂ (fun p q => q.name = tauName t p.name ∧
        (p.isVariable = true → typeSubsumes p.type q.type = true))
        f.parameters c.parameters) :
    ∃ z ∈ r.prematchingSubs x Substitution.empty, SubInv z ∧
      (∀ n v, nget z.mapping n = some v → v.name = tauName t n ∧
        ∃ p ∈ r.preTerms, p.isVariable = true ∧ p.name = n) ∧
      ∀ p ∈ r.preTerms, p.isVariable = true → ∃ v, nget z.mapping p.name = some v := by
  obtain ⟨e1, z, hz, hrest⟩ := matching_core r.preTerms hT t hinj htc _
    (prematch_constants r).1 (prematch_constants r).2
    r.actionLiteral.parameters x.actionLiteral.parameters ((grounded_iff _).mp hxact) hactpos
    x.preconditions (fun c hc => (grounded_iff c).mp (hxpre c hc)) r.preconditions
    (mem_preTerms_action r) (fun f hf p hp => mem_preTerms_pre r f p hf hp)
    (by
      intro p hp _
      unfold ActionRule.preTerms at hp
      simpa only [List.mem_append, List.mem_flatMap] using hp)
    (fun p hp hv => ⟨fun q hq => hclash p hp hv q (mem_preTerms_action x q hq),
      fun c hc q hq => hclash p hp hv q (mem_preTerms_pre x c q hc hq)⟩)
    hpredata
  refine ⟨z, ?_, hrest⟩
  unfold ActionRule.prematchingSubs
  simp only [hcompat, Bool.not_true, Bool.false_eq_true, if_false, e1]
  exact hz

theorem forall₂_imp_mem {α β : Type} {R Q : α → β → Prop} : ∀ {l1 : List α} {l2 : List β},
    List.Forall₂ R l1 l2 → (∀ a ∈ l1, ∀ b ∈ l2, R a b → Q a b) → List.Forall₂ Q l1 l2
  | _, _, List.Forall₂.nil, _ => List.Forall₂.nil
  | _, _, List.Forall₂.cons h1 h2, h =>
    List.Forall₂.cons (h _ (List.mem_cons_self _ _) _ (List.mem_cons_self _ _) h1)
      (forall₂_imp_mem h2 (fun a ha b hb =>
        h a (List.mem_cons_of_mem _ ha) b (List.mem_cons_of_mem _ hb)))

theorem literal_eq_parts (l o : Literal) (h : l.eq o = true) :
    l.positive = o.positive ∧ l.pred.eq o.pred = true ∧
      paramsEq l.pred.arity l.parameters o.parameters = true := by
  unfold Literal.eq at h
  by_cases h1 : (l.positive != o.positive) = true
  · rw [if_pos h1] at h
    cases h
  · rw [if_neg h1] at h
    by_cases h2 : (!(l.pred.eq o.pred)) = true
    · rw [if_pos h2] at h
      cases h
    · rw [if_neg h2] at h
      exact ⟨by simpa using h1, by simpa using h2, h⟩

theorem hasName_keys_iff (m : List (Term × Term)) (hs : MapSorted m) (n : String) :
    hasName (m.map (fun e => e.1)) n ↔ ∃ v, nget m n = some v := by
  constructor
  · rintro ⟨k, hk, hkn⟩
    obtain ⟨e, he, hek⟩ := List.mem_map.mp hk
    exact ⟨e.2, by rw [← hkn, ← hek]; exact nget_of_mem m hs e he⟩
  · rintro ⟨v, hv⟩
    obtain ⟨k, hk, hkn⟩ := mem_of_nget _ _ _ hv
    exact ⟨k, List.mem_map.mpr ⟨(k, v), hk, rfl⟩, hkn⟩

/-- A substitution with the keys of `t`, bound to images of the same names, is equal to
`t` for `Substitution::operator==`. -/
theorem substitution_eq_of_same_map (z t : Substitution) (hz : MapSorted z.mapping)
    (ht : MapSorted t.mapping) (hflag : z.injective = t.injective)
    (h1 : ∀ n v, nget z.mapping n = some v → ∃ w, nget t.mapping n = some w ∧ w.name = v.name)
    (h2 : ∀ n w, nget t.mapping n = some w → ∃ v, nget z.mapping n = some v) :
    Substitution.eq z t = true := by
  have hnames := names_eq_of_sorted (z.mapping.map (fun e => e.1)) (t.mapping.map (fun e => e.1))
    (by rw [List.pairwise_map]; exact hz) (by rw [List.pairwise_map]; exact ht)
    (by
      intro n
      rw [hasName_keys_iff _ hz, hasName_keys_iff _ ht]
      constructor
      · rintro ⟨v, hv⟩
        obtain ⟨w, hw, _⟩ := h1 n v hv
        exact ⟨w, hw⟩
      · rintro ⟨w, hw⟩
        exact h2 n w hw)
  have hlen : z.mapping.length = t.mapping.length := by
    have := congrArg List.length hnames
    simpa using this
  unfold Substitution.eq
  simp only [hflag, bne_self_eq_false, Bool.false_eq_true, if_false, hlen]
  rw [List.all_eq_true]
  intro a ha
  obtain ⟨w, hw, hwn⟩ := h1 _ _ (nget_of_mem _ hz a ha)
  have hget : t.get a.1 = some w := by rw [Substitution.get_eq_nget]; exact hw
  unfold Substitution.get at hget
  cases hf : mapFind a.1 t.mapping with
  | none => rw [hf] at hget; cases hget
  | some b =>
    rw [hf] at hget
    simp only [Option.map_some', Option.some.injEq] at hget
    simp only [Term.ne, hget, Term.eq_of_name w a.2 hwn, Bool.not_true, Bool.not_false]

/-- C5, failing inputs. Four matches `t` that `prematchingSubs` does not return. (1) For
the rule `act(?a)` and the example `act(a)`, `t = \x7b?a/a\x7d`: the result holds only
the empty substitution, because the variable and the constant have the same name. (2) For
the rule `act(?ANY) : p(X)` and the example `act(a)` in the state `p(b)`, `p(c)`,
`t = \x7bANY/a, X/c\x7d`: the result holds only `\x7bANY/a, X/b\x7d`, because the order on
substitutions does not tell the two matches apart. (3) For the rule `act() : p(X, Y)` and
the example `act()` in the state `p(a)` with `p` of arity 1, `t = \x7bX/a, Y/b\x7d`:
`t(p(X, Y))` equals the fact `p(a)` on its first parameter, and the result is empty.
(4) For the rule `act(?a, a)` and the example `act(b, b)`, `t = \x7b?a/b\x7d`: `t` sends
the variable and the constant named `a` to `b`, and the result is empty. -/
theorem C5_counterexample :
    ((Substitution.apply ⟨[(mkVar "a", mkConst "a")], true⟩ ruleActVar.actionLiteral).eq
        ruleActConst.actionLiteral = true ∧
      ruleActVar.prematchingSubs ruleActConst Substitution.empty = [⟨[], true⟩] ∧
      inList Substitution.eq (ruleActVar.prematchingSubs ruleActConst Substitution.empty)
        ⟨[(mkVar "a", mkConst "a")], true⟩ = false) ∧
    ((Substitution.apply ⟨[(mkVar "ANY", mkConst "a"), (mkVar "X", mkConst "c")], true⟩
        ruleAnyAct.actionLiteral).eq exampleTwoFacts.actionLiteral = true ∧
      inList Literal.eq exampleTwoFacts.preconditions
        (Substitution.apply ⟨[(mkVar "ANY", mkConst "a"), (mkVar "X", mkConst "c")], true⟩
          (mkLit "p" [mkVar "X"])) = true ∧
      ruleAnyAct.prematchingSubs exampleTwoFacts Substitution.empty =
        [⟨[(mkVar "ANY", mkConst "a"), (mkVar "X", mkConst "b")], true⟩] ∧
      inList Substitution.eq (ruleAnyAct.prematchingSubs exampleTwoFacts Substitution.empty)
        ⟨[(mkVar "ANY", mkConst "a"), (mkVar "X", mkConst "c")], true⟩ = false) ∧
    ((Substitution.apply ⟨[(mkVar "X", mkConst "a"), (mkVar "Y", mkConst "b")], true⟩
        ruleBinary.actionLiteral).eq exampleUnary.actionLiteral = true ∧
      inList Literal.eq exampleUnary.preconditions
        (Substitution.apply ⟨[(mkVar "X", mkConst "a"), (mkVar "Y", mkConst "b")], true⟩
          ⟨⟨"p", 2⟩, [mkVar "X", mkVar "Y"], true⟩) = true ∧
      ruleBinary.prematchingSubs exampleUnary Substitution.empty = []) ∧
    ((Substitution.apply ⟨[(mkVar "a", mkConst "b")], true⟩ ruleVarConst.actionLiteral).eq
        exampleSame.actionLiteral = true ∧
      ruleVarConst.prematchingSubs exampleSame Substitution.empty = []) := by
  decide

/-- C5, amended. Let the example `x` be ground with facts whose parameter vectors have the
length of their arity, let the action literals of `r` and `x` have as many parameters as
the arity of the action predicate, and let a precondition of `r` and a fact of `x` with
the same predicate name have as many parameters. Let no variable of `r` be named `ANY`
or carry the name of a constant of `r` or of a term of `x`. Let `t` be a substitution with
the flag `injective` and a sorted map, injective, with constant images, defined exactly on
the variables of the action literal and of the preconditions of `r`, sending no variable
to a constant of `r`, and sending a variable of a precondition only to parameters of
facts whose type its type subsumes. If `t` maps the action literal of `r` to the action
literal of `x` and every precondition of `r` to a fact of `x`, then `t` is an element of
`r.prematchingSubs(x)`. -/
theorem C5_prematchingSubs_complete (r x : ActionRule) (t : Substitution)
    (hxact : x.actionLiteral.grounded = true)
    (hxpre : ∀ c ∈ x.preconditions,
      c.grounded = true ∧ c.parameters.length = c.pred.arity)
    (hrlen : r.actionLiteral.parameters.length = r.actionLiteral.pred.arity)
    (hxlen : x.actionLiteral.parameters.length = r.actionLiteral.pred.arity)
    (harity : ∀ f ∈ r.preconditions, ∀ c ∈ x.preconditions, c.pred.eq f.pred = true →
      f.parameters.length = c.parameters.length)
    (hany : ∀ p ∈ r.preTerms, p.isVariable = true → p.name ≠ "ANY")
    (hclash : ∀ p ∈ r.preTerms, p.isVariable = true →
      ∀ q ∈ r.preTerms ++ x.preTerms, q.isVariable = false → p.name ≠ q.name)
    (htflag : t.injective = true) (htsorted : MapSorted t.mapping)
    (htinj : t.checkInjective = true)
    (htg : ∀ e ∈ t.mapping, e.2.isVariable = false)
    (htkeys : ∀ e ∈ t.mapping, ∃ p ∈ r.preTerms, p.isVariable = true ∧ p.name = e.1.name)
    (htdef : ∀ p ∈ r.preTerms, p.isVariable = true → ∃ e ∈ t.mapping, e.1.name = p.name)
    (htconst : ∀ e ∈ t.mapping, ∀ c ∈ r.preTerms, c.isVariable = false → e.2.name ≠ c.name)
    (htype : ∀ f ∈ r.preconditions, ∀ c ∈ x.preconditions, ∀ p ∈ f.parameters,
      ∀ q ∈ c.parameters, p.isVariable = true → (t.applyTerm p).name = q.name →
      typeSubsumes p.type q.type = true)
    (hact : (t.apply r.actionLiteral).eq x.actionLiteral = true)
    (hpre : ∀ f ∈ r.preconditions, inList Literal.eq x.preconditions (t.apply f) = true) :
    inList Substitution.eq (r.prematchingSubs x Substitution.empty) t = true := by
  have hxa := (grounded_iff _).mp hxact
  have hxp : ∀ q ∈ x.preTerms, q.isVariable = false := by
    intro q hq
    unfold ActionRule.preTerms at hq
    rcases List.mem_append.mp hq with hq | hq
    · exact hxa q hq
    · obtain ⟨c, hc, hqc⟩ := List.mem_flatMap.mp hq
      exact (grounded_iff c).mp (hxpre c hc).1 q hqc
  have hclashx : ∀ p ∈ r.preTerms, p.isVariable = true → ∀ q ∈ x.preTerms, p.name ≠ q.name :=
    fun p hp hv q hq => hclash p hp hv q (List.mem_append_right _ hq) (hxp q hq)
  -- the constants of the rule are no keys of `t`
  have htc : ∀ p ∈ r.preTerms, p.isVariable = false → tauName t p.name = p.name := by
    intro p hp hv
    unfold tauName
    cases hn : nget t.mapping p.name with
    | none => rfl
    | some v =>
      exfalso
      obtain ⟨k, hk, hkn⟩ := mem_of_nget _ _ _ hn
      obtain ⟨p1, hp1, hp1v, hp1n⟩ := htkeys (k, v) hk
      exact hclash p1 hp1 hp1v p (List.mem_append_left _ hp) hv (hp1n.trans hkn)
  have hkey : ∀ p ∈ r.preTerms, p.isVariable = true →
      ∃ v, nget t.mapping p.name = some v := by
    intro p hp hv
    obtain ⟨e, he, hen⟩ := htdef p hp hv
    exact ⟨e.2, hen ▸ nget_of_mem _ htsorted e he⟩
  have hpw := pairwise_of_checkInjective t htg htinj
  have hsym : Symmetric (fun (p q : Term × Term) => p.2.name ≠ q.2.name) :=
    fun _ _ h => Ne.symm h
  have hinj : ∀ p ∈ r.preTerms, ∀ q ∈ r.preTerms,
      tauName t p.name = tauName t q.name → p.name = q.name := by
    intro p hp q hq hpq
    cases hpv : p.isVariable with
    | false =>
      cases hqv : q.isVariable with
      | false => rw [htc p hp hpv, htc q hq hqv] at hpq; exact hpq
      | true =>
        exfalso
        obtain ⟨v, hv⟩ := hkey q hq hqv
        obtain ⟨k, hk, _⟩ := mem_of_nget _ _ _ hv
        rw [htc p hp hpv] at hpq
        unfold tauName at hpq
        rw [hv] at hpq
        exact htconst (k, v) hk p hp hpv hpq.symm
    | true =>
      obtain ⟨v, hv⟩ := hkey p hp hpv
      obtain ⟨k, hk, hkn⟩ := mem_of_nget _ _ _ hv
      cases hqv : q.isVariable with
      | false =>
        exfalso
        rw [htc q hq hqv] at hpq
        unfold tauName at hpq
        rw [hv] at hpq
        exact htconst (k, v) hk q hq hqv hpq
      | true =>
        obtain ⟨w, hw⟩ := hkey q hq hqv
        obtain ⟨k1, hk1, hk1n⟩ := mem_of_nget _ _ _ hw
        unfold tauName at hpq
        rw [hv, hw] at hpq
        by_cases he : ((k, v) : Term × Term) = (k1, w)
        · have : k = k1 := (Prod.mk.inj he).1
          rw [← hkn, ← hk1n, this]
        · exact absurd hpq (hpw.forall hsym hk hk1 he)
  obtain ⟨a1, a2, a3⟩ := literal_eq_parts _ _ hact
  have hcompat : Literal.compatible r.actionLiteral x.actionLiteral = true := by
    simp only [Substitution.apply] at a1 a2
    simp [Literal.compatible, a1, a2]
  have hactpos : List.Forall₂ (fun p c => c.name = tauName t p.name)
      r.actionLiteral.parameters x.actionLiteral.parameters := by
    have h := forall₂_of_paramsEq _ _ _ a3 (by simp [Substitution.apply, hrlen])
      (by simp [Substitution.apply, hxlen])
    simp only [Substitution.apply] at h
    rw [List.forall₂_map_left_iff] at h
    refine forall₂_imp_mem h ?_
    intro p _ c hc hpc
    rw [← applyTerm_name]
    exact ((Term.eq_iff_name_right _ c (hxa c hc)).mp hpc).symm
  have hpredata : ∀ f ∈ r.preconditions, ∃ c ∈ x.preconditions, c.pred.eq f.pred = true ∧
      c.parameters.length = f.parameters.length ∧
      List.Forall₂ (fun p q => q.name = tauName t p.name ∧
        (p.isVariable = true → typeSubsumes p.type q.type = true))
        f.parameters c.parameters := by
    intro f hf
    have h := hpre f hf
    unfold inList at h
    rw [List.any_eq_true] at h
    obtain ⟨c, hc, hcf⟩ := h
    obtain ⟨_, b2, b3⟩ := literal_eq_parts _ _ hcf
    simp only [Substitution.apply] at b2 b3
    have hl := harity f hf c hc b2
    refine ⟨c, hc, b2, hl.symm, ?_⟩
    have h := forall₂_of_paramsEq _ _ _ b3 (hxpre c hc).2
      (by rw [List.length_map, hl]; exact (hxpre c hc).2)
    rw [List.forall₂_map_right_iff] at h
    refine forall₂_imp_mem h.flip ?_
    intro p hp q hq hqp
    have hqg := (grounded_iff c).mp (hxpre c hc).1 q hq
    have hn : q.name = (t.applyTerm p).name := (Term.eq_iff_name_left q _ hqg).mp hqp
    exact ⟨hn.trans (applyTerm_name t p), fun hv => htype f hf c hc p hp q hq hv hn.symm⟩
  obtain ⟨z, hz, zi, z1, z2⟩ := prematchingSubs_complete_core r x t hany hinj htc hxact
    (fun c hc => (hxpre c hc).1) hclashx hcompat hactpos hpredata
  unfold inList
  rw [List.any_eq_true]
  refine ⟨z, hz, substitution_eq_of_same_map z t zi.sorted htsorted (zi.flag.trans htflag.symm)
    ?_ ?_⟩
  · intro n v hv
    obtain ⟨hvn, p, hp, hpv, hpn⟩ := z1 n v hv
    obtain ⟨w, hw⟩ := hkey p hp hpv
    rw [hpn] at hw
    refine ⟨w, hw, ?_⟩
    rw [hvn]
    unfold tauName
    rw [hw]
  · intro n w hw
    obtain ⟨k, hk, hkn⟩ := mem_of_nget _ _ _ hw
    obtain ⟨p, hp, hpv, hpn⟩ := htkeys (k, w) hk
    obtain ⟨v, hv⟩ := z2 p hp hpv
    exact ⟨v, by rw [← hkn, ← hpn]; exact hv⟩

/-- C5, witness: the rule and the example of the test `PrematchingTests` with several
matches, and the match `\x7bX/a, Y/b, Z/d\x7d`. -/
theorem C5_prematchingSubs_complete_witness :
    (Substitution.apply
        ⟨[(mkVar "X", mkConst "a"), (mkVar "Y", mkConst "b"), (mkVar "Z", mkConst "d")], true⟩
        rulePrematch.actionLiteral).eq examplePrematch.actionLiteral = true ∧
    (∀ f ∈ rulePrematch.preconditions, inList Literal.eq examplePrematch.preconditions
      (Substitution.apply
        ⟨[(mkVar "X", mkConst "a"), (mkVar "Y", mkConst "b"), (mkVar "Z", mkConst "d")], true⟩
        f) = true) ∧
    inList Substitution.eq (rulePrematch.prematchingSubs examplePrematch Substitution.empty)
      ⟨[(mkVar "X", mkConst "a"), (mkVar "Y", mkConst "b"), (mkVar "Z", mkConst "d")], true⟩
      = true :=
  ⟨by decide, by decide,
    C5_prematchingSubs_complete rulePrematch examplePrematch
      ⟨[(mkVar "X", mkConst "a"), (mkVar "Y", mkConst "b"), (mkVar "Z", mkConst "d")], true⟩
      (by decide) (by decide) (by decide) (by decide) (by decide) (by decide) (by decide)
      (by decide) (by unfold MapSorted; decide) (by decide) (by decide) (by decide)
      (by decide) (by decide) (by decide) (by decide) (by decide)⟩

/-! ## Self-coverage of ground examples -/

theorem tauName_empty (n : String) : tauName Substitution.empty n = n := rfl

/-- C19 (counterexample): on the injective substitution `\x7ba/b\x7d`, `setSafe(a, a)`
returns true although `a` is mapped, to `b` and not to `a`; on the injective substitution
`\x7bX/a\x7d`, `setSafe(a, a)` returns true although `a` is unmapped and has the preimage
`X`. -/
theorem C19_counterexample :
    (((⟨[(mkConst "a", mkConst "b")], true⟩ : Substitution).setSafe
        (mkConst "a") (mkConst "a") false).1 = true ∧
      (⟨[(mkConst "a", mkConst "b")], true⟩ : Substitution).get (mkConst "a") =
        some (mkConst "b") ∧
      (mkConst "b").eq (mkConst "a") = false) ∧
    (((⟨[(mkVar "X", mkConst "a")], true⟩ : Substitution).setSafe
        (mkConst "a") (mkConst "a") false).1 = true ∧
      (⟨[(mkVar "X", mkConst "a")], true⟩ : Substitution).get (mkConst "a") = none ∧
      (⟨[(mkVar "X", mkConst "a")], true⟩ : Substitution).getInverse (mkConst "a") =
        some (mkVar "X")) := by
  decide

/-- C19 (amended): `setSafe(x, y)` returns true only if `x == y`, or `x` was unmapped and,
when the substitution is injective, `y` had no preimage, or `x` was already mapped to a
term equal to `y`. -/
theorem C19_setSafe_true_only_if (s : Substitution) (x y : Term) (onlyVar : Bool)
    (h : (s.setSafe x y onlyVar).1 = true) :
    x.eq y = true ∨
    (s.get x = none ∧ (s.injective = true → s.getInverse y = none)) ∨
    ∃ w, s.get x = some w ∧ w.eq y = true := by
  unfold Substitution.setSafe at h
  by_cases hxy : x.eq y = true
  · exact Or.inl hxy
  · rw [if_neg hxy] at h
    by_cases hov : (onlyVar && !x.isVariable) = true
    · rw [if_pos hov] at h
      cases h
    · rw [if_neg hov] at h
      cases hg : s.get x with
      | some w =>
        rw [hg] at h
        exact Or.inr (Or.inr ⟨w, rfl, h⟩)
      | none =>
        rw [hg] at h
        refine Or.inr (Or.inl ⟨rfl, fun hinj => ?_⟩)
        cases hi : s.getInverse y with
        | none => rfl
        | some k =>
          rw [hinj, hi] at h
          simp at h

/-- C19 (witness): the amended statement on the assignment of `X` to `a` in the empty
substitution. -/
theorem C19_setSafe_true_only_if_witness :
    (Substitution.empty.setSafe (mkVar "X") (mkConst "a") false).1 = true ∧
    ((mkVar "X").eq (mkConst "a") = true ∨
    (Substitution.empty.get (mkVar "X") = none ∧
      (Substitution.empty.injective = true →
        Substitution.empty.getInverse (mkConst "a") = none)) ∨
    ∃ w, Substitution.empty.get (mkVar "X") = some w ∧ w.eq (mkConst "a") = true) :=
  ⟨by decide, C19_setSafe_true_only_if Substitution.empty (mkVar "X") (mkConst "a") false
    (by decide)⟩

/-! ## Queries on a state -/

theorem queryCorresponds_iff : ∀ (ps fs : List Term), ps.length = fs.length →
    (queryCorresponds ps fs = true ↔
      List.Forall₂ (fun p f => (p.isVariable = false ∧ p.eq f = true) ∨
        (p.isVariable = true ∧ typeSubsumes p.type f.type = true)) ps fs)
  | [], [], _ => by simp [queryCorresponds]
  | [], _ :: _, h => by cases h
  | _ :: _, [], h => by cases h
  | p :: ps, f :: fs, h => by
    have hl : ps.length = fs.length := by simpa using h
    have ih := queryCorresponds_iff ps fs hl
    rw [List.forall₂_cons, ← ih]
    have e : queryCorresponds (p :: ps) (f :: fs) =
        (if (!p.isVariable && p.ne f) = true then false
        else if (p.isVariable && !typeSubsumes p.type f.type) = true then false
        else queryCorresponds ps fs) := rfl
    rw [e]
    cases hv : p.isVariable <;> cases he : p.eq f <;>
      cases ht : typeSubsumes p.type f.type <;> simp [Term.ne, he]

/-- C20: `query(P)` holds exactly the facts of the state with the predicate and the number
of parameters of `P` such that, at every position, the parameter of `P` is a constant
equal to the parameter of the fact, or a variable whose type subsumes its type. -/
theorem C20_query_exact (facts : List Literal) (P F : Literal) :
    F ∈ query facts P ↔
      F ∈ facts ∧ F.pred.eq P.pred = true ∧ F.parameters.length = P.parameters.length ∧
      List.Forall₂ (fun p f => (p.isVariable = false ∧ p.eq f = true) ∨
        (p.isVariable = true ∧ typeSubsumes p.type f.type = true))
        P.parameters F.parameters := by
  unfold query
  rw [List.mem_filter]
  constructor
  · rintro ⟨hm, hc⟩
    simp only [Bool.and_eq_true, beq_iff_eq] at hc
    obtain ⟨⟨h1, h2⟩, h3⟩ := hc
    exact ⟨hm, h1, h2, (queryCorresponds_iff _ _ h2.symm).mp h3⟩
  · rintro ⟨hm, h1, h2, h3⟩
    refine ⟨hm, ?_⟩
    simp only [Bool.and_eq_true, beq_iff_eq]
    exact ⟨⟨h1, h2⟩, (queryCorresponds_iff _ _ h2.symm).mpr h3⟩

/-! ## The inverse of a substitution -/

theorem mem_mapSet_iff_new (a b : Term) : ∀ (m : List (Term × Term)) (e : Term × Term),
    nget m a.name = none → (e ∈ mapSet a b m ↔ e ∈ m ∨ e = (a, b))
  | [], e, _ => by simp [mapSet]
  | (k1, v1) :: rest, e, hn => by
    rw [nget_cons] at hn
    by_cases hk : k1.name = a.name
    · simp [hk] at hn
    · rw [if_neg hk] at hn
      have ih := mem_mapSet_iff_new a b rest e hn
      simp only [mapSet]
      by_cases h1 : a.lt k1 = true
      · rw [if_pos h1]
        simp only [List.mem_cons]
        tauto
      · rw [if_neg h1]
        by_cases h2 : k1.lt a = true
        · rw [if_pos h2]
          simp only [List.mem_cons, ih]
          tauto
        · exfalso
          apply hk
          exact Term.name_eq_of_not_lt k1 a (by simpa using h2) (by simpa using h1)

/-- When `checkInjective` returns true, no two entries have images of the same name. -/
theorem names_of_checkInjective_fold : ∀ (m : List (Term × Term)) (vals : List Term),
    (m.foldl (fun (st : Bool × List Term) pair =>
      if !st.1 then st
      else if inList Term.eq st.2 pair.2 then (false, st.2)
      else (true, setInsert Term.lt pair.2 st.2)) (true, vals)).1 = true →
    (∀ y ∈ vals, ∀ e ∈ m, y.eq e.2 = false) ∧ m.Pairwise (fun p q => p.2.eq q.2 = false)
  | [], _, _ => ⟨(fun _ _ _ he => by cases he), List.Pairwise.nil⟩
  | e :: es, vals, h => by
    simp only [List.foldl_cons, Bool.not_true, Bool.false_eq_true, if_false] at h
    by_cases hin : inList Term.eq vals e.2 = true
    · rw [if_pos hin, checkInjective_fold_false] at h
      cases h
    · rw [if_neg hin] at h
      obtain ⟨ih1, ih2⟩ := names_of_checkInjective_fold es _ h
      have hvals : ∀ y ∈ vals, y.eq e.2 = false := by
        intro y hy
        cases hye : y.eq e.2 with
        | false => rfl
        | true =>
          exfalso
          apply hin
          simp only [inList, List.any_eq_true]
          exact ⟨y, hy, hye⟩
      obtain ⟨y, hy, h1, h2⟩ := setInsert_has_equiv Term.lt e.2 vals (Term.lt_irrefl _)
      refine ⟨?_, List.Pairwise.cons ?_ ih2⟩
      · intro y1 hy1 e1 he1
        rcases List.mem_cons.mp he1 with he1 | he1
        · rw [he1]
          exact hvals y1 hy1
        · exact ih1 y1 (mem_setInsert_of_mem _ _ _ _ hy1) e1 he1
      · intro e1 he1
        rcases mem_setInsert Term.lt e.2 y vals hy with hye | hyv
        · rw [← hye]
          exact ih1 y hy e1 he1
        · exfalso
          have hn : y.name = e.2.name := (Term.name_eq_of_not_lt e.2 y h1 h2).symm
          have := hvals y hyv
          rw [Term.eq_of_name y e.2 hn] at this
          cases this

theorem Term.name_ne_of_eq_false (a b : Term) (h : a.eq b = false) : a.name ≠ b.name := by
  intro hn
  rw [Term.eq_of_name a b hn] at h
  cases h

theorem inverseFold_spec : ∀ (m : List (Term × Term)) (inv : Substitution),
    MapSorted inv.mapping →
    m.Pairwise (fun p q => p.2.name ≠ q.2.name) →
    (∀ e ∈ m, nget inv.mapping e.2.name = none) →
    MapSorted (m.foldl (fun inv p => inv.set p.2 p.1) inv).mapping ∧
    ∀ e, e ∈ (m.foldl (fun inv p => inv.set p.2 p.1) inv).mapping ↔
      e ∈ inv.mapping ∨ (e.2, e.1) ∈ m
  | [], inv, hs, _, _ => ⟨hs, fun e => by simp⟩
  | p :: m, inv, hs, hp, hfree => by
    simp only [List.foldl_cons]
    rw [List.pairwise_cons] at hp
    have hnew : ∀ e ∈ m, nget (inv.set p.2 p.1).mapping e.2.name = none := by
      intro e he
      simp only [Substitution.set, nget_mapSet]
      rw [if_neg (hp.1 e he)]
      exact hfree e (List.mem_cons_of_mem _ he)
    obtain ⟨ih1, ih2⟩ := inverseFold_spec m (inv.set p.2 p.1)
      (mapSorted_mapSet _ _ _ hs) hp.2 hnew
    refine ⟨ih1, fun e => ?_⟩
    rw [ih2 e]
    simp only [Substitution.set]
    rw [mem_mapSet_iff_new p.2 p.1 _ e (hfree p (List.mem_cons_self _ _))]
    simp only [List.mem_cons]
    constructor
    · rintro ((h | h) | h)
      · exact Or.inl h
      · exact Or.inr (Or.inl (by rw [h]))
      · exact Or.inr (Or.inr h)
    · rintro (h | h | h)
      · exact Or.inl (Or.inl h)
      · refine Or.inl (Or.inr ?_)
        rw [← h]
      · exact Or.inr h

/-- C16: for a substitution without two entries of equal image, the mapping of `inverse()`
holds exactly the reversed entries, it maps the image of every entry back to its key, and
applying the substitution and then its inverse to a key gives the key back. -/
theorem C16_inverse_reverses (s : Substitution) (hs : MapSorted s.mapping)
    (hinj : s.checkInjective = true) :
    (∀ e, e ∈ s.inverse.mapping ↔ (e.2, e.1) ∈ s.mapping) ∧
    ∀ x y, (x, y) ∈ s.mapping →
      s.inverse.get y = some x ∧ s.inverse.applyTerm (s.applyTerm x) = x := by
  have hp : s.mapping.Pairwise (fun p q => p.2.name ≠ q.2.name) :=
    List.Pairwise.imp (fun {a b : Term × Term} (h : a.2.eq b.2 = false) =>
      Term.name_ne_of_eq_false a.2 b.2 h) (names_of_checkInjective_fold s.mapping [] hinj).2
  obtain ⟨h1, h2⟩ := inverseFold_spec s.mapping ⟨[], true⟩ List.Pairwise.nil hp
    (fun _ _ => rfl)
  have hrev : ∀ e, e ∈ s.inverse.mapping ↔ (e.2, e.1) ∈ s.mapping := by
    intro e
    unfold Substitution.inverse
    rw [h2 e]
    simp
  refine ⟨hrev, fun x y hxy => ?_⟩
  have hget : s.inverse.get y = some x := by
    rw [Substitution.get_eq_nget]
    exact nget_of_mem _ h1 (y, x) ((hrev (y, x)).mpr hxy)
  refine ⟨hget, ?_⟩
  have hy : s.applyTerm x = y :=
    applyTerm_of_nget_some s x y (nget_of_mem _ hs (x, y) hxy)
  rw [hy]
  rw [Substitution.get_eq_nget] at hget
  exact applyTerm_of_nget_some _ y x hget

/-- C16 (witness): the substitution `\x7ba/X, b/Y\x7d` of the test `SubstitutionOps`. -/
theorem C16_inverse_reverses_witness :
    MapSorted (⟨[(mkConst "a", mkVar "X"), (mkConst "b", mkVar "Y")], true⟩ :
      Substitution).mapping ∧
    (⟨[(mkConst "a", mkVar "X"), (mkConst "b", mkVar "Y")], true⟩ :
      Substitution).checkInjective = true ∧
    ((∀ e, e ∈ (⟨[(mkConst "a", mkVar "X"), (mkConst "b", mkVar "Y")], true⟩ :
        Substitution).inverse.mapping ↔
      (e.2, e.1) ∈ (⟨[(mkConst "a", mkVar "X"), (mkConst "b", mkVar "Y")], true⟩ :
        Substitution).mapping) ∧
    ∀ x y, (x, y) ∈ (⟨[(mkConst "a", mkVar "X"), (mkConst "b", mkVar "Y")], true⟩ :
        Substitution).mapping →
      (⟨[(mkConst "a", mkVar "X"), (mkConst "b", mkVar "Y")], true⟩ :
        Substitution).inverse.get y = some x ∧
      (⟨[(mkConst "a", mkVar "X"), (mkConst "b", mkVar "Y")], true⟩ :
        Substitution).inverse.applyTerm
        ((⟨[(mkConst "a", mkVar "X"), (mkConst "b", mkVar "Y")], true⟩ :
          Substitution).applyTerm x) = x) :=
  ⟨by unfold MapSorted; decide, by decide,
    C16_inverse_reverses ⟨[(mkConst "a", mkVar "X"), (mkConst "b", mkVar "Y")], true⟩
      (by unfold MapSorted; decide) (by decide)⟩

/-! ## The merge of two substitutions -/

/-- The update of `result` by `merge` for the entry `p` of the left substitution. -/
theorem mergeStep_nget (other result : Substitution) (p : Term × Term) (n : String) :
    nget (match other.get p.2 with
      | some to2 => if to2.ne p.1 then result.set p.1 to2 else result
      | none => result.set p.1 p.2).mapping n =
    if p.1.name = n then
      (match other.get p.2 with
        | some to2 => if to2.ne p.1 then some to2 else nget result.mapping n
        | none => some p.2)
    else nget result.mapping n := by
  cases hg : other.get p.2 with
  | none =>
    simp only [Substitution.set, nget_mapSet]
  | some to2 =>
    by_cases hne : to2.ne p.1 = true
    · simp only [hne, if_true, Substitution.set, nget_mapSet]
    · simp only [hne, Bool.false_eq_true, if_false, ite_self]

theorem mergeFold_nget_other (other : Substitution) (n : String) :
    ∀ (m : List (Term × Term)) (result : Substitution), (∀ e ∈ m, e.1.name ≠ n) →
    nget (m.foldl (fun result p =>
      match other.get p.2 with
      | some to2 => if to2.ne p.1 then result.set p.1 to2 else result
      | none => result.set p.1 p.2) result).mapping n = nget result.mapping n
  | [], _, _ => rfl
  | p :: m, result, h => by
    simp only [List.foldl_cons]
    rw [mergeFold_nget_other other n m _ (fun e he => h e (List.mem_cons_of_mem _ he)),
      mergeStep_nget, if_neg (h p (List.mem_cons_self _ _))]

theorem mergeFold_nget_key (other : Substitution) :
    ∀ (m : List (Term × Term)) (result : Substitution) (p : Term × Term),
    MapSorted m → p ∈ m →
    nget (m.foldl (fun result p =>
      match other.get p.2 with
      | some to2 => if to2.ne p.1 then result.set p.1 to2 else result
      | none => result.set p.1 p.2) result).mapping p.1.name =
    (match other.get p.2 with
      | some to2 => if to2.ne p.1 then some to2 else nget result.mapping p.1.name
      | none => some p.2)
  | [], _, _, _, hp => by cases hp
  | q :: m, result, p, hs, hp => by
    simp only [List.foldl_cons]
    unfold MapSorted at hs
    rw [List.pairwise_cons] at hs
    rcases List.mem_cons.mp hp with h | h
    · subst h
      rw [mergeFold_nget_other other p.1.name m _
        (fun e he => (Term.name_ne_of_lt _ _ (hs.1 e he)).symm), mergeStep_nget, if_pos rfl]
    · rw [mergeFold_nget_key other m _ p hs.2 h, mergeStep_nget,
        if_neg (Term.name_ne_of_lt _ _ (hs.1 p h))]

/-- C17 (counterexample): (1) with `s1 = \x7ba/b\x7d` and `s2 = \x7ba/d, b/a\x7d`, `s1` maps
`a` to `b` and `s2` maps `b` to `a`, yet the merge maps `a` to `d`; (2) with
`s1 = \x7ba/b, b/d\x7d` and `s2 = \x7bb/c\x7d` the merge maps `a` to `c` but `b` to `d`. -/
theorem C17_counterexample :
    ((⟨[(mkConst "a", mkConst "b")], true⟩ : Substitution).get (mkConst "a") =
        some (mkConst "b") ∧
      (⟨[(mkConst "a", mkConst "d"), (mkConst "b", mkConst "a")], true⟩ : Substitution).get
        (mkConst "b") = some (mkConst "a") ∧
      ((⟨[(mkConst "a", mkConst "b")], true⟩ : Substitution).merge
        ⟨[(mkConst "a", mkConst "d"), (mkConst "b", mkConst "a")], true⟩).get (mkConst "a") =
        some (mkConst "d")) ∧
    ((⟨[(mkConst "a", mkConst "b"), (mkConst "b", mkConst "d")], true⟩ : Substitution).get
        (mkConst "a") = some (mkConst "b") ∧
      (⟨[(mkConst "b", mkConst "c")], true⟩ : Substitution).get (mkConst "b") =
        some (mkConst "c") ∧
      ((⟨[(mkConst "a", mkConst "b"), (mkConst "b", mkConst "d")], true⟩ : Substitution).merge
        ⟨[(mkConst "b", mkConst "c")], true⟩).get (mkConst "a") = some (mkConst "c") ∧
      ((⟨[(mkConst "a", mkConst "b"), (mkConst "b", mkConst "d")], true⟩ : Substitution).merge
        ⟨[(mkConst "b", mkConst "c")], true⟩).get (mkConst "b") = some (mkConst "d")) := by
  decide

/-- C17 (amended): when `s1` has the entry `a/b` and `s2` maps `b` to a term `c` different
from `a`, the merge maps `a` to `c`; and it still maps `b` to `c` when `b` is not a key of
`s1`. -/
theorem C17_merge_bridge (s1 s2 : Substitution) (a b c : Term)
    (hs1 : MapSorted s1.mapping) (hab : (a, b) ∈ s1.mapping) (hbc : s2.get b = some c)
    (hca : c.ne a = true) :
    (s1.merge s2).get a = some c ∧ (s1.get b = none → (s1.merge s2).get b = some c) := by
  constructor
  · rw [Substitution.get_eq_nget]
    unfold Substitution.merge
    have h := mergeFold_nget_key s2 s1.mapping ⟨s2.mapping, false⟩ (a, b) hs1 hab
    simp only [hbc, hca, if_true] at h
    exact h
  · intro hb
    rw [Substitution.get_eq_nget] at hb hbc ⊢
    unfold Substitution.merge
    rw [mergeFold_nget_other s2 b.name s1.mapping ⟨s2.mapping, false⟩]
    · exact hbc
    · intro e he hn
      rw [← hn, nget_of_mem _ hs1 e he] at hb
      cases hb

/-- C17 (witness): the bridge of the test `SubstitutionOps`, `b/Y` in `s1` and `Y/Z` in
`s2`. -/
theorem C17_merge_bridge_witness :
    MapSorted (⟨[(mkConst "b", mkVar "Y")], true⟩ : Substitution).mapping ∧
    (mkConst "b", mkVar "Y") ∈ (⟨[(mkConst "b", mkVar "Y")], true⟩ : Substitution).mapping ∧
    (⟨[(mkVar "Y", mkVar "Z")], true⟩ : Substitution).get (mkVar "Y") = some (mkVar "Z") ∧
    (mkVar "Z").ne (mkConst "b") = true ∧
    (((⟨[(mkConst "b", mkVar "Y")], true⟩ : Substitution).merge
        ⟨[(mkVar "Y", mkVar "Z")], true⟩).get (mkConst "b") = some (mkVar "Z") ∧
      ((⟨[(mkConst "b", mkVar "Y")], true⟩ : Substitution).get (mkVar "Y") = none →
        ((⟨[(mkConst "b", mkVar "Y")], true⟩ : Substitution).merge
          ⟨[(mkVar "Y", mkVar "Z")], true⟩).get (mkVar "Y") = some (mkVar "Z"))) :=
  ⟨by unfold MapSorted; decide, by decide, by decide, by decide,
    C17_merge_bridge ⟨[(mkConst "b", mkVar "Y")], true⟩ ⟨[(mkVar "Y", mkVar "Z")], true⟩
      (mkConst "b") (mkVar "Y") (mkVar "Z") (by unfold MapSorted; decide) (by decide)
      (by decide) (by decide)⟩

/-- C18 (counterexample): in the test `SubstitutionOps` both substitutions map `e`, `s1` to
`U` and `s2` to `Y`, and `U` is not a key of `s2`; the merge maps `e` to `U`. -/
theorem C18_counterexample :
    (⟨[(mkConst "e", mkVar "U")], true⟩ : Substitution).get (mkConst "e") = some (mkVar "U") ∧
    (⟨[(mkConst "e", mkVar "Y")], true⟩ : Substitution).get (mkConst "e") = some (mkVar "Y") ∧
    (⟨[(mkConst "e", mkVar "Y")], true⟩ : Substitution).contains (mkVar "U") = false ∧
    ((⟨[(mkConst "e", mkVar "U")], true⟩ : Substitution).merge
      ⟨[(mkConst "e", mkVar "Y")], true⟩).get (mkConst "e") = some (mkVar "U") ∧
    (mkVar "U").eq (mkVar "Y") = false := by
  decide

/-- C18 (amended): the merge keeps the entry of `s1` for every key of `s1` whose image is
not a key of `s2`, whether `s2` maps that key or not; the entries of `s2` are kept on the
keys that `s1` does not map. -/
theorem C18_merge_left_biased (s1 s2 : Substitution) (hs1 : MapSorted s1.mapping) :
    (∀ k v, (k, v) ∈ s1.mapping → s2.contains v = false → (s1.merge s2).get k = some v) ∧
    ∀ k, s1.get k = none → (s1.merge s2).get k = s2.get k := by
  constructor
  · intro k v hkv hc
    have hg : s2.get v = none := by
      unfold Substitution.contains at hc
      unfold Substitution.get
      cases hf : mapFind v s2.mapping with
      | none => rfl
      | some e => rw [hf] at hc; cases hc
    rw [Substitution.get_eq_nget]
    unfold Substitution.merge
    have h := mergeFold_nget_key s2 s1.mapping ⟨s2.mapping, false⟩ (k, v) hs1 hkv
    simp only [hg] at h
    exact h
  · intro k hk
    rw [Substitution.get_eq_nget] at hk ⊢
    rw [Substitution.get_eq_nget]
    unfold Substitution.merge
    rw [mergeFold_nget_other s2 k.name s1.mapping ⟨s2.mapping, false⟩]
    intro e he hn
    rw [← hn, nget_of_mem _ hs1 e he] at hk
    cases hk

/-- C18 (witness): the key `e` of the test `SubstitutionOps`. -/
theorem C18_merge_left_biased_witness :
    MapSorted (⟨[(mkConst "e", mkVar "U")], true⟩ : Substitution).mapping ∧
    ((∀ k v, (k, v) ∈ (⟨[(mkConst "e", mkVar "U")], true⟩ : Substitution).mapping →
        (⟨[(mkConst "e", mkVar "Y")], true⟩ : Substitution).contains v = false →
        ((⟨[(mkConst "e", mkVar "U")], true⟩ : Substitution).merge
          ⟨[(mkConst "e", mkVar "Y")], true⟩).get k = some v) ∧
      ∀ k, (⟨[(mkConst "e", mkVar "U")], true⟩ : Substitution).get k = none →
        ((⟨[(mkConst "e", mkVar "U")], true⟩ : Substitution).merge
          ⟨[(mkConst "e", mkVar "Y")], true⟩).get k =
        (⟨[(mkConst "e", mkVar "Y")], true⟩ : Substitution).get k) :=
  ⟨by unfold MapSorted; decide,
    C18_merge_left_biased ⟨[(mkConst "e", mkVar "U")], true⟩ ⟨[(mkConst "e", mkVar "Y")], true⟩
      (by unfold MapSorted; decide)⟩

/-! ## The rule built from a trace -/

theorem Term.eq_comm (a b : Term) : a.eq b = b.eq a := by
  unfold Term.eq
  have h1 : (a.name == b.name) = (b.name == a.name) := by
    by_cases h : a.name = b.name
    · simp [h]
    · have h' : ¬ b.name = a.name := fun e => h e.symm
      simp [h, h']
  rw [h1, Bool.and_comm a.isVariable b.isVariable,
    Bool.or_comm (a.name == anyVar.name) (b.name == anyVar.name)]

theorem Term.ne_comm (a b : Term) : a.ne b = b.ne a := by
  unfold Term.ne
  rw [Term.eq_comm]

theorem paramsLt_asymm : ∀ (n m : Nat) (as bs : List Term),
    paramsLt n as bs = true → paramsLt m bs as = false
  | 0, _, _, _, h => by simp [paramsLt] at h
  | _ + 1, _, [], _, h => by simp [paramsLt] at h
  | _ + 1, _, _ :: _, [], h => by simp [paramsLt] at h
  | _ + 1, 0, _ :: _, _ :: _, _ => by simp [paramsLt]
  | n + 1, m + 1, a :: as, b :: bs, h => by
    simp only [paramsLt] at h ⊢
    rw [Term.ne_comm b a]
    by_cases hab : a.ne b = true
    · rw [if_pos hab] at h
      rw [if_pos hab]
      cases hlt : b.lt a with
      | false => rfl
      | true =>
        exfalso
        have := Term.lt_trans a b a h hlt
        rw [Term.lt_irrefl] at this
        cases this
    · rw [if_neg hab] at h
      rw [if_neg hab]
      exact paramsLt_asymm n m as bs h

theorem predicate_eq_comm (p q : Predicate) : p.eq q = q.eq p := by
  unfold Predicate.eq
  by_cases h : p.name = q.name
  · simp [h]
  · have h' : ¬ q.name = p.name := fun e => h e.symm
    simp [h, h']

theorem literal_lt_asymm (a b : Literal) (h : a.lt b = true) : b.lt a = false := by
  unfold Literal.lt at h ⊢
  rw [predicate_eq_comm b.pred a.pred]
  cases ha : a.positive <;> cases hb : b.positive <;>
    simp only [ha, hb, Bool.and_self, Bool.not_true, Bool.not_false, Bool.false_eq_true,
      if_false, if_true, Bool.and_true, Bool.and_false, Bool.true_and, Bool.false_and] at h ⊢
  all_goals
    first
    | cases h
    | (by_cases hp : a.pred.eq b.pred = true
       · simp only [hp, Bool.not_true, Bool.false_eq_true, if_false] at h ⊢
         exact paramsLt_asymm _ _ _ _ h
       · simp only [hp, Bool.not_false, if_true] at h ⊢
         cases hlt : b.pred.lt a.pred with
         | false => rfl
         | true =>
           exfalso
           unfold Predicate.lt at h hlt
           have := natListLt_trans _ _ _ h hlt
           rw [natListLt_irrefl] at this
           cases this)

theorem setInsert_append_of_lt {α : Type} (lt : α → α → Bool)
    (hasym : ∀ a b, lt a b = true → lt b a = false) (x : α) :
    ∀ (r : List α), (∀ y ∈ r, lt y x = true) → setInsert lt x r = r ++ [x]
  | [], _ => rfl
  | y :: ys, h => by
    have hy := h y (List.mem_cons_self _ _)
    simp only [setInsert, hasym y x hy, Bool.false_eq_true, if_false, hy, if_true,
      List.cons_append]
    rw [setInsert_append_of_lt lt hasym x ys (fun z hz => h z (List.mem_cons_of_mem _ hz))]

theorem foldl_setInsert_sorted {α : Type} (lt : α → α → Bool)
    (hasym : ∀ a b, lt a b = true → lt b a = false) :
    ∀ (l acc : List α), l.Pairwise (fun a b => lt a b = true) →
      (∀ y ∈ acc, ∀ x ∈ l, lt y x = true) →
      l.foldl (fun r x => setInsert lt x r) acc = acc ++ l
  | [], acc, _, _ => by simp
  | x :: l, acc, hp, hacc => by
    rw [List.pairwise_cons] at hp
    simp only [List.foldl_cons]
    rw [setInsert_append_of_lt lt hasym x acc (fun y hy => hacc y hy x (List.mem_cons_self _ _)),
      foldl_setInsert_sorted lt hasym l (acc ++ [x]) hp.2]
    · simp
    · intro y hy z hz
      rcases List.mem_append.mp hy with hy | hy
      · exact hacc y hy z (List.mem_cons_of_mem _ hz)
      · rw [List.mem_singleton] at hy
        rw [hy]
        exact hp.1 z hz

theorem foldl_filter_map_setInsert {α β : Type} (lt : α → α → Bool) (keep : β → Bool)
    (g : β → α) : ∀ (l : List β) (acc : List α),
    l.foldl (fun r f => if keep f then setInsert lt (g f) r else r) acc =
      ((l.filter keep).map g).foldl (fun r x => setInsert lt x r) acc
  | [], _ => rfl
  | f :: l, acc => by
    simp only [List.foldl_cons, List.filter_cons]
    cases hk : keep f
    · simp only [Bool.false_eq_true, if_false]
      exact foldl_filter_map_setInsert lt keep g l acc
    · simp only [if_true, List.map_cons, List.foldl_cons]
      exact foldl_filter_map_setInsert lt keep g l _

theorem Literal.lt_neg_of_positive (a b : Literal) (ha : a.positive = true)
    (hb : b.positive = true) :
    Literal.lt ⟨a.pred, a.parameters, false⟩ ⟨b.pred, b.parameters, false⟩ = a.lt b := by
  simp [Literal.lt, ha, hb]

/-- C11: the rule built without filtering from a trace whose states are sets of facts, the
first of positive facts, has the action literal of the trace, the facts of the first state
as preconditions, the facts of the second state that the first does not contain as add
effects, the negations of the facts of the first state that the second does not contain as
delete effects, and parameters among which `in` finds every term of these literals. -/
theorem C11_ofTrace_unfiltered (t : Trace)
    (hs : t.state.Pairwise (fun a b => Literal.lt a b = true))
    (hn : t.newState.Pairwise (fun a b => Literal.lt a b = true))
    (hpos : ∀ f ∈ t.state, f.positive = true) :
    (ActionRule.ofTrace t false).actionLiteral = t.instAct ∧
    (ActionRule.ofTrace t false).preconditions = t.state ∧
    (ActionRule.ofTrace t false).add =
      t.newState.filter (fun f => !stateContains t.state f) ∧
    (ActionRule.ofTrace t false).del =
      (t.state.filter (fun f => !stateContains t.newState f)).map Literal.neg ∧
    ∀ l ∈ t.instAct :: ((ActionRule.ofTrace t false).preconditions ++
        ((ActionRule.ofTrace t false).add ++ (ActionRule.ofTrace t false).del)),
      ∀ p ∈ l.parameters, inList Term.eq (ActionRule.ofTrace t false).parameters p = true := by
  have hpre : toSet Literal.lt t.state = t.state := by
    unfold toSet setUnion
    rw [foldl_setInsert_sorted Literal.lt literal_lt_asymm t.state [] hs
      (fun _ hy => by cases hy)]
    rfl
  have hadd : (stateDifference t.state t.newState).1 =
      t.newState.filter (fun f => !stateContains t.state f) := by
    unfold stateDifference
    dsimp only
    refine (foldl_filter_map_setInsert Literal.lt (fun f => !stateContains t.state f) id
      t.newState []).trans ?_
    rw [List.map_id, foldl_setInsert_sorted Literal.lt literal_lt_asymm _ []
        (List.Pairwise.sublist (List.filter_sublist _) hn) (fun _ hy => by cases hy)]
    rfl
  have hdel : (stateDifference t.state t.newState).2 =
      (t.state.filter (fun f => !stateContains t.newState f)).map Literal.neg := by
    unfold stateDifference
    dsimp only
    refine (foldl_filter_map_setInsert Literal.lt (fun f => !stateContains t.newState f)
      (fun f => (⟨f.pred, f.parameters, false⟩ : Literal)) t.state []).trans ?_
    have hmap : (t.state.filter (fun f => !stateContains t.newState f)).map
        (fun f => (⟨f.pred, f.parameters, false⟩ : Literal)) =
        (t.state.filter (fun f => !stateContains t.newState f)).map Literal.neg := by
      apply List.map_congr_left
      intro f hf
      have := hpos f (List.mem_of_mem_filter hf)
      simp [Literal.neg, this]
    rw [foldl_setInsert_sorted Literal.lt literal_lt_asymm _ [] ?_ (fun _ hy => by cases hy),
      hmap]
    · rfl
    · rw [List.pairwise_map]
      refine List.Pairwise.imp_of_mem ?_
        (List.Pairwise.sublist (List.filter_sublist _) hs)
      intro a b ha hb hab
      rw [Literal.lt_neg_of_positive a b (hpos a (List.mem_of_mem_filter ha))
        (hpos b (List.mem_of_mem_filter hb))]
      exact hab
  have hrule : ActionRule.ofTrace t false =
      ⟨t.state, t.instAct, (stateDifference t.state t.newState).1,
        (stateDifference t.state t.newState).2, [],
        extractParameters t.instAct t.state (stateDifference t.state t.newState).1
          (stateDifference t.state t.newState).2⟩ := by
    unfold ActionRule.ofTrace ActionRule.make
    simp only [Bool.false_eq_true, if_false, hpre]
  refine ⟨by rw [hrule], by rw [hrule], by rw [hrule, hadd], by rw [hrule, hdel], ?_⟩
  intro l hl p hp
  have hname : hasName (ActionRule.ofTrace t false).parameters p.name := by
    rw [hrule] at hl ⊢
    dsimp only at hl ⊢
    unfold extractParameters setUnion
    dsimp only
    rw [hasName_foldl_lits, hasName_foldl_lits, hasName_foldl_lits, hasName_foldl_setInsert]
    rcases List.mem_cons.mp hl with h | h
    · exact Or.inl (Or.inl (Or.inl (Or.inr ⟨p, h ▸ hp, rfl⟩)))
    · rcases List.mem_append.mp h with h | h
      · exact Or.inl (Or.inl (Or.inr ⟨p, List.mem_flatMap.mpr ⟨l, h, hp⟩, rfl⟩))
      · rcases List.mem_append.mp h with h | h
        · exact Or.inl (Or.inr ⟨p, List.mem_flatMap.mpr ⟨l, h, hp⟩, rfl⟩)
        · exact Or.inr ⟨p, List.mem_flatMap.mpr ⟨l, h, hp⟩, rfl⟩
  obtain ⟨y, hy, hyn⟩ := hname
  simp only [inList, List.any_eq_true]
  exact ⟨y, hy, Term.eq_of_name y p hyn⟩

/-- C11 (witness): the trace of the test `ActionRuleConstruction`. -/
theorem C11_ofTrace_unfiltered_witness :
    traceMove.state.Pairwise (fun a b => Literal.lt a b = true) ∧
    traceMove.newState.Pairwise (fun a b => Literal.lt a b = true) ∧
    (∀ f ∈ traceMove.state, f.positive = true) ∧
    ((ActionRule.ofTrace traceMove false).actionLiteral = traceMove.instAct ∧
    (ActionRule.ofTrace traceMove false).preconditions = traceMove.state ∧
    (ActionRule.ofTrace traceMove false).add =
      traceMove.newState.filter (fun f => !stateContains traceMove.state f) ∧
    (ActionRule.ofTrace traceMove false).del =
      (traceMove.state.filter (fun f => !stateContains traceMove.newState f)).map
        Literal.neg ∧
    ∀ l ∈ traceMove.instAct :: ((ActionRule.ofTrace traceMove false).preconditions ++
        ((ActionRule.ofTrace traceMove false).add ++ (ActionRule.ofTrace traceMove false).del)),
      ∀ p ∈ l.parameters,
        inList Term.eq (ActionRule.ofTrace traceMove false).parameters p = true) :=
  ⟨by decide, by decide, by decide,
    C11_ofTrace_unfiltered traceMove (by decide) (by decide) (by decide)⟩

/-! ## Unification of two literals -/

/-- C15 (failing input): on `p(X, Y, X)` and `p(Y, a, b)`, which have no unifier, `unify`
started from the empty substitution returns true with `\x7bX/b, Y/b\x7d`; this substitution
maps the first literal to `p(b, b, b)` and the second to `p(b, a, b)`, both left unchanged
by a further application, and the two differ. -/
theorem C15_unify_not_a_unifier :
    Substitution.empty.unify (mkLit "p" [mkVar "X", mkVar "Y", mkVar "X"])
        (mkLit "p" [mkVar "Y", mkConst "a", mkConst "b"]) =
      (true, ⟨[(mkVar "X", mkConst "b"), (mkVar "Y", mkConst "b")], false⟩) ∧
    (⟨[(mkVar "X", mkConst "b"), (mkVar "Y", mkConst "b")], false⟩ : Substitution).apply
        (mkLit "p" [mkVar "X", mkVar "Y", mkVar "X"]) =
      mkLit "p" [mkConst "b", mkConst "b", mkConst "b"] ∧
    (⟨[(mkVar "X", mkConst "b"), (mkVar "Y", mkConst "b")], false⟩ : Substitution).apply
        (mkLit "p" [mkVar "Y", mkConst "a", mkConst "b"]) =
      mkLit "p" [mkConst "b", mkConst "a", mkConst "b"] ∧
    (⟨[(mkVar "X", mkConst "b"), (mkVar "Y", mkConst "b")], false⟩ : Substitution).apply
        (mkLit "p" [mkConst "b", mkConst "b", mkConst "b"]) =
      mkLit "p" [mkConst "b", mkConst "b", mkConst "b"] ∧
    (⟨[(mkVar "X", mkConst "b"), (mkVar "Y", mkConst "b")], false⟩ : Substitution).apply
        (mkLit "p" [mkConst "b", mkConst "a", mkConst "b"]) =
      mkLit "p" [mkConst "b", mkConst "a", mkConst "b"] ∧
    (mkLit "p" [mkConst "b", mkConst "b", mkConst "b"]).eq
      (mkLit "p" [mkConst "b", mkConst "a", mkConst "b"]) = false := by
  decide

/-! ## Expansion of a substitution over uncovered terms -/

theorem foldl_append_filter_map {α β : Type} (c : β → Bool) (f : β → α) :
    ∀ (l : List β) (gen : List α),
    l.foldl (fun g t => if c t then g ++ [f t] else g) gen = gen ++ (l.filter c).map f
  | [], gen => by simp
  | t :: l, gen => by
    simp only [List.foldl_cons, List.filter_cons]
    cases hc : c t
    · simp only [Bool.false_eq_true, if_false]
      exact foldl_append_filter_map c f l gen
    · simp only [if_true, List.map_cons]
      rw [foldl_append_filter_map c f l (gen ++ [f t])]
      simp

theorem foldl_append_flatMap {α β : Type} (h : β → List α) :
    ∀ (l : List β) (gen : List α), l.foldl (fun g x => g ++ h x) gen = gen ++ l.flatMap h
  | [], gen => by simp
  | x :: l, gen => by
    simp only [List.foldl_cons, List.flatMap_cons]
    rw [foldl_append_flatMap h l (gen ++ h x)]
    simp

theorem mem_expandRound (tgt : List Term) (u : Term) (prev : List Substitution)
    (s1 : Substitution) :
    s1 ∈ expandRound tgt u prev ↔
      ∃ sit ∈ prev, ∃ t ∈ tgt, (sit.getInverse t).isSome = false ∧
        typeSubsumes u.type t.type = true ∧ s1 = sit.set u t := by
  unfold expandRound
  have h1 : (fun (generated : List Substitution) (sit : Substitution) =>
      tgt.foldl (fun generated toit =>
        if !(sit.getInverse toit).isSome && typeSubsumes u.type toit.type then
          generated ++ [sit.set u toit]
        else generated) generated) =
      (fun generated sit => generated ++
        (tgt.filter (fun t => !(sit.getInverse t).isSome && typeSubsumes u.type t.type)).map
          (fun t => sit.set u t)) := by
    funext generated sit
    exact foldl_append_filter_map _ _ tgt generated
  rw [h1, foldl_append_flatMap]
  simp only [List.nil_append, List.mem_flatMap, List.mem_map, List.mem_filter,
    Bool.and_eq_true, Bool.not_eq_true']
  constructor
  · rintro ⟨sit, hs, t, ⟨ht, h2, h3⟩, rfl⟩
    exact ⟨sit, hs, t, ht, h2, h3, rfl⟩
  · rintro ⟨sit, hs, t, ht, h2, h3, rfl⟩
    exact ⟨sit, hs, t, ⟨ht, h2, h3⟩, rfl⟩

theorem mem_expandFold (tgt : List Term) : ∀ (us : List Term) (gen : List Substitution)
    (s1 : Substitution),
    s1 ∈ us.foldl (fun g u => expandRound tgt u g) gen ↔
      ∃ s0 ∈ gen, ExpandsTo tgt s0 us s1
  | [], gen, s1 => by
    simp only [List.foldl_nil, ExpandsTo]
    constructor
    · intro h
      exact ⟨s1, h, rfl⟩
    · rintro ⟨s0, h, rfl⟩
      exact h
  | u :: us, gen, s1 => by
    simp only [List.foldl_cons, ExpandsTo]
    rw [mem_expandFold tgt us _ s1]
    constructor
    · rintro ⟨s2, h2, hx⟩
      obtain ⟨sit, hs, t, ht, hi, hty, rfl⟩ := (mem_expandRound tgt u gen s2).mp h2
      exact ⟨sit, hs, t, ht, hi, hty, hx⟩
    · rintro ⟨s0, h0, t, ht, hi, hty, hx⟩
      exact ⟨s0.set u t, (mem_expandRound tgt u gen _).mpr ⟨s0, h0, t, ht, hi, hty, rfl⟩, hx⟩

theorem foldl_if_filter {α β : Type} (p : β → Bool) (F : β → α → α) :
    ∀ (l : List β) (init : α),
    l.foldl (fun g u => if p u then F u g else g) init =
      (l.filter p).foldl (fun g u => F u g) init
  | [], _ => rfl
  | u :: l, init => by
    simp only [List.foldl_cons, List.filter_cons]
    cases hp : p u
    · simp only [Bool.false_eq_true, if_false]
      exact foldl_if_filter p F l init
    · simp only [if_true, List.foldl_cons]
      exact foldl_if_filter p F l _

theorem Term.lt_asymm (a b : Term) (h : a.lt b = true) : b.lt a = false := by
  cases hlt : b.lt a with
  | false => rfl
  | true =>
    have := Term.lt_trans a b a h hlt
    rw [Term.lt_irrefl] at this
    cases this

theorem getUncovered_eq_filter (s : Substitution) (frm : List Term)
    (hf : frm.Pairwise (fun a b => a.lt b = true)) :
    s.getUncovered frm = frm.filter (fun it => (mapFind it s.mapping).isNone) := by
  unfold Substitution.getUncovered
  refine (foldl_filter_map_setInsert Term.lt (fun it => (mapFind it s.mapping).isNone) id
    frm []).trans ?_
  rw [List.map_id, foldl_setInsert_sorted Term.lt Term.lt_asymm _ []
    (List.Pairwise.sublist (List.filter_sublist _) hf) (fun _ hy => by cases hy)]
  rfl


theorem expandSpec_of_expandsTo (tgt : List Term) : ∀ (us : List Term)
    (s0 s1 : Substitution), MapSorted s0.mapping →
    us.Pairwise (fun a b => a.name ≠ b.name) →
    (∀ u ∈ us, nget s0.mapping u.name = none) →
    ExpandsTo tgt s0 us s1 → ExpandSpec tgt s0 us s1
  | [], s0, s1, hs, _, _, h => by
    simp only [ExpandsTo] at h
    subst h
    exact ⟨rfl, hs, fun e he => he, (fun u hu => by cases hu), fun e he => Or.inl he,
      (fun e1 _ e2 _ h1 => by cases h1)⟩
  | u :: us, s0, s1, hs, hd, hfree, h => by
    simp only [ExpandsTo] at h
    obtain ⟨t, ht, hinv, hty, hx⟩ := h
    rw [List.pairwise_cons] at hd
    have hu0 : nget s0.mapping u.name = none := hfree u (List.mem_cons_self _ _)
    have hmem : ∀ e, e ∈ (s0.set u t).mapping ↔ e ∈ s0.mapping ∨ e = (u, t) :=
      fun e => mem_mapSet_iff_new u t s0.mapping e hu0
    have ih := expandSpec_of_expandsTo tgt us (s0.set u t) s1
      (mapSorted_mapSet _ _ _ hs) hd.2
      (by
        intro u1 hu1
        simp only [Substitution.set, nget_mapSet]
        rw [if_neg (hd.1 u1 hu1)]
        exact hfree u1 (List.mem_cons_of_mem _ hu1)) hx
    have hut : (u, t) ∈ s1.mapping := ih.keeps _ ((hmem _).mpr (Or.inr rfl))
    have hinv0 : ∀ e ∈ s0.mapping, e.2.eq t = false := (getInverse_none_iff s0 t).mp hinv
    have hkey : ∀ e ∈ s1.mapping, e.1 = u → e = (u, t) := by
      intro e he hk
      exact mapSorted_unique _ ih.sorted e (u, t) he hut (by rw [hk])
    have hcross : ∀ e ∈ s1.mapping, e.1 ∈ us → t.eq e.2 = false := by
      intro e he hk
      obtain ⟨t2, _, h2, _, h3⟩ := ih.assigns e.1 hk
      have : e = (e.1, t2) := mapSorted_unique _ ih.sorted e (e.1, t2) he h2 rfl
      rw [this]
      exact h3 (u, t) ((hmem _).mpr (Or.inr rfl))
    refine ⟨ih.flag, ih.sorted, fun e he => ih.keeps e ((hmem e).mpr (Or.inl he)), ?_, ?_, ?_⟩
    · intro u1 hu1
      rcases List.mem_cons.mp hu1 with h1 | h1
      · rw [h1]
        exact ⟨t, ht, hut, hty, hinv0⟩
      · obtain ⟨t2, ht2, h2, h3, h4⟩ := ih.assigns u1 h1
        exact ⟨t2, ht2, h2, h3, fun e he => h4 e ((hmem e).mpr (Or.inl he))⟩
    · intro e he
      rcases ih.only e he with h1 | h1
      · rcases (hmem e).mp h1 with h2 | h2
        · exact Or.inl h2
        · exact Or.inr (by rw [h2]; exact List.mem_cons_self _ _)
      · exact Or.inr (List.mem_cons_of_mem _ h1)
    · intro e1 he1 e2 he2 hk1 hk2 hne
      rcases List.mem_cons.mp hk1 with h1 | h1
      · rcases List.mem_cons.mp hk2 with h2 | h2
        · exact absurd ((hkey e1 he1 h1).trans (hkey e2 he2 h2).symm) hne
        · rw [hkey e1 he1 h1]
          exact hcross e2 he2 h2
      · rcases List.mem_cons.mp hk2 with h2 | h2
        · rw [hkey e2 he2 h2, Term.eq_comm]
          exact hcross e1 he1 h1
        · exact ih.once e1 he1 e2 he2 h1 h2 hne

theorem expandsTo_of_expandSpec (tgt : List Term) : ∀ (us : List Term)
    (s0 s1 : Substitution), MapSorted s0.mapping →
    us.Pairwise (fun a b => a.name ≠ b.name) →
    (∀ u ∈ us, nget s0.mapping u.name = none) →
    ExpandSpec tgt s0 us s1 → ExpandsTo tgt s0 us s1
  | [], s0, s1, hs, _, _, h => by
    simp only [ExpandsTo]
    have hsame : ∀ e, e ∈ s1.mapping ↔ e ∈ s0.mapping := by
      intro e
      constructor
      · intro he
        rcases h.only e he with h1 | h1
        · exact h1
        · cases h1
      · exact h.keeps e
    have hperm : s1.mapping.Perm s0.mapping :=
      (List.perm_ext_iff_of_nodup
        (List.Pairwise.imp (fun {a b : Term × Term} (hab : a.1.lt b.1 = true) (e : a = b) => by
          rw [e, Term.lt_irrefl] at hab; cases hab) h.sorted)
        (List.Pairwise.imp (fun {a b : Term × Term} (hab : a.1.lt b.1 = true) (e : a = b) => by
          rw [e, Term.lt_irrefl] at hab; cases hab) hs)).mpr hsame
    have hanti : IsAntisymm (Term × Term) (fun p q => p.1.lt q.1 = true) :=
      ⟨fun a b h1 h2 => by rw [Term.lt_asymm _ _ h1] at h2; cases h2⟩
    have heq : s1.mapping = s0.mapping :=
      @List.eq_of_perm_of_sorted _ _ hanti _ _ hperm h.sorted hs
    cases s1
    cases s0
    simp only at heq
    have := h.flag
    simp only at this
    rw [heq, this]
  | u :: us, s0, s1, hs, hd, hfree, h => by
    simp only [ExpandsTo]
    rw [List.pairwise_cons] at hd
    have hu0 : nget s0.mapping u.name = none := hfree u (List.mem_cons_self _ _)
    obtain ⟨t, ht, hut, hty, hinv0⟩ := h.assigns u (List.mem_cons_self _ _)
    have hmem : ∀ e, e ∈ (s0.set u t).mapping ↔ e ∈ s0.mapping ∨ e = (u, t) :=
      fun e => mem_mapSet_iff_new u t s0.mapping e hu0
    refine ⟨t, ht, (getInverse_none_iff s0 t).mpr hinv0, hty, ?_⟩
    apply expandsTo_of_expandSpec tgt us (s0.set u t) s1 (mapSorted_mapSet _ _ _ hs) hd.2
    · intro u1 hu1
      simp only [Substitution.set, nget_mapSet]
      rw [if_neg (hd.1 u1 hu1)]
      exact hfree u1 (List.mem_cons_of_mem _ hu1)
    · refine ⟨h.flag, h.sorted, ?_, ?_, ?_, ?_⟩
      · intro e he
        rcases (hmem e).mp he with h1 | h1
        · exact h.keeps e h1
        · rw [h1]
          exact hut
      · intro u1 hu1
        obtain ⟨t1, ht1, h1, h2, h3⟩ := h.assigns u1 (List.mem_cons_of_mem _ hu1)
        refine ⟨t1, ht1, h1, h2, ?_⟩
        intro e he
        rcases (hmem e).mp he with h4 | h4
        · exact h3 e h4
        · rw [h4]
          refine h.once (u, t) hut (u1, t1) h1 (List.mem_cons_self _ _)
            (List.mem_cons_of_mem _ hu1) ?_
          intro heq
          have : u = u1 := congrArg Prod.fst heq
          exact hd.1 u1 hu1 (by rw [this])
      · intro e he
        rcases h.only e he with h1 | h1
        · exact Or.inl ((hmem e).mpr (Or.inl h1))
        · rcases List.mem_cons.mp h1 with h2 | h2
          · refine Or.inl ((hmem e).mpr (Or.inr ?_))
            exact mapSorted_unique _ h.sorted e (u, t) he hut (by rw [h2])
          · exact Or.inr h2
      · intro e1 he1 e2 he2 hk1 hk2 hne
        exact h.once e1 he1 e2 he2 (List.mem_cons_of_mem _ hk1) (List.mem_cons_of_mem _ hk2) hne


theorem get_none_iff_mapFind (s : Substitution) (u : Term) :
    s.get u = none ↔ (mapFind u s.mapping).isNone = true := by
  unfold Substitution.get
  cases mapFind u s.mapping <;> simp

theorem getInverse_eq_none_iff (s : Substitution) (t : Term) :
    s.getInverse t = none ↔ ∀ e ∈ s.mapping, e.2.eq t = false := by
  rw [← getInverse_none_iff]
  cases s.getInverse t <;> simp

theorem eq_of_name_of_sorted : ∀ (l : List Term), l.Pairwise (fun a b => a.lt b = true) →
    ∀ a ∈ l, ∀ b ∈ l, a.name = b.name → a = b
  | [], _, _, ha, _, _, _ => by cases ha
  | x :: l, hp, a, ha, b, hb, hn => by
    rw [List.pairwise_cons] at hp
    rcases List.mem_cons.mp ha with h1 | h1
    · rcases List.mem_cons.mp hb with h2 | h2
      · rw [h1, h2]
      · exact absurd hn (h1 ▸ Term.name_ne_of_lt x b (hp.1 b h2))
    · rcases List.mem_cons.mp hb with h2 | h2
      · exact absurd hn.symm (h2 ▸ Term.name_ne_of_lt x a (hp.1 a h1))
      · exact eq_of_name_of_sorted l hp.2 a h1 b h2 hn

theorem expandUncovered_eq (s : Substitution) (frm tgt : List Term) (skip : Bool)
    (hf : frm.Pairwise (fun a b => a.lt b = true)) :
    s.expandUncovered frm tgt skip =
      ((frm.filter (fun it => (mapFind it s.mapping).isNone)).filter
        (fun u => u.isVariable || !skip)).foldl (fun g u => expandRound tgt u g) [s] := by
  unfold Substitution.expandUncovered
  rw [getUncovered_eq_filter s frm hf]
  exact foldl_if_filter (fun u => u.isVariable || !skip) (fun u g => expandRound tgt u g) _ _

/-- C14: on a set `frm`, `expandUncovered` returns exactly the substitutions that keep every
entry of `s` and have, besides them, one entry for each element of `frm` that is not a key
of `s` (each variable only, when `skipConstants` is set), which assigns to it an element of
`tgt` of a subsumed type that is no image under `s`, no two of these entries having equal
images; the skipped constants stay unmapped, and the result is `[s]` when no element is
to be assigned. -/
theorem C14_expandUncovered_exact (s : Substitution) (frm tgt : List Term) (skip : Bool)
    (hs : MapSorted s.mapping) (hf : frm.Pairwise (fun a b => a.lt b = true)) :
    (∀ s1, s1 ∈ s.expandUncovered frm tgt skip ↔
      s1.injective = s.injective ∧ MapSorted s1.mapping ∧
      (∀ e ∈ s.mapping, e ∈ s1.mapping) ∧
      (∀ u ∈ frm, s.get u = none → (u.isVariable = true ∨ skip = false) →
        ∃ t ∈ tgt, (u, t) ∈ s1.mapping ∧ typeSubsumes u.type t.type = true ∧
          s.getInverse t = none) ∧
      (∀ e ∈ s1.mapping, e ∈ s.mapping ∨
        (e.1 ∈ frm ∧ s.get e.1 = none ∧ (e.1.isVariable = true ∨ skip = false))) ∧
      (∀ e1 ∈ s1.mapping, ∀ e2 ∈ s1.mapping, e1 ∉ s.mapping → e2 ∉ s.mapping → e1 ≠ e2 →
        e1.2.eq e2.2 = false)) ∧
    (∀ s1 ∈ s.expandUncovered frm tgt skip, ∀ c ∈ frm, s.get c = none →
      c.isVariable = false → skip = true → s1.get c = none) ∧
    ((∀ u ∈ frm, s.get u = none → u.isVariable = false ∧ skip = true) →
      s.expandUncovered frm tgt skip = [s]) := by
  have hU : ∀ u, u ∈ (frm.filter (fun it => (mapFind it s.mapping).isNone)).filter
      (fun u => u.isVariable || !skip) ↔
      u ∈ frm ∧ s.get u = none ∧ (u.isVariable = true ∨ skip = false) := by
    intro u
    simp only [List.mem_filter, Bool.or_eq_true, Bool.not_eq_true', get_none_iff_mapFind,
      and_assoc]
  have hd : ((frm.filter (fun it => (mapFind it s.mapping).isNone)).filter
      (fun u => u.isVariable || !skip)).Pairwise (fun a b => a.name ≠ b.name) :=
    List.Pairwise.imp (fun {a b : Term} (h : a.lt b = true) => Term.name_ne_of_lt a b h)
      (List.Pairwise.sublist ((List.filter_sublist _).trans (List.filter_sublist _)) hf)
  have hfree : ∀ u ∈ (frm.filter (fun it => (mapFind it s.mapping).isNone)).filter
      (fun u => u.isVariable || !skip), nget s.mapping u.name = none := by
    intro u hu
    rw [← Substitution.get_eq_nget]
    exact ((hU u).mp hu).2.1
  have hnotin : ∀ e ∈ s.mapping, ¬ (e.1 ∈ frm ∧ s.get e.1 = none ∧
      (e.1.isVariable = true ∨ skip = false)) := by
    rintro e he ⟨_, h2, _⟩
    rw [Substitution.get_eq_nget, nget_of_mem _ hs e he] at h2
    cases h2
  have hiff : ∀ s1, s1 ∈ s.expandUncovered frm tgt skip ↔
      ExpandSpec tgt s ((frm.filter (fun it => (mapFind it s.mapping).isNone)).filter
        (fun u => u.isVariable || !skip)) s1 := by
    intro s1
    rw [expandUncovered_eq s frm tgt skip hf, mem_expandFold]
    constructor
    · rintro ⟨s0, h0, hx⟩
      rw [List.mem_singleton] at h0
      subst h0
      exact expandSpec_of_expandsTo tgt _ _ s1 hs hd hfree hx
    · intro hx
      exact ⟨s, List.mem_singleton_self _, expandsTo_of_expandSpec tgt _ s s1 hs hd hfree hx⟩
  have honly : ∀ s1, s1 ∈ s.expandUncovered frm tgt skip → ∀ e ∈ s1.mapping, e ∈ s.mapping ∨
      (e.1 ∈ frm ∧ s.get e.1 = none ∧ (e.1.isVariable = true ∨ skip = false)) := by
    intro s1 h1 e he
    rcases ((hiff s1).mp h1).only e he with h | h
    · exact Or.inl h
    · exact Or.inr ((hU e.1).mp h)
  refine ⟨fun s1 => ?_, ?_, ?_⟩
  · rw [hiff s1]
    constructor
    · intro h
      refine ⟨h.flag, h.sorted, h.keeps, ?_, ?_, ?_⟩
      · intro u hu h1 h2
        obtain ⟨t, ht, h3, h4, h5⟩ := h.assigns u ((hU u).mpr ⟨hu, h1, h2⟩)
        exact ⟨t, ht, h3, h4, (getInverse_eq_none_iff s t).mpr h5⟩
      · intro e he
        rcases h.only e he with h1 | h1
        · exact Or.inl h1
        · exact Or.inr ((hU e.1).mp h1)
      · intro e1 he1 e2 he2 hn1 hn2 hne
        refine h.once e1 he1 e2 he2 ?_ ?_ hne
        · rcases h.only e1 he1 with h1 | h1
          · exact absurd h1 hn1
          · exact h1
        · rcases h.only e2 he2 with h1 | h1
          · exact absurd h1 hn2
          · exact h1
    · rintro ⟨h1, h2, h3, h4, h5, h6⟩
      refine ⟨h1, h2, h3, ?_, ?_, ?_⟩
      · intro u hu
        obtain ⟨hu1, hu2, hu3⟩ := (hU u).mp hu
        obtain ⟨t, ht, h7, h8, h9⟩ := h4 u hu1 hu2 hu3
        exact ⟨t, ht, h7, h8, (getInverse_eq_none_iff s t).mp h9⟩
      · intro e he
        rcases h5 e he with h | h
        · exact Or.inl h
        · exact Or.inr ((hU e.1).mpr h)
      · intro e1 he1 e2 he2 hk1 hk2 hne
        exact h6 e1 he1 e2 he2 (fun h => hnotin e1 h ((hU e1.1).mp hk1))
          (fun h => hnotin e2 h ((hU e2.1).mp hk2)) hne
  · intro s1 h1 c hc hcn hcv hskip
    rw [Substitution.get_eq_nget]
    cases hg : nget s1.mapping c.name with
    | none => rfl
    | some v =>
      exfalso
      obtain ⟨k, hk, hkn⟩ := mem_of_nget _ _ _ hg
      rcases honly s1 h1 (k, v) hk with h | ⟨hkf, _, hkv⟩
      · rw [Substitution.get_eq_nget, ← hkn] at hcn
        rw [nget_of_mem _ hs (k, v) h] at hcn
        cases hcn
      · have hkc : k = c := eq_of_name_of_sorted frm hf k hkf c hc hkn
        rcases hkv with h | h
        · rw [hkc, hcv] at h
          cases h
        · rw [hskip] at h
          cases h
  · intro hnone
    rw [expandUncovered_eq s frm tgt skip hf]
    have hnil : (frm.filter (fun it => (mapFind it s.mapping).isNone)).filter
        (fun u => u.isVariable || !skip) = [] := by
      rw [List.eq_nil_iff_forall_not_mem]
      intro u hu
      obtain ⟨h1, h2, h3⟩ := (hU u).mp hu
      obtain ⟨h4, h5⟩ := hnone u h1 h2
      rcases h3 with h | h
      · rw [h4] at h
        cases h
      · rw [h5] at h
        cases h
    rw [hnil]
    rfl


/-- C14 (witness): the second expansion of the test `SubstitutionOps`. -/
theorem C14_expandUncovered_exact_witness :
    MapSorted subOps.mapping ∧ frmOps.Pairwise (fun a b => a.lt b = true) ∧
    ((∀ s1, s1 ∈ subOps.expandUncovered frmOps tgtOps false ↔
      s1.injective = subOps.injective ∧ MapSorted s1.mapping ∧
      (∀ e ∈ subOps.mapping, e ∈ s1.mapping) ∧
      (∀ u ∈ frmOps, subOps.get u = none → (u.isVariable = true ∨ false = false) →
        ∃ t ∈ tgtOps, (u, t) ∈ s1.mapping ∧ typeSubsumes u.type t.type = true ∧
          subOps.getInverse t = none) ∧
      (∀ e ∈ s1.mapping, e ∈ subOps.mapping ∨
        (e.1 ∈ frmOps ∧ subOps.get e.1 = none ∧ (e.1.isVariable = true ∨ false = false))) ∧
      (∀ e1 ∈ s1.mapping, ∀ e2 ∈ s1.mapping, e1 ∉ subOps.mapping → e2 ∉ subOps.mapping →
        e1 ≠ e2 → e1.2.eq e2.2 = false)) ∧
    (∀ s1 ∈ subOps.expandUncovered frmOps tgtOps false, ∀ c ∈ frmOps, subOps.get c = none →
      c.isVariable = false → false = true → s1.get c = none) ∧
    ((∀ u ∈ frmOps, subOps.get u = none → u.isVariable = false ∧ false = true) →
      subOps.expandUncovered frmOps tgtOps false = [subOps])) :=
  ⟨by unfold MapSorted; decide, by decide,
    C14_expandUncovered_exact subOps frmOps tgtOps false (by unfold MapSorted; decide)
      (by decide)⟩

/-! ## Subsumption under object identity: soundness -/

theorem ext_nget_none {s t : Substitution} (h : Ext s t) {n : String}
    (hn : nget t.mapping n = none) : nget s.mapping n = none := by
  cases hs : nget s.mapping n with
  | none => rfl
  | some v =>
    rw [h n v hs] at hn
    cases hn

theorem oiInv_set (s : Substitution) (p d : Term) (hinv : OiInv s)
    (hd : d.isVariable = false) (hget : nget s.mapping p.name = none)
    (hfree : (s.getInverse d).isSome = false) : OiInv (s.set p d) := by
  have hmem : ∀ e, e ∈ (s.set p d).mapping ↔ e ∈ s.mapping ∨ e = (p, d) :=
    fun e => mem_mapSet_iff_new p d s.mapping e hget
  have hno : ∀ e ∈ s.mapping, e.2.name ≠ d.name := by
    intro e he hn
    have := (getInverse_none_iff s d).mp hfree e he
    rw [Term.eq_of_name e.2 d hn] at this
    cases this
  refine ⟨mapSorted_mapSet _ _ _ hinv.sorted, ?_, ?_⟩
  · intro e he
    rcases (hmem e).mp he with h | h
    · exact hinv.ground e h
    · rw [h]
      exact hd
  · intro e1 he1 e2 he2 hn
    rcases (hmem e1).mp he1 with h1 | h1
    · rcases (hmem e2).mp he2 with h2 | h2
      · exact hinv.inj e1 h1 e2 h2 hn
      · rw [h2] at hn
        exact absurd hn (hno e1 h1)
    · rcases (hmem e2).mp he2 with h2 | h2
      · rw [h1] at hn
        exact absurd hn.symm (hno e2 h2)
      · rw [h1, h2]

theorem oiMatchParams_spec : ∀ (ps ds : List Term) (sub sub1 : Substitution),
    OiInv sub → (∀ d ∈ ds, d.isVariable = false) → ps.length = ds.length →
    oiMatchParams sub ps ds = some sub1 →
    OiInv sub1 ∧ Ext sub sub1 ∧ sub1.injective = sub.injective ∧
    (∀ e ∈ sub1.mapping, e ∈ sub.mapping ∨
      (e.1 ∈ ps ∧ e.1.isVariable = true ∧ e.2 ∈ ds ∧ nget sub.mapping e.1.name = none)) ∧
    List.Forall₂ (fun p d => p.name = d.name ∨
      (p.isVariable = true ∧ nget sub.mapping p.name = none ∧
        nget sub1.mapping p.name = some d)) ps ds
  | [], [], sub, sub1, hinv, _, _, h => by
    simp only [oiMatchParams, Option.some.injEq] at h
    subst h
    exact ⟨hinv, ext_refl _, rfl, fun e he => Or.inl he, List.Forall₂.nil⟩
  | [], _ :: _, _, _, _, _, hl, _ => by cases hl
  | _ :: _, [], _, _, _, _, hl, _ => by cases hl
  | p :: ps, d :: ds, sub, sub1, hinv, hds, hl, h => by
    have hl1 : ps.length = ds.length := by simpa using hl
    have hd := hds d (List.mem_cons_self _ _)
    have hds1 : ∀ d1 ∈ ds, d1.isVariable = false :=
      fun d1 h1 => hds d1 (List.mem_cons_of_mem _ h1)
    simp only [oiMatchParams] at h
    by_cases heq : p.eq d = true
    · rw [if_pos heq] at h
      obtain ⟨h1, h2, h3, h4, h5⟩ := oiMatchParams_spec ps ds sub sub1 hinv hds1 hl1 h
      refine ⟨h1, h2, h3, ?_, List.Forall₂.cons
        (Or.inl ((Term.eq_iff_name_right p d hd).mp heq)) h5⟩
      intro e he
      rcases h4 e he with h6 | ⟨h6, h7, h8, h9⟩
      · exact Or.inl h6
      · exact Or.inr ⟨List.mem_cons_of_mem _ h6, h7, List.mem_cons_of_mem _ h8, h9⟩
    · rw [if_neg heq] at h
      by_cases hc : (p.isVariable && !(sub.get p).isSome && !(sub.getInverse d).isSome) = true
      · rw [if_pos hc] at h
        simp only [Bool.and_eq_true, Bool.not_eq_true'] at hc
        obtain ⟨⟨hv, hg0⟩, hi1⟩ := hc
        rw [Substitution.get_eq_nget] at hg0
        have hg : nget sub.mapping p.name = none := by
          cases hx : nget sub.mapping p.name with
          | none => rfl
          | some v => rw [hx] at hg0; cases hg0
        have hinv1 := oiInv_set sub p d hinv hd hg hi1
        have hext : Ext sub (sub.set p d) := ext_set_new sub p d hg
        have hmem : ∀ e, e ∈ (sub.set p d).mapping ↔ e ∈ sub.mapping ∨ e = (p, d) :=
          fun e => mem_mapSet_iff_new p d sub.mapping e hg
        obtain ⟨h1, h2, h3, h4, h5⟩ :=
          oiMatchParams_spec ps ds (sub.set p d) sub1 hinv1 hds1 hl1 h
        refine ⟨h1, ext_trans hext h2, h3, ?_, List.Forall₂.cons ?_ ?_⟩
        · intro e he
          rcases h4 e he with h6 | ⟨h6, h7, h8, h9⟩
          · rcases (hmem e).mp h6 with h10 | h10
            · exact Or.inl h10
            · rw [h10]
              exact Or.inr ⟨List.mem_cons_self _ _, hv, List.mem_cons_self _ _, hg⟩
          · exact Or.inr ⟨List.mem_cons_of_mem _ h6, h7, List.mem_cons_of_mem _ h8,
              ext_nget_none hext h9⟩
        · refine Or.inr ⟨hv, hg, h2 _ _ ?_⟩
          simp only [Substitution.set, nget_mapSet, if_true]
        · exact List.Forall₂.imp (fun (a b : Term)
            (hab : a.name = b.name ∨ (a.isVariable = true ∧
              nget (sub.set p d).mapping a.name = none ∧
              nget sub1.mapping a.name = some b)) =>
            hab.imp_right (fun ⟨x1, x2, x3⟩ => ⟨x1, ext_nget_none hext x2, x3⟩)) h5
      · rw [if_neg hc] at h
        cases h


theorem mem_oiFold (rec : Substitution → List Substitution) (s : Substitution)
    (l : Literal) : ∀ (ds : List Literal) (acc : List Substitution) (y : Substitution),
    y ∈ ds.foldl (fun subs d =>
      if !(d.pred.eq (s.apply l).pred) then subs
      else
        match oiMatchParams s (s.apply l).parameters d.parameters with
        | none => subs
        | some sub => setUnion Substitution.lt subs (rec sub)) acc →
    y ∈ acc ∨ ∃ d ∈ ds, d.pred.eq l.pred = true ∧
      ∃ sub, oiMatchParams s (s.apply l).parameters d.parameters = some sub ∧ y ∈ rec sub
  | [], _, _, h => Or.inl h
  | d :: ds, acc, y, h => by
    simp only [List.foldl_cons] at h
    rcases mem_oiFold rec s l ds _ y h with h1 | ⟨d1, hd1, h2⟩
    · by_cases hp : d.pred.eq (s.apply l).pred = true
      · simp only [hp, Bool.not_true, Bool.false_eq_true, if_false] at h1
        cases hm : oiMatchParams s (s.apply l).parameters d.parameters with
        | none =>
          rw [hm] at h1
          exact Or.inl h1
        | some sub =>
          rw [hm] at h1
          rcases mem_setUnion _ _ _ y h1 with h3 | h3
          · exact Or.inl h3
          · exact Or.inr ⟨d, List.mem_cons_self _ _, hp, sub, hm, h3⟩
      · have hp1 : d.pred.eq (s.apply l).pred = false := by simpa using hp
        simp only [hp1, Bool.not_false, if_true] at h1
        exact Or.inl h1
    · exact Or.inr ⟨d1, List.mem_cons_of_mem _ hd1, h2⟩

theorem mem_litTerms (ls : List Literal) (l : Literal) (p : Term) (hl : l ∈ ls)
    (hp : p ∈ l.parameters) : p ∈ litTerms ls :=
  List.mem_flatMap.mpr ⟨l, hl, hp⟩

theorem tauName_of_some (s : Substitution) (n : String) (v : Term)
    (h : nget s.mapping n = some v) : tauName s n = v.name := by
  simp [tauName, h]

theorem tauName_of_none (s : Substitution) (n : String)
    (h : nget s.mapping n = none) : tauName s n = n := by
  simp [tauName, h]

theorem oiSubsumeBack_sound (dst : List Literal)
    (hdst : ∀ q ∈ litTerms dst, q.isVariable = false) :
    ∀ (source : List Literal) (s y : Substitution), OiInv s →
    (∀ l ∈ source, ∀ d ∈ dst, d.pred.eq l.pred = true →
      d.parameters.length = l.parameters.length) →
    y ∈ oiSubsumeBack dst source s →
    OiInv y ∧ Ext s y ∧ y.injective = s.injective ∧
    (∀ e ∈ y.mapping, e ∈ s.mapping ∨
      (e.1 ∈ litTerms source ∧ e.1.isVariable = true ∧ e.2 ∈ litTerms dst ∧
        nget s.mapping e.1.name = none)) ∧
    (OiNoClash source dst → ∀ l ∈ source, ∃ d ∈ dst, d.pred.eq l.pred = true ∧
      List.Forall₂ (fun p q => tauName y p.name = q.name) l.parameters d.parameters)
  | [], s, y, hinv, _, hy => by
    simp only [oiSubsumeBack, List.mem_singleton] at hy
    subst hy
    exact ⟨hinv, ext_refl _, rfl, fun e he => Or.inl he, fun _ l hl => by cases hl⟩
  | l :: source, s, y, hinv, hlen, hy => by
    simp only [oiSubsumeBack] at hy
    rcases mem_oiFold (oiSubsumeBack dst source) s l dst [] y hy with h | h
    · cases h
    obtain ⟨d, hd, hpred, sub, hm, hyr⟩ := h
    have hdg : ∀ q ∈ d.parameters, q.isVariable = false :=
      fun q hq => hdst q (mem_litTerms dst d q hd hq)
    have hl0 : (s.apply l).parameters.length = d.parameters.length := by
      simp only [Substitution.apply, List.length_map]
      exact (hlen l (List.mem_cons_self _ _) d hd hpred).symm
    obtain ⟨a1, a2, a3, a4, a5⟩ :=
      oiMatchParams_spec _ _ s sub hinv hdg hl0 hm
    obtain ⟨b1, b2, b3, b4, b5⟩ := oiSubsumeBack_sound dst hdst source sub y a1
      (fun l1 h1 => hlen l1 (List.mem_cons_of_mem _ h1)) hyr
    have hvar : ∀ p ∈ (s.apply l).parameters, p.isVariable = true → p ∈ l.parameters := by
      intro p hp hv
      simp only [Substitution.apply, List.mem_map] at hp
      obtain ⟨p0, hp0, rfl⟩ := hp
      rw [applyTerm_var_eq s hinv.ground p0 hv]
      exact hp0
    have hent : ∀ e ∈ y.mapping, e ∈ s.mapping ∨
        (e.1 ∈ litTerms (l :: source) ∧ e.1.isVariable = true ∧ e.2 ∈ litTerms dst ∧
          nget s.mapping e.1.name = none) := by
      intro e he
      rcases b4 e he with h1 | ⟨h1, h2, h3, h4⟩
      · rcases a4 e h1 with h5 | ⟨h5, h6, h7, h8⟩
        · exact Or.inl h5
        · exact Or.inr ⟨mem_litTerms _ l _ (List.mem_cons_self _ _) (hvar _ h5 h6), h6,
            mem_litTerms dst d _ hd h7, h8⟩
      · refine Or.inr ⟨?_, h2, h3, ext_nget_none a2 h4⟩
        simp only [litTerms, List.flatMap_cons, List.mem_append]
        exact Or.inr h1
    refine ⟨b1, ext_trans a2 b2, b3.trans a3, hent, ?_⟩
    intro hclash l1 hl1
    rcases List.mem_cons.mp hl1 with h1 | h1
    · subst h1
      refine ⟨d, hd, hpred, ?_⟩
      have hpos : List.Forall₂ (fun p q => (s.applyTerm p).name = q.name ∨
          ((s.applyTerm p).isVariable = true ∧
            nget s.mapping (s.applyTerm p).name = none ∧
            nget sub.mapping (s.applyTerm p).name = some q)) l1.parameters d.parameters := by
        have := a5
        simp only [Substitution.apply, List.forall₂_map_left_iff] at this
        exact this
      refine forall₂_imp_mem hpos ?_
      intro p hp q hq hpq
      have hpT : p ∈ litTerms (l1 :: source) :=
        mem_litTerms _ l1 p (List.mem_cons_self _ _) hp
      rcases hpq with hn | ⟨hv, _, hs⟩
      · cases hg : nget s.mapping p.name with
        | some v =>
          rw [tauName_of_some y p.name v (b2 _ _ (a2 _ _ hg)), ← hn,
            applyTerm_of_nget_some s p v hg]
        | none =>
          rw [applyTerm_of_nget_none s p hg] at hn
          cases hpv : p.isVariable with
          | true =>
            exact absurd hn ((hclash p hpT hpv).1 q (mem_litTerms dst d q hd hq))
          | false =>
            rw [tauName_of_none, hn]
            cases hy2 : nget y.mapping p.name with
            | none => rfl
            | some v =>
              exfalso
              obtain ⟨k, hk, hkn⟩ := mem_of_nget _ _ _ hy2
              rcases hent (k, v) hk with h2 | ⟨h2, h3, _, _⟩
              · rw [← hkn, nget_of_mem _ hinv.sorted (k, v) h2] at hg
                cases hg
              · exact (hclash k h2 h3).2 p hpT hpv hkn
      · rw [applyTerm_var_eq s hinv.ground p hv] at hs
        rw [tauName_of_some y p.name q (b2 _ _ hs)]
    · have hclash1 : OiNoClash source dst := by
        intro p hp hv
        have hp1 : p ∈ litTerms (l :: source) := by
          simp only [litTerms, List.flatMap_cons, List.mem_append]
          exact Or.inr hp
        refine ⟨(hclash p hp1 hv).1, fun q hq hqv => (hclash p hp1 hv).2 q ?_ hqv⟩
        simp only [litTerms, List.flatMap_cons, List.mem_append]
        exact Or.inr hq
      exact b5 hclash1 l1 h1


theorem oiInv_of_checkInjective (s : Substitution) (hs : MapSorted s.mapping)
    (hg : ∀ e ∈ s.mapping, e.2.isVariable = false) (hinj : s.checkInjective = true) :
    OiInv s := by
  refine ⟨hs, hg, ?_⟩
  have hp := pairwise_of_checkInjective s hg hinj
  intro e1 he1 e2 he2 hn
  by_contra hne
  exact List.Pairwise.forall (fun {a b : Term × Term} (h : a.2.name ≠ b.2.name) => Ne.symm h)
    hp he1 he2 hne hn

theorem checkInjective_of_oiInv (s : Substitution) (h : OiInv s) :
    s.checkInjective = true := by
  apply checkInjective_of_pairwise
  have hnd : s.mapping.Nodup :=
    List.Pairwise.imp (fun {a b : Term × Term} (hab : a.1.lt b.1 = true) (e : a = b) => by
      rw [e, Term.lt_irrefl] at hab; cases hab) h.sorted
  apply List.Nodup.pairwise_of_forall_ne hnd
  intro a ha b hb hne
  cases heq : a.2.eq b.2 with
  | false => rfl
  | true =>
    exfalso
    exact hne (h.inj a ha b hb ((Term.eq_iff_name_right a.2 b.2 (h.ground b hb)).mp heq))

/-- C12 (counterexample): substitutions returned by `oiSubsume` whose image of a source
literal is not found in `dst` by `in`. (1) From the injective `\x7bX/?Y\x7d`, the source
`p(X)` and `dst = p(a)`: the result `\x7bX/?Y, Y/a\x7d` maps `p(X)` to `p(?Y)`. (2) From the
empty substitution, the source `p(X), q(X)` and `dst = p(a), q(?Y)`: the result
`\x7bX/?Y, Y/a\x7d` maps `p(X)` to `p(?Y)`. (3) The source `q(?a), p(?a)`, whose variable is
named like a constant of `dst = p(a), q(b)`: the result `\x7b?a/b\x7d` maps `p(?a)` to
`p(b)`. (4) The source `-p(X)` and `dst = p(a)`: the result `\x7bX/a\x7d` maps `-p(X)` to
`-p(a)`. (5) The source `p(X)` with `p` of arity 1 and `dst = p(a, b)` with `p` of arity
2: the result `\x7bX/a\x7d` maps `p(X)` to `p(a)`, which has one parameter. -/
theorem C12_counterexample :
    ((⟨[(mkVar "X", mkVar "Y")], true⟩ : Substitution).checkInjective = true ∧
      (⟨[(mkVar "X", mkVar "Y")], true⟩ : Substitution).oiSubsume [mkLit "p" [mkVar "X"]]
          [mkLit "p" [mkConst "a"]] =
        [⟨[(mkVar "X", mkVar "Y"), (mkVar "Y", mkConst "a")], true⟩] ∧
      inList Literal.eq [mkLit "p" [mkConst "a"]]
        (Substitution.apply ⟨[(mkVar "X", mkVar "Y"), (mkVar "Y", mkConst "a")], true⟩
          (mkLit "p" [mkVar "X"])) = false) ∧
    (Substitution.empty.oiSubsume [mkLit "p" [mkVar "X"], mkLit "q" [mkVar "X"]]
          [mkLit "p" [mkConst "a"], mkLit "q" [mkVar "Y"]] =
        [⟨[(mkVar "X", mkVar "Y"), (mkVar "Y", mkConst "a")], true⟩] ∧
      inList Literal.eq [mkLit "p" [mkConst "a"], mkLit "q" [mkVar "Y"]]
        (Substitution.apply ⟨[(mkVar "X", mkVar "Y"), (mkVar "Y", mkConst "a")], true⟩
          (mkLit "p" [mkVar "X"])) = false) ∧
    (Substitution.empty.oiSubsume [mkLit "q" [mkVar "a"], mkLit "p" [mkVar "a"]]
          [mkLit "p" [mkConst "a"], mkLit "q" [mkConst "b"]] =
        [⟨[(mkVar "a", mkConst "b")], true⟩] ∧
      inList Literal.eq [mkLit "p" [mkConst "a"], mkLit "q" [mkConst "b"]]
        (Substitution.apply ⟨[(mkVar "a", mkConst "b")], true⟩ (mkLit "p" [mkVar "a"])) =
        false) ∧
    (Substitution.empty.oiSubsume [(mkLit "p" [mkVar "X"]).neg] [mkLit "p" [mkConst "a"]] =
        [⟨[(mkVar "X", mkConst "a")], true⟩] ∧
      inList Literal.eq [mkLit "p" [mkConst "a"]]
        (Substitution.apply ⟨[(mkVar "X", mkConst "a")], true⟩ (mkLit "p" [mkVar "X"]).neg) =
        false) ∧
    (Substitution.empty.oiSubsume [mkLit "p" [mkVar "X"]]
          [mkLit "p" [mkConst "a", mkConst "b"]] =
        [⟨[(mkVar "X", mkConst "a")], true⟩] ∧
      (Substitution.apply ⟨[(mkVar "X", mkConst "a")], true⟩
        (mkLit "p" [mkVar "X"])).parameters.length = 1 ∧
      (mkLit "p" [mkConst "a", mkConst "b"]).parameters.length = 2) := by
  decide

/-- C12 (amended): when `dst` is ground, a literal of the source and a literal of `dst`
with the same predicate name have as many parameters, no variable of the source carries
the name of a term of `dst` or of a constant of the source, and the initial substitution
is injective with constant images, every substitution returned by `oiSubsume` is
injective, keeps the flag and the entries of the initial one, and maps every literal of the
source, in one pass, to a literal of `dst` up to the polarity. -/
theorem C12_oiSubsume_sound (s0 : Substitution) (src dst : List Literal)
    (hs0 : MapSorted s0.mapping) (hinj : s0.checkInjective = true)
    (hs0g : ∀ e ∈ s0.mapping, e.2.isVariable = false)
    (hdst : ∀ d ∈ dst, d.grounded = true)
    (hlen : ∀ l ∈ src, ∀ d ∈ dst, d.pred.eq l.pred = true →
      d.parameters.length = l.parameters.length)
    (hclash : OiNoClash src dst) :
    ∀ s ∈ s0.oiSubsume src dst,
      s.checkInjective = true ∧ s.injective = s0.injective ∧
      (∀ k v, s0.get k = some v → s.get k = some v) ∧
      ∀ l ∈ src, ImageIn dst s l := by
  intro s hs
  have hdg : ∀ q ∈ litTerms dst, q.isVariable = false := by
    intro q hq
    simp only [litTerms, List.mem_flatMap] at hq
    obtain ⟨d, hd, hqd⟩ := hq
    exact (grounded_iff d).mp (hdst d hd) q hqd
  have hterms : ∀ p, p ∈ litTerms src.reverse ↔ p ∈ litTerms src := by
    intro p
    simp only [litTerms, List.mem_flatMap, List.mem_reverse]
  obtain ⟨h1, h2, h3, _, h5⟩ := oiSubsumeBack_sound dst hdg src.reverse s0 s
    (oiInv_of_checkInjective s0 hs0 hs0g hinj)
    (fun l hl => hlen l (List.mem_reverse.mp hl)) hs
  refine ⟨checkInjective_of_oiInv s h1, h3, ?_, ?_⟩
  · intro k v hk
    rw [Substitution.get_eq_nget] at hk ⊢
    exact h2 _ _ hk
  · intro l hl
    obtain ⟨d, hd, hp, hpos⟩ := h5
      (fun p hp hv => ⟨(hclash p ((hterms p).mp hp) hv).1,
        fun q hq hqv => (hclash p ((hterms p).mp hp) hv).2 q ((hterms q).mp hq) hqv⟩)
      l (List.mem_reverse.mpr hl)
    refine ⟨d, hd, hp, ?_⟩
    simp only [Substitution.apply, List.forall₂_map_left_iff]
    exact List.Forall₂.imp (fun (a b : Term) (hab : tauName s a.name = b.name) => by
      rw [applyTerm_name]
      exact hab) hpos

/-- C12 (witness): the first subsumption of the test `SubstitutionOps`. -/
theorem C12_oiSubsume_sound_witness :
    MapSorted subOi.mapping ∧ subOi.checkInjective = true ∧
    (∀ e ∈ subOi.mapping, e.2.isVariable = false) ∧
    (∀ d ∈ dstOi, d.grounded = true) ∧
    (∀ l ∈ srcOi, ∀ d ∈ dstOi, d.pred.eq l.pred = true →
      d.parameters.length = l.parameters.length) ∧
    OiNoClash srcOi dstOi ∧
    subOi.oiSubsume srcOi dstOi ≠ [] ∧
    ∀ s ∈ subOi.oiSubsume srcOi dstOi,
      s.checkInjective = true ∧ s.injective = subOi.injective ∧
      (∀ k v, subOi.get k = some v → s.get k = some v) ∧
      ∀ l ∈ srcOi, ImageIn dstOi s l :=
  ⟨by unfold MapSorted; decide, by decide, by decide, by decide, by decide,
    by unfold OiNoClash; decide, by decide,
    C12_oiSubsume_sound subOi srcOi dstOi (by unfold MapSorted; decide) (by decide)
      (by decide) (by decide) (by decide) (by unfold OiNoClash; decide)⟩

/-! ## Subsumption under object identity: completeness -/

theorem subInv_of_oiInv (s : Substitution) (h : OiInv s) (hf : s.injective = true) :
    SubInv s :=
  ⟨h.sorted, hf, h.ground, fun e1 he1 e2 he2 hn => Or.inl (by rw [h.inj e1 he1 e2 he2 hn])⟩

theorem sameMap_trans {a b c : Substitution} (h1 : SameMap a b) (h2 : SameMap b c) :
    SameMap a c := by
  intro n v hv
  obtain ⟨w, hw, hwn⟩ := h1 n v hv
  obtain ⟨u, hu, hun⟩ := h2 n w hw
  exact ⟨u, hu, hun.trans hwn⟩

theorem oiFold_mono (rec : Substitution → List Substitution) (s : Substitution)
    (l : Literal) : ∀ (ds : List Literal) (acc : List Substitution) (y : Substitution),
    y ∈ acc →
    y ∈ ds.foldl (fun subs d =>
      if !(d.pred.eq (s.apply l).pred) then subs
      else
        match oiMatchParams s (s.apply l).parameters d.parameters with
        | none => subs
        | some sub => setUnion Substitution.lt subs (rec sub)) acc
  | [], _, _, h => h
  | d :: ds, acc, y, h => by
    simp only [List.foldl_cons]
    apply oiFold_mono rec s l ds _ y
    by_cases hp : d.pred.eq (s.apply l).pred = true
    · simp only [hp, Bool.not_true, Bool.false_eq_true, if_false]
      cases hm : oiMatchParams s (s.apply l).parameters d.parameters with
      | none => exact h
      | some sub => exact mem_setUnion_of_mem_left _ _ _ y h
    · have hp1 : d.pred.eq (s.apply l).pred = false := by simpa using hp
      simp only [hp1, Bool.not_false, if_true]
      exact h

theorem oiFold_has_equiv (rec : Substitution → List Substitution) (s : Substitution)
    (l : Literal) (y sub : Substitution) (hirr : Substitution.lt y y = false)
    (hy : y ∈ rec sub) : ∀ (ds : List Literal) (acc : List Substitution) (d : Literal),
    d ∈ ds → d.pred.eq l.pred = true →
    oiMatchParams s (s.apply l).parameters d.parameters = some sub →
    ∃ z ∈ ds.foldl (fun subs d =>
      if !(d.pred.eq (s.apply l).pred) then subs
      else
        match oiMatchParams s (s.apply l).parameters d.parameters with
        | none => subs
        | some sub => setUnion Substitution.lt subs (rec sub)) acc,
      Substitution.lt y z = false ∧ Substitution.lt z y = false
  | [], _, _, h, _, _ => by cases h
  | d1 :: ds, acc, d, hd, hp, hm => by
    simp only [List.foldl_cons]
    rcases List.mem_cons.mp hd with h | h
    · subst h
      have hp1 : d.pred.eq (s.apply l).pred = true := hp
      simp only [hp1, Bool.not_true, Bool.false_eq_true, if_false, hm]
      obtain ⟨z, hz, h1, h2⟩ := setUnion_has_equiv Substitution.lt acc (rec sub) y hirr hy
      exact ⟨z, oiFold_mono rec s l ds _ z hz, h1, h2⟩
    · exact oiFold_has_equiv rec s l y sub hirr hy ds _ d h hp hm

theorem oiMatchParams_complete (T : List Term) (t : Substitution)
    (tinj : ∀ n m w u, nget t.mapping n = some w → nget t.mapping m = some u →
      w.name = u.name → n = m) :
    ∀ (as qs : List Term) (sub : Substitution), OiInv sub → SameMap sub t →
    KeysFrom T sub → (∀ q ∈ qs, q.isVariable = false) →
    (∀ a ∈ as, a.isVariable = true → a ∈ T) →
    List.Forall₂ (fun a q => a.name = q.name ∨
      (a.isVariable = true ∧ a.name ≠ q.name ∧ nget sub.mapping a.name = none ∧
        ∃ w, nget t.mapping a.name = some w ∧ w.name = q.name)) as qs →
    as.Pairwise (fun a b => a.isVariable = true → nget sub.mapping a.name = none →
      b.isVariable = true → nget sub.mapping b.name = none → a.name ≠ b.name) →
    ∃ sub1, oiMatchParams sub as qs = some sub1 ∧ SameMap sub1 t ∧ KeysFrom T sub1
  | [], [], sub, _, hsm, hk, _, _, _, _ => ⟨sub, rfl, hsm, hk⟩
  | [], _ :: _, _, _, _, _, _, _, h, _ => by cases h
  | _ :: _, [], _, _, _, _, _, _, h, _ => by cases h
  | a :: as, q :: qs, sub, hinv, hsm, hk, hqs, hT, hpos, hpw => by
    rw [List.forall₂_cons] at hpos
    rw [List.pairwise_cons] at hpw
    have hq := hqs q (List.mem_cons_self _ _)
    have hqs1 : ∀ q1 ∈ qs, q1.isVariable = false :=
      fun q1 h1 => hqs q1 (List.mem_cons_of_mem _ h1)
    have hT1 : ∀ a1 ∈ as, a1.isVariable = true → a1 ∈ T :=
      fun a1 h1 => hT a1 (List.mem_cons_of_mem _ h1)
    simp only [oiMatchParams]
    rcases hpos.1 with hn | ⟨hv, hne, hg, w, hw, hwn⟩
    · rw [if_pos (Term.eq_of_name a q hn)]
      exact oiMatchParams_complete T t tinj as qs sub hinv hsm hk hqs1 hT1 hpos.2 hpw.2
    · have hneq : ¬ a.eq q = true := by
        intro h
        exact hne ((Term.eq_iff_name_right a q hq).mp h)
      rw [if_neg hneq]
      have hfree : (sub.getInverse q).isSome = false := by
        rw [getInverse_none_iff]
        intro e he
        cases heq : e.2.eq q with
        | false => rfl
        | true =>
          exfalso
          have hen : e.2.name = q.name := (Term.eq_iff_name_right e.2 q hq).mp heq
          have hge := nget_of_mem _ hinv.sorted e he
          obtain ⟨u, hu, hun⟩ := hsm _ _ hge
          have : e.1.name = a.name := tinj _ _ _ _ hu hw (by rw [hun, hen, hwn])
          rw [this, hg] at hge
          cases hge
      have hgs : (sub.get a).isSome = false := by
        rw [Substitution.get_eq_nget, hg]
        rfl
      have hc : (a.isVariable && !(sub.get a).isSome && !(sub.getInverse q).isSome) = true := by
        rw [hv, hgs, hfree]
        rfl
      rw [if_pos hc]
      have hext : Ext sub (sub.set a q) := ext_set_new sub a q hg
      apply oiMatchParams_complete T t tinj as qs (sub.set a q)
        (oiInv_set sub a q hinv hq hg hfree) ?_ ?_ hqs1 hT1 ?_ ?_
      · intro n v hv1
        simp only [Substitution.set, nget_mapSet] at hv1
        by_cases han : a.name = n
        · rw [if_pos han] at hv1
          cases hv1
          exact ⟨w, han ▸ hw, hwn⟩
        · rw [if_neg han] at hv1
          exact hsm n v hv1
      · intro e he
        rcases (mem_mapSet_iff_new a q sub.mapping e hg).mp he with h | h
        · exact hk e h
        · rw [h]
          exact hT a (List.mem_cons_self _ _) hv
      · refine forall₂_imp_mem hpos.2 ?_
        intro b hb r _ hbr
        rcases hbr with h | ⟨h1, h2, h3, h4⟩
        · exact Or.inl h
        · refine Or.inr ⟨h1, h2, ?_, h4⟩
          simp only [Substitution.set, nget_mapSet]
          rw [if_neg (hpw.1 b hb hv hg h1 h3)]
          exact h3
      · exact List.Pairwise.imp (fun {b c : Term}
          (h : b.isVariable = true → nget sub.mapping b.name = none →
            c.isVariable = true → nget sub.mapping c.name = none → b.name ≠ c.name)
          (h1 : b.isVariable = true) (h2 : nget (sub.set a q).mapping b.name = none)
          (h3 : c.isVariable = true) (h4 : nget (sub.set a q).mapping c.name = none) =>
          h h1 (ext_nget_none hext h2) h3 (ext_nget_none hext h4)) hpw.2


theorem oiNoClash_tail (l : Literal) (source dst : List Literal)
    (h : OiNoClash (l :: source) dst) : OiNoClash source dst := by
  intro p hp hv
  have hp1 : p ∈ litTerms (l :: source) := by
    simp only [litTerms, List.flatMap_cons, List.mem_append]
    exact Or.inr hp
  refine ⟨(h p hp1 hv).1, fun q hq hqv => (h p hp1 hv).2 q ?_ hqv⟩
  simp only [litTerms, List.flatMap_cons, List.mem_append]
  exact Or.inr hq

theorem keysFrom_of_sound (T : List Term) (source dst : List Literal) (s y : Substitution)
    (hk : KeysFrom T s) (hT : ∀ p ∈ litTerms source, p ∈ T)
    (h : ∀ e ∈ y.mapping, e ∈ s.mapping ∨
      (e.1 ∈ litTerms source ∧ e.1.isVariable = true ∧ e.2 ∈ litTerms dst ∧
        nget s.mapping e.1.name = none)) : KeysFrom T y := by
  intro e he
  rcases h e he with h1 | ⟨h1, _⟩
  · exact hk e h1
  · exact hT _ h1

theorem oiSubsumeBack_complete (dst : List Literal)
    (hdst : ∀ q ∈ litTerms dst, q.isVariable = false) (T : List Term) (hT : NoAny T)
    (t : Substitution) (hts : MapSorted t.mapping)
    (tinj : ∀ n m w u, nget t.mapping n = some w → nget t.mapping m = some u →
      w.name = u.name → n = m) :
    ∀ (source : List Literal) (s : Substitution), OiInv s → s.injective = true →
    KeysFrom T s → SameMap s t →
    (∀ p ∈ litTerms source, p ∈ T) →
    (∀ l ∈ source, ∀ d ∈ dst, d.pred.eq l.pred = true →
      d.parameters.length = l.parameters.length) →
    OiNoClash source dst →
    (∀ l ∈ source, l.parameters.Pairwise (fun p q => p.isVariable = true →
      nget s.mapping p.name = none → p.name ≠ q.name)) →
    (∀ l ∈ source, ∃ d ∈ dst, d.pred.eq l.pred = true ∧
      List.Forall₂ (fun p q => tauName t p.name = q.name) l.parameters d.parameters) →
    (∀ e ∈ t.mapping, (∃ v, nget s.mapping e.1.name = some v) ∨
      (e.1.isVariable = true ∧ e.1 ∈ litTerms source)) →
    ∃ y ∈ oiSubsumeBack dst source s, SameMap y t ∧
      ∀ n w, nget t.mapping n = some w → ∃ v, nget y.mapping n = some v
  | [], s, _, _, _, hsm, _, _, _, _, _, hkeys => by
    refine ⟨s, by simp [oiSubsumeBack], hsm, ?_⟩
    intro n w hw
    obtain ⟨k, hk, hkn⟩ := mem_of_nget _ _ _ hw
    rcases hkeys (k, w) hk with h | ⟨_, h⟩
    · exact hkn ▸ h
    · simp [litTerms] at h
  | l :: source, s, hinv, hflag, hk, hsm, hsT, hlen, hclash, hnorep, himg, hkeys => by
    obtain ⟨d, hd, hpred, hpos⟩ := himg l (List.mem_cons_self _ _)
    have hdg : ∀ q ∈ d.parameters, q.isVariable = false :=
      fun q hq => hdst q (mem_litTerms dst d q hd hq)
    have hlT : ∀ p ∈ l.parameters, p ∈ litTerms (l :: source) :=
      fun p hp => mem_litTerms _ l p (List.mem_cons_self _ _) hp
    have hrT : ∀ p ∈ litTerms source, p ∈ litTerms (l :: source) := by
      intro p hp
      simp only [litTerms, List.flatMap_cons, List.mem_append]
      exact Or.inr hp
    -- the positions of the applied literal
    have hpos1 : List.Forall₂ (fun a q => a.name = q.name ∨
        (a.isVariable = true ∧ a.name ≠ q.name ∧ nget s.mapping a.name = none ∧
          ∃ w, nget t.mapping a.name = some w ∧ w.name = q.name))
        (s.apply l).parameters d.parameters := by
      simp only [Substitution.apply, List.forall₂_map_left_iff]
      refine forall₂_imp_mem hpos ?_
      intro p hp q hq hpq
      cases hg : nget s.mapping p.name with
      | some v =>
        left
        obtain ⟨w, hw, hwn⟩ := hsm _ _ hg
        rw [applyTerm_of_nget_some s p v hg, ← hwn, ← hpq, tauName_of_some t _ w hw]
      | none =>
        rw [applyTerm_of_nget_none s p hg]
        cases hv : p.isVariable with
        | false =>
          left
          have htn : nget t.mapping p.name = none := by
            cases hx : nget t.mapping p.name with
            | none => rfl
            | some w =>
              exfalso
              obtain ⟨k, hkm, hkn⟩ := mem_of_nget _ _ _ hx
              rcases hkeys (k, w) hkm with ⟨v, h⟩ | ⟨h1, h2⟩
              · rw [show (k, w).1.name = p.name from hkn, hg] at h
                cases h
              · exact (hclash k h2 h1).2 p (hlT p hp) hv hkn
          rw [← hpq, tauName_of_none t _ htn]
        | true =>
          right
          have hne : p.name ≠ q.name :=
            (hclash p (hlT p hp) hv).1 q (mem_litTerms dst d q hd hq)
          refine ⟨rfl, hne, hg, ?_⟩
          cases hx : nget t.mapping p.name with
          | none =>
            rw [tauName_of_none t _ hx] at hpq
            exact absurd hpq hne
          | some w =>
            rw [tauName_of_some t _ w hx] at hpq
            exact ⟨w, rfl, hpq⟩
    have hpw : (s.apply l).parameters.Pairwise (fun a b => a.isVariable = true →
        nget s.mapping a.name = none → b.isVariable = true →
        nget s.mapping b.name = none → a.name ≠ b.name) := by
      simp only [Substitution.apply, List.pairwise_map]
      refine List.Pairwise.imp ?_ (hnorep l (List.mem_cons_self _ _))
      intro p q h h1 h2 h3 _
      have e1 := applyTerm_var_eq s hinv.ground p h1
      have e2 := applyTerm_var_eq s hinv.ground q h3
      rw [e1] at h1 h2 ⊢
      rw [e2]
      exact h h1 h2
    have hvT : ∀ a ∈ (s.apply l).parameters, a.isVariable = true → a ∈ T := by
      intro a ha hv
      simp only [Substitution.apply, List.mem_map] at ha
      obtain ⟨p, hp, rfl⟩ := ha
      rw [applyTerm_var_eq s hinv.ground p hv]
      exact hsT p (hlT p hp)
    obtain ⟨sub1, hm, hsm1, hk1⟩ := oiMatchParams_complete T t tinj _ _ s hinv hsm hk hdg hvT
      hpos1 hpw
    have hl0 : (s.apply l).parameters.length = d.parameters.length := by
      simp only [Substitution.apply, List.length_map]
      exact (hlen l (List.mem_cons_self _ _) d hd hpred).symm
    obtain ⟨a1, a2, a3, _, a5⟩ := oiMatchParams_spec _ _ s sub1 hinv hdg hl0 hm
    have hlen1 : ∀ l1 ∈ source, ∀ d ∈ dst, d.pred.eq l1.pred = true →
        d.parameters.length = l1.parameters.length :=
      fun l1 h1 => hlen l1 (List.mem_cons_of_mem _ h1)
    obtain ⟨y, hy, hyt, hycov⟩ := oiSubsumeBack_complete dst hdst T hT t hts tinj source sub1
      a1 (a3.trans hflag) hk1 hsm1 (fun p hp => hsT p (hrT p hp)) hlen1
      (oiNoClash_tail l source dst hclash)
      (fun l1 h1 => List.Pairwise.imp (fun {p q : Term}
        (h : p.isVariable = true → nget s.mapping p.name = none → p.name ≠ q.name)
        (h2 : p.isVariable = true) (h3 : nget sub1.mapping p.name = none) =>
        h h2 (ext_nget_none a2 h3)) (hnorep l1 (List.mem_cons_of_mem _ h1)))
      (fun l1 h1 => himg l1 (List.mem_cons_of_mem _ h1))
      (by
        intro e he
        rcases hkeys e he with ⟨v, h⟩ | ⟨h1, h2⟩
        · exact Or.inl ⟨v, a2 _ _ h⟩
        · simp only [litTerms, List.flatMap_cons, List.mem_append] at h2
          rcases h2 with h2 | h2
          · left
            cases hg : nget s.mapping e.1.name with
            | some v => exact ⟨v, a2 _ _ hg⟩
            | none =>
              have hmem : s.applyTerm e.1 ∈ (s.apply l).parameters := by
                simp only [Substitution.apply, List.mem_map]
                exact ⟨e.1, h2, rfl⟩
              obtain ⟨q, hq, hr⟩ := forall₂_mem_left a5 _ hmem
              rw [applyTerm_of_nget_none s e.1 hg] at hr
              rcases hr with h3 | ⟨_, _, h3⟩
              · exact absurd h3 ((hclash e.1 (hlT _ h2) h1).1 q (mem_litTerms dst d q hd hq))
              · exact ⟨q, h3⟩
          · exact Or.inr ⟨h1, h2⟩)
    obtain ⟨b1, _, b3, b4, _⟩ := oiSubsumeBack_sound dst hdst source sub1 y a1 hlen1 hy
    have hirr : Substitution.lt y y = false := substitution_lt_irrefl y b1.sorted
    have hfold := oiFold_has_equiv (oiSubsumeBack dst source) s l y sub1 hirr hy dst [] d hd
      hpred hm
    obtain ⟨z, hz, hz1, hz2⟩ := hfold
    have hzmem : z ∈ oiSubsumeBack dst (l :: source) s := by
      simp only [oiSubsumeBack]
      exact hz
    obtain ⟨c1, _, c3, c4, _⟩ := oiSubsumeBack_sound dst hdst (l :: source) s z hinv hlen hzmem
    have hky : KeysFrom T y :=
      keysFrom_of_sound T source dst sub1 y hk1 (fun p hp => hsT p (hrT p hp)) b4
    have hkz : KeysFrom T z := keysFrom_of_sound T (l :: source) dst s z hk hsT c4
    obtain ⟨s1, s2⟩ := sameMap_of_incomparable T hT y z
      (subInv_of_oiInv y b1 (b3.trans (a3.trans hflag)))
      (subInv_of_oiInv z c1 (c3.trans hflag)) hky hkz hz1 hz2
    refine ⟨z, hzmem, sameMap_trans s2 hyt, ?_⟩
    intro n w hw
    obtain ⟨v, hv⟩ := hycov n w hw
    obtain ⟨u, hu, _⟩ := s1 n v hv
    exact ⟨u, hu⟩


theorem names_injective_of_checkInjective (t : Substitution)
    (hinj : t.checkInjective = true) :
    ∀ n m w u, nget t.mapping n = some w → nget t.mapping m = some u →
      w.name = u.name → n = m := by
  intro n m w u hw hu hn
  obtain ⟨k1, hk1, hkn1⟩ := mem_of_nget _ _ _ hw
  obtain ⟨k2, hk2, hkn2⟩ := mem_of_nget _ _ _ hu
  have hp := (names_of_checkInjective_fold t.mapping [] hinj).2
  by_cases he : (k1, w) = (k2, u)
  · have : k1 = k2 := congrArg Prod.fst he
    rw [← hkn1, ← hkn2, this]
  · exfalso
    have := List.Pairwise.forall (fun {a b : Term × Term} (h : a.2.eq b.2 = false) => by
      rw [Term.eq_comm]; exact h) hp hk1 hk2 he
    exact Term.name_ne_of_eq_false w u this hn

theorem imageIn_iff_tauName (dst : List Literal) (t : Substitution) (l : Literal) :
    ImageIn dst t l ↔ ∃ d ∈ dst, d.pred.eq l.pred = true ∧
      List.Forall₂ (fun p q => tauName t p.name = q.name) l.parameters d.parameters := by
  unfold ImageIn
  simp only [Substitution.apply, List.forall₂_map_left_iff, applyTerm_name]

theorem litTerms_reverse (src : List Literal) (p : Term) :
    p ∈ litTerms src.reverse ↔ p ∈ litTerms src := by
  simp only [litTerms, List.mem_flatMap, List.mem_reverse]

theorem oiNoClash_reverse (src dst : List Literal) (h : OiNoClash src dst) :
    OiNoClash src.reverse dst :=
  fun p hp hv => ⟨(h p ((litTerms_reverse src p).mp hp) hv).1,
    fun q hq hqv => (h p ((litTerms_reverse src p).mp hp) hv).2 q
      ((litTerms_reverse src q).mp hq) hqv⟩

/-- C13 (amended): under the hypotheses of the amended C12, when moreover no variable is
named `ANY` and no literal of the source holds twice a variable that the initial
substitution does not bind, `oiSubsume` returns every injective extension of the initial
substitution that binds only unbound variables of the source and maps the source into
`dst` up to the polarity, and it returns the empty set when there is none. -/
theorem C13_oiSubsume_complete (s0 : Substitution) (src dst : List Literal)
    (hs0 : MapSorted s0.mapping) (hflag : s0.injective = true)
    (hinj : s0.checkInjective = true)
    (hs0g : ∀ e ∈ s0.mapping, e.2.isVariable = false)
    (hdst : ∀ d ∈ dst, d.grounded = true)
    (hlen : ∀ l ∈ src, ∀ d ∈ dst, d.pred.eq l.pred = true →
      d.parameters.length = l.parameters.length)
    (hclash : OiNoClash src dst)
    (hany : NoAny (s0.mapping.map (fun e => e.1) ++ litTerms src))
    (hnorep : ∀ l ∈ src, l.parameters.Pairwise (fun p q => p.isVariable = true →
      s0.get p = none → p.name ≠ q.name)) :
    (∀ t, OiValid s0 src dst t → inList Substitution.eq (s0.oiSubsume src dst) t = true) ∧
    ((∀ t, ¬ OiValid s0 src dst t) → s0.oiSubsume src dst = []) := by
  have hdg : ∀ q ∈ litTerms dst, q.isVariable = false := by
    intro q hq
    simp only [litTerms, List.mem_flatMap] at hq
    obtain ⟨d, hd, hqd⟩ := hq
    exact (grounded_iff d).mp (hdst d hd) q hqd
  have hinv0 : OiInv s0 := oiInv_of_checkInjective s0 hs0 hs0g hinj
  have hlenr : ∀ l ∈ src.reverse, ∀ d ∈ dst, d.pred.eq l.pred = true →
      d.parameters.length = l.parameters.length :=
    fun l hl => hlen l (List.mem_reverse.mp hl)
  constructor
  · intro t ht
    have hk0 : KeysFrom (s0.mapping.map (fun e => e.1) ++ litTerms src) s0 :=
      fun e he => List.mem_append_left _ (List.mem_map_of_mem _ he)
    have hsm0 : SameMap s0 t := by
      intro n v hv
      obtain ⟨k, hk, hkn⟩ := mem_of_nget _ _ _ hv
      exact ⟨v, hkn ▸ nget_of_mem _ ht.sorted (k, v) (ht.keeps _ hk), rfl⟩
    obtain ⟨y, hy, hyt, hycov⟩ := oiSubsumeBack_complete dst hdg _ hany t ht.sorted
      (names_injective_of_checkInjective t ht.inj) src.reverse s0 hinv0 hflag hk0
      hsm0 (fun p hp => List.mem_append_right _ ((litTerms_reverse src p).mp hp)) hlenr
      (oiNoClash_reverse src dst hclash)
      (fun l hl => List.Pairwise.imp (fun {p q : Term}
        (h : p.isVariable = true → s0.get p = none → p.name ≠ q.name)
        (h1 : p.isVariable = true) (h2 : nget s0.mapping p.name = none) =>
        h h1 (by rw [Substitution.get_eq_nget]; exact h2))
        (hnorep l (List.mem_reverse.mp hl)))
      (fun l hl => (imageIn_iff_tauName dst t l).mp (ht.image l (List.mem_reverse.mp hl)))
      (by
        intro e he
        rcases ht.binds e he with h | ⟨h1, h2, _⟩
        · exact Or.inl ⟨e.2, nget_of_mem _ hs0 e h⟩
        · exact Or.inr ⟨h1, (litTerms_reverse src e.1).mpr h2⟩)
    obtain ⟨b1, _, b3, _, _⟩ := oiSubsumeBack_sound dst hdg src.reverse s0 y hinv0 hlenr hy
    have heq : Substitution.eq y t = true :=
      substitution_eq_of_same_map y t b1.sorted ht.sorted (b3.trans ht.flag.symm) hyt hycov
    simp only [inList, List.any_eq_true]
    exact ⟨y, hy, heq⟩
  · intro hnone
    cases hres : s0.oiSubsume src dst with
    | nil => rfl
    | cons y ys =>
      exfalso
      have hy : y ∈ oiSubsumeBack dst src.reverse s0 := by
        have : y ∈ s0.oiSubsume src dst := by
          rw [hres]
          exact List.mem_cons_self _ _
        exact this
      obtain ⟨b1, b2, b3, b4, b5⟩ :=
        oiSubsumeBack_sound dst hdg src.reverse s0 y hinv0 hlenr hy
      refine hnone y ⟨b1.sorted, b3, checkInjective_of_oiInv y b1, ?_, ?_, ?_⟩
      · intro e he
        have hge := b2 _ _ (nget_of_mem _ hs0 e he)
        obtain ⟨k, hk, hkn⟩ := mem_of_nget _ _ _ hge
        rcases b4 (k, e.2) hk with h | ⟨_, _, _, h⟩
        · have : (k, e.2) = e := mapSorted_unique _ hs0 (k, e.2) e h he hkn
          rw [← this]
          exact hk
        · rw [show (k, e.2).1.name = e.1.name from hkn, nget_of_mem _ hs0 e he] at h
          cases h
      · intro e he
        rcases b4 e he with h | ⟨h1, h2, _, h4⟩
        · exact Or.inl h
        · exact Or.inr ⟨h2, (litTerms_reverse src e.1).mp h1, by
            rw [Substitution.get_eq_nget]; exact h4⟩
      · intro l hl
        exact (imageIn_iff_tauName dst y l).mpr
          (b5 (oiNoClash_reverse src dst hclash) l (List.mem_reverse.mpr hl))


/-- C13 (counterexample). Valid substitutions that `oiSubsume` does not return: (1) for the
source `q(X, X)` and `dst = q(a, a)`, `\x7bX/a\x7d`, the result being empty; (2) for the
source `q(?ANY), p(X)` and `dst = p(b), p(c), q(a)`, `\x7bANY/a, X/c\x7d`, the result
holding only `\x7bANY/a, X/b\x7d`; (3) for the source `p(?a)` and `dst = p(a)`,
`\x7b?a/a\x7d`, the result holding only the empty substitution; (4) for the source
`p(?a), p(a)` and `dst = p(b)`, `\x7b?a/b\x7d`, the result being empty. Results that are not
empty although no substitution is valid: (5) from `\x7bX/?Y\x7d`, the source `p(X)` and
`dst = p(a)`; (6) for the source `p(X), q(X)` and `dst = p(a), q(?Y)`; (7) for the source
`p(X)` with `p` of arity 1 and `dst = p(a, b)` with `p` of arity 2. -/
theorem C13_counterexample :
    (OiValid Substitution.empty [mkLit "q" [mkVar "X", mkVar "X"]]
        [mkLit "q" [mkConst "a", mkConst "a"]] ⟨[(mkVar "X", mkConst "a")], true⟩ ∧
      Substitution.empty.oiSubsume [mkLit "q" [mkVar "X", mkVar "X"]]
        [mkLit "q" [mkConst "a", mkConst "a"]] = []) ∧
    (OiValid Substitution.empty [mkLit "q" [mkVar "ANY"], mkLit "p" [mkVar "X"]]
        [mkLit "p" [mkConst "b"], mkLit "p" [mkConst "c"], mkLit "q" [mkConst "a"]]
        ⟨[(mkVar "ANY", mkConst "a"), (mkVar "X", mkConst "c")], true⟩ ∧
      Substitution.empty.oiSubsume [mkLit "q" [mkVar "ANY"], mkLit "p" [mkVar "X"]]
          [mkLit "p" [mkConst "b"], mkLit "p" [mkConst "c"], mkLit "q" [mkConst "a"]] =
        [⟨[(mkVar "ANY", mkConst "a"), (mkVar "X", mkConst "b")], true⟩] ∧
      Substitution.eq ⟨[(mkVar "ANY", mkConst "a"), (mkVar "X", mkConst "b")], true⟩
        ⟨[(mkVar "ANY", mkConst "a"), (mkVar "X", mkConst "c")], true⟩ = false) ∧
    (OiValid Substitution.empty [mkLit "p" [mkVar "a"]] [mkLit "p" [mkConst "a"]]
        ⟨[(mkVar "a", mkConst "a")], true⟩ ∧
      Substitution.empty.oiSubsume [mkLit "p" [mkVar "a"]] [mkLit "p" [mkConst "a"]] =
        [Substitution.empty] ∧
      Substitution.eq Substitution.empty ⟨[(mkVar "a", mkConst "a")], true⟩ = false) ∧
    (OiValid Substitution.empty [mkLit "p" [mkVar "a"], mkLit "p" [mkConst "a"]]
        [mkLit "p" [mkConst "b"]] ⟨[(mkVar "a", mkConst "b")], true⟩ ∧
      Substitution.empty.oiSubsume [mkLit "p" [mkVar "a"], mkLit "p" [mkConst "a"]]
        [mkLit "p" [mkConst "b"]] = []) ∧
    ((⟨[(mkVar "X", mkVar "Y")], true⟩ : Substitution).oiSubsume [mkLit "p" [mkVar "X"]]
        [mkLit "p" [mkConst "a"]] ≠ [] ∧
      ∀ t, ¬ OiValid ⟨[(mkVar "X", mkVar "Y")], true⟩ [mkLit "p" [mkVar "X"]]
        [mkLit "p" [mkConst "a"]] t) ∧
    (Substitution.empty.oiSubsume [mkLit "p" [mkVar "X"], mkLit "q" [mkVar "X"]]
        [mkLit "p" [mkConst "a"], mkLit "q" [mkVar "Y"]] ≠ [] ∧
      ∀ t, ¬ OiValid Substitution.empty [mkLit "p" [mkVar "X"], mkLit "q" [mkVar "X"]]
        [mkLit "p" [mkConst "a"], mkLit "q" [mkVar "Y"]] t) ∧
    (Substitution.empty.oiSubsume [mkLit "p" [mkVar "X"]]
        [mkLit "p" [mkConst "a", mkConst "b"]] ≠ [] ∧
      ∀ t, ¬ OiValid Substitution.empty [mkLit "p" [mkVar "X"]]
        [mkLit "p" [mkConst "a", mkConst "b"]] t) := by
  refine ⟨⟨⟨by unfold MapSorted; decide, by decide, by decide, by decide, by decide,
      by unfold ImageIn; decide⟩, by decide⟩,
    ⟨⟨by unfold MapSorted; decide, by decide, by decide, by decide, by decide,
      by unfold ImageIn; decide⟩, by decide, by decide⟩,
    ⟨⟨by unfold MapSorted; decide, by decide, by decide, by decide, by decide,
      by unfold ImageIn; decide⟩, by decide, by decide⟩,
    ⟨⟨by unfold MapSorted; decide, by decide, by decide, by decide, by decide,
      by unfold ImageIn; decide⟩, by decide⟩,
    ⟨by decide, ?_⟩, ⟨by decide, ?_⟩, ⟨by decide, ?_⟩⟩
  · intro t ht
    have hx : nget t.mapping "X" = some (mkVar "Y") :=
      nget_of_mem _ ht.sorted (mkVar "X", mkVar "Y") (ht.keeps _ (List.mem_singleton_self _))
    obtain ⟨d, hd, _, hpos⟩ := ht.image _ (List.mem_singleton_self _)
    rw [List.mem_singleton] at hd
    subst hd
    simp only [Substitution.apply, mkLit, List.map_cons, List.map_nil, List.forall₂_cons,
      List.forall₂_nil_left_iff, and_true] at hpos
    rw [applyTerm_of_nget_some t (mkVar "X") (mkVar "Y") hx] at hpos
    exact absurd hpos (by decide)
  · intro t ht
    obtain ⟨d1, hd1, hp1, hpos1⟩ := ht.image (mkLit "p" [mkVar "X"]) (by simp)
    obtain ⟨d2, hd2, hp2, hpos2⟩ := ht.image (mkLit "q" [mkVar "X"]) (by simp)
    simp only [List.mem_cons, List.mem_singleton, List.not_mem_nil, or_false] at hd1 hd2
    rcases hd1 with h1 | h1
    · rcases hd2 with h2 | h2
      · subst h2
        exact absurd hp2 (by decide)
      · subst h1
        subst h2
        simp only [Substitution.apply, mkLit, List.map_cons, List.map_nil, List.forall₂_cons,
          List.forall₂_nil_left_iff, and_true] at hpos1 hpos2
        rw [hpos1] at hpos2
        exact absurd hpos2 (by decide)
    · subst h1
      exact absurd hp1 (by decide)
  · intro t ht
    obtain ⟨d, hd, _, hpos⟩ := ht.image _ (List.mem_singleton_self _)
    rw [List.mem_singleton] at hd
    subst hd
    have := hpos.length_eq
    simp [Substitution.apply, mkLit] at this


/-- C13 (witness): the first subsumption of the test `SubstitutionOps`. -/
theorem C13_oiSubsume_complete_witness :
    MapSorted subOi.mapping ∧ subOi.injective = true ∧ subOi.checkInjective = true ∧
    (∀ e ∈ subOi.mapping, e.2.isVariable = false) ∧
    (∀ d ∈ dstOi, d.grounded = true) ∧
    (∀ l ∈ srcOi, ∀ d ∈ dstOi, d.pred.eq l.pred = true →
      d.parameters.length = l.parameters.length) ∧
    OiNoClash srcOi dstOi ∧
    NoAny (subOi.mapping.map (fun e => e.1) ++ litTerms srcOi) ∧
    (∀ l ∈ srcOi, l.parameters.Pairwise (fun p q => p.isVariable = true →
      subOi.get p = none → p.name ≠ q.name)) ∧
    ((∀ t, OiValid subOi srcOi dstOi t →
      inList Substitution.eq (subOi.oiSubsume srcOi dstOi) t = true) ∧
    ((∀ t, ¬ OiValid subOi srcOi dstOi t) → subOi.oiSubsume srcOi dstOi = [])) :=
  ⟨by unfold MapSorted; decide, by decide, by decide, by decide, by decide, by decide,
    by unfold OiNoClash; decide, by unfold NoAny; decide, by decide,
    C13_oiSubsume_complete subOi srcOi dstOi (by unfold MapSorted; decide) (by decide)
      (by decide) (by decide) (by decide) (by decide) (by unfold OiNoClash; decide)
      (by unfold NoAny; decide) (by decide)⟩

theorem TermType.subsumes_iff_chain (a b : TermType) :
    a.subsumes b = true ↔ a.name ∈ b.chainNames := by
  induction b with
  | base n => simp [TermType.subsumes, TermType.chainNames]
  | child n p ih => simp [TermType.subsumes, TermType.chainNames, ih]

/-- C22: `typeSubsumes A B` holds iff `A` is absent, or `B` is present and the
name of `A` is the name of `B` or of one of its ancestors along the parent
chain; so the absent type subsumes every type, itself included, and no present
type subsumes the absent type. -/
theorem C22_typeSubsumes_iff :
    (∀ A B : Option TermType, typeSubsumes A B = true ↔
      (A = none ∨ ∃ a b, A = some a ∧ B = some b ∧ a.name ∈ b.chainNames)) ∧
    (∀ B : Option TermType, typeSubsumes none B = true) ∧
    (∀ a : TermType, typeSubsumes (some a) none = false) := by
  refine ⟨?_, ?_, ?_⟩
  · intro A B
    cases A with
    | none => simp [typeSubsumes]
    | some a =>
      cases B with
      | none => simp [typeSubsumes]
      | some b => simp [typeSubsumes, TermType.subsumes_iff_chain]
  · intro B; rfl
  · intro a; rfl

/-! ## The least general covering rule -/

/-- A fold whose state is optional succeeds and keeps an invariant on the elements
already visited when every step does. -/
theorem foldl_option_prefix {β γ : Type} (f : Option γ → β → Option γ)
    (P : List β → γ → Prop) (l : List β) :
    ∀ (pre : List β) (s0 : γ), P pre s0 →
      (∀ pre1 s b, b ∈ l → P pre1 s → ∃ s1, f (some s) b = some s1 ∧ P (pre1 ++ [b]) s1) →
      ∃ s1, l.foldl f (some s0) = some s1 ∧ P (pre ++ l) s1 := by
  induction l with
  | nil => intro pre s0 h0 _; exact ⟨s0, rfl, by simpa using h0⟩
  | cons b bs ih =>
    intro pre s0 h0 hf
    obtain ⟨s1, hs1, hp1⟩ := hf pre s0 b (List.mem_cons_self _ _) h0
    obtain ⟨s2, hs2, hp2⟩ := ih (pre ++ [b]) s1 hp1
      (fun pre1 s c hc hp => hf pre1 s c (List.mem_cons_of_mem _ hc) hp)
    refine ⟨s2, ?_, ?_⟩
    · simp only [List.foldl_cons, hs1, hs2]
    · simpa using hp2

theorem foldl_generalityStep_none (L : Nat → Option Nat) (l : List Nat) :
    l.foldl (fun acc p => generalityStep (L p) acc) none = none := by
  induction l with
  | nil => rfl
  | cons p ps ih => simpa [List.foldl_cons, generalityStep] using ih

theorem foldl_generalityStep_mono (L1 L2 : Nat → Option Nat) (l : List Nat)
    (h : ∀ p ∈ l, ∀ g, L1 p = some g → L2 p = some g) :
    ∀ (a : Option Nat) (g : Nat),
      l.foldl (fun acc p => generalityStep (L1 p) acc) a = some g →
      l.foldl (fun acc p => generalityStep (L2 p) acc) a = some g := by
  induction l with
  | nil => intro a g hg; exact hg
  | cons p ps ih =>
    intro a g hg
    simp only [List.foldl_cons] at hg ⊢
    cases a with
    | none =>
      rw [show generalityStep (L1 p) none = none by simp [generalityStep],
        foldl_generalityStep_none] at hg
      cases hg
    | some m =>
      cases h1 : L1 p with
      | none =>
        rw [h1, show generalityStep none (some m) = none by simp [generalityStep],
          foldl_generalityStep_none] at hg
        cases hg
      | some g1 =>
        rw [h p (List.mem_cons_self _ _) g1 h1]
        rw [h1] at hg
        exact ih (fun q hq => h q (List.mem_cons_of_mem _ hq)) _ _ hg

/-- More fuel does not change a level that `generalityLevel` has computed. -/
theorem generalityLevel_mono (heap : List ActionRule) :
    ∀ (f1 f2 i g : Nat), generalityLevel heap f1 i = some g → f1 ≤ f2 →
      generalityLevel heap f2 i = some g := by
  intro f1
  induction f1 with
  | zero => intro f2 i g h; simp [generalityLevel] at h
  | succ f1 ih =>
    intro f2 i g h hle
    obtain ⟨f3, rfl⟩ : ∃ f3, f2 = f3 + 1 := ⟨f2 - 1, by omega⟩
    simp only [generalityLevel] at h ⊢
    exact foldl_generalityStep_mono _ _ _
      (fun p _ g1 hg1 => ih f3 p g1 hg1 (by omega)) _ _ h

theorem foldl_generalityStep_eq (L : Nat → Option Nat) (v : Nat → Nat) (l : List Nat)
    (h : ∀ p ∈ l, L p = some (v p)) :
    ∀ a : Nat, l.foldl (fun acc p => generalityStep (L p) acc) (some a) =
      some (l.foldl (fun m p => if v p + 1 > m then v p + 1 else m) a) := by
  induction l with
  | nil => intro a; rfl
  | cons p ps ih =>
    intro a
    simp only [List.foldl_cons, h p (List.mem_cons_self _ _), generalityStep]
    exact ih (fun q hq => h q (List.mem_cons_of_mem _ hq)) _

theorem foldl_max_spec (v : Nat → Nat) (l : List Nat) :
    ∀ a : Nat,
      a ≤ l.foldl (fun m p => if v p + 1 > m then v p + 1 else m) a ∧
      (∀ p ∈ l, v p + 1 ≤ l.foldl (fun m p => if v p + 1 > m then v p + 1 else m) a) ∧
      (l.foldl (fun m p => if v p + 1 > m then v p + 1 else m) a = a ∨
        ∃ p ∈ l, l.foldl (fun m p => if v p + 1 > m then v p + 1 else m) a = v p + 1) := by
  induction l with
  | nil => intro a; simp
  | cons q qs ih =>
    intro a
    simp only [List.foldl_cons]
    by_cases hq : v q + 1 > a
    · simp only [if_pos hq]
      obtain ⟨h1, h2, h3⟩ := ih (v q + 1)
      refine ⟨by omega, ?_, ?_⟩
      · intro p hp
        rcases List.mem_cons.mp hp with rfl | hp
        · exact h1
        · exact h2 p hp
      · right
        rcases h3 with h3 | ⟨p, hp, h3⟩
        · exact ⟨q, List.mem_cons_self _ _, h3⟩
        · exact ⟨p, List.mem_cons_of_mem _ hp, h3⟩
    · simp only [if_neg hq]
      obtain ⟨h1, h2, h3⟩ := ih a
      refine ⟨h1, ?_, ?_⟩
      · intro p hp
        rcases List.mem_cons.mp hp with rfl | hp
        · omega
        · exact h2 p hp
      · rcases h3 with h3 | ⟨p, hp, h3⟩
        · exact Or.inl h3
        · exact Or.inr ⟨p, List.mem_cons_of_mem _ hp, h3⟩

/-- On an acyclic DAG the level of a node is `0` without parents and one more than the
greatest level of its parents otherwise. -/
theorem generalityLevel_parents (heap : List ActionRule) (rank : Nat → Nat) (depth : Nat)
    (hacyc : ∀ i p, p ∈ (ruleAt heap i).parents → rank p < rank i)
    (hdepth : ∀ i, rank i < depth) (i : Nat) :
    ∃ g, generalityLevel heap depth i = some g ∧
      ((ruleAt heap i).parents = [] → g = 0) ∧
      (∀ p ∈ (ruleAt heap i).parents,
        ∃ gp, generalityLevel heap depth p = some gp ∧ gp + 1 ≤ g) ∧
      ((ruleAt heap i).parents ≠ [] →
        ∃ p ∈ (ruleAt heap i).parents, ∃ gp, generalityLevel heap depth p = some gp ∧
          g = gp + 1) := by
  obtain ⟨fuel, rfl⟩ : ∃ fuel, depth = fuel + 1 := ⟨depth - 1, by have := hdepth i; omega⟩
  have hpar : ∀ p ∈ (ruleAt heap i).parents, ∃ gp,
      generalityLevel heap fuel p = some gp ∧ generalityLevel heap (fuel + 1) p = some gp := by
    intro p hp
    obtain ⟨gp, hgp⟩ := generalityLevel_some heap rank hacyc fuel p
      (by have := hacyc i p hp; have := hdepth i; omega)
    exact ⟨gp, hgp, generalityLevel_mono heap fuel (fuel + 1) p gp hgp (by omega)⟩
  have hv : ∀ p ∈ (ruleAt heap i).parents,
      generalityLevel heap fuel p = some ((generalityLevel heap (fuel + 1) p).getD 0) := by
    intro p hp
    obtain ⟨gp, h1, h2⟩ := hpar p hp
    rw [h1, h2]; rfl
  have heq := foldl_generalityStep_eq (generalityLevel heap fuel)
    (fun p => (generalityLevel heap (fuel + 1) p).getD 0) (ruleAt heap i).parents hv 0
  obtain ⟨_, h2, h3⟩ := foldl_max_spec
    (fun p => (generalityLevel heap (fuel + 1) p).getD 0) (ruleAt heap i).parents 0
  refine ⟨(ruleAt heap i).parents.foldl (fun m p =>
    if (generalityLevel heap (fuel + 1) p).getD 0 + 1 > m then
      (generalityLevel heap (fuel + 1) p).getD 0 + 1 else m) 0, ?_, ?_, ?_, ?_⟩
  · conv_lhs => unfold generalityLevel
    exact heq
  · intro he
    rw [he]; rfl
  · intro p hp
    obtain ⟨gp, _, hgp⟩ := hpar p hp
    refine ⟨gp, hgp, ?_⟩
    have := h2 p hp
    rw [hgp] at this
    exact this
  · intro hne
    rcases h3 with h3 | ⟨p, hp, h3⟩
    · obtain ⟨p, hp⟩ := List.exists_mem_of_ne_nil _ hne
      have := h2 p hp
      omega
    · obtain ⟨gp, _, hgp⟩ := hpar p hp
      refine ⟨p, hp, gp, hgp, ?_⟩
      rw [h3, hgp]; rfl

/-- On an acyclic DAG the level of an ancestor is below the level of the node. -/
theorem generalityLevel_reach (heap : List ActionRule) (rank : Nat → Nat) (depth : Nat)
    (hacyc : ∀ i p, p ∈ (ruleAt heap i).parents → rank p < rank i)
    (hdepth : ∀ i, rank i < depth) {i j : Nat} (h : Reach heap i j) :
    (generalityLevel heap depth j).getD 0 ≤ (generalityLevel heap depth i).getD 0 ∧
    (j ≠ i → (generalityLevel heap depth j).getD 0 < (generalityLevel heap depth i).getD 0) := by
  induction h using Relation.ReflTransGen.head_induction_on with
  | refl => exact ⟨le_refl _, fun h => absurd rfl h⟩
  | head hab hbc ih =>
    rename_i a b
    obtain ⟨g, hg, _, hpar, _⟩ := generalityLevel_parents heap rank depth hacyc hdepth a
    obtain ⟨gp, hgp, hle⟩ := hpar b hab
    rw [hg]
    rw [hgp] at ih
    simp only [Option.getD_some] at ih ⊢
    have := ih.1
    exact ⟨by omega, fun _ => by omega⟩

/-- With enough fuel on an acyclic DAG, `getLeastGeneralRuleCovering` returns; it returns
the null pointer only when no node among the rule and its ancestors covers the example,
and a node it returns is among them, covers the example, and has the least level of the
covering nodes among them. -/
theorem getLeastGeneralRuleCovering_least (heap : List ActionRule) (rank : Nat → Nat)
    (depth : Nat) (x : ActionRule)
    (hacyc : ∀ i p, p ∈ (ruleAt heap i).parents → rank p < rank i)
    (hdepth : ∀ i, rank i < depth) :
    ∀ fuel i, rank i < fuel →
      ∃ res, getLeastGeneralRuleCovering heap depth x fuel i = some res ∧
        (res = none → ∀ j, Reach heap i j →
          (ruleAt heap j).covers x Substitution.empty = false) ∧
        ∀ lgr, res = some lgr →
          Reach heap i lgr ∧ (ruleAt heap lgr).covers x Substitution.empty = true ∧
          ∀ j, Reach heap i j → (ruleAt heap j).covers x Substitution.empty = true →
            (generalityLevel heap depth lgr).getD 0 ≤ (generalityLevel heap depth j).getD 0 := by
  intro fuel
  induction fuel with
  | zero => intro i h; omega
  | succ fuel ih =>
    intro i hi
    obtain ⟨st, hst, hp⟩ := foldl_option_prefix
      (fun acc pit =>
        leastCoveringStep heap depth (getLeastGeneralRuleCovering heap depth x fuel pit) acc)
      (fun pre st =>
        (st.1 = none →
          st.2 = (if (ruleAt heap i).covers x Substitution.empty then some i else none) ∧
          ∀ p ∈ pre, ∀ j, Reach heap p j →
            (ruleAt heap j).covers x Substitution.empty = false) ∧
        (∀ m, st.1 = some m → ∃ lgr, st.2 = some lgr ∧
          (generalityLevel heap depth lgr).getD 0 = m ∧
          (∃ p ∈ (ruleAt heap i).parents, Reach heap p lgr) ∧
          (ruleAt heap lgr).covers x Substitution.empty = true ∧
          ∀ p ∈ pre, ∀ j, Reach heap p j →
            (ruleAt heap j).covers x Substitution.empty = true → m ≤
              (generalityLevel heap depth j).getD 0))
      (ruleAt heap i).parents []
      (none, if (ruleAt heap i).covers x Substitution.empty then some i else none)
      ⟨fun _ => ⟨rfl, fun p hp => absurd hp (List.not_mem_nil _)⟩, fun m hm => by cases hm⟩
      (by
        rintro pre ⟨mg, result⟩ pit hpit ⟨hnone, hsome⟩
        obtain ⟨r, hr, hrn, hrp⟩ := ih pit (by have := hacyc i pit hpit; omega)
        dsimp only at hnone hsome ⊢
        rw [hr]
        cases r with
        | none =>
          refine ⟨_, rfl, ?_, ?_⟩
          · intro hmg
            refine ⟨(hnone hmg).1, ?_⟩
            intro p hp j hj
            rcases List.mem_append.mp hp with hp | hp
            · exact (hnone hmg).2 p hp j hj
            · rw [List.mem_singleton] at hp
              subst hp
              exact hrn rfl j hj
          · intro m hm
            obtain ⟨lgr, h1, h2, h3, h4, h5⟩ := hsome m hm
            refine ⟨lgr, h1, h2, h3, h4, ?_⟩
            intro p hp j hj hc
            rcases List.mem_append.mp hp with hp | hp
            · exact h5 p hp j hj hc
            · rw [List.mem_singleton] at hp
              subst hp
              rw [hrn rfl j hj] at hc
              cases hc
        | some lgr1 =>
          obtain ⟨g, hg⟩ := generalityLevel_some heap rank hacyc depth lgr1 (hdepth lgr1)
          obtain ⟨hreach, hcov, hmin⟩ := hrp lgr1 rfl
          rw [hg] at hmin
          simp only [Option.getD_some] at hmin
          simp only [leastCoveringStep, hg]
          split
          · rename_i hcond
            refine ⟨_, rfl, ?_, ?_⟩
            · intro hmg
              cases hmg
            · intro m hm
              cases hm
              refine ⟨lgr1, rfl, by rw [hg]; rfl, ⟨pit, hpit, hreach⟩, hcov, ?_⟩
              intro p hp j hj hc
              rcases List.mem_append.mp hp with hp | hp
              · cases mg with
                | none =>
                  rw [(hnone rfl).2 p hp j hj] at hc
                  cases hc
                | some m0 =>
                  obtain ⟨_, _, _, _, _, h5⟩ := hsome m0 rfl
                  have := h5 p hp j hj hc
                  simp only [gt_iff_lt, decide_eq_true_eq] at hcond
                  omega
              · rw [List.mem_singleton] at hp
                subst hp
                exact hmin j hj hc
          · rename_i hcond
            cases mg with
            | none => simp at hcond
            | some m0 =>
              simp only [gt_iff_lt, decide_eq_true_eq] at hcond
              refine ⟨_, rfl, ?_, ?_⟩
              · intro hmg
                cases hmg
              · intro m hm
                cases hm
                obtain ⟨lgr, h1, h2, h3, h4, h5⟩ := hsome m0 rfl
                refine ⟨lgr, h1, h2, h3, h4, ?_⟩
                intro p hp j hj hc
                rcases List.mem_append.mp hp with hp | hp
                · exact h5 p hp j hj hc
                · rw [List.mem_singleton] at hp
                  subst hp
                  have := hmin j hj hc
                  omega)
    obtain ⟨hnone, hsome⟩ := hp
    rw [List.nil_append] at hnone hsome
    refine ⟨st.2, ?_, ?_, ?_⟩
    · simp only [getLeastGeneralRuleCovering, hst, Option.map_some']
    · intro hres j hj
      cases hmg : st.1 with
      | some m =>
        obtain ⟨lgr, h1, _⟩ := hsome m hmg
        rw [h1] at hres
        cases hres
      | none =>
        obtain ⟨h1, h2⟩ := hnone hmg
        rcases Relation.ReflTransGen.cases_head hj with rfl | ⟨p, hp, hpj⟩
        · rw [hres] at h1
          cases hc : (ruleAt heap i).covers x Substitution.empty with
          | false => rfl
          | true => rw [hc] at h1; simp at h1
        · exact h2 p hp j hpj
    · intro lgr hres
      cases hmg : st.1 with
      | some m =>
        obtain ⟨lgr1, h1, h2, ⟨p, hp, hreach⟩, h4, h5⟩ := hsome m hmg
        rw [h1] at hres
        cases hres
        refine ⟨Relation.ReflTransGen.head hp hreach, h4, ?_⟩
        intro j hj hc
        rcases Relation.ReflTransGen.cases_head hj with rfl | ⟨q, hq, hqj⟩
        · have := (generalityLevel_reach heap rank depth hacyc hdepth
            (Relation.ReflTransGen.head hp hreach)).1
          exact this
        · rw [h2]
          exact h5 q hq j hqj hc
      | none =>
        obtain ⟨h1, h2⟩ := hnone hmg
        rw [hres] at h1
        cases hc : (ruleAt heap i).covers x Substitution.empty with
        | false => rw [hc] at h1; simp at h1
        | true =>
          rw [hc] at h1
          simp only [if_true, Option.some.injEq] at h1
          subst h1
          refine ⟨Relation.ReflTransGen.refl, hc, ?_⟩
          intro j hj hcj
          rcases Relation.ReflTransGen.cases_head hj with rfl | ⟨q, hq, hqj⟩
          · exact le_refl _
          · rw [h2 q hq j hqj] at hcj
            cases hcj

/-- C28: on an acyclic generalisation DAG, `getLeastGeneralRuleCovering` returns; it
returns nothing iff no node among the rule and its ancestors covers the example;
otherwise it returns such a node, which covers the example and whose generality level
is the least among the covering nodes reachable from the rule. The generality level of
every node is `0` without parents and one more than the greatest level of its parents
otherwise. -/
theorem C28_least_general_covering (heap : List ActionRule) (depth : Nat) (x : ActionRule)
    (i : Nat) (hacyc : Acyclic heap depth) :
    (∃ res, getLeastGeneralRuleCovering heap depth x depth i = some res ∧
      (res = none ↔ ∀ j, Reach heap i j →
        (ruleAt heap j).covers x Substitution.empty = false) ∧
      ∀ lgr, res = some lgr →
        Reach heap i lgr ∧ (ruleAt heap lgr).covers x Substitution.empty = true ∧
        ∃ g, generalityLevel heap depth lgr = some g ∧
          ∀ j, Reach heap i j → (ruleAt heap j).covers x Substitution.empty = true →
            ∃ gj, generalityLevel heap depth j = some gj ∧ g ≤ gj) ∧
    ∀ k, ∃ g, generalityLevel heap depth k = some g ∧
      ((ruleAt heap k).parents = [] → g = 0) ∧
      (∀ p ∈ (ruleAt heap k).parents,
        ∃ gp, generalityLevel heap depth p = some gp ∧ gp + 1 ≤ g) ∧
      ((ruleAt heap k).parents ≠ [] →
        ∃ p ∈ (ruleAt heap k).parents, ∃ gp, generalityLevel heap depth p = some gp ∧
          g = gp + 1) := by
  obtain ⟨rank, hdepth, hacyc⟩ := hacyc
  refine ⟨?_, generalityLevel_parents heap rank depth hacyc hdepth⟩
  obtain ⟨res, hres, hnone, hsome⟩ :=
    getLeastGeneralRuleCovering_least heap rank depth x hacyc hdepth depth i (hdepth i)
  refine ⟨res, hres, ⟨hnone, ?_⟩, ?_⟩
  · intro hall
    cases res with
    | none => rfl
    | some lgr =>
      obtain ⟨hreach, hcov, _⟩ := hsome lgr rfl
      rw [hall lgr hreach] at hcov
      cases hcov
  · intro lgr hl
    obtain ⟨hreach, hcov, hmin⟩ := hsome lgr hl
    obtain ⟨g, hg⟩ := generalityLevel_some heap rank hacyc depth lgr (hdepth lgr)
    refine ⟨hreach, hcov, g, hg, ?_⟩
    intro j hj hc
    obtain ⟨gj, hgj⟩ := generalityLevel_some heap rank hacyc depth j (hdepth j)
    refine ⟨gj, hgj, ?_⟩
    have := hmin j hj hc
    rw [hg, hgj] at this
    exact this

/-- C28 (witness): the statement on the arena whose rule at index 1 does not cover the
example at index 2 while its parent at index 0 does. -/
theorem C28_least_general_covering_witness :
    Acyclic agentAncestorCovers.heap 3 ∧
    ((∃ res, getLeastGeneralRuleCovering agentAncestorCovers.heap 3
        (ruleAt agentAncestorCovers.heap 2) 3 1 = some res ∧
      (res = none ↔ ∀ j, Reach agentAncestorCovers.heap 1 j →
        (ruleAt agentAncestorCovers.heap j).covers (ruleAt agentAncestorCovers.heap 2)
          Substitution.empty = false) ∧
      ∀ lgr, res = some lgr →
        Reach agentAncestorCovers.heap 1 lgr ∧
        (ruleAt agentAncestorCovers.heap lgr).covers (ruleAt agentAncestorCovers.heap 2)
          Substitution.empty = true ∧
        ∃ g, generalityLevel agentAncestorCovers.heap 3 lgr = some g ∧
          ∀ j, Reach agentAncestorCovers.heap 1 j →
            (ruleAt agentAncestorCovers.heap j).covers (ruleAt agentAncestorCovers.heap 2)
              Substitution.empty = true →
            ∃ gj, generalityLevel agentAncestorCovers.heap 3 j = some gj ∧ g ≤ gj) ∧
    ∀ k, ∃ g, generalityLevel agentAncestorCovers.heap 3 k = some g ∧
      ((ruleAt agentAncestorCovers.heap k).parents = [] → g = 0) ∧
      (∀ p ∈ (ruleAt agentAncestorCovers.heap k).parents,
        ∃ gp, generalityLevel agentAncestorCovers.heap 3 p = some gp ∧ gp + 1 ≤ g) ∧
      ((ruleAt agentAncestorCovers.heap k).parents ≠ [] →
        ∃ p ∈ (ruleAt agentAncestorCovers.heap k).parents, ∃ gp,
          generalityLevel agentAncestorCovers.heap 3 p = some gp ∧ g = gp + 1)) := by
  have hacyc : Acyclic agentAncestorCovers.heap 3 := by
    refine ⟨fun i => if i = 1 then 1 else 0, ?_, ?_⟩
    · intro i
      dsimp only
      split <;> omega
    · intro i p hp
      match i with
      | 0 => simp [ruleAt, agentAncestorCovers, ruleAdds] at hp
      | 1 =>
        simp [ruleAt, agentAncestorCovers, ruleAdds] at hp
        subst hp
        simp
      | 2 => simp [ruleAt, agentAncestorCovers, ruleAdds] at hp
      | n + 3 => simp [ruleAt, agentAncestorCovers, ActionRule.blank] at hp
  exact ⟨hacyc, C28_least_general_covering agentAncestorCovers.heap 3
    (ruleAt agentAncestorCovers.heap 2) 1 hacyc⟩

/-! ## The transition function: rejected actions -/

/-- C30: when `tryAction` reports an action as not authorized, the state it returns is the
input state and the record of removed facts of the domain is unchanged; and the action is
a `reset` without reset state, a `delete` literal that the state contains, or a non-meta
literal of which a parameter is marked deleted or to which no schema applies. -/
theorem C30_tryAction_rejected (d : Domain) (parse : String → List Term → Literal)
    (state : List Literal) (instances : List Term) (actionLiteral : Literal) (onlyAdd : Bool)
    (h : (tryAction d parse state instances actionLiteral onlyAdd).there = false) :
    (tryAction d parse state instances actionLiteral onlyAdd).obj = state ∧
    (tryAction d parse state instances actionLiteral onlyAdd).removedFacts = d.removedFacts ∧
    ((actionLiteral.pred.eq d.resetAction.actionLiteral.pred = true ∧ d.resetState = none) ∨
     (actionLiteral.pred.eq d.resetAction.actionLiteral.pred = false ∧
      actionLiteral.pred.eq d.deleteAction.actionLiteral.pred = true ∧
      stateContains state actionLiteral = true) ∨
     (actionLiteral.pred.eq d.resetAction.actionLiteral.pred = false ∧
      actionLiteral.pred.eq d.deleteAction.actionLiteral.pred = false ∧
      actionLiteral.pred.eq d.removeFactAction.actionLiteral.pred = false ∧
      ((∃ pit ∈ actionLiteral.parameters,
          stateContains state ⟨d.deletePred, [pit], true⟩ = true) ∨
        tryActions state (instances ++ d.constants) actionLiteral onlyAdd d.actions =
          none))) := by
  unfold tryAction at h ⊢
  dsimp only at h ⊢
  cases hreset : actionLiteral.pred.eq d.resetAction.actionLiteral.pred with
  | true =>
    simp only [hreset, if_true] at h ⊢
    cases hrs : d.resetState with
    | some rs => rw [hrs] at h; cases h
    | none => simp
  | false =>
    simp only [hreset, Bool.false_eq_true, if_false] at h ⊢
    cases hdel : actionLiteral.pred.eq d.deleteAction.actionLiteral.pred with
    | true =>
      simp only [hdel, if_true] at h ⊢
      cases hc : stateContains state actionLiteral with
      | true => simp
      | false => simp [hc] at h
    | false =>
      simp only [hdel, Bool.false_eq_true, if_false] at h ⊢
      cases hrem : actionLiteral.pred.eq d.removeFactAction.actionLiteral.pred with
      | true =>
        simp only [hrem, if_true] at h
        cases hp : actionLiteral.parameters with
        | nil => rw [hp] at h; cases h
        | cons p ps => rw [hp] at h; cases h
      | false =>
        simp only [hrem, Bool.false_eq_true, if_false] at h ⊢
        cases hany : actionLiteral.parameters.any
            (fun pit => stateContains state ⟨d.deletePred, [pit], true⟩) with
        | true =>
          have hex : ∃ pit ∈ actionLiteral.parameters,
              stateContains state ⟨d.deletePred, [pit], true⟩ = true := by
            simpa [List.any_eq_true] using hany
          simp [hex]
        | false =>
          simp only [hany, Bool.false_eq_true, if_false] at h ⊢
          cases htry : tryActions state (instances ++ d.constants) actionLiteral onlyAdd
              d.actions with
          | some ns => rw [htry] at h; cases h
          | none => simp

/-- C30 (witness): the illegal action `p2(a, c)` of the test `DomainOps`. -/
theorem C30_tryAction_rejected_witness :
    (tryAction domainOps (fun _ _ => Literal.default) stateIllegal instancesOps
      (mkLit "p2" [mkConst "a", mkConst "c"]) false).there = false ∧
    (tryAction domainOps (fun _ _ => Literal.default) stateIllegal instancesOps
      (mkLit "p2" [mkConst "a", mkConst "c"]) false).obj = stateIllegal ∧
    (tryAction domainOps (fun _ _ => Literal.default) stateIllegal instancesOps
      (mkLit "p2" [mkConst "a", mkConst "c"]) false).removedFacts =
        domainOps.removedFacts :=
  ⟨by decide,
    (C30_tryAction_rejected domainOps (fun _ _ => Literal.default) stateIllegal instancesOps
      (mkLit "p2" [mkConst "a", mkConst "c"]) false (by decide)).1,
    (C30_tryAction_rejected domainOps (fun _ _ => Literal.default) stateIllegal instancesOps
      (mkLit "p2" [mkConst "a", mkConst "c"]) false (by decide)).2.1⟩

/-! ## The transition function: authorized actions -/

theorem mem_foldl_append_if {α β : Type} (c : β → Bool) (g : β → List α) (t : α) :
    ∀ (l : List β) (acc : List α),
      t ∈ l.foldl (fun r x => if c x then r ++ g x else r) acc ↔
        t ∈ acc ∨ ∃ x ∈ l, c x = true ∧ t ∈ g x
  | [], acc => by simp
  | x :: l, acc => by
    simp only [List.foldl_cons]
    rw [mem_foldl_append_if c g t l]
    cases hc : c x
    · simp [hc]
    · simp only [if_true, List.mem_append, List.mem_cons, exists_eq_or_imp, hc, true_and]
      tauto

theorem VarExt.refl (T : List Term) (s : Substitution) (hs : MapSorted s.mapping) :
    VarExt T s s :=
  ⟨hs, fun _ _ h => h, fun _ h => Or.inl h⟩

theorem VarExt.trans {T1 T2 : List Term} {s t r : Substitution} (h1 : VarExt T1 s t)
    (h2 : VarExt T2 t r) : VarExt (T1 ++ T2) s r := by
  refine ⟨h2.sorted, fun n v h => h2.keeps n v (h1.keeps n v h), ?_⟩
  intro n hn
  rcases h2.only n hn with h | ⟨u, hu, hv, hname⟩
  · rcases h1.only n h with h | ⟨u, hu, hv, hname⟩
    · exact Or.inl h
    · exact Or.inr ⟨u, List.mem_append_left _ hu, hv, hname⟩
  · exact Or.inr ⟨u, List.mem_append_right _ hu, hv, hname⟩

theorem VarExt.mono {T1 T2 : List Term} {s t : Substitution} (h : VarExt T1 s t)
    (hsub : ∀ u ∈ T1, u ∈ T2) : VarExt T2 s t :=
  ⟨h.sorted, h.keeps, fun n hn => (h.only n hn).imp id
    (fun ⟨u, hu, hv, hname⟩ => ⟨u, hsub u hu, hv, hname⟩)⟩

theorem toSet_term_sorted (l : List Term) :
    (toSet Term.lt l).Pairwise (fun a b => a.lt b = true) := by
  unfold toSet setUnion
  have : ∀ (l acc : List Term), acc.Pairwise (fun a b => a.lt b = true) →
      (l.foldl (fun r x => setInsert Term.lt x r) acc).Pairwise (fun a b => a.lt b = true) := by
    intro l
    induction l with
    | nil => intro acc h; exact h
    | cons x l ih => intro acc h; exact ih _ (sorted_setInsert x acc h)
  exact this l [] List.Pairwise.nil

/-- A substitution returned by `expandUncovered` with `skipConstants` set extends the
substitution by bindings of variables of the source set, and binds every variable of it. -/
theorem expandUncovered_varExt (s : Substitution) (frm tgt : List Term)
    (hs : MapSorted s.mapping) (hf : frm.Pairwise (fun a b => a.lt b = true))
    (s1 : Substitution) (h1 : s1 ∈ s.expandUncovered frm tgt true) :
    VarExt frm s s1 ∧ ∀ u ∈ frm, u.isVariable = true → nget s1.mapping u.name ≠ none := by
  have hU : ∀ u, u ∈ (frm.filter (fun it => (mapFind it s.mapping).isNone)).filter
      (fun u => u.isVariable || !true) ↔
      u ∈ frm ∧ s.get u = none ∧ u.isVariable = true := by
    intro u
    simp only [List.mem_filter, Bool.or_eq_true, Bool.not_eq_true', get_none_iff_mapFind,
      and_assoc, Bool.not_true, Bool.false_eq_true, or_false]
  have hd : ((frm.filter (fun it => (mapFind it s.mapping).isNone)).filter
      (fun u => u.isVariable || !true)).Pairwise (fun a b => a.name ≠ b.name) :=
    List.Pairwise.imp (fun {a b : Term} (h : a.lt b = true) => Term.name_ne_of_lt a b h)
      (List.Pairwise.sublist ((List.filter_sublist _).trans (List.filter_sublist _)) hf)
  have hfree : ∀ u ∈ (frm.filter (fun it => (mapFind it s.mapping).isNone)).filter
      (fun u => u.isVariable || !true), nget s.mapping u.name = none := by
    intro u hu
    rw [← Substitution.get_eq_nget]
    exact ((hU u).mp hu).2.1
  rw [expandUncovered_eq s frm tgt true hf, mem_expandFold] at h1
  obtain ⟨s0, h0, hx⟩ := h1
  rw [List.mem_singleton] at h0
  subst h0
  have hspec := expandSpec_of_expandsTo tgt _ _ s1 hs hd hfree hx
  have hkeep : Ext s0 s1 := by
    intro n v hn
    obtain ⟨k, hk, hkn⟩ := mem_of_nget _ _ _ hn
    have := nget_of_mem _ hspec.sorted (k, v) (hspec.keeps _ hk)
    rw [← hkn]
    exact this
  refine ⟨⟨hspec.sorted, hkeep, ?_⟩, ?_⟩
  · intro n hn
    cases hg : nget s1.mapping n with
    | none => exact absurd hg hn
    | some v =>
      obtain ⟨k, hk, hkn⟩ := mem_of_nget _ _ _ hg
      rcases hspec.only _ hk with h | h
      · left
        have := nget_of_mem _ hs (k, v) h
        rw [← hkn]
        dsimp only at this
        rw [this]
        exact Option.some_ne_none _
      · right
        obtain ⟨h1, _, h3⟩ := (hU k).mp h
        exact ⟨k, h1, h3, hkn⟩
  · intro u hu hv
    cases hg : s0.get u with
    | some v =>
      rw [Substitution.get_eq_nget] at hg
      rw [hkeep _ _ hg]
      exact Option.some_ne_none _
    | none =>
      obtain ⟨t, _, hmem, _⟩ := hspec.assigns u ((hU u).mpr ⟨hu, hg, hv⟩)
      have := nget_of_mem _ hspec.sorted (u, t) hmem
      dsimp only at this
      rw [this]
      exact Option.some_ne_none _

theorem mem_litTerms_cons (f : Literal) (fs : List Literal) (q : Term) :
    q ∈ litTerms (f :: fs) ↔ q ∈ f.parameters ∨ q ∈ litTerms fs := by
  simp [litTerms]

theorem mem_litTerms_reverse (fs : List Literal) (q : Term) :
    q ∈ litTerms fs.reverse ↔ q ∈ litTerms fs := by
  simp [litTerms]

theorem mem_litTerms_of_mem {fs : List Literal} {f : Literal} {q : Term} (hf : f ∈ fs)
    (hq : q ∈ f.parameters) : q ∈ litTerms fs :=
  List.mem_flatMap.mpr ⟨f, hf, hq⟩

theorem toSet_term_mem (l : List Term) (u : Term) (h : u ∈ toSet Term.lt l) : u ∈ l := by
  rcases mem_setUnion Term.lt [] l u h with h | h
  · cases h
  · exact h

theorem toSet_term_hasName (l : List Term) (q : Term) (h : q ∈ l) :
    ∃ u ∈ toSet Term.lt l, u.name = q.name := by
  have := (hasName_foldl_setInsert l [] q.name).mpr (Or.inr ⟨q, h, rfl⟩)
  exact this

/-- Soundness of `unifyFacts`: a returned substitution extends the given one by bindings
of variables of the facts, binds every variable of the facts, and maps every fact to a
literal that the state contains, or does not contain, as the flag `trueFacts` asks. -/
theorem unifyFactsBack_sound (state : List Literal) (insts : List Term) (b : Bool) :
    ∀ (facts : List Literal) (s t : Substitution), MapSorted s.mapping →
      (∀ v ∈ litTerms facts, v.isVariable = true →
        ∀ c ∈ litTerms facts, c.isVariable = false → v.name ≠ c.name) →
      t ∈ unifyFactsBack state insts b facts s →
      VarExt (litTerms facts) s t ∧
      (∀ f ∈ facts, ∀ q ∈ f.parameters, q.isVariable = true →
        nget t.mapping q.name ≠ none) ∧
      (∀ f ∈ facts, stateContains state (t.apply f) = b)
  | [], s, t, hs, _, ht => by
    simp only [unifyFactsBack, List.mem_singleton] at ht
    subst ht
    exact ⟨VarExt.refl _ _ hs, (fun f hf => by cases hf), (fun f hf => by cases hf)⟩
  | fact :: rest, s, t, hs, hyg, ht => by
    have hmem := (mem_foldl_append_if
      (fun newSub : Substitution =>
        (stateContains state (newSub.apply fact) && b) ||
          (!stateContains state (newSub.apply fact) && !b))
      (fun newSub => unifyFactsBack state insts b rest newSub) t
      (s.expandUncovered (toSet Term.lt fact.parameters) (toSet Term.lt insts) true) []).mp ht
    rcases hmem with hmem | ⟨newSub, hnew, hcond, htr⟩
    · cases hmem
    obtain ⟨hext1, hcov1⟩ := expandUncovered_varExt s _ _ hs (toSet_term_sorted _) newSub hnew
    have hyg2 : ∀ v ∈ litTerms rest, v.isVariable = true →
        ∀ c ∈ litTerms rest, c.isVariable = false → v.name ≠ c.name :=
      fun v hv hvar c hc hcon => hyg v ((mem_litTerms_cons _ _ _).mpr (Or.inr hv)) hvar c
        ((mem_litTerms_cons _ _ _).mpr (Or.inr hc)) hcon
    obtain ⟨hext2, hcov2, hcont2⟩ :=
      unifyFactsBack_sound state insts b rest newSub t hext1.sorted hyg2 htr
    have hcovq : ∀ q ∈ fact.parameters, q.isVariable = true →
        nget newSub.mapping q.name ≠ none := by
      intro q hq hvar
      obtain ⟨u, hu, hun⟩ := toSet_term_hasName _ q hq
      have huv : u.isVariable = true := by
        cases huv : u.isVariable with
        | true => rfl
        | false =>
          exact absurd hun.symm (hyg q ((mem_litTerms_cons _ _ _).mpr (Or.inl hq)) hvar u
            ((mem_litTerms_cons _ _ _).mpr (Or.inl (toSet_term_mem _ _ hu))) huv)
      rw [← hun]
      exact hcov1 u hu huv
    refine ⟨?_, ?_, ?_⟩
    · have := VarExt.trans hext1 hext2
      refine this.mono ?_
      intro u hu
      rw [mem_litTerms_cons]
      rcases List.mem_append.mp hu with hu | hu
      · exact Or.inl (toSet_term_mem _ _ hu)
      · exact Or.inr hu
    · intro f hf q hq hvar
      rcases List.mem_cons.mp hf with rfl | hf
      · cases hg : nget newSub.mapping q.name with
        | none => exact absurd hg (hcovq q hq hvar)
        | some v =>
          rw [hext2.keeps _ _ hg]
          exact Option.some_ne_none _
      · exact hcov2 f hf q hq hvar
    · intro f hf
      rcases List.mem_cons.mp hf with rfl | hf
      · have happ : t.apply f = newSub.apply f := by
          unfold Substitution.apply
          congr 1
          apply List.map_congr_left
          intro q hq
          cases hg : nget newSub.mapping q.name with
          | some v =>
            rw [applyTerm_of_nget_some _ _ _ hg, applyTerm_of_nget_some _ _ _
              (hext2.keeps _ _ hg)]
          | none =>
            have hqc : q.isVariable = false := by
              cases hqv : q.isVariable with
              | false => rfl
              | true => exact absurd hg (hcovq q hq hqv)
            have hnone : nget t.mapping q.name = none := by
              by_contra hne
              rcases hext2.only _ hne with h | ⟨u, hu, huv, hun⟩
              · exact h hg
              · exact hyg u ((mem_litTerms_cons _ _ _).mpr (Or.inr hu)) huv q
                  ((mem_litTerms_cons _ _ _).mpr (Or.inl hq)) hqc hun
            rw [applyTerm_of_nget_none _ _ hg, applyTerm_of_nget_none _ _ hnone]
        rw [happ]
        cases hfound : stateContains state (newSub.apply f) <;> cases b <;>
          simp [hfound] at hcond ⊢
      · exact hcont2 f hf

theorem Term.eq_const_iff (a l : Term) (hl : l.isVariable = false) :
    a.eq l = true ↔ a.name = l.name := by
  simp [Term.eq, hl]

/-- The parameter loop of `tryAction`: when the parameters of the action literal are
constants with pairwise distinct names, the parameters of the schema have pairwise distinct
names, and no variable of the schema has the name of a parameter of the action literal,
the substitution built maps every bound parameter of the schema to the parameter of the
action literal at the same position, and leaves unbound only constants that have the name
of the parameter at the same position. -/
theorem actionSub_spec : ∀ (as ls : List Term) (sub0 sub : Substitution),
    actionSub as ls sub0 = some sub → MapSorted sub0.mapping →
    as.length = ls.length →
    (∀ l ∈ ls, l.isVariable = false) →
    ls.Pairwise (fun p q => p.name ≠ q.name) →
    as.Pairwise (fun p q => p.name ≠ q.name) →
    (∀ a ∈ as, a.isVariable = true → ∀ l ∈ ls, a.name ≠ l.name) →
    (∀ e ∈ sub0.mapping, ∀ l ∈ ls, e.2.eq l = false) →
    (∀ a ∈ as, nget sub0.mapping a.name = none) →
    MapSorted sub.mapping ∧ Ext sub0 sub ∧
    (∀ n, nget sub.mapping n ≠ none → nget sub0.mapping n ≠ none ∨ ∃ a ∈ as, a.name = n) ∧
    List.Forall₂ (fun a l => nget sub.mapping a.name = some l ∨
      (nget sub.mapping a.name = none ∧ a.isVariable = false ∧ a.name = l.name)) as ls
  | [], [], sub0, sub, h, hs, _, _, _, _, _, _, _ => by
    simp only [actionSub, Option.some.injEq] at h
    subst h
    exact ⟨hs, fun _ _ h => h, fun _ h => Or.inl h, List.Forall₂.nil⟩
  | [], _ :: _, _, _, _, _, hlen, _, _, _, _, _, _ => by simp at hlen
  | _ :: _, [], _, _, _, _, hlen, _, _, _, _, _, _ => by simp at hlen
  | a :: as, l :: ls, sub0, sub, h, hs, hlen, hconst, hld, had, hyg, hval, hkey => by
    have hlen2 : as.length = ls.length := by simpa using hlen
    have hconst2 : ∀ l1 ∈ ls, l1.isVariable = false :=
      fun l1 h1 => hconst l1 (List.mem_cons_of_mem _ h1)
    rw [List.pairwise_cons] at hld had
    have hyg2 : ∀ a1 ∈ as, a1.isVariable = true → ∀ l1 ∈ ls, a1.name ≠ l1.name :=
      fun a1 h1 hv l1 h2 => hyg a1 (List.mem_cons_of_mem _ h1) hv l1
        (List.mem_cons_of_mem _ h2)
    have hlc := hconst l (List.mem_cons_self _ _)
    simp only [actionSub] at h
    split at h
    · cases h
    split at h
    · rename_i _ heq
      have hname : a.name = l.name := (Term.eq_const_iff a l hlc).mp heq
      have hac : a.isVariable = false := by
        cases hav : a.isVariable with
        | false => rfl
        | true =>
          exact absurd hname (hyg a (List.mem_cons_self _ _) hav l (List.mem_cons_self _ _))
      obtain ⟨h1, h2, h3, h4⟩ := actionSub_spec as ls sub0 sub h hs hlen2 hconst2 hld.2
        had.2 hyg2 (fun e he l1 h1 => hval e he l1 (List.mem_cons_of_mem _ h1))
        (fun a1 h1 => hkey a1 (List.mem_cons_of_mem _ h1))
      refine ⟨h1, h2, ?_, List.Forall₂.cons (Or.inr ⟨?_, hac, hname⟩) h4⟩
      · intro n hn
        rcases h3 n hn with h | ⟨a1, ha1, hn1⟩
        · exact Or.inl h
        · exact Or.inr ⟨a1, List.mem_cons_of_mem _ ha1, hn1⟩
      · by_contra hne
        rcases h3 _ hne with h | ⟨a1, ha1, hn1⟩
        · exact h (hkey a (List.mem_cons_self _ _))
        · exact had.1 a1 ha1 hn1.symm
    split at h
    · rename_i _ _ hinv
      exfalso
      cases hgi : sub0.getInverse l with
      | none => rw [hgi] at hinv; simp at hinv
      | some k =>
        have hnot : ¬ (sub0.getInverse l = none) := by rw [hgi]; simp
        rw [getInverse_eq_none_iff] at hnot
        exact hnot (fun e he => hval e he l (List.mem_cons_self _ _))
    · have hk0 := hkey a (List.mem_cons_self _ _)
      obtain ⟨h1, h2, h3, h4⟩ := actionSub_spec as ls (sub0.set a l) sub h
        (mapSorted_mapSet a l _ hs) hlen2 hconst2 hld.2 had.2 hyg2
        (by
          intro e he l1 h1
          rcases (mem_mapSet_iff_new a l _ e hk0).mp he with he | he
          · exact hval e he l1 (List.mem_cons_of_mem _ h1)
          · subst he
            have hne := hld.1 l1 h1
            cases hq : l.eq l1 with
            | false => rfl
            | true => exact absurd ((Term.eq_const_iff l l1 (hconst2 l1 h1)).mp hq) hne)
        (by
          intro a1 h1
          show nget (mapSet a l sub0.mapping) a1.name = none
          rw [nget_mapSet, if_neg (had.1 a1 h1)]
          exact hkey a1 (List.mem_cons_of_mem _ h1))
      have hal : nget (sub0.set a l).mapping a.name = some l := by
        show nget (mapSet a l sub0.mapping) a.name = some l
        rw [nget_mapSet, if_pos rfl]
      refine ⟨h1, ?_, ?_, List.Forall₂.cons (Or.inl (h2 _ _ hal)) h4⟩
      · intro n v hn
        apply h2
        show nget (mapSet a l sub0.mapping) n = some v
        rw [nget_mapSet]
        by_cases han : a.name = n
        · rw [← han, hk0] at hn
          cases hn
        · rw [if_neg han]
          exact hn
      · intro n hn
        rcases h3 n hn with h | ⟨a1, ha1, hn1⟩
        · by_cases han : a.name = n
          · exact Or.inr ⟨a, List.mem_cons_self _ _, han⟩
          · left
            have e : nget (sub0.set a l).mapping n = nget sub0.mapping n := by
              show nget (mapSet a l sub0.mapping) n = nget sub0.mapping n
              rw [nget_mapSet, if_neg han]
            rw [← e]
            exact h
        · exact Or.inr ⟨a1, List.mem_cons_of_mem _ ha1, hn1⟩

/-- The loop of `tryAction` over the schemas returns a state only from a schema with the
predicate of the action literal, for which the parameter loop succeeds, and from a
substitution that `unifyFacts` returns for the false preconditions from one that it
returns for the true preconditions. -/
theorem tryActions_some (state : List Literal) (allInsts : List Term) (a : Literal)
    (onlyAdd : Bool) : ∀ (acts : List Action) (newState : List Literal),
    tryActions state allInsts a onlyAdd acts = some newState →
    ∃ act ∈ acts, act.actionLiteral.pred.eq a.pred = true ∧
      ∃ sub, actionSub act.actionLiteral.parameters a.parameters Substitution.empty =
          some sub ∧
        ∃ pSub ∈ unifyFacts state allInsts act.truePrecond sub true,
          ∃ appliedSub ∈ unifyFacts state allInsts act.falsePrecond pSub false,
            newState =
              (if onlyAdd then
                addFacts state (appliedSub.applySet (toSet Literal.lt act.add))
               else removeFacts
                (addFacts state (appliedSub.applySet (toSet Literal.lt act.add)))
                (appliedSub.applySet (toSet Literal.lt act.del)))
  | [], newState, h => by simp [tryActions] at h
  | act :: rest, newState, h => by
    have hrec : tryActions state allInsts a onlyAdd rest = some newState →
        ∃ act1 ∈ act :: rest, act1.actionLiteral.pred.eq a.pred = true ∧
          ∃ sub, actionSub act1.actionLiteral.parameters a.parameters Substitution.empty =
              some sub ∧
            ∃ pSub ∈ unifyFacts state allInsts act1.truePrecond sub true,
              ∃ appliedSub ∈ unifyFacts state allInsts act1.falsePrecond pSub false,
                newState =
                  (if onlyAdd then
                    addFacts state (appliedSub.applySet (toSet Literal.lt act1.add))
                   else removeFacts
                    (addFacts state (appliedSub.applySet (toSet Literal.lt act1.add)))
                    (appliedSub.applySet (toSet Literal.lt act1.del))) := by
      intro h1
      obtain ⟨act1, hm, hrest⟩ := tryActions_some state allInsts a onlyAdd rest newState h1
      exact ⟨act1, List.mem_cons_of_mem _ hm, hrest⟩
    simp only [tryActions] at h
    split at h
    · exact hrec h
    rename_i hpred
    split at h
    · exact hrec h
    rename_i sub hsub
    split at h
    · exact hrec h
    split at h
    · exact hrec h
    rename_i appliedSub hlast
    simp only [Option.some.injEq] at h
    have hmemAll := List.mem_of_getLast?_eq_some hlast
    rw [foldl_append_flatMap, List.nil_append, List.mem_flatMap] at hmemAll
    obtain ⟨pSub, hp, happ⟩ := hmemAll
    refine ⟨act, List.mem_cons_self _ _, by simpa using hpred, sub, hsub, pSub, hp,
      appliedSub, happ, h.symm⟩

theorem stateEq_refl (l : List Literal) : stateEq l l = true := by
  unfold stateEq
  simp only [bne_self_eq_false, Bool.false_eq_true, if_false, List.all_eq_true]
  intro f hf
  unfold stateContains setContains
  rw [List.any_eq_true]
  have hirr : f.lt f = false := by
    cases h : f.lt f with
    | false => rfl
    | true => rw [literal_lt_asymm f f h] at h; cases h
  exact ⟨f, hf, by simp [hirr]⟩

theorem paramsEq_of_forall₂ : ∀ (n : Nat) (xs ls : List Term),
    List.Forall₂ (fun x l => x.eq l = true) xs ls → n ≤ ls.length → paramsEq n xs ls = true
  | 0, _, _, _, _ => by simp [paramsEq]
  | _ + 1, _, _, List.Forall₂.nil, hn => by simp at hn
  | n + 1, _, _, List.Forall₂.cons hx hrest, hn => by
    simp only [paramsEq, Term.ne, hx, Bool.not_true, Bool.false_eq_true, if_false]
    exact paramsEq_of_forall₂ n _ _ hrest (by simpa using hn)

/-- For a grounded non-meta action literal whose parameters have pairwise distinct names,
in a domain whose schemas with the predicate of the literal fit it, whenever `tryAction`
authorizes the literal there are a schema of the domain and a substitution that maps the
action literal of the schema to the literal, every true precondition to a fact of the
state and no false precondition to a fact of the state, the returned state being the
state with the images of the add effects added and, unless `onlyAdd` is set, the images of
the delete effects removed. -/
theorem tryAction_authorized_spec (d : Domain) (parse : String → List Term → Literal)
    (state : List Literal) (instances : List Term) (a : Literal) (onlyAdd : Bool)
    (hreset : a.pred.eq d.resetAction.actionLiteral.pred = false)
    (hdelete : a.pred.eq d.deleteAction.actionLiteral.pred = false)
    (hremove : a.pred.eq d.removeFactAction.actionLiteral.pred = false)
    (hground : a.grounded = true)
    (hdistinct : a.parameters.Pairwise (fun p q => p.name ≠ q.name))
    (hfits : ∀ act ∈ d.actions, act.actionLiteral.pred.eq a.pred = true → SchemaFits act a)
    (hthere : (tryAction d parse state instances a onlyAdd).there = true) :
    TryActionSpec d state a onlyAdd (tryAction d parse state instances a onlyAdd).obj := by
  unfold tryAction at hthere ⊢
  simp only [hreset, hdelete, hremove, Bool.false_eq_true, if_false] at hthere ⊢
  split at hthere
  · cases hthere
  rename_i hany
  simp only [hany, Bool.false_eq_true, if_false]
  cases htry : tryActions state (instances ++ d.constants) a onlyAdd d.actions with
  | none => rw [htry] at hthere; cases hthere
  | some newState =>
    dsimp only
    obtain ⟨act, hact, hpred, sub, hsub, pSub, hp, appliedSub, happ, hnew⟩ :=
      tryActions_some state _ a onlyAdd d.actions newState htry
    have hfit := hfits act hact hpred
    have hconst : ∀ l ∈ a.parameters, l.isVariable = false := by
      intro l hl
      have := hground
      unfold Literal.grounded at this
      rw [List.all_eq_true] at this
      simpa using this l hl
    have hterms1 : ∀ q ∈ act.actionLiteral.parameters, q ∈ act.terms :=
      fun q hq => List.mem_append_left _ hq
    have hterms2 : ∀ q ∈ litTerms act.truePrecond, q ∈ act.terms :=
      fun q hq => List.mem_append_right _ (List.mem_append_left _ hq)
    have hterms3 : ∀ q ∈ litTerms act.falsePrecond, q ∈ act.terms :=
      fun q hq => List.mem_append_right _ (List.mem_append_right _ hq)
    obtain ⟨hs1, _, honly1, hpos⟩ := actionSub_spec _ _ _ _ hsub List.Pairwise.nil hfit.length
      hconst hdistinct hfit.distinct
      (fun q hq hv l hl => (hfit.hygiene q (hterms1 q hq) hv).1 l hl)
      (fun e he => by cases he) (fun _ _ => rfl)
    obtain ⟨hext2, hcov2, hcont2⟩ := unifyFactsBack_sound state _ true act.truePrecond.reverse
      sub pSub hs1
      (fun v hv hvar c hc hcon => (hfit.hygiene v
        (hterms2 v ((mem_litTerms_reverse _ _).mp hv)) hvar).2 c
        (hterms2 c ((mem_litTerms_reverse _ _).mp hc)) hcon) hp
    obtain ⟨hext3, _, hcont3⟩ := unifyFactsBack_sound state _ false act.falsePrecond.reverse
      pSub appliedSub hext2.sorted
      (fun v hv hvar c hc hcon => (hfit.hygiene v
        (hterms3 v ((mem_litTerms_reverse _ _).mp hv)) hvar).2 c
        (hterms3 c ((mem_litTerms_reverse _ _).mp hc)) hcon) happ
    refine ⟨act, hact, appliedSub, ?_, ?_, ?_, ?_⟩
    · have hall : List.Forall₂ (fun x l => x.eq l = true)
          (act.actionLiteral.parameters.map appliedSub.applyTerm) a.parameters := by
        rw [List.forall₂_map_left_iff]
        refine forall₂_imp_mem hpos ?_
        intro p hpm q _ hpq
        rcases hpq with hsome | ⟨hnone, hpc, hname⟩
        · rw [applyTerm_of_nget_some _ _ _
            (hext3.keeps _ _ (hext2.keeps _ _ hsome))]
          exact Term.eq_refl q
        · have hn3 : nget appliedSub.mapping p.name = none := by
            by_contra hne
            rcases hext3.only _ hne with h | ⟨u, hu, huv, hun⟩
            · rcases hext2.only _ h with h | ⟨u, hu, huv, hun⟩
              · exact h hnone
              · exact (hfit.hygiene u (hterms2 u ((mem_litTerms_reverse _ _).mp hu)) huv).2 p
                  (hterms1 p hpm) hpc hun
            · exact (hfit.hygiene u (hterms3 u ((mem_litTerms_reverse _ _).mp hu)) huv).2 p
                (hterms1 p hpm) hpc hun
          rw [applyTerm_of_nget_none _ _ hn3]
          exact Term.eq_of_name p q hname
      unfold Literal.eq Substitution.apply
      simp only [hfit.polarity, bne_self_eq_false, Bool.false_eq_true, if_false, hpred,
        Bool.not_true]
      exact paramsEq_of_forall₂ _ _ _ hall hfit.arity
    · intro p hp1
      have happly : appliedSub.apply p = pSub.apply p := by
        unfold Substitution.apply
        congr 1
        apply List.map_congr_left
        intro q hq
        cases hg : nget pSub.mapping q.name with
        | some v =>
          rw [applyTerm_of_nget_some _ _ _ hg, applyTerm_of_nget_some _ _ _
            (hext3.keeps _ _ hg)]
        | none =>
          have hqc : q.isVariable = false := by
            cases hqv : q.isVariable with
            | false => rfl
            | true => exact absurd hg (hcov2 p (List.mem_reverse.mpr hp1) q hq hqv)
          have hnone : nget appliedSub.mapping q.name = none := by
            by_contra hne
            rcases hext3.only _ hne with h | ⟨u, hu, huv, hun⟩
            · exact h hg
            · exact (hfit.hygiene u (hterms3 u ((mem_litTerms_reverse _ _).mp hu)) huv).2 q
                (hterms2 q (mem_litTerms_of_mem hp1 hq)) hqc hun
          rw [applyTerm_of_nget_none _ _ hg, applyTerm_of_nget_none _ _ hnone]
      rw [happly]
      exact hcont2 p (List.mem_reverse.mpr hp1)
    · intro p hp1
      exact hcont3 p (List.mem_reverse.mpr hp1)
    · rw [hnew]
      exact stateEq_refl _

/-- In the domain with the schema `move(X, Y)` that adds `on(X, Y)`, `tryAction` authorizes
the grounded literal `move(a, a)` in the empty state and returns the state `on(a, Y)`:
the first parameter binds `X` to `a`, the second finds `a` already an image and leaves
`Y` unbound. No substitution maps `move(X, Y)` to `move(a, a)` and gives this state. -/
theorem tryAction_repeated_parameter :
    (mkLit "move" [mkConst "a", mkConst "a"]).grounded = true ∧
    (tryAction domainMove (fun _ _ => Literal.default) [] [mkConst "a"]
      (mkLit "move" [mkConst "a", mkConst "a"]) false).there = true ∧
    (tryAction domainMove (fun _ _ => Literal.default) [] [mkConst "a"]
      (mkLit "move" [mkConst "a", mkConst "a"]) false).obj =
        [mkLit "on" [mkConst "a", mkVar "Y"]] ∧
    ¬ TryActionSpec domainMove [] (mkLit "move" [mkConst "a", mkConst "a"]) false
      (tryAction domainMove (fun _ _ => Literal.default) [] [mkConst "a"]
        (mkLit "move" [mkConst "a", mkConst "a"]) false).obj := by
  refine ⟨by decide, by decide, by decide, ?_⟩
  rw [show (tryAction domainMove (fun _ _ => Literal.default) [] [mkConst "a"]
      (mkLit "move" [mkConst "a", mkConst "a"]) false).obj =
        [mkLit "on" [mkConst "a", mkVar "Y"]] by decide]
  rintro ⟨act, hact, s, heq, -, -, hst⟩
  simp only [domainMove, List.mem_singleton] at hact
  subst hact
  have h1 : (s.applyTerm (mkVar "X")).name = "a" ∧ (s.applyTerm (mkVar "Y")).name = "a" := by
    simp [Substitution.apply, Literal.eq, mkLit, Predicate.eq, paramsEq, Term.ne, Term.eq,
      mkConst] at heq
    exact heq
  obtain ⟨hx, hy⟩ := h1
  have hset : toSet Literal.lt [mkLit "on" [mkVar "X", mkVar "Y"]] =
      [mkLit "on" [mkVar "X", mkVar "Y"]] := by decide
  have hnil : toSet Literal.lt ([] : List Literal) = [] := rfl
  simp only [Bool.false_eq_true, if_false, hset, hnil] at hst
  simp only [Substitution.applySet, Substitution.apply, mkLit, List.foldl_cons,
    List.foldl_nil, List.map_cons, List.map_nil] at hst
  revert hst
  generalize s.applyTerm (mkVar "X") = sx at hx ⊢
  generalize s.applyTerm (mkVar "Y") = sy at hy ⊢
  obtain ⟨nx, vx, tx⟩ := sx
  obtain ⟨ny, vy, ty⟩ := sy
  simp only at hx hy
  subst hx hy
  have hlt : strLt "Y" "a" = true := by decide
  simp [setInsert, addFacts,
    removeFacts, Literal.abs, stateEq, stateContains, setContains, Literal.lt, Predicate.eq,
    paramsLt, Term.ne, Term.eq, Term.lt, mkVar, mkConst, anyVar, hlt]

/-- C29: for every state, instance list and grounded non-meta action literal whose
parameters have pairwise distinct names, in a domain whose schemas with the predicate of
the literal fit it, whenever `tryAction` authorizes the literal there are a schema of the
domain and a substitution that maps the action literal of the schema to the literal, every
true precondition to a fact of the state and no false precondition to a fact of the
state, the returned state being the state with the images of the add effects added and,
unless `onlyAdd` is set, the images of the delete effects removed. The claim fails for a
literal with a repeated parameter: in the domain with the schema `move(X, Y)` that adds
`on(X, Y)`, `tryAction` authorizes `move(a, a)` in the empty state and returns the state
`on(a, Y)`, which holds a variable and which no substitution that maps `move(X, Y)` to
`move(a, a)` gives. -/
theorem C29_tryAction_authorized :
    (∀ (d : Domain) (parse : String → List Term → Literal) (state : List Literal)
        (instances : List Term) (a : Literal) (onlyAdd : Bool),
      a.pred.eq d.resetAction.actionLiteral.pred = false →
      a.pred.eq d.deleteAction.actionLiteral.pred = false →
      a.pred.eq d.removeFactAction.actionLiteral.pred = false →
      a.grounded = true →
      a.parameters.Pairwise (fun p q => p.name ≠ q.name) →
      (∀ act ∈ d.actions, act.actionLiteral.pred.eq a.pred = true → SchemaFits act a) →
      (tryAction d parse state instances a onlyAdd).there = true →
      TryActionSpec d state a onlyAdd (tryAction d parse state instances a onlyAdd).obj) ∧
    ((mkLit "move" [mkConst "a", mkConst "a"]).grounded = true ∧
      (tryAction domainMove (fun _ _ => Literal.default) [] [mkConst "a"]
        (mkLit "move" [mkConst "a", mkConst "a"]) false).there = true ∧
      (tryAction domainMove (fun _ _ => Literal.default) [] [mkConst "a"]
        (mkLit "move" [mkConst "a", mkConst "a"]) false).obj =
          [mkLit "on" [mkConst "a", mkVar "Y"]] ∧
      ¬ TryActionSpec domainMove [] (mkLit "move" [mkConst "a", mkConst "a"]) false
        (tryAction domainMove (fun _ _ => Literal.default) [] [mkConst "a"]
          (mkLit "move" [mkConst "a", mkConst "a"]) false).obj) :=
  ⟨tryAction_authorized_spec, tryAction_repeated_parameter⟩

/-- C29 (witness): the legal action `p2(a, c)` of the test `DomainOps`. -/
theorem C29_tryAction_authorized_witness :
    (mkLit "p2" [mkConst "a", mkConst "c"]).pred.eq
      domainOps.resetAction.actionLiteral.pred = false ∧
    (mkLit "p2" [mkConst "a", mkConst "c"]).pred.eq
      domainOps.deleteAction.actionLiteral.pred = false ∧
    (mkLit "p2" [mkConst "a", mkConst "c"]).pred.eq
      domainOps.removeFactAction.actionLiteral.pred = false ∧
    (mkLit "p2" [mkConst "a", mkConst "c"]).grounded = true ∧
    (mkLit "p2" [mkConst "a", mkConst "c"]).parameters.Pairwise
      (fun p q => p.name ≠ q.name) ∧
    (∀ act ∈ domainOps.actions,
      act.actionLiteral.pred.eq (mkLit "p2" [mkConst "a", mkConst "c"]).pred = true →
        SchemaFits act (mkLit "p2" [mkConst "a", mkConst "c"])) ∧
    (tryAction domainOps (fun _ _ => Literal.default) stateLegal instancesOps
      (mkLit "p2" [mkConst "a", mkConst "c"]) false).there = true ∧
    TryActionSpec domainOps stateLegal (mkLit "p2" [mkConst "a", mkConst "c"]) false
      (tryAction domainOps (fun _ _ => Literal.default) stateLegal instancesOps
        (mkLit "p2" [mkConst "a", mkConst "c"]) false).obj := by
  have hfits : ∀ act ∈ domainOps.actions,
      act.actionLiteral.pred.eq (mkLit "p2" [mkConst "a", mkConst "c"]).pred = true →
        SchemaFits act (mkLit "p2" [mkConst "a", mkConst "c"]) := by
    intro act hact _
    simp only [domainOps, List.mem_singleton] at hact
    subst hact
    exact ⟨by decide, by decide, by decide, by decide, by decide⟩
  exact ⟨by decide, by decide, by decide, by decide, by decide, hfits, by decide,
    C29_tryAction_authorized.1 domainOps (fun _ _ => Literal.default) stateLegal instancesOps
      (mkLit "p2" [mkConst "a", mkConst "c"]) false (by decide) (by decide) (by decide)
      (by decide) (by decide) hfits (by decide)⟩

/-! ## Sets under a strict weak order -/

theorem setContains_iff {α : Type} (lt : α → α → Bool) (x : α) (l : List α) :
    setContains lt x l = true ↔ ∃ y ∈ l, lt x y = false ∧ lt y x = false := by
  simp [setContains, List.any_eq_true]

theorem StrictWeak.asymm {α : Type} {lt : α → α → Bool} {W : α → Prop}
    (h : StrictWeak lt W) (a b : α) (ha : W a) (hb : W b) (hab : lt a b = true) :
    lt b a = false := by
  cases hba : lt b a with
  | false => rfl
  | true =>
    have := h.trans a b a ha hb ha hab hba
    rw [h.irrefl a ha] at this
    cases this

theorem StrictWeak.eqv_trans {α : Type} {lt : α → α → Bool} {W : α → Prop}
    (h : StrictWeak lt W) (a b c : α) (ha : W a) (hb : W b) (hc : W c)
    (hab : lt a b = false ∧ lt b a = false) (hbc : lt b c = false ∧ lt c b = false) :
    lt a c = false ∧ lt c a = false := by
  refine ⟨?_, ?_⟩
  · rw [h.left a b c ha hb hc hab.1 hab.2]
    exact hbc.1
  · rw [h.right a b c ha hb hc hab.1 hab.2]
    exact hbc.2

theorem StrictWeak.insert_keeps_sorted {α : Type} {lt : α → α → Bool} {W : α → Prop}
    (h : StrictWeak lt W) (x : α) (hx : W x) : ∀ (l : List α), (∀ y ∈ l, W y) →
    l.Pairwise (fun a b => lt a b = true) →
    (setInsert lt x l).Pairwise (fun a b => lt a b = true)
  | [], _, _ => by simp [setInsert]
  | y :: ys, hw, hp => by
    have hy := hw y (List.mem_cons_self _ _)
    have hws : ∀ z ∈ ys, W z := fun z hz => hw z (List.mem_cons_of_mem _ hz)
    rw [List.pairwise_cons] at hp
    simp only [setInsert]
    split
    · rename_i hxy
      rw [List.pairwise_cons, List.pairwise_cons]
      refine ⟨?_, hp⟩
      intro z hz
      rcases List.mem_cons.mp hz with rfl | hz
      · exact hxy
      · exact h.trans x y z hx hy (hws z hz) hxy (hp.1 z hz)
    · split
      · rename_i hyx
        rw [List.pairwise_cons]
        refine ⟨?_, h.insert_keeps_sorted x hx ys hws hp.2⟩
        intro z hz
        rcases mem_setInsert lt x z ys hz with rfl | hz
        · exact hyx
        · exact hp.1 z hz
      · exact List.pairwise_cons.mpr hp

theorem mem_setInsert_wf {α : Type} (lt : α → α → Bool) (W : α → Prop) (x : α) (hx : W x)
    (l : List α) (hw : ∀ y ∈ l, W y) : ∀ y ∈ setInsert lt x l, W y := by
  intro y hy
  rcases mem_setInsert lt x y l hy with rfl | hy
  · exact hx
  · exact hw y hy

theorem StrictWeak.contains_setInsert {α : Type} {lt : α → α → Bool} {W : α → Prop}
    (h : StrictWeak lt W) (x z : α) (hx : W x) (hz : W z) (l : List α)
    (hw : ∀ y ∈ l, W y) :
    setContains lt z (setInsert lt x l) = true ↔
      setContains lt z l = true ∨ (lt z x = false ∧ lt x z = false) := by
  rw [setContains_iff, setContains_iff]
  constructor
  · rintro ⟨y, hy, hzy⟩
    rcases mem_setInsert lt x y l hy with rfl | hy
    · exact Or.inr hzy
    · exact Or.inl ⟨y, hy, hzy⟩
  · rintro (⟨y, hy, hzy⟩ | hzx)
    · exact ⟨y, mem_setInsert_of_mem lt x y l hy, hzy⟩
    · obtain ⟨y, hy, hxy⟩ := setInsert_has_equiv lt x l (h.irrefl x hx)
      exact ⟨y, hy, h.eqv_trans z x y hz hx (mem_setInsert_wf lt W x hx l hw y hy) hzx hxy⟩

theorem StrictWeak.mem_setErase {α : Type} {lt : α → α → Bool} {W : α → Prop}
    (h : StrictWeak lt W) (x : α) (hx : W x) : ∀ (l : List α), (∀ y ∈ l, W y) →
    l.Pairwise (fun a b => lt a b = true) →
    ∀ w, w ∈ setErase lt x l ↔ w ∈ l ∧ ¬ (lt x w = false ∧ lt w x = false)
  | [], _, _, w => by simp [setErase]
  | y :: ys, hw, hp, w => by
    have hy := hw y (List.mem_cons_self _ _)
    have hws : ∀ z ∈ ys, W z := fun z hz => hw z (List.mem_cons_of_mem _ hz)
    rw [List.pairwise_cons] at hp
    simp only [setErase]
    by_cases he : lt x y = false ∧ lt y x = false
    · simp only [he.1, he.2, Bool.not_false, Bool.and_self, if_true, List.mem_cons]
      constructor
      · intro hwm
        refine ⟨Or.inr hwm, ?_⟩
        intro hxw
        have hyw := hp.1 w hwm
        rw [← h.left x y w hx hy (hws w hwm) he.1 he.2, hxw.1] at hyw
        cases hyw
      · rintro ⟨hwm | hwm, hne⟩
        · subst hwm
          exact absurd he hne
        · exact hwm
    · have hc : (!lt x y && !lt y x) = false := by
        cases h1 : lt x y <;> cases h2 : lt y x <;> simp_all
      simp only [hc, Bool.false_eq_true, if_false, List.mem_cons]
      rw [h.mem_setErase x hx ys hws hp.2 w]
      constructor
      · rintro (rfl | ⟨hwm, hne⟩)
        · exact ⟨Or.inl rfl, he⟩
        · exact ⟨Or.inr hwm, hne⟩
      · rintro ⟨rfl | hwm, hne⟩
        · exact Or.inl rfl
        · exact Or.inr ⟨hwm, hne⟩

theorem StrictWeak.contains_setErase {α : Type} {lt : α → α → Bool} {W : α → Prop}
    (h : StrictWeak lt W) (x z : α) (hx : W x) (hz : W z) (l : List α)
    (hw : ∀ y ∈ l, W y) (hp : l.Pairwise (fun a b => lt a b = true)) :
    setContains lt z (setErase lt x l) = true ↔
      setContains lt z l = true ∧ ¬ (lt z x = false ∧ lt x z = false) := by
  rw [setContains_iff, setContains_iff]
  constructor
  · rintro ⟨y, hy, hzy⟩
    obtain ⟨hyl, hne⟩ := (h.mem_setErase x hx l hw hp y).mp hy
    refine ⟨⟨y, hyl, hzy⟩, ?_⟩
    intro hzx
    exact hne (h.eqv_trans x z y hx hz (hw y hyl) ⟨hzx.2, hzx.1⟩ hzy)
  · rintro ⟨⟨y, hy, hzy⟩, hne⟩
    refine ⟨y, (h.mem_setErase x hx l hw hp y).mpr ⟨hy, ?_⟩, hzy⟩
    intro hxy
    exact hne (h.eqv_trans z y x hz (hw y hy) hx hzy ⟨hxy.2, hxy.1⟩)

/-- Two sets, under a strict weak order, that contain the same elements up to
equivalence have the same number of elements. -/
theorem StrictWeak.length_eq {α : Type} {lt : α → α → Bool} {W : α → Prop}
    (h : StrictWeak lt W) : ∀ (l1 l2 : List α), (∀ y ∈ l1, W y) → (∀ y ∈ l2, W y) →
    l1.Pairwise (fun a b => lt a b = true) → l2.Pairwise (fun a b => lt a b = true) →
    (∀ z, W z → (setContains lt z l1 = true ↔ setContains lt z l2 = true)) →
    l1.length = l2.length
  | [], [], _, _, _, _, _ => rfl
  | [], b :: l2, _, hw2, _, _, hiff => by
    have hb := hw2 b (List.mem_cons_self _ _)
    have := (hiff b hb).mpr ((setContains_iff lt b _).mpr
      ⟨b, List.mem_cons_self _ _, h.irrefl b hb, h.irrefl b hb⟩)
    simp [setContains] at this
  | a :: l1, [], hw1, _, _, _, hiff => by
    have ha := hw1 a (List.mem_cons_self _ _)
    have := (hiff a ha).mp ((setContains_iff lt a _).mpr
      ⟨a, List.mem_cons_self _ _, h.irrefl a ha, h.irrefl a ha⟩)
    simp [setContains] at this
  | a :: l1, b :: l2, hw1, hw2, hp1, hp2, hiff => by
    have ha := hw1 a (List.mem_cons_self _ _)
    have hb := hw2 b (List.mem_cons_self _ _)
    have hws1 : ∀ z ∈ l1, W z := fun z hz => hw1 z (List.mem_cons_of_mem _ hz)
    have hws2 : ∀ z ∈ l2, W z := fun z hz => hw2 z (List.mem_cons_of_mem _ hz)
    rw [List.pairwise_cons] at hp1 hp2
    have hab : lt a b = false := by
      cases hlt : lt a b with
      | false => rfl
      | true =>
        exfalso
        obtain ⟨y, hy, hay⟩ := (setContains_iff lt a _).mp ((hiff a ha).mp
          ((setContains_iff lt a _).mpr
            ⟨a, List.mem_cons_self _ _, h.irrefl a ha, h.irrefl a ha⟩))
        rcases List.mem_cons.mp hy with rfl | hy
        · rw [hay.1] at hlt; cases hlt
        · have := h.trans a b y ha hb (hws2 y hy) hlt (hp2.1 y hy)
          rw [hay.1] at this; cases this
    have hba : lt b a = false := by
      cases hlt : lt b a with
      | false => rfl
      | true =>
        exfalso
        obtain ⟨y, hy, hby⟩ := (setContains_iff lt b _).mp ((hiff b hb).mpr
          ((setContains_iff lt b _).mpr
            ⟨b, List.mem_cons_self _ _, h.irrefl b hb, h.irrefl b hb⟩))
        rcases List.mem_cons.mp hy with rfl | hy
        · rw [hby.1] at hlt; cases hlt
        · have := h.trans b a y hb ha (hws1 y hy) hlt (hp1.1 y hy)
          rw [hby.1] at this; cases this
    have htail : ∀ z, W z → (setContains lt z l1 = true ↔ setContains lt z l2 = true) := by
      intro z hz
      constructor
      · intro hc
        obtain ⟨y, hy, hzy⟩ := (setContains_iff lt z _).mp hc
        obtain ⟨w, hw, hzw⟩ := (setContains_iff lt z _).mp ((hiff z hz).mp
          ((setContains_iff lt z _).mpr ⟨y, List.mem_cons_of_mem _ hy, hzy⟩))
        rcases List.mem_cons.mp hw with rfl | hw
        · exfalso
          have hay := hp1.1 y hy
          have hzy2 := h.eqv_trans y z w (hws1 y hy) hz hb ⟨hzy.2, hzy.1⟩ hzw
          have hya := h.eqv_trans y w a (hws1 y hy) hb ha hzy2 ⟨hba, hab⟩
          rw [hya.2] at hay
          cases hay
        · exact (setContains_iff lt z _).mpr ⟨w, hw, hzw⟩
      · intro hc
        obtain ⟨y, hy, hzy⟩ := (setContains_iff lt z _).mp hc
        obtain ⟨w, hw, hzw⟩ := (setContains_iff lt z _).mp ((hiff z hz).mpr
          ((setContains_iff lt z _).mpr ⟨y, List.mem_cons_of_mem _ hy, hzy⟩))
        rcases List.mem_cons.mp hw with rfl | hw
        · exfalso
          have hby := hp2.1 y hy
          have hzy2 := h.eqv_trans y z w (hws2 y hy) hz ha ⟨hzy.2, hzy.1⟩ hzw
          have hyb := h.eqv_trans y w b (hws2 y hy) ha hb hzy2 ⟨hab, hba⟩
          rw [hyb.2] at hby
          cases hby
        · exact (setContains_iff lt z _).mpr ⟨w, hw, hzw⟩
    simp only [List.length_cons]
    rw [h.length_eq l1 l2 hws1 hws2 hp1.2 hp2.2 htail]

theorem StrictWeak.foldl_setInsert {α β : Type} {lt : α → α → Bool} {W : α → Prop}
    (h : StrictWeak lt W) (g : β → α) : ∀ (A : List β) (l : List α),
    (∀ f ∈ A, W (g f)) → (∀ y ∈ l, W y) → l.Pairwise (fun a b => lt a b = true) →
    (∀ y ∈ A.foldl (fun r f => setInsert lt (g f) r) l, W y) ∧
    (A.foldl (fun r f => setInsert lt (g f) r) l).Pairwise (fun a b => lt a b = true) ∧
    ∀ z, W z → (setContains lt z (A.foldl (fun r f => setInsert lt (g f) r) l) = true ↔
      setContains lt z l = true ∨ ∃ f ∈ A, lt z (g f) = false ∧ lt (g f) z = false)
  | [], l, _, hw, hp => ⟨hw, hp, fun z _ => by simp⟩
  | f :: A, l, hA, hw, hp => by
    have hf := hA f (List.mem_cons_self _ _)
    obtain ⟨h1, h2, h3⟩ := h.foldl_setInsert g A (setInsert lt (g f) l)
      (fun f1 hf1 => hA f1 (List.mem_cons_of_mem _ hf1))
      (mem_setInsert_wf lt W (g f) hf l hw) (h.insert_keeps_sorted (g f) hf l hw hp)
    refine ⟨h1, h2, ?_⟩
    intro z hz
    simp only [List.foldl_cons]
    rw [h3 z hz, h.contains_setInsert (g f) z hf hz l hw]
    simp only [List.mem_cons, exists_eq_or_imp]
    tauto

theorem StrictWeak.foldl_setErase {α β : Type} {lt : α → α → Bool} {W : α → Prop}
    (h : StrictWeak lt W) (g : β → α) : ∀ (R : List β) (l : List α),
    (∀ f ∈ R, W (g f)) → (∀ y ∈ l, W y) → l.Pairwise (fun a b => lt a b = true) →
    (∀ y ∈ R.foldl (fun r f => setErase lt (g f) r) l, W y) ∧
    (R.foldl (fun r f => setErase lt (g f) r) l).Pairwise (fun a b => lt a b = true) ∧
    ∀ z, W z → (setContains lt z (R.foldl (fun r f => setErase lt (g f) r) l) = true ↔
      setContains lt z l = true ∧ ∀ f ∈ R, ¬ (lt z (g f) = false ∧ lt (g f) z = false))
  | [], l, _, hw, hp => ⟨hw, hp, fun z _ => by simp⟩
  | f :: R, l, hR, hw, hp => by
    have hf := hR f (List.mem_cons_self _ _)
    have hsub := setErase_sublist lt (g f) l
    obtain ⟨h1, h2, h3⟩ := h.foldl_setErase g R (setErase lt (g f) l)
      (fun f1 hf1 => hR f1 (List.mem_cons_of_mem _ hf1))
      (fun y hy => hw y (hsub.subset hy)) (hp.sublist hsub)
    refine ⟨h1, h2, ?_⟩
    intro z hz
    simp only [List.foldl_cons]
    rw [h3 z hz, h.contains_setErase (g f) z hf hz l hw hp]
    simp only [List.mem_cons, forall_eq_or_imp]
    tauto

/-! ## The order on ground literals -/

theorem namesLt_irrefl : ∀ l : List String, namesLt l l = false
  | [] => rfl
  | a :: as => by simp [namesLt, namesLt_irrefl as]

theorem strLt_trans (a b c : String) (h1 : strLt a b = true) (h2 : strLt b c = true) :
    strLt a c = true := natListLt_trans _ _ _ h1 h2

theorem strLt_ne (a b : String) (h : strLt a b = true) : a ≠ b := by
  rintro rfl
  rw [strLt_irrefl] at h
  cases h

theorem namesLt_trans : ∀ (x y z : List String), namesLt x y = true → namesLt y z = true →
    namesLt x z = true
  | [], _, _, h, _ => by simp [namesLt] at h
  | _ :: _, [], _, h, _ => by simp [namesLt] at h
  | _ :: _, _ :: _, [], _, h => by simp [namesLt] at h
  | a :: as, b :: bs, c :: cs, h1, h2 => by
    simp only [namesLt] at h1 h2 ⊢
    by_cases hab : a = b
    · subst hab
      simp only [ne_eq, not_true_eq_false, if_false] at h1
      by_cases hac : a = c
      · subst hac
        simp only [ne_eq, not_true_eq_false, if_false] at h2 ⊢
        exact namesLt_trans as bs cs h1 h2
      · simp only [ne_eq, hac, not_false_eq_true, if_true] at h2 ⊢
        exact h2
    · simp only [ne_eq, hab, not_false_eq_true, if_true] at h1
      by_cases hbc : b = c
      · subst hbc
        simp only [ne_eq, hab, not_false_eq_true, if_true]
        exact h1
      · simp only [ne_eq, hbc, not_false_eq_true, if_true] at h2
        have hlt := strLt_trans a b c h1 h2
        simp only [ne_eq, strLt_ne a c hlt, not_false_eq_true, if_true]
        exact hlt

theorem namesLt_total : ∀ (x y : List String), x.length = y.length →
    namesLt x y = false → namesLt y x = false → x = y
  | [], [], _, _, _ => rfl
  | [], _ :: _, h, _, _ => by simp at h
  | _ :: _, [], h, _, _ => by simp at h
  | a :: as, b :: bs, hlen, h1, h2 => by
    simp only [namesLt] at h1 h2
    by_cases hab : a = b
    · subst hab
      simp only [ne_eq, not_true_eq_false, if_false] at h1 h2
      rw [namesLt_total as bs (by simpa using hlen) h1 h2]
    · have hba : ¬ b = a := fun h => hab h.symm
      simp only [ne_eq, hab, hba, not_false_eq_true, if_true] at h1 h2
      exact absurd (strLt_eq_of_not_lt a b h1 h2) hab

theorem paramsLt_eq_namesLt : ∀ (n : Nat) (as bs : List Term), as.length = n →
    bs.length = n → (∀ a ∈ as, a.isVariable = false) →
    paramsLt n as bs = namesLt (as.map (fun p => p.name)) (bs.map (fun p => p.name))
  | 0, [], [], _, _, _ => rfl
  | 0, _ :: _, _, h, _, _ => by simp at h
  | 0, [], _ :: _, _, h, _ => by simp at h
  | _ + 1, [], _, h, _, _ => by simp at h
  | _ + 1, _ :: _, [], _, h, _ => by simp at h
  | n + 1, a :: as, b :: bs, h1, h2, hg => by
    have ha := hg a (List.mem_cons_self _ _)
    simp only [paramsLt, List.map_cons, namesLt, Term.ne, Term.eq, ha, Bool.false_and,
      Bool.or_false, Term.lt]
    rw [paramsLt_eq_namesLt n as bs (by simpa using h1) (by simpa using h2)
      (fun x hx => hg x (List.mem_cons_of_mem _ hx))]
    by_cases hn : a.name = b.name <;> simp [hn]

/-- On positive literals with as many parameters as the arity of their predicate, the
first of them ground, `Literal::operator<` is the lexicographic order on the keys. -/
theorem literal_lt_eq_namesLt (a b : Literal) (ha : a.positive = true)
    (hb : b.positive = true) (hga : a.grounded = true)
    (hla : a.parameters.length = a.pred.arity) (hlb : b.parameters.length = b.pred.arity)
    (hsig : a.pred.name = b.pred.name → a.pred.arity = b.pred.arity) :
    a.lt b = namesLt a.key b.key := by
  have hg : ∀ p ∈ a.parameters, p.isVariable = false := by
    intro p hp
    unfold Literal.grounded at hga
    rw [List.all_eq_true] at hga
    simpa using hga p hp
  unfold Literal.lt Literal.key
  simp only [ha, hb, Bool.not_true, Bool.and_false, Bool.false_eq_true, if_false,
    Bool.and_true, Predicate.eq, namesLt, Predicate.lt]
  by_cases hn : a.pred.name = b.pred.name
  · simp only [hn, beq_self_eq_true, Bool.not_true, Bool.false_eq_true, if_false, ne_eq,
      not_true_eq_false]
    exact paramsLt_eq_namesLt _ _ _ hla (by rw [hlb, hsig hn]) hg
  · simp [hn]

/-- On a list of positive ground facts with as many parameters as the arity of their
predicate, two facts with the same predicate name having the same arity,
`Literal::operator<` is a strict weak order. -/
theorem literal_strictWeak (U : List Literal)
    (hwf : ∀ f ∈ U, f.positive = true ∧ f.grounded = true ∧
      f.parameters.length = f.pred.arity)
    (hsig : ∀ f ∈ U, ∀ g ∈ U, f.pred.name = g.pred.name → f.pred.arity = g.pred.arity) :
    StrictWeak Literal.lt (fun f => f ∈ U) := by
  have hk : ∀ a ∈ U, ∀ b ∈ U, a.lt b = namesLt a.key b.key := fun a ha b hb =>
    literal_lt_eq_namesLt a b (hwf a ha).1 (hwf b hb).1 (hwf a ha).2.1 (hwf a ha).2.2
      (hwf b hb).2.2 (hsig a ha b hb)
  have hkey : ∀ a ∈ U, ∀ b ∈ U, a.lt b = false → b.lt a = false → a.key = b.key := by
    intro a ha b hb h1 h2
    have hn : a.pred.name = b.pred.name := by
      by_contra hne
      rw [hk a ha b hb] at h1
      rw [hk b hb a ha] at h2
      have hne2 : ¬ b.pred.name = a.pred.name := fun h => hne h.symm
      simp only [Literal.key, namesLt, ne_eq, hne, hne2, not_false_eq_true, if_true] at h1 h2
      exact hne (strLt_eq_of_not_lt _ _ h1 h2)
    rw [hk a ha b hb] at h1
    rw [hk b hb a ha] at h2
    refine namesLt_total _ _ ?_ h1 h2
    simp only [Literal.key, List.length_cons, List.length_map]
    rw [(hwf a ha).2.2, (hwf b hb).2.2, hsig a ha b hb hn]
  refine ⟨?_, ?_, ?_, ?_⟩
  · intro a ha
    rw [hk a ha a ha]
    exact namesLt_irrefl _
  · intro a b c ha hb hc h1 h2
    rw [hk a ha b hb] at h1
    rw [hk b hb c hc] at h2
    rw [hk a ha c hc]
    exact namesLt_trans _ _ _ h1 h2
  · intro a b c ha hb hc h1 h2
    rw [hk a ha c hc, hk b hb c hc, hkey a ha b hb h1 h2]
  · intro a b c ha hb hc h1 h2
    rw [hk c hc a ha, hk c hc b hb, hkey a ha b hb h1 h2]

/-! ## The difference of two states -/

/-- On sets of facts, the first of positive facts, `difference` returns the facts of the
second state that the first does not contain and the negations of the facts of the first
state that the second does not contain. -/
theorem stateDifference_sorted (s o : List Literal)
    (hs : s.Pairwise (fun a b => Literal.lt a b = true))
    (ho : o.Pairwise (fun a b => Literal.lt a b = true))
    (hpos : ∀ f ∈ s, f.positive = true) :
    (stateDifference s o).1 = o.filter (fun f => !stateContains s f) ∧
    (stateDifference s o).2 = (s.filter (fun f => !stateContains o f)).map Literal.neg := by
  constructor
  · unfold stateDifference
    dsimp only
    refine (foldl_filter_map_setInsert Literal.lt (fun f => !stateContains s f) id
      o []).trans ?_
    rw [List.map_id, foldl_setInsert_sorted Literal.lt literal_lt_asymm _ []
        (List.Pairwise.sublist (List.filter_sublist _) ho) (fun _ hy => by cases hy)]
    rfl
  · unfold stateDifference
    dsimp only
    refine (foldl_filter_map_setInsert Literal.lt (fun f => !stateContains o f)
      (fun f => (⟨f.pred, f.parameters, false⟩ : Literal)) s []).trans ?_
    have hmap : (s.filter (fun f => !stateContains o f)).map
        (fun f => (⟨f.pred, f.parameters, false⟩ : Literal)) =
        (s.filter (fun f => !stateContains o f)).map Literal.neg := by
      apply List.map_congr_left
      intro f hf
      have := hpos f (List.mem_of_mem_filter hf)
      simp [Literal.neg, this]
    rw [foldl_setInsert_sorted Literal.lt literal_lt_asymm _ [] ?_ (fun _ hy => by cases hy),
      hmap]
    · rfl
    · rw [List.pairwise_map]
      refine List.Pairwise.imp_of_mem ?_
        (List.Pairwise.sublist (List.filter_sublist _) hs)
      intro a b ha hb hab
      rw [Literal.lt_neg_of_positive a b (hpos a (List.mem_of_mem_filter ha))
        (hpos b (List.mem_of_mem_filter hb))]
      exact hab

theorem Literal.abs_of_positive (f : Literal) (h : f.positive = true) : f.abs = f := by
  cases f
  simp only [Literal.abs] at h ⊢
  simp [h]

theorem Literal.abs_neg (f : Literal) (h : f.positive = true) : f.neg.abs = f := by
  cases f
  simp only [Literal.abs, Literal.neg] at h ⊢
  simp [h]

theorem literal_lt_irrefl (f : Literal) : f.lt f = false := by
  cases h : f.lt f with
  | false => rfl
  | true => rw [literal_lt_asymm f f h] at h; cases h

/-- C21: for two states, sets of positive ground facts over predicates of one arity per
name, `difference` yields as `added` the facts of `o` that `s` does not contain and as
`removed` the negations of the facts of `s` that `o` does not contain, both empty when
`o` is `s`; and adding `added` to `s`, then removing `removed`, gives a state equal to
`o`. -/
theorem C21_difference_round_trip (s o : List Literal)
    (hs : s.Pairwise (fun a b => Literal.lt a b = true))
    (ho : o.Pairwise (fun a b => Literal.lt a b = true))
    (hwf : ∀ f ∈ s ++ o, f.positive = true ∧ f.grounded = true ∧
      f.parameters.length = f.pred.arity)
    (hsig : ∀ f ∈ s ++ o, ∀ g ∈ s ++ o, f.pred.name = g.pred.name →
      f.pred.arity = g.pred.arity) :
    (stateDifference s o).1 = o.filter (fun f => !stateContains s f) ∧
    (stateDifference s o).2 = (s.filter (fun f => !stateContains o f)).map Literal.neg ∧
    stateDifference s s = ([], []) ∧
    stateEq (removeFacts (addFacts s (stateDifference s o).1) (stateDifference s o).2) o =
      true := by
  have hposs : ∀ f ∈ s, f.positive = true := fun f hf => (hwf f (List.mem_append_left _ hf)).1
  obtain ⟨hadd, hdel⟩ := stateDifference_sorted s o hs ho hposs
  have hself : ∀ f ∈ s, stateContains s f = true := by
    intro f hf
    exact (setContains_iff Literal.lt f s).mpr ⟨f, hf, literal_lt_irrefl f, literal_lt_irrefl f⟩
  refine ⟨hadd, hdel, ?_, ?_⟩
  · obtain ⟨h1, h2⟩ := stateDifference_sorted s s hs hs hposs
    have hnil : s.filter (fun f => !stateContains s f) = [] := by
      rw [List.filter_eq_nil_iff]
      intro f hf
      simp [hself f hf]
    rw [hnil] at h1 h2
    exact Prod.ext h1 h2
  · have hW := literal_strictWeak (s ++ o) hwf hsig
    have hws : ∀ y ∈ s, y ∈ s ++ o := fun y hy => List.mem_append_left _ hy
    have hwo : ∀ y ∈ o, y ∈ s ++ o := fun y hy => List.mem_append_right _ hy
    rw [hadd, hdel]
    have hA : ∀ f ∈ o.filter (fun f => !stateContains s f), f.abs ∈ s ++ o := by
      intro f hf
      have hfo := List.mem_of_mem_filter hf
      rw [Literal.abs_of_positive f (hwf f (hwo f hfo)).1]
      exact hwo f hfo
    have hR : ∀ f ∈ (s.filter (fun f => !stateContains o f)).map Literal.neg,
        f.abs ∈ s ++ o := by
      intro f hf
      obtain ⟨g, hg, rfl⟩ := List.mem_map.mp hf
      have hgs := List.mem_of_mem_filter hg
      rw [Literal.abs_neg g (hposs g hgs)]
      exact hws g hgs
    obtain ⟨a1, a2, a3⟩ := hW.foldl_setInsert Literal.abs
      (o.filter (fun f => !stateContains s f)) s hA hws hs
    obtain ⟨r1, r2, r3⟩ := hW.foldl_setErase Literal.abs
      ((s.filter (fun f => !stateContains o f)).map Literal.neg) _ hR a1 a2
    have hiff : ∀ z, z ∈ s ++ o →
        (setContains Literal.lt z (removeFacts (addFacts s
          (o.filter (fun f => !stateContains s f)))
          ((s.filter (fun f => !stateContains o f)).map Literal.neg)) = true ↔
        setContains Literal.lt z o = true) := by
      intro z hz
      unfold removeFacts addFacts
      rw [r3 z hz, a3 z hz]
      constructor
      · rintro ⟨hin | ⟨f, hf, hzf⟩, hnot⟩
        · obtain ⟨y, hy, hzy⟩ := (setContains_iff _ _ _).mp hin
          cases hc : stateContains o y with
          | true =>
            obtain ⟨w, hw, hyw⟩ := (setContains_iff _ _ _).mp hc
            exact (setContains_iff _ _ _).mpr
              ⟨w, hw, hW.eqv_trans z y w hz (hws y hy) (hwo w hw) hzy hyw⟩
          | false =>
            exfalso
            refine hnot y.neg (List.mem_map.mpr ⟨y, List.mem_filter.mpr ⟨hy, by simp [hc]⟩,
              rfl⟩) ?_
            rw [Literal.abs_neg y (hposs y hy)]
            exact hzy
        · have hfo := List.mem_of_mem_filter hf
          rw [Literal.abs_of_positive f (hwf f (hwo f hfo)).1] at hzf
          exact (setContains_iff _ _ _).mpr ⟨f, hfo, hzf⟩
      · intro hin
        obtain ⟨w, hw, hzw⟩ := (setContains_iff _ _ _).mp hin
        refine ⟨?_, ?_⟩
        · cases hc : stateContains s w with
          | true =>
            left
            obtain ⟨y, hy, hwy⟩ := (setContains_iff _ _ _).mp hc
            exact (setContains_iff _ _ _).mpr
              ⟨y, hy, hW.eqv_trans z w y hz (hwo w hw) (hws y hy) hzw hwy⟩
          | false =>
            right
            refine ⟨w, List.mem_filter.mpr ⟨hw, by simp [hc]⟩, ?_⟩
            rw [Literal.abs_of_positive w (hwf w (hwo w hw)).1]
            exact hzw
        · intro f hf hzf
          obtain ⟨y, hy, rfl⟩ := List.mem_map.mp hf
          have hys := List.mem_of_mem_filter hy
          rw [Literal.abs_neg y (hposs y hys)] at hzf
          have hyo : stateContains o y = false := by
            have := (List.mem_filter.mp hy).2
            simpa using this
          have : stateContains o y = true := (setContains_iff _ _ _).mpr
            ⟨w, hw, hW.eqv_trans y z w (hws y hys) hz (hwo w hw) ⟨hzf.2, hzf.1⟩ hzw⟩
          rw [hyo] at this
          cases this
    have hlen := hW.length_eq _ o r1 hwo r2 ho hiff
    unfold stateEq
    unfold removeFacts addFacts at hiff ⊢
    rw [hlen]
    simp only [bne_self_eq_false, Bool.false_eq_true, if_false, List.all_eq_true]
    intro f hf
    have hfw := r1 f hf
    exact (hiff f hfw).mp ((setContains_iff _ _ _).mpr
      ⟨f, hf, literal_lt_irrefl f, literal_lt_irrefl f⟩)

/-- C21 (witness): the two states of the trace of the test `ActionRuleConstruction`. -/
theorem C21_difference_round_trip_witness :
    traceMove.state.Pairwise (fun a b => Literal.lt a b = true) ∧
    traceMove.newState.Pairwise (fun a b => Literal.lt a b = true) ∧
    (∀ f ∈ traceMove.state ++ traceMove.newState, f.positive = true ∧ f.grounded = true ∧
      f.parameters.length = f.pred.arity) ∧
    (∀ f ∈ traceMove.state ++ traceMove.newState,
      ∀ g ∈ traceMove.state ++ traceMove.newState, f.pred.name = g.pred.name →
        f.pred.arity = g.pred.arity) ∧
    ((stateDifference traceMove.state traceMove.newState).1 =
      traceMove.newState.filter (fun f => !stateContains traceMove.state f) ∧
    (stateDifference traceMove.state traceMove.newState).2 =
      (traceMove.state.filter (fun f => !stateContains traceMove.newState f)).map
        Literal.neg ∧
    stateDifference traceMove.state traceMove.state = ([], []) ∧
    stateEq (removeFacts (addFacts traceMove.state
        (stateDifference traceMove.state traceMove.newState).1)
      (stateDifference traceMove.state traceMove.newState).2) traceMove.newState = true) :=
  ⟨by decide, by decide, by decide, by decide,
    C21_difference_round_trip traceMove.state traceMove.newState (by decide) (by decide)
      (by decide) (by decide)⟩

/-! ## The probability of a conjunction of disjunctions -/

theorem cdSplit_nil (choice : Literal ⊕ Term) : cdSplit choice [] = ⟨[], [], false, false⟩ :=
  rfl

/-- Without disjunctions `cdProbTree` returns the mass of the branch. -/
theorem cdProbTree_nil : ∀ (choices : List ((Literal ⊕ Term) × ℚ)) (branchPower : ℚ),
    cdProbTree choices branchPower [] = branchPower
  | [], _ => rfl
  | (choice, choicePower) :: rest, branchPower => by
    simp only [cdProbTree, List.any_nil, Bool.false_eq_true, if_false, cdSplit_nil,
      Bool.not_false, if_true]
    exact cdProbTree_nil rest branchPower

/-- With a choice left, `cdProbTree` returns `0` on a collection that holds an empty
disjunction. -/
theorem cdProbTree_empty_disjunction (c : (Literal ⊕ Term) × ℚ)
    (rest : List ((Literal ⊕ Term) × ℚ)) (branchPower : ℚ)
    (cds1 cds2 : List (List Literal × List Term)) :
    cdProbTree (c :: rest) branchPower (cds1 ++ ([], []) :: cds2) = 0 := by
  obtain ⟨choice, choicePower⟩ := c
  have hany : (cds1 ++ ([], []) :: cds2).any
      (fun disj => disj.1.length + disj.2.length == 0) = true := by
    rw [List.any_eq_true]
    exact ⟨([], []), List.mem_append_right _ (List.mem_cons_self _ _), rfl⟩
  simp only [cdProbTree, hany, if_true]

theorem necVector_fold_ne_nil {κ : Type} : ∀ (m v : List (κ × ℚ)), v ≠ [] →
    m.foldl (fun v pair => if pair.2 = 1 then pair :: v else v ++ [pair]) v ≠ []
  | [], _, h => h
  | p :: m, v, _ => by
    simp only [List.foldl_cons]
    apply necVector_fold_ne_nil m
    split <;> simp

theorem necVector_cons_ne_nil {κ : Type} (p : κ × ℚ) (m : List (κ × ℚ)) :
    necVector (p :: m) ≠ [] := by
  unfold necVector
  simp only [List.foldl_cons]
  apply necVector_fold_ne_nil m
  split <;> simp

/-- C25: `cdProb` of the empty collection of disjunctions is `1` for all necessity maps;
`cdProb` of a collection that holds an empty disjunction is `0` when one of the two
necessity maps has an entry, but it is `1` on the collection of the empty disjunction
alone when both maps are empty: the test that no choice is left comes first. -/
theorem C25_cdProb_base_cases :
    (∀ (precondNecs : List (Literal × ℚ)) (constNecs : List (Term × ℚ)),
      cdProb precondNecs constNecs [] = 1) ∧
    (∀ (p : Literal × ℚ) (precondNecs : List (Literal × ℚ)) (constNecs : List (Term × ℚ))
      (cds1 cds2 : List (List Literal × List Term)),
      cdProb (p :: precondNecs) constNecs (cds1 ++ ([], []) :: cds2) = 0) ∧
    (∀ (precondNecs : List (Literal × ℚ)) (c : Term × ℚ) (constNecs : List (Term × ℚ))
      (cds1 cds2 : List (List Literal × List Term)),
      cdProb precondNecs (c :: constNecs) (cds1 ++ ([], []) :: cds2) = 0) ∧
    cdProb [] [] [([], [])] = 1 := by
  refine ⟨?_, ?_, ?_, ?_⟩
  · intro precondNecs constNecs
    exact cdProbTree_nil _ _
  · intro p precondNecs constNecs cds1 cds2
    unfold cdProb cdChoices
    obtain ⟨q, qs, hq⟩ := List.exists_cons_of_ne_nil (necVector_cons_ne_nil p precondNecs)
    rw [hq, List.map_cons, List.cons_append]
    exact cdProbTree_empty_disjunction _ _ _ _ _
  · intro precondNecs c constNecs cds1 cds2
    unfold cdProb cdChoices
    obtain ⟨q, qs, hq⟩ := List.exists_cons_of_ne_nil (necVector_cons_ne_nil c constNecs)
    cases hp : (necVector precondNecs).map
        (fun p => ((Sum.inl p.1 : Literal ⊕ Term), p.2)) with
    | nil =>
      rw [hq, List.map_cons, List.nil_append]
      exact cdProbTree_empty_disjunction _ _ _ _ _
    | cons x xs =>
      rw [List.cons_append]
      exact cdProbTree_empty_disjunction _ _ _ _ _
  · rfl

/-! ## The initial necessities of a rule -/

theorem mapAssign_append_of_lt {κ ν : Type} (lt : κ → κ → Bool)
    (hasym : ∀ a b, lt a b = true → lt b a = false) (k : κ) (v : ν) :
    ∀ (m : List (κ × ν)), (∀ e ∈ m, lt e.1 k = true) → mapAssign lt k v m = m ++ [(k, v)]
  | [], _ => rfl
  | (k1, v1) :: rest, h => by
    have h1 := h (k1, v1) (List.mem_cons_self _ _)
    simp only at h1
    simp only [mapAssign, hasym k1 k h1, Bool.false_eq_true, if_false, h1, if_true,
      List.cons_append]
    rw [mapAssign_append_of_lt lt hasym k v rest (fun e he => h e (List.mem_cons_of_mem _ he))]

theorem foldl_mapAssign_sorted {κ ν : Type} (lt : κ → κ → Bool)
    (hasym : ∀ a b, lt a b = true → lt b a = false) (val : κ → ν) :
    ∀ (l : List κ) (acc : List (κ × ν)), l.Pairwise (fun a b => lt a b = true) →
      (∀ e ∈ acc, ∀ x ∈ l, lt e.1 x = true) →
      l.foldl (fun m x => mapAssign lt x (val x) m) acc = acc ++ l.map (fun x => (x, val x))
  | [], acc, _, _ => by simp
  | x :: l, acc, hp, hacc => by
    rw [List.pairwise_cons] at hp
    simp only [List.foldl_cons]
    rw [mapAssign_append_of_lt lt hasym x (val x) acc
        (fun e he => hacc e he x (List.mem_cons_self _ _)),
      foldl_mapAssign_sorted lt hasym val l _ hp.2]
    · simp
    · intro e he z hz
      rcases List.mem_append.mp he with he | he
      · exact hacc e he z (List.mem_cons_of_mem _ hz)
      · rw [List.mem_singleton] at he
        subst he
        exact hp.1 z hz

theorem mapAssign_const_map {κ ν : Type} (lt : κ → κ → Bool) (k : κ) (v : ν) :
    ∀ (cs : List κ), mapAssign lt k v (cs.map (fun c => (c, v))) =
      (setInsert lt k cs).map (fun c => (c, v))
  | [] => rfl
  | y :: ys => by
    simp only [List.map_cons, mapAssign, setInsert]
    split
    · rfl
    · split
      · simp only [List.map_cons, mapAssign_const_map lt k v ys]
      · rfl

theorem foldl_pair_fst {α β γ : Type} (f : α → γ → α) (g : β → γ → β) :
    ∀ (l : List γ) (a : α) (b : β),
      l.foldl (fun st x => (f st.1 x, g st.2 x)) (a, b) = (l.foldl f a, l.foldl g b)
  | [], _, _ => rfl
  | x :: l, a, b => by
    simp only [List.foldl_cons]
    exact foldl_pair_fst f g l _ _

theorem constsFold_map (v : ℚ) : ∀ (ps : List Term) (cs : List Term),
    ps.foldl (fun cn param =>
      if !param.isVariable then mapAssign Term.lt param v cn else cn)
      (cs.map (fun c => (c, v))) =
    (ps.foldl (fun constants param =>
      if !param.isVariable then setInsert Term.lt param constants else constants) cs).map
      (fun c => (c, v))
  | [], _ => rfl
  | p :: ps, cs => by
    simp only [List.foldl_cons]
    cases hp : p.isVariable
    · simp only [Bool.not_false, if_true, mapAssign_const_map]
      exact constsFold_map v ps _
    · simp only [Bool.not_true, Bool.false_eq_true, if_false]
      exact constsFold_map v ps _

theorem constsFold2_map (v : ℚ) : ∀ (pre : List Literal) (cs : List Term),
    pre.foldl (fun cn precond => precond.parameters.foldl (fun cn param =>
      if !param.isVariable then mapAssign Term.lt param v cn else cn) cn)
      (cs.map (fun c => (c, v))) =
    (pre.foldl (fun constants precond => precond.parameters.foldl (fun constants param =>
      if !param.isVariable then setInsert Term.lt param constants else constants)
      constants) cs).map (fun c => (c, v))
  | [], _ => rfl
  | p :: pre, cs => by
    simp only [List.foldl_cons]
    rw [constsFold_map v p.parameters cs]
    exact constsFold2_map v pre _

theorem constantsFold_spec : ∀ (ps : List Term) (cs : List Term),
    cs.Pairwise (fun a b => a.lt b = true) →
    (ps.foldl (fun constants param =>
      if !param.isVariable then setInsert Term.lt param constants else constants)
      cs).Pairwise (fun a b => a.lt b = true) ∧
    (∀ c ∈ ps.foldl (fun constants param =>
      if !param.isVariable then setInsert Term.lt param constants else constants) cs,
      c ∈ cs ∨ (c ∈ ps ∧ c.isVariable = false)) ∧
    (∀ n, (hasName cs n ∨ ∃ c ∈ ps, c.isVariable = false ∧ c.name = n) →
      hasName (ps.foldl (fun constants param =>
        if !param.isVariable then setInsert Term.lt param constants else constants) cs) n)
  | [], cs, h => ⟨h, fun c hc => Or.inl hc, fun n hn => by
      rcases hn with hn | ⟨c, hc, _⟩
      · exact hn
      · cases hc⟩
  | p :: ps, cs, h => by
    simp only [List.foldl_cons]
    cases hp : p.isVariable
    · simp only [Bool.not_false, if_true]
      obtain ⟨h1, h2, h3⟩ := constantsFold_spec ps (setInsert Term.lt p cs)
        (sorted_setInsert p cs h)
      refine ⟨h1, ?_, ?_⟩
      · intro c hc
        rcases h2 c hc with hc | ⟨hc, hv⟩
        · rcases mem_setInsert Term.lt p c cs hc with rfl | hc
          · exact Or.inr ⟨List.mem_cons_self _ _, hp⟩
          · exact Or.inl hc
        · exact Or.inr ⟨List.mem_cons_of_mem _ hc, hv⟩
      · intro n hn
        apply h3
        rcases hn with ⟨y, hy, hyn⟩ | ⟨c, hc, hv, hcn⟩
        · exact Or.inl ⟨y, mem_setInsert_of_mem Term.lt p y cs hy, hyn⟩
        · rcases List.mem_cons.mp hc with rfl | hc
          · obtain ⟨y, hy, hxy, hyx⟩ := setInsert_has_equiv Term.lt c cs (Term.lt_irrefl c)
            exact Or.inl ⟨y, hy, by rw [← hcn]; exact (Term.name_eq_of_not_lt c y hxy hyx).symm⟩
          · exact Or.inr ⟨c, hc, hv, hcn⟩
    · simp only [Bool.not_true, Bool.false_eq_true, if_false]
      obtain ⟨h1, h2, h3⟩ := constantsFold_spec ps cs h
      refine ⟨h1, ?_, ?_⟩
      · intro c hc
        rcases h2 c hc with hc | ⟨hc, hv⟩
        · exact Or.inl hc
        · exact Or.inr ⟨List.mem_cons_of_mem _ hc, hv⟩
      · intro n hn
        apply h3
        rcases hn with hn | ⟨c, hc, hv, hcn⟩
        · exact Or.inl hn
        · rcases List.mem_cons.mp hc with rfl | hc
          · rw [hp] at hv; cases hv
          · exact Or.inr ⟨c, hc, hv, hcn⟩

theorem constantsFold2_spec : ∀ (pre : List Literal) (cs : List Term),
    cs.Pairwise (fun a b => a.lt b = true) →
    (pre.foldl (fun constants precond => precond.parameters.foldl (fun constants param =>
      if !param.isVariable then setInsert Term.lt param constants else constants)
      constants) cs).Pairwise (fun a b => a.lt b = true) ∧
    (∀ c ∈ pre.foldl (fun constants precond => precond.parameters.foldl
      (fun constants param =>
        if !param.isVariable then setInsert Term.lt param constants else constants)
      constants) cs,
      c ∈ cs ∨ (c.isVariable = false ∧ ∃ p ∈ pre, c ∈ p.parameters)) ∧
    (∀ n, (hasName cs n ∨ ∃ p ∈ pre, ∃ c ∈ p.parameters, c.isVariable = false ∧ c.name = n) →
      hasName (pre.foldl (fun constants precond => precond.parameters.foldl
        (fun constants param =>
          if !param.isVariable then setInsert Term.lt param constants else constants)
        constants) cs) n)
  | [], cs, h => ⟨h, fun c hc => Or.inl hc, fun n hn => by
      rcases hn with hn | ⟨p, hp, _⟩
      · exact hn
      · cases hp⟩
  | p :: pre, cs, h => by
    simp only [List.foldl_cons]
    obtain ⟨a1, a2, a3⟩ := constantsFold_spec p.parameters cs h
    obtain ⟨h1, h2, h3⟩ := constantsFold2_spec pre _ a1
    refine ⟨h1, ?_, ?_⟩
    · intro c hc
      rcases h2 c hc with hc | ⟨hv, q, hq, hcq⟩
      · rcases a2 c hc with hc | ⟨hc, hv⟩
        · exact Or.inl hc
        · exact Or.inr ⟨hv, p, List.mem_cons_self _ _, hc⟩
      · exact Or.inr ⟨hv, q, List.mem_cons_of_mem _ hq, hcq⟩
    · intro n hn
      apply h3
      rcases hn with hn | ⟨q, hq, c, hc, hv, hcn⟩
      · exact Or.inl (a3 n (Or.inl hn))
      · rcases List.mem_cons.mp hq with rfl | hq
        · exact Or.inl (a3 n (Or.inr ⟨c, hc, hv, hcn⟩))
        · exact Or.inr ⟨q, hq, c, hc, hv, hcn⟩

theorem initNecessities_of_power (powf : ℚ → ℚ → ℚ) (p0 : ℚ) (pre del : List Literal)
    (power : ℚ)
    (hpow : startPower powf p0 (necessityComponents pre del) = some power) :
    initNecessities powf p0 pre del = some (necessitiesWith power pre del) := by
  unfold initNecessities necessitiesWith
  dsimp only
  rw [hpow]
  clear hpow
  generalize (([], []) : List (Literal × ℚ) × List (Term × ℚ)) = st0
  induction pre generalizing st0 with
  | nil => rfl
  | cons p pre ih =>
    simp only [List.foldl_cons]
    have hcn : ∀ (ps : List Term) (m : List (Term × ℚ)),
        ps.foldl (fun cn param =>
          if !param.isVariable then
            match cn, some power with
            | some m, some power => some (mapAssign Term.lt param (1 - power) m)
            | _, _ => none
          else cn) (some m) =
        some (ps.foldl (fun cn param =>
          if !param.isVariable then mapAssign Term.lt param (1 - power) cn else cn) m) := by
      intro ps
      induction ps with
      | nil => intro m; rfl
      | cons q ps ihq =>
        intro m
        simp only [List.foldl_cons]
        cases hq : q.isVariable
        · simp only [Bool.not_false, if_true]
          exact ihq _
        · simp only [Bool.not_true, Bool.false_eq_true, if_false]
          exact ihq _
    rw [hcn]
    by_cases hin : inList Literal.eq del p.neg = true
    · simp only [hin, if_true]
      exact ih _
    · simp only [hin, Bool.false_eq_true, if_false, Option.map_some']
      exact ih _

theorem necessitiesWith_spec (power : ℚ) (pre del : List Literal)
    (hpre : pre.Pairwise (fun a b => Literal.lt a b = true)) :
    necessitiesWith power pre del =
      (pre.map (fun p => (p, if inList Literal.eq del p.neg then 1 else 1 - power)),
        (preconditionConstants pre).map (fun c => (c, 1 - power))) := by
  have hfold : necessitiesWith power pre del =
      (pre.foldl (fun m p => mapAssign Literal.lt p
          (if inList Literal.eq del p.neg then 1 else 1 - power) m) [],
        pre.foldl (fun cn precond => precond.parameters.foldl (fun cn param =>
          if !param.isVariable then mapAssign Term.lt param (1 - power) cn
          else cn) cn) []) := by
    unfold necessitiesWith
    rw [← foldl_pair_fst]
    congr 1
    funext st precond
    split <;> rfl
  rw [hfold, foldl_mapAssign_sorted Literal.lt literal_lt_asymm _ pre [] hpre
    (fun _ he => by cases he)]
  congr 1
  exact constsFold2_map _ pre []

/-- C23 (counterexample): the rule `act(a)` with the precondition `p(X)` has one
precondition, one non-variable parameter and no delete effect, so the wording gives
`k = 2`, whereas the constant `a` occurs in no precondition and the constructor computes
`components = 1`: for the start probability `1/4` the necessity of `p(X)` is
`1 - (1/4)^1 = 3/4`, not `1 - (1/4)^(1/2) = 1/2`. -/
theorem C23_counterexample :
    specComponents ruleConstAction = 2 ∧
    necessityComponents ruleConstAction.preconditions ruleConstAction.del = 1 ∧
    initNecessities powfQuarter (1 / 4) ruleConstAction.preconditions
      ruleConstAction.del = some ([(mkLit "p" [mkVar "X"], 3 / 4)], []) ∧
    1 - powfQuarter (1 / 4) (1 / specComponents ruleConstAction) = 1 / 2 := by
  have hpre : ruleConstAction.preconditions = [mkLit "p" [mkVar "X"]] := by decide
  have hdel : ruleConstAction.del = [] := by decide
  have hpar : ruleConstAction.parameters.filter (fun p => !p.isVariable) =
      [mkConst "a"] := by decide
  have hk : specComponents ruleConstAction = 2 := by
    unfold specComponents
    rw [hpre, hdel, hpar]
    norm_num
  have hconst : preconditionConstants [mkLit "p" [mkVar "X"]] = [] := by decide
  have hc : necessityComponents [mkLit "p" [mkVar "X"]] [] = 1 := by
    unfold necessityComponents
    rw [hconst]
    norm_num
  refine ⟨hk, by rw [hpre, hdel]; exact hc, ?_, ?_⟩
  · rw [hpre, hdel]
    have hpow : startPower powfQuarter (1 / 4)
        (necessityComponents [mkLit "p" [mkVar "X"]] []) = some (1 / 4) := by
      rw [hc]
      norm_num [startPower, powfQuarter]
    rw [initNecessities_of_power _ _ _ _ _ hpow, necessitiesWith_spec _ _ _ (by decide),
      hconst]
    have hin : inList Literal.eq [] (mkLit "p" [mkVar "X"]).neg = false := by decide
    simp only [List.map_cons, List.map_nil, hin, Bool.false_eq_true, if_false]
    norm_num
  · rw [hk]
    norm_num [powfQuarter]

/-- C23 (amended): a newly constructed rule with start probability `p0`, whose
preconditions are a set, gives necessity `1` to every precondition whose negation is one
of its delete effects and necessity `1 - p0^(1/k)` to every other precondition and to
every constant that occurs in a precondition, where `k` is the number of preconditions,
plus the number of constants, distinct by name, that occur in the preconditions, minus
the number of delete effects; when `k` is zero and `p0` lies strictly between `-1` and
`1`, the exponent is `+∞`, the power is zero and every necessity is `1`. The two necessity
maps have no other keys. -/
theorem C23_initNecessities (powf : ℚ → ℚ → ℚ) (p0 : ℚ) (pre del : List Literal)
    (hpre : pre.Pairwise (fun a b => Literal.lt a b = true)) :
    (necessityComponents pre del ≠ 0 →
      initNecessities powf p0 pre del = some
        (pre.map (fun p => (p, if inList Literal.eq del p.neg then 1
          else 1 - powf p0 (1 / necessityComponents pre del))),
         (preconditionConstants pre).map (fun c =>
          (c, 1 - powf p0 (1 / necessityComponents pre del))))) ∧
    (necessityComponents pre del = 0 → -1 < p0 → p0 < 1 →
      initNecessities powf p0 pre del = some
        (pre.map (fun p => (p, 1)), (preconditionConstants pre).map (fun c => (c, 1)))) ∧
    necessityComponents pre del =
      (pre.length : ℚ) + ((preconditionConstants pre).length : ℚ) - (del.length : ℚ) ∧
    (preconditionConstants pre).Pairwise (fun a b => a.name ≠ b.name) ∧
    (∀ c ∈ preconditionConstants pre, c.isVariable = false ∧ ∃ p ∈ pre, c ∈ p.parameters) ∧
    (∀ p ∈ pre, ∀ c ∈ p.parameters, c.isVariable = false →
      ∃ c1 ∈ preconditionConstants pre, c1.name = c.name) := by
  obtain ⟨h1, h2, h3⟩ := constantsFold2_spec pre [] List.Pairwise.nil
  refine ⟨?_, ?_, rfl, ?_, ?_, ?_⟩
  · intro hk
    have hpow : startPower powf p0 (necessityComponents pre del) =
        some (powf p0 (1 / necessityComponents pre del)) := by
      unfold startPower
      rw [if_neg hk]
    rw [initNecessities_of_power _ _ _ _ _ hpow, necessitiesWith_spec _ _ _ hpre]
  · intro hk hlo hhi
    have hpow : startPower powf p0 (necessityComponents pre del) = some 0 := by
      unfold startPower
      rw [if_pos hk, if_pos ⟨hlo, hhi⟩]
    rw [initNecessities_of_power _ _ _ _ _ hpow, necessitiesWith_spec _ _ _ hpre]
    simp
  · exact List.Pairwise.imp (fun {a b : Term} (h : a.lt b = true) =>
      Term.name_ne_of_lt a b h) h1
  · intro c hc
    rcases h2 c hc with hc | hc
    · cases hc
    · exact hc
  · intro p hp c hc hv
    exact h3 c.name (Or.inr ⟨p, hp, c, hc, hv, rfl⟩)

/-- C23 (witness): the preconditions and the delete effect of the first rule of the test
`ProbabilitiesTests`, for which `k = 6`; and the precondition `p(X)` with the delete effect
`-q(X)`, for which `k = 0` and the necessity of `p(X)` is `1`. -/
theorem C23_initNecessities_witness :
    precondsProb.Pairwise (fun a b => Literal.lt a b = true) ∧
    necessityComponents precondsProb delProb = 6 ∧
    initNecessities powfQuarter (1 / 2) precondsProb delProb = some
      (precondsProb.map (fun p => (p, if inList Literal.eq delProb p.neg then 1
        else 1 - powfQuarter (1 / 2) (1 / necessityComponents precondsProb delProb))),
       (preconditionConstants precondsProb).map (fun c =>
        (c, 1 - powfQuarter (1 / 2) (1 / necessityComponents precondsProb delProb)))) ∧
    necessityComponents [mkLit "p" [mkVar "X"]] [(mkLit "q" [mkVar "X"]).neg] = 0 ∧
    initNecessities powfQuarter (1 / 2) [mkLit "p" [mkVar "X"]]
        [(mkLit "q" [mkVar "X"]).neg] = some
      ([mkLit "p" [mkVar "X"]].map (fun p => (p, 1)),
        (preconditionConstants [mkLit "p" [mkVar "X"]]).map (fun c => (c, 1))) := by
  have hk : necessityComponents precondsProb delProb = 6 := by
    have hc : preconditionConstants precondsProb = [mkConst "a", mkConst "c"] := by decide
    unfold necessityComponents
    rw [hc]
    norm_num [precondsProb, delProb]
  have hk0 : necessityComponents [mkLit "p" [mkVar "X"]] [(mkLit "q" [mkVar "X"]).neg] = 0 := by
    have hc : preconditionConstants [mkLit "p" [mkVar "X"]] = [] := by decide
    unfold necessityComponents
    rw [hc]
    norm_num
  exact ⟨by decide, hk,
    (C23_initNecessities powfQuarter (1 / 2) precondsProb delProb (by decide)).1
      (by rw [hk]; norm_num), hk0,
    (C23_initNecessities powfQuarter (1 / 2) [mkLit "p" [mkVar "X"]]
      [(mkLit "q" [mkVar "X"]).neg] (by decide)).2.1 hk0 (by norm_num) (by norm_num)⟩

/-! ## The unknown rule -/

theorem probLoop_fold (state : List Literal) : ∀ (m : List (Literal × ℚ)) (a b : ℚ),
    (∀ e ∈ m, 0 ≤ e.2 ∧ e.2 ≤ 1) → 0 ≤ a → a ≤ 1 →
    0 ≤ (m.foldl (fun (st : ℚ × ℚ) pair =>
      if !stateContains state pair.1 then (st.1 * (1 - pair.2), st.2 - 1) else st)
      (a, b)).1 ∧
    (m.foldl (fun (st : ℚ × ℚ) pair =>
      if !stateContains state pair.1 then (st.1 * (1 - pair.2), st.2 - 1) else st)
      (a, b)).1 ≤ 1 ∧
    (m.foldl (fun (st : ℚ × ℚ) pair =>
      if !stateContains state pair.1 then (st.1 * (1 - pair.2), st.2 - 1) else st)
      (a, b)).2 = b - ((m.filter (fun e => !stateContains state e.1)).length : ℚ)
  | [], a, b, _, h0, h1 => by simp [h0, h1]
  | e :: m, a, b, hm, h0, h1 => by
    have he := hm e (List.mem_cons_self _ _)
    have hrest : ∀ e1 ∈ m, 0 ≤ e1.2 ∧ e1.2 ≤ 1 := fun e1 h => hm e1 (List.mem_cons_of_mem _ h)
    simp only [List.foldl_cons, List.filter_cons]
    cases hc : stateContains state e.1
    · simp only [Bool.not_false, if_true]
      obtain ⟨r1, r2, r3⟩ := probLoop_fold state m (a * (1 - e.2)) (b - 1) hrest
        (mul_nonneg h0 (by linarith [he.2]))
        (by
          have : a * (1 - e.2) ≤ 1 * 1 :=
            mul_le_mul h1 (by linarith [he.1]) (by linarith [he.2]) (by norm_num)
          linarith)
      refine ⟨r1, r2, ?_⟩
      rw [r3]
      simp only [List.length_cons]
      push_cast
      ring
    · simp only [Bool.not_true, Bool.false_eq_true, if_false]
      exact probLoop_fold state m a b hrest h0 h1

/-- C27: for an unknown rule with `0 ≤ pAny ≤ 1`, every value of `pNfs` in `[0, 1]` and
at least as many possible ground literals as facts accounted for, `corroborateFailure`
never decreases `pAny`: it leaves it unchanged when `pFail = 1 - computeProb` is `0`, and
otherwise replaces it by `pAny / pFail`, with `0 < pFail ≤ 1`. The function `powf` maps
a base in `[0, 1]` and an exponent that is not negative into `[0, 1]`. -/
theorem C27_corroborateFailure_monotone (powf : ℚ → ℚ → ℚ) (u : UnknownRule)
    (state : List Literal)
    (hpow : ∀ x y, 0 ≤ x → x ≤ 1 → 0 ≤ y → 0 ≤ powf x y ∧ powf x y ≤ 1)
    (hp0 : 0 ≤ u.pAny) (hp1 : u.pAny ≤ 1)
    (hnfs : ∀ e ∈ u.pNfs, 0 ≤ e.2 ∧ e.2 ≤ 1)
    (hcount : (state.length : ℚ) +
      ((u.pNfs.filter (fun e => !stateContains state e.1)).length : ℚ) ≤ (u.nAll : ℚ)) :
    u.pAny ≤ (u.corroborateFailure powf state).pAny ∧
    (1 - u.computeProb powf state = 0 →
      (u.corroborateFailure powf state).pAny = u.pAny) ∧
    (1 - u.computeProb powf state ≠ 0 →
      (u.corroborateFailure powf state).pAny = u.pAny / (1 - u.computeProb powf state) ∧
      0 < 1 - u.computeProb powf state ∧ 1 - u.computeProb powf state ≤ 1) := by
  obtain ⟨r1, r2, r3⟩ := probLoop_fold state u.pNfs 1 ((u.nAll : ℚ) - (state.length : ℚ)) hnfs
    (by norm_num) (le_refl _)
  have hexp : 0 ≤ (u.probLoop state).2 := by
    unfold UnknownRule.probLoop
    rw [r3]
    linarith
  obtain ⟨q1, q2⟩ := hpow (1 - u.pAny) (u.probLoop state).2 (by linarith) (by linarith) hexp
  have hprob0 : 0 ≤ u.computeProb powf state := mul_nonneg r1 q1
  have hprob1 : u.computeProb powf state ≤ 1 := by
    have : (u.probLoop state).1 * powf (1 - u.pAny) (u.probLoop state).2 ≤ 1 * 1 :=
      mul_le_mul r2 q2 q1 (by norm_num)
    unfold UnknownRule.computeProb
    linarith
  have hzero : 1 - u.computeProb powf state = 0 →
      (u.corroborateFailure powf state).pAny = u.pAny := by
    intro h
    unfold UnknownRule.corroborateFailure
    simp only [h, if_true]
  have hnz : 1 - u.computeProb powf state ≠ 0 →
      (u.corroborateFailure powf state).pAny = u.pAny / (1 - u.computeProb powf state) ∧
      0 < 1 - u.computeProb powf state ∧ 1 - u.computeProb powf state ≤ 1 := by
    intro h
    refine ⟨?_, lt_of_le_of_ne (by linarith) (Ne.symm h), by linarith⟩
    unfold UnknownRule.corroborateFailure
    simp only [h, if_false]
  refine ⟨?_, hzero, hnz⟩
  by_cases h : 1 - u.computeProb powf state = 0
  · rw [hzero h]
  · obtain ⟨e, hpos, hle⟩ := hnz h
    rw [e, le_div_iff₀ hpos]
    calc u.pAny * (1 - u.computeProb powf state) ≤ u.pAny * 1 :=
          mul_le_mul_of_nonneg_left hle hp0
      _ = u.pAny := mul_one _

theorem powFloor_unit (x y : ℚ) (h0 : 0 ≤ x) (h1 : x ≤ 1) :
    0 ≤ powFloor x y ∧ powFloor x y ≤ 1 :=
  ⟨pow_nonneg h0 _, pow_le_one₀ h0 h1⟩

/-- C27 (witness): the unknown rule with `pAny = 1/2` in the state `q(b)`. -/
theorem C27_corroborateFailure_monotone_witness :
    (∀ x y : ℚ, 0 ≤ x → x ≤ 1 → 0 ≤ y → 0 ≤ powFloor x y ∧ powFloor x y ≤ 1) ∧
    0 ≤ unknownHalf.pAny ∧ unknownHalf.pAny ≤ 1 ∧
    (∀ e ∈ unknownHalf.pNfs, 0 ≤ e.2 ∧ e.2 ≤ 1) ∧
    unknownHalf.pAny ≤
      (unknownHalf.corroborateFailure powFloor [mkLit "q" [mkConst "b"]]).pAny := by
  have hpow : ∀ x y : ℚ, 0 ≤ x → x ≤ 1 → 0 ≤ y → 0 ≤ powFloor x y ∧ powFloor x y ≤ 1 :=
    fun x y h0 h1 _ => powFloor_unit x y h0 h1
  have hp0 : 0 ≤ unknownHalf.pAny := by norm_num [unknownHalf]
  have hp1 : unknownHalf.pAny ≤ 1 := by norm_num [unknownHalf]
  have hnfs : ∀ e ∈ unknownHalf.pNfs, 0 ≤ e.2 ∧ e.2 ≤ 1 := by
    intro e he
    simp only [unknownHalf, List.mem_singleton] at he
    subst he
    norm_num
  have hfilter : unknownHalf.pNfs.filter
      (fun e => !stateContains [mkLit "q" [mkConst "b"]] e.1) =
      [(mkLit "p" [mkConst "a"], 1 / 2)] := by
    have hc : stateContains [mkLit "q" [mkConst "b"]] (mkLit "p" [mkConst "a"]) = false := by
      decide
    simp [unknownHalf, List.filter, hc]
  exact ⟨hpow, hp0, hp1, hnfs,
    (C27_corroborateFailure_monotone powFloor unknownHalf [mkLit "q" [mkConst "b"]] hpow
      hp0 hp1 hnfs (by rw [hfilter]; norm_num [unknownHalf])).1⟩

/-! ## The corroboration of the necessities of a rule -/

theorem mapIndex_of_mem {κ : Type} (lt : κ → κ → Bool)
    (hasym : ∀ a b, lt a b = true → lt b a = false) (hirr : ∀ a, lt a a = false)
    (k : κ) (v : ℚ) : ∀ (m : List (κ × ℚ)),
    (m.map (fun e => e.1)).Pairwise (fun a b => lt a b = true) → (k, v) ∈ m →
    mapIndex lt k m = (v, m)
  | [], _, h => by cases h
  | (k1, v1) :: rest, hs, h => by
    rw [List.map_cons, List.pairwise_cons] at hs
    rcases List.mem_cons.mp h with h | h
    · cases h
      simp only [mapIndex, hirr, Bool.false_eq_true, if_false]
    · have hlt : lt k1 k = true := hs.1 k (List.mem_map.mpr ⟨(k, v), h, rfl⟩)
      simp only [mapIndex, hasym k1 k hlt, Bool.false_eq_true, if_false, hlt, if_true,
        mapIndex_of_mem lt hasym hirr k v rest hs.2 h]

theorem mapAssign_cons_of_lt {κ ν : Type} (lt : κ → κ → Bool) (k : κ) (v : ν)
    (m : List (κ × ν)) (h : ∀ e ∈ m, lt k e.1 = true) : mapAssign lt k v m = (k, v) :: m := by
  cases m with
  | nil => rfl
  | cons e rest =>
    obtain ⟨k1, v1⟩ := e
    have := h (k1, v1) (List.mem_cons_self _ _)
    simp only at this
    simp only [mapAssign, this, if_true]

theorem clamp_range (x : ℚ) : 0 ≤ clamp x 0 (19 / 20) ∧ clamp x 0 (19 / 20) ≤ 19 / 20 := by
  unfold clamp
  dsimp only
  split <;> split <;> constructor <;> linarith

theorem exists_value_of_key {κ : Type} (m : List (κ × ℚ)) (k : κ)
    (h : k ∈ m.map (fun e => e.1)) : ∃ v, (k, v) ∈ m := by
  obtain ⟨e, he, rfl⟩ := List.mem_map.mp h
  exact ⟨e.2, he⟩

/-- The reads of `dgcdProb` leave the two maps as they are when every element of the
disjunction is a key. -/
theorem dgcdProb_maps (pn : List (Literal × ℚ)) (cn : List (Term × ℚ))
    (hpn : (pn.map (fun e => e.1)).Pairwise (fun a b => Literal.lt a b = true))
    (hcn : (cn.map (fun e => e.1)).Pairwise (fun a b => Term.lt a b = true))
    (disj : List Literal × List Term) (cds : List (List Literal × List Term))
    (h1 : ∀ l ∈ disj.1, l ∈ pn.map (fun e => e.1))
    (h2 : ∀ t ∈ disj.2, t ∈ cn.map (fun e => e.1)) :
    (dgcdProb pn cn disj cds).2 = (pn, cn) := by
  have hfold : ∀ (choices : List (Literal ⊕ Term)) (st : DgcdState),
      (∀ c ∈ choices, match c with
        | Sum.inl l => l ∈ pn.map (fun e => e.1)
        | Sum.inr t => t ∈ cn.map (fun e => e.1)) →
      st.precondNecs = pn → st.constNecs = cn →
      (choices.foldl dgcdStep st).precondNecs = pn ∧
      (choices.foldl dgcdStep st).constNecs = cn := by
    intro choices
    induction choices with
    | nil => intro st _ hp hc; exact ⟨hp, hc⟩
    | cons c cs ih =>
      intro st hall hp hc
      simp only [List.foldl_cons]
      apply ih
      · exact fun c1 h => hall c1 (List.mem_cons_of_mem _ h)
      · have hc0 := hall c (List.mem_cons_self _ _)
        cases c with
        | inl l =>
          obtain ⟨v, hv⟩ := exists_value_of_key pn l hc0
          simp only [dgcdStep, hp, mapIndex_of_mem Literal.lt literal_lt_asymm
            literal_lt_irrefl l v pn hpn hv]
        | inr t =>
          simp only [dgcdStep, hp]
      · have hc0 := hall c (List.mem_cons_self _ _)
        cases c with
        | inl l =>
          simp only [dgcdStep, hc]
        | inr t =>
          obtain ⟨v, hv⟩ := exists_value_of_key cn t hc0
          simp only [dgcdStep, hc, mapIndex_of_mem Term.lt Term.lt_asymm
            Term.lt_irrefl t v cn hcn hv]
  have hall : ∀ c ∈ popOrder disj.1 disj.2, match c with
      | Sum.inl l => l ∈ pn.map (fun e => e.1)
      | Sum.inr t => t ∈ cn.map (fun e => e.1) := by
    intro c hc
    unfold popOrder at hc
    rcases List.mem_append.mp hc with hc | hc
    · obtain ⟨l, hl, rfl⟩ := List.mem_map.mp hc
      exact h1 l (List.mem_reverse.mp hl)
    · obtain ⟨t, ht, rfl⟩ := List.mem_map.mp hc
      exact h2 t (List.mem_reverse.mp ht)
  obtain ⟨r1, r2⟩ := hfold _ ⟨0, 1, cds, pn, cn⟩ hall rfl rfl
  unfold dgcdProb
  simp only [r1, r2]

theorem nCovGiven_maps (pn : List (Literal × ℚ)) (cn : List (Term × ℚ))
    (hpn : (pn.map (fun e => e.1)).Pairwise (fun a b => Literal.lt a b = true))
    (hcn : (cn.map (fun e => e.1)).Pairwise (fun a b => Term.lt a b = true))
    (filteredNeg filteredPos : List (List Literal × List Term))
    (hsig : ∀ d ∈ filteredPos, (∀ l ∈ d.1, l ∈ pn.map (fun e => e.1)) ∧
      ∀ t ∈ d.2, t ∈ cn.map (fun e => e.1)) :
    (nCovGiven pn cn filteredNeg filteredPos).2 = (pn, cn) := by
  have hfold : ∀ (ds : List (List Literal × List Term))
      (st : ℚ × List (List Literal × List Term) × List (Literal × ℚ) × List (Term × ℚ)),
      (∀ d ∈ ds, (∀ l ∈ d.1, l ∈ pn.map (fun e => e.1)) ∧
        ∀ t ∈ d.2, t ∈ cn.map (fun e => e.1)) →
      st.2.2 = (pn, cn) →
      (ds.foldl (fun (st : ℚ × List (List Literal × List Term) ×
          List (Literal × ℚ) × List (Term × ℚ)) disj =>
        ((st.1 * (dgcdProb st.2.2.1 st.2.2.2 disj st.2.1).1, st.2.1 ++ [disj],
          (dgcdProb st.2.2.1 st.2.2.2 disj st.2.1).2.1,
          (dgcdProb st.2.2.1 st.2.2.2 disj st.2.1).2.2) :
          ℚ × List (List Literal × List Term) × List (Literal × ℚ) × List (Term × ℚ)))
        st).2.2 = (pn, cn) := by
    intro ds
    induction ds with
    | nil => intro st _ h; exact h
    | cons d ds ih =>
      intro st hall h
      simp only [List.foldl_cons]
      apply ih _ (fun d1 h1 => hall d1 (List.mem_cons_of_mem _ h1))
      have h1 : st.2.2.1 = pn := by rw [h]
      have h2 : st.2.2.2 = cn := by rw [h]
      have := dgcdProb_maps pn cn hpn hcn d st.2.1 (hall d (List.mem_cons_self _ _)).1
        (hall d (List.mem_cons_self _ _)).2
      simp only [h1, h2]
      exact this
  have := hfold filteredPos (1, filteredNeg, pn, cn) hsig rfl
  unfold nCovGiven
  exact this

theorem withoutChoice_subset (choice : Literal ⊕ Term) (cds : List (List Literal × List Term))
    (d : List Literal × List Term) (h : d ∈ withoutChoice choice cds) : d ∈ cds :=
  List.mem_of_mem_filter h

/-- One round of the update loop for a precondition that is a key: the maps of the rule
are as before, and the updated map receives a necessity in the relation `NecUpdated`. -/
theorem corroStep_inl (pn : List (Literal × ℚ)) (cn : List (Term × ℚ))
    (hpn : (pn.map (fun e => e.1)).Pairwise (fun a b => Literal.lt a b = true))
    (hcn : (cn.map (fun e => e.1)).Pairwise (fun a b => Term.lt a b = true))
    (negSigma posSigma : List (List Literal × List Term))
    (hsig : ∀ d ∈ posSigma, (∀ l ∈ d.1, l ∈ pn.map (fun e => e.1)) ∧
      ∀ t ∈ d.2, t ∈ cn.map (fun e => e.1))
    (protRT covMT pUe pUeff : ℚ) (otherCovRTs : List ℚ) (st : CorroState)
    (hp : st.precondsNecessities = pn) (hc : st.constsNecessities = cn)
    (k : Literal) (v : ℚ) (hk : (k, v) ∈ pn) :
    ∃ n, corroStep negSigma posSigma protRT covMT pUe pUeff otherCovRTs st (Sum.inl k) =
        ⟨pn, cn, mapAssign Literal.lt k n st.updatedPrecondNecs, st.updatedConstNecs⟩ ∧
      NecUpdated protRT covMT v n := by
  have hidx := mapIndex_of_mem Literal.lt literal_lt_asymm literal_lt_irrefl k v pn hpn hk
  have hg := nCovGiven_maps pn cn hpn hcn (withoutChoice (Sum.inl k) negSigma)
    (withoutChoice (Sum.inl k) posSigma)
    (fun d hd => hsig d (withoutChoice_subset _ _ d hd))
  have hg1 : (nCovGiven pn cn (withoutChoice (Sum.inl k) negSigma)
      (withoutChoice (Sum.inl k) posSigma)).2.1 = pn := by rw [hg]
  have hg2 : (nCovGiven pn cn (withoutChoice (Sum.inl k) negSigma)
      (withoutChoice (Sum.inl k) posSigma)).2.2 = cn := by rw [hg]
  by_cases hcond : v = 0 ∨ v = 1 ∨ protRT = 0 ∨ covMT = 0
  · refine ⟨v, ?_, fun _ => rfl, ?_⟩
    · simp only [corroStep, hp, hc, hidx, hcond, if_true]
    · intro h0 h1 h2 h3
      rcases hcond with h | h | h | h
      · exact absurd h h0
      · exact absurd h h1
      · exact absurd h h2
      · exact absurd h h3
  · refine ⟨clamp (cdProb pn cn (withoutChoice (Sum.inl k) negSigma) *
        (1 - (nCovGiven pn cn (withoutChoice (Sum.inl k) negSigma)
            (withoutChoice (Sum.inl k) posSigma)).1 +
          (nCovGiven pn cn (withoutChoice (Sum.inl k) negSigma)
            (withoutChoice (Sum.inl k) posSigma)).1 *
          (1 - otherCovRTs.foldl (fun c covRT => c * (1 - covRT)) (1 - pUe * pUeff))) /
        protRT / covMT * v) 0 (19 / 20), ?_, fun h => absurd h hcond,
      fun _ _ _ _ => clamp_range _⟩
    simp only [corroStep, hp, hc, hidx, hcond, if_false, hg1, hg2]

/-- One round of the update loop for a constant that is a key. -/
theorem corroStep_inr (pn : List (Literal × ℚ)) (cn : List (Term × ℚ))
    (hpn : (pn.map (fun e => e.1)).Pairwise (fun a b => Literal.lt a b = true))
    (hcn : (cn.map (fun e => e.1)).Pairwise (fun a b => Term.lt a b = true))
    (negSigma posSigma : List (List Literal × List Term))
    (hsig : ∀ d ∈ posSigma, (∀ l ∈ d.1, l ∈ pn.map (fun e => e.1)) ∧
      ∀ t ∈ d.2, t ∈ cn.map (fun e => e.1))
    (protRT covMT pUe pUeff : ℚ) (otherCovRTs : List ℚ) (st : CorroState)
    (hp : st.precondsNecessities = pn) (hc : st.constsNecessities = cn)
    (k : Term) (v : ℚ) (hk : (k, v) ∈ cn) :
    ∃ n, corroStep negSigma posSigma protRT covMT pUe pUeff otherCovRTs st (Sum.inr k) =
        ⟨pn, cn, st.updatedPrecondNecs, mapAssign Term.lt k n st.updatedConstNecs⟩ ∧
      NecUpdated protRT covMT v n := by
  have hidx := mapIndex_of_mem Term.lt Term.lt_asymm Term.lt_irrefl k v cn hcn hk
  have hg := nCovGiven_maps pn cn hpn hcn (withoutChoice (Sum.inr k) negSigma)
    (withoutChoice (Sum.inr k) posSigma)
    (fun d hd => hsig d (withoutChoice_subset _ _ d hd))
  have hg1 : (nCovGiven pn cn (withoutChoice (Sum.inr k) negSigma)
      (withoutChoice (Sum.inr k) posSigma)).2.1 = pn := by rw [hg]
  have hg2 : (nCovGiven pn cn (withoutChoice (Sum.inr k) negSigma)
      (withoutChoice (Sum.inr k) posSigma)).2.2 = cn := by rw [hg]
  by_cases hcond : v = 0 ∨ v = 1 ∨ protRT = 0 ∨ covMT = 0
  · refine ⟨v, ?_, fun _ => rfl, ?_⟩
    · simp only [corroStep, hp, hc, hidx, hcond, if_true]
    · intro h0 h1 h2 h3
      rcases hcond with h | h | h | h
      · exact absurd h h0
      · exact absurd h h1
      · exact absurd h h2
      · exact absurd h h3
  · refine ⟨clamp (cdProb pn cn (withoutChoice (Sum.inr k) negSigma) *
        (1 - (nCovGiven pn cn (withoutChoice (Sum.inr k) negSigma)
            (withoutChoice (Sum.inr k) posSigma)).1 +
          (nCovGiven pn cn (withoutChoice (Sum.inr k) negSigma)
            (withoutChoice (Sum.inr k) posSigma)).1 *
          (1 - otherCovRTs.foldl (fun c covRT => c * (1 - covRT)) (1 - pUe * pUeff))) /
        protRT / covMT * v) 0 (19 / 20), ?_, fun h => absurd h hcond,
      fun _ _ _ _ => clamp_range _⟩
    simp only [corroStep, hp, hc, hidx, hcond, if_false, hg1, hg2]

theorem forall₂_mem_right {α β : Type} {R : α → β → Prop} : ∀ {l1 : List α} {l2 : List β},
    List.Forall₂ R l1 l2 → ∀ b ∈ l2, ∃ a ∈ l1, R a b
  | _, _, List.Forall₂.nil, _, h => by cases h
  | _, _, List.Forall₂.cons h1 h2, b, h => by
    rcases List.mem_cons.mp h with rfl | h
    · exact ⟨_, List.mem_cons_self _ _, h1⟩
    · obtain ⟨a, ha, hab⟩ := forall₂_mem_right h2 b h
      exact ⟨a, List.mem_cons_of_mem _ ha, hab⟩

/-- A fold that assigns, from the back of a sorted list of entries, a new value to
every key builds the list of the keys with their new values. -/
theorem foldr_assign_sorted {κ σ : Type} (lt : κ → κ → Bool) (R : ℚ → ℚ → Prop)
    (step : σ → κ → σ) (upd : σ → List (κ × ℚ)) (I : σ → Prop)
    (m : List (κ × ℚ))
    (hstep : ∀ s e, I s → e ∈ m → ∃ n, upd (step s e.1) = mapAssign lt e.1 n (upd s) ∧
      I (step s e.1) ∧ R e.2 n) :
    ∀ (l : List (κ × ℚ)), (∀ e ∈ l, e ∈ m) →
      (l.map (fun e => e.1)).Pairwise (fun a b => lt a b = true) →
      ∀ (s : σ) (acc : List (κ × ℚ)), I s → upd s = acc →
        (∀ e ∈ l, ∀ a ∈ acc, lt e.1 a.1 = true) →
        ∃ u, upd ((l.map (fun e => e.1)).foldr (fun k s => step s k) s) = u ++ acc ∧
          I ((l.map (fun e => e.1)).foldr (fun k s => step s k) s) ∧
          List.Forall₂ (fun old new => new.1 = old.1 ∧ R old.2 new.2) l u
  | [], _, _, s, acc, hI, hu, _ => ⟨[], by simpa using hu, hI, List.Forall₂.nil⟩
  | e :: l, hm, hs, s, acc, hI, hu, hacc => by
    rw [List.map_cons, List.pairwise_cons] at hs
    obtain ⟨u, h1, h2, h3⟩ := foldr_assign_sorted lt R step upd I m hstep l
      (fun e1 h => hm e1 (List.mem_cons_of_mem _ h)) hs.2 s acc hI hu
      (fun e1 h => hacc e1 (List.mem_cons_of_mem _ h))
    obtain ⟨n, hn1, hn2, hn3⟩ := hstep _ e h2 (hm e (List.mem_cons_self _ _))
    refine ⟨(e.1, n) :: u, ?_, ?_, List.Forall₂.cons ⟨rfl, hn3⟩ h3⟩
    · simp only [List.map_cons, List.foldr_cons]
      rw [hn1, h1, mapAssign_cons_of_lt]
      · rfl
      · intro a ha
        rcases List.mem_append.mp ha with ha | ha
        · obtain ⟨b, hb, hab⟩ := forall₂_mem_right h3 a ha
          rw [hab.1]
          exact hs.1 b.1 (List.mem_map.mpr ⟨b, hb, rfl⟩)
        · exact hacc e (List.mem_cons_self _ _) a ha
    · simp only [List.map_cons, List.foldr_cons]
      exact hn2

theorem NecUpdated.range {protRT covMT v n : ℚ} (h : NecUpdated protRT covMT v n)
    (h0 : 0 ≤ v) (h1 : v ≤ 1) : 0 ≤ n ∧ n ≤ 1 := by
  by_cases hcond : v = 0 ∨ v = 1 ∨ protRT = 0 ∨ covMT = 0
  · rw [h.1 hcond]
    exact ⟨h0, h1⟩
  · have hn := h.2 (fun e => hcond (Or.inl e)) (fun e => hcond (Or.inr (Or.inl e)))
      (fun e => hcond (Or.inr (Or.inr (Or.inl e)))) (fun e => hcond (Or.inr (Or.inr (Or.inr e))))
    exact ⟨hn.1, by linarith [hn.2]⟩

/-- The update loop of `corroborateRules` for one rule whose maps are sorted and whose
positive disjunctions hold only keys of the maps: the maps it assigns to the rule have
the keys of the old maps, in the same order, with necessities in the relation
`NecUpdated` to the old ones. -/
theorem corroborateRule_spec (pn : List (Literal × ℚ)) (cn : List (Term × ℚ))
    (negSigma posSigma : List (List Literal × List Term))
    (protRT covMT pUe pUeff : ℚ) (otherCovRTs : List ℚ)
    (hpn : (pn.map (fun e => e.1)).Pairwise (fun a b => Literal.lt a b = true))
    (hcn : (cn.map (fun e => e.1)).Pairwise (fun a b => Term.lt a b = true))
    (hsig : ∀ d ∈ posSigma, (∀ l ∈ d.1, l ∈ pn.map (fun e => e.1)) ∧
      ∀ t ∈ d.2, t ∈ cn.map (fun e => e.1)) :
    List.Forall₂ (fun old new => new.1 = old.1 ∧ NecUpdated protRT covMT old.2 new.2) pn
      (corroborateRule pn cn negSigma posSigma protRT covMT pUe pUeff otherCovRTs).1 ∧
    List.Forall₂ (fun old new => new.1 = old.1 ∧ NecUpdated protRT covMT old.2 new.2) cn
      (corroborateRule pn cn negSigma posSigma protRT covMT pUe pUeff otherCovRTs).2 := by
  obtain ⟨u1, hu1, ⟨hI1, hI2, hI3⟩, hf1⟩ := foldr_assign_sorted Literal.lt
    (NecUpdated protRT covMT)
    (fun s k => corroStep negSigma posSigma protRT covMT pUe pUeff otherCovRTs s (Sum.inl k))
    (fun s => s.updatedPrecondNecs)
    (fun s => s.precondsNecessities = pn ∧ s.constsNecessities = cn ∧ s.updatedConstNecs = [])
    pn
    (by
      rintro s ⟨k, v⟩ ⟨h1, h2, h3⟩ he
      obtain ⟨n, hn, hnec⟩ := corroStep_inl pn cn hpn hcn negSigma posSigma hsig protRT covMT
        pUe pUeff otherCovRTs s h1 h2 k v he
      refine ⟨n, ?_, ⟨?_, ?_, ?_⟩, hnec⟩ <;> simp only [hn, h3])
    pn (fun _ h => h) hpn ⟨pn, cn, [], []⟩ [] ⟨rfl, rfl, rfl⟩ rfl
    (fun _ _ a ha => by cases ha)
  rw [List.append_nil] at hu1
  obtain ⟨u2, hu2, ⟨_, _, hJ3⟩, hf2⟩ := foldr_assign_sorted Term.lt
    (NecUpdated protRT covMT)
    (fun s k => corroStep negSigma posSigma protRT covMT pUe pUeff otherCovRTs s (Sum.inr k))
    (fun s => s.updatedConstNecs)
    (fun s => s.precondsNecessities = pn ∧ s.constsNecessities = cn ∧
      s.updatedPrecondNecs = u1)
    cn
    (by
      rintro s ⟨k, v⟩ ⟨h1, h2, h3⟩ he
      obtain ⟨n, hn, hnec⟩ := corroStep_inr pn cn hpn hcn negSigma posSigma hsig protRT covMT
        pUe pUeff otherCovRTs s h1 h2 k v he
      refine ⟨n, ?_, ⟨?_, ?_, ?_⟩, hnec⟩ <;> simp only [hn, h3])
    cn (fun _ h => h) hcn
    ((pn.map (fun e => e.1)).foldr (fun k s =>
      corroStep negSigma posSigma protRT covMT pUe pUeff otherCovRTs s (Sum.inl k))
      ⟨pn, cn, [], []⟩) [] ⟨hI1, hI2, hu1⟩ hI3
    (fun _ _ a ha => by cases ha)
  rw [List.append_nil] at hu2
  have hrun : corroborateRule pn cn negSigma posSigma protRT covMT pUe pUeff otherCovRTs =
      (u1, u2) := by
    unfold corroborateRule popOrder
    simp only [List.foldl_append, List.foldl_map, ← List.map_reverse, List.foldl_reverse]
    simp only [List.foldr_map] at hu2 hJ3
    rw [hu2, hJ3]
  rw [hrun]
  exact ⟨hf1, hf2⟩

/-- C24: for a rule whose necessity maps are sorted and whose positive disjunctions hold
only keys of the maps, the update loop of `corroborateRules` keeps the keys of both maps,
leaves every necessity that is exactly `0` or exactly `1` unchanged, gives every other
necessity a value in `[0, 19/20]` when `protRT` and `covMT` are not `0`, and leaves it
unchanged otherwise; so a necessity that lies in `[0, 1]` beforehand lies in `[0, 1]`
afterwards. -/
theorem C24_corroborate_necessities (pn : List (Literal × ℚ)) (cn : List (Term × ℚ))
    (negSigma posSigma : List (List Literal × List Term))
    (protRT covMT pUe pUeff : ℚ) (otherCovRTs : List ℚ)
    (hpn : (pn.map (fun e => e.1)).Pairwise (fun a b => Literal.lt a b = true))
    (hcn : (cn.map (fun e => e.1)).Pairwise (fun a b => Term.lt a b = true))
    (hsig : ∀ d ∈ posSigma, (∀ l ∈ d.1, l ∈ pn.map (fun e => e.1)) ∧
      ∀ t ∈ d.2, t ∈ cn.map (fun e => e.1)) :
    List.Forall₂ (fun old new => new.1 = old.1 ∧
        ((old.2 = 0 ∨ old.2 = 1) → new.2 = old.2) ∧
        (old.2 ≠ 0 → old.2 ≠ 1 → protRT ≠ 0 → covMT ≠ 0 → 0 ≤ new.2 ∧ new.2 ≤ 19 / 20) ∧
        ((protRT = 0 ∨ covMT = 0) → new.2 = old.2) ∧
        (0 ≤ old.2 → old.2 ≤ 1 → 0 ≤ new.2 ∧ new.2 ≤ 1)) pn
      (corroborateRule pn cn negSigma posSigma protRT covMT pUe pUeff otherCovRTs).1 ∧
    List.Forall₂ (fun old new => new.1 = old.1 ∧
        ((old.2 = 0 ∨ old.2 = 1) → new.2 = old.2) ∧
        (old.2 ≠ 0 → old.2 ≠ 1 → protRT ≠ 0 → covMT ≠ 0 → 0 ≤ new.2 ∧ new.2 ≤ 19 / 20) ∧
        ((protRT = 0 ∨ covMT = 0) → new.2 = old.2) ∧
        (0 ≤ old.2 → old.2 ≤ 1 → 0 ≤ new.2 ∧ new.2 ≤ 1)) cn
      (corroborateRule pn cn negSigma posSigma protRT covMT pUe pUeff otherCovRTs).2 := by
  obtain ⟨h1, h2⟩ := corroborateRule_spec pn cn negSigma posSigma protRT covMT pUe pUeff
    otherCovRTs hpn hcn hsig
  constructor
  · refine List.Forall₂.imp ?_ h1
    rintro old new ⟨hk, hnec⟩
    refine ⟨hk, fun h => hnec.1 (by tauto), hnec.2, fun h => hnec.1 (by tauto),
      fun h0 h1 => hnec.range h0 h1⟩
  · refine List.Forall₂.imp ?_ h2
    rintro old new ⟨hk, hnec⟩
    refine ⟨hk, fun h => hnec.1 (by tauto), hnec.2, fun h => hnec.1 (by tauto),
      fun h0 h1 => hnec.range h0 h1⟩

/-- C24 (witness): the maps `block(a)`: 1/5, `block(b)`: 1 and `a`: 0, `b`: 3/10, with the
negative disjunction `block(a) ∨ a` and the positive disjunction `block(b)`. -/
theorem C24_corroborate_necessities_witness :
    (precNecsSample.map (fun e => e.1)).Pairwise (fun a b => Literal.lt a b = true) ∧
    (constNecsSample.map (fun e => e.1)).Pairwise (fun a b => Term.lt a b = true) ∧
    (∀ d ∈ [([mkLit "block" [mkConst "b"]], ([] : List Term))],
      (∀ l ∈ d.1, l ∈ precNecsSample.map (fun e => e.1)) ∧
      ∀ t ∈ d.2, t ∈ constNecsSample.map (fun e => e.1)) ∧
    List.Forall₂ (fun old new => new.1 = old.1 ∧
        ((old.2 = 0 ∨ old.2 = 1) → new.2 = old.2) ∧
        (old.2 ≠ 0 → old.2 ≠ 1 → (1 / 2 : ℚ) ≠ 0 → (1 / 2 : ℚ) ≠ 0 →
          0 ≤ new.2 ∧ new.2 ≤ 19 / 20) ∧
        (((1 / 2 : ℚ) = 0 ∨ (1 / 2 : ℚ) = 0) → new.2 = old.2) ∧
        (0 ≤ old.2 → old.2 ≤ 1 → 0 ≤ new.2 ∧ new.2 ≤ 1)) precNecsSample
      (corroborateRule precNecsSample constNecsSample
        [([mkLit "block" [mkConst "a"]], [mkConst "a"])]
        [([mkLit "block" [mkConst "b"]], [])] (1 / 2) (1 / 2) (1 / 3) (1 / 2) [1 / 4]).1 := by
  have hpn : (precNecsSample.map (fun e => e.1)).Pairwise
      (fun a b => Literal.lt a b = true) := by decide
  have hcn : (constNecsSample.map (fun e => e.1)).Pairwise
      (fun a b => Term.lt a b = true) := by decide
  have hsig : ∀ d ∈ [([mkLit "block" [mkConst "b"]], ([] : List Term))],
      (∀ l ∈ d.1, l ∈ precNecsSample.map (fun e => e.1)) ∧
      ∀ t ∈ d.2, t ∈ constNecsSample.map (fun e => e.1) := by
    intro d hd
    rw [List.mem_singleton] at hd
    subst hd
    refine ⟨?_, fun t ht => by cases ht⟩
    intro l hl
    rw [List.mem_singleton] at hl
    subst hl
    simp [precNecsSample]
  exact ⟨hpn, hcn, hsig,
    (C24_corroborate_necessities precNecsSample constNecsSample
      [([mkLit "block" [mkConst "a"]], [mkConst "a"])]
      [([mkLit "block" [mkConst "b"]], [])] (1 / 2) (1 / 2) (1 / 3) (1 / 2) [1 / 4]
      hpn hcn hsig).1⟩

/-! ## The product formula of `cdProb` on disjoint disjunctions -/

theorem toSet_of_sorted {α : Type} (lt : α → α → Bool)
    (hasym : ∀ a b, lt a b = true → lt b a = false) (l : List α)
    (h : l.Pairwise (fun a b => lt a b = true)) : toSet lt l = l := by
  unfold toSet setUnion
  rw [foldl_setInsert_sorted lt hasym l [] h (fun _ hy => by cases hy)]
  rfl

theorem setErase_eq_erase {α : Type} [DecidableEq α] (lt : α → α → Bool)
    (hirr : ∀ a, lt a a = false) (x : α) : ∀ (l : List α),
    l.Pairwise (fun a b => lt a b = true) → x ∈ l → setErase lt x l = l.erase x
  | [], _, h => by cases h
  | y :: ys, hp, h => by
    rw [List.pairwise_cons] at hp
    by_cases hxy : y = x
    · subst hxy
      simp [setErase, hirr]
    · have hx : x ∈ ys := by
        rcases List.mem_cons.mp h with h | h
        · exact absurd h.symm hxy
        · exact h
      have hlt := hp.1 x hx
      rw [List.erase_cons_tail (by simpa using hxy)]
      simp only [setErase, hlt, Bool.not_true, Bool.and_false, Bool.false_eq_true, if_false]
      rw [setErase_eq_erase lt hirr x ys hp.2 hx]

theorem cdSplit_fold (choice : Literal ⊕ Term) : ∀ (cds : List (List Literal × List Term))
    (st : CdSplit),
    cds.foldl (fun st disj =>
      if choiceIn choice disj then
        if (choiceRemoved choice disj).1.length + (choiceRemoved choice disj).2.length == 0
        then (⟨st.cdsTrue, st.cdsFalse, true, true⟩ : CdSplit)
        else ⟨st.cdsTrue, st.cdsFalse ++ [choiceRemoved choice disj], st.pruneFalseBranch,
          true⟩
      else ⟨st.cdsTrue ++ [disj], st.cdsFalse ++ [disj], st.pruneFalseBranch,
        st.foundChoiceInDisjunction⟩) st =
    ⟨st.cdsTrue ++ cds.filter (fun d => !choiceIn choice d),
      st.cdsFalse ++ cds.filterMap (falseOf choice),
      st.pruneFalseBranch || cds.any (fun d => choiceIn choice d &&
        ((choiceRemoved choice d).1.length + (choiceRemoved choice d).2.length == 0)),
      st.foundChoiceInDisjunction || cds.any (fun d => choiceIn choice d)⟩
  | [], st => by simp
  | d :: cds, st => by
    simp only [List.foldl_cons]
    rw [cdSplit_fold choice cds]
    cases hc : choiceIn choice d
    · simp [hc, falseOf, List.filter_cons, List.filterMap_cons]
    · cases hr : ((choiceRemoved choice d).1.length + (choiceRemoved choice d).2.length == 0)
      · simp [hc, hr, falseOf, List.filter_cons, List.filterMap_cons]
      · simp [hc, hr, falseOf, List.filter_cons, List.filterMap_cons]

/-- The loop of `cdProbTree` over the disjunctions, as filters of the collection. -/
theorem cdSplit_spec (choice : Literal ⊕ Term) (cds : List (List Literal × List Term)) :
    cdSplit choice cds =
      ⟨cds.filter (fun d => !choiceIn choice d), cds.filterMap (falseOf choice),
        cds.any (fun d => choiceIn choice d &&
          ((choiceRemoved choice d).1.length + (choiceRemoved choice d).2.length == 0)),
        cds.any (fun d => choiceIn choice d)⟩ := by
  unfold cdSplit
  have := cdSplit_fold choice cds ⟨[], [], false, false⟩
  simpa using this

theorem disjProb_empty (vL : Literal → ℚ) (vT : Term → ℚ) (d : List Literal × List Term)
    (h : (d.1.length + d.2.length == 0) = true) : disjProb vL vT d = 0 := by
  have h1 : d.1 = [] := by
    apply List.eq_nil_of_length_eq_zero
    have := beq_iff_eq.mp h
    omega
  have h2 : d.2 = [] := by
    apply List.eq_nil_of_length_eq_zero
    have := beq_iff_eq.mp h
    omega
  simp [disjProb, h1, h2]

/-- The product over a collection in which at most one disjunction holds the choice, in
terms of the products over the collections of the two branches. -/
theorem prod_split (vL : Literal → ℚ) (vT : Term → ℚ) (choice : Literal ⊕ Term) (p : ℚ) :
    ∀ (cds : List (List Literal × List Term)),
    cds.Pairwise (fun d e => ¬ (choiceIn choice d = true ∧ choiceIn choice e = true)) →
    (∀ d ∈ cds, choiceIn choice d = true →
      disjProb vL vT d = p + (1 - p) * disjProb vL vT (choiceRemoved choice d)) →
    (cds.map (disjProb vL vT)).prod =
      if cds.any (fun d => choiceIn choice d) then
        p * ((cds.filter (fun d => !choiceIn choice d)).map (disjProb vL vT)).prod +
        (1 - p) * (if cds.any (fun d => choiceIn choice d &&
            ((choiceRemoved choice d).1.length + (choiceRemoved choice d).2.length == 0))
          then 0 else ((cds.filterMap (falseOf choice)).map (disjProb vL vT)).prod)
      else ((cds.filter (fun d => !choiceIn choice d)).map (disjProb vL vT)).prod
  | [], _, _ => by simp
  | d :: cds, hp, hq => by
    rw [List.pairwise_cons] at hp
    have ih := prod_split vL vT choice p cds hp.2
      (fun d1 h1 => hq d1 (List.mem_cons_of_mem _ h1))
    cases hc : choiceIn choice d
    · simp only [List.map_cons, List.prod_cons, List.any_cons, hc, Bool.false_or,
        Bool.false_and, List.filter_cons, Bool.not_false, if_true, List.filterMap_cons,
        falseOf, Bool.false_eq_true, if_false]
      rw [ih]
      split
      · split <;> ring
      · rfl
    · have htail : ∀ e ∈ cds, choiceIn choice e = false := by
        intro e he
        cases h : choiceIn choice e with
        | false => rfl
        | true => exact absurd ⟨hc, h⟩ (hp.1 e he)
      have hany : cds.any (fun d => choiceIn choice d) = false := by
        rw [List.any_eq_false]
        intro e he
        simp [htail e he]
      have hany2 : cds.any (fun d => choiceIn choice d &&
          ((choiceRemoved choice d).1.length + (choiceRemoved choice d).2.length == 0)) =
          false := by
        rw [List.any_eq_false]
        intro e he
        simp [htail e he]
      have hfilter : cds.filter (fun d => !choiceIn choice d) = cds := by
        rw [List.filter_eq_self]
        intro e he
        simp [htail e he]
      have hfm : cds.filterMap (falseOf choice) = cds := by
        have : ∀ e ∈ cds, falseOf choice e = some e := by
          intro e he
          simp [falseOf, htail e he]
        clear ih hany hany2 hfilter htail hp hq
        induction cds with
        | nil => rfl
        | cons e es ihe =>
          rw [List.filterMap_cons, this e (List.mem_cons_self _ _)]
          simp only
          rw [ihe (fun e1 h1 => this e1 (List.mem_cons_of_mem _ h1))]
      have hd := hq d (List.mem_cons_self _ _) hc
      simp only [List.map_cons, List.prod_cons, List.any_cons, hc, Bool.true_or, if_true,
        Bool.true_and, List.filter_cons, Bool.not_true, Bool.false_eq_true, if_false,
        hfilter, List.filterMap_cons, falseOf, hfm, hany2, Bool.or_false]
      cases hr : ((choiceRemoved choice d).1.length + (choiceRemoved choice d).2.length == 0)
      · simp only [Bool.false_eq_true, if_false, List.map_cons, List.prod_cons]
        rw [hd]
        ring
      · simp only [if_true]
        rw [hd, disjProb_empty vL vT _ hr]
        ring

theorem paramsLt_of_paramsEq : ∀ (n : Nat) (as bs : List Term),
    paramsEq n as bs = true → paramsLt n as bs = false
  | 0, _, _, _ => rfl
  | _ + 1, [], _, _ => rfl
  | _ + 1, _ :: _, [], _ => rfl
  | n + 1, a :: as, b :: bs, h => by
    simp only [paramsEq] at h
    simp only [paramsLt]
    by_cases hne : a.ne b = true
    · simp [hne] at h
    · simp only [hne, Bool.false_eq_true, if_false] at h ⊢
      exact paramsLt_of_paramsEq n as bs h

theorem paramsLt_of_paramsEq_symm : ∀ (n m : Nat) (as bs : List Term),
    paramsEq n as bs = true → as.length = n → paramsLt m bs as = false
  | 0, m, as, bs, _, hl => by
    have : as = [] := List.eq_nil_of_length_eq_zero hl
    subst this
    cases m with
    | zero => rfl
    | succ m => cases bs <;> rfl
  | _ + 1, _, [], _, _, hl => by simp at hl
  | _ + 1, _, _ :: _, [], h, _ => by simp [paramsEq] at h
  | n + 1, m, a :: as, b :: bs, h, hl => by
    simp only [paramsEq] at h
    by_cases hne : a.ne b = true
    · simp [hne] at h
    · simp only [hne, Bool.false_eq_true, if_false] at h
      cases m with
      | zero => rfl
      | succ m =>
        simp only [paramsLt]
        rw [Term.ne_comm b a]
        simp only [hne, Bool.false_eq_true, if_false]
        exact paramsLt_of_paramsEq_symm n m as bs h (by simpa using hl)

theorem literal_lt_of_eq (a b : Literal) (h : a.eq b = true) : a.lt b = false := by
  obtain ⟨h1, h2, h3⟩ := literal_eq_parts a b h
  unfold Literal.lt
  rw [h1, h2, paramsLt_of_paramsEq _ _ _ h3]
  cases b.positive <;> simp

theorem literal_gt_of_eq (a b : Literal) (h : a.eq b = true)
    (hl : a.parameters.length = a.pred.arity) : b.lt a = false := by
  obtain ⟨h1, h2, h3⟩ := literal_eq_parts a b h
  have h2' : b.pred.eq a.pred = true := by
    unfold Predicate.eq at h2 ⊢
    rw [beq_iff_eq] at h2 ⊢
    exact h2.symm
  unfold Literal.lt
  rw [h1, h2', paramsLt_of_paramsEq_symm _ _ _ _ h3 hl]
  cases b.positive <;> simp

theorem literal_eq_self (a : Literal) (hl : a.parameters.length = a.pred.arity) :
    a.eq a = true := by
  unfold Literal.eq
  have h1 : a.pred.eq a.pred = true := by simp [Predicate.eq]
  have h2 : paramsEq a.pred.arity a.parameters a.parameters = true :=
    paramsEq_of_names _ _ _ (List.forall₂_same.mpr (fun _ _ => rfl)) (le_of_eq hl.symm)
  simp [h1, h2]

theorem sorted_trichotomy {α : Type} (lt : α → α → Bool) (l : List α)
    (hp : l.Pairwise (fun a b => lt a b = true)) :
    ∀ a ∈ l, ∀ b ∈ l, a = b ∨ lt a b = true ∨ lt b a = true := by
  have h1 : l.Pairwise (fun a b => a = b ∨ lt a b = true ∨ lt b a = true) :=
    hp.imp (fun h => Or.inr (Or.inl h))
  intro a ha b hb
  have hsymm : ∀ x y : α, (x = y ∨ lt x y = true ∨ lt y x = true) →
      (y = x ∨ lt y x = true ∨ lt x y = true) := by
    intro x y h
    rcases h with h | h | h
    · exact Or.inl h.symm
    · exact Or.inr (Or.inr h)
    · exact Or.inr (Or.inl h)
  exact List.Pairwise.forall_of_forall (fun {x y} h => hsymm x y h)
    (fun _ _ => Or.inl rfl) h1 ha hb

/-- On the keys of a map of well-formed literals `operator==` is the identity. -/
theorem literal_eq_iff_of_sorted (l : List Literal)
    (hp : l.Pairwise (fun a b => a.lt b = true))
    (hwf : ∀ a ∈ l, a.parameters.length = a.pred.arity) :
    ∀ a ∈ l, ∀ b ∈ l, (a.eq b = true ↔ a = b) := by
  intro a ha b hb
  constructor
  · intro h
    rcases sorted_trichotomy Literal.lt l hp a ha b hb with h1 | h1 | h1
    · exact h1
    · rw [literal_lt_of_eq a b h] at h1
      cases h1
    · rw [literal_gt_of_eq a b h (hwf a ha)] at h1
      cases h1
  · intro h
    subst h
    exact literal_eq_self a (hwf a ha)

/-- On the keys of a map of constants `operator==` is the identity. -/
theorem term_eq_iff_of_sorted (l : List Term)
    (hp : l.Pairwise (fun a b => a.lt b = true))
    (hc : ∀ a ∈ l, a.isVariable = false) :
    ∀ a ∈ l, ∀ b ∈ l, (a.eq b = true ↔ a = b) := by
  intro a ha b hb
  constructor
  · intro h
    apply eq_of_name_of_sorted l hp a ha b hb
    unfold Term.eq at h
    simpa [hc a ha] using h
  · intro h
    subst h
    exact Term.eq_refl a

theorem sorted_nodup {α : Type} (lt : α → α → Bool) (hirr : ∀ a, lt a a = false)
    (l : List α) (hp : l.Pairwise (fun a b => lt a b = true)) : l.Nodup := by
  unfold List.Nodup
  refine hp.imp ?_
  intro a b h e
  subst e
  rw [hirr a] at h
  cases h

theorem choiceIn_iff (KL : List Literal) (KT : List Term)
    (hEqL : ∀ a ∈ KL, ∀ b ∈ KL, (a.eq b = true ↔ a = b))
    (hEqT : ∀ a ∈ KT, ∀ b ∈ KT, (a.eq b = true ↔ a = b))
    (e : Literal ⊕ Term) (d : List Literal × List Term) (he : choiceKey KL KT e)
    (hdL : ∀ l ∈ d.1, l ∈ KL) (hdT : ∀ t ∈ d.2, t ∈ KT) :
    choiceIn e d = true ↔ elemIn e d := by
  cases e with
  | inl l =>
    simp only [choiceIn, inList, elemIn, List.any_eq_true]
    constructor
    · rintro ⟨y, hy, hyl⟩
      have := (hEqL y (hdL y hy) l he).mp hyl
      subst this
      exact hy
    · intro h
      exact ⟨l, h, (hEqL l he l he).mpr rfl⟩
  | inr t =>
    simp only [choiceIn, inList, elemIn, List.any_eq_true]
    constructor
    · rintro ⟨y, hy, hyl⟩
      have := (hEqT y (hdT y hy) t he).mp hyl
      subst this
      exact hy
    · intro h
      exact ⟨t, h, (hEqT t he t he).mpr rfl⟩

theorem choiceRemoved_eq (e : Literal ⊕ Term) (d : List Literal × List Term)
    (hL : d.1.Pairwise (fun a b => a.lt b = true))
    (hT : d.2.Pairwise (fun a b => a.lt b = true)) (hin : elemIn e d) :
    choiceRemoved e d = elemErase e d := by
  cases e with
  | inl l =>
    simp only [choiceRemoved, elemErase]
    rw [toSet_of_sorted Literal.lt literal_lt_asymm d.1 hL,
      toSet_of_sorted Term.lt Term.lt_asymm d.2 hT,
      setErase_eq_erase Literal.lt literal_lt_irrefl l d.1 hL hin]
  | inr t =>
    simp only [choiceRemoved, elemErase]
    rw [toSet_of_sorted Literal.lt literal_lt_asymm d.1 hL,
      toSet_of_sorted Term.lt Term.lt_asymm d.2 hT,
      setErase_eq_erase Term.lt Term.lt_irrefl t d.2 hT hin]

theorem disjProb_split (vL : Literal → ℚ) (vT : Term → ℚ) (e : Literal ⊕ Term)
    (d : List Literal × List Term) (hin : elemIn e d) :
    disjProb vL vT d = choiceNec vL vT e +
      (1 - choiceNec vL vT e) * disjProb vL vT (elemErase e d) := by
  cases e with
  | inl l =>
    simp only [disjProb, choiceNec, elemErase]
    rw [← List.prod_map_erase (fun l => 1 - vL l) hin]
    ring
  | inr t =>
    simp only [disjProb, choiceNec, elemErase]
    rw [← List.prod_map_erase (fun t => 1 - vT t) hin]
    ring

theorem cdInv_head_value {KL : List Literal} {KT : List Term} {vL : Literal → ℚ}
    {vT : Term → ℚ} {e : Literal ⊕ Term} {p : ℚ} {rest : List ((Literal ⊕ Term) × ℚ)}
    {cds : List (List Literal × List Term)} (h : CdInv KL KT vL vT ((e, p) :: rest) cds)
    (d : List Literal × List Term) (hd : d ∈ cds) (hin : elemIn e d) :
    p = choiceNec vL vT e := by
  have hnd := h.nodup
  rw [List.map_cons, List.nodup_cons] at hnd
  have key : (e, choiceNec vL vT e) ∈ (e, p) :: rest := by
    cases e with
    | inl l => exact (h.elemL d hd l hin).2
    | inr t => exact (h.elemT d hd t hin).2
  rcases List.mem_cons.mp key with h1 | h1
  · exact (Prod.mk.inj h1).2.symm
  · exact absurd (List.mem_map_of_mem Prod.fst h1) hnd.1

theorem cdInv_step {KL : List Literal} {KT : List Term} {vL : Literal → ℚ}
    {vT : Term → ℚ} {e : Literal ⊕ Term} {p : ℚ} {rest : List ((Literal ⊕ Term) × ℚ)}
    {cds : List (List Literal × List Term)} (h : CdInv KL KT vL vT ((e, p) :: rest) cds)
    (cds1 : List (List Literal × List Term))
    (hsub : ∀ b ∈ cds1, ∃ d ∈ cds, b.1.Sublist d.1 ∧ b.2.Sublist d.2 ∧ ¬ elemIn e b ∧
      (b.1.length + b.2.length == 0) = false)
    (hdisj : cds1.Pairwise DisjointDisj) : CdInv KL KT vL vT rest cds1 := by
  have hnd := h.nodup
  rw [List.map_cons, List.nodup_cons] at hnd
  refine ⟨hnd.2, fun c hc => h.keys c (List.mem_cons_of_mem _ hc), ?_, ?_, ?_, ?_, ?_, hdisj⟩
  · intro b hb
    obtain ⟨d, hd, h1, _, _, _⟩ := hsub b hb
    exact (h.sortedL d hd).sublist h1
  · intro b hb
    obtain ⟨d, hd, _, h2, _, _⟩ := hsub b hb
    exact (h.sortedT d hd).sublist h2
  · intro b hb l hl
    obtain ⟨d, hd, h1, _, h3, _⟩ := hsub b hb
    obtain ⟨hk, hm⟩ := h.elemL d hd l (h1.subset hl)
    refine ⟨hk, ?_⟩
    rcases List.mem_cons.mp hm with h4 | h4
    · have : e = Sum.inl l := (Prod.mk.inj h4).1.symm
      subst this
      exact absurd hl h3
    · exact h4
  · intro b hb t ht
    obtain ⟨d, hd, _, h2, h3, _⟩ := hsub b hb
    obtain ⟨hk, hm⟩ := h.elemT d hd t (h2.subset ht)
    refine ⟨hk, ?_⟩
    rcases List.mem_cons.mp hm with h4 | h4
    · have : e = Sum.inr t := (Prod.mk.inj h4).1.symm
      subst this
      exact absurd ht h3
    · exact h4
  · intro b hb
    obtain ⟨d, hd, _, _, _, h4⟩ := hsub b hb
    exact h4

theorem disjointDisj_sub {d e b c : List Literal × List Term} (h : DisjointDisj d e)
    (hb1 : b.1.Sublist d.1) (hb2 : b.2.Sublist d.2) (hc1 : c.1.Sublist e.1)
    (hc2 : c.2.Sublist e.2) : DisjointDisj b c :=
  ⟨fun l hl hc => h.1 l (hb1.subset hl) (hc1.subset hc),
    fun t ht hc => h.2 t (hb2.subset ht) (hc2.subset hc)⟩

theorem falseOf_spec {KL : List Literal} {KT : List Term} {vL : Literal → ℚ}
    {vT : Term → ℚ} {e : Literal ⊕ Term} {p : ℚ} {rest : List ((Literal ⊕ Term) × ℚ)}
    {cds : List (List Literal × List Term)} (h : CdInv KL KT vL vT ((e, p) :: rest) cds)
    (hEqL : ∀ a ∈ KL, ∀ b ∈ KL, (a.eq b = true ↔ a = b))
    (hEqT : ∀ a ∈ KT, ∀ b ∈ KT, (a.eq b = true ↔ a = b))
    (d : List Literal × List Term) (hd : d ∈ cds) (b : List Literal × List Term)
    (hb : falseOf e d = some b) :
    b.1.Sublist d.1 ∧ b.2.Sublist d.2 ∧ ¬ elemIn e b ∧
      (b.1.length + b.2.length == 0) = false := by
  have hiff := choiceIn_iff KL KT hEqL hEqT e d (h.keys _ (List.mem_cons_self _ _))
    (fun l hl => (h.elemL d hd l hl).1) (fun t ht => (h.elemT d hd t ht).1)
  unfold falseOf at hb
  cases hc : choiceIn e d with
  | false =>
    simp only [hc, Bool.false_eq_true, if_false, Option.some.injEq] at hb
    subst hb
    refine ⟨List.Sublist.refl _, List.Sublist.refl _, ?_, h.nonempty d hd⟩
    intro hin
    rw [hiff.mpr hin] at hc
    cases hc
  | true =>
    have hin := hiff.mp hc
    rw [choiceRemoved_eq e d (h.sortedL d hd) (h.sortedT d hd) hin] at hb
    simp only [hc, if_true] at hb
    cases hr : ((elemErase e d).1.length + (elemErase e d).2.length == 0) with
    | true => simp [hr] at hb
    | false =>
      simp only [hr, Bool.false_eq_true, if_false, Option.some.injEq] at hb
      subst hb
      refine ⟨?_, ?_, ?_, hr⟩
      · cases e <;> simp only [elemErase]
        · exact List.erase_sublist _ _
        · exact List.Sublist.refl _
      · cases e <;> simp only [elemErase]
        · exact List.Sublist.refl _
        · exact List.erase_sublist _ _
      · cases e with
        | inl l =>
          simp only [elemIn, elemErase]
          exact (sorted_nodup Literal.lt literal_lt_irrefl d.1 (h.sortedL d hd)).not_mem_erase
        | inr t =>
          simp only [elemIn, elemErase]
          exact (sorted_nodup Term.lt Term.lt_irrefl d.2 (h.sortedT d hd)).not_mem_erase

theorem cdInv_cdsTrue {KL : List Literal} {KT : List Term} {vL : Literal → ℚ}
    {vT : Term → ℚ} {e : Literal ⊕ Term} {p : ℚ} {rest : List ((Literal ⊕ Term) × ℚ)}
    {cds : List (List Literal × List Term)} (h : CdInv KL KT vL vT ((e, p) :: rest) cds)
    (hEqL : ∀ a ∈ KL, ∀ b ∈ KL, (a.eq b = true ↔ a = b))
    (hEqT : ∀ a ∈ KT, ∀ b ∈ KT, (a.eq b = true ↔ a = b)) :
    CdInv KL KT vL vT rest (cds.filter (fun d => !choiceIn e d)) := by
  refine cdInv_step h _ ?_ (h.disjoint.sublist (List.filter_sublist _))
  intro b hb
  rw [List.mem_filter] at hb
  refine ⟨b, hb.1, ?_⟩
  apply falseOf_spec h hEqL hEqT b hb.1 b
  have : choiceIn e b = false := by simpa using hb.2
  simp [falseOf, this]

theorem cdInv_cdsFalse {KL : List Literal} {KT : List Term} {vL : Literal → ℚ}
    {vT : Term → ℚ} {e : Literal ⊕ Term} {p : ℚ} {rest : List ((Literal ⊕ Term) × ℚ)}
    {cds : List (List Literal × List Term)} (h : CdInv KL KT vL vT ((e, p) :: rest) cds)
    (hEqL : ∀ a ∈ KL, ∀ b ∈ KL, (a.eq b = true ↔ a = b))
    (hEqT : ∀ a ∈ KT, ∀ b ∈ KT, (a.eq b = true ↔ a = b)) :
    CdInv KL KT vL vT rest (cds.filterMap (falseOf e)) := by
  refine cdInv_step h _ ?_ ?_
  · intro b hb
    rw [List.mem_filterMap] at hb
    obtain ⟨d, hd, hdb⟩ := hb
    exact ⟨d, hd, falseOf_spec h hEqL hEqT d hd b hdb⟩
  · rw [List.pairwise_filterMap]
    refine h.disjoint.imp_of_mem ?_
    intro d d1 hd hd1 hdd b hb b1 hb1
    obtain ⟨h1, h2, _, _⟩ := falseOf_spec h hEqL hEqT d hd b (Option.mem_def.mp hb)
    obtain ⟨h3, h4, _, _⟩ := falseOf_spec h hEqL hEqT d1 hd1 b1 (Option.mem_def.mp hb1)
    exact disjointDisj_sub hdd h1 h2 h3 h4

/-- On disjoint disjunctions of keys, and when no pruning test fires, `cdProbTree`
returns the mass of the branch times the product of the probabilities of the
disjunctions. -/
theorem cdProbTree_product (KL : List Literal) (KT : List Term) (vL : Literal → ℚ)
    (vT : Term → ℚ)
    (hEqL : ∀ a ∈ KL, ∀ b ∈ KL, (a.eq b = true ↔ a = b))
    (hEqT : ∀ a ∈ KT, ∀ b ∈ KT, (a.eq b = true ↔ a = b)) :
    ∀ (C : List ((Literal ⊕ Term) × ℚ)) (bp : ℚ) (cds : List (List Literal × List Term)),
    CdInv KL KT vL vT C cds → noPruning C bp cds = true →
    cdProbTree C bp cds = bp * (cds.map (disjProb vL vT)).prod
  | [], bp, cds, h, _ => by
    have : cds = [] := by
      cases cds with
      | nil => rfl
      | cons d ds =>
        exfalso
        have hne := h.nonempty d (List.mem_cons_self _ _)
        rcases d with ⟨d1, d2⟩
        cases d1 with
        | cons l _ => exact absurd (h.elemL _ (List.mem_cons_self _ _) l
            (List.mem_cons_self _ _)).2 (List.not_mem_nil _)
        | nil =>
          cases d2 with
          | cons t _ => exact absurd (h.elemT _ (List.mem_cons_self _ _) t
              (List.mem_cons_self _ _)).2 (List.not_mem_nil _)
          | nil => simp at hne
    subst this
    simp [cdProbTree]
  | (e, p) :: rest, bp, cds, h, hnp => by
    have hany : cds.any (fun disj => disj.1.length + disj.2.length == 0) = false := by
      rw [List.any_eq_false]
      intro d hd
      simp [h.nonempty d hd]
    have hT := cdInv_cdsTrue h hEqL hEqT
    have hF := cdInv_cdsFalse h hEqL hEqT
    have hiff : ∀ d ∈ cds, (choiceIn e d = true ↔ elemIn e d) := fun d hd =>
      choiceIn_iff KL KT hEqL hEqT e d (h.keys _ (List.mem_cons_self _ _))
        (fun l hl => (h.elemL d hd l hl).1) (fun t ht => (h.elemT d hd t ht).1)
    have hpw : cds.Pairwise (fun d d1 => ¬ (choiceIn e d = true ∧ choiceIn e d1 = true)) := by
      refine h.disjoint.imp_of_mem ?_
      intro d d1 hd hd1 hdd hcc
      have h1 := (hiff d hd).mp hcc.1
      have h2 := (hiff d1 hd1).mp hcc.2
      cases e with
      | inl l => exact hdd.1 l h1 h2
      | inr t => exact hdd.2 t h1 h2
    have hsplit := prod_split vL vT e p cds hpw (by
      intro d hd hc
      have hin := (hiff d hd).mp hc
      rw [choiceRemoved_eq e d (h.sortedL d hd) (h.sortedT d hd) hin,
        cdInv_head_value h d hd hin]
      exact disjProb_split vL vT e d hin)
    simp only [noPruning, hany, Bool.false_eq_true, if_false, cdSplit_spec] at hnp
    simp only [cdProbTree, hany, Bool.false_eq_true, if_false, cdSplit_spec]
    rw [hsplit]
    cases hfound : cds.any (fun d => choiceIn e d) with
    | false =>
      simp only [hfound, Bool.not_false, if_true] at hnp
      simp only [Bool.not_false, if_true, Bool.false_eq_true, if_false]
      exact cdProbTree_product KL KT vL vT hEqL hEqT rest bp _ hT hnp
    | true =>
      simp only [hfound, Bool.not_true, Bool.false_eq_true, if_false, Bool.and_eq_true,
        Bool.or_eq_true, decide_eq_true_eq, Bool.not_eq_true', decide_eq_false_iff_not]
        at hnp
      obtain ⟨⟨⟨h1, h2⟩, h3⟩, h4⟩ := hnp
      have ihT := cdProbTree_product KL KT vL vT hEqL hEqT rest (bp * p) _ hT h3
      simp only [Bool.not_true, Bool.false_eq_true, if_false, if_true, h1,
        Bool.or_eq_true, decide_eq_true_eq, h2, or_false, ihT]
      cases hprune : cds.any (fun d => choiceIn e d &&
          ((choiceRemoved e d).1.length + (choiceRemoved e d).2.length == 0)) with
      | true =>
        simp only [if_true]
        ring
      | false =>
        rw [hprune] at h4
        have h5 : noPruning rest (bp * (1 - p)) (cds.filterMap (falseOf e)) = true := by
          rcases h4 with h4 | h4
          · cases h4
          · exact h4
        rw [cdProbTree_product KL KT vL vT hEqL hEqT rest (bp * (1 - p)) _ hF h5]
        simp only [Bool.false_eq_true, if_false]
        ring

theorem necVector_fold_perm {κ : Type} : ∀ (m v : List (κ × ℚ)),
    (m.foldl (fun v pair => if pair.2 = 1 then pair :: v else v ++ [pair]) v).Perm (v ++ m)
  | [], v => by simp
  | p :: m, v => by
    simp only [List.foldl_cons]
    refine (necVector_fold_perm m _).trans ?_
    have h1 : (if p.2 = 1 then p :: v else v ++ [p]).Perm (v ++ [p]) := by
      split
      · exact (List.perm_append_singleton p v).symm
      · exact List.Perm.refl _
    have h2 := h1.append_right m
    simpa using h2

/-- The vector of `cdProb` holds the entries of the map. -/
theorem necVector_perm {κ : Type} (m : List (κ × ℚ)) : (necVector m).Perm m := by
  have := necVector_fold_perm m []
  simpa [necVector] using this

theorem necOf_mem {κ : Type} [DecidableEq κ] : ∀ (m : List (κ × ℚ)) (k : κ),
    k ∈ m.map Prod.fst → (k, necOf m k) ∈ m
  | [], _, h => by cases h
  | (k1, v1) :: m, k, h => by
    by_cases hk : k1 = k
    · subst hk
      simp [necOf, List.find?_cons]
    · have hm : k ∈ m.map Prod.fst := by
        rcases List.mem_cons.mp h with h | h
        · exact absurd h.symm hk
        · exact h
      have ih := necOf_mem m k hm
      have : necOf ((k1, v1) :: m) k = necOf m k := by
        simp [necOf, List.find?_cons, hk]
      rw [this]
      exact List.mem_cons_of_mem _ ih

theorem cdChoices_inv (precondNecs : List (Literal × ℚ)) (constNecs : List (Term × ℚ))
    (cds : List (List Literal × List Term))
    (hpn : (precondNecs.map Prod.fst).Pairwise (fun a b => a.lt b = true))
    (hcn : (constNecs.map Prod.fst).Pairwise (fun a b => a.lt b = true))
    (hsets : ∀ d ∈ cds, d.1.Pairwise (fun a b => a.lt b = true) ∧
      d.2.Pairwise (fun a b => a.lt b = true) ∧
      (∀ l ∈ d.1, l ∈ precondNecs.map Prod.fst) ∧ ∀ t ∈ d.2, t ∈ constNecs.map Prod.fst)
    (hdisj : cds.Pairwise (fun d e => (∀ l ∈ d.1, l ∉ e.1) ∧ (∀ t ∈ d.2, t ∉ e.2)))
    (hne : ∀ d ∈ cds, (d.1.length + d.2.length == 0) = false) :
    CdInv (precondNecs.map Prod.fst) (constNecs.map Prod.fst) (necOf precondNecs)
      (necOf constNecs) (cdChoices precondNecs constNecs) cds := by
  have hmemL : ∀ e, e ∈ necVector precondNecs ↔ e ∈ precondNecs :=
    fun e => (necVector_perm precondNecs).mem_iff
  have hmemT : ∀ e, e ∈ necVector constNecs ↔ e ∈ constNecs :=
    fun e => (necVector_perm constNecs).mem_iff
  refine ⟨?_, ?_, fun d hd => (hsets d hd).1, fun d hd => (hsets d hd).2.1, ?_, ?_, hne,
    hdisj⟩
  · unfold cdChoices
    rw [List.map_append, List.map_map, List.map_map, List.nodup_append]
    have h1 : ((necVector precondNecs).map Prod.fst).Nodup :=
      ((necVector_perm precondNecs).map Prod.fst).nodup_iff.mpr
        (sorted_nodup Literal.lt literal_lt_irrefl _ hpn)
    have h2 : ((necVector constNecs).map Prod.fst).Nodup :=
      ((necVector_perm constNecs).map Prod.fst).nodup_iff.mpr
        (sorted_nodup Term.lt Term.lt_irrefl _ hcn)
    refine ⟨?_, ?_, ?_⟩
    · have := h1.map (f := (Sum.inl : Literal → Literal ⊕ Term)) Sum.inl_injective
      simpa [List.map_map] using this
    · have := h2.map (f := (Sum.inr : Term → Literal ⊕ Term)) Sum.inr_injective
      simpa [List.map_map] using this
    · intro x hx hy
      rw [List.mem_map] at hx hy
      obtain ⟨a, _, ha⟩ := hx
      obtain ⟨b, _, hb⟩ := hy
      rw [← hb] at ha
      cases ha
  · intro c hc
    unfold cdChoices at hc
    rw [List.mem_append, List.mem_map, List.mem_map] at hc
    rcases hc with ⟨a, ha, hac⟩ | ⟨a, ha, hac⟩
    · subst hac
      exact List.mem_map_of_mem Prod.fst ((hmemL a).mp ha)
    · subst hac
      exact List.mem_map_of_mem Prod.fst ((hmemT a).mp ha)
  · intro d hd l hl
    have hk := (hsets d hd).2.2.1 l hl
    refine ⟨hk, ?_⟩
    unfold cdChoices
    rw [List.mem_append]
    left
    rw [List.mem_map]
    exact ⟨(l, necOf precondNecs l), (hmemL _).mpr (necOf_mem precondNecs l hk), rfl⟩
  · intro d hd t ht
    have hk := (hsets d hd).2.2.2 t ht
    refine ⟨hk, ?_⟩
    unfold cdChoices
    rw [List.mem_append]
    right
    rw [List.mem_map]
    exact ⟨(t, necOf constNecs t), (hmemT _).mpr (necOf_mem constNecs t hk), rfl⟩

theorem cdChoices_ne_nil (precondNecs : List (Literal × ℚ)) (constNecs : List (Term × ℚ))
    (h : precondNecs ≠ [] ∨ constNecs ≠ []) : cdChoices precondNecs constNecs ≠ [] := by
  unfold cdChoices
  intro hnil
  rw [List.append_eq_nil, List.map_eq_nil_iff, List.map_eq_nil_iff] at hnil
  rcases h with h | h
  · obtain ⟨p, m, hp⟩ := List.exists_cons_of_ne_nil h
    rw [hp] at hnil
    exact necVector_cons_ne_nil p m hnil.1
  · obtain ⟨p, m, hp⟩ := List.exists_cons_of_ne_nil h
    rw [hp] at hnil
    exact necVector_cons_ne_nil p m hnil.2

/-- The product formula of `cdProb` on disjoint disjunctions of keys, when no pruning
test fires and one of the maps has an entry or the collection is empty. -/
theorem cdProb_product_of_disjoint (precondNecs : List (Literal × ℚ))
    (constNecs : List (Term × ℚ)) (cds : List (List Literal × List Term))
    (hpn : (precondNecs.map Prod.fst).Pairwise (fun a b => a.lt b = true))
    (hcn : (constNecs.map Prod.fst).Pairwise (fun a b => a.lt b = true))
    (hwf : ∀ e ∈ precondNecs, e.1.parameters.length = e.1.pred.arity)
    (hconst : ∀ e ∈ constNecs, e.1.isVariable = false)
    (hsets : ∀ d ∈ cds, d.1.Pairwise (fun a b => a.lt b = true) ∧
      d.2.Pairwise (fun a b => a.lt b = true) ∧
      (∀ l ∈ d.1, l ∈ precondNecs.map Prod.fst) ∧ ∀ t ∈ d.2, t ∈ constNecs.map Prod.fst)
    (hdisj : cds.Pairwise (fun d e => (∀ l ∈ d.1, l ∉ e.1) ∧ (∀ t ∈ d.2, t ∉ e.2)))
    (hnp : noPruning (cdChoices precondNecs constNecs) 1 cds = true)
    (hdeg : precondNecs ≠ [] ∨ constNecs ≠ [] ∨ cds = []) :
    cdProb precondNecs constNecs cds =
      (cds.map (disjProb (necOf precondNecs) (necOf constNecs))).prod := by
  by_cases hcds : cds = []
  · subst hcds
    simp [cdProb, cdProbTree_nil]
  have hC : cdChoices precondNecs constNecs ≠ [] := by
    apply cdChoices_ne_nil
    rcases hdeg with h | h | h
    · exact Or.inl h
    · exact Or.inr h
    · exact absurd h hcds
  by_cases hempty : ∃ d ∈ cds, (d.1.length + d.2.length == 0) = true
  · obtain ⟨d, hd, hd0⟩ := hempty
    have hz : disjProb (necOf precondNecs) (necOf constNecs) d = 0 :=
      disjProb_empty _ _ d hd0
    have hdnil : d = ([], []) := by
      rcases d with ⟨d1, d2⟩
      have hlen : d1.length + d2.length = 0 := beq_iff_eq.mp hd0
      have h1 : d1 = [] := List.eq_nil_of_length_eq_zero (by omega)
      have h2 : d2 = [] := List.eq_nil_of_length_eq_zero (by omega)
      rw [h1, h2]
    obtain ⟨cds1, cds2, hsplit⟩ := List.append_of_mem hd
    obtain ⟨c, rest, hc⟩ := List.exists_cons_of_ne_nil hC
    rw [List.prod_eq_zero (List.mem_map.mpr ⟨d, hd, hz⟩)]
    unfold cdProb
    rw [hc, hsplit, hdnil]
    exact cdProbTree_empty_disjunction c rest 1 cds1 cds2
  · have hne : ∀ d ∈ cds, (d.1.length + d.2.length == 0) = false := by
      intro d hd
      cases h : (d.1.length + d.2.length == 0) with
      | false => rfl
      | true => exact absurd ⟨d, hd, h⟩ hempty
    have hinv := cdChoices_inv precondNecs constNecs cds hpn hcn hsets hdisj hne
    have hEqL := literal_eq_iff_of_sorted (precondNecs.map Prod.fst) hpn (by
      intro a ha
      rw [List.mem_map] at ha
      obtain ⟨e, he, hea⟩ := ha
      subst hea
      exact hwf e he)
    have hEqT := term_eq_iff_of_sorted (constNecs.map Prod.fst) hcn (by
      intro a ha
      rw [List.mem_map] at ha
      obtain ⟨e, he, hea⟩ := ha
      subst hea
      exact hconst e he)
    unfold cdProb
    rw [cdProbTree_product _ _ _ _ hEqL hEqT _ 1 cds hinv hnp, one_mul]

/-- C26: in exact arithmetic, for necessity maps of well-formed literals and of
constants, and a collection of disjunctions that are sets of keys of the maps and pairwise
share no element, when no pruning test of `cdProbTree` fires (no branch mass falls below
`PRECISION`) and one of the maps has an entry or the collection is empty, `cdProb` is the
product over the disjunctions of one minus the product over the elements of the
disjunction of one minus the necessity of the element. With two empty maps, on the
collection of the empty disjunction alone, `cdProb` returns `1` and the product is `0`. -/
theorem C26_cdProb_product :
    (∀ (precondNecs : List (Literal × ℚ)) (constNecs : List (Term × ℚ))
      (cds : List (List Literal × List Term)),
      (precondNecs.map Prod.fst).Pairwise (fun a b => a.lt b = true) →
      (constNecs.map Prod.fst).Pairwise (fun a b => a.lt b = true) →
      (∀ e ∈ precondNecs, e.1.parameters.length = e.1.pred.arity) →
      (∀ e ∈ constNecs, e.1.isVariable = false) →
      (∀ d ∈ cds, d.1.Pairwise (fun a b => a.lt b = true) ∧
        d.2.Pairwise (fun a b => a.lt b = true) ∧
        (∀ l ∈ d.1, l ∈ precondNecs.map Prod.fst) ∧
        ∀ t ∈ d.2, t ∈ constNecs.map Prod.fst) →
      cds.Pairwise (fun d e => (∀ l ∈ d.1, l ∉ e.1) ∧ (∀ t ∈ d.2, t ∉ e.2)) →
      noPruning (cdChoices precondNecs constNecs) 1 cds = true →
      (precondNecs ≠ [] ∨ constNecs ≠ [] ∨ cds = []) →
      cdProb precondNecs constNecs cds =
        (cds.map (disjProb (necOf precondNecs) (necOf constNecs))).prod) ∧
    cdProb [] [] [([], [])] = 1 ∧
    ([(([] : List Literal), ([] : List Term))].map
      (disjProb (necOf ([] : List (Literal × ℚ))) (necOf ([] : List (Term × ℚ))))).prod =
      0 := by
  refine ⟨cdProb_product_of_disjoint, rfl, ?_⟩
  simp [disjProb]

/-- C26 (witness): the maps and the three disjoint disjunctions of the test
`CdProbTests`, on which no pruning test fires. -/
theorem C26_cdProb_product_witness :
    (precNecsTest.map Prod.fst).Pairwise (fun a b => a.lt b = true) ∧
    (constNecsTest.map Prod.fst).Pairwise (fun a b => a.lt b = true) ∧
    (∀ e ∈ precNecsTest, e.1.parameters.length = e.1.pred.arity) ∧
    (∀ e ∈ constNecsTest, e.1.isVariable = false) ∧
    (∀ d ∈ cdsTest, d.1.Pairwise (fun a b => a.lt b = true) ∧
      d.2.Pairwise (fun a b => a.lt b = true) ∧
      (∀ l ∈ d.1, l ∈ precNecsTest.map Prod.fst) ∧
      ∀ t ∈ d.2, t ∈ constNecsTest.map Prod.fst) ∧
    cdsTest.Pairwise (fun d e => (∀ l ∈ d.1, l ∉ e.1) ∧ (∀ t ∈ d.2, t ∉ e.2)) ∧
    noPruning (cdChoices precNecsTest constNecsTest) 1 cdsTest = true ∧
    (precNecsTest ≠ [] ∨ constNecsTest ≠ [] ∨ cdsTest = []) ∧
    cdProb precNecsTest constNecsTest cdsTest =
      (cdsTest.map (disjProb (necOf precNecsTest) (necOf constNecsTest))).prod := by
  have hpn : (precNecsTest.map Prod.fst).Pairwise (fun a b => a.lt b = true) := by decide
  have hcn : (constNecsTest.map Prod.fst).Pairwise (fun a b => a.lt b = true) := by decide
  have hwf : ∀ e ∈ precNecsTest, e.1.parameters.length = e.1.pred.arity := by decide!
  have hconst : ∀ e ∈ constNecsTest, e.1.isVariable = false := by decide!
  have hsets : ∀ d ∈ cdsTest, d.1.Pairwise (fun a b => a.lt b = true) ∧
      d.2.Pairwise (fun a b => a.lt b = true) ∧
      (∀ l ∈ d.1, l ∈ precNecsTest.map Prod.fst) ∧
      ∀ t ∈ d.2, t ∈ constNecsTest.map Prod.fst := by decide!
  have hdisj : cdsTest.Pairwise
      (fun d e => (∀ l ∈ d.1, l ∉ e.1) ∧ (∀ t ∈ d.2, t ∉ e.2)) := by decide!
  have hnp : noPruning (cdChoices precNecsTest constNecsTest) 1 cdsTest = true := by decide!
  have hdeg : precNecsTest ≠ [] ∨ constNecsTest ≠ [] ∨ cdsTest = [] :=
    Or.inl (by simp [precNecsTest])
  exact ⟨hpn, hcn, hwf, hconst, hsets, hdisj, hnp, hdeg,
    C26_cdProb_product.1 precNecsTest constNecsTest cdsTest hpn hcn hwf hconst hsets hdisj
      hnp hdeg⟩

/-! ## Generalisation of two literals: the failure cases -/

/-- C36: when `generalizeLiteralsOI` returns no literal, the reference parameters `theta1`,
`theta2` and `genVars` are left as they were on entry; and this happens exactly when the
two literals are not compatible or the loop over the parameter positions sets `stop`. -/
theorem C36_generalizeLiteralsOI_none_keeps (r : ActionRule) (l1 l2 : Literal)
    (genVars : List Term) (theta1 theta2 : Substitution)
    (h : (r.generalizeLiteralsOI l1 l2 genVars theta1 theta2).lit = none) :
    (r.generalizeLiteralsOI l1 l2 genVars theta1 theta2).theta1 = theta1 ∧
    (r.generalizeLiteralsOI l1 l2 genVars theta1 theta2).theta2 = theta2 ∧
    (r.generalizeLiteralsOI l1 l2 genVars theta1 theta2).genVars = genVars ∧
    (Literal.compatible l1 l2 = false ∨
      r.genLitLoop l1.parameters l2.parameters ⟨theta1, theta2, genVars, []⟩ = none) := by
  unfold ActionRule.generalizeLiteralsOI at h ⊢
  cases hc : Literal.compatible l1 l2 with
  | false => simp
  | true =>
    simp only [hc, Bool.not_true, Bool.false_eq_true, if_false] at h ⊢
    cases hl : r.genLitLoop l1.parameters l2.parameters ⟨theta1, theta2, genVars, []⟩ with
    | none => simp
    | some st => rw [hl] at h; cases h

/-- C36 (witness): the literals `on(X, b)` and `on(b, c)` with `theta2 = \x7bY/b\x7d` of
the test `LitGenTests`, on which the second position stops the loop. -/
theorem C36_generalizeLiteralsOI_none_keeps_witness :
    (ActionRule.blank.generalizeLiteralsOI (mkLit "on" [mkVar "X", mkConst "b"])
      (mkLit "on" [mkConst "b", mkConst "c"]) [] Substitution.empty
      (Substitution.single (mkVar "Y") (mkConst "b"))).lit = none ∧
    (ActionRule.blank.generalizeLiteralsOI (mkLit "on" [mkVar "X", mkConst "b"])
      (mkLit "on" [mkConst "b", mkConst "c"]) [] Substitution.empty
      (Substitution.single (mkVar "Y") (mkConst "b"))).theta2 =
        Substitution.single (mkVar "Y") (mkConst "b") :=
  ⟨by decide,
    (C36_generalizeLiteralsOI_none_keeps ActionRule.blank (mkLit "on" [mkVar "X", mkConst "b"])
      (mkLit "on" [mkConst "b", mkConst "c"]) [] Substitution.empty
      (Substitution.single (mkVar "Y") (mkConst "b")) (by decide)).2.1⟩

/-! ## The transition function: the meta action `delete` -/

theorem metaPredicates_names (predicates : List Predicate) :
    ((metaPredicates predicates).1 = Predicate.default ∨
      (metaPredicates predicates).1.name = "reset") ∧
    ((metaPredicates predicates).2.1 = Predicate.default ∨
      (metaPredicates predicates).2.1.name = "delete") ∧
    ((metaPredicates predicates).2.2 = Predicate.default ∨
      (metaPredicates predicates).2.2.name = "remove-fact") := by
  unfold metaPredicates
  apply foldl_invariant_mem _ (fun st : Predicate × Predicate × Predicate =>
    (st.1 = Predicate.default ∨ st.1.name = "reset") ∧
    (st.2.1 = Predicate.default ∨ st.2.1.name = "delete") ∧
    (st.2.2 = Predicate.default ∨ st.2.2.name = "remove-fact"))
  · exact ⟨Or.inl rfl, Or.inl rfl, Or.inl rfl⟩
  · intro st pred _ hst
    obtain ⟨h1, h2, h3⟩ := hst
    by_cases hr : pred.name = "reset"
    · rw [if_pos (by simp [hr])]
      exact ⟨Or.inr hr, h2, h3⟩
    · rw [if_neg (by simp [hr])]
      by_cases hd : pred.name = "delete"
      · rw [if_pos (by simp [hd])]
        exact ⟨h1, Or.inr hd, h3⟩
      · rw [if_neg (by simp [hd])]
        by_cases hf : pred.name = "remove-fact"
        · rw [if_pos (by simp [hf])]
          exact ⟨h1, h2, Or.inr hf⟩
        · rw [if_neg (by simp [hf])]
          exact ⟨h1, h2, h3⟩

/-- The constructor of `Domain` names the predicates of the meta actions `reset`, `delete`
and `remove-fact`. -/
theorem metaActions_make (inPreds : List Predicate) (inConsts : List Term)
    (inActions : List Action) : MetaActions (Domain.make inPreds inConsts inActions) := by
  obtain ⟨h1, h2, h3⟩ := metaPredicates_names inPreds
  have key : ∀ (p : Predicate) (n : String) (k : Nat), n ≠ "None" →
      (p = Predicate.default ∨ p.name = n) →
      (if p.eq Predicate.default then (⟨n, k⟩ : Predicate) else p).name = n := by
    intro p n k hn hp
    rcases hp with hp | hp
    · subst hp
      simp [Predicate.eq]
    · have : p.eq Predicate.default = false := by
        simp [Predicate.eq, Predicate.default, hp, hn]
      simp [this, hp]
  refine ⟨?_, ?_, ?_, rfl⟩
  · exact key _ "reset" 0 (by decide) h1
  · exact key _ "delete" 1 (by decide) h2
  · exact key _ "remove-fact" 1 (by decide) h3

theorem mem_setInsert_iff {α : Type} (lt : α → α → Bool) (x y : α) (xs : List α)
    (h : setContains lt x xs = false) : y ∈ setInsert lt x xs ↔ y = x ∨ y ∈ xs := by
  constructor
  · exact mem_setInsert lt x y xs
  · rintro (rfl | hy)
    · induction xs with
      | nil => simp [setInsert]
      | cons z zs ih =>
        simp only [setContains, List.any_cons, Bool.or_eq_false_iff] at h
        simp only [setInsert]
        by_cases h1 : lt y z = true
        · simp [h1]
        · by_cases h2 : lt z y = true
          · simp only [h1, h2, if_true, Bool.false_eq_true, if_false]
            exact List.mem_cons_of_mem _ (ih h.2)
          · simp [h1, h2] at h
    · exact mem_setInsert_of_mem lt x y xs hy

theorem stateContains_filter (state : List Literal) (keep : Literal → Bool) (a : Literal)
    (h : stateContains state a = false) : stateContains (state.filter keep) a = false := by
  unfold stateContains setContains at h ⊢
  rw [List.any_eq_false] at h ⊢
  intro y hy
  exact h y (List.mem_filter.mp hy).1

/-- C31: in a state (a set of positive facts) that does not contain `delete(x)`,
`tryAction` authorizes `delete(x)` and returns the facts of the state that do not mention
`x`, together with `delete(x)`; in a state that contains `delete(x)`, it rejects every
non-meta action literal that has `x` among its parameters, and `delete(x)` itself, with
the state and the record of removed facts unchanged. -/
theorem C31_tryAction_delete (d : Domain) (parse : String → List Term → Literal)
    (state : List Literal) (instances : List Term) (x : Term) (onlyAdd : Bool)
    (hd : MetaActions d)
    (hsorted : state.Pairwise (fun a b => a.lt b = true))
    (hpos : ∀ f ∈ state, f.positive = true) :
    (stateContains state ⟨d.deletePred, [x], true⟩ = false →
      (tryAction d parse state instances ⟨d.deletePred, [x], true⟩ onlyAdd).there = true ∧
      (tryAction d parse state instances ⟨d.deletePred, [x], true⟩ onlyAdd).obj =
        setInsert Literal.lt ⟨d.deletePred, [x], true⟩
          (state.filter (fun f => !inList Term.eq f.parameters x)) ∧
      (∀ f, f ∈ (tryAction d parse state instances ⟨d.deletePred, [x], true⟩ onlyAdd).obj ↔
        f = ⟨d.deletePred, [x], true⟩ ∨
          (f ∈ state ∧ inList Term.eq f.parameters x = false)) ∧
      (tryAction d parse state instances ⟨d.deletePred, [x], true⟩ onlyAdd).removedFacts =
        d.removedFacts) ∧
    (stateContains state ⟨d.deletePred, [x], true⟩ = true →
      (∀ a : Literal, a.pred.eq d.resetAction.actionLiteral.pred = false →
        a.pred.eq d.deleteAction.actionLiteral.pred = false →
        a.pred.eq d.removeFactAction.actionLiteral.pred = false → x ∈ a.parameters →
        tryAction d parse state instances a onlyAdd = ⟨state, false, d.removedFacts⟩) ∧
      tryAction d parse state instances ⟨d.deletePred, [x], true⟩ onlyAdd =
        ⟨state, false, d.removedFacts⟩) := by
  have hreset : (⟨d.deletePred, [x], true⟩ : Literal).pred.eq
      d.resetAction.actionLiteral.pred = false := by
    simp only [Predicate.eq, ← hd.deletePred, hd.delete, hd.reset]
    decide
  have hdelete : (⟨d.deletePred, [x], true⟩ : Literal).pred.eq
      d.deleteAction.actionLiteral.pred = true := by
    simp [Predicate.eq, hd.deletePred]
  constructor
  · intro hnot
    have hfold : state.foldl (fun r fact =>
        match (⟨d.deletePred, [x], true⟩ : Literal).parameters with
        | [] => addFact r fact
        | p :: _ => if !inList Term.eq fact.parameters p then addFact r fact else r) [] =
        state.filter (fun f => !inList Term.eq f.parameters x) := by
      have h1 : (fun (r : List Literal) (fact : Literal) =>
          match (⟨d.deletePred, [x], true⟩ : Literal).parameters with
          | [] => addFact r fact
          | p :: _ => if !inList Term.eq fact.parameters p then addFact r fact else r) =
          (fun r fact => if (fun f : Literal => !inList Term.eq f.parameters x) fact then
            setInsert Literal.lt (Literal.abs fact) r else r) := by
        funext r fact
        simp [addFact]
      rw [h1, foldl_filter_map_setInsert Literal.lt _ Literal.abs state []]
      have h2 : (state.filter (fun f => !inList Term.eq f.parameters x)).map Literal.abs =
          state.filter (fun f => !inList Term.eq f.parameters x) := by
        conv_rhs => rw [← List.map_id (state.filter _)]
        apply List.map_congr_left
        intro f hf
        exact Literal.abs_of_positive f (hpos f (List.mem_filter.mp hf).1)
      rw [h2, foldl_setInsert_sorted Literal.lt literal_lt_asymm _ []
        (hsorted.sublist (List.filter_sublist _)) (fun _ hy => by cases hy)]
      rfl
    have hobj : (tryAction d parse state instances ⟨d.deletePred, [x], true⟩ onlyAdd) =
        ⟨setInsert Literal.lt ⟨d.deletePred, [x], true⟩
          (state.filter (fun f => !inList Term.eq f.parameters x)), true,
          d.removedFacts⟩ := by
      unfold tryAction
      simp only [hreset, hdelete, hnot, Bool.false_eq_true, if_false, if_true]
      rw [hfold]
      rfl
    rw [hobj]
    refine ⟨rfl, rfl, ?_, rfl⟩
    intro f
    rw [mem_setInsert_iff Literal.lt _ f _ (stateContains_filter state _ _ hnot)]
    simp [List.mem_filter]
  · intro hin
    constructor
    · intro a h1 h2 h3 hx
      have hany : a.parameters.any
          (fun pit => stateContains state ⟨d.deletePred, [pit], true⟩) = true := by
        rw [List.any_eq_true]
        exact ⟨x, hx, hin⟩
      unfold tryAction
      simp only [h1, h2, h3, hany, Bool.false_eq_true, if_false, if_true]
    · unfold tryAction
      simp only [hreset, hdelete, hin, Bool.false_eq_true, if_false, if_true]

/-- C31 (witness): in the domain of the test `DomainOps`, `delete(a)` in the legal state of
the test, and the action `p2(a, c)` and a second `delete(a)` once `a` is deleted. -/
theorem C31_tryAction_delete_witness :
    MetaActions domainOps ∧
    stateContains stateLegal ⟨domainOps.deletePred, [mkConst "a"], true⟩ = false ∧
    (tryAction domainOps (fun _ _ => Literal.default) stateLegal instancesOps
      ⟨domainOps.deletePred, [mkConst "a"], true⟩ false).obj = stateDeleted ∧
    stateContains stateDeleted ⟨domainOps.deletePred, [mkConst "a"], true⟩ = true ∧
    tryAction domainOps (fun _ _ => Literal.default) stateDeleted instancesOps
      (mkLit "p2" [mkConst "a", mkConst "c"]) false =
        ⟨stateDeleted, false, domainOps.removedFacts⟩ := by
  have hd : MetaActions domainOps := ⟨rfl, rfl, rfl, rfl⟩
  have h1 : stateContains stateLegal ⟨domainOps.deletePred, [mkConst "a"], true⟩ = false := by
    decide
  have h2 : stateContains stateDeleted ⟨domainOps.deletePred, [mkConst "a"], true⟩ = true := by
    decide
  refine ⟨hd, h1, ?_, h2, ?_⟩
  · rw [((C31_tryAction_delete domainOps (fun _ _ => Literal.default) stateLegal instancesOps
      (mkConst "a") false hd (by decide) (by decide)).1 h1).2.1]
    decide
  · exact ((C31_tryAction_delete domainOps (fun _ _ => Literal.default) stateDeleted
      instancesOps (mkConst "a") false hd (by decide) (by decide)).2 h2).1
      (mkLit "p2" [mkConst "a", mkConst "c"]) (by decide) (by decide) (by decide) (by decide)

/-! ## The range of `cdProb` -/

/-- Every subtree of the decision tree of `cdProbTree` returns a value between `0` and the
mass of its branch. -/
theorem cdProbTree_range : ∀ (choices : List ((Literal ⊕ Term) × ℚ)) (branchPower : ℚ)
    (cds : List (List Literal × List Term)),
    (∀ c ∈ choices, 0 ≤ c.2 ∧ c.2 ≤ 1) → 0 ≤ branchPower →
    0 ≤ cdProbTree choices branchPower cds ∧ cdProbTree choices branchPower cds ≤ branchPower
  | [], bp, cds, _, hbp => by
    simp only [cdProbTree]
    exact ⟨hbp, le_refl _⟩
  | (choice, p) :: rest, bp, cds, hc, hbp => by
    have hp : 0 ≤ p ∧ p ≤ 1 := hc (choice, p) (List.mem_cons_self _ _)
    have hrest : ∀ c ∈ rest, 0 ≤ c.2 ∧ c.2 ≤ 1 := fun c h => hc c (List.mem_cons_of_mem _ h)
    have h1 : 0 ≤ bp * p := mul_nonneg hbp hp.1
    have h2 : 0 ≤ bp * (1 - p) := mul_nonneg hbp (by linarith [hp.2])
    simp only [cdProbTree]
    split
    · exact ⟨le_refl _, hbp⟩
    · split
      · exact cdProbTree_range rest bp _ hrest hbp
      · have hT := cdProbTree_range rest (bp * p) (cdSplit choice cds).cdsTrue hrest h1
        have hF := cdProbTree_range rest (bp * (1 - p)) (cdSplit choice cds).cdsFalse hrest h2
        have htrue : 0 ≤ (if p * bp ≥ PRECISION then
            cdProbTree rest (bp * p) (cdSplit choice cds).cdsTrue else p * bp) ∧
            (if p * bp ≥ PRECISION then
              cdProbTree rest (bp * p) (cdSplit choice cds).cdsTrue else p * bp) ≤ bp * p := by
          split
          · exact hT
          · constructor <;> linarith
        split
        · constructor
          · exact htrue.1
          · nlinarith [htrue.2, mul_nonneg hbp hp.1]
        · constructor
          · linarith [htrue.1, hF.1]
          · have : bp * p + bp * (1 - p) = bp := by ring
            linarith [htrue.2, hF.2]

theorem cdChoices_range (precondNecs : List (Literal × ℚ)) (constNecs : List (Term × ℚ))
    (hpn : ∀ e ∈ precondNecs, 0 ≤ e.2 ∧ e.2 ≤ 1) (hcn : ∀ e ∈ constNecs, 0 ≤ e.2 ∧ e.2 ≤ 1) :
    ∀ c ∈ cdChoices precondNecs constNecs, 0 ≤ c.2 ∧ c.2 ≤ 1 := by
  intro c hc
  unfold cdChoices at hc
  rw [List.mem_append, List.mem_map, List.mem_map] at hc
  rcases hc with ⟨a, ha, hac⟩ | ⟨a, ha, hac⟩
  · subst hac
    exact hpn a ((necVector_perm precondNecs).mem_iff.mp ha)
  · subst hac
    exact hcn a ((necVector_perm constNecs).mem_iff.mp ha)

/-- C39: in exact arithmetic, for necessity maps with values in `[0, 1]` and every
collection of disjunctions, `cdProb` is in `[0, 1]`; so are the value of `computeCdProb`
and the fulfilment probability `1 - computeCdProb`, for every state, action and set of
substitutions. -/
theorem C39_cdProb_range (precondNecs : List (Literal × ℚ)) (constNecs : List (Term × ℚ))
    (hpn : ∀ e ∈ precondNecs, 0 ≤ e.2 ∧ e.2 ≤ 1) (hcn : ∀ e ∈ constNecs, 0 ≤ e.2 ∧ e.2 ≤ 1) :
    (∀ cds, 0 ≤ cdProb precondNecs constNecs cds ∧ cdProb precondNecs constNecs cds ≤ 1) ∧
    (∀ cds, 0 ≤ 1 - cdProb precondNecs constNecs cds ∧
      1 - cdProb precondNecs constNecs cds ≤ 1) ∧
    (∀ actionLiteral state action subs,
      0 ≤ fulfilmentProbability actionLiteral precondNecs constNecs state action subs ∧
      fulfilmentProbability actionLiteral precondNecs constNecs state action subs ≤ 1) := by
  have h : ∀ cds, 0 ≤ cdProb precondNecs constNecs cds ∧
      cdProb precondNecs constNecs cds ≤ 1 := by
    intro cds
    exact cdProbTree_range _ 1 cds (cdChoices_range precondNecs constNecs hpn hcn) zero_le_one
  refine ⟨h, ?_, ?_⟩
  · intro cds
    constructor <;> linarith [(h cds).1, (h cds).2]
  · intro actionLiteral state action subs
    unfold fulfilmentProbability computeCdProb
    split
    · norm_num
    · constructor <;> linarith [(h (subs.foldl (fun cds sub =>
        setInsert unverifiedLt (unverifiedOf precondNecs constNecs state sub) cds) [])).1,
        (h (subs.foldl (fun cds sub =>
        setInsert unverifiedLt (unverifiedOf precondNecs constNecs state sub) cds) [])).2]

/-- C39 (witness): the necessity maps and the disjunctions of the test `CdProbTests`. -/
theorem C39_cdProb_range_witness :
    (∀ e ∈ precNecsTest, 0 ≤ e.2 ∧ e.2 ≤ 1) ∧ (∀ e ∈ constNecsTest, 0 ≤ e.2 ∧ e.2 ≤ 1) ∧
    0 ≤ cdProb precNecsTest constNecsTest cdsTest ∧
    cdProb precNecsTest constNecsTest cdsTest ≤ 1 := by
  have hpn : ∀ e ∈ precNecsTest, 0 ≤ e.2 ∧ e.2 ≤ 1 := by
    intro e he
    simp only [precNecsTest, List.mem_cons, List.mem_singleton, List.not_mem_nil,
      or_false] at he
    rcases he with h | h | h | h <;> subst h <;> norm_num
  have hcn : ∀ e ∈ constNecsTest, 0 ≤ e.2 ∧ e.2 ≤ 1 := by
    intro e he
    simp only [constNecsTest, List.mem_cons, List.mem_singleton, List.not_mem_nil,
      or_false] at he
    rcases he with h | h | h | h <;> subst h <;> norm_num
  exact ⟨hpn, hcn, (C39_cdProb_range precNecsTest constNecsTest hpn hcn).1 cdsTest⟩

/-! ## The revision: the cases in which nothing changes -/

theorem classify_fold_unchanged (heap : List ActionRule) (x : ActionRule) (authorized : Bool)
    (rules : List Nat)
    (hpost : authorized = true → ∀ i ∈ rules,
      ∀ s ∈ (ruleAt heap i).prematchingSubs x Substitution.empty,
        (ruleAt heap i).postmatches x s = true) :
    ∀ (st : List Nat × List Nat),
    rules.foldl (fun st it =>
      let prematchSubs := (ruleAt heap it).prematchingSubs x Substitution.empty
      if prematchSubs.length > 0 then
        (st.1 ++ [it],
          if authorized then
            prematchSubs.foldl (fun c subit =>
              if !(ruleAt heap it).postmatches x subit then c ++ [it] else c) st.2
          else st.2)
      else st) st =
    (st.1 ++ rules.filter (fun it =>
      decide (((ruleAt heap it).prematchingSubs x Substitution.empty).length > 0)), st.2) := by
  induction rules with
  | nil => intro st; simp
  | cons r rs ih =>
    intro st
    simp only [List.foldl_cons]
    rw [ih (fun ha i hi => hpost ha i (List.mem_cons_of_mem _ hi))]
    by_cases hlen : ((ruleAt heap r).prematchingSubs x Substitution.empty).length > 0
    · have hinner : (if authorized = true then
          ((ruleAt heap r).prematchingSubs x Substitution.empty).foldl (fun c subit =>
            if !(ruleAt heap r).postmatches x subit then c ++ [r] else c) st.2
          else st.2) = st.2 := by
        cases ha : authorized with
        | false => simp
        | true =>
          simp only [if_true]
          apply foldl_invariant_mem _ (fun c => c = st.2) _ _ rfl
          intro c s hs hc
          rw [hpost ha r (List.mem_cons_self _ _) s hs, hc]
          simp
      simp only [hlen, if_true, hinner, List.filter_cons, decide_True, List.append_assoc,
        List.singleton_append]
    · simp only [hlen, if_false, List.filter_cons, decide_False, Bool.false_eq_true]

/-- C40: `updateKnowledge` returns `false`, draws no random outcome, and leaves the active
set, the two sets of counter-examples and every rule of the arena (hence its parents) as
they are, when (a) the trace is authorized, its example is well formed, at least one
active rule prematches the example and every prematching substitution of every active rule
postmatches it; (b) the trace is not authorized and no active rule prematches its example;
(c) a parameter of the action of the trace is marked deleted in the state of the trace. -/
theorem C40_updateKnowledge_unchanged (a : Agent) (cfg : Config) (deletePred : Predicate)
    (depth : Nat) (trace : Trace) (rnd : List Nat)
    (hptr : ∀ i ∈ a.rules, i < a.heap.length)
    (hcase :
      (trace.authorized = true ∧ (ActionRule.ofTrace trace true).wellFormed = true ∧
        (∃ i ∈ a.rules, (ruleAt a.heap i).prematchingSubs (ActionRule.ofTrace trace true)
          Substitution.empty ≠ []) ∧
        ∀ i ∈ a.rules, ∀ s ∈ (ruleAt a.heap i).prematchingSubs
          (ActionRule.ofTrace trace true) Substitution.empty,
          (ruleAt a.heap i).postmatches (ActionRule.ofTrace trace true) s = true) ∨
      (trace.authorized = false ∧
        ∀ i ∈ a.rules, (ruleAt a.heap i).prematchingSubs (ActionRule.ofTrace trace true)
          Substitution.empty = []) ∨
      trace.instAct.parameters.any
        (fun param => inList Literal.eq trace.state ⟨deletePred, [param], true⟩) = true) :
    ∃ a1, a.updateKnowledge cfg deletePred depth trace rnd = some (false, a1, rnd) ∧
      a1.rules = a.rules ∧ a1.counterExamples = a.counterExamples ∧
      a1.failedActionsCounterExamples = a.failedActionsCounterExamples ∧
      ∀ i, i < a.heap.length → ruleAt a1.heap i = ruleAt a.heap i := by
  unfold Agent.updateKnowledge
  by_cases hdel : trace.instAct.parameters.any
      (fun param => inList Literal.eq trace.state ⟨deletePred, [param], true⟩) = true
  · rw [if_pos hdel]
    exact ⟨a, rfl, rfl, rfl, rfl, fun _ _ => rfl⟩
  · rw [if_neg hdel]
    have hrule : ∀ i ∈ a.rules, ruleAt (a.alloc (ActionRule.ofTrace trace true)).heap i =
        ruleAt a.heap i := fun i hi => ruleAt_append_left _ _ i (hptr i hi)
    have hx : ruleAt (a.alloc (ActionRule.ofTrace trace true)).heap a.heap.length =
        ActionRule.ofTrace trace true := ruleAt_append_length a.heap [] _
    have hpost : trace.authorized = true → ∀ i ∈ (a.alloc (ActionRule.ofTrace trace true)).rules,
        ∀ s ∈ (ruleAt (a.alloc (ActionRule.ofTrace trace true)).heap i).prematchingSubs
          (ActionRule.ofTrace trace true) Substitution.empty,
        (ruleAt (a.alloc (ActionRule.ofTrace trace true)).heap i).postmatches
          (ActionRule.ofTrace trace true) s = true := by
      intro hauth i hi s hs
      have hi1 : i ∈ a.rules := hi
      rw [hrule i hi1] at hs ⊢
      rcases hcase with h | h | h
      · exact h.2.2.2 i hi1 s hs
      · rw [h.1] at hauth
        cases hauth
      · exact absurd h hdel
    have hclass : (a.alloc (ActionRule.ofTrace trace true)).classify
        (ruleAt (a.alloc (ActionRule.ofTrace trace true)).heap a.heap.length)
        trace.authorized =
        (a.rules.filter (fun it => decide (((ruleAt a.heap it).prematchingSubs
          (ActionRule.ofTrace trace true) Substitution.empty).length > 0)), []) := by
      unfold Agent.classify
      rw [hx, classify_fold_unchanged _ _ _ _ hpost]
      simp only [List.nil_append]
      congr 1
      apply List.filter_congr
      intro i hi
      have hi1 : i ∈ a.rules := hi
      rw [hrule i hi1]
    dsimp only
    rw [hclass]
    dsimp only
    have hgen : ∀ ag : Agent, Agent.generalizeAll cfg depth [] (ag, rnd) = some (ag, rnd) :=
      fun _ => rfl
    rcases hcase with h | h | h
    · obtain ⟨hauth, _, ⟨i, hi, hne⟩, _⟩ := h
      have hmem : i ∈ a.rules.filter (fun it => decide (((ruleAt a.heap it).prematchingSubs
          (ActionRule.ofTrace trace true) Substitution.empty).length > 0)) := by
        rw [List.mem_filter]
        refine ⟨hi, ?_⟩
        simp only [decide_eq_true_eq]
        exact List.length_pos.mpr hne
      have hlen : 0 < (a.rules.filter (fun it => decide (((ruleAt a.heap it).prematchingSubs
          (ActionRule.ofTrace trace true) Substitution.empty).length > 0))).length :=
        List.length_pos_of_mem hmem
      have hlen0 : ((a.rules.filter (fun it => decide (((ruleAt a.heap it).prematchingSubs
          (ActionRule.ofTrace trace true) Substitution.empty).length > 0))).length == 0) =
          false := by
        rw [beq_eq_false_iff_ne]
        omega
      simp only [hauth, hlen0, Bool.false_and, Bool.false_eq_true, if_false, Bool.not_true,
        Bool.and_false, List.length_nil, gt_iff_lt, lt_self_iff_false, hgen,
        Option.map_some']
      exact ⟨_, rfl, rfl, rfl, rfl, fun i hi => ruleAt_append_left _ _ i hi⟩
    · obtain ⟨hauth, hnone⟩ := h
      have hfil : a.rules.filter (fun it => decide (((ruleAt a.heap it).prematchingSubs
          (ActionRule.ofTrace trace true) Substitution.empty).length > 0)) = [] := by
        rw [List.filter_eq_nil_iff]
        intro i hi
        simp [hnone i hi]
      simp only [hfil, hauth, Bool.and_false, Bool.false_eq_true, if_false, List.length_nil,
        gt_iff_lt, lt_self_iff_false, decide_False, Bool.false_and, hgen, Option.map_some']
      exact ⟨_, rfl, rfl, rfl, rfl, fun i hi => ruleAt_append_left _ _ i hi⟩
    · exact absurd h hdel

/-- C40 (witness): case (a) on the agent whose only rule is the example of the trace
`traceMove`, to which the same trace is given again. -/
theorem C40_updateKnowledge_unchanged_witness :
    traceMove.authorized = true ∧ (ActionRule.ofTrace traceMove true).wellFormed = true ∧
    (ruleAt agentMove.heap 0).prematchingSubs (ActionRule.ofTrace traceMove true)
      Substitution.empty ≠ [] ∧
    ∃ a1, agentMove.updateKnowledge ⟨1, false, false⟩ ⟨"delete", 1⟩ 2 traceMove [] =
        some (false, a1, []) ∧
      a1.rules = agentMove.rules ∧ a1.counterExamples = agentMove.counterExamples ∧
      a1.failedActionsCounterExamples = agentMove.failedActionsCounterExamples ∧
      ∀ i, i < agentMove.heap.length → ruleAt a1.heap i = ruleAt agentMove.heap i := by
  have h1 : (ActionRule.ofTrace traceMove true).wellFormed = true := by decide
  have h2 : (ruleAt agentMove.heap 0).prematchingSubs (ActionRule.ofTrace traceMove true)
      Substitution.empty ≠ [] := by decide
  have h3 : ∀ i ∈ agentMove.rules, ∀ s ∈ (ruleAt agentMove.heap i).prematchingSubs
      (ActionRule.ofTrace traceMove true) Substitution.empty,
      (ruleAt agentMove.heap i).postmatches (ActionRule.ofTrace traceMove true) s = true := by
    decide
  exact ⟨rfl, h1, h2,
    C40_updateKnowledge_unchanged agentMove ⟨1, false, false⟩ ⟨"delete", 1⟩ 2 traceMove []
      (by decide) (Or.inl ⟨rfl, h1, ⟨0, by decide, h2⟩, h3⟩)⟩

/-! ## The example rule of a trace: effects and preconditions -/

/-- On a set of preconditions, the filtering constructor keeps the preconditions all of
whose parameters are linked to a term of `vars`, in their order. -/
theorem filterPreconditions_sorted (inPreconditions : List Literal) (actionLiteral : Literal)
    (add del : List Literal)
    (hs : inPreconditions.Pairwise (fun a b => Literal.lt a b = true)) :
    filterPreconditions inPreconditions actionLiteral add del =
      inPreconditions.filter (fun precond => precond.parameters.all (fun param =>
        linked (buildLinks inPreconditions) param (filterVars actionLiteral add del))) := by
  unfold filterPreconditions
  dsimp only
  refine (foldl_filter_map_setInsert Literal.lt (fun precond =>
    precond.parameters.all (fun param =>
      linked (buildLinks inPreconditions) param (filterVars actionLiteral add del))) id
    inPreconditions []).trans ?_
  rw [List.map_id, foldl_setInsert_sorted Literal.lt literal_lt_asymm _ []
    (List.Pairwise.sublist (List.filter_sublist _) hs) (fun _ hy => by cases hy)]
  rfl

theorem hasName_filterVars (actionLiteral : Literal) (add del : List Literal) (n : String) :
    hasName (filterVars actionLiteral add del) n ↔
      hasName (add.flatMap (fun l => l.parameters)) n ∨
      hasName (del.flatMap (fun l => l.parameters)) n ∨
      hasName actionLiteral.parameters n := by
  unfold filterVars setUnion
  rw [hasName_foldl_setInsert, hasName_foldl_lits, hasName_foldl_lits]
  have h0 : ¬ hasName ([] : List Term) n := fun ⟨_, hy, _⟩ => by cases hy
  constructor
  · rintro (((h | h) | h) | h)
    · exact absurd h h0
    · exact Or.inl h
    · exact Or.inr (Or.inl h)
    · exact Or.inr (Or.inr h)
  · rintro (h | h | h)
    · exact Or.inl (Or.inl (Or.inr h))
    · exact Or.inl (Or.inr h)
    · exact Or.inr h

theorem inList_filterVars_del (actionLiteral : Literal) (add del : List Literal)
    (d : Literal) (hd : d ∈ del) (p : Term) (hp : p ∈ d.parameters) :
    inList Term.eq (filterVars actionLiteral add del) p = true := by
  have h : hasName (filterVars actionLiteral add del) p.name :=
    (hasName_filterVars actionLiteral add del p.name).mpr
      (Or.inr (Or.inl ⟨p, List.mem_flatMap.mpr ⟨d, hd, hp⟩, rfl⟩))
  obtain ⟨y, hy, hn⟩ := h
  unfold inList
  rw [List.any_eq_true]
  exact ⟨y, hy, Term.eq_of_name y p hn⟩

/-- C38: for a trace whose states are sets of facts, those of the first state being
positive with as many parameters as the arity of their predicate, the rule built from the
trace, with or without filtering, passes the first two tests of `wellFormed`: the negation
of every delete effect is among its preconditions, and no add effect is. -/
theorem C38_ofTrace_effects_in_preconditions (t : Trace) (filter : Bool)
    (hs : t.state.Pairwise (fun a b => Literal.lt a b = true))
    (hn : t.newState.Pairwise (fun a b => Literal.lt a b = true))
    (hpos : ∀ f ∈ t.state, f.positive = true)
    (hwf : ∀ f ∈ t.state, f.parameters.length = f.pred.arity) :
    (ActionRule.ofTrace t filter).del.any
      (fun d => !inList Literal.eq (ActionRule.ofTrace t filter).preconditions d.neg) = false ∧
    (ActionRule.ofTrace t filter).add.any
      (fun a => inList Literal.eq (ActionRule.ofTrace t filter).preconditions a) = false := by
  obtain ⟨hadd, hdel⟩ := stateDifference_sorted t.state t.newState hs hn hpos
  have hpre : toSet Literal.lt t.state = t.state :=
    toSet_of_sorted Literal.lt literal_lt_asymm t.state hs
  have hrule : (ActionRule.ofTrace t filter).preconditions =
      (if filter then filterPreconditions t.state t.instAct
        (stateDifference t.state t.newState).1 (stateDifference t.state t.newState).2
      else t.state) ∧
      (ActionRule.ofTrace t filter).add = (stateDifference t.state t.newState).1 ∧
      (ActionRule.ofTrace t filter).del = (stateDifference t.state t.newState).2 := by
    unfold ActionRule.ofTrace ActionRule.make
    dsimp only
    rw [hpre]
    exact ⟨rfl, rfl, rfl⟩
  have hsub : ∀ f ∈ (ActionRule.ofTrace t filter).preconditions, f ∈ t.state := by
    intro f hf
    rw [hrule.1] at hf
    cases filter with
    | false => exact hf
    | true =>
      simp only [if_true] at hf
      rw [filterPreconditions_sorted _ _ _ _ hs] at hf
      exact (List.mem_filter.mp hf).1
  constructor
  · rw [List.any_eq_false]
    intro d hd
    have hd0 := hd
    rw [hrule.2.2, hdel, List.mem_map] at hd
    obtain ⟨f, hf, hfd⟩ := hd
    have hfs := (List.mem_filter.mp hf).1
    have hneg : d.neg = f := by
      rw [← hfd]
      cases f
      simp only [Literal.neg]
      simp
    have hmem : f ∈ (ActionRule.ofTrace t filter).preconditions := by
      rw [hrule.1]
      cases filter with
      | false => exact hfs
      | true =>
        simp only [if_true]
        rw [filterPreconditions_sorted _ _ _ _ hs, List.mem_filter]
        refine ⟨hfs, ?_⟩
        rw [List.all_eq_true]
        intro p hp
        have hin := inList_filterVars_del t.instAct (stateDifference t.state t.newState).1
          (stateDifference t.state t.newState).2 d (hrule.2.2 ▸ hd0) p
          (by rw [← hfd]; exact hp)
        unfold linked
        rw [if_pos hin]
    rw [hneg]
    simp only [Bool.not_eq_true, Bool.not_eq_false', inList, List.any_eq_true]
    exact ⟨f, hmem, literal_eq_self f (hwf f hfs)⟩
  · rw [List.any_eq_false]
    intro a ha
    rw [hrule.2.1, hadd, List.mem_filter] at ha
    intro hcontra
    simp only [inList, List.any_eq_true] at hcontra
    obtain ⟨y, hy, hya⟩ := hcontra
    have hys := hsub y hy
    have hc : stateContains t.state a = true := by
      unfold stateContains
      rw [setContains_iff]
      exact ⟨y, hys, literal_gt_of_eq y a hya (hwf y hys), literal_lt_of_eq y a hya⟩
    rw [hc] at ha
    simp at ha

/-- C38 (witness): the trace of the test `ActionRuleConstruction`, with filtering. -/
theorem C38_ofTrace_effects_in_preconditions_witness :
    traceMove.state.Pairwise (fun a b => Literal.lt a b = true) ∧
    traceMove.newState.Pairwise (fun a b => Literal.lt a b = true) ∧
    (∀ f ∈ traceMove.state, f.positive = true) ∧
    (∀ f ∈ traceMove.state, f.parameters.length = f.pred.arity) ∧
    (ActionRule.ofTrace traceMove true).del.any
      (fun d => !inList Literal.eq (ActionRule.ofTrace traceMove true).preconditions d.neg) =
        false ∧
    (ActionRule.ofTrace traceMove true).add.any
      (fun a => inList Literal.eq (ActionRule.ofTrace traceMove true).preconditions a) =
        false :=
  ⟨by decide, by decide, by decide, by decide,
    C38_ofTrace_effects_in_preconditions traceMove true (by decide) (by decide) (by decide)
      (by decide)⟩

/-! ## The filtering constructor keeps a connected set of preconditions -/

theorem linksHas_iff (links : List (Term × List Term)) (k : Term) :
    linksHas links k = true ↔ ∃ vs, lget links k.name = some vs := by
  unfold linksHas lget
  have hf : (fun (p : Term × List Term) => keyEquiv p.1 k) = (fun p => p.1.name == k.name) := by
    funext p
    by_cases h : p.1.name = k.name
    · simp [(keyEquiv_iff p.1 k).mpr h, h]
    · have : keyEquiv p.1 k = false := by
        cases hk : keyEquiv p.1 k with
        | false => rfl
        | true => exact absurd ((keyEquiv_iff p.1 k).mp hk) h
      simp [this, h]
  rw [hf]
  cases List.find? (fun p => p.1.name == k.name) links <;> simp

theorem buildLinks_inner (a : Term) : ∀ (ps2 : List Term)
    (st : List Term × List (Term × List Term)),
    (ps2.foldl (fun st pit2 =>
      if a.ne pit2 then
        (st.1, linksSet a (setInsert Term.lt pit2 (linksGet st.2 a)) st.2)
      else st) st).2 =
    ps2.foldl (fun links pit2 =>
      if a.ne pit2 then linksSet a (setInsert Term.lt pit2 (linksGet links a)) links
      else links) st.2
  | [], _ => rfl
  | b :: ps2, st => by
    simp only [List.foldl_cons]
    rw [buildLinks_inner a ps2]
    cases a.ne b <;> rfl

theorem buildLinks_middle (ps : List Term) (hps : NoAny ps) :
    ∀ (ps1 : List Term) (K : String → Prop) (E : String → String → Prop)
      (st : List Term × List (Term × List Term)), LinksInv K E st → NoAny ps1 →
      (ps1.foldl (fun st pit1 =>
        ps.foldl (fun st pit2 =>
          if pit1.ne pit2 then
            (st.1, linksSet pit1 (setInsert Term.lt pit2 (linksGet st.2 pit1)) st.2)
          else st)
          (if !inList Term.eq st.1 pit1 then
            (setInsert Term.lt pit1 st.1, linksSet pit1 [] st.2)
          else st)) st).2 =
      ps1.foldl (fun links pit1 =>
        ps.foldl (fun links pit2 =>
          if pit1.ne pit2 then
            linksSet pit1 (setInsert Term.lt pit2 (linksGet links pit1)) links
          else links)
          (if !linksHas links pit1 then linksSet pit1 [] links else links)) st.2
  | [], _, _, _, _, _ => rfl
  | a :: ps1, K, E, st, h, hps1 => by
    have ha : a.isVariable = true → a.name ≠ "ANY" := hps1 a (List.mem_cons_self _ _)
    have hps1t : NoAny ps1 := fun t ht => hps1 t (List.mem_cons_of_mem _ ht)
    have hinit := linksInv_init K E st a h ha
    have hinner := linksInv_inner (fun n => K n ∨ n = a.name) a ha (Or.inr rfl) ps E _ hinit hps
    simp only [List.foldl_cons]
    rw [buildLinks_middle ps hps ps1 _ _ _ hinner hps1t, buildLinks_inner a ps]
    have hcond : inList Term.eq st.1 a = linksHas st.2 a := by
      have h1 : inList Term.eq st.1 a = true ↔ linksHas st.2 a = true := by
        rw [inList_term_iff _ a h.noAnyV ha, linksHas_iff, h.vars_iff, h.keys_iff]
      cases hi : inList Term.eq st.1 a with
      | true => exact (h1.mp hi).symm
      | false =>
        cases hl : linksHas st.2 a with
        | false => rfl
        | true => rw [h1.mpr hl] at hi; cases hi
    have hst : (if !inList Term.eq st.1 a then
        (setInsert Term.lt a st.1, linksSet a [] st.2) else st).2 =
        (if !linksHas st.2 a then linksSet a [] st.2 else st.2) := by
      rw [hcond]
      cases linksHas st.2 a <;> rfl
    rw [hst]

theorem buildLinks_outer : ∀ (fs : List Literal) (K : String → Prop)
    (E : String → String → Prop) (st : List Term × List (Term × List Term)),
    LinksInv K E st → (∀ f ∈ fs, NoAny f.parameters) →
    (fs.foldl (fun st precond =>
      precond.parameters.foldl (fun st pit1 =>
        precond.parameters.foldl (fun st pit2 =>
          if pit1.ne pit2 then
            (st.1, linksSet pit1 (setInsert Term.lt pit2 (linksGet st.2 pit1)) st.2)
          else st)
          (if !inList Term.eq st.1 pit1 then
            (setInsert Term.lt pit1 st.1, linksSet pit1 [] st.2)
          else st)) st) st).2 =
    fs.foldl (fun links precond =>
      precond.parameters.foldl (fun links pit1 =>
        precond.parameters.foldl (fun links pit2 =>
          if pit1.ne pit2 then
            linksSet pit1 (setInsert Term.lt pit2 (linksGet links pit1)) links
          else links)
          (if !linksHas links pit1 then linksSet pit1 [] links else links)) links) st.2
  | [], _, _, _, _, _ => rfl
  | f :: fs, K, E, st, h, hfs => by
    have hf : NoAny f.parameters := hfs f (List.mem_cons_self _ _)
    have hmid := linksInv_middle f.parameters hf f.parameters K E st h hf
    simp only [List.foldl_cons]
    rw [buildLinks_outer fs _ _ _ hmid (fun g hg => hfs g (List.mem_cons_of_mem _ hg)),
      buildLinks_middle f.parameters hf f.parameters K E st h hf]

/-- The map `links` of the filtering constructors is the map `links` of `wellFormed`. -/
theorem buildLinks_eq (pre : List Literal) (hpre : ∀ f ∈ pre, NoAny f.parameters) :
    buildLinks pre = (wellFormedLinks pre).2 := by
  have h0 : LinksInv (fun _ => False) (fun _ _ => False)
      (([], []) : List Term × List (Term × List Term)) := by
    refine ⟨?_, ?_, ?_, (fun y hy => by cases hy), (fun e he => by cases he)⟩
    · intro n
      exact ⟨(fun ⟨y, hy, _⟩ => by cases hy), False.elim⟩
    · intro n
      exact ⟨(fun ⟨vs, hvs⟩ => by simp [lget] at hvs), False.elim⟩
    · intro u w
      exact ⟨(fun ⟨vs, hvs, _⟩ => by simp [lget] at hvs), False.elim⟩
  unfold buildLinks wellFormedLinks
  exact (buildLinks_outer pre _ _ _ h0 hpre).symm

/-- The function `linked` on the map of co-occurrence of `pre` decides the connection in
the graph of co-occurrence. -/
theorem linked_wellFormedLinks (pre : List Literal) (targets : List Term) (p : Term)
    (hpre : ∀ f ∈ pre, NoAny f.parameters) (ht : NoAny targets)
    (hp : p.isVariable = true → p.name ≠ "ANY") :
    linked (wellFormedLinks pre).2 p targets = true ↔ LinkedIn pre targets p := by
  have hspec := wellFormedLinks_spec pre hpre
  rw [linked_iff _ _ p hspec.noAnyL ht hp]
  unfold LinkedIn
  constructor
  · rintro ⟨n, hr, hn⟩
    exact ⟨n, (rtg_links_iff _ _ hspec.edges_iff _ _).mp hr, hn⟩
  · rintro ⟨n, hr, hn⟩
    exact ⟨n, (rtg_links_iff _ _ hspec.edges_iff _ _).mpr hr, hn⟩

theorem linkedIn_congr_targets (pre : List Literal) (t1 t2 : List Term) (p : Term)
    (h : ∀ n, hasName t1 n ↔ hasName t2 n) : LinkedIn pre t1 p ↔ LinkedIn pre t2 p := by
  unfold LinkedIn
  constructor
  · rintro ⟨n, hr, hn⟩
    exact ⟨n, hr, (h n).mp hn⟩
  · rintro ⟨n, hr, hn⟩
    exact ⟨n, hr, (h n).mpr hn⟩

theorem hasName_linkTargetOf (r : ActionRule) (n : String) :
    hasName (linkTargetOf r) n ↔ hasName r.effectTerms n := by
  unfold linkTargetOf ActionRule.effectTerms toSet setUnion
  dsimp only
  rw [hasName_foldl_lits, hasName_foldl_lits, hasName_foldl_setInsert, hasName_append,
    hasName_append]
  constructor
  · rintro (((⟨y, hy, _⟩ | h) | h) | h)
    · cases hy
    · exact Or.inl h
    · exact Or.inr (Or.inl h)
    · exact Or.inr (Or.inr h)
  · rintro (h | h | h)
    · exact Or.inl (Or.inl (Or.inr h))
    · exact Or.inl (Or.inr h)
    · exact Or.inr h

theorem mem_linkTargetOf (r : ActionRule) (y : Term) (hy : y ∈ linkTargetOf r) :
    y ∈ r.effectTerms := by
  unfold linkTargetOf toSet setUnion at hy
  dsimp only at hy
  unfold ActionRule.effectTerms
  rcases mem_foldl_lits _ _ y hy with hy | hy
  · rcases mem_foldl_lits _ _ y hy with hy | hy
    · rcases mem_foldl_setInsert _ _ y hy with hy | hy
      · cases hy
      · exact List.mem_append_left _ hy
    · exact List.mem_append_right _ (List.mem_append_left _ hy)
  · exact List.mem_append_right _ (List.mem_append_right _ hy)

theorem mem_filterVars (actionLiteral : Literal) (add del : List Literal) (y : Term)
    (hy : y ∈ filterVars actionLiteral add del) :
    y ∈ actionLiteral.parameters ++ (del.flatMap (fun l => l.parameters) ++
      add.flatMap (fun l => l.parameters)) := by
  unfold filterVars setUnion at hy
  rcases mem_foldl_setInsert _ _ y hy with hy | hy
  · rcases mem_foldl_lits _ _ y hy with hy | hy
    · rcases mem_foldl_lits _ _ y hy with hy | hy
      · cases hy
      · exact List.mem_append_right _ (List.mem_append_right _ hy)
    · exact List.mem_append_right _ (List.mem_append_left _ hy)
  · exact List.mem_append_left _ hy

/-- The preconditions kept by the filtering constructor, in terms of the graph of
co-occurrence of the input preconditions. -/
theorem mem_filterPreconditions (inPreconditions : List Literal) (actionLiteral : Literal)
    (add del : List Literal)
    (hs : inPreconditions.Pairwise (fun a b => Literal.lt a b = true))
    (hany : ∀ t ∈ inPreconditions.flatMap (fun l => l.parameters) ++
      (actionLiteral.parameters ++ (del.flatMap (fun l => l.parameters) ++
        add.flatMap (fun l => l.parameters))), t.isVariable = true → t.name ≠ "ANY")
    (f : Literal) :
    f ∈ filterPreconditions inPreconditions actionLiteral add del ↔
      f ∈ inPreconditions ∧ ∀ p ∈ f.parameters,
        LinkedIn inPreconditions (actionLiteral.parameters ++
          (del.flatMap (fun l => l.parameters) ++ add.flatMap (fun l => l.parameters))) p := by
  have hpre : ∀ g ∈ inPreconditions, NoAny g.parameters := by
    intro g hg t ht
    exact hany t (List.mem_append_left _ (List.mem_flatMap.mpr ⟨g, hg, ht⟩))
  have hvars : NoAny (filterVars actionLiteral add del) := by
    intro y hy
    exact hany y (List.mem_append_right _ (mem_filterVars actionLiteral add del y hy))
  have htargets : ∀ n, hasName (filterVars actionLiteral add del) n ↔
      hasName (actionLiteral.parameters ++ (del.flatMap (fun l => l.parameters) ++
        add.flatMap (fun l => l.parameters))) n := by
    intro n
    rw [hasName_filterVars, hasName_append, hasName_append]
    tauto
  rw [filterPreconditions_sorted _ _ _ _ hs, List.mem_filter, List.all_eq_true]
  constructor
  · rintro ⟨hf, hall⟩
    refine ⟨hf, fun p hp => ?_⟩
    have := hall p hp
    rw [buildLinks_eq _ hpre, linked_wellFormedLinks _ _ p hpre hvars (hpre f hf p hp)] at this
    exact (linkedIn_congr_targets _ _ _ p htargets).mp this
  · rintro ⟨hf, hall⟩
    refine ⟨hf, fun p hp => ?_⟩
    rw [buildLinks_eq _ hpre, linked_wellFormedLinks _ _ p hpre hvars (hpre f hf p hp)]
    exact (linkedIn_congr_targets _ _ _ p htargets).mpr (hall p hp)

/-- A path of co-occurrence that reaches a target only goes through literals all of whose
parameters are linked to a target. -/
theorem rtg_kept (pre kept : List Literal) (targets : List Term)
    (hkept : ∀ g ∈ pre, (∀ q ∈ g.parameters, LinkedIn pre targets q) → g ∈ kept)
    (u n : String) (h : Relation.ReflTransGen (CoOccur pre) u n) (hn : hasName targets n) :
    Relation.ReflTransGen (CoOccur kept) u n := by
  induction h using Relation.ReflTransGen.head_induction_on with
  | refl => exact Relation.ReflTransGen.refl
  | head hab hbc ih =>
    rename_i a b
    obtain ⟨g, hg, hga, hgb⟩ := hab
    have hgk : g ∈ kept := by
      apply hkept g hg
      intro q hq
      exact ⟨n, Relation.ReflTransGen.head ⟨g, hg, ⟨q, hq, rfl⟩, hgb⟩ hbc, hn⟩
    exact Relation.ReflTransGen.head ⟨g, hgk, hga, hgb⟩ ih

/-- C37 (counterexample): from the single precondition `p(ANY)`, whose parameter is the
wildcard variable, and the action literal `act(X)` without effects, the filtering
constructor keeps `p(ANY)`: the test `in(dst, src)` of `linked` compares with
`Term::operator==`, for which the wildcard equals the variable `X`. Yet `ANY` occurs with
no other term in a precondition and is no parameter of the action literal or of an
effect, so it is not linked to such a parameter in the graph of co-occurrence. -/
theorem C37_counterexample :
    (ActionRule.make [mkLit "p" [anyVar]] (mkLit "act" [mkVar "X"]) [] [] []
      true).preconditions = [mkLit "p" [anyVar]] ∧
    ¬ LinkedIn [mkLit "p" [anyVar]]
      ((mkLit "act" [mkVar "X"]).parameters ++
        (([] : List Literal).flatMap (fun l => l.parameters) ++
          ([] : List Literal).flatMap (fun l => l.parameters))) anyVar := by
  refine ⟨by decide, ?_⟩
  rintro ⟨n, hr, y, hy, hyn⟩
  have hall : n = "ANY" := by
    clear hy hyn
    induction hr with
    | refl => rfl
    | tail _ hbc ih =>
      subst ih
      obtain ⟨f, hf, _, z, hz, hzn⟩ := hbc
      simp only [List.mem_singleton] at hf
      subst hf
      simp only [mkLit, List.mem_singleton] at hz
      rw [← hzn, hz]
      rfl
  subst hall
  simp only [mkLit, mkVar, List.flatMap_nil, List.append_nil, List.mem_singleton] at hy
  rw [hy] at hyn
  exact absurd hyn (by decide)

/-- C37 (amended): the filtering constructor, on a set of preconditions and with no
variable named `ANY`, keeps exactly the preconditions all of whose parameters are connected,
in the graph of co-occurrence of the input preconditions, to a parameter of the action
literal or of an effect; every parameter of a kept precondition is still connected to such a parameter in
the graph of co-occurrence of the kept preconditions alone; and the connectivity test of
`wellFormed` succeeds on the rule. -/
theorem C37_filter_keeps_linked (inPreconditions : List Literal) (actionLiteral : Literal)
    (add del : List Literal) (parents : List Nat)
    (hs : inPreconditions.Pairwise (fun a b => Literal.lt a b = true))
    (hany : ∀ t ∈ inPreconditions.flatMap (fun l => l.parameters) ++
      (actionLiteral.parameters ++ (del.flatMap (fun l => l.parameters) ++
        add.flatMap (fun l => l.parameters))), t.isVariable = true → t.name ≠ "ANY") :
    (∀ f, f ∈ (ActionRule.make inPreconditions actionLiteral add del parents
        true).preconditions ↔
      f ∈ inPreconditions ∧ ∀ p ∈ f.parameters,
        LinkedIn inPreconditions (actionLiteral.parameters ++
          (del.flatMap (fun l => l.parameters) ++ add.flatMap (fun l => l.parameters))) p) ∧
    (∀ f ∈ (ActionRule.make inPreconditions actionLiteral add del parents
        true).preconditions, ∀ p ∈ f.parameters,
      LinkedTo (ActionRule.make inPreconditions actionLiteral add del parents true) p) ∧
    (wellFormedLinks (ActionRule.make inPreconditions actionLiteral add del parents
        true).preconditions).1.all (fun v =>
      linked (wellFormedLinks (ActionRule.make inPreconditions actionLiteral add del parents
        true).preconditions).2 v
        (linkTargetOf (ActionRule.make inPreconditions actionLiteral add del parents
          true))) = true := by
  have hmem := mem_filterPreconditions inPreconditions actionLiteral add del hs hany
  have hpre : (ActionRule.make inPreconditions actionLiteral add del parents
      true).preconditions = filterPreconditions inPreconditions actionLiteral add del := by
    simp [ActionRule.make]
  have heff : (ActionRule.make inPreconditions actionLiteral add del parents
      true).effectTerms = actionLiteral.parameters ++
        (del.flatMap (fun l => l.parameters) ++ add.flatMap (fun l => l.parameters)) := by
    simp [ActionRule.make, ActionRule.effectTerms]
  have hlinked : ∀ f ∈ (ActionRule.make inPreconditions actionLiteral add del parents
      true).preconditions, ∀ p ∈ f.parameters,
      LinkedTo (ActionRule.make inPreconditions actionLiteral add del parents true) p := by
    intro f hf p hp
    rw [hpre] at hf
    obtain ⟨n, hr, hn⟩ := ((hmem f).mp hf).2 p hp
    unfold LinkedTo
    rw [heff, hpre]
    exact ⟨n, rtg_kept inPreconditions _ _ (fun g hg hall => (hmem g).mpr ⟨hg, hall⟩)
      p.name n hr hn, hn⟩
  refine ⟨fun f => by rw [hpre]; exact hmem f, hlinked, ?_⟩
  have hkeptAny : ∀ g ∈ (ActionRule.make inPreconditions actionLiteral add del parents
      true).preconditions, NoAny g.parameters := by
    intro g hg t ht
    rw [hpre] at hg
    exact hany t (List.mem_append_left _
      (List.mem_flatMap.mpr ⟨g, ((hmem g).mp hg).1, ht⟩))
  have htargetAny : NoAny (linkTargetOf (ActionRule.make inPreconditions actionLiteral add
      del parents true)) := by
    intro y hy
    have := mem_linkTargetOf _ y hy
    rw [heff] at this
    exact hany y (List.mem_append_right _ this)
  have hspec := wellFormedLinks_spec _ hkeptAny
  rw [List.all_eq_true]
  intro v hv
  obtain ⟨f, hf, p, hp, hpn⟩ := (hspec.vars_iff v.name).mp ⟨v, hv, rfl⟩
  rw [linked_wellFormedLinks _ _ v hkeptAny htargetAny (hspec.noAnyV v hv)]
  obtain ⟨n, hr, hn⟩ := hlinked f hf p hp
  exact ⟨n, hpn ▸ hr, (hasName_linkTargetOf _ n).mpr hn⟩

/-- C37 (witness): of the preconditions `block(W)`, `clear(Y)`, `on(X, Z)`, the filtering
constructor keeps the last two for the action `move(X, Y)` with the effects `on(X, Y)` and
`-on(X, Z)`. -/
theorem C37_filter_keeps_linked_witness :
    preUnlinked.Pairwise (fun a b => Literal.lt a b = true) ∧
    (ActionRule.make preUnlinked (mkLit "move" [mkVar "X", mkVar "Y"])
      [mkLit "on" [mkVar "X", mkVar "Y"]] [(mkLit "on" [mkVar "X", mkVar "Z"]).neg] []
      true).preconditions =
      [mkLit "clear" [mkVar "Y"], mkLit "on" [mkVar "X", mkVar "Z"]] ∧
    (wellFormedLinks (ActionRule.make preUnlinked (mkLit "move" [mkVar "X", mkVar "Y"])
      [mkLit "on" [mkVar "X", mkVar "Y"]] [(mkLit "on" [mkVar "X", mkVar "Z"]).neg] []
      true).preconditions).1.all (fun v =>
      linked (wellFormedLinks (ActionRule.make preUnlinked
        (mkLit "move" [mkVar "X", mkVar "Y"]) [mkLit "on" [mkVar "X", mkVar "Y"]]
        [(mkLit "on" [mkVar "X", mkVar "Z"]).neg] [] true).preconditions).2 v
        (linkTargetOf (ActionRule.make preUnlinked (mkLit "move" [mkVar "X", mkVar "Y"])
          [mkLit "on" [mkVar "X", mkVar "Y"]] [(mkLit "on" [mkVar "X", mkVar "Z"]).neg] []
          true))) = true :=
  ⟨by decide, by decide,
    (C37_filter_keeps_linked preUnlinked (mkLit "move" [mkVar "X", mkVar "Y"])
      [mkLit "on" [mkVar "X", mkVar "Y"]] [(mkLit "on" [mkVar "X", mkVar "Z"]).neg] []
      (by decide) (by decide)).2.2⟩

/-! ## Unification of an action schema with a state (`State::unifyAction`) -/

theorem paramsLt_of_names : ∀ (n : Nat) (as bs : List Term),
    List.Forall₂ (fun a b => a.name = b.name) as bs → paramsLt n as bs = false
  | 0, _, _, _ => rfl
  | _ + 1, _, _, List.Forall₂.nil => rfl
  | n + 1, _, _, List.Forall₂.cons hab h => by
    simp only [paramsLt, Term.ne, Term.eq_of_name _ _ hab, Bool.not_true, Bool.false_eq_true,
      if_false]
    exact paramsLt_of_names n _ _ h

/-- A literal with the polarity, the predicate name and the parameter names of a fact of
the state is contained in the state. -/
theorem stateContains_of_names (state : List Literal) (l f : Literal) (hf : f ∈ state)
    (hpos : l.positive = f.positive) (hpred : f.pred.eq l.pred = true)
    (hpar : List.Forall₂ (fun a b => a.name = b.name) l.parameters f.parameters) :
    stateContains state l = true := by
  unfold stateContains
  rw [setContains_iff]
  have hpred2 : l.pred.eq f.pred = true := by
    unfold Predicate.eq at hpred ⊢
    rw [beq_iff_eq] at hpred ⊢
    exact hpred.symm
  have hflip : List.Forall₂ (fun a b => a.name = b.name) f.parameters l.parameters :=
    hpar.flip.imp (fun _ _ h => h.symm)
  refine ⟨f, hf, ?_, ?_⟩
  · unfold Literal.lt
    rw [hpos, hpred2, paramsLt_of_names _ _ _ hpar]
    cases f.positive <;> simp
  · unfold Literal.lt
    rw [hpos, hpred, paramsLt_of_names _ _ _ hflip]
    cases f.positive <;> simp

/-- The loop of `unifyAction` over the positions: started on variables that are unbound
and pairwise distinct by name, against constants, it extends the substitution by the
binding of every variable to the constant at its position. -/
theorem bindParams_spec : ∀ (sp fs : List Term) (cur new : Substitution),
    bindParams sp fs cur = some new → OiInv cur → sp.length = fs.length →
    (∀ c ∈ fs, c.isVariable = false) →
    (∀ v ∈ sp, v.isVariable = true → nget cur.mapping v.name = none) →
    sp.Pairwise (fun a b => a.isVariable = true → b.isVariable = true → a.name ≠ b.name) →
    OiInv new ∧ Ext cur new ∧
    (∀ n, nget new.mapping n ≠ none → nget cur.mapping n ≠ none ∨
      ∃ v ∈ sp, v.isVariable = true ∧ v.name = n) ∧
    List.Forall₂ (fun s c => s.isVariable = true → nget new.mapping s.name = some c) sp fs
  | [], [], cur, new, h, hinv, _, _, _, _ => by
    simp only [bindParams, Option.some.injEq] at h
    subst h
    exact ⟨hinv, fun _ _ h => h, fun _ h => Or.inl h, List.Forall₂.nil⟩
  | [], _ :: _, _, _, _, _, hl, _, _, _ => by simp at hl
  | _ :: _, [], _, _, _, _, hl, _, _, _ => by simp at hl
  | s :: sp, c :: fs, cur, new, h, hinv, hl, hg, hun, hpw => by
    have hl1 : sp.length = fs.length := by simpa using hl
    have hg1 : ∀ c1 ∈ fs, c1.isVariable = false := fun c1 h1 => hg c1 (List.mem_cons_of_mem _ h1)
    rw [List.pairwise_cons] at hpw
    simp only [bindParams] at h
    by_cases hs : s.isVariable = true
    · rw [if_pos hs] at h
      by_cases hinvs : (cur.getInverse c).isSome = true
      · rw [if_pos hinvs] at h
        cases h
      · rw [if_neg hinvs] at h
        have hfree : (cur.getInverse c).isSome = false := by simpa using hinvs
        have hget : nget cur.mapping s.name = none := hun s (List.mem_cons_self _ _) hs
        have hset : OiInv (cur.set s c) :=
          oiInv_set cur s c hinv (hg c (List.mem_cons_self _ _)) hget hfree
        have hun1 : ∀ v ∈ sp, v.isVariable = true → nget (cur.set s c).mapping v.name = none := by
          intro v hv hvv
          simp only [Substitution.set]
          rw [nget_mapSet, if_neg (hpw.1 v hv hs hvv)]
          exact hun v (List.mem_cons_of_mem _ hv) hvv
        obtain ⟨h1, h2, h3, h4⟩ := bindParams_spec sp fs _ new h hset hl1 hg1 hun1 hpw.2
        have hsc : nget (cur.set s c).mapping s.name = some c := by
          simp only [Substitution.set]
          rw [nget_mapSet, if_pos rfl]
        refine ⟨h1, ?_, ?_, List.Forall₂.cons (fun _ => h2 _ _ hsc) h4⟩
        · intro n v hnv
          apply h2
          simp only [Substitution.set]
          rw [nget_mapSet]
          by_cases hn : s.name = n
          · rw [← hn, hget] at hnv
            cases hnv
          · rw [if_neg hn]
            exact hnv
        · intro n hn
          rcases h3 n hn with h5 | ⟨v, hv, hvv, hvn⟩
          · simp only [Substitution.set] at h5
            rw [nget_mapSet] at h5
            by_cases hsn : s.name = n
            · exact Or.inr ⟨s, List.mem_cons_self _ _, hs, hsn⟩
            · rw [if_neg hsn] at h5
              exact Or.inl h5
          · exact Or.inr ⟨v, List.mem_cons_of_mem _ hv, hvv, hvn⟩
    · rw [if_neg hs] at h
      obtain ⟨h1, h2, h3, h4⟩ := bindParams_spec sp fs cur new h hinv hl1 hg1
        (fun v hv => hun v (List.mem_cons_of_mem _ hv)) hpw.2
      refine ⟨h1, h2, ?_, List.Forall₂.cons (fun hv => absurd hv hs) h4⟩
      intro n hn
      rcases h3 n hn with h5 | ⟨v, hv, hvv, hvn⟩
      · exact Or.inl h5
      · exact Or.inr ⟨v, List.mem_cons_of_mem _ hv, hvv, hvn⟩

theorem forall₂_and {α β : Type} {R S : α → β → Prop} : ∀ {l1 : List α} {l2 : List β},
    List.Forall₂ R l1 l2 → List.Forall₂ S l1 l2 → List.Forall₂ (fun a b => R a b ∧ S a b) l1 l2
  | _, _, List.Forall₂.nil, _ => List.Forall₂.nil
  | _, _, List.Forall₂.cons h1 h2, List.Forall₂.cons h3 h4 =>
    List.Forall₂.cons ⟨h1, h3⟩ (forall₂_and h2 h4)

/-- One binding round of `unifyAction` for the true precondition `q` and a fact that
`query` returns keeps the invariant. -/
theorem unifyAction_bind_inv (state done : List Literal) (q f : Literal)
    (sub new : Substitution) (hI : UnifyInv state done sub)
    (hf : f ∈ query state (sub.apply q))
    (hground : ∀ g ∈ state, g.grounded = true)
    (hb : bindParams (sub.apply q).parameters f.parameters sub = some new)
    (hrep : q.parameters.Pairwise
      (fun a b => a.isVariable = true → b.isVariable = true → a.name ≠ b.name))
    (hyg : ∀ v ∈ litTerms (done ++ [q]), v.isVariable = true →
      ∀ c ∈ litTerms (done ++ [q]), c.isVariable = false → v.name ≠ c.name) :
    UnifyInv state (done ++ [q]) new := by
  obtain ⟨hfs, hpred, hlen, hcorr⟩ := mem_query state (sub.apply q) f hf
  have hqmem : ∀ t ∈ q.parameters, t ∈ litTerms (done ++ [q]) := by
    intro t ht
    unfold litTerms
    rw [List.mem_flatMap]
    exact ⟨q, List.mem_append_right _ (List.mem_singleton_self _), ht⟩
  have hdmem : ∀ p ∈ done, ∀ t ∈ p.parameters, t ∈ litTerms (done ++ [q]) := by
    intro p hp t ht
    unfold litTerms
    rw [List.mem_flatMap]
    exact ⟨p, List.mem_append_left _ hp, ht⟩
  have hA : ∀ t : Term, (sub.applyTerm t).isVariable = true →
      sub.applyTerm t = t ∧ nget sub.mapping t.name = none := by
    intro t ht
    cases hn : nget sub.mapping t.name with
    | some v =>
      rw [applyTerm_of_nget_some sub t v hn] at ht
      obtain ⟨k, hk, _⟩ := mem_of_nget _ _ _ hn
      rw [hI.oi.ground (k, v) hk] at ht
      cases ht
    | none => exact ⟨applyTerm_of_nget_none sub t hn, rfl⟩
  have hsp : (sub.apply q).parameters = q.parameters.map sub.applyTerm := rfl
  have hun : ∀ v ∈ (sub.apply q).parameters, v.isVariable = true →
      nget sub.mapping v.name = none := by
    intro v hv hvv
    rw [hsp, List.mem_map] at hv
    obtain ⟨t, _, htv⟩ := hv
    subst htv
    have := hA t hvv
    rw [this.1]
    exact this.2
  have hpw : (sub.apply q).parameters.Pairwise
      (fun a b => a.isVariable = true → b.isVariable = true → a.name ≠ b.name) := by
    rw [hsp, List.pairwise_map]
    refine hrep.imp ?_
    intro a b hab ha hb
    have h1 := hA a ha
    have h2 := hA b hb
    rw [h1.1] at ha ⊢
    rw [h2.1] at hb ⊢
    exact hab ha hb
  have hgf : ∀ c ∈ f.parameters, c.isVariable = false :=
    (grounded_iff f).mp (hground f hfs)
  obtain ⟨hoi, hext, hkeys, hbind⟩ := bindParams_spec _ _ sub new hb hI.oi hlen.symm hgf hun hpw
  have hfresh : ∀ c ∈ litTerms (done ++ [q]), c.isVariable = false →
      nget sub.mapping c.name = none → nget new.mapping c.name = none := by
    intro c hc hcv hcn
    by_contra hne
    rcases hkeys c.name hne with h | ⟨v, hv, hvv, hvn⟩
    · exact h hcn
    · rw [hsp, List.mem_map] at hv
      obtain ⟨t, ht, htv⟩ := hv
      subst htv
      have h1 := hA t hvv
      rw [h1.1] at hvv hvn
      exact hyg t (hqmem t ht) hvv c hc hcv hvn
  have hsame : ∀ t ∈ litTerms (done ++ [q]),
      (t.isVariable = true → nget sub.mapping t.name ≠ none) →
      new.applyTerm t = sub.applyTerm t := by
    intro t ht hbound
    cases hn : nget sub.mapping t.name with
    | some v =>
      rw [applyTerm_of_nget_some sub t v hn, applyTerm_of_nget_some new t v (hext _ _ hn)]
    | none =>
      have htc : t.isVariable = false := by
        cases htv : t.isVariable with
        | false => rfl
        | true => exact absurd hn (hbound htv)
      rw [applyTerm_of_nget_none sub t hn, applyTerm_of_nget_none new t (hfresh t ht htc hn)]
  refine ⟨hoi, ?_, ?_⟩
  · intro v hv hvv
    unfold litTerms at hv
    rw [List.flatMap_append, List.mem_append] at hv
    rcases hv with hv | hv
    · have := hI.bound v hv hvv
      cases hn : nget sub.mapping v.name with
      | none => exact absurd hn this
      | some w =>
        rw [hext _ _ hn]
        simp
    · simp only [List.flatMap_cons, List.flatMap_nil, List.append_nil] at hv
      cases hn : nget sub.mapping v.name with
      | some w =>
        rw [hext _ _ hn]
        simp
      | none =>
        have hvs : sub.applyTerm v ∈ (sub.apply q).parameters := by
          rw [hsp]
          exact List.mem_map_of_mem _ hv
        obtain ⟨c, _, hc⟩ := forall₂_mem_left hbind _ hvs
        rw [applyTerm_of_nget_none sub v hn] at hc
        rw [hc hvv]
        simp
  · intro p hp
    rcases List.mem_append.mp hp with hp | hp
    · obtain ⟨d, hd, hdp, hfa⟩ := hI.image p hp
      refine ⟨d, hd, hdp, ?_⟩
      have hmap : (new.apply p).parameters = (sub.apply p).parameters := by
        show p.parameters.map new.applyTerm = p.parameters.map sub.applyTerm
        apply List.map_congr_left
        intro t ht
        exact hsame t (hdmem p hp t ht) (hI.bound t (List.mem_flatMap.mpr ⟨p, hp, ht⟩))
      rw [hmap]
      exact hfa
    · rw [List.mem_singleton] at hp
      subst hp
      refine ⟨f, hfs, hpred, ?_⟩
      have hq := (queryCorresponds_iff _ _ hlen.symm).mp hcorr
      have hboth := forall₂_and hq hbind
      rw [hsp, List.forall₂_map_left_iff] at hboth
      show List.Forall₂ (fun a b => a.name = b.name) (p.parameters.map new.applyTerm)
        f.parameters
      rw [List.forall₂_map_left_iff]
      refine forall₂_imp_mem hboth ?_
      intro t ht c _ hR
      obtain ⟨hR1, hR2⟩ := hR
      rcases hR1 with ⟨hnv, heq⟩ | ⟨hv, _⟩
      · have hname := (Term.eq_iff_name_left _ c hnv).mp heq
        have : new.applyTerm t = sub.applyTerm t := by
          cases hn : nget sub.mapping t.name with
          | some v =>
            rw [applyTerm_of_nget_some sub t v hn,
              applyTerm_of_nget_some new t v (hext _ _ hn)]
          | none =>
            rw [applyTerm_of_nget_none sub t hn] at hnv
            rw [applyTerm_of_nget_none sub t hn,
              applyTerm_of_nget_none new t (hfresh t (hqmem t ht) hnv hn)]
        rw [this]
        exact hname
      · have h1 := hA t hv
        rw [h1.1] at hR2 hv
        rw [applyTerm_of_nget_some new t c (hR2 hv)]

theorem mem_foldl_option_append {α β : Type} (g : β → Option α)
    (step : List α → β → List α)
    (hsome : ∀ r x y, g x = some y → step r x = r ++ [y])
    (hnone : ∀ r x, g x = none → step r x = r) (t : α) :
    ∀ (l : List β) (acc : List α),
      t ∈ l.foldl step acc ↔ t ∈ acc ∨ ∃ x ∈ l, g x = some t
  | [], acc => by simp
  | x :: l, acc => by
    simp only [List.foldl_cons]
    rw [mem_foldl_option_append g step hsome hnone t l]
    cases hg : g x with
    | none =>
      rw [hnone acc x hg]
      simp [hg]
    | some y =>
      rw [hsome acc x y hg]
      constructor
      · rintro (h | ⟨z, hz, hgz⟩)
        · rcases List.mem_append.mp h with h | h
          · exact Or.inl h
          · rw [List.mem_singleton] at h
            exact Or.inr ⟨x, List.mem_cons_self _ _, by rw [hg, h]⟩
        · exact Or.inr ⟨z, List.mem_cons_of_mem _ hz, hgz⟩
      · rintro (h | ⟨z, hz, hgz⟩)
        · exact Or.inl (List.mem_append_left _ h)
        · rcases List.mem_cons.mp hz with hz | hz
          · subst hz
            rw [hg] at hgz
            left
            rw [Option.some.inj hgz]
            exact List.mem_append_right _ (List.mem_singleton_self _)
          · exact Or.inr ⟨z, hz, hgz⟩

theorem mem_unifyActionStep (state : List Literal) (precond : Literal)
    (allSubs : List Substitution) (new : Substitution)
    (h : new ∈ unifyActionStep state precond allSubs) :
    ∃ sub ∈ allSubs, ∃ f ∈ query state (sub.apply precond),
      bindParams (sub.apply precond).parameters f.parameters sub = some new := by
  unfold unifyActionStep at h
  have key : ∀ (l : List Substitution) (acc : List Substitution),
      new ∈ l.foldl (fun newSubs sub =>
        (query state (sub.apply precond)).foldl (fun newSubs fact =>
          match bindParams (sub.apply precond).parameters fact.parameters sub with
          | some newSub => newSubs ++ [newSub]
          | none => newSubs) newSubs) acc →
      new ∈ acc ∨ ∃ sub ∈ l, ∃ f ∈ query state (sub.apply precond),
        bindParams (sub.apply precond).parameters f.parameters sub = some new := by
    intro l
    induction l with
    | nil => intro acc h; exact Or.inl h
    | cons s l ih =>
      intro acc h
      simp only [List.foldl_cons] at h
      rcases ih _ h with h1 | ⟨sub, hs, f, hf, hb⟩
      · rcases (mem_foldl_option_append
          (fun (fact : Literal) => bindParams (s.apply precond).parameters fact.parameters s)
          _ (fun r x y hxy => by simp only [hxy]) (fun r x hx => by simp only [hx])
          new _ _).mp h1
          with h2 | ⟨f, hf, hb⟩
        · exact Or.inl h2
        · exact Or.inr ⟨s, List.mem_cons_self _ _, f, hf, hb⟩
      · exact Or.inr ⟨sub, List.mem_cons_of_mem _ hs, f, hf, hb⟩
  rcases key allSubs [] h with h | h
  · cases h
  · exact h

theorem unifyAction_fold_inv (state : List Literal)
    (hground : ∀ g ∈ state, g.grounded = true) :
    ∀ (todo done : List Literal) (allSubs : List Substitution),
    (∀ sub ∈ allSubs, UnifyInv state done sub) →
    (∀ q ∈ todo, q.parameters.Pairwise
      (fun a b => a.isVariable = true → b.isVariable = true → a.name ≠ b.name)) →
    (∀ v ∈ litTerms (done ++ todo), v.isVariable = true →
      ∀ c ∈ litTerms (done ++ todo), c.isVariable = false → v.name ≠ c.name) →
    ∀ sub ∈ todo.foldl (fun allSubs precond => unifyActionStep state precond allSubs)
      allSubs, UnifyInv state (done ++ todo) sub
  | [], done, allSubs, h, _, _ => by
    simpa using h
  | q :: todo, done, allSubs, h, hrep, hyg => by
    simp only [List.foldl_cons]
    have hsub : ∀ t ∈ litTerms (done ++ [q]), t ∈ litTerms (done ++ q :: todo) := by
      intro t ht
      unfold litTerms at ht ⊢
      rw [List.mem_flatMap] at ht ⊢
      obtain ⟨p, hp, htp⟩ := ht
      refine ⟨p, ?_, htp⟩
      rcases List.mem_append.mp hp with hp | hp
      · exact List.mem_append_left _ hp
      · rw [List.mem_singleton] at hp
        exact List.mem_append_right _ (hp ▸ List.mem_cons_self _ _)
    have hstep : ∀ sub ∈ unifyActionStep state q allSubs,
        UnifyInv state (done ++ [q]) sub := by
      intro new hnew
      obtain ⟨sub, hs, f, hf, hb⟩ := mem_unifyActionStep state q allSubs new hnew
      exact unifyAction_bind_inv state done q f sub new (h sub hs) hf hground hb
        (hrep q (List.mem_cons_self _ _))
        (fun v hv hvv c hc hcv => hyg v (hsub v hv) hvv c (hsub c hc) hcv)
    have := unifyAction_fold_inv state hground todo (done ++ [q])
      (unifyActionStep state q allSubs) hstep
      (fun p hp => hrep p (List.mem_cons_of_mem _ hp))
      (by simpa using hyg)
    simpa using this

/-- The substitutions of `unifyAction`, for a state of positive ground facts and a schema
whose true preconditions are positive, hold no variable twice and have no variable with
the name of one of their constants: each is injective, maps every true precondition onto a
fact of the state and no false precondition onto a fact of the state. -/
theorem unifyAction_sound (state : List Literal) (action : Action)
    (hground : ∀ g ∈ state, g.grounded = true)
    (hposS : ∀ g ∈ state, g.positive = true)
    (hposP : ∀ p ∈ action.truePrecond, p.positive = true)
    (hrep : ∀ q ∈ action.truePrecond, q.parameters.Pairwise
      (fun a b => a.isVariable = true → b.isVariable = true → a.name ≠ b.name))
    (hyg : ∀ v ∈ litTerms action.truePrecond, v.isVariable = true →
      ∀ c ∈ litTerms action.truePrecond, c.isVariable = false → v.name ≠ c.name)
    (sub : Substitution) (hsub : sub ∈ unifyAction state action) :
    sub.checkInjective = true ∧
    (∀ p ∈ action.truePrecond, stateContains state (sub.apply p) = true) ∧
    (∀ p ∈ action.falsePrecond, stateContains state (sub.apply p) = false) := by
  unfold unifyAction at hsub
  rw [List.mem_filter] at hsub
  obtain ⟨hmem, hfalse⟩ := hsub
  have h0 : ∀ s ∈ [Substitution.empty], UnifyInv state [] s := by
    intro s hs
    rw [List.mem_singleton] at hs
    subst hs
    refine ⟨⟨List.Pairwise.nil, (fun e he => by cases he), (fun e he => by cases he)⟩, ?_, ?_⟩
    · intro v hv
      simp [litTerms] at hv
    · intro p hp
      cases hp
  have hinv := unifyAction_fold_inv state hground action.truePrecond [] _ h0 hrep
    (by simpa using hyg) sub hmem
  rw [List.nil_append] at hinv
  refine ⟨checkInjective_of_oiInv sub hinv.oi, ?_, ?_⟩
  · intro p hp
    obtain ⟨d, hd, hdp, hfa⟩ := hinv.image p hp
    refine stateContains_of_names state _ d hd ?_ hdp hfa
    show p.positive = d.positive
    rw [hposP p hp, hposS d hd]
  · intro p hp
    simp only [Bool.not_eq_true', List.any_eq_false] at hfalse
    have := hfalse p hp
    simpa using this

/-- C34: for a state of positive ground facts and a schema whose true preconditions are
positive, hold no variable twice and have no variable with the name of one of their
constants, every substitution returned by `unifyAction` is injective, maps each true
precondition to a fact of the state and each false precondition to a literal that the
state does not contain. On the schema with the precondition `q(X, X)` and the state
`q(a, b)`, `unifyAction` returns the substitution `X/b`, which maps the precondition to
`q(b, b)`: the second binding of `X` overwrites the first. -/
theorem C34_unifyAction_sound :
    (∀ (state : List Literal) (action : Action),
      (∀ g ∈ state, g.grounded = true) → (∀ g ∈ state, g.positive = true) →
      (∀ p ∈ action.truePrecond, p.positive = true) →
      (∀ q ∈ action.truePrecond, q.parameters.Pairwise
        (fun a b => a.isVariable = true → b.isVariable = true → a.name ≠ b.name)) →
      (∀ v ∈ litTerms action.truePrecond, v.isVariable = true →
        ∀ c ∈ litTerms action.truePrecond, c.isVariable = false → v.name ≠ c.name) →
      ∀ sub ∈ unifyAction state action,
        sub.checkInjective = true ∧
        (∀ p ∈ action.truePrecond, stateContains state (sub.apply p) = true) ∧
        (∀ p ∈ action.falsePrecond, stateContains state (sub.apply p) = false)) ∧
    unifyAction [mkLit "q" [mkConst "a", mkConst "b"]] actRepeat =
      [⟨[(mkVar "X", mkConst "b")], true⟩] ∧
    (⟨[(mkVar "X", mkConst "b")], true⟩ : Substitution).apply
      (mkLit "q" [mkVar "X", mkVar "X"]) = mkLit "q" [mkConst "b", mkConst "b"] ∧
    stateContains [mkLit "q" [mkConst "a", mkConst "b"]]
      (mkLit "q" [mkConst "b", mkConst "b"]) = false := by
  refine ⟨?_, by decide, by decide, by decide⟩
  intro state action hground hposS hposP hrep hyg sub hsub
  exact unifyAction_sound state action hground hposS hposP hrep hyg sub hsub

/-- C34 (witness): the state and the schema of the test `StateOps`, and the substitution
`U/a`, `V/c` that `unifyAction` returns first. -/
theorem C34_unifyAction_sound_witness :
    (∀ g ∈ stateOps, g.grounded = true) ∧ (∀ g ∈ stateOps, g.positive = true) ∧
    (∀ p ∈ actOps.truePrecond, p.positive = true) ∧
    (∀ q ∈ actOps.truePrecond, q.parameters.Pairwise
      (fun a b => a.isVariable = true → b.isVariable = true → a.name ≠ b.name)) ∧
    (∀ v ∈ litTerms actOps.truePrecond, v.isVariable = true →
      ∀ c ∈ litTerms actOps.truePrecond, c.isVariable = false → v.name ≠ c.name) ∧
    (⟨[(mkVar "U", mkConst "a"), (mkVar "V", mkConst "c")], true⟩ : Substitution) ∈
      unifyAction stateOps actOps ∧
    (∀ p ∈ actOps.truePrecond, stateContains stateOps
      ((⟨[(mkVar "U", mkConst "a"), (mkVar "V", mkConst "c")], true⟩ : Substitution).apply p)
        = true) := by
  have h1 : ∀ g ∈ stateOps, g.grounded = true := by decide
  have h2 : ∀ g ∈ stateOps, g.positive = true := by decide
  have h3 : ∀ p ∈ actOps.truePrecond, p.positive = true := by decide
  have h4 : ∀ q ∈ actOps.truePrecond, q.parameters.Pairwise
      (fun a b => a.isVariable = true → b.isVariable = true → a.name ≠ b.name) := by decide
  have h5 : ∀ v ∈ litTerms actOps.truePrecond, v.isVariable = true →
      ∀ c ∈ litTerms actOps.truePrecond, c.isVariable = false → v.name ≠ c.name := by decide
  have h6 : (⟨[(mkVar "U", mkConst "a"), (mkVar "V", mkConst "c")], true⟩ : Substitution) ∈
      unifyAction stateOps actOps := by decide
  exact ⟨h1, h2, h3, h4, h5, h6,
    (C34_unifyAction_sound.1 stateOps actOps h1 h2 h3 h4 h5 _ h6).2.1⟩

/-! ## The reading of literals (`Domain::parseLiteral`) -/

theorem string_data_push (s : String) (c : Char) : (s.push c).data = s.data ++ [c] := by
  cases s
  rfl

theorem string_ne_empty_iff (s : String) : (s != "") = true ↔ s.data ≠ [] := by
  cases s with
  | mk l =>
    rw [bne_iff_ne]
    constructor
    · intro h hl
      apply h
      have hl2 : l = [] := hl
      rw [hl2]
    · intro h hs
      apply h
      have : (String.mk l).data = ("" : String).data := by rw [hs]
      exact this

theorem string_mk_data (s : String) : String.mk s.data = s := by
  cases s
  rfl

theorem pendingWords_nil (w : List Char) :
    pendingWords w [] = if w = [] then [] else [String.mk w] := by
  unfold pendingWords
  cases w with
  | nil => simp [List.splitOnP_nil, List.modifyHead]
  | cons a w => simp [List.splitOnP_nil, List.modifyHead]

theorem modifyHead_filter_nil (l : List (List Char)) :
    (l.modifyHead (fun x => [] ++ x)) = l := by
  cases l <;> simp [List.modifyHead]

theorem pendingWords_sep (w : List Char) (c : Char) (cs : List Char)
    (hc : isSeparator c = true) :
    pendingWords w (c :: cs) =
      if w = [] then pendingWords [] cs else String.mk w :: pendingWords [] cs := by
  unfold pendingWords
  rw [List.splitOnP_cons, if_pos hc, modifyHead_filter_nil]
  cases w with
  | nil => simp [List.modifyHead]
  | cons a w => simp [List.modifyHead]

theorem pendingWords_char (w : List Char) (c : Char) (cs : List Char)
    (hc : isSeparator c = false) :
    pendingWords w (c :: cs) = pendingWords (w ++ [c]) cs := by
  unfold pendingWords
  rw [List.splitOnP_cons, if_neg (by simp [hc])]
  cases h : List.splitOnP (fun c => isSeparator c) cs with
  | nil => simp [List.modifyHead]
  | cons x xs => simp [List.modifyHead]

theorem pendingWords_ne_empty : ∀ (cs w : List Char), ∀ x ∈ pendingWords w cs, x.data ≠ [] := by
  intro cs w x hx
  unfold pendingWords at hx
  rw [List.mem_map] at hx
  obtain ⟨l, hl, hlx⟩ := hx
  rw [List.mem_filter] at hl
  subst hlx
  intro h
  have : l = [] := h
  rw [this] at hl
  simp at hl


theorem parseFlush_empty (d : Domain) (allInsts : List Term) (action : Bool) (st : ParseState)
    (h : st.tmp.data = []) : parseFlush d allInsts action st = some st := by
  unfold parseFlush
  have : ¬ ((st.tmp != "") = true) := by
    rw [string_ne_empty_iff]
    exact fun hn => hn h
  rw [if_neg this]

theorem parseFlush_first_false (d : Domain) (allInsts : List Term) (action : Bool)
    (st st1 : ParseState) (hne : st.tmp.data ≠ [])
    (h : parseFlush d allInsts action st = some st1) :
    st1.first = false ∧ st1.tmp = "" := by
  unfold parseFlush at h
  rw [if_pos ((string_ne_empty_iff _).mpr hne)] at h
  by_cases hf : st.first = true
  · rw [if_pos hf] at h
    cases h
    exact ⟨rfl, rfl⟩
  · rw [if_neg hf] at h
    cases hfind : allInsts.find? (fun it => it.name == st.tmp) with
    | none => simp only [hfind] at h; cases h
    | some inst =>
      simp only [hfind] at h
      cases h
      exact ⟨by simpa using hf, rfl⟩

/-- From a state in which the dash no longer counts as a sign, the loop of `parseLiteral`
reads the words left one after the other. -/
theorem parseLoop_words (d : Domain) (allInsts : List Term) (action : Bool) :
    ∀ (cs : List Char) (st : ParseState), (st.first = true → st.tmp.data ≠ []) →
      parseLoop d allInsts action cs st =
        feedWords d allInsts action (pendingWords st.tmp.data cs)
          ⟨st.pred, st.params, st.positive, st.first, ""⟩ := by
  intro cs
  induction cs with
  | nil =>
    intro st hst
    rw [parseLoop, pendingWords_nil]
    by_cases ht : st.tmp.data = []
    · rw [if_pos ht, feedWords, parseFlush_empty _ _ _ _ ht]
      have : st.tmp = "" := by
        rw [← string_mk_data st.tmp, ht]
      rw [← this]
    · rw [if_neg ht, feedWords, string_mk_data]
      cases parseFlush d allInsts action ⟨st.pred, st.params, st.positive, st.first, st.tmp⟩ with
      | none => rfl
      | some st1 => rfl
  | cons c cs ih =>
    intro st hst
    rw [parseLoop, parseChar]
    by_cases hc : isSeparator c = true
    · rw [if_pos hc, pendingWords_sep _ _ _ hc]
      by_cases ht : st.tmp.data = []
      · rw [if_pos ht, parseFlush_empty _ _ _ _ ht]
        simp only
        rw [ih st hst, ht]
      · rw [if_neg ht, feedWords, string_mk_data]
        have heta : (⟨st.pred, st.params, st.positive, st.first, st.tmp⟩ : ParseState) = st := rfl
        rw [heta]
        cases hfl : parseFlush d allInsts action st with
        | none => rfl
        | some st1 =>
          obtain ⟨h1, h2⟩ := parseFlush_first_false d allInsts action st st1 ht hfl
          simp only
          rw [ih st1 (by rw [h1]; intro h; cases h), h2]
          have : (⟨st1.pred, st1.params, st1.positive, st1.first, ""⟩ : ParseState) = st1 := by
            rw [← h2]
          rw [this]
    · rw [if_neg hc]
      have hc2 : isSeparator c = false := by simpa using hc
      have hdash : ¬ ((c == '-' && st.tmp == "" && st.first) = true) := by
        intro h
        simp only [Bool.and_eq_true, beq_iff_eq] at h
        apply hst h.2
        rw [h.1.2]
      rw [if_neg hdash, pendingWords_char _ _ _ hc2]
      simp only
      rw [ih _ (by intro _; rw [string_data_push]; simp), string_data_push]

/-- The leading separators and dashes of a text only set the sign. -/
theorem parseLoop_leading (d : Domain) (allInsts : List Term) (action : Bool) (pred : Predicate)
    (params : List Term) :
    ∀ (cs : List Char) (positive : Bool),
      parseLoop d allInsts action cs ⟨pred, params, positive, true, ""⟩ =
        feedWords d allInsts action (pendingWords [] (cs.dropWhile isLeading))
          ⟨pred, params, positive && !(cs.takeWhile isLeading).any (fun c => c == '-'),
            true, ""⟩ := by
  intro cs
  induction cs with
  | nil =>
    intro positive
    rw [parseLoop, parseFlush_empty _ _ _ _ rfl]
    simp [pendingWords_nil, feedWords]
  | cons c cs ih =>
    intro positive
    by_cases hc : isSeparator c = true
    · have hl : isLeading c = true := by simp [isLeading, hc]
      rw [parseLoop, parseChar, if_pos hc, parseFlush_empty _ _ _ _ rfl]
      simp only
      rw [ih, List.dropWhile_cons_of_pos hl, List.takeWhile_cons_of_pos hl]
      have hnd : (c == '-') = false := by
        revert hc
        unfold isSeparator
        by_cases h : c = '-'
        · subst h
          decide
        · intro _
          simpa using h
      simp [hnd]
    · have hc2 : isSeparator c = false := by simpa using hc
      by_cases hd : c = '-'
      · have hl : isLeading c = true := by simp [isLeading, hd]
        rw [parseLoop, parseChar, if_neg hc, if_pos (by simp [hd])]
        simp only
        rw [ih, List.dropWhile_cons_of_pos hl, List.takeWhile_cons_of_pos hl]
        simp [hd]
      · have hl : ¬ (isLeading c = true) := by simp [isLeading, hc2, hd]
        rw [List.dropWhile_cons_of_neg hl, List.takeWhile_cons_of_neg hl]
        have hdash : ¬ ((c == '-' && ("" : String) == "" && true) = true) := by simp [hd]
        rw [parseLoop, parseChar, if_neg hc, if_neg hdash]
        simp only
        rw [parseLoop_words d allInsts action cs _ (by intro _; rw [string_data_push]; simp),
          string_data_push, pendingWords_char _ _ _ hc2]
        simp


theorem feedWords_args (d : Domain) (allInsts : List Term) (action : Bool) :
    ∀ (args : List String), (∀ a ∈ args, a.data ≠ []) →
      ∀ (pred : Predicate) (params : List Term) (positive : Bool),
        feedWords d allInsts action args ⟨pred, params, positive, false, ""⟩ =
          if args.all (fun a => (findInst allInsts a).isSome) then
            some ⟨pred, params ++ args.filterMap (findInst allInsts), positive, false, ""⟩
          else none := by
  intro args
  induction args with
  | nil =>
    intro _ pred params positive
    simp [feedWords]
  | cons a args ih =>
    intro hne pred params positive
    have ha : a.data ≠ [] := hne a (List.mem_cons_self _ _)
    rw [feedWords]
    unfold parseFlush
    simp only
    rw [if_pos ((string_ne_empty_iff _).mpr ha), if_neg (by simp)]
    cases hfind : allInsts.find? (fun it => it.name == a) with
    | none =>
      simp only
      rw [if_neg]
      simp [findInst, hfind]
    | some inst =>
      simp only
      rw [ih (fun x hx => hne x (List.mem_cons_of_mem _ hx))]
      have h1 : findInst allInsts a = some inst := hfind
      simp [List.all_cons, h1, List.filterMap_cons]

theorem feedWords_first (d : Domain) (allInsts : List Term) (action : Bool) (n : String)
    (args : List String) (hne : ∀ a ∈ n :: args, a.data ≠ []) (positive : Bool) :
    feedWords d allInsts action (n :: args) ⟨Predicate.default, [], positive, true, ""⟩ =
      if args.all (fun a => (findInst allInsts a).isSome) then
        some ⟨d.lookupPred action n, args.filterMap (findInst allInsts), positive, false, ""⟩
      else none := by
  rw [feedWords]
  unfold parseFlush
  simp only
  rw [if_pos ((string_ne_empty_iff _).mpr (hne n (List.mem_cons_self _ _))), if_pos trivial]
  simp only
  rw [feedWords_args d allInsts action args (fun x hx => hne x (List.mem_cons_of_mem _ hx))]
  simp [Domain.lookupPred]

/-- The result of `parseLiteral` in terms of the words and of the sign of the text. -/
theorem parseLiteral_words (d : Domain) (str : String) (instances : List Term) (action : Bool) :
    d.parseLiteral str instances action =
      match textWords str with
      | [] => ⟨Predicate.default, [], textPositive str⟩
      | n :: args =>
        if args.all (fun a => (findInst (instances ++ d.constants) a).isSome) then
          if (args.filterMap (findInst (instances ++ d.constants))).length
              != (d.lookupPred action n).arity then Literal.default
          else ⟨d.lookupPred action n, args.filterMap (findInst (instances ++ d.constants)),
            textPositive str⟩
        else Literal.default := by
  unfold Domain.parseLiteral
  rw [parseLoop_leading]
  have hne : ∀ a ∈ textWords str, a.data ≠ [] := pendingWords_ne_empty _ _
  have hw : pendingWords [] (str.data.dropWhile isLeading) = textWords str := rfl
  rw [hw]
  have hs : (true && !(str.data.takeWhile isLeading).any (fun c => c == '-'))
      = textPositive str := by
    simp [textPositive]
  rw [hs]
  cases hws : textWords str with
  | nil =>
    simp only [feedWords]
    rfl
  | cons n args =>
    rw [hws] at hne
    rw [feedWords_first d _ action n args hne]
    by_cases hall : args.all (fun a => (findInst (instances ++ d.constants) a).isSome) = true
    · simp only [hall, if_true]
    · simp only [hall]
      rfl

theorem filterMap_length_of_all {α β : Type} (f : α → Option β) :
    ∀ (l : List α), l.all (fun a => (f a).isSome) = true → (l.filterMap f).length = l.length := by
  intro l
  induction l with
  | nil => intro _; rfl
  | cons a l ih =>
    intro h
    rw [List.all_cons, Bool.and_eq_true] at h
    obtain ⟨b, hb⟩ := Option.isSome_iff_exists.mp h.1
    rw [List.filterMap_cons_some hb, List.length_cons, List.length_cons, ih h.2]

theorem lookupPred_unknown (d : Domain) (action : Bool) (n : String)
    (h : d.unknownPred action n) : d.lookupPred action n = Predicate.default := by
  unfold Domain.unknownPred at h
  unfold Domain.lookupPred
  cases action with
  | false =>
    simp only [Bool.false_eq_true, if_false] at h ⊢
    unfold Domain.getPredByName
    have : d.predicates.find? (fun pred => pred.name == n) = none := by
      rw [List.find?_eq_none]
      intro x hx
      simpa using h x hx
    rw [this]
  | true =>
    simp only [if_true] at h ⊢
    obtain ⟨h1, h2, h3, h4⟩ := h
    unfold Domain.getActionPredByName
    rw [if_neg (by simpa using h1), if_neg (by simpa using h2), if_neg (by simpa using h3)]
    have : d.actions.find? (fun act => act.actionLiteral.pred.name == n) = none := by
      rw [List.find?_eq_none]
      intro x hx
      simpa using h4 x hx
    rw [this]

theorem findInst_none (allInsts : List Term) (a : String)
    (h : ∀ t ∈ allInsts, t.name ≠ a) : findInst allInsts a = none := by
  unfold findInst
  rw [List.find?_eq_none]
  intro x hx
  simpa using h x hx

/-- Claim C33, on the words of the text (C++ `Domain::parseLiteral`): when an argument of the
text is the name of no instance and of no constant, and when the number of arguments is
not the arity of the predicate found, `parseLiteral` returns the empty literal; when the
first word is the name of no predicate of the domain, the result has the default predicate
and no parameter, and it is the empty literal as soon as the text has an argument or no
leading dash. The claim fails for a text with an unknown predicate, no argument and a
leading dash: for the domain of the test `DomainOps`, which has no predicate `p8`, the text
`-p8()` is read as the negative literal of the default predicate, which is not the empty
literal. -/
theorem C33_parseLiteral_failures :
    (∀ (d : Domain) (instances : List Term) (str : String) (action : Bool) (n : String)
        (args : List String), textWords str = n :: args →
      (d.unknownPred action n →
        (d.parseLiteral str instances action).pred = Predicate.default ∧
        (d.parseLiteral str instances action).parameters = [] ∧
        (args ≠ [] ∨ textPositive str = true →
          d.parseLiteral str instances action = Literal.default)) ∧
      ((∃ a ∈ args, ∀ t ∈ instances ++ d.constants, t.name ≠ a) →
        d.parseLiteral str instances action = Literal.default) ∧
      (args.length ≠ (d.lookupPred action n).arity →
        d.parseLiteral str instances action = Literal.default)) ∧
    (domainOps.unknownPred false "p8" ∧ textWords "-p8()" = ["p8"] ∧
      domainOps.parseLiteral "-p8()" instancesOps false = ⟨Predicate.default, [], false⟩ ∧
      (domainOps.parseLiteral "-p8()" instancesOps false).eq Literal.default = false) := by
  refine ⟨?_, ?_, ?_, ?_, ?_⟩
  · intro d instances str action n args hws
    have hpl := parseLiteral_words d str instances action
    rw [hws] at hpl
    simp only at hpl
    by_cases hall : args.all (fun a => (findInst (instances ++ d.constants) a).isSome) = true
    · have hlen := filterMap_length_of_all (findInst (instances ++ d.constants)) args hall
      rw [if_pos hall, hlen] at hpl
      refine ⟨?_, ?_, ?_⟩
      · intro hunk
        have hp := lookupPred_unknown d action n hunk
        rw [hp] at hpl
        cases args with
        | nil =>
          have hpl2 : d.parseLiteral str instances action
              = ⟨Predicate.default, [], textPositive str⟩ := by
            rw [hpl]
            rfl
          rw [hpl2]
          refine ⟨rfl, rfl, ?_⟩
          rintro (h | h)
          · exact absurd rfl h
          · rw [h]
            rfl
        | cons a args =>
          have hpl2 : d.parseLiteral str instances action = Literal.default := by
            rw [hpl]
            rfl
          rw [hpl2]
          exact ⟨rfl, rfl, fun _ => rfl⟩
      · rintro ⟨a, ha, hna⟩
        rw [List.all_eq_true] at hall
        have := hall a ha
        rw [findInst_none _ _ hna] at this
        cases this
      · intro harity
        rw [hpl, if_pos (by simpa using harity)]
    · rw [if_neg hall] at hpl
      rw [hpl]
      exact ⟨fun _ => ⟨rfl, rfl, fun _ => rfl⟩, fun _ => rfl, fun _ => rfl⟩
  · unfold Domain.unknownPred
    decide
  · decide
  · decide
  · decide

/-- Witness of C33 on the domain of the test `DomainOps`: the text `p8(d, e)` of the test
has an unknown predicate, the text `p2(d, f)` of the test an unknown object, and the text
`p2(d)` has one argument for a predicate of arity two; each is read as the empty literal. -/
theorem C33_parseLiteral_failures_witness :
    domainOps.parseLiteral "p8(d, e)" instancesOps false = Literal.default ∧
    domainOps.parseLiteral "p2(d, f)" instancesOps false = Literal.default ∧
    domainOps.parseLiteral "p2(d)" instancesOps false = Literal.default :=
  ⟨((C33_parseLiteral_failures.1 domainOps instancesOps "p8(d, e)" false "p8" ["d", "e"]
      (by decide)).1 (by unfold Domain.unknownPred; decide)).2.2 (Or.inl (by decide)),
    (C33_parseLiteral_failures.1 domainOps instancesOps "p2(d, f)" false "p2" ["d", "f"]
      (by decide)).2.1 ⟨"f", by decide, by decide⟩,
    (C33_parseLiteral_failures.1 domainOps instancesOps "p2(d)" false "p2" ["d"]
      (by decide)).2.2 (by decide)⟩

/-! ## The example rule of `updateKnowledge` is always filtered -/

/-- For a refused action that no active rule prematches, `updateKnowledge` stores the
example of the trace at the end of the arena and changes nothing else. -/
theorem updateKnowledge_refused_unmatched (a : Agent) (cfg : Config) (deletePred : Predicate)
    (depth : Nat) (trace : Trace) (rnd : List Nat)
    (hptr : ∀ i ∈ a.rules, i < a.heap.length)
    (hdel : trace.instAct.parameters.any
      (fun param => inList Literal.eq trace.state ⟨deletePred, [param], true⟩) = false)
    (hauth : trace.authorized = false)
    (hnone : ∀ i ∈ a.rules, (ruleAt a.heap i).prematchingSubs (ActionRule.ofTrace trace true)
      Substitution.empty = []) :
    a.updateKnowledge cfg deletePred depth trace rnd =
      some (false, a.alloc (ActionRule.ofTrace trace true), rnd) := by
  unfold Agent.updateKnowledge
  rw [if_neg (by rw [hdel]; simp)]
  have hrule : ∀ i ∈ a.rules, ruleAt (a.alloc (ActionRule.ofTrace trace true)).heap i =
      ruleAt a.heap i := fun i hi => ruleAt_append_left _ _ i (hptr i hi)
  have hx : ruleAt (a.alloc (ActionRule.ofTrace trace true)).heap a.heap.length =
      ActionRule.ofTrace trace true := ruleAt_append_length a.heap [] _
  have hpost : trace.authorized = true → ∀ i ∈ (a.alloc (ActionRule.ofTrace trace true)).rules,
      ∀ s ∈ (ruleAt (a.alloc (ActionRule.ofTrace trace true)).heap i).prematchingSubs
        (ActionRule.ofTrace trace true) Substitution.empty,
      (ruleAt (a.alloc (ActionRule.ofTrace trace true)).heap i).postmatches
        (ActionRule.ofTrace trace true) s = true := by
    intro h
    rw [hauth] at h
    cases h
  have hclass : (a.alloc (ActionRule.ofTrace trace true)).classify
      (ruleAt (a.alloc (ActionRule.ofTrace trace true)).heap a.heap.length)
      trace.authorized = ([], []) := by
    unfold Agent.classify
    rw [hx, classify_fold_unchanged _ _ _ _ hpost]
    simp only [List.nil_append]
    congr 1
    rw [List.filter_eq_nil_iff]
    intro i hi
    have hi1 : i ∈ a.rules := hi
    rw [hrule i hi1]
    simp [hnone i hi1]
  dsimp only
  rw [hclass]
  dsimp only
  have hgen : ∀ ag : Agent, Agent.generalizeAll cfg depth [] (ag, rnd) = some (ag, rnd) :=
    fun _ => rfl
  simp only [hauth, Bool.and_false, Bool.false_eq_true, if_false, List.length_nil,
    gt_iff_lt, lt_self_iff_false, decide_False, Bool.false_and, hgen, Option.map_some']

/-- C35 (counterexample): the trace `traceRefused` is not authorized, yet the example that
`updateKnowledge` builds from it and stores in the arena has lost the fact `p1(b)` of the
state of the trace, which is not linked to the action `act(a)`. -/
theorem C35_counterexample :
    traceRefused.authorized = false ∧
    agentEmpty.updateKnowledge ⟨1, false, false⟩ ⟨"delete", 1⟩ 2 traceRefused [] =
      some (false, ⟨[ActionRule.ofTrace traceRefused true], [], [], []⟩, []) ∧
    (ActionRule.ofTrace traceRefused true).preconditions = [mkLit "p1" [mkConst "a"]] ∧
    mkLit "p1" [mkConst "b"] ∈ traceRefused.state ∧
    mkLit "p1" [mkConst "b"] ∉ (ActionRule.ofTrace traceRefused true).preconditions := by
  decide

/-- C35 (amended): the example rule that `updateKnowledge` builds from a trace is filtered
whether the trace is authorized or not. For every trace whose states are sets of facts,
those of the first state being positive, and in which no variable has the name `ANY`, the
preconditions of the example are the facts of the state of the trace all of whose
parameters are connected, in the graph of co-occurrence of these facts, to a parameter of
the action or of an effect; and when the trace is not authorized, no parameter of the
action is marked deleted and no active rule prematches the example, `updateKnowledge`
stores this very example at the end of the arena. -/
theorem C35_example_always_filtered (trace : Trace)
    (hs : trace.state.Pairwise (fun a b => Literal.lt a b = true))
    (hn : trace.newState.Pairwise (fun a b => Literal.lt a b = true))
    (hpos : ∀ f ∈ trace.state, f.positive = true)
    (hany : ∀ t ∈ (trace.state ++ trace.newState).flatMap (fun l => l.parameters) ++
      trace.instAct.parameters, t.isVariable = true → t.name ≠ "ANY") :
    (∀ f, f ∈ (ActionRule.ofTrace trace true).preconditions ↔
      f ∈ trace.state ∧ ∀ p ∈ f.parameters,
        LinkedIn trace.state (ActionRule.ofTrace trace true).effectTerms p) ∧
    (trace.authorized = false →
      ∀ (a : Agent) (cfg : Config) (deletePred : Predicate) (depth : Nat) (rnd : List Nat),
        (∀ i ∈ a.rules, i < a.heap.length) →
        trace.instAct.parameters.any
          (fun param => inList Literal.eq trace.state ⟨deletePred, [param], true⟩) = false →
        (∀ i ∈ a.rules, (ruleAt a.heap i).prematchingSubs (ActionRule.ofTrace trace true)
          Substitution.empty = []) →
        a.updateKnowledge cfg deletePred depth trace rnd =
          some (false, a.alloc (ActionRule.ofTrace trace true), rnd)) := by
  refine ⟨?_, fun hauth a cfg deletePred depth rnd hptr hdel hnone =>
    updateKnowledge_refused_unmatched a cfg deletePred depth trace rnd hptr hdel hauth hnone⟩
  obtain ⟨hadd, hdel⟩ := stateDifference_sorted trace.state trace.newState hs hn hpos
  have hpre : toSet Literal.lt trace.state = trace.state :=
    toSet_of_sorted Literal.lt literal_lt_asymm trace.state hs
  have hrule : (ActionRule.ofTrace trace true).preconditions =
      filterPreconditions trace.state trace.instAct
        (stateDifference trace.state trace.newState).1
        (stateDifference trace.state trace.newState).2 ∧
      (ActionRule.ofTrace trace true).effectTerms = trace.instAct.parameters ++
        ((stateDifference trace.state trace.newState).2.flatMap (fun l => l.parameters) ++
          (stateDifference trace.state trace.newState).1.flatMap (fun l => l.parameters)) := by
    unfold ActionRule.effectTerms ActionRule.ofTrace ActionRule.make
    dsimp only
    rw [hpre]
    exact ⟨rfl, rfl⟩
  have hany2 : ∀ t ∈ trace.state.flatMap (fun l => l.parameters) ++
      (trace.instAct.parameters ++
        ((stateDifference trace.state trace.newState).2.flatMap (fun l => l.parameters) ++
          (stateDifference trace.state trace.newState).1.flatMap (fun l => l.parameters))),
      t.isVariable = true → t.name ≠ "ANY" := by
    intro t ht
    apply hany t
    rw [List.flatMap_append]
    simp only [List.mem_append, List.mem_flatMap] at ht ⊢
    rcases ht with ⟨l, hl, ht⟩ | ht | ⟨l, hl, ht⟩ | ⟨l, hl, ht⟩
    · exact Or.inl (Or.inl ⟨l, hl, ht⟩)
    · exact Or.inr ht
    · rw [hdel, List.mem_map] at hl
      obtain ⟨g, hg, hgl⟩ := hl
      refine Or.inl (Or.inl ⟨g, (List.mem_filter.mp hg).1, ?_⟩)
      rw [← hgl] at ht
      exact ht
    · rw [hadd] at hl
      exact Or.inl (Or.inr ⟨l, (List.mem_filter.mp hl).1, ht⟩)
  intro f
  rw [hrule.1, hrule.2]
  exact mem_filterPreconditions trace.state trace.instAct _ _ hs hany2 f

/-- C35 (witness): the trace `traceRefused`, which is not authorized, and the agent without
rules; the example stored in the arena has the single precondition `p1(a)`. -/
theorem C35_example_always_filtered_witness :
    traceRefused.state.Pairwise (fun a b => Literal.lt a b = true) ∧
    traceRefused.newState.Pairwise (fun a b => Literal.lt a b = true) ∧
    (∀ f ∈ traceRefused.state, f.positive = true) ∧
    traceRefused.authorized = false ∧
    (∀ f, f ∈ (ActionRule.ofTrace traceRefused true).preconditions ↔
      f ∈ traceRefused.state ∧ ∀ p ∈ f.parameters,
        LinkedIn traceRefused.state (ActionRule.ofTrace traceRefused true).effectTerms p) ∧
    agentEmpty.updateKnowledge ⟨1, false, false⟩ ⟨"delete", 1⟩ 2 traceRefused [] =
      some (false, agentEmpty.alloc (ActionRule.ofTrace traceRefused true), []) :=
  ⟨by decide, by decide, by decide, rfl,
    (C35_example_always_filtered traceRefused (by decide) (by decide) (by decide)
      (by decide)).1,
    (C35_example_always_filtered traceRefused (by decide) (by decide) (by decide)
      (by decide)).2 rfl agentEmpty ⟨1, false, false⟩ ⟨"delete", 1⟩ 2 [] (by decide)
      (by decide) (by decide)⟩

/-! ## Printed facts are read back (`Literal::toString`, `Domain::parseLiteral`) -/

theorem toString_fold : ∀ (ps : List Term) (acc : String),
    (ps.foldl (fun (st : String × Bool) pit =>
      ((if !st.2 then st.1 ++ ", " else st.1) ++ pit.name, false)) (acc, false)).1.data =
      acc.data ++ argChars ps
  | [], acc => by simp [argChars]
  | p :: ps, acc => by
    rw [List.foldl_cons]
    simp only [Bool.not_false, if_true]
    rw [toString_fold ps]
    simp only [String.data_append, argChars, List.flatMap_cons, List.append_assoc]
    rfl

theorem toString_data (l : Literal) :
    l.toString.data = (if l.positive then [] else ['-']) ++ (l.pred.name.data ++ '(' ::
      ((match l.parameters with
        | [] => []
        | p :: ps => p.name.data ++ argChars ps) ++ [')'])) := by
  unfold Literal.toString
  have hsign : ((if l.positive then "" else "-" : String)).data =
      (if l.positive then [] else ['-']) := by
    cases l.positive <;> rfl
  cases hps : l.parameters with
  | nil =>
    simp only [List.foldl_nil, String.data_append, hsign, List.append_assoc]
    rfl
  | cons p ps =>
    rw [List.foldl_cons]
    simp only [Bool.not_true, Bool.false_eq_true, if_false]
    simp only [String.data_append, toString_fold, hsign, List.append_assoc]
    rfl

theorem cleanName_spec (n : String) (h : cleanName n = true) :
    n.data ≠ [] ∧ ∀ c ∈ n.data, isSeparator c = false := by
  unfold cleanName at h
  rw [Bool.and_eq_true, string_ne_empty_iff, List.all_eq_true] at h
  exact ⟨h.1, fun c hc => by simpa using h.2 c hc⟩

theorem pendingWords_word : ∀ (w : List Char), (∀ c ∈ w, isSeparator c = false) →
    ∀ (v rest : List Char), pendingWords v (w ++ rest) = pendingWords (v ++ w) rest
  | [], _, v, rest => by simp
  | c :: w, h, v, rest => by
    rw [List.cons_append, pendingWords_char _ _ _ (h c (List.mem_cons_self _ _)),
      pendingWords_word w (fun x hx => h x (List.mem_cons_of_mem _ hx))]
    simp

theorem pendingWords_flush (v : List Char) (hv : v ≠ []) (c : Char) (rest : List Char)
    (hc : isSeparator c = true) :
    pendingWords v (c :: rest) = String.mk v :: pendingWords [] (c :: rest) := by
  rw [pendingWords_sep _ _ _ hc, if_neg hv, pendingWords_sep _ _ _ hc, if_pos rfl]

theorem argChars_head (ps : List Term) :
    ∃ c rest, argChars ps ++ [')'] = c :: rest ∧ isSeparator c = true := by
  cases ps with
  | nil => exact ⟨')', [], rfl, by decide⟩
  | cons p ps => exact ⟨',', _, rfl, by decide⟩

theorem pendingWords_args : ∀ (ps : List Term), (∀ p ∈ ps, cleanName p.name = true) →
    pendingWords [] (argChars ps ++ [')']) = ps.map (fun p => p.name)
  | [], _ => by
    rw [show argChars [] ++ [')'] = [')'] from rfl, pendingWords_sep _ _ _ (by decide),
      if_pos rfl, pendingWords_nil, if_pos rfl]
    rfl
  | p :: ps, h => by
    obtain ⟨hne, hclean⟩ := cleanName_spec p.name (h p (List.mem_cons_self _ _))
    obtain ⟨c, rest, hcr, hc⟩ := argChars_head ps
    have h1 : argChars (p :: ps) ++ [')'] =
        ',' :: ' ' :: (p.name.data ++ (argChars ps ++ [')'])) := by
      simp [argChars, List.flatMap_cons]
    rw [h1, pendingWords_sep _ _ _ (by decide), if_pos rfl, pendingWords_sep _ _ _ (by decide),
      if_pos rfl, pendingWords_word _ hclean, List.nil_append, hcr,
      pendingWords_flush _ hne c rest hc, ← hcr,
      pendingWords_args ps (fun x hx => h x (List.mem_cons_of_mem _ hx)), string_mk_data]
    rfl

/-- The words and the sign of the printed form of a positive literal with clean names. -/
theorem textWords_toString (l : Literal) (hpos : l.positive = true)
    (hpred : cleanName l.pred.name = true) (hdash : l.pred.name.data.head? ≠ some '-')
    (hparams : ∀ p ∈ l.parameters, cleanName p.name = true) :
    textWords l.toString = l.pred.name :: l.parameters.map (fun p => p.name) ∧
    textPositive l.toString = true := by
  obtain ⟨hne, hclean⟩ := cleanName_spec l.pred.name hpred
  have hdata := toString_data l
  rw [hpos, if_pos rfl, List.nil_append] at hdata
  obtain ⟨c0, w0, hw0⟩ := List.exists_cons_of_ne_nil hne
  have hlead : ¬ (isLeading c0 = true) := by
    have h1 : isSeparator c0 = false := hclean c0 (by rw [hw0]; exact List.mem_cons_self _ _)
    have h2 : c0 ≠ '-' := by
      intro h
      apply hdash
      rw [hw0, h]
      rfl
    simp [isLeading, h1, h2]
  unfold textWords textPositive
  rw [hdata, hw0, List.cons_append, List.dropWhile_cons_of_neg hlead,
    List.takeWhile_cons_of_neg hlead, ← List.cons_append, ← hw0]
  refine ⟨?_, rfl⟩
  rw [pendingWords_word _ hclean, List.nil_append, pendingWords_sep _ _ _ (by decide),
    if_neg hne, string_mk_data]
  congr 1
  cases hps : l.parameters with
  | nil =>
    simp only [List.nil_append, List.map_nil]
    rw [pendingWords_sep _ _ _ (by decide), if_pos rfl, pendingWords_nil, if_pos rfl]
  | cons p ps =>
    rw [hps] at hparams
    obtain ⟨hpne, hpclean⟩ := cleanName_spec p.name (hparams p (List.mem_cons_self _ _))
    obtain ⟨c, rest, hcr, hc⟩ := argChars_head ps
    simp only [List.append_assoc, List.map_cons]
    rw [pendingWords_word _ hpclean, List.nil_append, hcr, pendingWords_flush _ hpne c rest hc,
      ← hcr, pendingWords_args ps (fun x hx => hparams x (List.mem_cons_of_mem _ hx)),
      string_mk_data]

theorem find_of_distinct_names {α : Type} (name : α → String) : ∀ (l : List α) (x : α),
    l.Pairwise (fun p q => name p ≠ name q) → x ∈ l →
    l.find? (fun it => name it == name x) = some x
  | [], _, _, h => by cases h
  | y :: ys, x, hp, h => by
    rw [List.pairwise_cons] at hp
    by_cases hxy : x = y
    · subst hxy
      simp
    · have hx : x ∈ ys := by
        rcases List.mem_cons.mp h with h | h
        · exact absurd h hxy
        · exact h
      have hn : name y ≠ name x := hp.1 x hx
      rw [List.find?_cons_of_neg _ (by simpa using hn)]
      exact find_of_distinct_names name ys x hp.2 hx

theorem filterMap_findInst (allInsts : List Term)
    (hnames : allInsts.Pairwise (fun p q => p.name ≠ q.name)) : ∀ (ps : List Term),
    (∀ p ∈ ps, p ∈ allInsts) →
    (ps.map (fun p => p.name)).all (fun a => (findInst allInsts a).isSome) = true ∧
    (ps.map (fun p => p.name)).filterMap (findInst allInsts) = ps
  | [], _ => ⟨rfl, rfl⟩
  | p :: ps, h => by
    have hp : findInst allInsts p.name = some p :=
      find_of_distinct_names (fun (t : Term) => t.name) allInsts p hnames
        (h p (List.mem_cons_self _ _))
    obtain ⟨h1, h2⟩ := filterMap_findInst allInsts hnames ps
      (fun x hx => h x (List.mem_cons_of_mem _ hx))
    constructor
    · rw [List.map_cons, List.all_cons, hp, h1]
      rfl
    · rw [List.map_cons, List.filterMap_cons_some hp, h2]

/-- A fact of a state of the domain, printed by `Literal::toString`, is read back by
`parseLiteral` as the same fact. -/
theorem parseLiteral_toString (d : Domain) (instances : List Term) (state : List Literal)
    (hS : StateOver d instances state) (f : Literal) (hf : f ∈ state) :
    d.parseLiteral f.toString instances false = f := by
  have hparams : ∀ p ∈ f.parameters, cleanName p.name = true :=
    fun p hp => hS.cleanInsts p (hS.params f hf p hp)
  obtain ⟨hw, hsign⟩ := textWords_toString f (hS.positive f hf)
    (hS.cleanPreds f.pred (hS.preds f hf)).1 (hS.cleanPreds f.pred (hS.preds f hf)).2 hparams
  obtain ⟨hall, hfm⟩ := filterMap_findInst (instances ++ d.constants) hS.instNames
    f.parameters (hS.params f hf)
  have hpred : d.lookupPred false f.pred.name = f.pred := by
    unfold Domain.lookupPred Domain.getPredByName
    simp only [Bool.false_eq_true, if_false]
    rw [find_of_distinct_names (fun (p : Predicate) => p.name) d.predicates f.pred
      hS.predNames (hS.preds f hf)]
  rw [parseLiteral_words, hw]
  simp only
  rw [if_pos hall, hfm, hpred, hsign, if_neg (by simp [hS.arity f hf]), ← hS.positive f hf]


/-! ## Facts removed by `remove-fact` and restored -/

theorem StrictWeak.setErase_filter {α : Type} {lt : α → α → Bool} {W : α → Prop}
    (h : StrictWeak lt W) (x : α) (hx : W x) : ∀ (l : List α), (∀ y ∈ l, W y) →
    l.Pairwise (fun a b => lt a b = true) →
    setErase lt x l = l.filter (fun w => !(!lt x w && !lt w x))
  | [], _, _ => rfl
  | y :: ys, hw, hp => by
    have hy := hw y (List.mem_cons_self _ _)
    have hws : ∀ z ∈ ys, W z := fun z hz => hw z (List.mem_cons_of_mem _ hz)
    rw [List.pairwise_cons] at hp
    by_cases hxy : (!lt x y && !lt y x) = true
    · have h1 : lt x y = false := by
        revert hxy
        cases lt x y <;> simp
      have h2 : lt y x = false := by
        revert hxy
        cases lt y x <;> simp
      rw [setErase, if_pos hxy, List.filter_cons_of_neg (by simp [hxy])]
      symm
      rw [List.filter_eq_self]
      intro z hz
      have hyz : lt y z = true := hp.1 z hz
      have hxz : lt x z = true := by
        rw [h.left x y z hx hy (hws z hz) h1 h2]
        exact hyz
      simp [hxz]
    · have hb : (!lt x y && !lt y x) = false := Bool.eq_false_iff.mpr hxy
      rw [setErase, if_neg hxy, List.filter_cons_of_pos (by rw [hb]; rfl),
        h.setErase_filter x hx ys hws hp.2]

theorem setErase_of_state (S : List Literal)
    (hSW : StrictWeak Literal.lt (fun w => w ∈ S))
    (hs : S.Pairwise (fun a b => Literal.lt a b = true)) (f : Literal) (hf : f ∈ S)
    (l : List Literal) (hl : l.Sublist S) :
    setErase Literal.lt f l = l.filter (fun w => decide (w ≠ f)) := by
  rw [hSW.setErase_filter f hf l (fun y hy => hl.subset hy) (hs.sublist hl)]
  apply List.filter_congr
  intro w hw
  have hwS : w ∈ S := hl.subset hw
  by_cases hwf : w = f
  · subst hwf
    simp [hSW.irrefl w hwS]
  · rcases sorted_trichotomy Literal.lt S hs w hwS f hf with h | h | h
    · exact absurd h hwf
    · simp [h, hwf]
    · simp [h, hwf]

theorem stateContains_of_state (S : List Literal)
    (hSW : StrictWeak Literal.lt (fun w => w ∈ S))
    (hs : S.Pairwise (fun a b => Literal.lt a b = true)) (f : Literal) (hf : f ∈ S)
    (l : List Literal) (hl : l.Sublist S) :
    stateContains l f = true ↔ f ∈ l := by
  unfold stateContains
  rw [setContains_iff]
  constructor
  · rintro ⟨y, hy, h1, h2⟩
    rcases sorted_trichotomy Literal.lt S hs f hf y (hl.subset hy) with h | h | h
    · rw [h]
      exact hy
    · rw [h] at h1
      cases h1
    · rw [h] at h2
      cases h2
  · intro h
    exact ⟨f, h, hSW.irrefl f hf, hSW.irrefl f hf⟩

theorem parseLiteral_setRemoved (d : Domain) (removed : List Literal) (str : String)
    (instances : List Term) :
    (d.setRemoved removed).parseLiteral str instances false =
      d.parseLiteral str instances false := by
  rw [parseLiteral_words, parseLiteral_words]
  rfl

theorem tryAction_removeFact (d : Domain) (hmeta : MetaActions d) (instances : List Term)
    (state removed : List Literal) (f : Literal) (onlyAdd : Bool)
    (hparse : d.parseLiteral f.toString instances false = f) :
    (d.setRemoved removed).tryAction state instances (removeFactLit d f) onlyAdd =
      ⟨removeFact state f, true,
        if stateContains state f then setInsert Literal.lt f removed else removed⟩ := by
  have hp := parseLiteral_setRemoved d removed f.toString instances
  rw [hparse] at hp
  unfold Domain.tryAction tryAction removeFactLit
  simp only [Predicate.eq, Domain.setRemoved, hmeta.reset, hmeta.delete, hmeta.removeFact,
    mkConst] at hp ⊢
  rw [if_neg (by decide), if_neg (by decide), if_pos (by decide)]
  simp only [hp]

theorem tryAction_restore (d : Domain) (hmeta : MetaActions d) (instances : List Term)
    (state removed : List Literal) (onlyAdd : Bool) :
    (d.setRemoved removed).tryAction state instances
        ⟨d.removeFactAction.actionLiteral.pred, [], true⟩ onlyAdd =
      ⟨addFacts state removed, true, []⟩ := by
  unfold Domain.tryAction tryAction
  simp only [Predicate.eq, Domain.setRemoved, hmeta.reset, hmeta.delete, hmeta.removeFact]
  rw [if_neg (by decide), if_neg (by decide), if_pos (by decide)]

/-- The state and the record of removed facts after a run of `remove-fact` over facts of
the state `S`, from the state `S` without the facts `done` and a record that holds the
facts `done`. -/
theorem removeFactRun_spec (d : Domain) (hmeta : MetaActions d) (instances : List Term)
    (S : List Literal) (hS : StateOver d instances S)
    (hSW : StrictWeak Literal.lt (fun w => w ∈ S)) (onlyAdd : Bool) :
    ∀ (fs done removed : List Literal), (∀ f ∈ fs, f ∈ S) →
      removed.Pairwise (fun a b => Literal.lt a b = true) →
      (∀ z, z ∈ removed ↔ z ∈ done ∧ z ∈ S) →
      ∃ removed1, removeFactRun d instances onlyAdd fs
          (S.filter (fun w => decide (w ∉ done))) removed =
          some (S.filter (fun w => decide (w ∉ done ++ fs)), removed1) ∧
        removed1.Pairwise (fun a b => Literal.lt a b = true) ∧
        ∀ z, z ∈ removed1 ↔ z ∈ done ++ fs ∧ z ∈ S
  | [], done, removed, _, hp, hr => by
    refine ⟨removed, ?_, hp, ?_⟩
    · rw [removeFactRun, List.append_nil]
    · rw [List.append_nil]
      exact hr
  | f :: fs, done, removed, hfs, hp, hr => by
    have hf : f ∈ S := hfs f (List.mem_cons_self _ _)
    have hstep := tryAction_removeFact d hmeta instances
      (S.filter (fun w => decide (w ∉ done))) removed f onlyAdd
      (parseLiteral_toString d instances S hS f hf)
    have hsub : (S.filter (fun w => decide (w ∉ done))).Sublist S := List.filter_sublist _
    have hstate : removeFact (S.filter (fun w => decide (w ∉ done))) f =
        S.filter (fun w => decide (w ∉ done ++ [f])) := by
      unfold removeFact
      rw [Literal.abs_of_positive f (hS.positive f hf),
        setErase_of_state S hSW hS.sorted f hf _ hsub, List.filter_filter]
      apply List.filter_congr
      intro w _
      simp only [List.mem_append, List.mem_singleton, not_or, Bool.decide_and,
        Bool.and_comm]
    have hrW : ∀ y ∈ removed, y ∈ S := fun y hy => ((hr y).mp hy).2
    have hcont : stateContains (S.filter (fun w => decide (w ∉ done))) f = true ↔
        f ∉ done := by
      rw [stateContains_of_state S hSW hS.sorted f hf _ hsub, List.mem_filter]
      simp [hf]
    obtain ⟨removed1, h1, h2, h3⟩ := removeFactRun_spec d hmeta instances S hS hSW onlyAdd fs
      (done ++ [f])
      (if stateContains (S.filter (fun w => decide (w ∉ done))) f then
        setInsert Literal.lt f removed else removed)
      (fun x hx => hfs x (List.mem_cons_of_mem _ hx))
      (by
        split
        · exact hSW.insert_keeps_sorted f hf removed hrW hp
        · exact hp)
      (by
        intro z
        by_cases hc : stateContains (S.filter (fun w => decide (w ∉ done))) f = true
        · rw [if_pos hc]
          have hnd : f ∉ done := hcont.mp hc
          have hnr : setContains Literal.lt f removed = false := by
            cases hcr : setContains Literal.lt f removed with
            | false => rfl
            | true =>
              obtain ⟨y, hy, hy1, hy2⟩ := (setContains_iff _ _ _).mp hcr
              rcases sorted_trichotomy Literal.lt S hS.sorted f hf y (hrW y hy) with h | h | h
              · rw [← h] at hy
                exact absurd ((hr f).mp hy).1 hnd
              · rw [h] at hy1
                cases hy1
              · rw [h] at hy2
                cases hy2
          rw [mem_setInsert_iff Literal.lt f z removed hnr, hr z, List.mem_append,
            List.mem_singleton]
          constructor
          · rintro (h | h)
            · exact ⟨Or.inr h, h ▸ hf⟩
            · exact ⟨Or.inl h.1, h.2⟩
          · rintro ⟨h | h, hz⟩
            · exact Or.inr ⟨h, hz⟩
            · exact Or.inl h
        · rw [if_neg hc, hr z, List.mem_append, List.mem_singleton]
          have hd : f ∈ done := by
            by_contra hnd
            exact hc (hcont.mpr hnd)
          constructor
          · rintro ⟨h, hz⟩
            exact ⟨Or.inl h, hz⟩
          · rintro ⟨h | h, hz⟩
            · exact ⟨h, hz⟩
            · exact ⟨h ▸ hd, hz⟩)
    refine ⟨removed1, ?_, h2, ?_⟩
    · rw [removeFactRun, hstep]
      simp only [if_true]
      rw [hstate, h1, List.append_assoc]
      rfl
    · intro z
      rw [h3 z, List.append_assoc]
      rfl


theorem eq_of_distinct_names {α : Type} (name : α → String) (l : List α)
    (hp : l.Pairwise (fun p q => name p ≠ name q)) (x y : α) (hx : x ∈ l) (hy : y ∈ l)
    (h : name x = name y) : x = y := by
  have h1 := find_of_distinct_names name l x hp hx
  have h2 := find_of_distinct_names name l y hp hy
  rw [h, h2] at h1
  exact (Option.some.inj h1).symm

/-- On a state of a domain, `Literal::operator<` is a strict weak order. -/
theorem stateOver_strictWeak (d : Domain) (instances : List Term) (S : List Literal)
    (hS : StateOver d instances S) : StrictWeak Literal.lt (fun w => w ∈ S) := by
  apply literal_strictWeak S
  · intro f hf
    refine ⟨hS.positive f hf, ?_, hS.arity f hf⟩
    unfold Literal.grounded
    rw [List.all_eq_true]
    intro p hp
    rw [hS.ground p (hS.params f hf p hp)]
    rfl
  · intro f hf g hg hn
    rw [eq_of_distinct_names (fun (p : Predicate) => p.name) d.predicates hS.predNames
      f.pred g.pred (hS.preds f hf) (hS.preds g hg) hn]

/-- C32: in a domain whose meta actions have the names given by the constructor, for
every state `S` of the domain and of the instances (a set of positive facts over the
predicates, instances and constants, whose names are distinct, hold no separator and, for
the predicates, do not start with a dash) and every sequence `fs` of facts of `S`, the
calls of `tryAction` with `remove-fact(f)`, the parameter having the printed form of `f` as
its name, for the facts of `fs` one after the other, from the state `S` and an empty record
of removed facts, all succeed and yield `S` without the facts of `fs`; the call of
`tryAction` with `remove-fact` without parameter that follows succeeds, returns a state
equal to `S` by `State::operator==` and leaves the record empty. -/
theorem C32_removeFact_round_trip (d : Domain) (instances : List Term) (S fs : List Literal)
    (onlyAdd : Bool) (hmeta : MetaActions d) (hS : StateOver d instances S)
    (hfs : ∀ f ∈ fs, f ∈ S) :
    ∃ removed, removeFactRun d instances onlyAdd fs S [] =
        some (S.filter (fun w => decide (w ∉ fs)), removed) ∧
      ((d.setRemoved removed).tryAction (S.filter (fun w => decide (w ∉ fs))) instances
        ⟨d.removeFactAction.actionLiteral.pred, [], true⟩ onlyAdd).there = true ∧
      stateEq ((d.setRemoved removed).tryAction (S.filter (fun w => decide (w ∉ fs)))
        instances ⟨d.removeFactAction.actionLiteral.pred, [], true⟩ onlyAdd).obj S = true ∧
      ((d.setRemoved removed).tryAction (S.filter (fun w => decide (w ∉ fs))) instances
        ⟨d.removeFactAction.actionLiteral.pred, [], true⟩ onlyAdd).removedFacts = [] := by
  have hSW := stateOver_strictWeak d instances S hS
  obtain ⟨removed, h1, _, h3⟩ := removeFactRun_spec d hmeta instances S hS hSW onlyAdd fs []
    [] hfs List.Pairwise.nil (fun z => by simp)
  have h0 : S.filter (fun w => decide (w ∉ ([] : List Literal))) = S := by simp
  rw [h0, List.nil_append] at h1
  rw [List.nil_append] at h3
  refine ⟨removed, h1, ?_⟩
  rw [tryAction_restore d hmeta]
  refine ⟨rfl, ?_, rfl⟩
  dsimp only
  have hsub : (S.filter (fun w => decide (w ∉ fs))).Sublist S := List.filter_sublist _
  have habs : ∀ f ∈ removed, f.abs = f :=
    fun f hf => Literal.abs_of_positive f (hS.positive f ((h3 f).mp hf).2)
  obtain ⟨g1, g2, g3⟩ := hSW.foldl_setInsert Literal.abs removed
    (S.filter (fun w => decide (w ∉ fs)))
    (fun f hf => by rw [habs f hf]; exact ((h3 f).mp hf).2)
    (fun y hy => hsub.subset hy) (hS.sorted.sublist hsub)
  have hself : ∀ z ∈ S, stateContains S z = true := fun z hz =>
    (setContains_iff _ _ _).mpr ⟨z, hz, hSW.irrefl z hz, hSW.irrefl z hz⟩
  have hiff : ∀ z, z ∈ S → (setContains Literal.lt z (addFacts
      (S.filter (fun w => decide (w ∉ fs))) removed) = true ↔
      setContains Literal.lt z S = true) := by
    intro z hz
    constructor
    · intro _
      exact hself z hz
    · intro _
      apply (g3 z hz).mpr
      by_cases hzf : z ∈ fs
      · right
        have hzr : z ∈ removed := (h3 z).mpr ⟨hzf, hz⟩
        exact ⟨z, hzr, by rw [habs z hzr]; exact hSW.irrefl z hz,
          by rw [habs z hzr]; exact hSW.irrefl z hz⟩
      · left
        rw [setContains_iff]
        exact ⟨z, List.mem_filter.mpr ⟨hz, by simpa using hzf⟩, hSW.irrefl z hz,
          hSW.irrefl z hz⟩
  have hlen := hSW.length_eq _ S g1 (fun y hy => hy) g2 hS.sorted hiff
  unfold stateEq
  rw [if_neg (by
    have : (addFacts (S.filter (fun w => decide (w ∉ fs))) removed).length = S.length := hlen
    rw [this]
    simp), List.all_eq_true]
  intro y hy
  exact hself y (g1 y hy)

/-- C32 (witness): the domain, the instances and the state `state1` of the test
`DomainOps`, from which `p2(a, b)` and `p1(a)` are removed and restored. -/
theorem C32_removeFact_round_trip_witness :
    (∀ f ∈ [mkLit "p2" [mkConst "a", mkConst "b"], mkLit "p1" [mkConst "a"]],
      f ∈ stateLegal) ∧
    ∃ removed, removeFactRun domainOps instancesOps false
        [mkLit "p2" [mkConst "a", mkConst "b"], mkLit "p1" [mkConst "a"]] stateLegal [] =
        some (stateLegal.filter (fun w => decide
          (w ∉ [mkLit "p2" [mkConst "a", mkConst "b"], mkLit "p1" [mkConst "a"]])),
          removed) ∧
      ((domainOps.setRemoved removed).tryAction (stateLegal.filter (fun w => decide
          (w ∉ [mkLit "p2" [mkConst "a", mkConst "b"], mkLit "p1" [mkConst "a"]])))
        instancesOps ⟨domainOps.removeFactAction.actionLiteral.pred, [], true⟩
        false).there = true ∧
      stateEq ((domainOps.setRemoved removed).tryAction (stateLegal.filter (fun w => decide
          (w ∉ [mkLit "p2" [mkConst "a", mkConst "b"], mkLit "p1" [mkConst "a"]])))
        instancesOps ⟨domainOps.removeFactAction.actionLiteral.pred, [], true⟩
        false).obj stateLegal = true ∧
      ((domainOps.setRemoved removed).tryAction (stateLegal.filter (fun w => decide
          (w ∉ [mkLit "p2" [mkConst "a", mkConst "b"], mkLit "p1" [mkConst "a"]])))
        instancesOps ⟨domainOps.removeFactAction.actionLiteral.pred, [], true⟩
        false).removedFacts = [] :=
  ⟨by decide,
    C32_removeFact_round_trip domainOps instancesOps stateLegal
      [mkLit "p2" [mkConst "a", mkConst "b"], mkLit "p1" [mkConst "a"]] false
      ⟨rfl, rfl, rfl, rfl⟩
      ⟨by decide, by decide, by decide, by decide, by decide, by decide, by decide,
        by decide, by decide, by decide⟩
      (by decide)⟩

/-! ## The coverage of an example after `generalize` -/

theorem kinded_var (r : ActionRule) (a : Term) (ha : Kinded r a)
    (h : a.isVariable = true) : VarNameOf r a.name := ha.kind.mp h

theorem freshName_var (r : ActionRule) (n : String) (h : FreshName r n) : VarNameOf r n :=
  Or.inr h

/-- A key of `theta1` is named after a variable of the rule, which the vector
`parameters` holds, or after a generated variable recorded in `genVars`. -/
theorem genJ_key1_names (r x : ActionRule) (hr : GenReady r x) (Src : String → Prop)
    (t1 t2 : Substitution) (gv : List Term) (hj : GenJ r x Src t1 t2 gv)
    (e : Term × Term) (he : e ∈ t1.mapping) :
    (∃ p ∈ r.parameters, p.name = e.1.name) ∨ ∃ g ∈ gv, g.name = e.1.name := by
  obtain ⟨hv, hk, _⟩ := hj.key1 e he
  rcases hk.kind.mp hv with ⟨t, ht, _, hn⟩ | hf
  · left
    obtain ⟨p, hp, hpn⟩ := hr.params t ht
    exact ⟨p, hp, hpn.trans hn⟩
  · right
    exact hj.gen e he hf

/-- A failed call of `generalizeLiteralsOI` leaves the reference parameters as they
were. -/
theorem generalizeLiteralsOI_none (r : ActionRule) (l1 l2 : Literal) (t1 t2 : Substitution)
    (gv : List Term) (h : (r.generalizeLiteralsOI l1 l2 gv t1 t2).lit = none) :
    (r.generalizeLiteralsOI l1 l2 gv t1 t2).theta1 = t1 ∧
    (r.generalizeLiteralsOI l1 l2 gv t1 t2).theta2 = t2 ∧
    (r.generalizeLiteralsOI l1 l2 gv t1 t2).genVars = gv := by
  unfold ActionRule.generalizeLiteralsOI at h ⊢
  split
  · exact ⟨rfl, rfl, rfl⟩
  · split
    · exact ⟨rfl, rfl, rfl⟩
    · rename_i st hst
      rw [if_neg (by assumption)] at h
      rw [hst] at h
      cases h

/-! ### Sets of literals -/

theorem mem_allTerms (r : ActionRule) (l : Literal) (t : Term) (hl : l ∈ r.allLits)
    (ht : t ∈ l.parameters) : t ∈ r.allTerms := by
  unfold ActionRule.allTerms litTerms
  rw [List.mem_flatMap]
  exact ⟨l, hl, ht⟩

theorem mem_allLits_action (r : ActionRule) : r.actionLiteral ∈ r.allLits :=
  List.mem_cons_self _ _

theorem mem_allLits_pre (r : ActionRule) (l : Literal) (h : l ∈ r.preconditions) :
    l ∈ r.allLits :=
  List.mem_cons_of_mem _ (List.mem_append_left _ h)

theorem mem_allTerms_preTerms (x : ActionRule) (q : Term) (h : q ∈ x.preTerms) :
    q ∈ x.allTerms := by
  unfold ActionRule.preTerms at h
  rcases List.mem_append.mp h with h | h
  · exact mem_allTerms x _ q (mem_allLits_action x) h
  · obtain ⟨l, hl, hq⟩ := List.mem_flatMap.mp h
    exact mem_allTerms x l q (mem_allLits_pre x l hl) hq

end LearningPlanning
